import Mathlib

/-!
# pugixml 0.3: wildcard matcher and in-place text decoder

A shallow embedding of parts of `src/pugixml.cpp`.

Conventions used throughout:

* a byte is a `Nat` (a valid one is below 256); a `const char*` that is only
  walked forwards over a NUL-terminated string is the list of the bytes from
  the pointer up to, and excluding, the terminating NUL.  So `*p` is the head
  of the list (`0` when the list is empty), and `++p` is the tail;
* a function whose C original would read past the terminating NUL returns
  `none` at that point.
-/

namespace Pugi

/-! ## Bytes and pointers -/

/-- The value of `*p`: the first byte, or the terminating NUL. -/
def rd (p : List Nat) : Nat := p.headD 0

/-- The value of a plain `char` after integer promotion.  Whether plain `char`
is signed is left to the platform: `sc = true` means it is signed. -/
def cint (sc : Bool) (c : Nat) : Int :=
  if sc = true ∧ 128 ≤ c % 256 then ((c % 256 : Nat) : Int) - 256 else ((c % 256 : Nat) : Int)

/-- A well-formed C string body: every byte is a non-NUL value below 256. -/
def CStr (s : List Nat) : Prop := ∀ c ∈ s, 0 < c ∧ c < 256

instance (s : List Nat) : Decidable (CStr s) := by
  unfold CStr; infer_instance

/-! ## The wildcard matcher (`strcmpwild_cset`, `strcmpwild_astr`, `impl::strcmpwild`) -/

/-- The `while (**src != ']' || star == 1)` loop of `strcmpwild_cset` (`star`
is never set to 1 in the source, so it is always 0).  `d` is `**dst`, `prev`
is `*(*src-1)`.  The result is the final `find` and `*src`, which then points
at the closing `']'`.  Reaching the NUL before a `']'` makes the C loop step
past the end of the pattern: `none`. -/
def strcmpwild_cset_loop (sc : Bool) (d : Nat) : Nat → List Nat → Int → Option (Int × List Nat)
  | _, [], _ => none
  | prev, c :: rest, find =>
    if c = 93 then some (find, c :: rest)
    else if find = 0 then
      if c = 45 ∧ cint sc prev < cint sc (rd rest) ∧ rd rest ≠ 93 then
        if cint sc prev ≤ cint sc d ∧ cint sc d ≤ cint sc (rd rest) then
          match rest with
          | [] => none
          | r :: rest2 => strcmpwild_cset_loop sc d r rest2 1
        else strcmpwild_cset_loop sc d c rest find
      else if c = d then strcmpwild_cset_loop sc d c rest 1
      else strcmpwild_cset_loop sc d c rest find
    else strcmpwild_cset_loop sc d c rest find

/-- Model of `strcmpwild_cset(&src, &dst)`; `prev` is the byte before `*src` at
entry.  Returns `(find, *src, *dst)` as they are on return. -/
def strcmpwild_cset (sc : Bool) (prev : Nat) (src dst : List Nat) :
    Option (Int × List Nat × List Nat) :=
  let excl : Int := if rd src = 33 then 1 else 0
  let prev1 := if rd src = 33 then 33 else prev
  let src1 := if rd src = 33 then src.tail else src
  match strcmpwild_cset_loop sc (rd dst) prev1 src1 0 with
  | none => none
  | some (find, src2) =>
    let find2 := if excl = 1 then 1 - find else find
    some (find2, src2, if find2 = 1 then dst.tail else dst)

/-- The first loop of `strcmpwild_astr`:
`while ((**dst != 0 && **src == '?') || **src == '*')`, each `'?'` consuming
one byte of `dst`. -/
def astr_skip : List Nat → List Nat → List Nat × List Nat
  | [], dst => ([], dst)
  | c :: rest, dst =>
    if (rd dst ≠ 0 ∧ c = 63) ∨ c = 42 then
      astr_skip rest (if c = 63 then dst.tail else dst)
    else (c :: rest, dst)

/-- The `do ... while` of `strcmpwild_astr`, entered just after the `++(*dst)`
that opens the body of the `do`; the inner `while` and the outer `do` both
continue by advancing `dst` and scanning on, so they are one recursion on
`dst`.  `self` is the recursive call `impl::strcmpwild`.  Returns `find` and
`*dst` at loop exit: the loop ends with `find` untouched when `self` reports
a match, and with `find = 0` when `dst` is exhausted. -/
def astr_retry (self : List Nat → List Nat → Option Int) (src : List Nat) :
    List Nat → Option (Int × List Nat)
  | [] => some (0, [])
  | d :: rest =>
    if rd src ≠ d ∧ rd src ≠ 91 ∧ d ≠ 0 then astr_retry self src rest
    else if d ≠ 0 then
      match self src (d :: rest) with
      | none => none
      | some r => if r ≠ 0 then astr_retry self src rest else some (1, d :: rest)
    else some (0, d :: rest)

/-- Model of `strcmpwild_astr(&src, &dst)`, called with `**src == '*'`.
Returns `(find, *src, *dst)` as they are on return. -/
def strcmpwild_astr (self : List Nat → List Nat → Option Int) (src dst : List Nat) :
    Option (Int × List Nat × List Nat) :=
  let sd := astr_skip src.tail dst
  let src2 := sd.1.dropWhile (fun c => c == 42)
  let dst1 := sd.2
  if rd dst1 = 0 ∧ rd src2 ≠ 0 then some (0, src2, dst1)
  else if rd dst1 = 0 ∧ rd src2 = 0 then some (1, src2, dst1)
  else
    match self src2 dst1 with
    | none => none
    | some r =>
      if r ≠ 0 then
        match astr_retry self src2 dst1.tail with
        | none => none
        | some (find, dst2) =>
          some (if rd dst2 = 0 ∧ rd src2 = 0 then 1 else find, src2, dst2)
      else some (1, src2, dst1)

/-- The `for` loop of `impl::strcmpwild` together with the code after it.  One
unit of fuel is spent per iteration and per nested call; every iteration and
every nested call works on a strictly shorter pattern. -/
def strcmpwild_loop (sc : Bool) : Nat → List Nat → List Nat → Int → Option Int
  | 0, _, _, _ => none
  | n + 1, src, dst, find =>
    if rd src ≠ 0 ∧ find = 1 ∧ rd dst ≠ 0 then
      if rd src = 63 then strcmpwild_loop sc n src.tail dst.tail find
      else if rd src = 91 then
        match strcmpwild_cset sc 91 src.tail dst with
        | none => none
        | some (f, src1, dst1) => strcmpwild_loop sc n src1.tail dst1 f
      else if rd src = 42 then
        match strcmpwild_astr (fun s d => strcmpwild_loop sc n s d 1) src dst with
        | none => none
        | some (f, src1, dst1) => strcmpwild_loop sc n src1 dst1 f
      else strcmpwild_loop sc n src.tail dst.tail (if rd src = rd dst then 1 else 0)
    else
      let src1 := if find = 1 then src.dropWhile (fun c => c == 42) else src
      some (if find = 1 ∧ rd dst = 0 ∧ rd src1 = 0 then 0 else 1)

/-- Model of `impl::strcmpwild(src, dst)`: `some 0` is a match, `some 1` is no
match. -/
def strcmpwild (sc : Bool) (src dst : List Nat) : Option Int :=
  strcmpwild_loop sc (src.length + 1) src dst 1

/-- A pattern none of whose bytes is `'?'`, `'*'` or `'['`. -/
def Literal (p : List Nat) : Prop := ∀ c ∈ p, c ≠ 63 ∧ c ≠ 42 ∧ c ≠ 91

/-- Reading a pattern prefix from the left, is its end inside a bracketed
class?  The flag says whether the reading starts inside one.  A class opens at
a `'['` met outside a class and closes at the first `']'` after it, which is
where `strcmpwild_cset` stops. -/
def inClass : Bool → List Nat → Bool
  | st, [] => st
  | false, c :: r => inClass (decide (c = 91)) r
  | true, c :: r => inClass (decide (c ≠ 93)) r

/-- Two patterns are equal, or differ by one `"**"` outside a bracketed class
of the first having been replaced by `"*"` in the second. -/
inductive StarRel : List Nat → List Nat → Prop
  | same (l : List Nat) : StarRel l l
  | dup (a b : List Nat) : inClass false a = false → StarRel (a ++ 42 :: 42 :: b) (a ++ 42 :: b)

/-! ## Byte classes (`chartype_table`, `is_chartype`) -/

/-- The `chartype_table` of the source, entry by entry. -/
def chartype_table : List Nat := [
  55, 0, 0, 0, 0, 0, 0, 0, 0, 12, 12, 0, 0, 63, 0, 0,
  0, 0, 0, 0, 0, 0, 0, 0, 0, 0, 0, 0, 0, 0, 0, 0,
  12, 0, 6, 0, 0, 0, 7, 6, 0, 0, 0, 0, 0, 96, 64, 0,
  64, 64, 64, 64, 64, 64, 64, 64, 64, 64, 192, 0, 1, 0, 48, 0,
  0, 192, 192, 192, 192, 192, 192, 192, 192, 192, 192, 192, 192, 192, 192, 192,
  192, 192, 192, 192, 192, 192, 192, 192, 192, 192, 192, 0, 0, 16, 0, 192,
  0, 192, 192, 192, 192, 192, 192, 192, 192, 192, 192, 192, 192, 192, 192, 192,
  192, 192, 192, 192, 192, 192, 192, 192, 192, 192, 192, 0, 0, 0, 0, 0,
  192, 192, 192, 192, 192, 192, 192, 192, 192, 192, 192, 192, 192, 192, 192, 192,
  192, 192, 192, 192, 192, 192, 192, 192, 192, 192, 192, 192, 192, 192, 192, 192,
  192, 192, 192, 192, 192, 192, 192, 192, 192, 192, 192, 192, 192, 192, 192, 192,
  192, 192, 192, 192, 192, 192, 192, 192, 192, 192, 192, 192, 192, 192, 192, 192,
  192, 192, 192, 192, 192, 192, 192, 192, 192, 192, 192, 192, 192, 192, 192, 192,
  192, 192, 192, 192, 192, 192, 192, 192, 192, 192, 192, 192, 192, 192, 192, 192,
  192, 192, 192, 192, 192, 192, 192, 192, 192, 192, 192, 192, 192, 192, 192, 192,
  192, 192, 192, 192, 192, 192, 192, 192, 192, 192, 192, 192, 192, 192, 192, 192]

/-- The class `ct_parse_pcdata` of `enum chartype`: `\0`, `&`, `\r`, `<`. -/
def ct_parse_pcdata : Nat := 1

/-- Model of `is_chartype(c, ct)`: the table is indexed by the byte as an
`unsigned char`. -/
def is_chartype (c ct : Nat) : Bool := (chartype_table.getD (c % 256) 0 &&& ct) != 0

/-! ## The mutable buffer

A `char*` into the buffer being decoded is an index into the list of its
bytes.  A read at or past the end of the list gives the NUL that ends the
buffer. -/

/-- The value of `*p` for the pointer at index `i`. -/
def peek (buf : List Nat) (i : Nat) : Nat := buf.getD i 0

/-- The buffer after `*p = v` for the pointer at index `i`. -/
def poke (buf : List Nat) (i v : Nat) : List Nat := buf.set i v

/-- The buffer after `memmove(dst, src, n)`: bytes `[src, src + n)` of the old
buffer now stand at `[dst, dst + n)` (for a move inside the buffer). -/
def memmove (buf : List Nat) (dst src n : Nat) : List Nat :=
  buf.take dst ++ ((buf.drop src).take n ++ buf.drop (dst + n))

/-- The bytes of the NUL-terminated string that starts at index `s`. -/
def cstrAt (buf : List Nat) (s : Nat) : List Nat := (buf.drop s).takeWhile (fun c => c != 0)

/-! ## Gap compaction (`xml_parser::gap`) -/

/-- The `gap` record: `end_` is the pointer `end` (`none` for the null
pointer), `size` the number of bytes removed so far. -/
structure gap where
  end_ : Option Nat
  size : Nat
deriving DecidableEq

/-- Model of `gap::push(s, count)`: returns the buffer, the advanced `s` and
the new gap. -/
def gap.push (g : gap) (buf : List Nat) (s count : Nat) : List Nat × Nat × gap :=
  let buf1 :=
    match g.end_ with
    | some e => memmove buf (e - g.size) e (s - e)
    | none => buf
  (buf1, s + count, { end_ := some (s + count), size := g.size + count })

/-- Model of `gap::flush(s)`: returns the buffer and the past-the-end
pointer. -/
def gap.flush (g : gap) (buf : List Nat) (s : Nat) : List Nat × Nat :=
  match g.end_ with
  | some e => (memmove buf (e - g.size) e (s - e), s - g.size)
  | none => (buf, s)

/-! ## UTF-8 output (`strutf16_utf8`) -/

/-- The table `UTF8_FIRST_BYTE_MARK`. -/
def UTF8_FIRST_BYTE_MARK : List Nat := [0x00, 0x00, 0xC0, 0xE0, 0xF0, 0xF8, 0xFC]

/-- One continuation step of the fall-through `switch`:
`*--s = (char)((ch | UTF8_BYTE_MARK) & UTF8_BYTE_MASK); ch >>= 6;`. -/
def utf8_cont (st : List Nat × Nat × Nat) : List Nat × Nat × Nat :=
  (poke st.1 (st.2.1 - 1) (((st.2.2 ||| 0x80) &&& 0xBF) % 256), st.2.1 - 1, st.2.2 >>> 6)

/-- The last step of the `switch`: `*--s = (char)(ch | UTF8_FIRST_BYTE_MARK[length]);`. -/
def utf8_first (length : Nat) (st : List Nat × Nat × Nat) : List Nat × Nat × Nat :=
  (poke st.1 (st.2.1 - 1) ((st.2.2 ||| UTF8_FIRST_BYTE_MARK.getD length 0) % 256),
    st.2.1 - 1, st.2.2)

/-- Model of `strutf16_utf8(s, ch)`: returns the buffer and the position after
the last byte written. -/
def strutf16_utf8 (buf : List Nat) (s ch : Nat) : List Nat × Nat :=
  if ch < 0x80 then ((utf8_first 1 (buf, s + 1, ch)).1, s + 1)
  else if ch < 0x800 then ((utf8_first 2 (utf8_cont (buf, s + 2, ch))).1, s + 2)
  else if ch < 0x10000 then
    ((utf8_first 3 (utf8_cont (utf8_cont (buf, s + 3, ch)))).1, s + 3)
  else if ch < 0x200000 then
    ((utf8_first 4 (utf8_cont (utf8_cont (utf8_cont (buf, s + 4, ch))))).1, s + 4)
  else (buf, s)

/-! ## Entity references (`xml_parser::strconv_escape`) -/

/-- The chain `*++stre == c1 && *++stre == c2 && ...`: returns `stre` as the
chain leaves it and whether every comparison held. -/
def match_seq (buf : List Nat) : Nat → List Nat → Nat × Bool
  | stre, [] => (stre, true)
  | stre, c :: cs =>
    if peek buf (stre + 1) = c then match_seq buf (stre + 1) cs else (stre + 1, false)

/-- The loop `while (*stre >= '0' && *stre <= '9') ucsc = 10 * ucsc + (*stre++ - '0');`
over the bytes from `stre` on; `ucsc` is a 32-bit `unsigned int`. -/
def dec_loop : List Nat → Nat → Nat → Nat × Nat
  | [], stre, ucsc => (stre, ucsc)
  | c :: r, stre, ucsc =>
    if 48 ≤ c ∧ c ≤ 57 then dec_loop r (stre + 1) ((10 * ucsc + (c - 48)) % 2 ^ 32)
    else (stre, ucsc)

/-- The loop `while (*stre) { ... }` of the hexadecimal branch over the bytes
from `stre` on.  The flag is `true` when the loop is left by the
`else // cancel` branch, which returns `stre` at once. -/
def hex_loop : List Nat → Nat → Nat → Nat × Nat × Bool
  | [], stre, ucsc => (stre, ucsc, false)
  | c :: r, stre, ucsc =>
    if c = 0 then (stre, ucsc, false)
    else if 48 ≤ c ∧ c ≤ 57 then hex_loop r (stre + 1) ((16 * ucsc + (c - 48)) % 2 ^ 32)
    else if 65 ≤ c ∧ c ≤ 70 then hex_loop r (stre + 1) ((16 * ucsc + (c - 65 + 10)) % 2 ^ 32)
    else if 97 ≤ c ∧ c ≤ 102 then hex_loop r (stre + 1) ((16 * ucsc + (c - 97 + 10)) % 2 ^ 32)
    else if c = 59 then (stre, ucsc, false)
    else (stre, ucsc, true)

/-- The common tail of the named references: `*s++ = c; ++stre; g.push(s, stre - s);
return stre;`, with `stre` at the `';'`. -/
def escape_named (buf : List Nat) (s : Nat) (g : gap) (stre c : Nat) : List Nat × Nat × gap :=
  let r := g.push (poke buf s c) (s + 1) (stre + 1 - (s + 1))
  (r.1, stre + 1, r.2.2)

/-- The tail of the numeric references: `s = strutf16_utf8(s, ucsc); g.push(s, stre - s);
return stre;`, with `stre` after the `';'`. -/
def escape_numeric (buf : List Nat) (s : Nat) (g : gap) (stre ucsc : Nat) :
    List Nat × Nat × gap :=
  let w := strutf16_utf8 buf s ucsc
  let r := g.push w.1 w.2 (stre - w.2)
  (r.1, stre, r.2.2)

/-- Model of `strconv_escape(s, g)`, called with `*s == '&'`: returns the
buffer, the returned pointer and the gap. -/
def strconv_escape (buf : List Nat) (s : Nat) (g : gap) : List Nat × Nat × gap :=
  let stre := s + 1
  if peek buf stre = 35 then
    if peek buf (stre + 1) = 120 then
      let h := hex_loop (buf.drop (stre + 2)) (stre + 2) 0
      if h.2.2 = true then (buf, h.1, g)
      else if peek buf h.1 ≠ 59 then (buf, h.1, g)
      else escape_numeric buf s g (h.1 + 1) h.2.1
    else
      let d := dec_loop (buf.drop (stre + 1)) (stre + 1) 0
      if peek buf d.1 ≠ 59 then (buf, d.1, g)
      else escape_numeric buf s g (d.1 + 1) d.2
  else if peek buf stre = 97 then
    if peek buf (stre + 1) = 109 then
      let m := match_seq buf (stre + 1) [112, 59]
      if m.2 = true then escape_named buf s g m.1 38 else (buf, m.1, g)
    else if peek buf (stre + 1) = 112 then
      let m := match_seq buf (stre + 1) [111, 115, 59]
      if m.2 = true then escape_named buf s g m.1 39 else (buf, m.1, g)
    else (buf, stre + 1, g)
  else if peek buf stre = 103 then
    let m := match_seq buf stre [116, 59]
    if m.2 = true then escape_named buf s g m.1 62 else (buf, m.1, g)
  else if peek buf stre = 108 then
    let m := match_seq buf stre [116, 59]
    if m.2 = true then escape_named buf s g m.1 60 else (buf, m.1, g)
  else if peek buf stre = 113 then
    let m := match_seq buf stre [117, 111, 116, 59]
    if m.2 = true then escape_named buf s g m.1 34 else (buf, m.1, g)
  else (buf, stre, g)

/-! ## Character data (`xml_parser::strconv_pcdata`) -/

/-- The scan `while (!is_chartype(*s, ct)) ++s;` over the bytes from `s` on.
The NUL is in every class that is scanned for, so the scan stops at the end of
the bytes at the latest. -/
def skipTo (ct : Nat) : List Nat → Nat → Nat
  | [], s => s
  | c :: r, s => if is_chartype c ct = true then s else skipTo ct r (s + 1)

/-- The `while (true)` loop of `strconv_pcdata<opt_escape, opt_eol>`.  Every
iteration spends one unit of fuel and either returns or moves `s` forward over
at least one byte.  The result is the returned pointer (`none` for the null
pointer) and the buffer. -/
def strconv_pcdata_loop (opt_escape opt_eol : Bool) :
    Nat → List Nat → Nat → gap → Option (Option Nat × List Nat)
  | 0, _, _, _ => none
  | n + 1, buf, s0, g =>
    let s := skipTo ct_parse_pcdata (buf.drop s0) s0
    if opt_eol = true ∧ peek buf s = 13 then
      let buf1 := poke buf s 10
      if peek buf1 (s + 1) = 10 then
        let r := g.push buf1 (s + 1) 1
        strconv_pcdata_loop opt_escape opt_eol n r.1 r.2.1 r.2.2
      else strconv_pcdata_loop opt_escape opt_eol n buf1 (s + 1) g
    else if opt_escape = true ∧ peek buf s = 38 then
      let r := strconv_escape buf s g
      strconv_pcdata_loop opt_escape opt_eol n r.1 r.2.1 r.2.2
    else if peek buf s = 60 then
      let r := g.flush buf s
      some (some (s + 1), poke r.1 r.2 0)
    else if peek buf s = 0 then some (none, buf)
    else strconv_pcdata_loop opt_escape opt_eol n buf (s + 1) g

/-- Model of `strconv_pcdata<opt_escape, opt_eol>(s)` on the buffer `buf`. -/
def strconv_pcdata (opt_escape opt_eol : Bool) (buf : List Nat) (s : Nat) :
    Option (Option Nat × List Nat) :=
  if peek buf s = 0 then some (none, buf)
  else strconv_pcdata_loop opt_escape opt_eol (buf.length + 1) buf s { end_ := none, size := 0 }

/-! ## The loop invariant of gap compaction -/

/-- The state of a decoder loop that started at index `pre.length`: `out` is
the text decoded so far and `rest` the input not yet read.  The decoded text
stands in the buffer in two pieces `o1` and `o2`, separated by the bytes
`junk` of the open gap. -/
def GapInv (pre out rest buf : List Nat) (s : Nat) (g : gap) : Prop :=
  ∃ o1 junk o2 : List Nat, out = o1 ++ o2 ∧ buf = pre ++ (o1 ++ (junk ++ (o2 ++ rest))) ∧
    s = pre.length + o1.length + junk.length + o2.length ∧ g.size = junk.length ∧
    ((g.end_ = none ∧ junk = [] ∧ o2 = []) ∨
      g.end_ = some (pre.length + o1.length + junk.length))

/-! ## Reference behaviour of the decoder -/

/-- A byte that `strconv_pcdata` keeps as it is under every option: a byte
value other than NUL, `'\r'`, `'&'` and `'<'`. -/
def Plain (c : Nat) : Prop := c < 256 ∧ c ≠ 0 ∧ c ≠ 13 ∧ c ≠ 38 ∧ c ≠ 60

instance (c : Nat) : Decidable (Plain c) := by
  unfold Plain; infer_instance

/-- The UTF-8 encoding of the code point `n`: one byte below `0x80`, two below
`0x800`, three below `0x10000`, four otherwise. -/
def utf8 (n : Nat) : List Nat :=
  if n < 0x80 then [n]
  else if n < 0x800 then [0xC0 + n / 64, 0x80 + n % 64]
  else if n < 0x10000 then [0xE0 + n / 4096, 0x80 + n / 64 % 64, 0x80 + n % 64]
  else [0xF0 + n / 262144, 0x80 + n / 4096 % 64, 0x80 + n / 64 % 64, 0x80 + n % 64]

/-- A decimal digit. -/
def DecDigit (c : Nat) : Prop := 48 ≤ c ∧ c ≤ 57

instance (c : Nat) : Decidable (DecDigit c) := by
  unfold DecDigit; infer_instance

/-- A hexadecimal digit: `0`-`9`, `A`-`F` or `a`-`f`. -/
def HexDigit (c : Nat) : Prop := (48 ≤ c ∧ c ≤ 57) ∨ (65 ≤ c ∧ c ≤ 70) ∨ (97 ≤ c ∧ c ≤ 102)

instance (c : Nat) : Decidable (HexDigit c) := by
  unfold HexDigit; infer_instance

/-- The number written by decimal digits, continuing from `u`. -/
def decVal : List Nat → Nat → Nat
  | [], u => u
  | c :: r, u => decVal r (10 * u + (c - 48))

/-- The value of one hexadecimal digit. -/
def hexDigitVal (c : Nat) : Nat :=
  if c ≤ 57 then c - 48 else if c ≤ 70 then c - 65 + 10 else c - 97 + 10

/-- The number written by hexadecimal digits, continuing from `u`. -/
def hexVal : List Nat → Nat → Nat
  | [], u => u
  | c :: r, u => hexVal r (16 * u + hexDigitVal c)

/-- A piece of character data: a plain byte, one of the five named references,
or a decimal or hexadecimal numeric reference with the given digits. -/
inductive Tok
  | byte (c : Nat)
  | amp
  | lt
  | gt
  | apos
  | quot
  | dec (ds : List Nat)
  | hex (hs : List Nat)
deriving DecidableEq

/-- The bytes of a piece as written in the input. -/
def Tok.src : Tok → List Nat
  | .byte c => [c]
  | .amp => [38, 97, 109, 112, 59]
  | .lt => [38, 108, 116, 59]
  | .gt => [38, 103, 116, 59]
  | .apos => [38, 97, 112, 111, 115, 59]
  | .quot => [38, 113, 117, 111, 116, 59]
  | .dec ds => 38 :: 35 :: (ds ++ [59])
  | .hex hs => 38 :: 35 :: 120 :: (hs ++ [59])

/-- The bytes a piece stands for. -/
def Tok.out : Tok → List Nat
  | .byte c => [c]
  | .amp => [38]
  | .lt => [60]
  | .gt => [62]
  | .apos => [39]
  | .quot => [34]
  | .dec ds => utf8 (decVal ds 0)
  | .hex hs => utf8 (hexVal hs 0)

/-- A well-formed piece: the byte is plain; the digits of a numeric reference
are digits and their value `n` satisfies `0 < n < 0x200000`. -/
def Tok.ok : Tok → Prop
  | .byte c => Plain c
  | .dec ds => (∀ c ∈ ds, DecDigit c) ∧ 0 < decVal ds 0 ∧ decVal ds 0 < 0x200000
  | .hex hs => (∀ c ∈ hs, HexDigit c) ∧ 0 < hexVal hs 0 ∧ hexVal hs 0 < 0x200000
  | _ => True

instance (t : Tok) : Decidable t.ok := by
  cases t <;> unfold Tok.ok <;> infer_instance

/-- A piece that is not a numeric reference. -/
def Tok.named : Tok → Prop
  | .dec _ => False
  | .hex _ => False
  | _ => True

instance (t : Tok) : Decidable t.named := by
  cases t <;> unfold Tok.named <;> infer_instance

/-- Line-ending normalization as the spec words it: every CR+LF pair becomes
one LF, every other CR becomes one LF, every other byte is kept. -/
def eolNorm : List Nat → List Nat
  | [] => []
  | [c] => if c = 13 then [10] else [c]
  | c :: d :: r =>
    if c = 13 then (if d = 10 then 10 :: eolNorm r else 10 :: eolNorm (d :: r))
    else c :: eolNorm (d :: r)

/-- The input bytes of a sequence of pieces. -/
def srcOf : List Tok → List Nat
  | [] => []
  | t :: ts => t.src ++ srcOf ts

/-- The text a sequence of pieces stands for: every reference replaced by the
bytes it stands for. -/
def outOf : List Tok → List Nat
  | [] => []
  | t :: ts => t.out ++ outOf ts

/-- The bytes `l` begin with a reference that `strconv_escape` expands: one of
the five named references, or `&#`, decimal digits and `;`, or `&#x`,
hexadecimal digits and `;`.  The digits may be none at all. -/
def Expands (l : List Nat) : Prop :=
  [38, 97, 109, 112, 59] <+: l ∨ [38, 108, 116, 59] <+: l ∨ [38, 103, 116, 59] <+: l ∨
  [38, 97, 112, 111, 115, 59] <+: l ∨ [38, 113, 117, 111, 116, 59] <+: l ∨
  (∃ ds : List Nat, (∀ c ∈ ds, DecDigit c) ∧ 38 :: 35 :: (ds ++ [59]) <+: l) ∨
  (∃ hs : List Nat, (∀ c ∈ hs, HexDigit c) ∧ 38 :: 35 :: 120 :: (hs ++ [59]) <+: l)

/-! ## The other classes of `enum chartype` -/

/-- The class `ct_parse_attr`: `\0`, `&`, `\r`, `'`, `"`. -/
def ct_parse_attr : Nat := 2

/-- The class `ct_parse_attr_ws`: `\0`, `&`, `\r`, `'`, `"`, `\n`, space, tab. -/
def ct_parse_attr_ws : Nat := 4

/-- The class `ct_space`: `\r`, `\n`, space, tab. -/
def ct_space : Nat := 8

/-- The class `ct_parse_cdata`: `\0`, `]`, `>`, `\r`. -/
def ct_parse_cdata : Nat := 16

/-- The class `ct_parse_comment`: `\0`, `-`, `>`, `\r`. -/
def ct_parse_comment : Nat := 32

/-- The class `ct_symbol`: any byte above 127, `a-z`, `A-Z`, `0-9`, `_`, `:`, `-`, `.`. -/
def ct_symbol : Nat := 64

/-- The class `ct_start_symbol`: any byte above 127, `a-z`, `A-Z`, `_`, `:`. -/
def ct_start_symbol : Nat := 128

/-! ## Comments and CDATA sections (`strconv_comment`, `strconv_cdata`) -/

/-- The `while (true)` loop of `strconv_comment`.  Every iteration spends one
unit of fuel and either returns or moves `s` forward over at least one byte.
The result is the returned pointer (`none` for the null pointer) and the
buffer. -/
def strconv_comment_loop : Nat → List Nat → Nat → gap → Option (Option Nat × List Nat)
  | 0, _, _, _ => none
  | n + 1, buf, s0, g =>
    let s := skipTo ct_parse_comment (buf.drop s0) s0
    if peek buf s = 13 then
      let buf1 := poke buf s 10
      if peek buf1 (s + 1) = 10 then
        let r := g.push buf1 (s + 1) 1
        strconv_comment_loop n r.1 r.2.1 r.2.2
      else strconv_comment_loop n buf1 (s + 1) g
    else if peek buf s = 45 ∧ peek buf (s + 1) = 45 ∧ peek buf (s + 2) = 62 then
      let r := g.flush buf s
      some (some (s + 3), poke r.1 r.2 0)
    else if peek buf s = 0 then some (none, buf)
    else strconv_comment_loop n buf (s + 1) g

/-- Model of `strconv_comment(s)` on the buffer `buf`. -/
def strconv_comment (buf : List Nat) (s : Nat) : Option (Option Nat × List Nat) :=
  if peek buf s = 0 then some (none, buf)
  else strconv_comment_loop (buf.length + 1) buf s { end_ := none, size := 0 }

/-- The `while (true)` loop of `strconv_cdata`; it differs from the loop of
`strconv_comment` in the class scanned for, in the terminator `]]>` and in
the returned pointer, which is `s + 1`. -/
def strconv_cdata_loop : Nat → List Nat → Nat → gap → Option (Option Nat × List Nat)
  | 0, _, _, _ => none
  | n + 1, buf, s0, g =>
    let s := skipTo ct_parse_cdata (buf.drop s0) s0
    if peek buf s = 13 then
      let buf1 := poke buf s 10
      if peek buf1 (s + 1) = 10 then
        let r := g.push buf1 (s + 1) 1
        strconv_cdata_loop n r.1 r.2.1 r.2.2
      else strconv_cdata_loop n buf1 (s + 1) g
    else if peek buf s = 93 ∧ peek buf (s + 1) = 93 ∧ peek buf (s + 2) = 62 then
      let r := g.flush buf s
      some (some (s + 1), poke r.1 r.2 0)
    else if peek buf s = 0 then some (none, buf)
    else strconv_cdata_loop n buf (s + 1) g

/-- Model of `strconv_cdata(s)` on the buffer `buf`. -/
def strconv_cdata (buf : List Nat) (s : Nat) : Option (Option Nat × List Nat) :=
  if peek buf s = 0 then some (none, buf)
  else strconv_cdata_loop (buf.length + 1) buf s { end_ := none, size := 0 }

/-! ## Attribute values (`strconv_attribute`) -/

/-- The scan `while (is_chartype(*s, ct)) ++s;` over the bytes from `s` on.
The NUL is in neither `ct_space` nor `ct_symbol`, so the scan stops at the end
of the bytes at the latest. -/
def skipWhile (ct : Nat) : List Nat → Nat → Nat
  | [], s => s
  | c :: r, s => if is_chartype c ct = true then skipWhile ct r (s + 1) else s

/-- The loop `do *str-- = 0; while (is_chartype(*str, ct_space));` that ends
`strconv_attribute` under `opt_wnorm`.  The result is `none` when `str` is
moved before the first byte of the buffer. -/
def wnorm_trim : List Nat → Nat → Option (List Nat)
  | _, 0 => none
  | buf, str + 1 =>
    let buf1 := poke buf (str + 1) 0
    if is_chartype (peek buf1 str) ct_space = true then wnorm_trim buf1 str else some buf1

/-- The `while (true)` loop of
`strconv_attribute<opt_escape, opt_wnorm, opt_wconv, opt_eol>(s, end_quote)`.
Every iteration spends one unit of fuel and either returns or moves `s`
forward over at least one byte.  The outer `none` stands for a run that is
out of fuel or leaves the buffer at its front. -/
def strconv_attribute_loop (opt_escape opt_wnorm opt_wconv opt_eol : Bool) (end_quote : Nat) :
    Nat → List Nat → Nat → gap → Option (Option Nat × List Nat)
  | 0, _, _, _ => none
  | n + 1, buf, s0, g =>
    let s := skipTo (if opt_wnorm = true ∨ opt_wconv = true then ct_parse_attr_ws
      else ct_parse_attr) (buf.drop s0) s0
    if opt_escape = true ∧ peek buf s = 38 then
      let r := strconv_escape buf s g
      strconv_attribute_loop opt_escape opt_wnorm opt_wconv opt_eol end_quote n r.1 r.2.1 r.2.2
    else if opt_wnorm = true ∧ is_chartype (peek buf s) ct_space = true then
      let buf1 := poke buf s 32
      if is_chartype (peek buf1 (s + 1)) ct_space = true then
        let str := skipWhile ct_space (buf1.drop (s + 2)) (s + 2)
        let r := g.push buf1 (s + 1) (str - (s + 1))
        strconv_attribute_loop opt_escape opt_wnorm opt_wconv opt_eol end_quote n r.1 r.2.1 r.2.2
      else strconv_attribute_loop opt_escape opt_wnorm opt_wconv opt_eol end_quote n buf1 (s + 1) g
    else if opt_wconv = true ∧ is_chartype (peek buf s) ct_space = true then
      if opt_eol = true then
        if peek buf s = 13 then
          let buf1 := poke buf s 32
          if peek buf1 (s + 1) = 10 then
            let r := g.push buf1 (s + 1) 1
            strconv_attribute_loop opt_escape opt_wnorm opt_wconv opt_eol end_quote n
              r.1 r.2.1 r.2.2
          else
            strconv_attribute_loop opt_escape opt_wnorm opt_wconv opt_eol end_quote n
              buf1 (s + 1) g
        else
          strconv_attribute_loop opt_escape opt_wnorm opt_wconv opt_eol end_quote n
            (poke buf s 32) (s + 1) g
      else
        strconv_attribute_loop opt_escape opt_wnorm opt_wconv opt_eol end_quote n
          (poke buf s 32) (s + 1) g
    else if opt_eol = true ∧ peek buf s = 13 then
      let buf1 := poke buf s 10
      if peek buf1 (s + 1) = 10 then
        let r := g.push buf1 (s + 1) 1
        strconv_attribute_loop opt_escape opt_wnorm opt_wconv opt_eol end_quote n r.1 r.2.1 r.2.2
      else strconv_attribute_loop opt_escape opt_wnorm opt_wconv opt_eol end_quote n buf1 (s + 1) g
    else if peek buf s = end_quote then
      let r := g.flush buf s
      if opt_wnorm = true then
        match wnorm_trim r.1 r.2 with
        | some buf1 => some (some (s + 1), buf1)
        | none => none
      else some (some (s + 1), poke r.1 r.2 0)
    else if peek buf s = 0 then some (none, buf)
    else strconv_attribute_loop opt_escape opt_wnorm opt_wconv opt_eol end_quote n buf (s + 1) g

/-- Model of `strconv_attribute<opt_escape, opt_wnorm, opt_wconv, opt_eol>(s, end_quote)`
on the buffer `buf`; `strconv_attribute_setup` selects the instance of the
template from the four options, which the model takes as arguments. -/
def strconv_attribute (opt_escape opt_wnorm opt_wconv opt_eol : Bool) (buf : List Nat)
    (s end_quote : Nat) : Option (Option Nat × List Nat) :=
  if peek buf s = 0 then some (none, buf)
  else
    let str := skipWhile ct_space (buf.drop s) s
    let r : List Nat × Nat × gap :=
      if opt_wnorm = true ∧ str ≠ s then
        gap.push { end_ := none, size := 0 } buf s (str - s)
      else (buf, s, { end_ := none, size := 0 })
    strconv_attribute_loop opt_escape opt_wnorm opt_wconv opt_eol end_quote (buf.length + 1)
      r.1 r.2.1 r.2.2

/-! ## The document tree (`xml_node_struct`, `xml_attribute_struct`) -/

/-- Modelled from the spec: the enumeration `xml_node_type`, which is declared
in `pugixml.hpp`.  The type tag of a node is one of document, element,
processing instruction, comment, CDATA section, character data, or null. -/
inductive xml_node_type
  | node_null
  | node_document
  | node_element
  | node_pcdata
  | node_cdata
  | node_comment
  | node_pi
deriving DecidableEq

open xml_node_type

/-- The record `xml_attribute_struct`.  A `char*` is an index into the parse
buffer and a pointer to an attribute is an index into the list of allocated
attributes; `none` is the null pointer. -/
structure xml_attribute_struct where
  name_insitu : Bool
  value_insitu : Bool
  document_order : Nat
  name : Option Nat
  value : Option Nat
  prev_attribute : Option Nat
  next_attribute : Option Nat
deriving DecidableEq

/-- The record `xml_node_struct`.  A pointer to a node is an index into the
list of allocated nodes; `none` is the null pointer. -/
structure xml_node_struct where
  type : xml_node_type
  name_insitu : Bool
  value_insitu : Bool
  document_order : Nat
  parent : Option Nat
  name : Option Nat
  value : Option Nat
  first_child : Option Nat
  last_child : Option Nat
  prev_sibling : Option Nat
  next_sibling : Option Nat
  first_attribute : Option Nat
  last_attribute : Option Nat
deriving DecidableEq

/-- The constructor `xml_attribute_struct()`. -/
def xml_attribute_struct.new : xml_attribute_struct :=
  { name_insitu := true, value_insitu := true, document_order := 0, name := none,
    value := none, prev_attribute := none, next_attribute := none }

/-- The constructor `xml_node_struct(type)`. -/
def xml_node_struct.new (type : xml_node_type) : xml_node_struct :=
  { type := type, name_insitu := true, value_insitu := true, document_order := 0,
    parent := none, name := none, value := none, first_child := none, last_child := none,
    prev_sibling := none, next_sibling := none, first_attribute := none,
    last_attribute := none }

/-- The node that the pointer `p` points to. -/
def node_at (nodes : List xml_node_struct) (p : Nat) : xml_node_struct :=
  nodes.getD p (xml_node_struct.new node_null)

/-- The attribute that the pointer `a` points to. -/
def attr_at (attrs : List xml_attribute_struct) (a : Nat) : xml_attribute_struct :=
  attrs.getD a xml_attribute_struct.new

/-- Model of `xml_node_struct::append_node(alloc, type)` called on the node
`this`: the allocator hands out a new node, which becomes the last element of
the list of allocated nodes.  Returns the nodes and the pointer to the child. -/
def append_node (nodes : List xml_node_struct) (this : Nat) (type : xml_node_type) :
    List xml_node_struct × Nat :=
  let child := nodes.length
  let nodes1 := nodes ++ [{ xml_node_struct.new type with parent := some this }]
  match (node_at nodes1 this).last_child with
  | some l =>
    let nodes2 := nodes1.set l { node_at nodes1 l with next_sibling := some child }
    let nodes3 := nodes2.set child { node_at nodes2 child with prev_sibling := some l }
    (nodes3.set this { node_at nodes3 this with last_child := some child }, child)
  | none =>
    (nodes1.set this { node_at nodes1 this with
      first_child := some child, last_child := some child }, child)

/-- Model of `xml_node_struct::append_attribute(alloc)` called on the node
`this`.  Returns the nodes, the attributes and the pointer to the new
attribute. -/
def append_attribute (nodes : List xml_node_struct) (attrs : List xml_attribute_struct)
    (this : Nat) : List xml_node_struct × List xml_attribute_struct × Nat :=
  let a := attrs.length
  let attrs1 := attrs ++ [xml_attribute_struct.new]
  match (node_at nodes this).last_attribute with
  | some l =>
    let attrs2 := attrs1.set l { attr_at attrs1 l with next_attribute := some a }
    let attrs3 := attrs2.set a { attr_at attrs2 a with prev_attribute := some l }
    (nodes.set this { node_at nodes this with last_attribute := some a }, attrs3, a)
  | none =>
    (nodes.set this { node_at nodes this with
      first_attribute := some a, last_attribute := some a }, attrs1, a)

/-! ## The parser (`xml_parser::parse`) -/

/-- The option mask of `parse`.  The masks `parse_pi`, `parse_comments`, ... are
declared in `pugixml.hpp`; the parser consults the mask only through
`OPTSET(...)`, and the model takes the outcome of each of these tests. -/
structure parse_options where
  parse_pi : Bool
  parse_comments : Bool
  parse_cdata : Bool
  parse_ws_pcdata : Bool
  parse_ext_pcdata : Bool
  parse_escapes : Bool
  parse_eol : Bool
  parse_wnorm_attribute : Bool
  parse_wconv_attribute : Bool
deriving DecidableEq

/-- The memory that `parse` works on: the buffer, the scan pointer `s`, the
`cursor` and the nodes and attributes allocated so far.  The locals `ch` and
`mark` are assigned before each of their uses and are not carried from one
iteration of the main loop to the next. -/
structure parse_state where
  buf : List Nat
  s : Nat
  cursor : Nat
  nodes : List xml_node_struct
  attrs : List xml_attribute_struct
deriving DecidableEq

/-- `PUSHNODE(TYPE)`: `cursor = cursor->append_node(alloc, TYPE);`. -/
def PUSHNODE (st : parse_state) (type : xml_node_type) : parse_state :=
  let r := append_node st.nodes st.cursor type
  { st with nodes := r.1, cursor := r.2 }

/-- `POPNODE()`: `cursor = cursor->parent;`.  The result is `none` when the
parent pointer is null. -/
def POPNODE (st : parse_state) : Option parse_state :=
  match (node_at st.nodes st.cursor).parent with
  | some p => some { st with cursor := p }
  | none => none

/-- The assignment `cursor->name = p;`. -/
def set_cursor_name (st : parse_state) (p : Option Nat) : parse_state :=
  { st with nodes := st.nodes.set st.cursor { node_at st.nodes st.cursor with name := p } }

/-- The assignment `cursor->value = p;`. -/
def set_cursor_value (st : parse_state) (p : Option Nat) : parse_state :=
  { st with nodes := st.nodes.set st.cursor { node_at st.nodes st.cursor with value := p } }

/-- `SCANFOR(*s == c)` and its variants with one byte tested:
`while (*s != 0 && !P(*s)) ++s;` over the bytes from `s` on. -/
def scanfor1 (P : Nat → Bool) : List Nat → Nat → Nat
  | [], s => s
  | c :: r, s => if c = 0 then s else if P c = true then s else scanfor1 P r (s + 1)

/-- `SCANFOR(*s == a && *(s+1) == b)` over the bytes from `s` on. -/
def scanfor2 (a b : Nat) : List Nat → Nat → Nat
  | [], s => s
  | c :: r, s =>
    if c = 0 then s else if c = a ∧ rd r = b then s else scanfor2 a b r (s + 1)

/-- `SCANFOR(*s == a && *(s+1) == b && *(s+2) == c)` over the bytes from `s` on. -/
def scanfor3 (a b c : Nat) : List Nat → Nat → Nat
  | [], s => s
  | x :: r, s =>
    if x = 0 then s else if x = a ∧ rd r = b ∧ rd r.tail = c then s
    else scanfor3 a b c r (s + 1)

/-- The test `(mark[0] == 'x' || mark[0] == 'X') && (mark[1] == 'm' || mark[1] == 'M')
&& (mark[2] == 'l' || mark[2] == 'L') && mark[3] == 0`. -/
def is_xml_target (buf : List Nat) (mark : Nat) : Bool :=
  decide ((peek buf mark = 120 ∨ peek buf mark = 88) ∧
    (peek buf (mark + 1) = 109 ∨ peek buf (mark + 1) = 77) ∧
    (peek buf (mark + 2) = 108 ∨ peek buf (mark + 2) = 76) ∧ peek buf (mark + 3) = 0)

/-- The branch `'<?...'` of `parse`, entered with `s` after the `'?'`.  The
inner `none` of a result stands for `return false`, the outer one for a run
that is out of fuel or follows a null pointer. -/
def parse_pi_tag (o : parse_options) (st : parse_state) : Option (Option parse_state) :=
  if is_chartype (peek st.buf st.s) ct_start_symbol = false then some none
  else if o.parse_pi = true then
    let mark := st.s
    let s1 := skipWhile ct_symbol (st.buf.drop st.s) st.s
    if peek st.buf s1 = 0 then some none
    else if is_chartype (peek st.buf s1) ct_space = false ∧ peek st.buf s1 ≠ 63 then some none
    else
      let ch := peek st.buf s1
      let buf1 := poke st.buf s1 0
      let s2 := s1 + 1
      if peek buf1 s2 = 0 then some none
      else if ch = 63 then
        if peek buf1 s2 ≠ 62 then some none
        else if is_xml_target buf1 mark = true then some (some { st with buf := buf1, s := s2 + 1 })
        else
          (POPNODE (set_cursor_name (PUSHNODE { st with buf := buf1, s := s2 + 1 } node_pi)
            (some mark))).map some
      else if is_xml_target buf1 mark = true then
        let s3 := scanfor2 63 62 (buf1.drop s2) s2
        if peek buf1 s3 = 0 then some none
        else some (some { st with buf := buf1, s := s3 + 2 })
      else
        let st1 := set_cursor_name (PUSHNODE { st with buf := buf1, s := s2 } node_pi) (some mark)
        let s3 := if is_chartype ch ct_space = true then skipWhile ct_space (buf1.drop s2) s2 else s2
        if is_chartype ch ct_space = true ∧ peek buf1 s3 = 0 then some none
        else
          let mark1 : Option Nat := if is_chartype ch ct_space = true then some s3 else none
          let s4 := scanfor2 63 62 (buf1.drop s3) s3
          if peek buf1 s4 = 0 then some none
          else
            let buf2 := poke buf1 s4 0
            if peek buf2 (s4 + 1) = 0 then some none
            else
              (POPNODE (set_cursor_value { st1 with buf := buf2, s := s4 + 2 } mark1)).map some
  else
    let s1 := scanfor2 63 62 (st.buf.drop st.s) st.s
    if peek st.buf s1 = 0 then some none
    else some (some { st with s := s1 + 2 })

/-- The branch `'<!--...'` of `parse`, entered with `s` after the second `'-'`. -/
def parse_comment (o : parse_options) (st : parse_state) : Option (Option parse_state) :=
  let st1 :=
    if o.parse_comments = true then set_cursor_value (PUSHNODE st node_comment) (some st.s)
    else st
  let r : Option (Option parse_state) :=
    if o.parse_eol = true ∧ o.parse_comments = true then
      match strconv_comment st1.buf st1.s with
      | none => none
      | some (none, _) => some none
      | some (some s1, buf1) => some (some { st1 with buf := buf1, s := s1 })
    else
      let s1 := scanfor3 45 45 62 (st1.buf.drop st1.s) st1.s
      if peek st1.buf s1 = 0 then some none
      else
        some (some { st1 with
          buf := if o.parse_comments = true then poke st1.buf s1 0 else st1.buf, s := s1 + 3 })
  match r with
  | some (some st2) => if o.parse_comments = true then (POPNODE st2).map some else some (some st2)
  | some none => some none
  | none => none

/-- The branch `'<![CDATA[...'` of `parse`, entered with `s` after the second `'['`. -/
def parse_cdata_tag (o : parse_options) (st : parse_state) : Option (Option parse_state) :=
  if o.parse_cdata = true then
    let st1 := set_cursor_value (PUSHNODE st node_cdata) (some st.s)
    let r : Option (Option parse_state) :=
      if o.parse_eol = true then
        match strconv_cdata st1.buf st1.s with
        | none => none
        | some (none, _) => some none
        | some (some s1, buf1) => some (some { st1 with buf := buf1, s := s1 })
      else
        let s1 := scanfor3 93 93 62 (st1.buf.drop st1.s) st1.s
        if peek st1.buf s1 = 0 then some none
        else
          let buf1 := poke st1.buf s1 0
          if peek buf1 (s1 + 1) = 0 then some none
          else some (some { st1 with buf := buf1, s := s1 + 1 })
    match r with
    | some (some st2) => (POPNODE st2).map (fun st3 => some { st3 with s := st3.s + 2 })
    | some none => some none
    | none => none
  else
    let s1 := scanfor3 93 93 62 (st.buf.drop st.s) st.s
    if peek st.buf s1 = 0 then some none
    else some (some { st with s := s1 + 1 + 2 })

/-- The loop `while (*s != 0) { if (*s == ']') --bd; else if (*s == '[') ++bd;
if (bd == 0) break; ++s; }` over the bytes from `s` on; `bd` is a 32-bit
`unsigned int`. -/
def bracket_loop : List Nat → Nat → Nat → Nat
  | [], s, _ => s
  | c :: r, s, bd =>
    if c = 0 then s
    else
      let bd1 := if c = 93 then (bd + 2 ^ 32 - 1) % 2 ^ 32 else if c = 91 then (bd + 1) % 2 ^ 32
        else bd
      if bd1 = 0 then s else bracket_loop r (s + 1) bd1

/-- The part of the `DOCTYPE` branch from `LOC_DOCTYPE` on; every `goto LOC_DOCTYPE`
spends one unit of fuel.  The result is the pointer after the closing `'>'`. -/
def doctype_loop (buf : List Nat) : Nat → Nat → Option (Option Nat)
  | 0, _ => none
  | n + 1, s0 =>
    let s := scanfor1 (fun c => c = 39 ∨ c = 34 ∨ c = 91 ∨ c = 62) (buf.drop s0) s0
    if peek buf s = 0 then some none
    else if peek buf s = 39 ∨ peek buf s = 34 then
      let ch := peek buf s
      let s1 := scanfor1 (fun c => c = ch) (buf.drop (s + 1)) (s + 1)
      if peek buf s1 = 0 then some none
      else doctype_loop buf n (s1 + 1)
    else
      let s2 := if peek buf s = 91 then bracket_loop (buf.drop (s + 1)) (s + 1) 1 else s
      let s3 := scanfor1 (fun c => c = 62) (buf.drop s2) s2
      if peek buf s3 = 0 then some none
      else some (some (s3 + 1))

/-- The branch `'<!...'` of `parse`, entered with `s` after the `'!'`. -/
def parse_exclam (o : parse_options) (st : parse_state) : Option (Option parse_state) :=
  if peek st.buf st.s = 45 then
    if peek st.buf (st.s + 1) = 45 then parse_comment o { st with s := st.s + 2 }
    else some none
  else if peek st.buf st.s = 91 then
    if peek st.buf (st.s + 1) = 67 ∧ peek st.buf (st.s + 2) = 68 ∧ peek st.buf (st.s + 3) = 65 ∧
        peek st.buf (st.s + 4) = 84 ∧ peek st.buf (st.s + 5) = 65 ∧ peek st.buf (st.s + 6) = 91 then
      parse_cdata_tag o { st with s := st.s + 7 }
    else some none
  else if peek st.buf st.s = 68 ∧ peek st.buf (st.s + 1) = 79 ∧ peek st.buf (st.s + 2) = 67 ∧
      peek st.buf (st.s + 3) = 84 ∧ peek st.buf (st.s + 4) = 89 ∧ peek st.buf (st.s + 5) = 80 ∧
      peek st.buf (st.s + 6) = 69 then
    let s1 := skipWhile ct_space (st.buf.drop (st.s + 7)) (st.s + 7)
    if peek st.buf s1 = 0 then some none
    else
      match doctype_loop st.buf (st.buf.length + 1) s1 with
      | none => none
      | some none => some none
      | some (some s2) => some (some { st with s := s2 })
  else some none

/-- The assignment `a->name = p;` for the attribute `a`. -/
def set_attr_name (st : parse_state) (a : Nat) (p : Option Nat) : parse_state :=
  { st with attrs := st.attrs.set a { attr_at st.attrs a with name := p } }

/-- The assignment `a->value = p;` for the attribute `a`. -/
def set_attr_value (st : parse_state) (a : Nat) (p : Option Nat) : parse_state :=
  { st with attrs := st.attrs.set a { attr_at st.attrs a with value := p } }

/-- The attribute loop `while (*s) { ... }` of the start tag; every iteration
spends one unit of fuel.  A result `some (some st)` is the state in which the
loop is left, by `break` or by its condition. -/
def parse_attributes (o : parse_options) : Nat → parse_state → Option (Option parse_state)
  | 0, _ => none
  | n + 1, st =>
    if peek st.buf st.s = 0 then some (some st)
    else
      let s1 := skipWhile ct_space (st.buf.drop st.s) st.s
      if peek st.buf s1 = 0 then some none
      else if is_chartype (peek st.buf s1) ct_start_symbol = true then
        let r := append_attribute st.nodes st.attrs st.cursor
        let a := r.2.2
        let st1 := set_attr_name { st with nodes := r.1, attrs := r.2.1 } a (some s1)
        let s2 := skipWhile ct_symbol (st.buf.drop s1) s1
        if peek st.buf s2 = 0 then some none
        else
          let ch := peek st.buf s2
          let buf1 := poke st.buf s2 0
          let s3 := s2 + 1
          if peek buf1 s3 = 0 then some none
          else
            let s4 := if is_chartype ch ct_space = true then skipWhile ct_space (buf1.drop s3) s3
              else s3
            if is_chartype ch ct_space = true ∧ peek buf1 s4 = 0 then some none
            else
              let ch1 := if is_chartype ch ct_space = true then peek buf1 s4 else ch
              let s5 := if is_chartype ch ct_space = true then s4 + 1 else s3
              if ch1 = 61 then
                let s6 := skipWhile ct_space (buf1.drop s5) s5
                if peek buf1 s6 = 0 then some none
                else if peek buf1 s6 = 39 ∨ peek buf1 s6 = 34 then
                  let ch2 := peek buf1 s6
                  let st2 := set_attr_value st1 a (some (s6 + 1))
                  match strconv_attribute o.parse_escapes o.parse_wnorm_attribute
                      o.parse_wconv_attribute o.parse_eol buf1 (s6 + 1) ch2 with
                  | none => none
                  | some (none, _) => some none
                  | some (some s7, buf2) =>
                    if is_chartype (peek buf2 s7) ct_start_symbol = true then some none
                    else parse_attributes o n { st2 with buf := buf2, s := s7 }
                else some none
              else some none
      else if peek st.buf s1 = 47 then
        if peek st.buf (s1 + 1) ≠ 62 then some none
        else (POPNODE { st with s := s1 + 2 }).map some
      else if peek st.buf s1 = 62 then some (some { st with s := s1 + 1 })
      else some none

/-- The branch `'<#...'` of `parse`, entered with `s` at the first byte of the
element name. -/
def parse_element (o : parse_options) (st : parse_state) : Option (Option parse_state) :=
  let st1 := set_cursor_name (PUSHNODE st node_element) (some st.s)
  let s1 := skipWhile ct_symbol (st.buf.drop st.s) st.s
  if peek st.buf s1 = 0 then some none
  else
    let ch := peek st.buf s1
    let buf1 := poke st.buf s1 0
    let s2 := s1 + 1
    if peek buf1 s2 = 0 then some none
    else if ch = 47 then
      if peek buf1 s2 ≠ 62 then some none
      else (POPNODE { st1 with buf := buf1, s := s2 + 1 }).map some
    else if ch = 62 then some (some { st1 with buf := buf1, s := s2 })
    else if is_chartype ch ct_space = true then
      parse_attributes o (buf1.length + 1) { st1 with buf := buf1, s := s2 }
    else some none

/-- The loop `while (*s && is_chartype(*s, ct_symbol)) { if (*s++ != *name++) return false; }`
of the closing tag, over the bytes from `s` on.  The result is `none` for
`return false` and the pointers `s` and `name` otherwise. -/
def close_loop (buf : List Nat) : List Nat → Nat → Nat → Option (Nat × Nat)
  | [], s, name => some (s, name)
  | c :: r, s, name =>
    if c ≠ 0 ∧ is_chartype c ct_symbol = true then
      if c ≠ peek buf name then none else close_loop buf r (s + 1) (name + 1)
    else some (s, name)

/-- The branch `'</...'` of `parse`, entered with `s` after the `'/'`. -/
def parse_close (st : parse_state) : Option (Option parse_state) :=
  match (node_at st.nodes st.cursor).name with
  | none => some none
  | some name =>
    match close_loop st.buf (st.buf.drop st.s) st.s name with
    | none => some none
    | some (s1, name1) =>
      if peek st.buf name1 ≠ 0 then some none
      else
        match POPNODE st with
        | none => none
        | some st1 =>
          let s2 := skipWhile ct_space (st.buf.drop s1) s1
          if peek st.buf s2 = 0 then some none
          else if peek st.buf s2 ≠ 62 then some none
          else some (some { st1 with s := s2 + 1 })

/-- The code of `parse` from the label `LOC_TAG` to the end of the branch
`if (*s == '<')`. -/
def parse_tag (o : parse_options) (st : parse_state) : Option (Option parse_state) :=
  if peek st.buf st.s = 63 then parse_pi_tag o { st with s := st.s + 1 }
  else if peek st.buf st.s = 33 then parse_exclam o { st with s := st.s + 1 }
  else if is_chartype (peek st.buf st.s) ct_start_symbol = true then parse_element o st
  else if peek st.buf st.s = 47 then parse_close { st with s := st.s + 1 }
  else some none

/-- The main loop `while (*s != 0) { ... }` of `parse`; every iteration spends
one unit of fuel.  A result `some (some st)` is the state in which the loop is
left, by its condition or by `break`. -/
def parse_loop (o : parse_options) : Nat → parse_state → Option (Option parse_state)
  | 0, _ => none
  | n + 1, st =>
    if peek st.buf st.s = 0 then some (some st)
    else if peek st.buf st.s = 60 then
      match parse_tag o { st with s := st.s + 1 } with
      | some (some st1) => parse_loop o n st1
      | some none => some none
      | none => none
    else
      let mark := st.s
      let s1 := skipWhile ct_space (st.buf.drop st.s) st.s
      if (mark = s1 ∨ o.parse_ws_pcdata = false) ∧ (peek st.buf s1 = 0 ∨ peek st.buf s1 = 60) then
        parse_loop o n { st with s := s1 }
      else
        if o.parse_ext_pcdata = true ∨ (node_at st.nodes st.cursor).type ≠ node_document then
          let st1 := set_cursor_value (PUSHNODE st node_pcdata) (some mark)
          match strconv_pcdata o.parse_escapes o.parse_eol st1.buf mark with
          | none => none
          | some (none, _) => some none
          | some (some s2, buf1) =>
            match POPNODE { st1 with buf := buf1, s := s2 } with
            | none => none
            | some st2 =>
              match parse_tag o st2 with
              | some (some st3) => parse_loop o n st3
              | some none => some none
              | none => none
        else
          let s2 := scanfor1 (fun c => c = 60) (st.buf.drop mark) mark
          if peek st.buf s2 = 0 then some (some { st with s := s2 })
          else
            match parse_tag o { st with s := s2 } with
            | some (some st3) => parse_loop o n st3
            | some none => some none
            | none => none

/-- Model of `xml_parser::parse(s, xmldoc, optmsk)` on the memory `st`, whose
cursor is not read: the result is `some none` for `return false` and the
final memory for `return true`. -/
def parse (o : parse_options) (st : parse_state) (s xmldoc : Option Nat) :
    Option (Option parse_state) :=
  match s, xmldoc with
  | some s0, some doc =>
    match parse_loop o (st.buf.length + 1) { st with s := s0, cursor := doc } with
    | some (some st1) => if st1.cursor ≠ doc then some none else some (some st1)
    | some none => some none
    | none => none
  | _, _ => some none

/-- Model of `xml_document::parse(xmlstr, options)` on a fresh document: the
root is allocated, its parent is set to itself, and the parser is run on the
string at the start of the buffer. -/
def xml_document_parse (o : parse_options) (xmlstr : List Nat) : Option (Option parse_state) :=
  parse o { buf := xmlstr, s := 0, cursor := 0,
            nodes := [{ xml_node_struct.new node_document with parent := some 0 }],
            attrs := [] } (some 0) (some 0)

/-! ## Reading the tree -/

/-- The walk `for (cur = first; cur; cur = cur->next_sibling)` over a sibling
list, with one unit of fuel for each node visited. -/
def sibling_walk (nodes : List xml_node_struct) : Nat → Option Nat → List Nat
  | 0, _ => []
  | _ + 1, none => []
  | n + 1, some p => p :: sibling_walk nodes n (node_at nodes p).next_sibling

/-- The walk `for (cur = first; cur; cur = cur->next_attribute)` over an
attribute list. -/
def attribute_walk (attrs : List xml_attribute_struct) : Nat → Option Nat → List Nat
  | 0, _ => []
  | _ + 1, none => []
  | n + 1, some a => a :: attribute_walk attrs n (attr_at attrs a).next_attribute

/-- The C string that the pointer `p` points to in `buf`; `none` for the null
pointer. -/
def cstrOpt (buf : List Nat) (p : Option Nat) : Option (List Nat) :=
  p.map (cstrAt buf)

/-- A document tree read off the memory: the type of a node, its name and
value as strings, its attributes as pairs of name and value, its children. -/
inductive xml_tree
  | node (type : xml_node_type) (name value : Option (List Nat))
      (attributes : List (Option (List Nat) × Option (List Nat))) (children : List xml_tree)

/-- The tree below the node `p`, read along the child and attribute lists down
to depth `d`. -/
def tree_of (st : parse_state) : Nat → Nat → xml_tree
  | 0, p =>
    xml_tree.node (node_at st.nodes p).type (cstrOpt st.buf (node_at st.nodes p).name)
      (cstrOpt st.buf (node_at st.nodes p).value) [] []
  | d + 1, p =>
    xml_tree.node (node_at st.nodes p).type (cstrOpt st.buf (node_at st.nodes p).name)
      (cstrOpt st.buf (node_at st.nodes p).value)
      ((attribute_walk st.attrs st.attrs.length (node_at st.nodes p).first_attribute).map
        (fun a => (cstrOpt st.buf (attr_at st.attrs a).name,
          cstrOpt st.buf (attr_at st.attrs a).value)))
      ((sibling_walk st.nodes st.nodes.length (node_at st.nodes p).first_child).map
        (tree_of st d))

/-- The tree read off the final memory of `xml_document_parse`, down to depth
`d`: `some none` when the parser returns `false`. -/
def parsed_tree (o : parse_options) (xmlstr : List Nat) (d : Nat) : Option (Option xml_tree) :=
  (xml_document_parse o xmlstr).map (Option.map (fun st => tree_of st d 0))

/-- The children of the node `p` that are elements. -/
def element_children (st : parse_state) (p : Nat) : List Nat :=
  (sibling_walk st.nodes st.nodes.length (node_at st.nodes p).first_child).filter
    (fun c => decide ((node_at st.nodes c).type = node_element))

/-! ## Where a decoder stops -/

/-- The first position at which the scan of the bytes `rest` ends: at index
`i` stands a NUL or the terminator `P` starts, and at no index before. -/
def FirstStop (P : List Nat → Prop) (rest : List Nat) (i : Nat) : Prop :=
  (rd (rest.drop i) = 0 ∨ P (rest.drop i)) ∧
    ∀ j, j < i → rd (rest.drop j) ≠ 0 ∧ ¬ P (rest.drop j)

/-- A byte that `strconv_escape` can read over after an `'&'`: `'#'`, `';'`, a
digit, `A`-`F` or a small letter. -/
def RefByte (c : Nat) : Prop :=
  c = 35 ∨ c = 59 ∨ (48 ≤ c ∧ c ≤ 57) ∨ (65 ≤ c ∧ c ≤ 70) ∨ (97 ≤ c ∧ c ≤ 122)

instance (c : Nat) : Decidable (RefByte c) := by
  unfold RefByte; infer_instance

/-- What every branch of `strconv_escape` comes to: the pointer returned is
`1 + k` bytes after the `'&'`, the `k` bytes are of the kind a reference is
made of, and the gap invariant holds again for the bytes after them. -/
def EscapeStep (pre r : List Nat) (s : Nat) (e : List Nat × Nat × gap) : Prop :=
  ∃ (out' : List Nat) (k : Nat), k ≤ r.length ∧ (∀ x ∈ r.take k, RefByte x) ∧
    e.2.1 = s + 1 + k ∧ GapInv pre out' (r.drop k) e.1 (s + 1 + k) e.2.2

/-- What the run of a decoder comes to.  With `i` the first index at which a
NUL stands or the terminator `P` starts in the bytes `rest` from the start
position on: the decoder returns the null pointer when no terminator starts
there, and the position `off` bytes after the start of the terminator
otherwise; the buffer then holds the decoded text `out`, a NUL, and `Y`, as
long together as the `i` bytes read and the first byte of the terminator, and
is as it was outside them. -/
def DecoderRun (P : List Nat → Prop) (off : Nat) (pre rest : List Nat)
    (res : Option (Option Nat × List Nat)) : Prop :=
  ∃ i : Nat, FirstStop P rest i ∧ i ≤ rest.length ∧
    ((P (rest.drop i) ∧ ∃ out Y : List Nat, out.length + Y.length = i ∧
        res = some (some (pre.length + i + off),
          pre ++ (out ++ 0 :: (Y ++ rest.drop (i + 1))))) ∨
      (¬ P (rest.drop i) ∧ ∃ b : List Nat, res = some (none, b)))

/-- The terminator of three bytes `a`, `b`, `c` starts the bytes `l`. -/
def StartsWith3 (a b c : Nat) (l : List Nat) : Prop :=
  peek l 0 = a ∧ peek l 1 = b ∧ peek l 2 = c

instance (a b c : Nat) (l : List Nat) : Decidable (StartsWith3 a b c l) := by
  unfold StartsWith3; infer_instance

/-! ## Reference text of whitespace normalization -/

/-- Reference for `opt_wnorm`, written from the specification and not from the
code: every run of whitespace in the bytes becomes one space `' '`, every
other byte is kept.  The flag `inws` says that the byte before was
whitespace, so that whitespace that follows adds nothing; `collapse_ws true`
drops the whitespace at the front. -/
def collapse_ws : Bool → List Nat → List Nat
  | _, [] => []
  | inws, c :: r =>
    if is_chartype c ct_space = true then
      if inws = true then collapse_ws true r else 32 :: collapse_ws true r
    else c :: collapse_ws false r

/-- The terminator of two bytes `a`, `b` starts the bytes `l`. -/
def StartsWith2 (a b : Nat) (l : List Nat) : Prop := peek l 0 = a ∧ peek l 1 = b

instance (a b : Nat) (l : List Nat) : Decidable (StartsWith2 a b l) := by
  unfold StartsWith2; infer_instance

/-- The bytes `l` come to their end, a NUL, before the terminator `P` starts
anywhere in them. -/
def Unterminated (P : List Nat → Prop) (l : List Nat) : Prop :=
  ∃ i : Nat, FirstStop P l i ∧ ¬ P (l.drop i)

instance (P : List Nat → Prop) [DecidablePred P] (rest : List Nat) (i : Nat) :
    Decidable (FirstStop P rest i) := by
  unfold FirstStop; infer_instance

/-! ## Processing instructions -/

/-- The target `t` of a processing instruction is `xml` in some letter case. -/
def IsXmlName (t : List Nat) : Prop :=
  t.length = 3 ∧ (peek t 0 = 120 ∨ peek t 0 = 88) ∧ (peek t 1 = 109 ∨ peek t 1 = 77) ∧
    (peek t 2 = 108 ∨ peek t 2 = 76)

instance (t : List Nat) : Decidable (IsXmlName t) := by
  unfold IsXmlName
  infer_instance

/-! ## Node handles (`xml_node`, `xml_attribute`) -/

/-- The handle `xml_node`: its only field is the pointer `_root`, and the
empty handle `xml_node()` holds the null pointer. -/
abbrev xml_node := Option Nat

/-- The handle `xml_attribute`, with the pointer `_attr`. -/
abbrev xml_attribute := Option Nat

/-- The function `::strcmp` of the C library, which the file calls by the name
`strcmp`, on the strings that start at the heads of `a` and `b`: the bytes are
compared up to the first difference or NUL; a list that ends reads as NUL. -/
def strcmp : List Nat → List Nat → Int
  | [], [] => 0
  | [], d :: _ => 0 - (d : Int)
  | c :: _, [] => (c : Int)
  | c :: r, d :: t => if c ≠ d then (c : Int) - (d : Int) else if c = 0 then 0 else strcmp r t

/-- The bytes of a C string: the bytes before the first NUL. -/
def cstr (a : List Nat) : List Nat := a.takeWhile (fun c => c != 0)

/-- The test `p && !strcmp(name, p)` on a name or value pointer `p` into the
memory `mem`. -/
def str_is (mem : List Nat) (name : List Nat) (p : Option Nat) : Bool :=
  match p with
  | none => false
  | some q => decide (strcmp name (mem.drop q) = 0)

/-- `xml_node::empty()`. -/
def xml_node.empty (n : xml_node) : Bool := n.isNone

/-- `xml_node::type()`. -/
def xml_node.type (nodes : List xml_node_struct) (n : xml_node) : xml_node_type :=
  match n with
  | some r => (node_at nodes r).type
  | none => node_null

/-- `xml_node::type_document()`:
`_root && _root == _root->parent && _root->type == node_document`. -/
def xml_node.type_document (nodes : List xml_node_struct) (n : xml_node) : Bool :=
  match n with
  | some r => decide (some r = (node_at nodes r).parent ∧ (node_at nodes r).type = node_document)
  | none => false

/-- `xml_node::parent()`. -/
def xml_node.parent (nodes : List xml_node_struct) (n : xml_node) : xml_node :=
  match n with
  | some r => if xml_node.type_document nodes (some r) = false then (node_at nodes r).parent
    else none
  | none => none

/-- The loop `for (i = first; i; i = i->next_sibling) if (i->name && !strcmp(name, i->name))
return xml_node(i);` of `xml_node::child`, with one unit of fuel for each
node visited; `some none` is the empty handle that is returned after the loop. -/
def child_loop (nodes : List xml_node_struct) (mem name : List Nat) :
    Nat → Option Nat → Option xml_node
  | 0, _ => none
  | _ + 1, none => some none
  | n + 1, some i =>
    if str_is mem name (node_at nodes i).name = true then some (some i)
    else child_loop nodes mem name n (node_at nodes i).next_sibling

/-- `xml_node::child(name)`; the loop is run with the fuel given. -/
def xml_node.child (fuel : Nat) (nodes : List xml_node_struct) (mem : List Nat) (this : xml_node)
    (name : List Nat) : Option xml_node :=
  match this with
  | some r => child_loop nodes mem name fuel (node_at nodes r).first_child
  | none => some none

/-- The loop of `xml_node::attribute` over the attribute list. -/
def attribute_loop (attrs : List xml_attribute_struct) (mem name : List Nat) :
    Nat → Option Nat → Option xml_attribute
  | 0, _ => none
  | _ + 1, none => some none
  | n + 1, some i =>
    if str_is mem name (attr_at attrs i).name = true then some (some i)
    else attribute_loop attrs mem name n (attr_at attrs i).next_attribute

/-- `xml_node::attribute(name)`. -/
def xml_node.attribute (fuel : Nat) (nodes : List xml_node_struct)
    (attrs : List xml_attribute_struct) (mem : List Nat) (this : xml_node) (name : List Nat) :
    Option xml_attribute :=
  match this with
  | none => some none
  | some r => attribute_loop attrs mem name fuel (node_at nodes r).first_attribute

/-- The statement `if (n._root->next_sibling) n._root->next_sibling->prev_sibling =
n._root->prev_sibling; else _root->last_child = n._root->prev_sibling;` of
`xml_node::remove_child`, for `_root = r` and `n._root = c`. -/
def relink_next (nodes : List xml_node_struct) (r c : Nat) : List xml_node_struct :=
  match (node_at nodes c).next_sibling with
  | some nx =>
    nodes.set nx { node_at nodes nx with prev_sibling := (node_at nodes c).prev_sibling }
  | none => nodes.set r { node_at nodes r with last_child := (node_at nodes c).prev_sibling }

/-- The statement `if (n._root->prev_sibling) n._root->prev_sibling->next_sibling =
n._root->next_sibling; else _root->first_child = n._root->next_sibling;` of
`xml_node::remove_child`. -/
def relink_prev (nodes : List xml_node_struct) (r c : Nat) : List xml_node_struct :=
  match (node_at nodes c).prev_sibling with
  | some pv =>
    nodes.set pv { node_at nodes pv with next_sibling := (node_at nodes c).next_sibling }
  | none => nodes.set r { node_at nodes r with first_child := (node_at nodes c).next_sibling }

/-- `xml_node::remove_child(const xml_node& n)`.  The call `n._root->free()`
at its end releases the strings that the removed nodes own and leaves every
record as it is; the model, in which strings are not released, has nothing to
do for it. -/
def xml_node.remove_child (nodes : List xml_node_struct) (this n : xml_node) :
    List xml_node_struct :=
  match this with
  | none => nodes
  | some r =>
    if xml_node.parent nodes n ≠ some r then nodes
    else
      match n with
      | none => nodes
      | some c => relink_prev (relink_next nodes r c) r c

/-- `xml_node::append_child(type)`: the nodes after the call and the handle
returned. -/
def xml_node.append_child (nodes : List xml_node_struct) (this : xml_node)
    (type : xml_node_type) : List xml_node_struct × xml_node :=
  match this with
  | none => (nodes, none)
  | some r =>
    if ((node_at nodes r).type ≠ node_element ∧ (node_at nodes r).type ≠ node_document) ∨
        type = node_document ∨ type = node_null then (nodes, none)
    else ((append_node nodes r type).1, some (append_node nodes r type).2)

/-! ## Sibling lists -/

/-- The list of nodes that the walk along `next_sibling` from the pointer `p`
visits before it comes to the null pointer. -/
def SiblingList (nodes : List xml_node_struct) : Option Nat → List Nat → Prop
  | p, [] => p = none
  | p, x :: xs => p = some x ∧ SiblingList nodes (node_at nodes x).next_sibling xs

/-- The list of attributes that the walk along `next_attribute` from the
pointer `p` visits. -/
def AttributeList (attrs : List xml_attribute_struct) : Option Nat → List Nat → Prop
  | p, [] => p = none
  | p, x :: xs => p = some x ∧ AttributeList attrs (attr_at attrs x).next_attribute xs

/-- A consistent doubly linked sibling list: the walk from `first` visits the
nodes `l`, the `prev_sibling` of each is the node before it (`prev` for the
first), and `last` is the last node of `l` (`prev` when `l` is empty). -/
def ChildList (nodes : List xml_node_struct) : Option Nat → Option Nat → List Nat →
    Option Nat → Prop
  | prev, first, [], last => first = none ∧ last = prev
  | prev, first, x :: xs, last =>
    first = some x ∧ (node_at nodes x).prev_sibling = prev ∧
      ChildList nodes (some x) (node_at nodes x).next_sibling xs last

/-- A consistent doubly linked attribute list. -/
def AttrList (attrs : List xml_attribute_struct) : Option Nat → Option Nat → List Nat →
    Option Nat → Prop
  | prev, first, [], last => first = none ∧ last = prev
  | prev, first, x :: xs, last =>
    first = some x ∧ (attr_at attrs x).prev_attribute = prev ∧
      AttrList attrs (some x) (attr_at attrs x).next_attribute xs last

instance decSiblingList (nodes : List xml_node_struct) : (p : Option Nat) → (l : List Nat) →
    Decidable (SiblingList nodes p l)
  | _, [] => inferInstanceAs (Decidable (_ = _))
  | _, x :: xs =>
    have := decSiblingList nodes (node_at nodes x).next_sibling xs
    inferInstanceAs (Decidable (_ ∧ _))

instance decAttributeList (attrs : List xml_attribute_struct) : (p : Option Nat) →
    (l : List Nat) → Decidable (AttributeList attrs p l)
  | _, [] => inferInstanceAs (Decidable (_ = _))
  | _, x :: xs =>
    have := decAttributeList attrs (attr_at attrs x).next_attribute xs
    inferInstanceAs (Decidable (_ ∧ _))

instance decChildList (nodes : List xml_node_struct) : (prev first : Option Nat) →
    (l : List Nat) → (last : Option Nat) → Decidable (ChildList nodes prev first l last)
  | _, _, [], _ => inferInstanceAs (Decidable (_ ∧ _))
  | _, _, x :: xs, last =>
    have := decChildList nodes (some x) (node_at nodes x).next_sibling xs last
    inferInstanceAs (Decidable (_ ∧ _ ∧ _))

instance decAttrList (attrs : List xml_attribute_struct) : (prev first : Option Nat) →
    (l : List Nat) → (last : Option Nat) → Decidable (AttrList attrs prev first l last)
  | _, _, [], _ => inferInstanceAs (Decidable (_ ∧ _))
  | _, _, x :: xs, last =>
    have := decAttrList attrs (some x) (attr_at attrs x).next_attribute xs last
    inferInstanceAs (Decidable (_ ∧ _ ∧ _))

/-- The node before the pointer that follows the nodes `l`: the last node of
`l`, or `prev` when `l` is empty. -/
def lastOr : Option Nat → List Nat → Option Nat
  | prev, [] => prev
  | _, x :: xs => lastOr (some x) xs

/-- A segment of a doubly linked sibling list: the walk from `first` visits the
nodes `l` and then comes to the pointer `next`, and the `prev_sibling` of each
node of `l` is the node before it (`prev` for the first). -/
def SibSeg (nodes : List xml_node_struct) : Option Nat → Option Nat → List Nat →
    Option Nat → Prop
  | _, first, [], next => first = next
  | prev, first, x :: xs, next =>
    first = some x ∧ (node_at nodes x).prev_sibling = prev ∧
      SibSeg nodes (some x) (node_at nodes x).next_sibling xs next

/-! ## Sample documents -/

/-- The memory after `xml_document::parse` of `<r><a/><b x="1" y="2"/><b/></r>`. -/
def sample_doc1 : parse_state :=
  { buf := [60, 114, 0, 60, 97, 0, 62, 60, 98, 0, 120, 0, 34, 49, 0, 32, 121, 0, 34, 50, 0, 47, 62,
            60, 98, 0, 62, 60, 47, 114, 62],
    s := 31, cursor := 0,
    nodes := [{ xml_node_struct.new node_document with
                parent := some 0, first_child := some 1, last_child := some 1 },
      { xml_node_struct.new node_element with
        parent := some 0, name := some 1, first_child := some 2, last_child := some 4 },
      { xml_node_struct.new node_element with
        parent := some 1, name := some 4, next_sibling := some 3 },
      { xml_node_struct.new node_element with
        parent := some 1, name := some 8, prev_sibling := some 2, next_sibling := some 4,
        first_attribute := some 0, last_attribute := some 1 },
      { xml_node_struct.new node_element with
        parent := some 1, name := some 24, prev_sibling := some 3 }],
    attrs := [{ xml_attribute_struct.new with
                name := some 10, value := some 13, next_attribute := some 1 },
      { xml_attribute_struct.new with
        name := some 16, value := some 19, prev_attribute := some 0 }] }

/-- The memory after `xml_document::parse` of `<r><a><a>v</a></a></r>`. -/
def sample_doc2 : parse_state :=
  { buf := [60, 114, 0, 60, 97, 0, 60, 97, 0, 118, 0, 47, 97, 62, 60, 47, 97, 62, 60, 47, 114, 62],
    s := 22, cursor := 0,
    nodes := [{ xml_node_struct.new node_document with
                parent := some 0, first_child := some 1, last_child := some 1 },
      { xml_node_struct.new node_element with
        parent := some 0, name := some 1, first_child := some 2, last_child := some 2 },
      { xml_node_struct.new node_element with
        parent := some 1, name := some 4, first_child := some 3, last_child := some 3 },
      { xml_node_struct.new node_element with
        parent := some 2, name := some 7, first_child := some 4, last_child := some 4 },
      { xml_node_struct.new node_pcdata with parent := some 3, value := some 9 }],
    attrs := [] }

/-- The memory after `xml_document::parse` of `<r><a id="1"/></r>`. -/
def sample_doc3 : parse_state :=
  { buf := [60, 114, 0, 60, 97, 0, 105, 100, 0, 34, 49, 0, 47, 62, 60, 47, 114, 62],
    s := 18, cursor := 0,
    nodes := [{ xml_node_struct.new node_document with
                parent := some 0, first_child := some 1, last_child := some 1 },
      { xml_node_struct.new node_element with
        parent := some 0, name := some 1, first_child := some 2, last_child := some 2 },
      { xml_node_struct.new node_element with
        parent := some 1, name := some 4, first_attribute := some 0, last_attribute := some 0 }],
    attrs := [{ xml_attribute_struct.new with name := some 6, value := some 10 }] }

/-- The memory after `xml_document::parse` of `<r><a/><a><b/></a></r>`. -/
def sample_doc4 : parse_state :=
  { buf := [60, 114, 0, 60, 97, 0, 62, 60, 97, 0, 60, 98, 0, 62, 60, 47, 97, 62, 60, 47, 114, 62],
    s := 22, cursor := 0,
    nodes := [{ xml_node_struct.new node_document with
                parent := some 0, first_child := some 1, last_child := some 1 },
      { xml_node_struct.new node_element with
        parent := some 0, name := some 1, first_child := some 2, last_child := some 3 },
      { xml_node_struct.new node_element with
        parent := some 1, name := some 4, next_sibling := some 3 },
      { xml_node_struct.new node_element with
        parent := some 1, name := some 8, first_child := some 4, last_child := some 4,
        prev_sibling := some 2 },
      { xml_node_struct.new node_element with parent := some 3, name := some 11 }],
    attrs := [] }

/-! ## Depth-first search (`first_element`, `first_element_by_value`,
`first_element_by_attribute`) -/

/-- The loop `for (i = first; i; i = i->next_sibling)` of
`impl::first_element(node, name, pred)` for `pred = &strcmp`, at the node `i`.
The call `first_element(i, name, pred)` that it makes for a node with children
is the loop at `i->first_child`; every iteration spends one unit of fuel and
runs the call and the rest of the loop on the fuel left.  The result `some none`
is the empty handle, `none` a run out of fuel. -/
def first_element_loop (nodes : List xml_node_struct) (mem name : List Nat) :
    Nat → Option Nat → Option xml_node
  | 0, _ => none
  | _ + 1, none => some none
  | n + 1, some i =>
    if str_is mem name (node_at nodes i).name = true then some (some i)
    else if (node_at nodes i).first_child ≠ none then
      match first_element_loop nodes mem name n (node_at nodes i).first_child with
      | none => none
      | some (some found) => some (some found)
      | some none => first_element_loop nodes mem name n (node_at nodes i).next_sibling
    else first_element_loop nodes mem name n (node_at nodes i).next_sibling

/-- `impl::first_element(node, name, &strcmp)`. -/
def impl.first_element (fuel : Nat) (nodes : List xml_node_struct) (mem : List Nat) (node : Nat)
    (name : List Nat) : Option xml_node :=
  first_element_loop nodes mem name fuel (node_at nodes node).first_child

/-- `xml_node::first_element(name)`. -/
def xml_node.first_element (fuel : Nat) (nodes : List xml_node_struct) (mem : List Nat)
    (this : xml_node) (name : List Nat) : Option xml_node :=
  match this with
  | none => some none
  | some r => impl.first_element fuel nodes mem r name

/-- The inner loop of `impl::first_element_by_value`:
`for (j = first; j; j = j->next_sibling) if (j->type == node_pcdata && j->value &&
!pred(value, j->value)) return xml_node(i);`.  The result says whether the loop
returns. -/
def pcdata_loop (nodes : List xml_node_struct) (mem value : List Nat) :
    Nat → Option Nat → Option Bool
  | 0, _ => none
  | _ + 1, none => some false
  | n + 1, some j =>
    if (node_at nodes j).type = node_pcdata ∧ str_is mem value (node_at nodes j).value = true then
      some true
    else pcdata_loop nodes mem value n (node_at nodes j).next_sibling

/-- The loop of `impl::first_element_by_value(node, name, value, pred)` for
`pred = &strcmp`, at the node `i`. -/
def first_element_by_value_loop (nodes : List xml_node_struct) (mem name value : List Nat) :
    Nat → Option Nat → Option xml_node
  | 0, _ => none
  | _ + 1, none => some none
  | n + 1, some i =>
    if str_is mem name (node_at nodes i).name = true then
      match pcdata_loop nodes mem value n (node_at nodes i).first_child with
      | none => none
      | some true => some (some i)
      | some false =>
        first_element_by_value_loop nodes mem name value n (node_at nodes i).next_sibling
    else if (node_at nodes i).first_child ≠ none then
      match first_element_by_value_loop nodes mem name value n (node_at nodes i).first_child with
      | none => none
      | some (some found) => some (some found)
      | some none =>
        first_element_by_value_loop nodes mem name value n (node_at nodes i).next_sibling
    else first_element_by_value_loop nodes mem name value n (node_at nodes i).next_sibling

/-- `xml_node::first_element_by_value(name, value)`. -/
def xml_node.first_element_by_value (fuel : Nat) (nodes : List xml_node_struct) (mem : List Nat)
    (this : xml_node) (name value : List Nat) : Option xml_node :=
  match this with
  | none => some none
  | some r => first_element_by_value_loop nodes mem name value fuel (node_at nodes r).first_child

/-- The inner loop of `impl::first_element_by_attribute`:
`for (j = first; j; j = j->next_attribute) if (j->name && j->value &&
!pred(attr_name, j->name) && !pred(attr_value, j->value)) return xml_node(i);`. -/
def attribute_match_loop (attrs : List xml_attribute_struct) (mem attr_name attr_value : List Nat) :
    Nat → Option Nat → Option Bool
  | 0, _ => none
  | _ + 1, none => some false
  | n + 1, some j =>
    if str_is mem attr_name (attr_at attrs j).name = true ∧
        str_is mem attr_value (attr_at attrs j).value = true then some true
    else attribute_match_loop attrs mem attr_name attr_value n (attr_at attrs j).next_attribute

/-- The loop of `impl::first_element_by_attribute(node, attr_name, attr_value, pred)`,
the variant without a name, for `pred = &strcmp`, at the node `i`.  The call
that the loop makes for a node with children is
`first_element_by_attribute(i->first_child, ...)`, whose loop starts at the
first child of `i->first_child`. -/
def first_element_by_attribute_loop (nodes : List xml_node_struct)
    (attrs : List xml_attribute_struct) (mem attr_name attr_value : List Nat) :
    Nat → Option Nat → Option xml_node
  | 0, _ => none
  | _ + 1, none => some none
  | n + 1, some i =>
    match attribute_match_loop attrs mem attr_name attr_value n (node_at nodes i).first_attribute with
    | none => none
    | some true => some (some i)
    | some false =>
      match (node_at nodes i).first_child with
      | some c =>
        match first_element_by_attribute_loop nodes attrs mem attr_name attr_value n
            (node_at nodes c).first_child with
        | none => none
        | some (some found) => some (some found)
        | some none =>
          first_element_by_attribute_loop nodes attrs mem attr_name attr_value n
            (node_at nodes i).next_sibling
      | none =>
        first_element_by_attribute_loop nodes attrs mem attr_name attr_value n
          (node_at nodes i).next_sibling

/-- `xml_node::first_element_by_attribute(attr_name, attr_value)`. -/
def xml_node.first_element_by_attribute (fuel : Nat) (nodes : List xml_node_struct)
    (attrs : List xml_attribute_struct) (mem : List Nat) (this : xml_node)
    (attr_name attr_value : List Nat) : Option xml_node :=
  match this with
  | none => some none
  | some r =>
    first_element_by_attribute_loop nodes attrs mem attr_name attr_value fuel
      (node_at nodes r).first_child

/-! ## Subtrees -/

/-- A list of sibling trees, in the shape in which the memory holds it: empty,
or a first node `p` with the forest `children` below it and the forest `next`
of its later siblings. -/
inductive forest
  | nil
  | node (p : Nat) (children next : forest)
deriving DecidableEq

/-- The nodes of a forest in pre-order: a node, its descendants, then its
later siblings. -/
def forest.preorder : forest → List Nat
  | .nil => []
  | .node p c n => p :: (c.preorder ++ n.preorder)

/-- The forest that starts at the pointer `q` is `t`: the walk along
`first_child` and `next_sibling` reads the nodes of `t`. -/
def IsForest (nodes : List xml_node_struct) : Option Nat → forest → Prop
  | q, .nil => q = none
  | q, .node p c n =>
    q = some p ∧ IsForest nodes (node_at nodes p).first_child c ∧
      IsForest nodes (node_at nodes p).next_sibling n

instance decIsForest (nodes : List xml_node_struct) : (q : Option Nat) → (t : forest) →
    Decidable (IsForest nodes q t)
  | _, .nil => inferInstanceAs (Decidable (_ = _))
  | _, .node p c n =>
    have := decIsForest nodes (node_at nodes p).first_child c
    have := decIsForest nodes (node_at nodes p).next_sibling n
    inferInstanceAs (Decidable (_ ∧ _ ∧ _))

/-! ## Paths (`first_element_by_path`) -/

/-- `strcmprange(lhs, rhs_begin, rhs_end)` for the string `lhs` and the bytes
`rhs` from `rhs_begin` to `rhs_end`. -/
def strcmprange : List Nat → List Nat → Int
  | lhs, [] => if rd lhs = 0 then 0 else 1
  | [], _ :: _ => 1
  | a :: l, c :: r => if a ≠ 0 ∧ a = c then strcmprange l r else 1

/-- The test `p && !strcmprange(p, path_segment, path_segment_end)` on a name
pointer `p` into the memory `mem`. -/
def range_is (mem seg : List Nat) (p : Option Nat) : Bool :=
  match p with
  | none => false
  | some q => decide (strcmprange (mem.drop q) seg = 0)

/-- The loop `while (*p == delimiter) ++p;` on the string `p`.  The result is
`none` when the loop runs past the end of the string, which it does for the
delimiter NUL. -/
def skip_delimiters (delimiter : Nat) : List Nat → Option (List Nat)
  | [] => if delimiter = 0 then none else some []
  | c :: r => if c = delimiter then skip_delimiters delimiter r else some (c :: r)

/-- The loop `while (*path_segment_end && *path_segment_end != delimiter) ++path_segment_end;`
from the pointer `path_segment`: the bytes of the segment and the pointer
`path_segment_end`. -/
def scan_segment (delimiter : Nat) : List Nat → List Nat × List Nat
  | [] => ([], [])
  | c :: r =>
    if c ≠ 0 ∧ c ≠ delimiter then
      (c :: (scan_segment delimiter r).1, (scan_segment delimiter r).2)
    else ([], c :: r)

/-- The loop `while (found.parent()) found = found.parent();`, with one unit
of fuel for each node visited. -/
def root_loop (nodes : List xml_node_struct) : Nat → Nat → Option Nat
  | 0, _ => none
  | n + 1, found =>
    match xml_node.parent nodes (some found) with
    | some p => root_loop nodes n p
    | none => some found

/-- The body of `xml_node::first_element_by_path(path, delimiter)` and its loop
over the children.  With `seg = none` the function is the call
`found.first_element_by_path(path, delimiter)` on the handle `found`; with
`seg = some s` it is the loop `for (j = ...; j; j = j->next_sibling)` at the
node `j = found`, for the bytes `s` of the segment and the pointer
`next_segment = path`.  Every call and every iteration spends one unit of
fuel.  The path is a string that is not the null pointer. -/
def first_element_by_path_run (nodes : List xml_node_struct) (mem : List Nat) (delimiter : Nat) :
    Nat → Option (List Nat) → xml_node → List Nat → Option xml_node
  | 0, _, _, _ => none
  | n + 1, none, found, path =>
    match found with
    | none => some none
    | some r =>
      if rd path = 0 then some (some r)
      else
        match (if rd path = delimiter then (root_loop nodes n r).map (fun f => (f, path.tail))
          else some (r, path)) with
        | none => none
        | some (f, path1) =>
          match skip_delimiters delimiter path1 with
          | none => none
          | some path_segment =>
            if (scan_segment delimiter path_segment).1 = [] then some (some f)
            else
              match skip_delimiters delimiter (scan_segment delimiter path_segment).2 with
              | none => none
              | some next_segment =>
                if rd path_segment = 46 ∧ (scan_segment delimiter path_segment).1.length = 1 then
                  first_element_by_path_run nodes mem delimiter n none (some f) next_segment
                else if rd path_segment = 46 ∧ rd path_segment.tail = 46 ∧
                    (scan_segment delimiter path_segment).1.length = 2 then
                  first_element_by_path_run nodes mem delimiter n none
                    (xml_node.parent nodes (some f)) next_segment
                else
                  first_element_by_path_run nodes mem delimiter n
                    (some (scan_segment delimiter path_segment).1) (node_at nodes f).first_child
                    next_segment
  | n + 1, some seg, j, next_segment =>
    match j with
    | none => some none
    | some i =>
      if range_is mem seg (node_at nodes i).name = true then
        match first_element_by_path_run nodes mem delimiter n none (some i) next_segment with
        | none => none
        | some (some subsearch) => some (some subsearch)
        | some none =>
          first_element_by_path_run nodes mem delimiter n (some seg)
            (node_at nodes i).next_sibling next_segment
      else
        first_element_by_path_run nodes mem delimiter n (some seg)
          (node_at nodes i).next_sibling next_segment

/-- `xml_node::first_element_by_path(path, delimiter)`. -/
def xml_node.first_element_by_path (fuel : Nat) (nodes : List xml_node_struct) (mem : List Nat)
    (this : xml_node) (path : List Nat) (delimiter : Nat) : Option xml_node :=
  first_element_by_path_run nodes mem delimiter fuel none this path

/-- The resolution of a path of names by child lookups, in the words of the
specification: `child(s1)`, then `child(s2)` of that, and so on. -/
def child_chain (fuel : Nat) (nodes : List xml_node_struct) (mem : List Nat) :
    List (List Nat) → xml_node → Option xml_node
  | [], n => some n
  | s :: rest, n =>
    match xml_node.child fuel nodes mem n s with
    | none => none
    | some c => child_chain fuel nodes mem rest c

/-- The node that a path of names leads to from the parent of the forest `t`:
the children named by the first segment are tried in list order, and the first
one from which the rest of the path leads to a node gives the result. -/
def find_path (nodes : List xml_node_struct) (mem : List Nat) :
    List (List Nat) → forest → Option Nat
  | _, .nil => none
  | [], .node _ _ _ => none
  | s :: rest, .node p c n =>
    if cstrOpt mem (node_at nodes p).name = some s then
      match (if rest = [] then some p else find_path nodes mem rest c) with
      | some r => some r
      | none => find_path nodes mem (s :: rest) n
    else find_path nodes mem (s :: rest) n

/-- A name of a path: bytes other than NUL and the delimiter, at least one,
and not `.` or `..`. -/
def PlainName (delimiter : Nat) (s : List Nat) : Prop :=
  s ≠ [] ∧ (∀ c ∈ s, c ≠ 0 ∧ c ≠ delimiter) ∧ s ≠ [46] ∧ s ≠ [46, 46]

instance (delimiter : Nat) (s : List Nat) : Decidable (PlainName delimiter s) := by
  unfold PlainName
  infer_instance

/-- The chain of `parent()` from the node `n` over the nodes `l` to the node
`top`, whose `parent()` is empty. -/
def ParentChain (nodes : List xml_node_struct) : Nat → List Nat → Nat → Prop
  | n, [], top => n = top ∧ xml_node.parent nodes (some n) = none
  | n, x :: xs, top => xml_node.parent nodes (some n) = some x ∧ ParentChain nodes x xs top

instance decParentChain (nodes : List xml_node_struct) : (n : Nat) → (l : List Nat) →
    (top : Nat) → Decidable (ParentChain nodes n l top)
  | _, [], _ => inferInstanceAs (Decidable (_ ∧ _))
  | _, x :: xs, top =>
    have := decParentChain nodes x xs top
    inferInstanceAs (Decidable (_ ∧ _))

/-! ## The tree walk (`xml_tree_walker`, `xml_node::traverse`) -/

/-- The object `xml_tree_walker`: the counter `_deep` and the state `user` of
the class that is derived from it to supply the callbacks. -/
structure xml_tree_walker (σ : Type) where
  deep : Int
  user : σ

/-- `xml_tree_walker::push()`. -/
def xml_tree_walker.push {σ : Type} (w : xml_tree_walker σ) : xml_tree_walker σ :=
  { w with deep := w.deep + 1 }

/-- `xml_tree_walker::pop()`. -/
def xml_tree_walker.pop {σ : Type} (w : xml_tree_walker σ) : xml_tree_walker σ :=
  { w with deep := w.deep - 1 }

/-- `xml_tree_walker::depth()`. -/
def xml_tree_walker.depth {σ : Type} (w : xml_tree_walker σ) : Int :=
  if w.deep > 0 then w.deep else 0

/-- `xml_node::traverse(walker)` and its loop over the children, for the
callbacks `begin_` and `end_` of the walker, which get the state of the
walker, the value of `depth()` and the node, and give their result and the
new state.  With `loop = false` the function is the call
`this.traverse(walker)`; with `loop = true` it is the loop
`for (i = ...; i; i = i->next_sibling)` at the node `i = this`, and the result
`false` says that the loop has made `traverse` return `false`.  Every call and
every iteration spends one unit of fuel. -/
def traverse_run {σ : Type} (nodes : List xml_node_struct)
    (begin_ end_ : σ → Int → xml_node → Bool × σ) :
    Nat → Bool → xml_node → xml_tree_walker σ → Option (Bool × xml_tree_walker σ)
  | 0, _, _, _ => none
  | n + 1, false, this, w =>
    if (begin_ w.user w.depth this).1 = false then
      some (false, { w with user := (begin_ w.user w.depth this).2 })
    else
      match this with
      | none =>
        some ((end_ (begin_ w.user w.depth none).2 w.depth none).1,
          { w with user := (end_ (begin_ w.user w.depth none).2 w.depth none).2 })
      | some r =>
        match traverse_run nodes begin_ end_ n true (node_at nodes r).first_child
            (xml_tree_walker.push { w with user := (begin_ w.user w.depth (some r)).2 }) with
        | none => none
        | some (false, w2) => some (false, w2)
        | some (true, w2) =>
          some ((end_ w2.pop.user w2.pop.depth (some r)).1,
            { w2.pop with user := (end_ w2.pop.user w2.pop.depth (some r)).2 })
  | n + 1, true, i, w =>
    match i with
    | none => some (true, w)
    | some c =>
      match traverse_run nodes begin_ end_ n false (some c) w with
      | none => none
      | some (false, w1) => some (false, w1)
      | some (true, w1) => traverse_run nodes begin_ end_ n true (node_at nodes c).next_sibling w1

/-- `xml_node::traverse(walker)`. -/
def xml_node.traverse {σ : Type} (fuel : Nat) (nodes : List xml_node_struct)
    (begin_ end_ : σ → Int → xml_node → Bool × σ) (this : xml_node) (w : xml_tree_walker σ) :
    Option (Bool × xml_tree_walker σ) :=
  traverse_run nodes begin_ end_ fuel false this w

/-- A call of a callback of the walker: `begin` or `end`, on a node, at a value
of `depth()`. -/
inductive walk_event
  | enter (p : Nat) (depth : Int)
  | leave (p : Nat) (depth : Int)
deriving DecidableEq

/-- The calls that a walk of the forest `t` makes, in the words of the
specification: for each tree `begin` on its root, the calls for its children
one level deeper, `end` on its root. -/
def forest.events : forest → Int → List walk_event
  | .nil, _ => []
  | .node p c n, d =>
    walk_event.enter p d :: (c.events (d + 1) ++ walk_event.leave p d :: n.events d)

/-- The state of the walker after the calls `es`, when no call returns
`false`. -/
def run_events {σ : Type} (begin_ end_ : σ → Int → xml_node → Bool × σ) :
    σ → List walk_event → σ
  | s, [] => s
  | s, walk_event.enter p d :: es => run_events begin_ end_ (begin_ s d (some p)).2 es
  | s, walk_event.leave p d :: es => run_events begin_ end_ (end_ s d (some p)).2 es

/-- The nodes of a forest in post-order: the descendants of a node, the node,
then its later siblings. -/
def forest.postorder : forest → List Nat
  | .nil => []
  | .node p c n => c.postorder ++ p :: n.postorder

/-- The nodes of a forest in pre-order, each with its distance from the parent
of the forest when the roots of the forest are at the distance `k`. -/
def forest.levels : forest → Nat → List (Nat × Nat)
  | .nil, _ => []
  | .node p c n, k => (p, k) :: (c.levels (k + 1) ++ n.levels k)

/-- The nodes of a forest, each with the forest of its children and its
distance from the parent of the forest. -/
def forest.subtrees : forest → Nat → List (Nat × forest × Nat)
  | .nil, _ => []
  | .node p c n, k => (p, c, k) :: (c.subtrees (k + 1) ++ n.subtrees k)

/-- The node and the depth of a call of `begin`. -/
def walk_event.entered : walk_event → Option (Nat × Int)
  | .enter p d => some (p, d)
  | .leave _ _ => none

/-- The node and the depth of a call of `end`. -/
def walk_event.left : walk_event → Option (Nat × Int)
  | .enter _ _ => none
  | .leave p d => some (p, d)

/-- A `begin` callback that records its call in the state of the walker and
returns `true`. -/
def log_begin (s : List walk_event) (d : Int) (n : xml_node) : Bool × List walk_event :=
  (true, s ++ [walk_event.enter (n.getD 0) d])

/-- An `end` callback that records its call in the state of the walker and
returns `true`. -/
def log_end (s : List walk_event) (d : Int) (n : xml_node) : Bool × List walk_event :=
  (true, s ++ [walk_event.leave (n.getD 0) d])

/-- The children of the element `r` of `sample_doc4` and their descendants. -/
def sample_forest4 : forest :=
  forest.node 2 forest.nil (forest.node 3 (forest.node 4 forest.nil forest.nil) forest.nil)

/-! ## Detaching an attribute (`xml_node::remove_attribute`) -/

/-- The loop `while (attr->prev_attribute) attr = attr->prev_attribute;` of
`xml_node::remove_attribute`, entered with a pointer `attr` that is not null;
every iteration spends one unit of fuel. -/
def first_attribute_loop (attrs : List xml_attribute_struct) : Nat → Nat → Option Nat
  | 0, _ => none
  | n + 1, attr =>
    match (attr_at attrs attr).prev_attribute with
    | some p => first_attribute_loop attrs n p
    | none => some attr

/-- The statement `if (a._attr->next_attribute) a._attr->next_attribute->prev_attribute =
a._attr->prev_attribute; else _root->last_attribute = a._attr->prev_attribute;`
of `xml_node::remove_attribute`, for `_root = r` and `a._attr = a`. -/
def relink_next_attribute (nodes : List xml_node_struct) (attrs : List xml_attribute_struct)
    (r a : Nat) : List xml_node_struct × List xml_attribute_struct :=
  match (attr_at attrs a).next_attribute with
  | some nx =>
    (nodes, attrs.set nx { attr_at attrs nx with prev_attribute := (attr_at attrs a).prev_attribute })
  | none =>
    (nodes.set r { node_at nodes r with last_attribute := (attr_at attrs a).prev_attribute }, attrs)

/-- The statement `if (a._attr->prev_attribute) a._attr->prev_attribute->next_attribute =
a._attr->next_attribute; else _root->first_attribute = a._attr->next_attribute;`
of `xml_node::remove_attribute`. -/
def relink_prev_attribute (nodes : List xml_node_struct) (attrs : List xml_attribute_struct)
    (r a : Nat) : List xml_node_struct × List xml_attribute_struct :=
  match (attr_at attrs a).prev_attribute with
  | some pv =>
    (nodes, attrs.set pv { attr_at attrs pv with next_attribute := (attr_at attrs a).next_attribute })
  | none =>
    (nodes.set r { node_at nodes r with first_attribute := (attr_at attrs a).next_attribute },
      attrs)

/-- `xml_node::remove_attribute(const xml_attribute& a)`.  The outer `none` is
a run that is out of fuel; the result `some none` is a run that reads
`attr->prev_attribute` through the null pointer: the function copies
`a._attr` to `attr` and enters the loop `while (attr->prev_attribute)` without
a test of `attr`.  The call `a._attr->free()` at the end, which releases the
strings that the attribute owns, changes no record and is not modelled. -/
def xml_node.remove_attribute (fuel : Nat) (nodes : List xml_node_struct)
    (attrs : List xml_attribute_struct) (this : xml_node) (a : xml_attribute) :
    Option (Option (List xml_node_struct × List xml_attribute_struct)) :=
  match this with
  | none => some (some (nodes, attrs))
  | some r =>
    match a with
    | none => some none
    | some a0 =>
      match first_attribute_loop attrs fuel a0 with
      | none => none
      | some attr =>
        if some attr ≠ (node_at nodes r).first_attribute then some (some (nodes, attrs))
        else
          let r1 := relink_next_attribute nodes attrs r a0
          some (some (relink_prev_attribute r1.1 r1.2 r a0))

/-- `xml_node::remove_attribute(const char* name)`:
`remove_attribute(attribute(name));`. -/
def xml_node.remove_attribute_named (fuel : Nat) (nodes : List xml_node_struct)
    (attrs : List xml_attribute_struct) (mem : List Nat) (this : xml_node) (name : List Nat) :
    Option (Option (List xml_node_struct × List xml_attribute_struct)) :=
  match xml_node.attribute fuel nodes attrs mem this name with
  | none => none
  | some a => xml_node.remove_attribute fuel nodes attrs this a

/-- `xml_node::remove_child(const char* name)`: `remove_child(child(name));`. -/
def xml_node.remove_child_named (fuel : Nat) (nodes : List xml_node_struct) (mem : List Nat)
    (this : xml_node) (name : List Nat) : Option (List xml_node_struct) :=
  match xml_node.child fuel nodes mem this name with
  | none => none
  | some n => some (xml_node.remove_child nodes this n)

/-! ## UTF-8 input (`strutf8_utf16`) -/

/-- One step of the fall-through `switch` of `strutf8_utf16`:
`ch <<= 6; ch += (*str++ & UTF8_BYTE_MASK_READ);`, on the pointer `str` and
the 32-bit `ch`. -/
def utf8_read_cont (buf : List Nat) (st : Nat × Nat) : Nat × Nat :=
  (st.1 + 1, ((st.2 <<< 6) % 2 ^ 32 + (peek buf st.1 % 256 &&& 0x3F)) % 2 ^ 32)

/-- Model of `strutf8_utf16(s, ch)`: returns the position after the last byte
read and the value stored in `ch`.  The bytes are read as `unsigned char`;
`~UTF8_FIRST_BYTE_MARK[length]` is the complement of the mark as an `int` of
32 bits. -/
def strutf8_utf16 (buf : List Nat) (s : Nat) : Nat × Nat :=
  let c := peek buf s % 256
  if c < 0x80 then (s + 1, c)
  else if c < 0xC0 then (s + 1, 32)
  else if c < 0xE0 then
    utf8_read_cont buf (s + 1, c &&& (2 ^ 32 - 1 - UTF8_FIRST_BYTE_MARK.getD 2 0))
  else if c < 0xF0 then
    utf8_read_cont buf
      (utf8_read_cont buf (s + 1, c &&& (2 ^ 32 - 1 - UTF8_FIRST_BYTE_MARK.getD 3 0)))
  else if c < 0xF8 then
    utf8_read_cont buf (utf8_read_cont buf
      (utf8_read_cont buf (s + 1, c &&& (2 ^ 32 - 1 - UTF8_FIRST_BYTE_MARK.getD 4 0))))
  else if c < 0xFC then
    utf8_read_cont buf (utf8_read_cont buf (utf8_read_cont buf
      (utf8_read_cont buf (s + 1, c &&& (2 ^ 32 - 1 - UTF8_FIRST_BYTE_MARK.getD 5 0)))))
  else (s + 1, 32)

/-! ## The allocator (`xml_allocator`) -/

/-- The record `xml_memory_block`, with the fields that its constructor
`xml_memory_block(): next(0), size(0)` sets.  A pointer to a block is an index
into the list of the blocks allocated; the array `data` is not part of the
model, in which a slot is named by its block and its offset in `data`. -/
structure xml_memory_block where
  next : Option Nat
  size : Nat
deriving DecidableEq

/-- The constructor `xml_memory_block()`. -/
def xml_memory_block.new : xml_memory_block := { next := none, size := 0 }

/-- The block that the pointer `i` points to. -/
def block_at (blocks : List xml_memory_block) (i : Nat) : xml_memory_block :=
  blocks.getD i xml_memory_block.new

/-- The object `xml_allocator` with the blocks allocated so far: `root` is the
pointer `_root`. -/
structure xml_allocator where
  blocks : List xml_memory_block
  root : Nat
deriving DecidableEq

/-- Model of `xml_allocator::memalloc(size)`: returns the allocator and the
slot, as the block and the offset of `buf` in its `data`.  The constant
`memory_block_size` is declared in `pugixml.hpp`; the model takes its value as
an argument.  The sum `_root->size + size` is formed without wrapping, as it
is in `size_t` for sizes up to `memory_block_size`. -/
def xml_allocator.memalloc (memory_block_size : Nat) (a : xml_allocator) (size : Nat) :
    xml_allocator × (Nat × Nat) :=
  if (block_at a.blocks a.root).size + size ≤ memory_block_size then
    ({ a with blocks := a.blocks.set a.root { block_at a.blocks a.root with
                          size := (block_at a.blocks a.root).size + size } },
      (a.root, (block_at a.blocks a.root).size))
  else
    let b := a.blocks.length
    let blocks1 := a.blocks ++ [xml_memory_block.new]
    let blocks2 := blocks1.set a.root { block_at blocks1 a.root with next := some b }
    ({ blocks := blocks2.set b { block_at blocks2 b with size := size }, root := b }, (b, 0))

/-- A run of `memalloc` requests of the sizes given: the allocator after them
and the slots returned, each as block, offset and size. -/
def memalloc_run (memory_block_size : Nat) :
    xml_allocator → List Nat → xml_allocator × List (Nat × Nat × Nat)
  | a, [] => (a, [])
  | a, n :: rest =>
    let r := xml_allocator.memalloc memory_block_size a n
    let rr := memalloc_run memory_block_size r.1 rest
    (rr.1, (r.2.1, r.2.2, n) :: rr.2)

/-- Two slots, each given as block, offset and size, have no byte in common. -/
def slots_disjoint (x y : Nat × Nat × Nat) : Prop :=
  x.1 ≠ y.1 ∨ x.2.1 + x.2.2 ≤ y.2.1 ∨ y.2.1 + y.2.2 ≤ x.2.1

instance (x y : Nat × Nat × Nat) : Decidable (slots_disjoint x y) := by
  unfold slots_disjoint; infer_instance

/-! ## The tree walk that is stopped -/

/-- The call of the callback that an event stands for, in the state `s` of
the walker. -/
def walk_event.call {σ : Type} (begin_ end_ : σ → Int → xml_node → Bool × σ) (s : σ) :
    walk_event → Bool × σ
  | .enter p d => begin_ s d (some p)
  | .leave p d => end_ s d (some p)

/-- The calls that are made of the calls `es`, in the words of the
specification: the calls in their order up to and including the first one
that returns `false`, and all of them when none does. -/
def calls_until {σ : Type} (begin_ end_ : σ → Int → xml_node → Bool × σ) :
    σ → List walk_event → List walk_event
  | _, [] => []
  | s, e :: es =>
    if (e.call begin_ end_ s).1 = false then [e]
    else e :: calls_until begin_ end_ (e.call begin_ end_ s).2 es

/-- The outcome of the calls `es` made in their order until one returns
`false`: `false` with the state after that call, or `true` with the state
after all of them. -/
def run_until {σ : Type} (begin_ end_ : σ → Int → xml_node → Bool × σ) :
    σ → List walk_event → Bool × σ
  | s, [] => (true, s)
  | s, e :: es =>
    if (e.call begin_ end_ s).1 = false then (false, (e.call begin_ end_ s).2)
    else run_until begin_ end_ (e.call begin_ end_ s).2 es

/-- A `begin` callback that records its call and returns `false` on the node
`stop`. -/
def log_begin_until (stop : Nat) (s : List walk_event) (d : Int) (n : xml_node) :
    Bool × List walk_event :=
  (decide (n ≠ some stop), s ++ [walk_event.enter (n.getD 0) d])

/-- An `end` callback that records its call and returns `false` on the node
`stop`. -/
def log_end_until (stop : Nat) (s : List walk_event) (d : Int) (n : xml_node) :
    Bool × List walk_event :=
  (decide (n ≠ some stop), s ++ [walk_event.leave (n.getD 0) d])

/-! ## Strings that are replaced (`strcpy_insitu`, `set_name`, `set_value`) -/

/-- `strlen(p)` for a pointer `p` into the memory. -/
def strlen (mem : List Nat) (p : Nat) : Nat := (cstrAt mem p).length

/-- `strcpy(dest, source)`: the bytes of the string at the head of `source`
and the NUL that ends it are written from `dest` on. -/
def strcpy : List Nat → Nat → List Nat → List Nat
  | mem, dest, [] => poke mem dest 0
  | mem, dest, c :: r => if c = 0 then poke mem dest 0 else strcpy (poke mem dest c) (dest + 1) r

/-- Model of `strcpy_insitu(dest, insitu, source)`: returns the result, the
memory, and the new values of `dest` and `insitu`.  The string `source` of the
caller is given by its bytes and is no part of the memory that is written.
The storage that `new char[source_size + 1]` gives is at the end of the
memory; the argument `alloc_ok = false` stands for a `new` that throws
`std::bad_alloc`.  Storage released by `delete[]` is not used again in the
model, which has nothing to do for it. -/
def strcpy_insitu (alloc_ok : Bool) (mem : List Nat) (dest : Option Nat) (insitu : Bool)
    (source : List Nat) : Bool × List Nat × Option Nat × Bool :=
  let source_size := (cstr source).length
  if dest.isSome = true ∧ strlen mem (dest.getD 0) ≥ source_size then
    (true, strcpy mem (dest.getD 0) source, dest, insitu)
  else if alloc_ok = false then (false, mem, dest, insitu)
  else
    let buf := mem.length
    (true, strcpy (mem ++ List.replicate (source_size + 1) 0) buf source, some buf, false)

/-- `xml_attribute::name()`, as the bytes of the string returned. -/
def xml_attribute.name (mem : List Nat) (attrs : List xml_attribute_struct)
    (this : xml_attribute) : List Nat :=
  match this with
  | none => []
  | some a =>
    match (attr_at attrs a).name with
    | some p => cstrAt mem p
    | none => []

/-- `xml_attribute::value()`, as the bytes of the string returned. -/
def xml_attribute.value (mem : List Nat) (attrs : List xml_attribute_struct)
    (this : xml_attribute) : List Nat :=
  match this with
  | none => []
  | some a =>
    match (attr_at attrs a).value with
    | some p => cstrAt mem p
    | none => []

/-- `xml_node::name()`, as the bytes of the string returned. -/
def xml_node.name (mem : List Nat) (nodes : List xml_node_struct) (this : xml_node) : List Nat :=
  match this with
  | none => []
  | some r =>
    match (node_at nodes r).name with
    | some p => cstrAt mem p
    | none => []

/-- `xml_node::value()`, as the bytes of the string returned. -/
def xml_node.value (mem : List Nat) (nodes : List xml_node_struct) (this : xml_node) : List Nat :=
  match this with
  | none => []
  | some r =>
    match (node_at nodes r).value with
    | some p => cstrAt mem p
    | none => []

/-- `xml_attribute::set_name(rhs)`: the result, the memory and the attributes
after the call. -/
def xml_attribute.set_name (alloc_ok : Bool) (mem : List Nat) (attrs : List xml_attribute_struct)
    (this : xml_attribute) (rhs : List Nat) : Bool × List Nat × List xml_attribute_struct :=
  match this with
  | none => (false, mem, attrs)
  | some a =>
    let r := strcpy_insitu alloc_ok mem (attr_at attrs a).name (attr_at attrs a).name_insitu rhs
    (r.1, r.2.1, attrs.set a { attr_at attrs a with name := r.2.2.1, name_insitu := r.2.2.2 })

/-- `xml_attribute::set_value(rhs)`. -/
def xml_attribute.set_value (alloc_ok : Bool) (mem : List Nat) (attrs : List xml_attribute_struct)
    (this : xml_attribute) (rhs : List Nat) : Bool × List Nat × List xml_attribute_struct :=
  match this with
  | none => (false, mem, attrs)
  | some a =>
    let r := strcpy_insitu alloc_ok mem (attr_at attrs a).value (attr_at attrs a).value_insitu rhs
    (r.1, r.2.1, attrs.set a { attr_at attrs a with value := r.2.2.1, value_insitu := r.2.2.2 })

/-- `xml_node::set_name(rhs)`: the result, the memory and the nodes after the
call.  In the cases `node_pi` and `node_element` of the `switch` on `type()`
the handle is not empty. -/
def xml_node.set_name (alloc_ok : Bool) (mem : List Nat) (nodes : List xml_node_struct)
    (this : xml_node) (rhs : List Nat) : Bool × List Nat × List xml_node_struct :=
  match this with
  | none => (false, mem, nodes)
  | some r =>
    if xml_node.type nodes (some r) = node_pi ∨ xml_node.type nodes (some r) = node_element then
      let x := strcpy_insitu alloc_ok mem (node_at nodes r).name (node_at nodes r).name_insitu rhs
      (x.1, x.2.1, nodes.set r { node_at nodes r with name := x.2.2.1, name_insitu := x.2.2.2 })
    else (false, mem, nodes)

/-- `xml_node::set_value(rhs)`. -/
def xml_node.set_value (alloc_ok : Bool) (mem : List Nat) (nodes : List xml_node_struct)
    (this : xml_node) (rhs : List Nat) : Bool × List Nat × List xml_node_struct :=
  match this with
  | none => (false, mem, nodes)
  | some r =>
    if xml_node.type nodes (some r) = node_pi ∨ xml_node.type nodes (some r) = node_cdata ∨
        xml_node.type nodes (some r) = node_pcdata ∨
        xml_node.type nodes (some r) = node_comment then
      let x := strcpy_insitu alloc_ok mem (node_at nodes r).value (node_at nodes r).value_insitu rhs
      (x.1, x.2.1, nodes.set r { node_at nodes r with value := x.2.2.1, value_insitu := x.2.2.2 })
    else (false, mem, nodes)

/-! ## Document order (`xml_node::precompute_document_order`) -/

/-- The memory that `tree_traverser::traverse` works on: the nodes, the
attributes, and the counter `m_current`, an `unsigned int` of 32 bits. -/
structure tree_traverser where
  nodes : List xml_node_struct
  attrs : List xml_attribute_struct
  m_current : Nat
deriving DecidableEq

/-- The assignment `n._root->document_order = m_current++;` for the node `p`.
The field `document_order` of a node is a bit-field of 27 bits, which keeps
the low 27 bits of the value assigned. -/
def tree_traverser.order_node (st : tree_traverser) (p : Nat) : tree_traverser :=
  { st with
    nodes := st.nodes.set p { node_at st.nodes p with document_order := st.m_current % 2 ^ 27 },
    m_current := (st.m_current + 1) % 2 ^ 32 }

/-- The assignment `a._attr->document_order = m_current++;` for the attribute
`a`.  The field `document_order` of an attribute is a bit-field of 30 bits. -/
def tree_traverser.order_attribute (st : tree_traverser) (a : Nat) : tree_traverser :=
  { st with
    attrs := st.attrs.set a { attr_at st.attrs a with document_order := st.m_current % 2 ^ 30 },
    m_current := (st.m_current + 1) % 2 ^ 32 }

/-- The loop `for (xml_attribute a = n.first_attribute(); a; a = a.next_attribute())
a._attr->document_order = m_current++;`, with one unit of fuel for each
attribute. -/
def order_attributes : Nat → Option Nat → tree_traverser → Option tree_traverser
  | 0, _, _ => none
  | _ + 1, none, st => some st
  | n + 1, some a, st =>
    order_attributes n (attr_at (st.order_attribute a).attrs a).next_attribute
      (st.order_attribute a)

/-- `tree_traverser::traverse(n)` and its loop over the children.  With
`loop = false` the function is the call `traverse(n)` for the node `n` of the
pointer given, which is not null in any call; with `loop = true` it is the
loop `for (xml_node c = n.first_child(); c; c = c.next_sibling()) traverse(c);`
at the node `c`.  Every call and every iteration spends one unit of fuel. -/
def tree_traverser.traverse_run : Nat → Bool → Option Nat → tree_traverser →
    Option tree_traverser
  | 0, _, _, _ => none
  | _ + 1, false, none, _ => none
  | n + 1, false, some p, st =>
    match order_attributes n (node_at (st.order_node p).nodes p).first_attribute
        (st.order_node p) with
    | none => none
    | some st2 => tree_traverser.traverse_run n true (node_at st2.nodes p).first_child st2
  | _ + 1, true, none, st => some st
  | n + 1, true, some c, st =>
    match tree_traverser.traverse_run n false (some c) st with
    | none => none
    | some st1 => tree_traverser.traverse_run n true (node_at st1.nodes c).next_sibling st1

/-- `xml_node::precompute_document_order()`: the nodes and the attributes
after the call. -/
def xml_node.precompute_document_order (fuel : Nat) (nodes : List xml_node_struct)
    (attrs : List xml_attribute_struct) (this : xml_node) :
    Option (List xml_node_struct × List xml_attribute_struct) :=
  if xml_node.type nodes this ≠ node_document then some (nodes, attrs)
  else
    (tree_traverser.traverse_run fuel false this
      { nodes := nodes, attrs := attrs, m_current := 1 }).map (fun st => (st.nodes, st.attrs))

/-- A node or an attribute, as the walk in document order meets them. -/
inductive order_item
  | node (p : Nat)
  | attr (a : Nat)
deriving DecidableEq

/-- The walk in document order over a forest, in the words of the
specification: a node, then its attributes in list order, then each child
with its walk, then the later siblings.  The attribute list of the node `p` is
`al p`. -/
def forest.walk (al : Nat → List Nat) : forest → List order_item
  | .nil => []
  | .node p c n =>
    order_item.node p :: ((al p).map order_item.attr ++ (c.walk al ++ n.walk al))

/-- The document order that a node or an attribute has in the memory. -/
def document_order_of (nodes : List xml_node_struct) (attrs : List xml_attribute_struct) :
    order_item → Nat
  | .node p => (node_at nodes p).document_order
  | .attr a => (attr_at attrs a).document_order

/-- The width in bits of the field `document_order` of a node or an
attribute. -/
def order_item.width : order_item → Nat
  | .node _ => 27
  | .attr _ => 30

/-- The record of the node or the attribute is one of those allocated. -/
def order_item.allocated (nodes : List xml_node_struct) (attrs : List xml_attribute_struct) :
    order_item → Prop
  | .node p => p < nodes.length
  | .attr a => a < attrs.length

instance (nodes : List xml_node_struct) (attrs : List xml_attribute_struct) (x : order_item) :
    Decidable (x.allocated nodes attrs) := by
  cases x <;> unfold order_item.allocated <;> infer_instance

/-- One assignment of the pass, to a node or to an attribute. -/
def tree_traverser.assign (st : tree_traverser) : order_item → tree_traverser
  | .node p => st.order_node p
  | .attr a => st.order_attribute a

/-- A chain of `k` attributes without names: attribute `i` stands between
`i - 1` and `i + 1`. -/
def attribute_chain (k : Nat) : List xml_attribute_struct :=
  (List.range k).map (fun i =>
    { xml_attribute_struct.new with
      prev_attribute := if i = 0 then none else some (i - 1),
      next_attribute := if i + 1 < k then some (i + 1) else none })

/-- The nodes of a document with two elements below it, the first of which has
the attributes `0`, ..., `k - 1`. -/
def wide_document (k : Nat) : List xml_node_struct :=
  [{ xml_node_struct.new node_document with
     parent := some 0, first_child := some 1, last_child := some 2 },
   { xml_node_struct.new node_element with
     parent := some 0, next_sibling := some 2,
     first_attribute := if 0 < k then some 0 else none,
     last_attribute := if 0 < k then some (k - 1) else none },
   { xml_node_struct.new node_element with parent := some 0, prev_sibling := some 1 }]

/-- The memory `st2` has the records of `st1` with the same links: as many
nodes and attributes, and in each the same pointers to children, siblings and
attributes. -/
def tree_traverser.same_links (st1 st2 : tree_traverser) : Prop :=
  st2.nodes.length = st1.nodes.length ∧ st2.attrs.length = st1.attrs.length ∧
  (∀ i, (node_at st2.nodes i).first_child = (node_at st1.nodes i).first_child ∧
    (node_at st2.nodes i).next_sibling = (node_at st1.nodes i).next_sibling ∧
    (node_at st2.nodes i).first_attribute = (node_at st1.nodes i).first_attribute) ∧
  (∀ i, (attr_at st2.attrs i).next_attribute = (attr_at st1.attrs i).next_attribute)

/-- The children of the document of `sample_doc1` and their descendants. -/
def sample_forest1 : forest :=
  forest.node 1
    (forest.node 2 forest.nil (forest.node 3 forest.nil (forest.node 4 forest.nil forest.nil)))
    forest.nil

/-- The attribute lists of the nodes of `sample_doc1`. -/
def sample_attributes1 (p : Nat) : List Nat :=
  attribute_walk sample_doc1.attrs 3 (node_at sample_doc1.nodes p).first_attribute

/-! ## The end of an attribute value for any end quote -/

/-- The byte `q` that is passed to `strconv_attribute` as `end_quote` can end
a value: it is of the class that the loop scans for, and none of the tests
that stand before `*s == end_quote` in the loop takes it (the reference under
`opt_escape`, whitespace under `opt_wnorm` or `opt_wconv`, `'\r'` under
`opt_eol`). -/
def attribute_quote (esc wnorm wconv eol : Bool) (q : Nat) : Prop :=
  is_chartype q (if wnorm = true ∨ wconv = true then ct_parse_attr_ws else ct_parse_attr) = true ∧
    ¬ (esc = true ∧ q = 38) ∧
    ¬ ((wnorm = true ∨ wconv = true) ∧ is_chartype q ct_space = true) ∧
    ¬ (eol = true ∧ q = 13)

instance (esc wnorm wconv eol : Bool) (q : Nat) : Decidable (attribute_quote esc wnorm wconv eol q) := by
  unfold attribute_quote; infer_instance

/-- The bytes `l` start with an end quote `q` that can end a value. -/
def attribute_end (esc wnorm wconv eol : Bool) (q : Nat) (l : List Nat) : Prop :=
  rd l = q ∧ attribute_quote esc wnorm wconv eol q

instance (esc wnorm wconv eol : Bool) (q : Nat) (l : List Nat) :
    Decidable (attribute_end esc wnorm wconv eol q l) := by
  unfold attribute_end; infer_instance

/-- In the words of the specification, for a decoder that was started at the
end of the bytes `pre`, before the bytes `rest`, has returned the position `p`
and has left the buffer `b`: the segment is the `i` bytes before the first
terminator `P`, which stands before any NUL; `p` is the position after the
first byte of the terminator; the buffer has kept its length; the bytes
before the start of the segment and the bytes after the first byte of the
terminator are as they were; and the decoded string, read from the start of
the segment to its NUL, is not longer than the segment. -/
def shrunk_in_place (P : List Nat → Prop) (pre rest : List Nat) (p : Nat) (b : List Nat) :
    Prop :=
  ∃ i, FirstStop P rest i ∧ P (rest.drop i) ∧ i < rest.length ∧ p = pre.length + i + 1 ∧
    b.length = (pre ++ rest).length ∧ b.take pre.length = pre ∧
    b.drop (pre.length + i + 1) = rest.drop (i + 1) ∧ (cstrAt b pre.length).length ≤ i

/-! ## The scan pointer and the terminating NUL -/

/-- In the words of the specification: the scan pointer `s` is not past the
NUL that stands at the index `E` of the buffer, and that NUL and the bytes
`junk` after it are as they were. -/
def parse_bound (E : Nat) (junk buf : List Nat) (s : Nat) : Prop :=
  s ≤ E ∧ buf.drop E = 0 :: junk

/-- The cursor points to an allocated node, the parent pointer of every
allocated node points to an allocated node, as `append_node` sets it and as
`xml_document` sets it for the root, and the name of every node, when it is
set, is a pointer into the buffer that is not past the NUL at the index `E`,
as the parser sets it. -/
def tree_linked (E : Nat) (nodes : List xml_node_struct) (cursor : Nat) : Prop :=
  cursor < nodes.length ∧
    (∀ j, j < nodes.length → ∃ p, (node_at nodes j).parent = some p ∧ p < nodes.length) ∧
    ∀ j p, (node_at nodes j).name = some p → p ≤ E

/-- What a part of the parser comes to when it is entered with the scan pointer
at `s0`: it returns, and when it does not return `false` the scan pointer has
not moved back and is not past the NUL at `E`, the NUL and the bytes after it
are as they were, and the tree is linked. -/
def parse_safe (E : Nat) (junk : List Nat) (s0 : Nat) (r : Option (Option parse_state)) :
    Prop :=
  ∃ x, r = some x ∧ ∀ st, x = some st →
    s0 ≤ st.s ∧ parse_bound E junk st.buf st.s ∧ tree_linked E st.nodes st.cursor

/-- The pointer `end` of the gap, when it is set, is not after `s`. -/
def gap_ok (g : gap) (s : Nat) : Prop := ∀ e, g.end_ = some e → e ≤ s

/-- The memory of the parser with the bytes `t` after the end of its buffer. -/
def parse_state.with_tail (st : parse_state) (t : List Nat) : parse_state :=
  { st with buf := st.buf ++ t }

/-- The result of a part of the parser with the bytes `t` after the end of
the buffer that it leaves. -/
def tail_result (t : List Nat) (r : Option (Option parse_state)) : Option (Option parse_state) :=
  r.map (fun x => x.map (fun st => st.with_tail t))

/-- The result of a decoder with the bytes `t` after the end of the buffer that
it leaves. -/
def tail_decoded (t : List Nat) (r : Option (Option Nat × List Nat)) :
    Option (Option Nat × List Nat) :=
  r.map (fun x => (x.1, x.2 ++ t))

/-- The outcome `x` of a step of a decoder on the buffer with the bytes `t`
after its end, against the outcome `y` of the step on the buffer itself: the
buffers differ in `t` only, the pointer has moved on from `s` and is not past
the NUL at `E`, which is the last byte of the buffer, and the gap is not after
the pointer. -/
def step_tail (E : Nat) (t : List Nat) (s : Nat) (x y : List Nat × Nat × gap) : Prop :=
  x = (y.1 ++ t, y.2.1, y.2.2) ∧ s < y.2.1 ∧ parse_bound E [] y.1 y.2.1 ∧ gap_ok y.2.2 y.2.1

/-! # Theorems -/

/-! ## Basic facts -/

@[simp]
theorem rd_nil : rd [] = 0 := rfl

@[simp]
theorem rd_cons (c : Nat) (l : List Nat) : rd (c :: l) = c := rfl

theorem CStr.tail_of_cons {c : Nat} {l : List Nat} (h : CStr (c :: l)) : CStr l :=
  fun x hx => h x (List.mem_cons_of_mem _ hx)

theorem CStr.head_pos {c : Nat} {l : List Nat} (h : CStr (c :: l)) : c ≠ 0 :=
  Nat.pos_iff_ne_zero.mp (h c (List.mem_cons_self _ _)).1

theorem rd_eq_zero_iff {s : List Nat} (h : CStr s) : rd s = 0 ↔ s = [] := by
  cases s with
  | nil => simp [rd]
  | cons c l => simp [rd, h.head_pos]

theorem dropWhile_star_of_ne {c : Nat} (l : List Nat) (h : c ≠ 42) :
    (c :: l).dropWhile (fun c => c == 42) = c :: l := by
  have h2 : (c == 42) = false := by simpa using h
  simp [List.dropWhile, h2]

theorem dropWhile_star_of_eq (l : List Nat) :
    ((42 : Nat) :: l).dropWhile (fun c => c == 42) = l.dropWhile (fun c => c == 42) := by
  simp [List.dropWhile]

/-- Once `find` is 0 the loop is left at once and the answer is "no match". -/
theorem strcmpwild_loop_find_zero (sc : Bool) (n : Nat) (src dst : List Nat) :
    strcmpwild_loop sc (n + 1) src dst 0 = some 1 := by
  simp [strcmpwild_loop]

/-- On a literal pattern the loop is a byte-by-byte comparison. -/
theorem strcmpwild_loop_literal (sc : Bool) (p : List Nat) :
    ∀ (n : Nat) (s : List Nat), p.length < n → CStr p → CStr s → Literal p →
      strcmpwild_loop sc n p s 1 = some (if p = s then 0 else 1) := by
  induction p with
  | nil =>
    intro n s hn _ hs _
    obtain ⟨m, rfl⟩ : ∃ m, n = m + 1 := ⟨n - 1, by simp at hn; omega⟩
    cases s with
    | nil => simp [strcmpwild_loop, rd]
    | cons d s' => simp [strcmpwild_loop, rd, hs.head_pos]
  | cons c p' ih =>
    intro n s hn hp hs hl
    obtain ⟨m, rfl⟩ : ∃ m, n = m + 1 := ⟨n - 1, by simp at hn; omega⟩
    have hc0 : c ≠ 0 := hp.head_pos
    obtain ⟨h63, h42, h91⟩ := hl c (List.mem_cons_self _ _)
    have hl' : Literal p' := fun x hx => hl x (List.mem_cons_of_mem _ hx)
    cases s with
    | nil => simp [strcmpwild_loop, dropWhile_star_of_ne _ h42, rd, hc0]
    | cons d s' =>
      have hd0 : d ≠ 0 := hs.head_pos
      have hm : p'.length < m := by simp at hn; omega
      by_cases hcd : c = d
      · subst hcd
        simp [strcmpwild_loop, rd, hc0, h42, h63, h91, ih m s' hm hp.tail_of_cons hs.tail_of_cons hl']
      · obtain ⟨k, rfl⟩ : ∃ k, m = k + 1 := ⟨m - 1, by omega⟩
        simp [strcmpwild_loop, rd, hc0, hd0, h42, h63, h91, hcd]

/-- C1: a pattern with none of `'?'`, `'*'`, `'['` matches exactly the string
equal to it: `impl::strcmpwild` returns, and returns 0 iff pattern and string
are byte-for-byte equal. -/
theorem strcmpwild_literal_iff_eq (sc : Bool) (p s : List Nat)
    (hp : CStr p) (hs : CStr s) (hl : Literal p) :
    (∃ r, strcmpwild sc p s = some r) ∧ (strcmpwild sc p s = some 0 ↔ p = s) := by
  have h := strcmpwild_loop_literal sc p (p.length + 1) s (Nat.lt_succ_self _) hp hs hl
  unfold strcmpwild
  rw [h]
  refine ⟨⟨_, rfl⟩, ?_⟩
  by_cases hps : p = s <;> simp [hps]

theorem strcmpwild_literal_iff_eq_witness :
    (∃ r, strcmpwild true [97, 98, 93] [97, 98, 93] = some r) ∧
      (strcmpwild true [97, 98, 93] [97, 98, 93] = some 0 ↔ [97, 98, 93] = [97, 98, 93]) :=
  strcmpwild_literal_iff_eq true [97, 98, 93] [97, 98, 93] (by decide) (by decide)
    (by unfold Literal; decide)

/-- With the pattern exhausted the retry loop of `strcmpwild_astr` runs to the
end of the string. -/
theorem astr_retry_nil_src (self : List Nat → List Nat → Option Int) (t : List Nat)
    (ht : CStr t) : astr_retry self [] t = some (0, []) := by
  induction t with
  | nil => rfl
  | cons d t' ih =>
    have hd : d ≠ 0 := ht.head_pos
    simp [astr_retry, rd, hd, Ne.symm hd, ih ht.tail_of_cons]

/-- A pattern that is a single trailing `'*'` matches every string. -/
theorem strcmpwild_loop_star (sc : Bool) (n : Nat) (t : List Nat) (ht : CStr t) :
    strcmpwild_loop sc (n + 2) [42] t 1 = some 0 := by
  cases t with
  | nil => simp [strcmpwild_loop, rd, List.dropWhile]
  | cons d t' =>
    have hd : d ≠ 0 := ht.head_pos
    have h1 : strcmpwild_loop sc (n + 1) [] (d :: t') 1 = some 1 := by
      simp [strcmpwild_loop, rd, hd]
    have h2 : strcmpwild_loop sc (n + 1) [] [] 1 = some 0 := by
      simp [strcmpwild_loop, rd]
    have h3 : strcmpwild_astr (fun s d => strcmpwild_loop sc (n + 1) s d 1) [42] (d :: t')
        = some (1, [], []) := by
      simp [strcmpwild_astr, astr_skip, rd, hd, h1, astr_retry_nil_src _ t' ht.tail_of_cons]
    rw [strcmpwild_loop]
    simp [rd, hd, h3, h2]

theorem strcmpwild_loop_prefix_star (sc : Bool) (p : List Nat) :
    ∀ (n : Nat) (t : List Nat), p.length + 1 < n → CStr p → CStr t → Literal p →
      strcmpwild_loop sc n (p ++ [42]) (p ++ t) 1 = some 0 := by
  induction p with
  | nil =>
    intro n t hn _ ht _
    obtain ⟨m, rfl⟩ : ∃ m, n = m + 2 := ⟨n - 2, by simp at hn; omega⟩
    simpa using strcmpwild_loop_star sc m t ht
  | cons c p' ih =>
    intro n t hn hp ht hl
    obtain ⟨m, rfl⟩ : ∃ m, n = m + 1 := ⟨n - 1, by simp at hn; omega⟩
    have hc0 : c ≠ 0 := hp.head_pos
    obtain ⟨h63, h42, h91⟩ := hl c (List.mem_cons_self _ _)
    have hl' : Literal p' := fun x hx => hl x (List.mem_cons_of_mem _ hx)
    have hm : p'.length + 1 < m := by simp at hn; omega
    simp [strcmpwild_loop, rd, hc0, h42, h63, h91, ih m t hm hp.tail_of_cons ht hl']

/-- C2: a literal prefix followed by one trailing `'*'` matches the prefix
followed by any string, the empty one included. -/
theorem strcmpwild_trailing_star (sc : Bool) (p t : List Nat)
    (hp : CStr p) (ht : CStr t) (hl : Literal p) :
    strcmpwild sc (p ++ [42]) (p ++ t) = some 0 := by
  unfold strcmpwild
  exact strcmpwild_loop_prefix_star sc p _ t (by simp) hp ht hl

theorem strcmpwild_trailing_star_witness :
    (CStr [97, 98] ∧ CStr [120, 42, 121] ∧ Literal [97, 98]) ∧
      strcmpwild true ([97, 98] ++ [42]) ([97, 98] ++ [120, 42, 121]) = some 0 :=
  ⟨⟨by decide, by decide, by unfold Literal; decide⟩,
    strcmpwild_trailing_star true [97, 98] [120, 42, 121] (by decide) (by decide)
      (by unfold Literal; decide)⟩

theorem StarRel.rd_eq {l l' : List Nat} (h : StarRel l l') : rd l = rd l' := by
  cases h with
  | same => rfl
  | dup a b ha => cases a <;> rfl

theorem StarRel.length_le {l l' : List Nat} (h : StarRel l l') : l'.length ≤ l.length := by
  cases h with
  | same => exact le_refl _
  | dup a b ha => simp

/-- Skipping leading stars keeps two related patterns related. -/
theorem StarRel.dropWhile {l l' : List Nat} (h : StarRel l l') :
    StarRel (l.dropWhile (fun c => c == 42)) (l'.dropWhile (fun c => c == 42)) := by
  cases h with
  | same => exact StarRel.same _
  | dup a b ha =>
    induction a with
    | nil =>
      simp only [List.nil_append, dropWhile_star_of_eq]
      exact StarRel.same _
    | cons c a' ih =>
      by_cases hc : c = 42
      · subst hc
        simp only [List.cons_append, dropWhile_star_of_eq]
        exact ih (by simpa [inClass] using ha)
      · simp only [List.cons_append, dropWhile_star_of_ne _ hc]
        exact StarRel.dup (c :: a') b ha

/-- Stepping over a byte that neither is a star nor opens a class keeps two
related patterns related. -/
theorem StarRel.tail {l l' : List Nat} (h : StarRel l l') (h42 : rd l ≠ 42) (h91 : rd l ≠ 91) :
    StarRel l.tail l'.tail := by
  cases h with
  | same => exact StarRel.same _
  | dup a b ha =>
    cases a with
    | nil => exact absurd rfl h42
    | cons c a' =>
      have hc : c ≠ 91 := h91
      exact StarRel.dup a' b (by simpa [inClass, hc] using ha)

/-- The first loop of `strcmpwild_astr` on two related patterns. -/
theorem astr_skip_rel {l l' : List Nat} (h : StarRel l l') (dst : List Nat) :
    StarRel (astr_skip l dst).1 (astr_skip l' dst).1 ∧
      (astr_skip l dst).2 = (astr_skip l' dst).2 := by
  cases h with
  | same => exact ⟨StarRel.same _, rfl⟩
  | dup a b ha =>
    induction a generalizing dst with
    | nil =>
      have : astr_skip ([] ++ 42 :: 42 :: b) dst = astr_skip ([] ++ 42 :: b) dst := by
        simp [astr_skip]
      rw [this]
      exact ⟨StarRel.same _, rfl⟩
    | cons c a' ih =>
      by_cases hc : (rd dst ≠ 0 ∧ c = 63) ∨ c = 42
      · have hc91 : c ≠ 91 := by rcases hc with ⟨_, h⟩ | h <;> omega
        have ha' : inClass false a' = false := by simpa [inClass, hc91] using ha
        have e1 : astr_skip ((c :: a') ++ 42 :: 42 :: b) dst =
            astr_skip (a' ++ 42 :: 42 :: b) (if c = 63 then dst.tail else dst) := by
          rw [List.cons_append, astr_skip, if_pos hc]
        have e2 : astr_skip ((c :: a') ++ 42 :: b) dst =
            astr_skip (a' ++ 42 :: b) (if c = 63 then dst.tail else dst) := by
          rw [List.cons_append, astr_skip, if_pos hc]
        rw [e1, e2]
        exact ih _ ha'
      · have e1 : astr_skip ((c :: a') ++ 42 :: 42 :: b) dst = ((c :: a') ++ 42 :: 42 :: b, dst) := by
          rw [List.cons_append, astr_skip, if_neg hc]
        have e2 : astr_skip ((c :: a') ++ 42 :: b) dst = ((c :: a') ++ 42 :: b, dst) := by
          rw [List.cons_append, astr_skip, if_neg hc]
        rw [e1, e2]
        exact ⟨StarRel.dup _ _ ha, rfl⟩

theorem astr_skip_length (l dst : List Nat) : (astr_skip l dst).1.length ≤ l.length := by
  induction l generalizing dst with
  | nil => simp [astr_skip]
  | cons c l ih =>
    unfold astr_skip
    split
    · exact Nat.le_succ_of_le (ih _)
    · exact le_refl _

theorem dropWhile_star_length (l : List Nat) :
    (l.dropWhile (fun c => c == 42)).length ≤ l.length :=
  (List.dropWhile_sublist _).length_le

/-- The retry loop of `strcmpwild_astr` depends on the pattern only through
its first byte and through the recursive calls. -/
theorem astr_retry_congr (self self' : List Nat → List Nat → Option Int) (s s' : List Nat)
    (hrd : rd s = rd s') (hself : ∀ d, self s d = self' s' d) (t : List Nat) :
    astr_retry self s t = astr_retry self' s' t := by
  induction t with
  | nil => rfl
  | cons d t ih =>
    simp only [astr_retry, hrd, hself, ih]

theorem strcmpwild_cset_loop_nil (sc : Bool) (d prev : Nat) (find : Int) :
    strcmpwild_cset_loop sc d prev [] find = none := rfl

/-- One iteration of the class loop. -/
theorem strcmpwild_cset_loop_cons (sc : Bool) (d prev c : Nat) (rest : List Nat) (find : Int) :
    strcmpwild_cset_loop sc d prev (c :: rest) find =
      if c = 93 then some (find, c :: rest)
      else if find = 0 then
        if c = 45 ∧ cint sc prev < cint sc (rd rest) ∧ rd rest ≠ 93 then
          if cint sc prev ≤ cint sc d ∧ cint sc d ≤ cint sc (rd rest) then
            match rest with
            | [] => none
            | r :: rest2 => strcmpwild_cset_loop sc d r rest2 1
          else strcmpwild_cset_loop sc d c rest find
        else if c = d then strcmpwild_cset_loop sc d c rest 1
        else strcmpwild_cset_loop sc d c rest find
      else strcmpwild_cset_loop sc d c rest find := by
  cases rest <;> rfl

/-- The class loop stops at a `']'` of the pattern it was given. -/
theorem strcmpwild_cset_loop_length (sc : Bool) (d : Nat) :
    ∀ (n : Nat) (l : List Nat), l.length ≤ n → ∀ (prev : Nat) (find f : Int) (s : List Nat),
      strcmpwild_cset_loop sc d prev l find = some (f, s) → s.tail.length < l.length := by
  intro n
  induction n with
  | zero =>
    intro l hl prev find f s h
    cases l with
    | nil => simp [strcmpwild_cset_loop_nil] at h
    | cons c l => simp at hl
  | succ n ih =>
    intro l hl prev find f s h
    cases l with
    | nil => simp [strcmpwild_cset_loop_nil] at h
    | cons c rest =>
      have hrest : rest.length ≤ n := by simpa using hl
      have key : ∀ (l2 : List Nat) (prev2 : Nat) (find2 : Int), l2.length ≤ rest.length →
          strcmpwild_cset_loop sc d prev2 l2 find2 = some (f, s) →
          s.tail.length < (c :: rest).length := by
        intro l2 prev2 find2 hl2 h2
        have := ih l2 (le_trans hl2 hrest) prev2 find2 f s h2
        simp only [List.length_cons]
        omega
      rw [strcmpwild_cset_loop_cons] at h
      split_ifs at h
      · simp only [Option.some.injEq, Prod.mk.injEq] at h
        rw [← h.2]
        simp
      · cases rest with
        | nil => simp at h
        | cons r rest2 => exact key rest2 r 1 (by simp) h
      · exact key rest c find (le_refl _) h
      · exact key rest c 1 (le_refl _) h
      · exact key rest c find (le_refl _) h
      · exact key rest c find (le_refl _) h

theorem strcmpwild_cset_length (sc : Bool) (prev : Nat) (l dst : List Nat) (f : Int)
    (s d : List Nat) (h : strcmpwild_cset sc prev l dst = some (f, s, d)) :
    s.tail.length < l.length := by
  unfold strcmpwild_cset at h
  simp only at h
  split at h
  · simp at h
  · rename_i find src2 heq
    simp only [Option.some.injEq, Prod.mk.injEq] at h
    have h1 := strcmpwild_cset_loop_length sc (rd dst) _ _ (le_refl _) _ _ _ _ heq
    rw [← h.2.1]
    split_ifs at h1 with h33
    · cases l with
      | nil => simp [rd] at h33
      | cons c l => simp only [List.tail_cons] at h1; simp only [List.length_cons]; omega
    · exact h1

/-- The class loop on two patterns that differ by a doubled star after the
class: same `find`, and both stop at the same `']'`. -/
theorem strcmpwild_cset_loop_rel (sc : Bool) (d : Nat) (b : List Nat) :
    ∀ (n : Nat) (a : List Nat), a.length ≤ n → inClass true a = false →
      ∀ (prev : Nat) (find : Int),
      (strcmpwild_cset_loop sc d prev (a ++ 42 :: 42 :: b) find = none ∧
        strcmpwild_cset_loop sc d prev (a ++ 42 :: b) find = none) ∨
      ∃ (f : Int) (a2 : List Nat), inClass false a2 = false ∧ a2.length < a.length ∧
        strcmpwild_cset_loop sc d prev (a ++ 42 :: 42 :: b) find
          = some (f, 93 :: (a2 ++ 42 :: 42 :: b)) ∧
        strcmpwild_cset_loop sc d prev (a ++ 42 :: b) find = some (f, 93 :: (a2 ++ 42 :: b)) := by
  intro n
  induction n with
  | zero =>
    intro a ha hin
    cases a with
    | nil => simp [inClass] at hin
    | cons c l => simp at ha
  | succ n ih =>
    intro a ha hin prev find
    cases a with
    | nil => simp [inClass] at hin
    | cons c a1 =>
      have ha1 : a1.length ≤ n := by simpa using ha
      by_cases hc : c = 93
      · subst hc
        refine Or.inr ⟨find, a1, by simpa [inClass] using hin, by simp, ?_, ?_⟩
        · simp [strcmpwild_cset_loop_cons]
        · simp [strcmpwild_cset_loop_cons]
      · have hin1 : inClass true a1 = false := by simpa [inClass, hc] using hin
        have key : ∀ (a' : List Nat) (prev2 : Nat) (find2 : Int), a'.length ≤ a1.length →
            inClass true a' = false →
            (strcmpwild_cset_loop sc d prev2 (a' ++ 42 :: 42 :: b) find2 = none ∧
              strcmpwild_cset_loop sc d prev2 (a' ++ 42 :: b) find2 = none) ∨
            ∃ (f : Int) (a2 : List Nat), inClass false a2 = false ∧
              a2.length < (c :: a1).length ∧
              strcmpwild_cset_loop sc d prev2 (a' ++ 42 :: 42 :: b) find2
                = some (f, 93 :: (a2 ++ 42 :: 42 :: b)) ∧
              strcmpwild_cset_loop sc d prev2 (a' ++ 42 :: b) find2
                = some (f, 93 :: (a2 ++ 42 :: b)) := by
          intro a' prev2 find2 hl hin'
          rcases ih a' (le_trans hl ha1) hin' prev2 find2 with h | ⟨f, a2, h1, h2, h3, h4⟩
          · exact Or.inl h
          · exact Or.inr ⟨f, a2, h1, by simp only [List.length_cons]; omega, h3, h4⟩
        cases a1 with
        | nil => simp [inClass] at hin1
        | cons r a2 =>
          simp only [List.cons_append]
          rw [strcmpwild_cset_loop_cons sc d prev c (r :: (a2 ++ 42 :: 42 :: b)) find,
            strcmpwild_cset_loop_cons sc d prev c (r :: (a2 ++ 42 :: b)) find]
          simp only [if_neg hc, rd, List.headD_cons]
          split_ifs with h1 h2 h3 h4
          · have hr : r ≠ 93 := h2.2.2
            exact key a2 r 1 (by simp) (by simpa [inClass, hr] using hin1)
          · exact key (r :: a2) c find (le_refl _) hin1
          · exact key (r :: a2) c 1 (le_refl _) hin1
          · exact key (r :: a2) c find (le_refl _) hin1
          · exact key (r :: a2) c find (le_refl _) hin1

/-- The class match on two patterns that differ by a doubled star after the
class: same `find`, same `dst`, and related patterns after the `']'`. -/
theorem strcmpwild_cset_rel (sc : Bool) (prev : Nat) (a b dst : List Nat)
    (hin : inClass true a = false) :
    (strcmpwild_cset sc prev (a ++ 42 :: 42 :: b) dst = none ∧
      strcmpwild_cset sc prev (a ++ 42 :: b) dst = none) ∨
    ∃ (f : Int) (a2 d : List Nat), inClass false a2 = false ∧ a2.length < a.length ∧
      strcmpwild_cset sc prev (a ++ 42 :: 42 :: b) dst = some (f, 93 :: (a2 ++ 42 :: 42 :: b), d) ∧
      strcmpwild_cset sc prev (a ++ 42 :: b) dst = some (f, 93 :: (a2 ++ 42 :: b), d) := by
  cases a with
  | nil => simp [inClass] at hin
  | cons c a1 =>
    by_cases hc : c = 33
    · subst hc
      have hin1 : inClass true a1 = false := by simpa [inClass] using hin
      rcases strcmpwild_cset_loop_rel sc (rd dst) b _ a1 (le_refl _) hin1 33 0 with
        ⟨h1, h2⟩ | ⟨f, a2, h1, h2, h3, h4⟩
      · left
        simp [strcmpwild_cset, rd_cons, h1, h2]
      · right
        refine ⟨1 - f, a2, if 1 - f = 1 then dst.tail else dst, h1,
          by simp only [List.length_cons]; omega, ?_, ?_⟩
        · simp [strcmpwild_cset, rd_cons, h3]
        · simp [strcmpwild_cset, rd_cons, h4]
    · rcases strcmpwild_cset_loop_rel sc (rd dst) b _ (c :: a1) (le_refl _) hin prev 0 with
        ⟨h1, h2⟩ | ⟨f, a2, h1, h2, h3, h4⟩
      · left
        simp only [List.cons_append] at h1 h2
        simp [strcmpwild_cset, rd_cons, hc, h1, h2]
      · right
        simp only [List.cons_append] at h3 h4
        refine ⟨f, a2, if f = 1 then dst.tail else dst, h1, h2, ?_, ?_⟩
        · simp [strcmpwild_cset, rd_cons, hc, h3]
        · simp [strcmpwild_cset, rd_cons, hc, h4]

/-- The star handler on two patterns whose first loops end in related states,
with recursive calls that agree on related patterns. -/
theorem strcmpwild_astr_rel (self self' : List Nat → List Nat → Option Int)
    (src src' dst : List Nat)
    (hsk : StarRel (astr_skip src.tail dst).1 (astr_skip src'.tail dst).1)
    (hd : (astr_skip src.tail dst).2 = (astr_skip src'.tail dst).2)
    (hself : ∀ (s s' d : List Nat), StarRel s s' →
      s.length ≤ (astr_skip src.tail dst).1.length →
      s'.length ≤ (astr_skip src'.tail dst).1.length → self s d = self' s' d) :
    (strcmpwild_astr self src dst = none ∧ strcmpwild_astr self' src' dst = none) ∨
    ∃ (f : Int) (s s' d : List Nat), StarRel s s' ∧
      s.length ≤ (astr_skip src.tail dst).1.length ∧
      s'.length ≤ (astr_skip src'.tail dst).1.length ∧
      strcmpwild_astr self src dst = some (f, s, d) ∧
      strcmpwild_astr self' src' dst = some (f, s', d) := by
  have hdw := hsk.dropWhile
  have hl := dropWhile_star_length (astr_skip src.tail dst).1
  have hl' := dropWhile_star_length (astr_skip src'.tail dst).1
  have hrd := hdw.rd_eq
  have hs : ∀ d, self ((astr_skip src.tail dst).1.dropWhile (fun c => c == 42)) d =
      self' ((astr_skip src'.tail dst).1.dropWhile (fun c => c == 42)) d :=
    fun d => hself _ _ d hdw hl hl'
  have hretry := astr_retry_congr self self' _ _ hrd hs
  unfold strcmpwild_astr
  simp only [← hd, ← hrd, hs, hretry]
  split_ifs with h1 h2
  · exact Or.inr ⟨_, _, _, _, hdw, hl, hl', rfl, rfl⟩
  · exact Or.inr ⟨_, _, _, _, hdw, hl, hl', rfl, rfl⟩
  · rw [← hs]
    cases hself1 : self ((astr_skip src.tail dst).1.dropWhile (fun c => c == 42))
        (astr_skip src.tail dst).2 with
    | none => exact Or.inl ⟨rfl, rfl⟩
    | some r =>
      simp only
      split_ifs with h3
      · rw [← hretry]
        cases hr : astr_retry self ((astr_skip src.tail dst).1.dropWhile (fun c => c == 42))
            (astr_skip src.tail dst).2.tail with
        | none => exact Or.inl ⟨rfl, rfl⟩
        | some fd =>
          obtain ⟨f, d2⟩ := fd
          exact Or.inr ⟨_, _, _, _, hdw, hl, hl', rfl, rfl⟩
      · exact Or.inr ⟨_, _, _, _, hdw, hl, hl', rfl, rfl⟩

/-- One unfolding of the matcher loop. -/
theorem strcmpwild_loop_succ (sc : Bool) (n : Nat) (src dst : List Nat) (find : Int) :
    strcmpwild_loop sc (n + 1) src dst find =
      if rd src ≠ 0 ∧ find = 1 ∧ rd dst ≠ 0 then
        if rd src = 63 then strcmpwild_loop sc n src.tail dst.tail find
        else if rd src = 91 then
          match strcmpwild_cset sc 91 src.tail dst with
          | none => none
          | some (f, src1, dst1) => strcmpwild_loop sc n src1.tail dst1 f
        else if rd src = 42 then
          match strcmpwild_astr (fun s d => strcmpwild_loop sc n s d 1) src dst with
          | none => none
          | some (f, src1, dst1) => strcmpwild_loop sc n src1 dst1 f
        else strcmpwild_loop sc n src.tail dst.tail (if rd src = rd dst then 1 else 0)
      else
        some (if find = 1 ∧ rd dst = 0 ∧
          rd (if find = 1 then src.dropWhile (fun c => c == 42) else src) = 0 then 0 else 1) := rfl

theorem length_tail_lt_of_rd_ne_zero {l : List Nat} {n : Nat} (h : rd l ≠ 0)
    (hn : l.length < n + 1) : l.tail.length < n := by
  cases l with
  | nil => exact absurd rfl h
  | cons c l => simpa using hn

/-- Related patterns give the same answer, whatever fuel above the pattern
length each is run with. -/
theorem strcmpwild_loop_rel (sc : Bool) :
    ∀ (n n' : Nat) (src src' dst : List Nat) (f : Int), StarRel src src' →
      src.length < n → src'.length < n' →
      strcmpwild_loop sc n src dst f = strcmpwild_loop sc n' src' dst f := by
  intro n
  induction n with
  | zero => intro n' src src' dst f _ h; simp at h
  | succ k ih =>
    intro n' src src' dst f hrel hn hn'
    obtain ⟨k', rfl⟩ : ∃ k', n' = k' + 1 := ⟨n' - 1, by omega⟩
    have hrd := hrel.rd_eq
    rw [strcmpwild_loop_succ, strcmpwild_loop_succ, ← hrd]
    by_cases hcond : rd src ≠ 0 ∧ f = 1 ∧ rd dst ≠ 0
    · rw [if_pos hcond, if_pos hcond]
      have hne : rd src ≠ 0 := hcond.1
      have hne' : rd src' ≠ 0 := hrd ▸ hne
      have ht := length_tail_lt_of_rd_ne_zero hne hn
      have ht' := length_tail_lt_of_rd_ne_zero hne' hn'
      by_cases h63 : rd src = 63
      · rw [if_pos h63, if_pos h63]
        exact ih k' _ _ _ _ (hrel.tail (by omega) (by omega)) ht ht'
      rw [if_neg h63, if_neg h63]
      by_cases h91 : rd src = 91
      · rw [if_pos h91, if_pos h91]
        cases hrel with
        | same =>
          cases hcs : strcmpwild_cset sc 91 src.tail dst with
          | none => rfl
          | some r =>
            obtain ⟨f1, s1, d1⟩ := r
            have hlen := strcmpwild_cset_length sc 91 _ _ _ _ _ hcs
            exact ih k' _ _ _ _ (StarRel.same _) (by omega) (by omega)
        | dup a b ha =>
          cases a with
          | nil => simp [rd] at h91
          | cons c a1 =>
            have hc : c = 91 := h91
            subst hc
            have hin : inClass true a1 = false := by simpa [inClass] using ha
            simp only [List.cons_append, List.tail_cons]
            simp only [List.cons_append, List.tail_cons, List.length_cons,
              List.length_append] at ht ht'
            rcases strcmpwild_cset_rel sc 91 a1 b dst hin with
              ⟨h1, h2⟩ | ⟨f1, a2, d1, hin2, hlen, h1, h2⟩
            · rw [h1, h2]
            · rw [h1, h2]
              simp only [List.tail_cons]
              exact ih k' _ _ _ _ (StarRel.dup a2 b hin2)
                (by simp only [List.length_append, List.length_cons]; omega)
                (by simp only [List.length_append, List.length_cons]; omega)
      rw [if_neg h91, if_neg h91]
      by_cases h42 : rd src = 42
      · rw [if_pos h42, if_pos h42]
        have hskl := astr_skip_length src.tail dst
        have hskl' := astr_skip_length src'.tail dst
        have hsk : StarRel (astr_skip src.tail dst).1 (astr_skip src'.tail dst).1 ∧
            (astr_skip src.tail dst).2 = (astr_skip src'.tail dst).2 := by
          cases hrel with
          | same => exact ⟨StarRel.same _, rfl⟩
          | dup a b ha =>
            cases a with
            | nil =>
              have e : astr_skip ([] ++ 42 :: 42 :: b).tail dst
                  = astr_skip ([] ++ 42 :: b).tail dst := by
                simp [astr_skip]
              rw [e]
              exact ⟨StarRel.same _, rfl⟩
            | cons c a1 =>
              have hc : c = 42 := h42
              subst hc
              exact astr_skip_rel (StarRel.dup a1 b (by simpa [inClass] using ha)) dst
        rcases strcmpwild_astr_rel (fun s d => strcmpwild_loop sc k s d 1)
            (fun s d => strcmpwild_loop sc k' s d 1) src src' dst hsk.1 hsk.2
            (fun s s' d hss h1 h2 => ih k' s s' d 1 hss (by omega) (by omega)) with
          ⟨h1, h2⟩ | ⟨f1, s, s', d, hss, hl1, hl2, h1, h2⟩
        · rw [h1, h2]
        · rw [h1, h2]
          exact ih k' _ _ _ _ hss (by omega) (by omega)
      rw [if_neg h42, if_neg h42]
      exact ih k' _ _ _ _ (hrel.tail h42 h91) ht ht'
    · rw [if_neg hcond, if_neg hcond]
      by_cases hf : f = 1
      · simp only [if_pos hf, hrel.dropWhile.rd_eq]
      · simp only [if_neg hf, hrd]

/-- Fuel above the pattern length does not change the answer. -/
theorem strcmpwild_loop_fuel (sc : Bool) (n m : Nat) (src dst : List Nat) (f : Int)
    (hn : src.length < n) (hm : src.length < m) :
    strcmpwild_loop sc n src dst f = strcmpwild_loop sc m src dst f :=
  strcmpwild_loop_rel sc n m src src dst f (StarRel.same _) hn hm

/-- C3: consecutive stars are idempotent.  Replacing one `"**"` that stands
outside a bracketed class by `"*"` does not change the answer of
`impl::strcmpwild` on any string. -/
theorem strcmpwild_star_star (sc : Bool) (a b s : List Nat) (ha : inClass false a = false) :
    strcmpwild sc (a ++ 42 :: 42 :: b) s = strcmpwild sc (a ++ 42 :: b) s :=
  strcmpwild_loop_rel sc _ _ _ _ s 1 (StarRel.dup a b ha) (Nat.lt_succ_self _)
    (Nat.lt_succ_self _)

theorem strcmpwild_star_star_witness :
    inClass false [97, 91, 42, 93] = false ∧
      strcmpwild true ([97, 91, 42, 93] ++ 42 :: 42 :: [99]) [97, 42, 98, 99] =
        strcmpwild true ([97, 91, 42, 93] ++ 42 :: [99]) [97, 42, 98, 99] :=
  ⟨by decide, strcmpwild_star_star true [97, 91, 42, 93] [99] [97, 42, 98, 99] (by decide)⟩

/-- The matcher loop on a literal pattern, for any fuel above its length. -/
theorem strcmpwild_loop_c (sc : Bool) (k : Nat) (l : List Nat) (hl : CStr l) :
    strcmpwild_loop sc (k + 2) [99] l 1 = some (if [99] = l then 0 else 1) :=
  strcmpwild_loop_literal sc [99] (k + 2) l (by simp) (by decide) hl (by unfold Literal; decide)

theorem getLast?_cons_of_ne {d : Nat} (rest : List Nat) (h : d ≠ 99) :
    (d :: rest).getLast? = some 99 ↔ rest.getLast? = some 99 := by
  cases rest with
  | nil => simp [h]
  | cons e rest2 => rw [List.getLast?_cons_cons]

/-- The retry loop for the rest pattern `"c"`: it stops at the last byte of the
string if that is a `'c'`, and runs to the end otherwise. -/
theorem astr_retry_c (sc : Bool) (k : Nat) (t : List Nat) (ht : CStr t) :
    astr_retry (fun s d => strcmpwild_loop sc (k + 2) s d 1) [99] t =
      some (if t.getLast? = some 99 then (1, [99]) else (0, [])) := by
  induction t with
  | nil => rfl
  | cons d rest ih =>
    have hd : d ≠ 0 := ht.head_pos
    have ih' := ih ht.tail_of_cons
    rw [astr_retry]
    by_cases hc : d = 99
    · subst hc
      have h0 : ¬ (rd [99] ≠ 99 ∧ rd [99] ≠ 91 ∧ (99 : Nat) ≠ 0) := by simp
      rw [if_neg h0, if_pos hd, strcmpwild_loop_c sc k _ ht]
      cases rest with
      | nil => simp
      | cons e rest2 =>
        have h1 : ¬ ([99] = 99 :: e :: rest2) := by simp
        rw [if_neg h1, List.getLast?_cons_cons]
        simpa using ih'
    · have h0 : rd [99] ≠ d ∧ rd [99] ≠ 91 ∧ d ≠ 0 := ⟨fun h => hc h.symm, by simp, hd⟩
      rw [if_pos h0, ih']
      simp only [getLast?_cons_of_ne rest hc]

theorem astr_skip_of_ne (c : Nat) (rest dst : List Nat) (h63 : c ≠ 63) (h42 : c ≠ 42) :
    astr_skip (c :: rest) dst = (c :: rest, dst) := by
  simp [astr_skip, h63, h42]

/-- The star handler of `"*c"` on a non-empty string. -/
theorem strcmpwild_astr_star_c (sc : Bool) (e : Nat) (t : List Nat) (ht : CStr (e :: t)) :
    strcmpwild_astr (fun s d => strcmpwild_loop sc 2 s d 1) [42, 99] (e :: t) =
      some (if (e :: t).getLast? = some 99 then (1, [99], [99]) else (0, [99], [])) := by
  have he : e ≠ 0 := ht.head_pos
  unfold strcmpwild_astr
  simp only [List.tail_cons, astr_skip_of_ne 99 [] (e :: t) (by decide) (by decide),
    dropWhile_star_of_ne [] (by decide : (99 : Nat) ≠ 42), rd_cons, he, false_and, if_false,
    strcmpwild_loop_c sc 0 _ ht, astr_retry_c sc 0 t ht.tail_of_cons]
  by_cases h1 : [99] = e :: t
  · rw [← h1]; simp
  · have h1' : ¬ (e = 99 ∧ t = []) := fun h => h1 (by rw [h.1, h.2])
    rw [if_neg h1]
    cases t with
    | nil =>
      have he99 : e ≠ 99 := fun h => h1' ⟨h, rfl⟩
      simp [he99]
    | cons g t2 =>
      rw [List.getLast?_cons_cons]
      by_cases h2 : (g :: t2).getLast? = some 99 <;> simp [h2]

/-- The answer of `impl::strcmpwild` for the pattern `"a*c"`. -/
theorem a_star_c_answer (sc : Bool) (s : List Nat) (hs : CStr s) :
    strcmpwild sc [97, 42, 99] s =
      some (if 2 ≤ s.length ∧ s.head? = some 97 ∧ s.getLast? = some 99 then 0 else 1) := by
  unfold strcmpwild
  simp only [List.length_cons, List.length_nil, zero_add, Nat.reduceAdd]
  cases s with
  | nil => simp [strcmpwild_loop_succ, dropWhile_star_of_ne]
  | cons d t =>
    have hd : d ≠ 0 := hs.head_pos
    have ht : CStr t := hs.tail_of_cons
    by_cases hda : d = 97
    swap
    · have hda' : (97 : Nat) ≠ d := fun h => hda h.symm
      simp [strcmpwild_loop_succ, hd, hda, hda']
    subst hda
    cases t with
    | nil => simp [strcmpwild_loop_succ, dropWhile_star_of_ne]
    | cons e t' =>
      have he : e ≠ 0 := ht.head_pos
      have e1 : strcmpwild_loop sc 4 [97, 42, 99] (97 :: e :: t') 1 =
          strcmpwild_loop sc 3 [42, 99] (e :: t') 1 := by
        rw [strcmpwild_loop_succ]; simp
      have e2 : strcmpwild_loop sc 2 [99] [99] 1 = some 0 := by cases sc <;> decide
      have e3 : ∀ l, strcmpwild_loop sc 2 [99] l 0 = some 1 :=
        fun l => strcmpwild_loop_find_zero sc 1 [99] l
      have e4 : strcmpwild_loop sc 3 [42, 99] (e :: t') 1 =
          some (if (e :: t').getLast? = some 99 then 0 else 1) := by
        rw [strcmpwild_loop_succ]
        have hcond : rd [42, 99] ≠ 0 ∧ (1 : Int) = 1 ∧ rd (e :: t') ≠ 0 := ⟨by simp, rfl, he⟩
        rw [if_pos hcond, if_neg (by simp), if_neg (by simp), if_pos (by simp),
          strcmpwild_astr_star_c sc e t' ht]
        by_cases h2 : (e :: t').getLast? = some 99
        · simp [h2, e2]
        · simp [h2, e3]
      rw [e1, e4]
      simp [List.getLast?_cons_cons]

/-- C4: `"a*c"` matches exactly the strings of length at least 2 that begin
with `'a'` and end with `'c'`; it matches `"abc"` and `"aXYZc"` and not
`"ab"`. -/
theorem strcmpwild_a_star_c (sc : Bool) (s : List Nat) (hs : CStr s) :
    (∃ r, strcmpwild sc [97, 42, 99] s = some r) ∧
    (strcmpwild sc [97, 42, 99] s = some 0 ↔
      2 ≤ s.length ∧ s.head? = some 97 ∧ s.getLast? = some 99) ∧
    strcmpwild sc [97, 42, 99] [97, 98, 99] = some 0 ∧
    strcmpwild sc [97, 42, 99] [97, 88, 89, 90, 99] = some 0 ∧
    strcmpwild sc [97, 42, 99] [97, 98] = some 1 := by
  refine ⟨⟨_, a_star_c_answer sc s hs⟩, ?_,
    by cases sc <;> decide, by cases sc <;> decide, by cases sc <;> decide⟩
  rw [a_star_c_answer sc s hs]
  by_cases h : 2 ≤ s.length ∧ s.head? = some 97 ∧ s.getLast? = some 99
  · simp [h]
  · simp only [if_neg h, Option.some.injEq, one_ne_zero, false_iff]
    exact h

theorem strcmpwild_a_star_c_witness :
    CStr [97, 99, 98, 99] ∧
    ((∃ r, strcmpwild true [97, 42, 99] [97, 99, 98, 99] = some r) ∧
    (strcmpwild true [97, 42, 99] [97, 99, 98, 99] = some 0 ↔
      2 ≤ [97, 99, 98, 99].length ∧ [97, 99, 98, 99].head? = some 97 ∧
        [97, 99, 98, 99].getLast? = some 99) ∧
    strcmpwild true [97, 42, 99] [97, 98, 99] = some 0 ∧
    strcmpwild true [97, 42, 99] [97, 88, 89, 90, 99] = some 0 ∧
    strcmpwild true [97, 42, 99] [97, 98] = some 1) :=
  ⟨by decide, strcmpwild_a_star_c true [97, 99, 98, 99] (by decide)⟩

theorem CStr.ne_zero_of_mem {s : List Nat} (h : CStr s) {c : Nat} (hc : c ∈ s) : c ≠ 0 :=
  Nat.pos_iff_ne_zero.mp (h c hc).1

/-- An iteration of the matcher loop at a literal pattern byte. -/
theorem strcmpwild_loop_step_lit (sc : Bool) (n c d : Nat) (p t : List Nat)
    (hc : c ≠ 0) (h63 : c ≠ 63) (h91 : c ≠ 91) (h42 : c ≠ 42) (hd : d ≠ 0) :
    strcmpwild_loop sc (n + 1) (c :: p) (d :: t) 1 =
      strcmpwild_loop sc n p t (if c = d then 1 else 0) := by
  rw [strcmpwild_loop_succ]
  simp [hc, h63, h91, h42, hd]

/-- An iteration of the matcher loop at a `'?'`. -/
theorem strcmpwild_loop_step_quest (sc : Bool) (n d : Nat) (p t : List Nat) (hd : d ≠ 0) :
    strcmpwild_loop sc (n + 1) (63 :: p) (d :: t) 1 = strcmpwild_loop sc n p t 1 := by
  rw [strcmpwild_loop_succ]
  simp [hd]

/-- The matcher loop when the string is exhausted. -/
theorem strcmpwild_loop_dst_nil (sc : Bool) (n : Nat) (p : List Nat) :
    strcmpwild_loop sc (n + 1) p [] 1 =
      some (if rd (p.dropWhile (fun c => c == 42)) = 0 then 0 else 1) := by
  rw [strcmpwild_loop_succ]
  simp

/-- The matcher loop when the pattern is exhausted. -/
theorem strcmpwild_loop_src_nil (sc : Bool) (n : Nat) (t : List Nat) :
    strcmpwild_loop sc (n + 1) [] t 1 = some (if rd t = 0 then 0 else 1) := by
  rw [strcmpwild_loop_succ]
  simp

/-- The answer of `impl::strcmpwild` for the pattern `"a?c"`. -/
theorem a_quest_c_answer (sc : Bool) (s : List Nat) (hs : CStr s) :
    strcmpwild sc [97, 63, 99] s =
      some (if s.length = 3 ∧ s.head? = some 97 ∧ s.getLast? = some 99 then 0 else 1) := by
  unfold strcmpwild
  simp only [List.length_cons, List.length_nil, zero_add, Nat.reduceAdd]
  rcases s with _ | ⟨d, _ | ⟨e, _ | ⟨f, _ | ⟨g, t⟩⟩⟩⟩
  · rw [strcmpwild_loop_dst_nil]; simp [dropWhile_star_of_ne]
  · have hd : d ≠ 0 := hs.ne_zero_of_mem (by simp)
    rw [strcmpwild_loop_step_lit sc _ _ _ _ _ (by decide) (by decide) (by decide) (by decide) hd]
    by_cases hda : 97 = d
    · rw [if_pos hda, strcmpwild_loop_dst_nil]; simp [dropWhile_star_of_ne]
    · rw [if_neg hda, strcmpwild_loop_find_zero]; simp
  · have hd : d ≠ 0 := hs.ne_zero_of_mem (by simp)
    have he : e ≠ 0 := hs.ne_zero_of_mem (by simp)
    rw [strcmpwild_loop_step_lit sc _ _ _ _ _ (by decide) (by decide) (by decide) (by decide) hd]
    by_cases hda : 97 = d
    · rw [if_pos hda, strcmpwild_loop_step_quest sc _ _ _ _ he, strcmpwild_loop_dst_nil]
      simp [dropWhile_star_of_ne]
    · rw [if_neg hda, strcmpwild_loop_find_zero]; simp
  · have hd : d ≠ 0 := hs.ne_zero_of_mem (by simp)
    have he : e ≠ 0 := hs.ne_zero_of_mem (by simp)
    have hf : f ≠ 0 := hs.ne_zero_of_mem (by simp)
    rw [strcmpwild_loop_step_lit sc _ _ _ _ _ (by decide) (by decide) (by decide) (by decide) hd]
    by_cases hda : 97 = d
    · rw [if_pos hda, strcmpwild_loop_step_quest sc _ _ _ _ he,
        strcmpwild_loop_step_lit sc _ _ _ _ _ (by decide) (by decide) (by decide) (by decide) hf]
      by_cases hfc : 99 = f
      · rw [if_pos hfc, strcmpwild_loop_src_nil]; simp [← hda, ← hfc]
      · rw [if_neg hfc, strcmpwild_loop_find_zero]
        have : ¬ f = 99 := fun h => hfc h.symm
        simp [this]
    · rw [if_neg hda, strcmpwild_loop_find_zero]
      have : ¬ d = 97 := fun h => hda h.symm
      simp [this]
  · have hd : d ≠ 0 := hs.ne_zero_of_mem (by simp)
    have he : e ≠ 0 := hs.ne_zero_of_mem (by simp)
    have hf : f ≠ 0 := hs.ne_zero_of_mem (by simp)
    have hg : g ≠ 0 := hs.ne_zero_of_mem (by simp)
    rw [strcmpwild_loop_step_lit sc _ _ _ _ _ (by decide) (by decide) (by decide) (by decide) hd]
    by_cases hda : 97 = d
    · rw [if_pos hda, strcmpwild_loop_step_quest sc _ _ _ _ he,
        strcmpwild_loop_step_lit sc _ _ _ _ _ (by decide) (by decide) (by decide) (by decide) hf]
      by_cases hfc : 99 = f
      · rw [if_pos hfc, strcmpwild_loop_src_nil]; simp [hg]
      · rw [if_neg hfc, strcmpwild_loop_find_zero]; simp
    · rw [if_neg hda, strcmpwild_loop_find_zero]; simp

/-- C5: `'?'` matches exactly one arbitrary byte.  `"a?c"` matches exactly the
strings of three bytes whose first is `'a'` and whose last is `'c'`; it
matches `"abc"` and neither `"ac"` nor `"abbc"`. -/
theorem strcmpwild_a_quest_c (sc : Bool) (s : List Nat) (hs : CStr s) :
    (∃ r, strcmpwild sc [97, 63, 99] s = some r) ∧
    (strcmpwild sc [97, 63, 99] s = some 0 ↔
      s.length = 3 ∧ s.head? = some 97 ∧ s.getLast? = some 99) ∧
    strcmpwild sc [97, 63, 99] [97, 98, 99] = some 0 ∧
    strcmpwild sc [97, 63, 99] [97, 99] = some 1 ∧
    strcmpwild sc [97, 63, 99] [97, 98, 98, 99] = some 1 := by
  refine ⟨⟨_, a_quest_c_answer sc s hs⟩, ?_,
    by cases sc <;> decide, by cases sc <;> decide, by cases sc <;> decide⟩
  rw [a_quest_c_answer sc s hs]
  by_cases h : s.length = 3 ∧ s.head? = some 97 ∧ s.getLast? = some 99
  · simp [h]
  · simp only [if_neg h, Option.some.injEq, one_ne_zero, false_iff]
    exact h

theorem strcmpwild_a_quest_c_witness :
    CStr [97, 63, 99] ∧
    ((∃ r, strcmpwild false [97, 63, 99] [97, 63, 99] = some r) ∧
    (strcmpwild false [97, 63, 99] [97, 63, 99] = some 0 ↔
      [97, 63, 99].length = 3 ∧ [97, 63, 99].head? = some 97 ∧
        [97, 63, 99].getLast? = some 99) ∧
    strcmpwild false [97, 63, 99] [97, 98, 99] = some 0 ∧
    strcmpwild false [97, 63, 99] [97, 99] = some 1 ∧
    strcmpwild false [97, 63, 99] [97, 98, 98, 99] = some 1) :=
  ⟨by decide, strcmpwild_a_quest_c false [97, 63, 99] (by decide)⟩

/-- An iteration of the matcher loop at a `'['`. -/
theorem strcmpwild_loop_step_class (sc : Bool) (n d : Nat) (p t : List Nat) (hd : d ≠ 0) :
    strcmpwild_loop sc (n + 1) (91 :: p) (d :: t) 1 =
      match strcmpwild_cset sc 91 p (d :: t) with
      | none => none
      | some (f, src1, dst1) => strcmpwild_loop sc n src1.tail dst1 f := by
  rw [strcmpwild_loop_succ]
  simp [hd]

/-- Byte order against an ASCII range does not depend on the signedness of
plain `char`. -/
theorem cint_range_a_c (sc : Bool) (d : Nat) (hd : d < 256) :
    (cint sc 97 ≤ cint sc d ∧ cint sc d ≤ cint sc 99) ↔ (97 ≤ d ∧ d ≤ 99) := by
  unfold cint
  rw [Nat.mod_eq_of_lt hd]
  cases sc
  · simp
  · simp only [true_and]; split_ifs <;> omega

theorem cint_a_lt_c (sc : Bool) : cint sc 97 < cint sc 99 := by
  cases sc <;> decide

/-- The class `[ab]` against a first byte `d`. -/
theorem strcmpwild_cset_ab (sc : Bool) (d : Nat) (t : List Nat) :
    strcmpwild_cset sc 91 [97, 98, 93, 120] (d :: t) =
      some (if d = 97 ∨ d = 98 then (1, [93, 120], t) else (0, [93, 120], d :: t)) := by
  unfold strcmpwild_cset
  simp only [rd_cons, strcmpwild_cset_loop_cons]
  by_cases h1 : 97 = d
  · subst h1; simp [strcmpwild_cset_loop_cons]
  · by_cases h2 : 98 = d
    · subst h2; simp [strcmpwild_cset_loop_cons]
    · have h1' : ¬ d = 97 := fun h => h1 h.symm
      have h2' : ¬ d = 98 := fun h => h2 h.symm
      simp [strcmpwild_cset_loop_cons, h1, h2, h1', h2']

/-- The negated class `[!ab]` against a first byte `d`. -/
theorem strcmpwild_cset_not_ab (sc : Bool) (d : Nat) (t : List Nat) :
    strcmpwild_cset sc 91 [33, 97, 98, 93, 120] (d :: t) =
      some (if d = 97 ∨ d = 98 then (0, [93, 120], d :: t) else (1, [93, 120], t)) := by
  unfold strcmpwild_cset
  simp only [rd_cons, List.tail_cons, strcmpwild_cset_loop_cons]
  by_cases h1 : 97 = d
  · subst h1; simp [strcmpwild_cset_loop_cons]
  · by_cases h2 : 98 = d
    · subst h2; simp [strcmpwild_cset_loop_cons]
    · have h1' : ¬ d = 97 := fun h => h1 h.symm
      have h2' : ¬ d = 98 := fun h => h2 h.symm
      simp [strcmpwild_cset_loop_cons, h1, h2, h1', h2']

/-- The range class `[a-c]` against a first byte `d`. -/
theorem strcmpwild_cset_a_to_c (sc : Bool) (d : Nat) (t : List Nat) (hd : d < 256) :
    strcmpwild_cset sc 91 [97, 45, 99, 93] (d :: t) =
      some (if 97 ≤ d ∧ d ≤ 99 then (1, [93], t) else (0, [93], d :: t)) := by
  unfold strcmpwild_cset
  simp only [rd_cons, strcmpwild_cset_loop_cons]
  have hr := cint_range_a_c sc d hd
  have hlt := cint_a_lt_c sc
  by_cases h1 : 97 = d
  · subst h1; simp [strcmpwild_cset_loop_cons]
  · have h1' : ¬ d = 97 := fun h => h1 h.symm
    by_cases h2 : 97 ≤ d ∧ d ≤ 99
    · simp [strcmpwild_cset_loop_cons, h1, hlt, hr, h2]
    · have h3 : ¬ 99 = d := by
        intro h; apply h2; subst h; decide
      simp [strcmpwild_cset_loop_cons, h1, hlt, hr, h2, h3]

theorem strcmpwild_loop_x (sc : Bool) (k : Nat) (l : List Nat) (hl : CStr l) :
    strcmpwild_loop sc (k + 2) [120] l 1 = some (if [120] = l then 0 else 1) :=
  strcmpwild_loop_literal sc [120] (k + 2) l (by simp) (by decide) hl (by unfold Literal; decide)

/-- The answer of `impl::strcmpwild` for the pattern `"[ab]x"`. -/
theorem class_ab_x_answer (sc : Bool) (s : List Nat) (hs : CStr s) :
    strcmpwild sc [91, 97, 98, 93, 120] s =
      some (if s = [97, 120] ∨ s = [98, 120] then 0 else 1) := by
  unfold strcmpwild
  simp only [List.length_cons, List.length_nil, zero_add, Nat.reduceAdd]
  cases s with
  | nil => rw [strcmpwild_loop_dst_nil]; simp [dropWhile_star_of_ne]
  | cons d t =>
    have hd : d ≠ 0 := hs.head_pos
    rw [strcmpwild_loop_step_class sc _ _ _ _ hd, strcmpwild_cset_ab]
    by_cases h : d = 97 ∨ d = 98
    · rw [if_pos h]
      simp only [List.tail_cons]
      rw [strcmpwild_loop_x sc 3 t hs.tail_of_cons]
      have ht' : ([120] = t) ↔ (t = [120]) := eq_comm
      rcases h with h | h <;> subst h <;> by_cases ht : t = [120] <;> simp [ht, ht']
    · rw [if_neg h]
      simp only [List.tail_cons]
      rw [strcmpwild_loop_find_zero]
      have h1 : ¬ d = 97 := fun e => h (Or.inl e)
      have h2 : ¬ d = 98 := fun e => h (Or.inr e)
      simp [h1, h2]

/-- The answer of `impl::strcmpwild` for the pattern `"[!ab]x"`. -/
theorem class_not_ab_x_answer (sc : Bool) (s : List Nat) (hs : CStr s) :
    strcmpwild sc [91, 33, 97, 98, 93, 120] s =
      some (if s.length = 2 ∧ s.head? ≠ some 97 ∧ s.head? ≠ some 98 ∧ s.getLast? = some 120
        then 0 else 1) := by
  unfold strcmpwild
  simp only [List.length_cons, List.length_nil, zero_add, Nat.reduceAdd]
  cases s with
  | nil => rw [strcmpwild_loop_dst_nil]; simp [dropWhile_star_of_ne]
  | cons d t =>
    have hd : d ≠ 0 := hs.head_pos
    rw [strcmpwild_loop_step_class sc _ _ _ _ hd, strcmpwild_cset_not_ab]
    by_cases h : d = 97 ∨ d = 98
    · rw [if_pos h]
      simp only [List.tail_cons]
      rw [strcmpwild_loop_find_zero]
      rcases h with h | h <;> subst h <;> simp
    · rw [if_neg h]
      simp only [List.tail_cons]
      rw [strcmpwild_loop_x sc 4 t hs.tail_of_cons]
      have h1 : ¬ d = 97 := fun e => h (Or.inl e)
      have h2 : ¬ d = 98 := fun e => h (Or.inr e)
      rcases t with _ | ⟨e, _ | ⟨g, t2⟩⟩
      · simp
      · by_cases he : 120 = e
        · subst he; simp [h1, h2]
        · have he' : ¬ e = 120 := fun x => he x.symm
          simp [he, he']
      · simp

/-- The answer of `impl::strcmpwild` for the pattern `"[a-c]"`. -/
theorem class_a_to_c_answer (sc : Bool) (s : List Nat) (hs : CStr s) :
    strcmpwild sc [91, 97, 45, 99, 93] s =
      some (if s.length = 1 ∧ 97 ≤ rd s ∧ rd s ≤ 99 then 0 else 1) := by
  unfold strcmpwild
  simp only [List.length_cons, List.length_nil, zero_add, Nat.reduceAdd]
  cases s with
  | nil => rw [strcmpwild_loop_dst_nil]; simp [dropWhile_star_of_ne]
  | cons d t =>
    have hd : d ≠ 0 := hs.head_pos
    have hd2 : d < 256 := (hs d (List.mem_cons_self _ _)).2
    rw [strcmpwild_loop_step_class sc _ _ _ _ hd, strcmpwild_cset_a_to_c sc d t hd2]
    by_cases h : 97 ≤ d ∧ d ≤ 99
    · rw [if_pos h]
      simp only [List.tail_cons]
      rw [strcmpwild_loop_src_nil]
      cases t with
      | nil => simp [h]
      | cons e t2 =>
        have he : e ≠ 0 := hs.tail_of_cons.head_pos
        simp [he]
    · rw [if_neg h]
      simp only [List.tail_cons]
      rw [strcmpwild_loop_find_zero]
      have h' : ¬ ((d :: t).length = 1 ∧ 97 ≤ rd (d :: t) ∧ rd (d :: t) ≤ 99) := fun x => h x.2
      rw [if_neg h']

/-- C6: character classes.  `"[ab]x"` matches exactly `"ax"` and `"bx"`;
`"[!ab]x"` matches exactly the two-byte strings whose first byte is neither
`'a'` nor `'b'` and whose second is `'x'`; `"[a-c]"` matches exactly the
one-byte strings whose byte lies in `'a'..'c'`.  The matcher returns in all
three cases. -/
theorem strcmpwild_classes (sc : Bool) (s : List Nat) (hs : CStr s) :
    (strcmpwild sc [91, 97, 98, 93, 120] s = some 0 ↔ s = [97, 120] ∨ s = [98, 120]) ∧
    (strcmpwild sc [91, 33, 97, 98, 93, 120] s = some 0 ↔
      ∃ c, c ≠ 97 ∧ c ≠ 98 ∧ s = [c, 120]) ∧
    (strcmpwild sc [91, 97, 45, 99, 93] s = some 0 ↔ ∃ c, 97 ≤ c ∧ c ≤ 99 ∧ s = [c]) ∧
    (∃ r1 r2 r3, strcmpwild sc [91, 97, 98, 93, 120] s = some r1 ∧
      strcmpwild sc [91, 33, 97, 98, 93, 120] s = some r2 ∧
      strcmpwild sc [91, 97, 45, 99, 93] s = some r3) := by
  refine ⟨?_, ?_, ?_, ⟨_, _, _, class_ab_x_answer sc s hs, class_not_ab_x_answer sc s hs,
    class_a_to_c_answer sc s hs⟩⟩
  · rw [class_ab_x_answer sc s hs]
    by_cases h : s = [97, 120] ∨ s = [98, 120]
    · simp [h]
    · simp only [if_neg h, Option.some.injEq, one_ne_zero, false_iff]; exact h
  · rw [class_not_ab_x_answer sc s hs]
    rcases s with _ | ⟨d, _ | ⟨e, _ | ⟨g, t2⟩⟩⟩
    · simp
    · simp
    · simp only [List.length_cons, List.length_nil, List.head?_cons, List.getLast?_cons_cons,
        List.getLast?_singleton]
      constructor
      · intro h
        by_cases hc : (True ∧ some d ≠ some 97 ∧ some d ≠ some 98 ∧ some e = some 120)
        · obtain ⟨_, h1, h2, h3⟩ := hc
          simp only [Option.some.injEq] at h3
          exact ⟨d, by simpa using h1, by simpa using h2, by rw [h3]⟩
        · rw [if_neg hc] at h; simp at h
      · rintro ⟨c, h1, h2, h3⟩
        simp only [List.cons.injEq, and_true] at h3
        obtain ⟨rfl, rfl⟩ := h3
        simp [h1, h2]
    · simp
  · rw [class_a_to_c_answer sc s hs]
    rcases s with _ | ⟨d, _ | ⟨e, t2⟩⟩
    · simp
    · simp only [List.length_cons, List.length_nil, rd_cons]
      constructor
      · intro h
        by_cases hc : (True ∧ 97 ≤ d ∧ d ≤ 99)
        · exact ⟨d, hc.2.1, hc.2.2, rfl⟩
        · rw [if_neg hc] at h; simp at h
      · rintro ⟨c, h1, h2, h3⟩
        simp only [List.cons.injEq, and_true] at h3
        subst h3
        simp [h1, h2]
    · simp

theorem strcmpwild_classes_witness :
    CStr [98, 120] ∧
    ((strcmpwild true [91, 97, 98, 93, 120] [98, 120] = some 0 ↔
      [98, 120] = [97, 120] ∨ [98, 120] = [98, 120]) ∧
    (strcmpwild true [91, 33, 97, 98, 93, 120] [98, 120] = some 0 ↔
      ∃ c, c ≠ 97 ∧ c ≠ 98 ∧ [98, 120] = [c, 120]) ∧
    (strcmpwild true [91, 97, 45, 99, 93] [98, 120] = some 0 ↔
      ∃ c, 97 ≤ c ∧ c ≤ 99 ∧ [98, 120] = [c]) ∧
    (∃ r1 r2 r3, strcmpwild true [91, 97, 98, 93, 120] [98, 120] = some r1 ∧
      strcmpwild true [91, 33, 97, 98, 93, 120] [98, 120] = some r2 ∧
      strcmpwild true [91, 97, 45, 99, 93] [98, 120] = some r3)) :=
  ⟨by decide, strcmpwild_classes true [98, 120] (by decide)⟩

/-! ## Gap compaction -/

theorem peek_append_right (a b : List Nat) (i : Nat) : peek (a ++ b) (a.length + i) = peek b i := by
  unfold peek
  rw [List.getD_eq_getElem?_getD, List.getD_eq_getElem?_getD,
    List.getElem?_append_right (by omega)]
  simp

theorem GapInv.init (pre rest : List Nat) :
    GapInv pre [] rest (pre ++ rest) pre.length { end_ := none, size := 0 } :=
  ⟨[], [], [], rfl, by simp, by simp, rfl, Or.inl ⟨rfl, rfl, rfl⟩⟩

/-- What is still to be read stands unchanged from `s` on. -/
theorem GapInv.drop_eq {pre out rest buf : List Nat} {s : Nat} {g : gap}
    (h : GapInv pre out rest buf s g) : buf.drop s = rest := by
  obtain ⟨o1, junk, o2, _, hb, hs, _, _⟩ := h
  subst hb hs
  have : pre.length + o1.length + junk.length + o2.length =
      (pre ++ (o1 ++ (junk ++ o2))).length := by simp; omega
  have e2 : pre ++ (o1 ++ (junk ++ (o2 ++ rest))) = (pre ++ (o1 ++ (junk ++ o2))) ++ rest := by
    simp
  rw [this, e2]
  exact List.drop_left _ _

theorem GapInv.peek_eq {pre out rest buf : List Nat} {s : Nat} {g : gap}
    (h : GapInv pre out rest buf s g) (i : Nat) : peek buf (s + i) = peek rest i := by
  have hd := h.drop_eq
  unfold peek
  rw [← hd, List.getD_eq_getElem?_getD, List.getD_eq_getElem?_getD, List.getElem?_drop]

theorem GapInv.peek_zero {pre out rest buf : List Nat} {s : Nat} {g : gap}
    (h : GapInv pre out rest buf s g) : peek buf s = peek rest 0 := by
  simpa using h.peek_eq 0

/-- Stepping over a byte that is kept. -/
theorem GapInv.advance {pre out rest buf : List Nat} {s : Nat} {g : gap} {c : Nat}
    (h : GapInv pre out (c :: rest) buf s g) : GapInv pre (out ++ [c]) rest buf (s + 1) g := by
  obtain ⟨o1, junk, o2, ho, hb, hs, hg, he⟩ := h
  rcases he with ⟨he, hj, h2⟩ | he
  · subst hj h2
    refine ⟨o1 ++ [c], [], [], by simp [ho], by simp [hb], by simp [hs]; omega, hg,
      Or.inl ⟨he, rfl, rfl⟩⟩
  · refine ⟨o1, junk, o2 ++ [c], by simp [ho], by simp [hb], by simp [hs]; omega, hg,
      Or.inr he⟩

/-- Writing a byte at the read position. -/
theorem GapInv.poke_head {pre out rest buf : List Nat} {s : Nat} {g : gap} {c : Nat} (v : Nat)
    (h : GapInv pre out (c :: rest) buf s g) : GapInv pre out (v :: rest) (poke buf s v) s g := by
  obtain ⟨o1, junk, o2, ho, hb, hs, hg, he⟩ := h
  refine ⟨o1, junk, o2, ho, ?_, hs, hg, he⟩
  subst hb hs
  unfold poke
  have e : pre.length + o1.length + junk.length + o2.length =
      (pre ++ (o1 ++ (junk ++ o2))).length := by simp; omega
  have e2 : pre ++ (o1 ++ (junk ++ (o2 ++ c :: rest))) = (pre ++ (o1 ++ (junk ++ o2))) ++ c :: rest := by
    simp
  have e3 : pre ++ (o1 ++ (junk ++ (o2 ++ v :: rest))) = (pre ++ (o1 ++ (junk ++ o2))) ++ v :: rest := by
    simp
  rw [e, e2, e3, List.set_append_right _ _ (le_refl _)]
  simp

/-- Writing a byte ahead of the read position. -/
theorem GapInv.poke_at {pre out rest buf : List Nat} {s : Nat} {g : gap} (i v : Nat)
    (h : GapInv pre out rest buf s g) :
    GapInv pre out (rest.set i v) (poke buf (s + i) v) s g := by
  obtain ⟨o1, junk, o2, ho, hb, hs, hg, he⟩ := h
  refine ⟨o1, junk, o2, ho, ?_, hs, hg, he⟩
  subst hb hs
  unfold poke
  have e : pre.length + o1.length + junk.length + o2.length =
      (pre ++ (o1 ++ (junk ++ o2))).length := by simp; omega
  have e2 : pre ++ (o1 ++ (junk ++ (o2 ++ rest))) = (pre ++ (o1 ++ (junk ++ o2))) ++ rest := by
    simp
  have e3 : pre ++ (o1 ++ (junk ++ (o2 ++ rest.set i v))) =
      (pre ++ (o1 ++ (junk ++ o2))) ++ rest.set i v := by
    simp
  rw [e, e2, e3, List.set_append_right _ _ (by omega)]
  simp

/-- `gap::push` drops the next `count` bytes of the input and keeps the
decoded text. -/
theorem GapInv.push {pre out rest buf : List Nat} {s : Nat} {g : gap} (count : Nat)
    (h : GapInv pre out rest buf s g) (hc : count ≤ rest.length) :
    GapInv pre out (rest.drop count) (g.push buf s count).1 (s + count) (g.push buf s count).2.2 ∧
      (g.push buf s count).2.1 = s + count := by
  refine ⟨?_, rfl⟩
  obtain ⟨o1, junk, o2, ho, hb, hs, hg, he⟩ := h
  rcases he with ⟨he, hj, h2⟩ | he
  · subst hj h2
    refine ⟨o1, rest.take count, [], ho, ?_, ?_, ?_, Or.inr ?_⟩
    · simp [gap.push, he, hb]
    · simp [hs, List.length_take, hc]
    · simp [gap.push, hg, List.length_take, hc]
    · simp [gap.push, hs, List.length_take, hc]
  · refine ⟨o1 ++ o2, (junk ++ o2).drop o2.length ++ rest.take count, [], by simp [ho], ?_, ?_,
      ?_, Or.inr ?_⟩
    · simp only [gap.push, he, hg, memmove]
      subst hb hs
      have e1 : pre.length + o1.length + junk.length - junk.length = (pre ++ o1).length := by
        simp
      have e2 : pre.length + o1.length + junk.length + o2.length -
          (pre.length + o1.length + junk.length) = o2.length := by omega
      have e3 : pre.length + o1.length + junk.length = (pre ++ (o1 ++ junk)).length := by
        simp; omega
      have e4 : pre ++ (o1 ++ (junk ++ (o2 ++ rest))) = (pre ++ o1) ++ (junk ++ (o2 ++ rest)) := by
        simp
      have e5 : pre ++ (o1 ++ (junk ++ (o2 ++ rest))) = (pre ++ (o1 ++ junk)) ++ (o2 ++ rest) := by
        simp
      rw [e2]
      conv_lhs => rw [e1]
      rw [show List.take (pre ++ o1).length (pre ++ (o1 ++ (junk ++ (o2 ++ rest)))) = pre ++ o1 by
        rw [e4]; exact List.take_left _ _]
      rw [show List.drop (pre.length + o1.length + junk.length)
          (pre ++ (o1 ++ (junk ++ (o2 ++ rest)))) = o2 ++ rest by
        rw [e3, e5]; exact List.drop_left _ _]
      rw [List.take_left]
      rw [show List.drop ((pre ++ o1).length + o2.length) (pre ++ (o1 ++ (junk ++ (o2 ++ rest))))
          = List.drop o2.length (junk ++ o2) ++ rest by
        rw [e4, List.drop_append]
        rw [← List.append_assoc junk o2 rest, List.drop_append_of_le_length (by simp)]]
      simp
    · simp [hs, List.length_take, hc]; omega
    · simp [gap.push, hg, List.length_take, hc]
    · simp [gap.push, hs, List.length_take, hc]; omega

theorem gap.push_size (g : gap) (buf : List Nat) (s count : Nat) :
    (g.push buf s count).2.2.size = g.size + count := rfl

/-- `gap::flush` leaves the decoded text in one piece at the start position. -/
theorem GapInv.flush {pre out rest buf : List Nat} {s : Nat} {g : gap}
    (h : GapInv pre out rest buf s g) :
    ∃ X : List Nat, X.length = g.size ∧
      g.flush buf s = (pre ++ (out ++ (X ++ rest)), pre.length + out.length) := by
  obtain ⟨o1, junk, o2, ho, hb, hs, hg, he⟩ := h
  rcases he with ⟨he, hj, h2⟩ | he
  · subst hj h2
    refine ⟨[], by simp [hg], ?_⟩
    simp [gap.flush, he, hb, hs, ho]
  · refine ⟨(junk ++ o2).drop o2.length, by simp [hg], ?_⟩
    simp only [gap.flush, he, hg, memmove]
    subst hb hs ho
    have e1 : pre.length + o1.length + junk.length - junk.length = (pre ++ o1).length := by
      simp
    have e2 : pre.length + o1.length + junk.length + o2.length -
        (pre.length + o1.length + junk.length) = o2.length := by omega
    have e3 : pre.length + o1.length + junk.length = (pre ++ (o1 ++ junk)).length := by
      simp; omega
    have e4 : pre ++ (o1 ++ (junk ++ (o2 ++ rest))) = (pre ++ o1) ++ (junk ++ (o2 ++ rest)) := by
      simp
    have e5 : pre ++ (o1 ++ (junk ++ (o2 ++ rest))) = (pre ++ (o1 ++ junk)) ++ (o2 ++ rest) := by
      simp
    rw [e2]
    conv_lhs => rw [e1]
    rw [show List.take (pre ++ o1).length (pre ++ (o1 ++ (junk ++ (o2 ++ rest)))) = pre ++ o1 by
      rw [e4]; exact List.take_left _ _]
    rw [show List.drop (pre.length + o1.length + junk.length)
        (pre ++ (o1 ++ (junk ++ (o2 ++ rest)))) = o2 ++ rest by
      rw [e3, e5]; exact List.drop_left _ _]
    rw [List.take_left]
    rw [show List.drop ((pre ++ o1).length + o2.length) (pre ++ (o1 ++ (junk ++ (o2 ++ rest))))
        = List.drop o2.length (junk ++ o2) ++ rest by
      rw [e4, List.drop_append]
      rw [← List.append_assoc junk o2 rest, List.drop_append_of_le_length (by simp)]]
    simp
    omega

/-! ## The loop of `strconv_pcdata` -/

set_option maxRecDepth 100000 in
/-- The bytes of class `ct_parse_pcdata` are NUL, `'\r'`, `'&'` and `'<'`. -/
theorem is_chartype_pcdata_table :
    ∀ c < 256, is_chartype c ct_parse_pcdata = decide (c = 0 ∨ c = 13 ∨ c = 38 ∨ c = 60) := by
  decide

theorem is_chartype_pcdata_plain {c : Nat} (h : Plain c) : is_chartype c ct_parse_pcdata = false := by
  obtain ⟨h1, h2, h3, h4, h5⟩ := h
  rw [is_chartype_pcdata_table c h1]
  simp [h2, h3, h4, h5]

theorem is_chartype_pcdata_cr : is_chartype 13 ct_parse_pcdata = true := by decide

theorem is_chartype_pcdata_amp : is_chartype 38 ct_parse_pcdata = true := by decide

theorem is_chartype_pcdata_lt : is_chartype 60 ct_parse_pcdata = true := by decide

/-- One unfolding of the loop of `strconv_pcdata`. -/
theorem strconv_pcdata_loop_succ (esc eol : Bool) (n : Nat) (buf : List Nat) (s0 : Nat) (g : gap) :
    strconv_pcdata_loop esc eol (n + 1) buf s0 g =
      if eol = true ∧ peek buf (skipTo ct_parse_pcdata (buf.drop s0) s0) = 13 then
        if peek (poke buf (skipTo ct_parse_pcdata (buf.drop s0) s0) 10)
            (skipTo ct_parse_pcdata (buf.drop s0) s0 + 1) = 10 then
          strconv_pcdata_loop esc eol n
            (g.push (poke buf (skipTo ct_parse_pcdata (buf.drop s0) s0) 10)
              (skipTo ct_parse_pcdata (buf.drop s0) s0 + 1) 1).1
            (g.push (poke buf (skipTo ct_parse_pcdata (buf.drop s0) s0) 10)
              (skipTo ct_parse_pcdata (buf.drop s0) s0 + 1) 1).2.1
            (g.push (poke buf (skipTo ct_parse_pcdata (buf.drop s0) s0) 10)
              (skipTo ct_parse_pcdata (buf.drop s0) s0 + 1) 1).2.2
        else strconv_pcdata_loop esc eol n (poke buf (skipTo ct_parse_pcdata (buf.drop s0) s0) 10)
          (skipTo ct_parse_pcdata (buf.drop s0) s0 + 1) g
      else if esc = true ∧ peek buf (skipTo ct_parse_pcdata (buf.drop s0) s0) = 38 then
        strconv_pcdata_loop esc eol n
          (strconv_escape buf (skipTo ct_parse_pcdata (buf.drop s0) s0) g).1
          (strconv_escape buf (skipTo ct_parse_pcdata (buf.drop s0) s0) g).2.1
          (strconv_escape buf (skipTo ct_parse_pcdata (buf.drop s0) s0) g).2.2
      else if peek buf (skipTo ct_parse_pcdata (buf.drop s0) s0) = 60 then
        some (some (skipTo ct_parse_pcdata (buf.drop s0) s0 + 1),
          poke (g.flush buf (skipTo ct_parse_pcdata (buf.drop s0) s0)).1
            (g.flush buf (skipTo ct_parse_pcdata (buf.drop s0) s0)).2 0)
      else if peek buf (skipTo ct_parse_pcdata (buf.drop s0) s0) = 0 then some (none, buf)
      else strconv_pcdata_loop esc eol n buf (skipTo ct_parse_pcdata (buf.drop s0) s0 + 1) g := rfl

/-- The scan runs over a plain byte. -/
theorem strconv_pcdata_loop_plain (esc eol : Bool) (n : Nat) {pre out rest buf : List Nat}
    {s c : Nat} {g : gap} (h : GapInv pre out (c :: rest) buf s g) (hc : Plain c) :
    strconv_pcdata_loop esc eol (n + 1) buf s g =
      strconv_pcdata_loop esc eol (n + 1) buf (s + 1) g := by
  have e : skipTo ct_parse_pcdata (buf.drop s) s =
      skipTo ct_parse_pcdata (buf.drop (s + 1)) (s + 1) := by
    rw [h.drop_eq, h.advance.drop_eq, skipTo, is_chartype_pcdata_plain hc]
    simp
  rw [strconv_pcdata_loop_succ, strconv_pcdata_loop_succ, e]

/-- The scan stops at a byte of class `ct_parse_pcdata`. -/
theorem skipTo_stop {pre out rest buf : List Nat} {s c : Nat} {g : gap}
    (h : GapInv pre out (c :: rest) buf s g) (hc : is_chartype c ct_parse_pcdata = true) :
    skipTo ct_parse_pcdata (buf.drop s) s = s := by
  rw [h.drop_eq, skipTo, hc]
  simp

/-- The end of the character data: at `'<'` the gap is flushed, the text is
NUL-terminated and the position after the `'<'` is returned.  The bytes `Y`
between the NUL and what follows the `'<'` are as many as were removed. -/
theorem strconv_pcdata_loop_lt (esc eol : Bool) (n : Nat) {pre out post buf : List Nat}
    {s : Nat} {g : gap} (h : GapInv pre out (60 :: post) buf s g) :
    ∃ Y : List Nat, Y.length = g.size ∧ strconv_pcdata_loop esc eol (n + 1) buf s g =
      some (some (s + 1), pre ++ (out ++ 0 :: (Y ++ post))) := by
  have hs := skipTo_stop h is_chartype_pcdata_lt
  have hp : peek buf s = 60 := by rw [h.peek_zero]; rfl
  obtain ⟨X, hX, hf⟩ := h.flush
  rw [strconv_pcdata_loop_succ, hs, hp, hf]
  simp only [show ¬ ((60 : Nat) = 13) by decide, and_false, if_false,
    show ¬ ((60 : Nat) = 38) by decide, if_true]
  have hpoke : poke (pre ++ (out ++ (X ++ 60 :: post))) (pre.length + out.length) 0 =
      pre ++ (out ++ (X ++ 60 :: post).set 0 0) := by
    unfold poke
    rw [show pre.length + out.length = (pre ++ out).length by simp,
      show pre ++ (out ++ (X ++ 60 :: post)) = (pre ++ out) ++ (X ++ 60 :: post) by simp,
      List.set_append_right _ _ (le_refl _)]
    simp
  rw [hpoke]
  cases X with
  | nil => exact ⟨[], by simpa using hX, by simp⟩
  | cons x X => exact ⟨X ++ [60], by simpa using hX, by simp⟩

/-- The string at the start position of a buffer that holds `out` followed by
a NUL there. -/
theorem cstrAt_result (pre out tail : List Nat) (h : ∀ c ∈ out, c ≠ 0) :
    cstrAt (pre ++ (out ++ 0 :: tail)) pre.length = out := by
  unfold cstrAt
  rw [List.drop_left]
  induction out with
  | nil => simp [List.takeWhile]
  | cons c out ih =>
    have hc : c ≠ 0 := h c (List.mem_cons_self _ _)
    have hc2 : (c != 0) = true := by simpa using hc
    rw [List.cons_append, List.takeWhile_cons, hc2]
    simp only [if_true]
    rw [ih (fun x hx => h x (List.mem_cons_of_mem _ hx))]

/-! ## Line-ending normalization (C8) -/

theorem eolNorm_cons_of_ne {c : Nat} (r : List Nat) (h : c ≠ 13) :
    eolNorm (c :: r) = c :: eolNorm r := by
  cases r with
  | nil => simp [eolNorm, h]
  | cons d r => simp [eolNorm, h]

theorem eolNorm_cr_lf (r : List Nat) : eolNorm (13 :: 10 :: r) = 10 :: eolNorm r := by
  simp [eolNorm]

theorem eolNorm_cr_of_ne (r : List Nat) (h : peek r 0 ≠ 10) :
    eolNorm (13 :: r) = 10 :: eolNorm r := by
  cases r with
  | nil => simp [eolNorm]
  | cons d r =>
    have hd : d ≠ 10 := h
    simp [eolNorm, hd]

theorem eolNorm_ne_zero : ∀ (k : Nat) (t : List Nat), t.length ≤ k → (∀ c ∈ t, c ≠ 0) →
    ∀ c ∈ eolNorm t, c ≠ 0 := by
  intro k
  induction k with
  | zero =>
    intro t hk _ c hc
    cases t with
    | nil => simp [eolNorm] at hc
    | cons d t => simp at hk
  | succ k ih =>
    intro t hk ht c hc
    cases t with
    | nil => simp [eolNorm] at hc
    | cons d r =>
      have hr : ∀ c ∈ r, c ≠ 0 := fun x hx => ht x (List.mem_cons_of_mem _ hx)
      have hrk : r.length ≤ k := by simpa using hk
      by_cases hd : d = 13
      · subst hd
        by_cases h10 : peek r 0 = 10
        · cases r with
          | nil => simp [peek] at h10
          | cons e r2 =>
            have he : e = 10 := h10
            subst he
            rw [eolNorm_cr_lf] at hc
            rcases List.mem_cons.mp hc with h | h
            · omega
            · exact ih r2 (by simp at hrk; omega)
                (fun x hx => hr x (List.mem_cons_of_mem _ hx)) c h
        · rw [eolNorm_cr_of_ne r h10] at hc
          rcases List.mem_cons.mp hc with h | h
          · omega
          · exact ih r hrk hr c h
      · rw [eolNorm_cons_of_ne r hd] at hc
        rcases List.mem_cons.mp hc with h | h
        · rw [h]; exact ht d (List.mem_cons_self _ _)
        · exact ih r hrk hr c h

/-- The loop of `strconv_pcdata<false, true>` on a text segment that ends at a
`'<'`: it returns the position after the `'<'` and leaves the normalized text,
NUL-terminated, at the start position. -/
theorem strconv_pcdata_loop_eol (pre post : List Nat) :
    ∀ (k : Nat) (t : List Nat), t.length ≤ k → (∀ c ∈ t, c < 256 ∧ c ≠ 0 ∧ c ≠ 60) →
      ∀ (n : Nat) (out buf : List Nat) (s : Nat) (g : gap),
        GapInv pre out (t ++ 60 :: post) buf s g → t.length < n →
        ∃ Y : List Nat, (out ++ eolNorm t).length + Y.length = out.length + g.size + t.length ∧
          strconv_pcdata_loop false true n buf s g =
            some (some (s + t.length + 1), pre ++ ((out ++ eolNorm t) ++ 0 :: (Y ++ post))) := by
  intro k
  induction k with
  | zero =>
    intro t hk _ n out buf s g h hn
    have ht : t = [] := List.length_eq_zero.mp (Nat.le_zero.mp hk)
    subst ht
    obtain ⟨m, rfl⟩ : ∃ m, n = m + 1 := ⟨n - 1, by simp at hn; omega⟩
    obtain ⟨Y, hY, hres⟩ := strconv_pcdata_loop_lt false true m h
    exact ⟨Y, by simp [eolNorm, hY], by simpa [eolNorm] using hres⟩
  | succ k ih =>
    intro t hk ht n out buf s g h hn
    obtain ⟨m, rfl⟩ : ∃ m, n = m + 1 := ⟨n - 1, by omega⟩
    cases t with
    | nil =>
      obtain ⟨Y, hY, hres⟩ := strconv_pcdata_loop_lt false true m h
      exact ⟨Y, by simp [eolNorm, hY], by simpa [eolNorm] using hres⟩
    | cons c r =>
      have hr : ∀ c ∈ r, c < 256 ∧ c ≠ 0 ∧ c ≠ 60 := fun x hx => ht x (List.mem_cons_of_mem _ hx)
      have hrk : r.length ≤ k := by simpa using hk
      have hrm : r.length < m := by simpa using hn
      obtain ⟨hc1, hc2, hc3⟩ := ht c (List.mem_cons_self _ _)
      rw [List.cons_append] at h
      have hp : peek buf s = c := by rw [h.peek_zero]; rfl
      by_cases hcr : c = 13
      · -- a CR: it becomes LF, and an LF that follows it is dropped
        subst hcr
        have hs := skipTo_stop h is_chartype_pcdata_cr
        have h1 := (h.poke_head 10).advance
        have hp1 : peek (poke buf s 10) (s + 1) = peek (r ++ 60 :: post) 0 := by
          simpa using h1.peek_zero
        rw [strconv_pcdata_loop_succ, hs, hp, hp1]
        simp only [true_and, if_true]
        by_cases h10 : peek (r ++ 60 :: post) 0 = 10
        · rw [if_pos h10]
          cases r with
          | nil => simp [peek] at h10
          | cons e r2 =>
            have he : e = 10 := h10
            subst he
            rw [List.cons_append] at h1
            obtain ⟨h2, h3⟩ := h1.push 1 (by simp)
            rw [h3]
            simp only [List.drop_succ_cons, List.drop_zero] at h2
            obtain ⟨Y, hY, hres⟩ := ih r2 (by simp at hrk; omega)
              (fun x hx => hr x (List.mem_cons_of_mem _ hx)) m _ _ _ _ h2
              (by simp at hrm; omega)
            refine ⟨Y, ?_, ?_⟩
            · rw [eolNorm_cr_lf]
              simp only [List.length_append, List.length_cons, List.length_nil, gap.push_size] at hY ⊢
              omega
            · rw [hres, eolNorm_cr_lf]
              simp only [List.length_cons, List.append_assoc, List.singleton_append]
              congr 3
              omega
        · rw [if_neg h10]
          obtain ⟨Y, hY, hres⟩ := ih r hrk hr m _ _ _ _ h1 hrm
          have h10' : peek r 0 ≠ 10 := by
            cases r with
            | nil => simp [peek]
            | cons e r2 => exact h10
          refine ⟨Y, ?_, ?_⟩
          · rw [eolNorm_cr_of_ne r h10']
            simp only [List.length_append, List.length_cons, List.length_nil, gap.push_size] at hY ⊢
            omega
          · rw [hres, eolNorm_cr_of_ne r h10']
            simp only [List.length_cons, List.append_assoc, List.singleton_append]
            congr 3
            omega
      · by_cases hamp : c = 38
        · -- an '&' with entity expansion off: stepped over
          subst hamp
          have hs := skipTo_stop h is_chartype_pcdata_amp
          rw [strconv_pcdata_loop_succ, hs, hp]
          simp only [show ¬ ((38 : Nat) = 13) by decide, and_false, if_false,
            show ¬ ((38 : Nat) = 60) by decide, show ¬ ((38 : Nat) = 0) by decide,
            Bool.false_eq_true, false_and]
          obtain ⟨Y, hY, hres⟩ := ih r hrk hr m _ _ _ _ h.advance hrm
          refine ⟨Y, ?_, ?_⟩
          · rw [eolNorm_cons_of_ne r (by decide)]
            simp only [List.length_append, List.length_cons, List.length_nil, gap.push_size] at hY ⊢
            omega
          · rw [hres, eolNorm_cons_of_ne r (by decide)]
            simp only [List.length_cons, List.append_assoc, List.singleton_append]
            congr 3
            omega
        · have hpl : Plain c := ⟨hc1, hc2, hcr, hamp, hc3⟩
          rw [strconv_pcdata_loop_plain false true m h hpl]
          obtain ⟨Y, hY, hres⟩ := ih r hrk hr (m + 1) _ _ _ _ h.advance (by omega)
          refine ⟨Y, ?_, ?_⟩
          · rw [eolNorm_cons_of_ne r hcr]
            simp only [List.length_append, List.length_cons, List.length_nil, gap.push_size] at hY ⊢
            omega
          · rw [hres, eolNorm_cons_of_ne r hcr]
            simp only [List.length_cons, List.append_assoc, List.singleton_append]
            congr 3
            omega

/-- C8: with line-ending normalization on and entity expansion off, for every
text segment ended by `'<'`, `strconv_pcdata` returns the position after the
`'<'`, and the NUL-terminated string it leaves at the start position is the
segment with every CR+LF pair and every other CR replaced by one LF, all other
bytes kept in order; the bytes before the start position are untouched and the
buffer keeps its length. -/
theorem strconv_pcdata_eol (pre t post : List Nat) (ht : ∀ c ∈ t, c < 256 ∧ c ≠ 0 ∧ c ≠ 60) :
    ∃ buf : List Nat,
      strconv_pcdata false true (pre ++ (t ++ 60 :: post)) pre.length =
        some (some (pre.length + t.length + 1), buf) ∧
      cstrAt buf pre.length = eolNorm t ∧ buf.take pre.length = pre ∧
      buf.length = (pre ++ (t ++ 60 :: post)).length := by
  have h0 : peek (pre ++ (t ++ 60 :: post)) pre.length ≠ 0 := by
    have := peek_append_right pre (t ++ 60 :: post) 0
    rw [Nat.add_zero] at this
    rw [this]
    cases t with
    | nil => simp [peek]
    | cons c r => exact (ht c (List.mem_cons_self _ _)).2.1
  obtain ⟨Y, hY, hres⟩ := strconv_pcdata_loop_eol pre post t.length t (le_refl _) ht
    ((pre ++ (t ++ 60 :: post)).length + 1) [] _ _ _ (GapInv.init pre (t ++ 60 :: post))
    (by simp; omega)
  refine ⟨pre ++ (([] ++ eolNorm t) ++ 0 :: (Y ++ post)), ?_, ?_, ?_, ?_⟩
  · unfold strconv_pcdata
    rw [if_neg h0, hres]
  · rw [List.nil_append]
    exact cstrAt_result pre (eolNorm t) _
      (eolNorm_ne_zero t.length t (le_refl _) (fun c hc => (ht c hc).2.1))
  · exact List.take_left _ _
  · simp only [List.nil_append, List.length_append, List.length_cons, List.length_nil] at hY ⊢
    omega

theorem strconv_pcdata_eol_witness :
    (∀ c ∈ [97, 13, 10, 98, 13, 99, 38, 13, 10, 13, 10], c < 256 ∧ c ≠ 0 ∧ c ≠ 60) ∧
    ∃ buf : List Nat,
      strconv_pcdata false true ([120] ++ ([97, 13, 10, 98, 13, 99, 38, 13, 10, 13, 10] ++ 60 :: [47, 0]))
          [120].length =
        some (some ([120].length + [97, 13, 10, 98, 13, 99, 38, 13, 10, 13, 10].length + 1), buf) ∧
      cstrAt buf [120].length = eolNorm [97, 13, 10, 98, 13, 99, 38, 13, 10, 13, 10] ∧
      buf.take [120].length = [120] ∧
      buf.length = ([120] ++ ([97, 13, 10, 98, 13, 99, 38, 13, 10, 13, 10] ++ 60 :: [47, 0])).length :=
  ⟨by decide, strconv_pcdata_eol [120] [97, 13, 10, 98, 13, 99, 38, 13, 10, 13, 10] [47, 0]
    (by decide)⟩

/-! ## References that are expanded -/

/-- Stepping over several bytes that are kept. -/
theorem GapInv.advance_list {pre rest buf : List Nat} {g : gap} (l : List Nat) :
    ∀ {out : List Nat} {s : Nat}, GapInv pre out (l ++ rest) buf s g →
      GapInv pre (out ++ l) rest buf (s + l.length) g := by
  induction l with
  | nil => intro out s h; simpa using h
  | cons c l ih =>
    intro out s h
    have h1 := ih (h.advance)
    have e1 : out ++ c :: l = out ++ [c] ++ l := by simp
    have e2 : s + (c :: l).length = s + 1 + l.length := by simp; omega
    rw [e1, e2]
    exact h1

/-- The common tail of the named references writes the byte `c` over the
`'&'` and drops the rest of the reference. -/
theorem escape_named_inv {pre out rest buf : List Nat} {s : Nat} {g : gap} (body : List Nat)
    (c stre : Nat) (h : GapInv pre out (38 :: (body ++ rest)) buf s g)
    (hst : stre = s + body.length) :
    GapInv pre (out ++ [c]) rest (escape_named buf s g stre c).1 (s + 1 + body.length)
        (escape_named buf s g stre c).2.2 ∧
      (escape_named buf s g stre c).2.1 = s + 1 + body.length ∧
      (escape_named buf s g stre c).2.2.size = g.size + body.length := by
  have h1 := (h.poke_head c).advance
  obtain ⟨h2, _⟩ := h1.push body.length (by simp)
  have hcnt : stre + 1 - (s + 1) = body.length := by omega
  unfold escape_named
  simp only [hcnt, gap.push_size]
  refine ⟨?_, by omega, trivial⟩
  simpa using h2

/-! ## UTF-8 output and numeric references -/

theorem or_and_self_right (a b : Nat) : (a &&& b) ||| b = b := by
  apply Nat.eq_of_testBit_eq
  intro i
  simp [Nat.testBit_or, Nat.testBit_and]

theorem or_mark_of_lt (r : Nat) (h : r < 64) : r ||| 128 = 128 + r := by
  revert r
  decide

/-- The continuation byte written by `strutf16_utf8`. -/
theorem utf8_cont_byte (ch : Nat) : ((ch ||| 0x80) &&& 0xBF) % 256 = 0x80 + ch % 64 := by
  have h1 : (ch ||| 128) &&& 191 = (ch % 64) ||| 128 := by
    calc (ch ||| 128) &&& 191 = 191 &&& (ch ||| 128) := Nat.and_comm _ _
      _ = (191 &&& ch) ||| (191 &&& 128) := Nat.and_or_distrib_left _ _ _
      _ = (ch &&& (63 ||| 128)) ||| 128 := by rw [Nat.and_comm 191 ch]; rfl
      _ = ((ch &&& 63) ||| (ch &&& 128)) ||| 128 := by rw [Nat.and_or_distrib_left]
      _ = (ch &&& 63) ||| ((ch &&& 128) ||| 128) := Nat.or_assoc _ _ _
      _ = (ch &&& 63) ||| 128 := by rw [or_and_self_right]
      _ = (ch % 64) ||| 128 := by
        have := Nat.and_pow_two_sub_one_eq_mod ch 6
        simp only [Nat.reducePow, Nat.add_one_sub_one, Nat.reduceSub] at this
        rw [this]
  have h2 : ch % 64 < 64 := Nat.mod_lt _ (by decide)
  rw [h1, or_mark_of_lt _ h2]
  omega

theorem utf8_first_byte_1 (x : Nat) (h : x < 128) : (x ||| 0) % 256 = x := by
  simp; omega

theorem utf8_first_byte_2 (x : Nat) (h : x < 32) : (x ||| 0xC0) % 256 = 0xC0 + x := by
  revert x; decide

theorem utf8_first_byte_3 (x : Nat) (h : x < 16) : (x ||| 0xE0) % 256 = 0xE0 + x := by
  revert x; decide

theorem utf8_first_byte_4 (x : Nat) (h : x < 8) : (x ||| 0xF0) % 256 = 0xF0 + x := by
  revert x; decide

/-- The writes of `strutf16_utf8`, byte by byte. -/
theorem strutf16_utf8_eq (buf : List Nat) (s n : Nat) (hn : n < 0x200000) :
    strutf16_utf8 buf s n =
      if n < 0x80 then (poke buf (s + 0) n, s + 1)
      else if n < 0x800 then
        (poke (poke buf (s + 1) (0x80 + n % 64)) (s + 0) (0xC0 + n / 64), s + 2)
      else if n < 0x10000 then
        (poke (poke (poke buf (s + 2) (0x80 + n % 64)) (s + 1) (0x80 + n / 64 % 64)) (s + 0)
          (0xE0 + n / 4096), s + 3)
      else
        (poke (poke (poke (poke buf (s + 3) (0x80 + n % 64)) (s + 2) (0x80 + n / 64 % 64))
          (s + 1) (0x80 + n / 4096 % 64)) (s + 0) (0xF0 + n / 262144), s + 4) := by
  have e6 : ∀ x : Nat, x >>> 6 = x / 64 := fun x => Nat.shiftRight_eq_div_pow x 6
  have d2 : n / 64 / 64 = n / 4096 := by rw [Nat.div_div_eq_div_mul]
  have d3 : n / 4096 / 64 = n / 262144 := by rw [Nat.div_div_eq_div_mul]
  unfold strutf16_utf8
  by_cases h1 : n < 0x80
  · rw [if_pos h1, if_pos h1]
    simp only [utf8_first, UTF8_FIRST_BYTE_MARK, List.getD_cons_succ, List.getD_cons_zero,
      Nat.add_sub_cancel, Nat.add_zero, utf8_first_byte_1 n h1]
  rw [if_neg h1, if_neg h1]
  by_cases h2 : n < 0x800
  · rw [if_pos h2, if_pos h2]
    have hb : n / 64 < 32 := by omega
    simp only [utf8_first, utf8_cont, UTF8_FIRST_BYTE_MARK, List.getD_cons_succ,
      List.getD_cons_zero, e6, utf8_cont_byte, utf8_first_byte_2 _ hb, Nat.add_zero]
    rfl
  rw [if_neg h2, if_neg h2]
  by_cases h3 : n < 0x10000
  · rw [if_pos h3, if_pos h3]
    have hb : n / 4096 < 16 := by omega
    simp only [utf8_first, utf8_cont, UTF8_FIRST_BYTE_MARK, List.getD_cons_succ,
      List.getD_cons_zero, e6, utf8_cont_byte, d2, utf8_first_byte_3 _ hb, Nat.add_zero]
    rfl
  rw [if_neg h3, if_neg h3, if_pos hn]
  have hb : n / 262144 < 8 := by omega
  simp only [utf8_first, utf8_cont, UTF8_FIRST_BYTE_MARK, List.getD_cons_succ,
    List.getD_cons_zero, e6, utf8_cont_byte, d2, d3, utf8_first_byte_4 _ hb, Nat.add_zero]
  rfl

theorem utf8_length_le (n : Nat) : (utf8 n).length ≤ 4 := by
  unfold utf8; split_ifs <;> simp

theorem utf8_length_pos (n : Nat) : 1 ≤ (utf8 n).length := by
  unfold utf8; split_ifs <;> simp

theorem utf8_ne_zero (n : Nat) (h : 0 < n) : ∀ c ∈ utf8 n, c ≠ 0 := by
  intro c hc
  unfold utf8 at hc
  split_ifs at hc <;> simp at hc <;> omega

/-- Under the loop invariant, `strutf16_utf8` replaces the first bytes of the
input by the UTF-8 encoding. -/
theorem strutf16_utf8_inv {pre out rest buf : List Nat} {s : Nat} {g : gap} (n : Nat)
    (h : GapInv pre out rest buf s g) (hl : 4 ≤ rest.length) (hn : n < 0x200000) :
    GapInv pre out (utf8 n ++ rest.drop (utf8 n).length) (strutf16_utf8 buf s n).1 s g ∧
      (strutf16_utf8 buf s n).2 = s + (utf8 n).length := by
  rcases rest with _ | ⟨a, _ | ⟨b, _ | ⟨c, _ | ⟨d, r⟩⟩⟩⟩
  · simp at hl
  · simp at hl
  · simp at hl
  · simp at hl
  rw [strutf16_utf8_eq buf s n hn]
  unfold utf8
  by_cases h1 : n < 0x80
  · rw [if_pos h1, if_pos h1]
    exact ⟨by simpa using h.poke_at 0 n, rfl⟩
  rw [if_neg h1, if_neg h1]
  by_cases h2 : n < 0x800
  · rw [if_pos h2, if_pos h2]
    exact ⟨by simpa using ((h.poke_at 1 _).poke_at 0 _), rfl⟩
  rw [if_neg h2, if_neg h2]
  by_cases h3 : n < 0x10000
  · rw [if_pos h3, if_pos h3]
    exact ⟨by simpa using (((h.poke_at 2 _).poke_at 1 _).poke_at 0 _), rfl⟩
  rw [if_neg h3, if_neg h3]
  exact ⟨by simpa using ((((h.poke_at 3 _).poke_at 2 _).poke_at 1 _).poke_at 0 _), rfl⟩

theorem decVal_ge (ds : List Nat) : ∀ u, u ≤ decVal ds u := by
  induction ds with
  | nil => intro u; exact le_refl _
  | cons c r ih =>
    intro u
    have := ih (10 * u + (c - 48))
    simp only [decVal]
    omega

theorem hexVal_ge (hs : List Nat) : ∀ u, u ≤ hexVal hs u := by
  induction hs with
  | nil => intro u; exact le_refl _
  | cons c r ih =>
    intro u
    have := ih (16 * u + hexDigitVal c)
    simp only [hexVal]
    omega

/-- The decimal loop reads all the digits up to the `';'` and computes their
value, without wrap-around when the value fits 32 bits. -/
theorem dec_loop_digits (ds rest : List Nat) (hd : ∀ c ∈ ds, DecDigit c) :
    ∀ (stre u : Nat), decVal ds u < 2 ^ 32 →
      dec_loop (ds ++ 59 :: rest) stre u = (stre + ds.length, decVal ds u) := by
  induction ds with
  | nil => intro stre u _; simp [dec_loop, decVal]
  | cons c r ih =>
    intro stre u hv
    have hc : 48 ≤ c ∧ c ≤ 57 := hd c (List.mem_cons_self _ _)
    have hr : ∀ c ∈ r, DecDigit c := fun x hx => hd x (List.mem_cons_of_mem _ hx)
    simp only [decVal] at hv
    have hlt : 10 * u + (c - 48) < 2 ^ 32 := lt_of_le_of_lt (decVal_ge r _) hv
    rw [List.cons_append, dec_loop, if_pos hc, Nat.mod_eq_of_lt hlt, ih hr _ _ hv]
    simp only [decVal, List.length_cons]
    congr 1
    omega

/-- The hexadecimal loop reads all the digits up to the `';'` and computes
their value, without wrap-around when the value fits 32 bits. -/
theorem hex_loop_digits (hs rest : List Nat) (hd : ∀ c ∈ hs, HexDigit c) :
    ∀ (stre u : Nat), hexVal hs u < 2 ^ 32 →
      hex_loop (hs ++ 59 :: rest) stre u = (stre + hs.length, hexVal hs u, false) := by
  induction hs with
  | nil => intro stre u _; simp [hex_loop, hexVal]
  | cons c r ih =>
    intro stre u hv
    have hc : HexDigit c := hd c (List.mem_cons_self _ _)
    have hr : ∀ c ∈ r, HexDigit c := fun x hx => hd x (List.mem_cons_of_mem _ hx)
    simp only [hexVal] at hv
    have hlt : 16 * u + hexDigitVal c < 2 ^ 32 := lt_of_le_of_lt (hexVal_ge r _) hv
    have hc0 : c ≠ 0 := by unfold HexDigit at hc; omega
    have hih := ih hr (stre + 1) _ hv
    have hfin : (stre + 1 + r.length, hexVal r (16 * u + hexDigitVal c), false) =
        (stre + (c :: r).length, hexVal (c :: r) u, false) := by
      simp only [hexVal, List.length_cons]
      congr 1
      omega
    rw [List.cons_append, hex_loop, if_neg hc0]
    rcases hc with hc | hc | hc
    · have hv1 : hexDigitVal c = c - 48 := by unfold hexDigitVal; rw [if_pos hc.2]
      rw [if_pos hc, ← hv1, Nat.mod_eq_of_lt hlt, hih, hfin]
    · have hv1 : hexDigitVal c = c - 65 + 10 := by
        unfold hexDigitVal; rw [if_neg (by omega), if_pos hc.2]
      rw [if_neg (by omega), if_pos hc, ← hv1, Nat.mod_eq_of_lt hlt, hih, hfin]
    · have hv1 : hexDigitVal c = c - 97 + 10 := by
        unfold hexDigitVal; rw [if_neg (by omega), if_neg (by omega)]
      rw [if_neg (by omega), if_neg (by omega), if_pos hc, ← hv1, Nat.mod_eq_of_lt hlt, hih,
        hfin]

/-- The tail of the numeric references writes the UTF-8 encoding over the
start of the reference and drops the rest of the reference. -/
theorem escape_numeric_inv {pre out rest buf : List Nat} {s : Nat} {g : gap} (src : List Nat)
    (n : Nat) (h : GapInv pre out (src ++ rest) buf s g) (hl : 4 ≤ src.length)
    (hn : n < 0x200000) :
    GapInv pre (out ++ utf8 n) rest (escape_numeric buf s g (s + src.length) n).1
        (s + src.length) (escape_numeric buf s g (s + src.length) n).2.2 ∧
      (escape_numeric buf s g (s + src.length) n).2.1 = s + src.length ∧
      (escape_numeric buf s g (s + src.length) n).2.2.size + (utf8 n).length =
        g.size + src.length := by
  obtain ⟨hw, hw2⟩ := strutf16_utf8_inv n h (by simp only [List.length_append]; omega) hn
  have ha := hw.advance_list (utf8 n)
  have hk := utf8_length_le n
  have hcnt : s + src.length - (s + (utf8 n).length) = src.length - (utf8 n).length := by omega
  have hdrop : ((src ++ rest).drop (utf8 n).length).drop (src.length - (utf8 n).length) = rest := by
    rw [List.drop_drop]
    have : src.length - (utf8 n).length + (utf8 n).length = src.length := by omega
    first
      | rw [this, List.drop_left]
      | (rw [Nat.add_comm] at this; rw [this, List.drop_left])
  obtain ⟨hp, _⟩ := ha.push (src.length - (utf8 n).length)
    (by simp only [List.length_drop, List.length_append]; omega)
  rw [hdrop] at hp
  unfold escape_numeric
  simp only [hw2, hcnt, gap.push_size]
  refine ⟨?_, trivial, by omega⟩
  have e : s + (utf8 n).length + (src.length - (utf8 n).length) = s + src.length := by omega
  rw [e] at hp
  exact hp

theorem peek_append_length (l r : List Nat) (c : Nat) : peek (l ++ c :: r) l.length = c := by
  have := peek_append_right l (c :: r) 0
  simpa [peek] using this

/-- The decimal branch of `strconv_escape`. -/
theorem strconv_escape_dec_eq (buf : List Nat) (s : Nat) (g : gap) (h1 : peek buf (s + 1) = 35)
    (h2 : peek buf (s + 2) ≠ 120) :
    strconv_escape buf s g =
      if peek buf (dec_loop (buf.drop (s + 2)) (s + 2) 0).1 ≠ 59 then
        (buf, (dec_loop (buf.drop (s + 2)) (s + 2) 0).1, g)
      else escape_numeric buf s g ((dec_loop (buf.drop (s + 2)) (s + 2) 0).1 + 1)
        (dec_loop (buf.drop (s + 2)) (s + 2) 0).2 := by
  simp [strconv_escape, h1, h2, Nat.add_assoc]

/-- The hexadecimal branch of `strconv_escape`. -/
theorem strconv_escape_hex_eq (buf : List Nat) (s : Nat) (g : gap) (h1 : peek buf (s + 1) = 35)
    (h2 : peek buf (s + 2) = 120) :
    strconv_escape buf s g =
      if (hex_loop (buf.drop (s + 3)) (s + 3) 0).2.2 = true then
        (buf, (hex_loop (buf.drop (s + 3)) (s + 3) 0).1, g)
      else if peek buf (hex_loop (buf.drop (s + 3)) (s + 3) 0).1 ≠ 59 then
        (buf, (hex_loop (buf.drop (s + 3)) (s + 3) 0).1, g)
      else escape_numeric buf s g ((hex_loop (buf.drop (s + 3)) (s + 3) 0).1 + 1)
        (hex_loop (buf.drop (s + 3)) (s + 3) 0).2.1 := by
  simp [strconv_escape, h1, h2, Nat.add_assoc]

theorem GapInv.drop_add {pre out rest buf : List Nat} {s : Nat} {g : gap}
    (h : GapInv pre out rest buf s g) (k : Nat) : buf.drop (s + k) = rest.drop k := by
  rw [← h.drop_eq, List.drop_drop]

/-- What `strconv_escape` does at a decimal reference. -/
theorem strconv_escape_dec {pre out rest buf : List Nat} {s : Nat} {g : gap} (ds : List Nat)
    (hok : (Tok.dec ds).ok) (h : GapInv pre out ((Tok.dec ds).src ++ rest) buf s g) :
    GapInv pre (out ++ (Tok.dec ds).out) rest (strconv_escape buf s g).1
        (s + (Tok.dec ds).src.length) (strconv_escape buf s g).2.2 ∧
      (strconv_escape buf s g).2.1 = s + (Tok.dec ds).src.length ∧
      (strconv_escape buf s g).2.2.size + (Tok.dec ds).out.length =
        g.size + (Tok.dec ds).src.length := by
  obtain ⟨hd, hpos, hlt⟩ := hok
  have hne : ds ≠ [] := by
    rintro rfl
    simp [decVal] at hpos
  obtain ⟨d0, ds', rfl⟩ := List.exists_cons_of_ne_nil hne
  have hd0 : 48 ≤ d0 ∧ d0 ≤ 57 := hd d0 (List.mem_cons_self _ _)
  have p1 : peek buf (s + 1) = 35 := by rw [h.peek_eq 1]; rfl
  have p2 : peek buf (s + 2) ≠ 120 := by
    rw [h.peek_eq 2]
    show d0 ≠ 120
    omega
  have hdrop : buf.drop (s + 2) = (d0 :: ds') ++ 59 :: rest := by
    rw [h.drop_add 2]
    simp [Tok.src]
  have hloop := dec_loop_digits (d0 :: ds') rest hd (s + 2) 0 (by omega)
  have p3 : peek buf (s + 2 + (d0 :: ds').length) = 59 := by
    have e1 : (Tok.dec (d0 :: ds')).src ++ rest = (38 :: 35 :: (d0 :: ds')) ++ 59 :: rest := by
      simp [Tok.src]
    have e2 : 2 + (d0 :: ds').length = (38 :: 35 :: (d0 :: ds')).length := by
      simp only [List.length_cons]; omega
    rw [Nat.add_assoc, h.peek_eq, e1, e2]
    exact peek_append_length _ _ _
  have e : strconv_escape buf s g =
      escape_numeric buf s g (s + (Tok.dec (d0 :: ds')).src.length) (decVal (d0 :: ds') 0) := by
    rw [strconv_escape_dec_eq buf s g p1 p2, hdrop, hloop]
    simp only [p3, ne_eq, not_true_eq_false, if_false]
    congr 1
    simp [Tok.src]
    omega
  rw [e]
  exact escape_numeric_inv (Tok.dec (d0 :: ds')).src _ h (by simp [Tok.src]) hlt

/-- What `strconv_escape` does at a hexadecimal reference. -/
theorem strconv_escape_hex {pre out rest buf : List Nat} {s : Nat} {g : gap} (hs : List Nat)
    (hok : (Tok.hex hs).ok) (h : GapInv pre out ((Tok.hex hs).src ++ rest) buf s g) :
    GapInv pre (out ++ (Tok.hex hs).out) rest (strconv_escape buf s g).1
        (s + (Tok.hex hs).src.length) (strconv_escape buf s g).2.2 ∧
      (strconv_escape buf s g).2.1 = s + (Tok.hex hs).src.length ∧
      (strconv_escape buf s g).2.2.size + (Tok.hex hs).out.length =
        g.size + (Tok.hex hs).src.length := by
  obtain ⟨hd, hpos, hlt⟩ := hok
  have p1 : peek buf (s + 1) = 35 := by rw [h.peek_eq 1]; rfl
  have p2 : peek buf (s + 2) = 120 := by rw [h.peek_eq 2]; rfl
  have hdrop : buf.drop (s + 3) = hs ++ 59 :: rest := by
    rw [h.drop_add 3]
    simp [Tok.src]
  have hloop := hex_loop_digits hs rest hd (s + 3) 0 (by omega)
  have p3 : peek buf (s + 3 + hs.length) = 59 := by
    have e1 : (Tok.hex hs).src ++ rest = (38 :: 35 :: 120 :: hs) ++ 59 :: rest := by
      simp [Tok.src]
    have e2 : 3 + hs.length = (38 :: 35 :: 120 :: hs).length := by
      simp only [List.length_cons]; omega
    rw [Nat.add_assoc, h.peek_eq, e1, e2]
    exact peek_append_length _ _ _
  have e : strconv_escape buf s g =
      escape_numeric buf s g (s + (Tok.hex hs).src.length) (hexVal hs 0) := by
    rw [strconv_escape_hex_eq buf s g p1 p2, hdrop, hloop]
    simp only [p3, ne_eq, not_true_eq_false, if_false, Bool.false_eq_true]
    congr 1
    simp [Tok.src]
    omega
  rw [e]
  exact escape_numeric_inv (Tok.hex hs).src _ h (by simp [Tok.src]) hlt

/-- What `strconv_escape` does at a reference. -/
theorem strconv_escape_tok {pre out rest buf : List Nat} {s : Nat} {g : gap} (t : Tok)
    (ht : ∀ c, t ≠ Tok.byte c) (hok : t.ok) (h : GapInv pre out (t.src ++ rest) buf s g) :
    GapInv pre (out ++ t.out) rest (strconv_escape buf s g).1 (s + t.src.length)
        (strconv_escape buf s g).2.2 ∧
      (strconv_escape buf s g).2.1 = s + t.src.length ∧
      (strconv_escape buf s g).2.2.size + t.out.length = g.size + t.src.length := by
  have p1 := h.peek_eq 1
  have p2 := h.peek_eq 2
  have p3 := h.peek_eq 3
  have p4 := h.peek_eq 4
  have p5 := h.peek_eq 5
  have q1 : ∀ (a : Nat) (l : List Nat), peek (38 :: a :: l) 1 = a := fun _ _ => rfl
  have q2 : ∀ (a b : Nat) (l : List Nat), peek (38 :: a :: b :: l) 2 = b := fun _ _ _ => rfl
  have q3 : ∀ (a b c : Nat) (l : List Nat), peek (38 :: a :: b :: c :: l) 3 = c :=
    fun _ _ _ _ => rfl
  have q4 : ∀ (a b c d : Nat) (l : List Nat), peek (38 :: a :: b :: c :: d :: l) 4 = d :=
    fun _ _ _ _ _ => rfl
  have q5 : ∀ (a b c d e : Nat) (l : List Nat), peek (38 :: a :: b :: c :: d :: e :: l) 5 = e :=
    fun _ _ _ _ _ _ => rfl
  cases t with
  | byte c => exact absurd rfl (ht c)
  | dec ds => exact strconv_escape_dec ds hok h
  | hex hs => exact strconv_escape_hex hs hok h
  | amp =>
    simp only [Tok.src, List.cons_append, List.nil_append, q1, q2, q3, q4, q5] at p1 p2 p3 p4
    have e : strconv_escape buf s g = escape_named buf s g (s + 4) 38 := by
      simp [strconv_escape, match_seq, p1, p2, p3, p4, Nat.add_assoc]
    rw [e]
    obtain ⟨a, b, c⟩ := escape_named_inv [97, 109, 112, 59] 38 (s + 4) h rfl
    exact ⟨a, b, by rw [c]; rfl⟩
  | lt =>
    simp only [Tok.src, List.cons_append, List.nil_append, q1, q2, q3, q4, q5] at p1 p2 p3
    have e : strconv_escape buf s g = escape_named buf s g (s + 3) 60 := by
      simp [strconv_escape, match_seq, p1, p2, p3, Nat.add_assoc]
    rw [e]
    obtain ⟨a, b, c⟩ := escape_named_inv [108, 116, 59] 60 (s + 3) h rfl
    exact ⟨a, b, by rw [c]; rfl⟩
  | gt =>
    simp only [Tok.src, List.cons_append, List.nil_append, q1, q2, q3, q4, q5] at p1 p2 p3
    have e : strconv_escape buf s g = escape_named buf s g (s + 3) 62 := by
      simp [strconv_escape, match_seq, p1, p2, p3, Nat.add_assoc]
    rw [e]
    obtain ⟨a, b, c⟩ := escape_named_inv [103, 116, 59] 62 (s + 3) h rfl
    exact ⟨a, b, by rw [c]; rfl⟩
  | apos =>
    simp only [Tok.src, List.cons_append, List.nil_append, q1, q2, q3, q4, q5] at p1 p2 p3 p4 p5
    have e : strconv_escape buf s g = escape_named buf s g (s + 5) 39 := by
      simp [strconv_escape, match_seq, p1, p2, p3, p4, p5, Nat.add_assoc]
    rw [e]
    obtain ⟨a, b, c⟩ := escape_named_inv [97, 112, 111, 115, 59] 39 (s + 5) h rfl
    exact ⟨a, b, by rw [c]; rfl⟩
  | quot =>
    simp only [Tok.src, List.cons_append, List.nil_append, q1, q2, q3, q4, q5] at p1 p2 p3 p4 p5
    have e : strconv_escape buf s g = escape_named buf s g (s + 5) 34 := by
      simp [strconv_escape, match_seq, p1, p2, p3, p4, p5, Nat.add_assoc]
    rw [e]
    obtain ⟨a, b, c⟩ := escape_named_inv [113, 117, 111, 116, 59] 34 (s + 5) h rfl
    exact ⟨a, b, by rw [c]; rfl⟩

theorem Tok.src_ref (t : Tok) (ht : ∀ c, t ≠ Tok.byte c) : ∃ body, t.src = 38 :: body := by
  cases t with
  | byte c => exact absurd rfl (ht c)
  | amp => exact ⟨_, rfl⟩
  | lt => exact ⟨_, rfl⟩
  | gt => exact ⟨_, rfl⟩
  | apos => exact ⟨_, rfl⟩
  | quot => exact ⟨_, rfl⟩
  | dec ds => exact ⟨_, rfl⟩
  | hex hs => exact ⟨_, rfl⟩

theorem Tok.src_length_pos (t : Tok) : 1 ≤ t.src.length := by
  cases t <;> simp [Tok.src]

theorem Tok.out_ne_zero (t : Tok) (h : t.ok) : ∀ c ∈ t.out, c ≠ 0 := by
  cases t with
  | byte c => intro x hx; simp only [Tok.out, List.mem_singleton] at hx; rw [hx]; exact h.2.1
  | amp => decide
  | lt => decide
  | gt => decide
  | apos => decide
  | quot => decide
  | dec ds => exact utf8_ne_zero _ h.2.1
  | hex hs => exact utf8_ne_zero _ h.2.1

theorem srcOf_length_le (toks : List Tok) : toks.length ≤ (srcOf toks).length := by
  induction toks with
  | nil => simp
  | cons t ts ih =>
    have := t.src_length_pos
    simp only [srcOf, List.length_cons, List.length_append]
    omega

theorem outOf_ne_zero (toks : List Tok) (h : ∀ t ∈ toks, t.ok) : ∀ c ∈ outOf toks, c ≠ 0 := by
  induction toks with
  | nil => intro c hc; simp [outOf] at hc
  | cons t ts ih =>
    intro c hc
    rcases List.mem_append.mp hc with hc | hc
    · exact t.out_ne_zero (h t (List.mem_cons_self _ _)) c hc
    · exact ih (fun x hx => h x (List.mem_cons_of_mem _ hx)) c hc

/-- An iteration of the loop of `strconv_pcdata` at an `'&'`, with entity
expansion on. -/
theorem strconv_pcdata_loop_amp (eol : Bool) (n : Nat) {pre out rest buf : List Nat}
    {s : Nat} {g : gap} (h : GapInv pre out (38 :: rest) buf s g) :
    strconv_pcdata_loop true eol (n + 1) buf s g =
      strconv_pcdata_loop true eol n (strconv_escape buf s g).1 (strconv_escape buf s g).2.1
        (strconv_escape buf s g).2.2 := by
  have hs := skipTo_stop h is_chartype_pcdata_amp
  have hp : peek buf s = 38 := by rw [h.peek_zero]; rfl
  rw [strconv_pcdata_loop_succ, hs, hp]
  simp

/-- The loop of `strconv_pcdata` with entity expansion on, over plain bytes and
named references up to a `'<'`. -/
theorem strconv_pcdata_loop_toks (eol : Bool) (pre post : List Nat) :
    ∀ (toks : List Tok), (∀ t ∈ toks, t.ok) →
      ∀ (n : Nat) (out buf : List Nat) (s : Nat) (g : gap),
        GapInv pre out (srcOf toks ++ 60 :: post) buf s g → toks.length < n →
        ∃ Y : List Nat,
          (out ++ outOf toks).length + Y.length = out.length + g.size + (srcOf toks).length ∧
          strconv_pcdata_loop true eol n buf s g =
            some (some (s + (srcOf toks).length + 1),
              pre ++ ((out ++ outOf toks) ++ 0 :: (Y ++ post))) := by
  intro toks
  induction toks with
  | nil =>
    intro _ n out buf s g h hn
    obtain ⟨m, rfl⟩ : ∃ m, n = m + 1 := ⟨n - 1, by simp at hn; omega⟩
    obtain ⟨Y, hY, hres⟩ := strconv_pcdata_loop_lt true eol m h
    exact ⟨Y, by simp [outOf, srcOf, hY], by simpa [outOf, srcOf] using hres⟩
  | cons t ts ih =>
    intro hok n out buf s g h hn
    obtain ⟨m, rfl⟩ : ∃ m, n = m + 1 := ⟨n - 1, by omega⟩
    have hts : ∀ t ∈ ts, t.ok := fun x hx => hok x (List.mem_cons_of_mem _ hx)
    have htm : ts.length < m := by simpa using hn
    by_cases hb : ∃ c, t = Tok.byte c
    · obtain ⟨c, rfl⟩ := hb
      have hpl : Plain c := hok _ (List.mem_cons_self _ _)
      have h' : GapInv pre out (c :: (srcOf ts ++ 60 :: post)) buf s g := by
        simpa [srcOf, Tok.src] using h
      rw [strconv_pcdata_loop_plain true eol m h' hpl]
      obtain ⟨Y, hY, hres⟩ := ih hts (m + 1) _ _ _ _ h'.advance (by omega)
      refine ⟨Y, ?_, ?_⟩
      · simp only [outOf, srcOf, Tok.src, Tok.out, List.length_append, List.length_cons,
          List.length_nil] at hY ⊢
        omega
      · rw [hres]
        simp only [outOf, srcOf, Tok.src, Tok.out, List.length_append, List.length_cons,
          List.length_nil, List.append_assoc, List.singleton_append]
        congr 3
        omega
    · have hnb : ∀ c, t ≠ Tok.byte c := fun c hc => hb ⟨c, hc⟩
      obtain ⟨body, hbody⟩ := t.src_ref hnb
      have h1 : GapInv pre out (t.src ++ (srcOf ts ++ 60 :: post)) buf s g := by
        simpa [srcOf] using h
      have h2 : GapInv pre out (38 :: (body ++ (srcOf ts ++ 60 :: post))) buf s g := by
        rw [hbody] at h1; simpa using h1
      obtain ⟨e1, e2, e3⟩ := strconv_escape_tok t hnb (hok t (List.mem_cons_self _ _)) h1
      rw [strconv_pcdata_loop_amp eol m h2, e2]
      obtain ⟨Y, hY, hres⟩ := ih hts m _ _ _ _ e1 htm
      refine ⟨Y, ?_, ?_⟩
      · simp only [outOf, srcOf, List.length_append, List.length_cons,
          List.length_nil] at hY ⊢
        omega
      · rw [hres]
        simp only [outOf, srcOf, List.length_append, List.append_assoc, List.singleton_append]
        congr 3
        omega

/-- The decoder with entity expansion on, over a text of plain bytes, named
references and numeric references in range, ended by `'<'`. -/
theorem strconv_pcdata_toks (eol : Bool) (pre post : List Nat) (toks : List Tok)
    (hok : ∀ t ∈ toks, t.ok) :
    ∃ buf : List Nat,
      strconv_pcdata true eol (pre ++ (srcOf toks ++ 60 :: post)) pre.length =
        some (some (pre.length + (srcOf toks).length + 1), buf) ∧
      cstrAt buf pre.length = outOf toks ∧ buf.take pre.length = pre ∧
      buf.length = (pre ++ (srcOf toks ++ 60 :: post)).length := by
  have h0 : peek (pre ++ (srcOf toks ++ 60 :: post)) pre.length ≠ 0 := by
    have := peek_append_right pre (srcOf toks ++ 60 :: post) 0
    rw [Nat.add_zero] at this
    rw [this]
    cases toks with
    | nil => simp [peek, srcOf]
    | cons t ts =>
      have ht := hok t (List.mem_cons_self _ _)
      by_cases hb : ∃ c, t = Tok.byte c
      · obtain ⟨c, rfl⟩ := hb
        exact ht.2.1
      · obtain ⟨body, hbody⟩ := t.src_ref (fun c hc => hb ⟨c, hc⟩)
        simp [peek, srcOf, hbody]
  have hlen := srcOf_length_le toks
  obtain ⟨Y, hY, hres⟩ := strconv_pcdata_loop_toks eol pre post toks hok
    ((pre ++ (srcOf toks ++ 60 :: post)).length + 1) [] _ _ _
    (GapInv.init pre (srcOf toks ++ 60 :: post)) (by simp; omega)
  refine ⟨pre ++ (([] ++ outOf toks) ++ 0 :: (Y ++ post)), ?_, ?_, ?_, ?_⟩
  · unfold strconv_pcdata
    rw [if_neg h0, hres]
  · rw [List.nil_append]
    exact cstrAt_result pre (outOf toks) _ (outOf_ne_zero toks hok)
  · exact List.take_left _ _
  · simp only [List.nil_append, List.length_append, List.length_cons, List.length_nil] at hY ⊢
    omega

theorem outOf_length_named (toks : List Tok) (h : ∀ t ∈ toks, t.named) :
    (outOf toks).length = toks.length := by
  induction toks with
  | nil => rfl
  | cons t ts ih =>
    have ht := h t (List.mem_cons_self _ _)
    have := ih (fun x hx => h x (List.mem_cons_of_mem _ hx))
    cases t <;> simp_all [outOf, Tok.out, Tok.named]

/-- C7: with entity expansion on, for every text built from plain bytes and
the five named references and ended by `'<'`, `strconv_pcdata` returns the
position after the `'<'`, and the NUL-terminated string it leaves at the start
position is the text with each reference replaced by its single byte
(`&amp;` by `&`, `&lt;` by `<`, `&gt;` by `>`, `&apos;` by `'`, `&quot;` by
`"`), all other bytes kept in order. -/
theorem strconv_pcdata_named (eol : Bool) (pre post : List Nat) (toks : List Tok)
    (hok : ∀ t ∈ toks, t.ok) (hnamed : ∀ t ∈ toks, t.named) :
    (∃ buf : List Nat,
      strconv_pcdata true eol (pre ++ (srcOf toks ++ 60 :: post)) pre.length =
        some (some (pre.length + (srcOf toks).length + 1), buf) ∧
      cstrAt buf pre.length = outOf toks ∧ buf.take pre.length = pre ∧
      buf.length = (pre ++ (srcOf toks ++ 60 :: post)).length) ∧
    (outOf toks).length = toks.length :=
  ⟨strconv_pcdata_toks eol pre post toks hok, outOf_length_named toks hnamed⟩

theorem strconv_pcdata_named_witness :
    ((∀ t ∈ [Tok.lt, Tok.byte 97, Tok.gt], t.ok) ∧
      (∀ t ∈ [Tok.lt, Tok.byte 97, Tok.gt], t.named) ∧
      srcOf [Tok.lt, Tok.byte 97, Tok.gt] = [38, 108, 116, 59, 97, 38, 103, 116, 59] ∧
      outOf [Tok.lt, Tok.byte 97, Tok.gt] = [60, 97, 62]) ∧
    ((∃ buf : List Nat,
      strconv_pcdata true true ([] ++ (srcOf [Tok.lt, Tok.byte 97, Tok.gt] ++ 60 :: [0]))
          ([] : List Nat).length =
        some (some (([] : List Nat).length + (srcOf [Tok.lt, Tok.byte 97, Tok.gt]).length + 1),
          buf) ∧
      cstrAt buf ([] : List Nat).length = outOf [Tok.lt, Tok.byte 97, Tok.gt] ∧
      buf.take ([] : List Nat).length = [] ∧
      buf.length = ([] ++ (srcOf [Tok.lt, Tok.byte 97, Tok.gt] ++ 60 :: [0])).length) ∧
    (outOf [Tok.lt, Tok.byte 97, Tok.gt]).length = [Tok.lt, Tok.byte 97, Tok.gt].length) :=
  ⟨⟨by decide, by decide, by decide, by decide⟩,
    strconv_pcdata_named true [] [0] [Tok.lt, Tok.byte 97, Tok.gt] (by decide) (by decide)⟩

theorem srcOf_append (a b : List Tok) : srcOf (a ++ b) = srcOf a ++ srcOf b := by
  induction a with
  | nil => rfl
  | cons t ts ih => simp [srcOf, ih]

theorem outOf_append (a b : List Tok) : outOf (a ++ b) = outOf a ++ outOf b := by
  induction a with
  | nil => rfl
  | cons t ts ih => simp [outOf, ih]

theorem srcOf_bytes (t : List Nat) : srcOf (t.map Tok.byte) = t := by
  induction t with
  | nil => rfl
  | cons c r ih => simp [srcOf, Tok.src, ih]

theorem outOf_bytes (t : List Nat) : outOf (t.map Tok.byte) = t := by
  induction t with
  | nil => rfl
  | cons c r ih => simp [outOf, Tok.out, ih]

theorem ok_bytes (t : List Nat) (h : ∀ c ∈ t, Plain c) : ∀ x ∈ t.map Tok.byte, x.ok := by
  intro x hx
  obtain ⟨c, hc, rfl⟩ := List.mem_map.mp hx
  exact h c hc

/-- The decoder at one reference between two runs of plain bytes. -/
theorem strconv_pcdata_one_ref (eol : Bool) (pre post t1 t2 : List Nat) (r : Tok) (hr : r.ok)
    (h1 : ∀ c ∈ t1, Plain c) (h2 : ∀ c ∈ t2, Plain c) :
    ∃ buf : List Nat,
      strconv_pcdata true eol (pre ++ ((t1 ++ (r.src ++ t2)) ++ 60 :: post)) pre.length =
        some (some (pre.length + (t1 ++ (r.src ++ t2)).length + 1), buf) ∧
      cstrAt buf pre.length = t1 ++ (r.out ++ t2) ∧ buf.take pre.length = pre ∧
      buf.length = (pre ++ ((t1 ++ (r.src ++ t2)) ++ 60 :: post)).length := by
  have hok : ∀ x ∈ t1.map Tok.byte ++ (r :: t2.map Tok.byte), x.ok := by
    intro x hx
    rcases List.mem_append.mp hx with hx | hx
    · exact ok_bytes t1 h1 x hx
    · rcases List.mem_cons.mp hx with hx | hx
      · rw [hx]; exact hr
      · exact ok_bytes t2 h2 x hx
  have hsrc : srcOf (t1.map Tok.byte ++ (r :: t2.map Tok.byte)) = t1 ++ (r.src ++ t2) := by
    rw [srcOf_append, srcOf_bytes, srcOf, srcOf_bytes]
  have hout : outOf (t1.map Tok.byte ++ (r :: t2.map Tok.byte)) = t1 ++ (r.out ++ t2) := by
    rw [outOf_append, outOf_bytes, outOf, outOf_bytes]
  have := strconv_pcdata_toks eol pre post _ hok
  rw [hsrc, hout] at this
  exact this

theorem utf8_length (n : Nat) :
    (utf8 n).length = if n < 0x80 then 1 else if n < 0x800 then 2 else if n < 0x10000 then 3
      else 4 := by
  unfold utf8; split_ifs <;> rfl

/-- C9: with entity expansion on, a decimal reference `&#<digits>;` and a
hexadecimal reference `&#x<hex digits>;` whose value `n` satisfies
`0 < n < 0x200000` are replaced by the UTF-8 encoding of `n` (1 byte for
`n < 0x80`, 2 for `n < 0x800`, 3 for `n < 0x10000`, 4 otherwise); the plain
bytes before and after the reference are kept. -/
theorem strconv_pcdata_numeric (eol : Bool) (pre post t1 t2 ds hs : List Nat)
    (hd : ∀ c ∈ ds, DecDigit c) (hdv : 0 < decVal ds 0 ∧ decVal ds 0 < 0x200000)
    (hh : ∀ c ∈ hs, HexDigit c) (hhv : 0 < hexVal hs 0 ∧ hexVal hs 0 < 0x200000)
    (h1 : ∀ c ∈ t1, Plain c) (h2 : ∀ c ∈ t2, Plain c) :
    (∃ buf : List Nat,
      strconv_pcdata true eol (pre ++ ((t1 ++ ((38 :: 35 :: (ds ++ [59])) ++ t2)) ++ 60 :: post))
          pre.length =
        some (some (pre.length + (t1 ++ ((38 :: 35 :: (ds ++ [59])) ++ t2)).length + 1), buf) ∧
      cstrAt buf pre.length = t1 ++ (utf8 (decVal ds 0) ++ t2) ∧ buf.take pre.length = pre) ∧
    (∃ buf : List Nat,
      strconv_pcdata true eol
          (pre ++ ((t1 ++ ((38 :: 35 :: 120 :: (hs ++ [59])) ++ t2)) ++ 60 :: post)) pre.length =
        some (some (pre.length + (t1 ++ ((38 :: 35 :: 120 :: (hs ++ [59])) ++ t2)).length + 1),
          buf) ∧
      cstrAt buf pre.length = t1 ++ (utf8 (hexVal hs 0) ++ t2) ∧ buf.take pre.length = pre) ∧
    (∀ n, (utf8 n).length =
      if n < 0x80 then 1 else if n < 0x800 then 2 else if n < 0x10000 then 3 else 4) := by
  refine ⟨?_, ?_, utf8_length⟩
  · obtain ⟨buf, e1, e2, e3, _⟩ :=
      strconv_pcdata_one_ref eol pre post t1 t2 (Tok.dec ds) ⟨hd, hdv.1, hdv.2⟩ h1 h2
    exact ⟨buf, e1, e2, e3⟩
  · obtain ⟨buf, e1, e2, e3, _⟩ :=
      strconv_pcdata_one_ref eol pre post t1 t2 (Tok.hex hs) ⟨hh, hhv.1, hhv.2⟩ h1 h2
    exact ⟨buf, e1, e2, e3⟩

theorem strconv_pcdata_numeric_witness :
    ((∀ c ∈ [56, 51, 54, 52], DecDigit c) ∧ decVal [56, 51, 54, 52] 0 = 8364 ∧
      (∀ c ∈ [49, 70, 54, 48, 48], HexDigit c) ∧ hexVal [49, 70, 54, 48, 48] 0 = 0x1F600 ∧
      utf8 8364 = [226, 130, 172] ∧ utf8 0x1F600 = [240, 159, 152, 128]) ∧
    ((∃ buf : List Nat,
      strconv_pcdata true true
          ([] ++ (([97] ++ ((38 :: 35 :: ([56, 51, 54, 52] ++ [59])) ++ [98])) ++ 60 :: [0]))
          ([] : List Nat).length =
        some (some (([] : List Nat).length +
          ([97] ++ ((38 :: 35 :: ([56, 51, 54, 52] ++ [59])) ++ [98])).length + 1), buf) ∧
      cstrAt buf ([] : List Nat).length = [97] ++ (utf8 (decVal [56, 51, 54, 52] 0) ++ [98]) ∧
      buf.take ([] : List Nat).length = []) ∧
    (∃ buf : List Nat,
      strconv_pcdata true true
          ([] ++ (([97] ++ ((38 :: 35 :: 120 :: ([49, 70, 54, 48, 48] ++ [59])) ++ [98])) ++
            60 :: [0])) ([] : List Nat).length =
        some (some (([] : List Nat).length +
          ([97] ++ ((38 :: 35 :: 120 :: ([49, 70, 54, 48, 48] ++ [59])) ++ [98])).length + 1),
          buf) ∧
      cstrAt buf ([] : List Nat).length =
        [97] ++ (utf8 (hexVal [49, 70, 54, 48, 48] 0) ++ [98]) ∧
      buf.take ([] : List Nat).length = []) ∧
    (∀ n, (utf8 n).length =
      if n < 0x80 then 1 else if n < 0x800 then 2 else if n < 0x10000 then 3 else 4)) :=
  ⟨⟨by decide, by decide, by decide, by decide, by decide, by decide⟩,
    strconv_pcdata_numeric true [] [0] [97] [98] [56, 51, 54, 52] [49, 70, 54, 48, 48]
      (by decide) (by decide) (by decide) (by decide) (by decide) (by decide)⟩

/-! ## References that are not expanded -/

theorem peek_drop (buf : List Nat) (a i : Nat) : peek (buf.drop a) i = peek buf (a + i) := by
  unfold peek
  rw [List.getD_eq_getElem?_getD, List.getD_eq_getElem?_getD, List.getElem?_drop]

theorem drop_of_peek (buf : List Nat) (i c : Nat) (h : peek buf i = c) (hc : c ≠ 0) :
    buf.drop i = c :: buf.drop (i + 1) := by
  unfold peek at h
  rw [List.getD_eq_getElem?_getD] at h
  cases hget : buf[i]? with
  | none => rw [hget] at h; exact absurd h.symm hc
  | some x =>
    rw [hget] at h
    simp only [Option.getD_some] at h
    subst h
    obtain ⟨hlt, hx⟩ := List.getElem?_eq_some_iff.mp hget
    rw [List.drop_eq_getElem_cons hlt, hx]

/-- A chain of comparisons that holds throughout has read the pattern. -/
theorem match_seq_full (buf : List Nat) (pat : List Nat) (hpat : ∀ c ∈ pat, c ≠ 0) :
    ∀ stre, (match_seq buf stre pat).2 = true →
      (match_seq buf stre pat).1 = stre + pat.length ∧ pat <+: buf.drop (stre + 1) := by
  induction pat with
  | nil => intro stre _; exact ⟨rfl, List.nil_prefix⟩
  | cons c cs ih =>
    intro stre h
    have hc : c ≠ 0 := hpat c (List.mem_cons_self _ _)
    rw [match_seq] at h ⊢
    by_cases hp : peek buf (stre + 1) = c
    · rw [if_pos hp] at h ⊢
      obtain ⟨h1, h2⟩ := ih (fun x hx => hpat x (List.mem_cons_of_mem _ hx)) (stre + 1) h
      refine ⟨by rw [h1]; simp only [List.length_cons]; omega, ?_⟩
      rw [drop_of_peek buf (stre + 1) c hp hc]
      exact (List.prefix_cons_inj c).mpr h2
    · rw [if_neg hp] at h
      simp at h

/-- A chain of comparisons that fails stops at the first byte that differs. -/
theorem match_seq_cancel (buf : List Nat) (pat : List Nat) (hpat : ∀ c ∈ pat, c ≠ 0) :
    ∀ stre, (match_seq buf stre pat).2 = false →
      ∃ j, j < pat.length ∧ (match_seq buf stre pat).1 = stre + j + 1 ∧
        pat.take j <+: buf.drop (stre + 1) := by
  induction pat with
  | nil => intro stre h; simp [match_seq] at h
  | cons c cs ih =>
    intro stre h
    have hc : c ≠ 0 := hpat c (List.mem_cons_self _ _)
    rw [match_seq] at h ⊢
    by_cases hp : peek buf (stre + 1) = c
    · rw [if_pos hp] at h ⊢
      obtain ⟨j, h1, h2, h3⟩ := ih (fun x hx => hpat x (List.mem_cons_of_mem _ hx)) (stre + 1) h
      refine ⟨j + 1, by simp only [List.length_cons]; omega, by rw [h2]; omega, ?_⟩
      rw [drop_of_peek buf (stre + 1) c hp hc, List.take_succ_cons]
      exact (List.prefix_cons_inj c).mpr h3
    · rw [if_neg hp]
      exact ⟨0, by simp, rfl, by simp⟩

/-- The decimal loop stops after a run of digits. -/
theorem dec_loop_stop (l : List Nat) :
    ∀ (stre u : Nat), ∃ j, j ≤ l.length ∧ (dec_loop l stre u).1 = stre + j ∧
      ∀ c ∈ l.take j, DecDigit c := by
  induction l with
  | nil => intro stre u; exact ⟨0, by simp, rfl, by simp⟩
  | cons c r ih =>
    intro stre u
    rw [dec_loop]
    by_cases hc : 48 ≤ c ∧ c ≤ 57
    · rw [if_pos hc]
      obtain ⟨j, h1, h2, h3⟩ := ih (stre + 1) ((10 * u + (c - 48)) % 2 ^ 32)
      refine ⟨j + 1, by simp only [List.length_cons]; omega, by rw [h2]; omega, ?_⟩
      intro x hx
      rw [List.take_succ_cons] at hx
      rcases List.mem_cons.mp hx with hx | hx
      · rw [hx]; exact hc
      · exact h3 x hx
    · rw [if_neg hc]
      exact ⟨0, by simp, rfl, by simp⟩

/-- The hexadecimal loop stops after a run of hexadecimal digits. -/
theorem hex_loop_stop (l : List Nat) :
    ∀ (stre u : Nat), ∃ j, j ≤ l.length ∧ (hex_loop l stre u).1 = stre + j ∧
      ∀ c ∈ l.take j, HexDigit c := by
  induction l with
  | nil => intro stre u; exact ⟨0, by simp, rfl, by simp⟩
  | cons c r ih =>
    intro stre u
    have step : ∀ v, ∃ j, j ≤ (c :: r).length ∧ (hex_loop r (stre + 1) v).1 = stre + j ∧
        (HexDigit c → ∀ x ∈ (c :: r).take j, HexDigit x) := by
      intro v
      obtain ⟨j, h1, h2, h3⟩ := ih (stre + 1) v
      refine ⟨j + 1, by simp only [List.length_cons]; omega, by rw [h2]; omega, ?_⟩
      intro hc x hx
      rw [List.take_succ_cons] at hx
      rcases List.mem_cons.mp hx with hx | hx
      · rw [hx]; exact hc
      · exact h3 x hx
    have stop : ∀ (q : Nat × Nat × Bool), q.1 = stre →
        ∃ j, j ≤ (c :: r).length ∧ q.1 = stre + j ∧ ∀ x ∈ (c :: r).take j, HexDigit x :=
      fun q hq => ⟨0, by simp, by rw [hq]; rfl, by simp⟩
    rw [hex_loop]
    split_ifs with h0 h1 h2 h3 h4
    · exact stop _ rfl
    · obtain ⟨j, a, b, c'⟩ := step ((16 * u + (c - 48)) % 2 ^ 32)
      exact ⟨j, a, b, c' (Or.inl h1)⟩
    · obtain ⟨j, a, b, c'⟩ := step ((16 * u + (c - 65 + 10)) % 2 ^ 32)
      exact ⟨j, a, b, c' (Or.inr (Or.inl h2))⟩
    · obtain ⟨j, a, b, c'⟩ := step ((16 * u + (c - 97 + 10)) % 2 ^ 32)
      exact ⟨j, a, b, c' (Or.inr (Or.inr h3))⟩
    · exact stop _ rfl
    · exact stop _ rfl

theorem Plain.of_dec {c : Nat} (h : DecDigit c) : Plain c := by
  unfold DecDigit at h; unfold Plain; omega

theorem Plain.of_hex {c : Nat} (h : HexDigit c) : Plain c := by
  unfold HexDigit at h; unfold Plain; omega

theorem Plain.ne_zero {c : Nat} (h : Plain c) : c ≠ 0 := h.2.1

/-- A named branch of `strconv_escape` on an input that is not a reference:
the comparisons fail and the pointer returned is at the byte that differs,
with the buffer and the gap as they were. -/
theorem strconv_escape_named_cancel (buf : List Nat) (s : Nat) (g : gap) (r lead pat : List Nat)
    (c : Nat) (hdrop : buf.drop (s + 1) = r) (hlead : lead <+: r)
    (hplain : ∀ x ∈ lead ++ pat, Plain x) (hexp : ¬ (lead ++ pat <+: r)) :
    ∃ k, k ≤ r.length ∧
      (if (match_seq buf (s + lead.length) pat).2 = true then
          escape_named buf s g (match_seq buf (s + lead.length) pat).1 c
        else (buf, (match_seq buf (s + lead.length) pat).1, g)) = (buf, s + 1 + k, g) ∧
      ∀ x ∈ r.take k, Plain x := by
  have hpat0 : ∀ x ∈ pat, x ≠ 0 := fun x hx => (hplain x (List.mem_append_right _ hx)).ne_zero
  have hd2 : buf.drop (s + lead.length + 1) = r.drop lead.length := by
    rw [← hdrop, List.drop_drop]
    congr 1
    omega
  obtain ⟨tl, htl⟩ := hlead
  have hrd : r.drop lead.length = tl := by rw [← htl]; exact List.drop_left _ _
  by_cases hm : (match_seq buf (s + lead.length) pat).2 = true
  · exfalso
    obtain ⟨_, hp⟩ := match_seq_full buf pat hpat0 _ hm
    rw [hd2, hrd] at hp
    apply hexp
    rw [← htl]
    exact (List.prefix_append_right_inj lead).mpr hp
  · rw [if_neg hm]
    have hm' : (match_seq buf (s + lead.length) pat).2 = false := by simpa using hm
    obtain ⟨j, hj, hpos, hp⟩ := match_seq_cancel buf pat hpat0 _ hm'
    rw [hd2, hrd] at hp
    have hpre : lead ++ pat.take j <+: r := by
      rw [← htl]
      exact (List.prefix_append_right_inj lead).mpr hp
    have hlen : (lead ++ pat.take j).length = lead.length + j := by
      rw [List.length_append, List.length_take, Nat.min_eq_left (le_of_lt hj)]
    refine ⟨lead.length + j, ?_, ?_, ?_⟩
    · rw [← hlen]; exact hpre.length_le
    · rw [hpos]; congr 2; omega
    · have e : r.take (lead.length + j) = lead ++ pat.take j := by
        rw [← hlen]; exact (List.prefix_iff_eq_take.mp hpre).symm
      rw [e]
      intro x hx
      rcases List.mem_append.mp hx with hx | hx
      · exact hplain x (List.mem_append_left _ hx)
      · exact hplain x (List.mem_append_right _ (List.mem_of_mem_take hx))

/-- The branches of `strconv_escape`, by the bytes after the `'&'`. -/
theorem strconv_escape_other (buf : List Nat) (s : Nat) (g : gap) (h1 : peek buf (s + 1) ≠ 35)
    (h2 : peek buf (s + 1) ≠ 97) (h3 : peek buf (s + 1) ≠ 103) (h4 : peek buf (s + 1) ≠ 108)
    (h5 : peek buf (s + 1) ≠ 113) : strconv_escape buf s g = (buf, s + 1, g) := by
  simp [strconv_escape, h1, h2, h3, h4, h5]

theorem strconv_escape_g (buf : List Nat) (s : Nat) (g : gap) (h : peek buf (s + 1) = 103) :
    strconv_escape buf s g =
      if (match_seq buf (s + [103].length) [116, 59]).2 = true then
        escape_named buf s g (match_seq buf (s + [103].length) [116, 59]).1 62
      else (buf, (match_seq buf (s + [103].length) [116, 59]).1, g) := by
  simp [strconv_escape, h]

theorem strconv_escape_l (buf : List Nat) (s : Nat) (g : gap) (h : peek buf (s + 1) = 108) :
    strconv_escape buf s g =
      if (match_seq buf (s + [108].length) [116, 59]).2 = true then
        escape_named buf s g (match_seq buf (s + [108].length) [116, 59]).1 60
      else (buf, (match_seq buf (s + [108].length) [116, 59]).1, g) := by
  simp [strconv_escape, h]

theorem strconv_escape_q (buf : List Nat) (s : Nat) (g : gap) (h : peek buf (s + 1) = 113) :
    strconv_escape buf s g =
      if (match_seq buf (s + [113].length) [117, 111, 116, 59]).2 = true then
        escape_named buf s g (match_seq buf (s + [113].length) [117, 111, 116, 59]).1 34
      else (buf, (match_seq buf (s + [113].length) [117, 111, 116, 59]).1, g) := by
  simp [strconv_escape, h]

theorem strconv_escape_am (buf : List Nat) (s : Nat) (g : gap) (h : peek buf (s + 1) = 97)
    (h2 : peek buf (s + 2) = 109) :
    strconv_escape buf s g =
      if (match_seq buf (s + [97, 109].length) [112, 59]).2 = true then
        escape_named buf s g (match_seq buf (s + [97, 109].length) [112, 59]).1 38
      else (buf, (match_seq buf (s + [97, 109].length) [112, 59]).1, g) := by
  simp [strconv_escape, h, h2, Nat.add_assoc]

theorem strconv_escape_ap (buf : List Nat) (s : Nat) (g : gap) (h : peek buf (s + 1) = 97)
    (h2 : peek buf (s + 2) = 112) :
    strconv_escape buf s g =
      if (match_seq buf (s + [97, 112].length) [111, 115, 59]).2 = true then
        escape_named buf s g (match_seq buf (s + [97, 112].length) [111, 115, 59]).1 39
      else (buf, (match_seq buf (s + [97, 112].length) [111, 115, 59]).1, g) := by
  simp [strconv_escape, h, h2, Nat.add_assoc]

theorem strconv_escape_a (buf : List Nat) (s : Nat) (g : gap) (h : peek buf (s + 1) = 97)
    (h2 : peek buf (s + 2) ≠ 109) (h3 : peek buf (s + 2) ≠ 112) :
    strconv_escape buf s g = (buf, s + 2, g) := by
  simp [strconv_escape, h, h2, h3, Nat.add_assoc]

theorem prefix_take_snoc (l : List Nat) (j c : Nat) (h : peek l j = c) (hc : c ≠ 0) :
    l.take j ++ [c] <+: l := by
  have hd := drop_of_peek l j c h hc
  refine ⟨l.drop (j + 1), ?_⟩
  rw [List.append_assoc, List.singleton_append, ← hd, List.take_append_drop]

/-- The decimal branch of `strconv_escape` on an input that is not a
reference. -/
theorem strconv_escape_dec_cancel (buf : List Nat) (s : Nat) (g : gap) (l : List Nat)
    (hdrop : buf.drop (s + 1) = 35 :: l) (hx : peek buf (s + 2) ≠ 120)
    (hno : ¬ Expands (38 :: 35 :: l)) :
    ∃ k, k ≤ (35 :: l).length ∧ strconv_escape buf s g = (buf, s + 1 + k, g) ∧
      ∀ x ∈ (35 :: l).take k, Plain x := by
  have p1 : peek buf (s + 1) = 35 := by
    have := peek_drop buf (s + 1) 0
    rw [hdrop] at this
    simpa [peek] using this.symm
  have hd2 : buf.drop (s + 2) = l := by
    have := drop_of_peek buf (s + 1) 35 p1 (by decide)
    rw [hdrop] at this
    exact (List.cons.inj this).2.symm
  obtain ⟨j, hj, hpos, hdig⟩ := dec_loop_stop l (s + 2) 0
  have hne : peek buf (dec_loop l (s + 2) 0).1 ≠ 59 := by
    intro h59
    apply hno
    rw [hpos, ← peek_drop, hd2] at h59
    refine Or.inr (Or.inr (Or.inr (Or.inr (Or.inr (Or.inl ⟨l.take j, hdig, ?_⟩)))))
    exact (List.prefix_cons_inj 38).mpr ((List.prefix_cons_inj 35).mpr
      (prefix_take_snoc l j 59 h59 (by decide)))
  refine ⟨1 + j, by simp only [List.length_cons]; omega, ?_, ?_⟩
  · rw [strconv_escape_dec_eq buf s g p1 hx, hd2, if_pos hne, hpos]
    congr 2
    omega
  · intro x hx'
    rw [Nat.add_comm, List.take_succ_cons] at hx'
    rcases List.mem_cons.mp hx' with h | h
    · rw [h]; decide
    · exact Plain.of_dec (hdig x h)

/-- The hexadecimal branch of `strconv_escape` on an input that is not a
reference. -/
theorem strconv_escape_hex_cancel (buf : List Nat) (s : Nat) (g : gap) (l : List Nat)
    (hdrop : buf.drop (s + 1) = 35 :: 120 :: l) (hno : ¬ Expands (38 :: 35 :: 120 :: l)) :
    ∃ k, k ≤ (35 :: 120 :: l).length ∧ strconv_escape buf s g = (buf, s + 1 + k, g) ∧
      ∀ x ∈ (35 :: 120 :: l).take k, Plain x := by
  have p1 : peek buf (s + 1) = 35 := by
    have := peek_drop buf (s + 1) 0
    rw [hdrop] at this
    simpa [peek] using this.symm
  have p2 : peek buf (s + 2) = 120 := by
    have := peek_drop buf (s + 1) 1
    rw [hdrop] at this
    simpa [peek] using this.symm
  have hd2 : buf.drop (s + 2) = 120 :: l := by
    have := drop_of_peek buf (s + 1) 35 p1 (by decide)
    rw [hdrop] at this
    exact (List.cons.inj this).2.symm
  have hd3 : buf.drop (s + 3) = l := by
    have := drop_of_peek buf (s + 2) 120 p2 (by decide)
    rw [hd2] at this
    exact (List.cons.inj this).2.symm
  obtain ⟨j, hj, hpos, hdig⟩ := hex_loop_stop l (s + 3) 0
  have hne : peek buf (hex_loop l (s + 3) 0).1 ≠ 59 := by
    intro h59
    apply hno
    rw [hpos, ← peek_drop, hd3] at h59
    refine Or.inr (Or.inr (Or.inr (Or.inr (Or.inr (Or.inr ⟨l.take j, hdig, ?_⟩)))))
    exact (List.prefix_cons_inj 38).mpr ((List.prefix_cons_inj 35).mpr
      ((List.prefix_cons_inj 120).mpr (prefix_take_snoc l j 59 h59 (by decide))))
  refine ⟨2 + j, by simp only [List.length_cons]; omega, ?_, ?_⟩
  · rw [strconv_escape_hex_eq buf s g p1 p2, hd3, if_pos hne]
    have e : (hex_loop l (s + 3) 0).1 = s + 1 + (2 + j) := by rw [hpos]; omega
    split_ifs <;> rw [e]
  · intro x hx'
    rw [show 2 + j = j + 1 + 1 by omega, List.take_succ_cons, List.take_succ_cons] at hx'
    rcases List.mem_cons.mp hx' with h | h
    · rw [h]; decide
    · rcases List.mem_cons.mp h with h | h
      · rw [h]; decide
      · exact Plain.of_hex (hdig x h)

/-- An `'&'` that starts nothing `strconv_escape` expands: the buffer and the
gap stay as they are, and the pointer returned has moved over the `'&'` and
over `k` bytes after it, none of which ends or changes the scan. -/
theorem strconv_escape_cancel (buf : List Nat) (s : Nat) (g : gap) (r : List Nat)
    (hdrop : buf.drop (s + 1) = r) (hno : ¬ Expands (38 :: r)) :
    ∃ k, k ≤ r.length ∧ strconv_escape buf s g = (buf, s + 1 + k, g) ∧
      ∀ x ∈ r.take k, Plain x := by
  have pk : ∀ i, peek buf (s + 1 + i) = peek r i := by
    intro i; rw [← hdrop, peek_drop]
  have p1 : peek buf (s + 1) = peek r 0 := pk 0
  have p2 : peek buf (s + 2) = peek r 1 := pk 1
  have none_ok : strconv_escape buf s g = (buf, s + 1, g) →
      ∃ k, k ≤ r.length ∧ strconv_escape buf s g = (buf, s + 1 + k, g) ∧
        ∀ x ∈ r.take k, Plain x :=
    fun h => ⟨0, Nat.zero_le _, h, by simp⟩
  cases r with
  | nil =>
    have h0 : peek buf (s + 1) = 0 := p1
    exact none_ok (strconv_escape_other buf s g (by omega) (by omega) (by omega) (by omega)
      (by omega))
  | cons c1 r1 =>
    have hc1 : peek buf (s + 1) = c1 := p1
    have hp2 : peek buf (s + 2) = peek r1 0 := p2
    by_cases h35 : c1 = 35
    · subst h35
      by_cases hx : peek buf (s + 2) = 120
      · have hr1 : r1 = 120 :: r1.drop 1 := by
          have := drop_of_peek r1 0 120 (by rw [← hp2]; exact hx) (by decide)
          simpa using this
        rw [hr1] at hdrop hno ⊢
        exact strconv_escape_hex_cancel buf s g _ hdrop hno
      · exact strconv_escape_dec_cancel buf s g r1 hdrop hx hno
    by_cases h103 : c1 = 103
    · subst h103
      rw [strconv_escape_g buf s g hc1]
      exact strconv_escape_named_cancel buf s g _ [103] [116, 59] 62 hdrop
        ⟨r1, rfl⟩ (by decide)
        (fun h => hno (Or.inr (Or.inr (Or.inl ((List.prefix_cons_inj 38).mpr h)))))
    by_cases h108 : c1 = 108
    · subst h108
      rw [strconv_escape_l buf s g hc1]
      exact strconv_escape_named_cancel buf s g _ [108] [116, 59] 60 hdrop
        ⟨r1, rfl⟩ (by decide)
        (fun h => hno (Or.inr (Or.inl ((List.prefix_cons_inj 38).mpr h))))
    by_cases h113 : c1 = 113
    · subst h113
      rw [strconv_escape_q buf s g hc1]
      exact strconv_escape_named_cancel buf s g _ [113] [117, 111, 116, 59] 34 hdrop
        ⟨r1, rfl⟩ (by decide)
        (fun h => hno (Or.inr (Or.inr (Or.inr (Or.inr (Or.inl
          ((List.prefix_cons_inj 38).mpr h)))))))
    by_cases h97 : c1 = 97
    · subst h97
      by_cases hm : peek buf (s + 2) = 109
      · have hr1 : r1 = 109 :: r1.drop 1 := by
          have := drop_of_peek r1 0 109 (by rw [← hp2]; exact hm) (by decide)
          simpa using this
        rw [strconv_escape_am buf s g hc1 hm]
        exact strconv_escape_named_cancel buf s g _ [97, 109] [112, 59] 38 hdrop
          ⟨r1.drop 1, by rw [hr1]; simp⟩ (by decide)
          (fun h => hno (Or.inl ((List.prefix_cons_inj 38).mpr h)))
      · by_cases hp : peek buf (s + 2) = 112
        · have hr1 : r1 = 112 :: r1.drop 1 := by
            have := drop_of_peek r1 0 112 (by rw [← hp2]; exact hp) (by decide)
            simpa using this
          rw [strconv_escape_ap buf s g hc1 hp]
          exact strconv_escape_named_cancel buf s g _ [97, 112] [111, 115, 59] 39 hdrop
            ⟨r1.drop 1, by rw [hr1]; simp⟩ (by decide)
            (fun h => hno (Or.inr (Or.inr (Or.inr (Or.inl
              ((List.prefix_cons_inj 38).mpr h))))))
        · refine ⟨1, by simp, strconv_escape_a buf s g hc1 hm hp, ?_⟩
          intro x hx
          simp only [List.take_succ_cons, List.take_zero, List.mem_singleton] at hx
          rw [hx]; decide
    · exact none_ok (strconv_escape_other buf s g (by omega) (by omega) (by omega) (by omega)
        (by omega))

/-- The loop of `strconv_pcdata` with entity expansion on, over a text in which
no `'&'` starts anything that `strconv_escape` expands: every byte is kept. -/
theorem strconv_pcdata_loop_passthrough (eol : Bool) (pre post : List Nat) :
    ∀ (k : Nat) (t : List Nat), t.length ≤ k →
      (∀ c ∈ t, c < 256 ∧ c ≠ 0 ∧ c ≠ 60 ∧ c ≠ 13) →
      (∀ i, i < t.length → ¬ Expands ((t ++ 60 :: post).drop i)) →
      ∀ (n : Nat) (out buf : List Nat) (s : Nat) (g : gap),
        GapInv pre out (t ++ 60 :: post) buf s g → t.length < n →
        ∃ Y : List Nat, Y.length = g.size ∧
          strconv_pcdata_loop true eol n buf s g =
            some (some (s + t.length + 1), pre ++ ((out ++ t) ++ 0 :: (Y ++ post))) := by
  intro k
  induction k with
  | zero =>
    intro t hk _ _ n out buf s g h hn
    have ht : t = [] := List.length_eq_zero.mp (Nat.le_zero.mp hk)
    subst ht
    obtain ⟨m, rfl⟩ : ∃ m, n = m + 1 := ⟨n - 1, by simp at hn; omega⟩
    obtain ⟨Y, hY, hres⟩ := strconv_pcdata_loop_lt true eol m h
    exact ⟨Y, hY, by simpa using hres⟩
  | succ k ih =>
    intro t hk ht hno n out buf s g h hn
    obtain ⟨m, rfl⟩ : ∃ m, n = m + 1 := ⟨n - 1, by omega⟩
    cases t with
    | nil =>
      obtain ⟨Y, hY, hres⟩ := strconv_pcdata_loop_lt true eol m h
      exact ⟨Y, hY, by simpa using hres⟩
    | cons c r =>
      have hr : ∀ c ∈ r, c < 256 ∧ c ≠ 0 ∧ c ≠ 60 ∧ c ≠ 13 :=
        fun x hx => ht x (List.mem_cons_of_mem _ hx)
      have hrk : r.length ≤ k := by simpa using hk
      have hrm : r.length < m := by simpa using hn
      obtain ⟨hc1, hc2, hc3, hc4⟩ := ht c (List.mem_cons_self _ _)
      rw [List.cons_append] at h
      by_cases hamp : c = 38
      · subst hamp
        have hno0 : ¬ Expands (38 :: (r ++ 60 :: post)) := by
          have := hno 0 (by simp)
          simpa using this
        have hdrop : buf.drop (s + 1) = r ++ 60 :: post := by
          simpa using h.drop_add 1
        obtain ⟨j, hj, hesc, hpl⟩ := strconv_escape_cancel buf s g _ hdrop hno0
        have hjr : j ≤ r.length := by
          by_contra hgt
          have hmem : (60 : Nat) ∈ (r ++ 60 :: post).take j := by
            have hlt : r.length < j := by omega
            rw [List.take_append_eq_append_take]
            apply List.mem_append_right
            have : j - r.length = (j - r.length - 1) + 1 := by omega
            rw [this, List.take_succ_cons]
            exact List.mem_cons_self _ _
          exact absurd rfl (hpl 60 hmem).2.2.2.2
        have hsplit : r ++ 60 :: post = r.take j ++ (r.drop j ++ 60 :: post) := by
          rw [← List.append_assoc, List.take_append_drop]
        have h1 := h.advance
        rw [hsplit] at h1
        have h2 := h1.advance_list (r.take j)
        rw [List.length_take, Nat.min_eq_left hjr] at h2
        rw [strconv_pcdata_loop_amp eol m h, hesc]
        obtain ⟨Y, hY, hres⟩ := ih (r.drop j) (by rw [List.length_drop]; omega)
          (fun x hx => hr x (List.mem_of_mem_drop hx))
          (by
            intro i hi
            have := hno (1 + j + i) (by
              rw [List.length_drop] at hi
              simp only [List.length_cons]; omega)
            have e : ((38 :: r) ++ 60 :: post).drop (1 + j + i) =
                ((r.drop j) ++ 60 :: post).drop i := by
              rw [List.cons_append, show 1 + j + i = (j + i) + 1 by omega, List.drop_succ_cons]
              rw [← List.drop_drop, List.drop_append_of_le_length hjr]
            rw [e] at this
            exact this)
          m _ _ _ _ h2 (by rw [List.length_drop]; omega)
        refine ⟨Y, hY, ?_⟩
        rw [hres]
        have e1 : out ++ [38] ++ r.take j ++ r.drop j = out ++ 38 :: r := by
          rw [List.append_assoc, List.take_append_drop]; simp
        rw [e1, List.length_drop]
        simp only [List.length_cons]
        congr 3
        omega
      · have hpl : Plain c := ⟨hc1, hc2, hc4, hamp, hc3⟩
        rw [strconv_pcdata_loop_plain true eol m h hpl]
        obtain ⟨Y, hY, hres⟩ := ih r hrk hr
          (by
            intro i hi
            have := hno (i + 1) (by simp only [List.length_cons]; omega)
            simpa using this)
          (m + 1) _ _ _ _ h.advance (by omega)
        refine ⟨Y, hY, ?_⟩
        rw [hres]
        simp only [List.length_cons, List.append_assoc, List.singleton_append]
        congr 3
        omega

/-- Every text without CR in which no `'&'` starts a named reference, a
`&#`-digits-`;` or a `&#x`-digits-`;` (digits possibly none) is left as it is
by `strconv_pcdata` with entity expansion on: the call returns the position
after the `'<'`, and the buffer is the input with a NUL in place of the
`'<'`. -/
theorem strconv_pcdata_passthrough (eol : Bool) (pre t post : List Nat)
    (ht : ∀ c ∈ t, c < 256 ∧ c ≠ 0 ∧ c ≠ 60 ∧ c ≠ 13)
    (hno : ∀ i, i < t.length → ¬ Expands ((t ++ 60 :: post).drop i)) :
    strconv_pcdata true eol (pre ++ (t ++ 60 :: post)) pre.length =
        some (some (pre.length + t.length + 1), pre ++ (t ++ 0 :: post)) ∧
      cstrAt (pre ++ (t ++ 0 :: post)) pre.length = t := by
  have h0 : peek (pre ++ (t ++ 60 :: post)) pre.length ≠ 0 := by
    have := peek_append_right pre (t ++ 60 :: post) 0
    rw [Nat.add_zero] at this
    rw [this]
    cases t with
    | nil => simp [peek]
    | cons c r => exact (ht c (List.mem_cons_self _ _)).2.1
  obtain ⟨Y, hY, hres⟩ := strconv_pcdata_loop_passthrough eol pre post t.length t (le_refl _)
    ht hno ((pre ++ (t ++ 60 :: post)).length + 1) [] _ _ _
    (GapInv.init pre (t ++ 60 :: post)) (by simp; omega)
  have hYnil : Y = [] := List.length_eq_zero.mp hY
  subst hYnil
  refine ⟨?_, cstrAt_result pre t post (fun c hc => (ht c hc).2.1)⟩
  unfold strconv_pcdata
  rw [if_neg h0, hres]
  simp

/-- C10: the code at the input `a&#;b<`, entity expansion on.  The `'&'` starts
no reference of the form `&#<digits>;`, yet `strconv_escape` takes `&#;` for the
code point 0: it writes a NUL over the `'&'` and drops `#;`, so the decoded
string is `a` and not the unchanged `a&#;b`.  The same happens at `a&#x;b<`.
The examples of the claim, `&foo;a & b&amp &#12a;<`, are left as they are. -/
theorem strconv_pcdata_empty_numeric :
    strconv_pcdata true false [97, 38, 35, 59, 98, 60, 0] 0 =
        some (some 6, [97, 0, 98, 0, 98, 60, 0]) ∧
      cstrAt [97, 0, 98, 0, 98, 60, 0] 0 = [97] ∧
      cstrAt [97, 0, 98, 0, 98, 60, 0] 0 ≠ [97, 38, 35, 59, 98] ∧
      strconv_pcdata true false [97, 38, 35, 120, 59, 98, 60, 0] 0 =
        some (some 7, [97, 0, 98, 0, 59, 98, 60, 0]) ∧
      strconv_pcdata true false
          [38, 102, 111, 111, 59, 97, 32, 38, 32, 98, 38, 97, 109, 112, 32, 38, 35, 49, 50, 97,
            59, 60, 0] 0 =
        some (some 22,
          [38, 102, 111, 111, 59, 97, 32, 38, 32, 98, 38, 97, 109, 112, 32, 38, 35, 49, 50, 97,
            59, 0, 0]) := by
  decide

/-! ## Scans of the parser -/

theorem skipWhile_append (ct : Nat) (w l : List Nat) (hw : ∀ x ∈ w, is_chartype x ct = true) :
    ∀ s, skipWhile ct (w ++ l) s = skipWhile ct l (s + w.length) := by
  induction w with
  | nil => intro s; rfl
  | cons c w ih =>
    intro s
    rw [List.cons_append, skipWhile, if_pos (hw c (List.mem_cons_self _ _)),
      ih (fun x hx => hw x (List.mem_cons_of_mem _ hx))]
    simp only [List.length_cons]
    congr 1
    omega

theorem skipWhile_stop (ct : Nat) (l : List Nat) (s : Nat) (h : is_chartype (rd l) ct = false) :
    skipWhile ct l s = s := by
  cases l with
  | nil => rfl
  | cons c r =>
    rw [rd_cons] at h
    rw [skipWhile, h]
    simp

/-- The scan `while (is_chartype(*s, ct)) ++s;` runs over the bytes of the
class and stops at the first byte outside it. -/
theorem skipWhile_run (ct : Nat) (w l : List Nat) (s : Nat)
    (hw : ∀ x ∈ w, is_chartype x ct = true) (h : is_chartype (rd l) ct = false) :
    skipWhile ct (w ++ l) s = s + w.length := by
  rw [skipWhile_append ct w l hw, skipWhile_stop ct l _ h]

theorem scanfor1_append (P : Nat → Bool) (t l : List Nat) (ht : ∀ x ∈ t, x ≠ 0 ∧ P x = false) :
    ∀ s, scanfor1 P (t ++ l) s = scanfor1 P l (s + t.length) := by
  induction t with
  | nil => intro s; rfl
  | cons c t ih =>
    intro s
    obtain ⟨h0, hP⟩ := ht c (List.mem_cons_self _ _)
    rw [List.cons_append, scanfor1, if_neg h0, hP]
    simp only [Bool.false_eq_true, if_false]
    rw [ih (fun x hx => ht x (List.mem_cons_of_mem _ hx))]
    simp only [List.length_cons]
    congr 1
    omega

theorem scanfor1_stop (P : Nat → Bool) (l : List Nat) (s : Nat) (h : rd l = 0 ∨ P (rd l) = true) :
    scanfor1 P l s = s := by
  cases l with
  | nil => rfl
  | cons c r =>
    rw [rd_cons] at h
    rw [scanfor1]
    rcases h with h | h
    · rw [if_pos h]
    · rw [h]; simp

theorem space_ne_zero {c : Nat} (h : is_chartype c ct_space = true) : c ≠ 0 := by
  intro hc; subst hc; revert h; decide

theorem space_ne_lt {c : Nat} (h : is_chartype c ct_space = true) : c ≠ 60 := by
  intro hc; subst hc; revert h; decide

theorem peek_cons_zero (c : Nat) (l : List Nat) : peek (c :: l) 0 = c := rfl

theorem peek_append_left_cons (w : List Nat) (c : Nat) (l : List Nat) :
    peek (w ++ c :: l) w.length = c := peek_append_length w l c

/-! ## The result of `parse` -/

/-- The failure of a tag is the failure of the main loop. -/
theorem parse_loop_tag_fail (o : parse_options) (n : Nat) (st : parse_state)
    (h0 : peek st.buf st.s = 60)
    (h : parse_tag o { st with s := st.s + 1 } = some none) :
    parse_loop o (n + 1) st = some none := by
  rw [parse_loop, if_neg (by rw [h0]; decide), if_pos h0, h]

/-- A tag that is read with success is followed by the next iteration of the
main loop. -/
theorem parse_loop_tag_ok (o : parse_options) (n : Nat) (st st1 : parse_state)
    (h0 : peek st.buf st.s = 60)
    (h : parse_tag o { st with s := st.s + 1 } = some (some st1)) :
    parse_loop o (n + 1) st = parse_loop o n st1 := by
  rw [parse_loop, if_neg (by rw [h0]; decide), if_pos h0, h]

/-- A failure of the main loop is a failure of `parse`. -/
theorem parse_fail_of_loop (o : parse_options) (st : parse_state) (s doc : Nat)
    (h : parse_loop o (st.buf.length + 1) { st with s := s, cursor := doc } = some none) :
    parse o st (some s) (some doc) = some none := by
  rw [parse]
  simp only [h]

theorem symbol_ne_zero {c : Nat} (h : is_chartype c ct_symbol = true) : c ≠ 0 := by
  intro hc; subst hc; revert h; decide

theorem takeWhile_nz_append (t X : List Nat) (ht : ∀ c ∈ t, c ≠ 0) (hX : rd X = 0) :
    (t ++ X).takeWhile (fun c => c != 0) = t := by
  induction t with
  | nil =>
    cases X with
    | nil => rfl
    | cons x X =>
      rw [rd_cons] at hX
      subst hX
      rfl
  | cons c t ih =>
    have hc : (c != 0) = true := by simpa using ht c (List.mem_cons_self _ _)
    rw [List.cons_append, List.takeWhile_cons, hc]
    simp only [if_true]
    rw [ih (fun x hx => ht x (List.mem_cons_of_mem _ hx))]

theorem rd_drop (buf : List Nat) (i : Nat) : rd (buf.drop i) = peek buf i := by
  unfold rd peek
  rw [List.getD_eq_getElem?_getD, List.headD_eq_head?_getD, List.head?_drop]

theorem prefix_cons_drop (buf : List Nat) (c : Nat) (t : List Nat) (name : Nat) (hc : c ≠ 0) :
    (c :: t) <+: buf.drop name ↔ peek buf name = c ∧ t <+: buf.drop (name + 1) := by
  constructor
  · intro h
    obtain ⟨X, hX⟩ := h
    have hp : peek buf name = c := by
      rw [← rd_drop, ← hX]; rfl
    refine ⟨hp, ?_⟩
    rw [drop_of_peek buf name c hp hc] at hX
    exact ⟨X, (List.cons.inj hX).2⟩
  · rintro ⟨hp, h⟩
    rw [drop_of_peek buf name c hp hc]
    exact (List.prefix_cons_inj c).mpr h

/-- The comparison loop of the closing tag: it runs over the name in the tag
and succeeds when the name of the open element starts with it. -/
theorem close_loop_spec (buf tag rest : List Nat) (htag : ∀ c ∈ tag, is_chartype c ct_symbol = true)
    (hrest : is_chartype (rd rest) ct_symbol = false) :
    ∀ s name, close_loop buf (tag ++ rest) s name =
      if tag <+: buf.drop name then some (s + tag.length, name + tag.length) else none := by
  induction tag with
  | nil =>
    intro s name
    simp only [List.nil_append, List.nil_prefix, if_true, List.length_nil, Nat.add_zero]
    cases rest with
    | nil => rfl
    | cons c r =>
      rw [rd_cons] at hrest
      rw [close_loop, hrest]
      simp
  | cons c tag ih =>
    intro s name
    have hsym := htag c (List.mem_cons_self _ _)
    have hc : c ≠ 0 := symbol_ne_zero hsym
    rw [List.cons_append, close_loop, if_pos ⟨hc, hsym⟩,
      ih (fun x hx => htag x (List.mem_cons_of_mem _ hx))]
    by_cases hp : c = peek buf name
    · rw [if_neg (by simpa using hp)]
      by_cases ht : tag <+: buf.drop (name + 1)
      · rw [if_pos ht, if_pos ((prefix_cons_drop buf c tag name hc).mpr ⟨hp.symm, ht⟩)]
        simp only [List.length_cons]
        congr 2 <;> omega
      · rw [if_neg ht, if_neg (fun h => ht ((prefix_cons_drop buf c tag name hc).mp h).2)]
    · rw [if_pos hp, if_neg (fun h => hp ((prefix_cons_drop buf c tag name hc).mp h).1.symm)]

theorem cstrAt_of_head (buf tag : List Nat) (name : Nat) (htag : ∀ c ∈ tag, c ≠ 0)
    (hp : tag <+: buf.drop name) (h0 : peek buf (name + tag.length) = 0) :
    cstrAt buf name = tag := by
  obtain ⟨X, hX⟩ := hp
  have hX2 : X = buf.drop (name + tag.length) := by
    have := congrArg (List.drop tag.length) hX
    rw [List.drop_left, List.drop_drop] at this
    rw [this]
  unfold cstrAt
  rw [← hX]
  apply takeWhile_nz_append tag X htag
  rw [hX2, rd_drop, h0]

/-- A closing tag whose name is not the name of the node at the cursor, or
that is met at a node without a name: the tag branch returns `false`. -/
theorem parse_close_fail (o : parse_options) (st : parse_state) (tag rest : List Nat)
    (hbuf : st.buf.drop st.s = 47 :: (tag ++ rest))
    (htag : ∀ c ∈ tag, is_chartype c ct_symbol = true)
    (hrest : is_chartype (rd rest) ct_symbol = false)
    (hname : (node_at st.nodes st.cursor).name = none ∨
      ∃ p, (node_at st.nodes st.cursor).name = some p ∧ cstrAt st.buf p ≠ tag) :
    parse_tag o st = some none := by
  have h47 : peek st.buf st.s = 47 := by rw [← rd_drop, hbuf]; rfl
  have hd : st.buf.drop (st.s + 1) = tag ++ rest := by
    have := drop_of_peek st.buf st.s 47 h47 (by decide)
    rw [hbuf] at this
    exact (List.cons.inj this).2.symm
  rw [parse_tag, if_neg (by rw [h47]; decide), if_neg (by rw [h47]; decide),
    if_neg (by rw [h47]; decide), if_pos h47, parse_close]
  rcases hname with hn | ⟨p, hn, hne⟩
  · simp only [hn]
  · simp only [hn, hd]
    rw [close_loop_spec st.buf tag rest htag hrest]
    by_cases hp : tag <+: st.buf.drop p
    · rw [if_pos hp]
      simp only
      have h0 : peek st.buf (p + tag.length) ≠ 0 := fun h0 =>
        hne (cstrAt_of_head st.buf tag p (fun c hc => symbol_ne_zero (htag c hc)) hp h0)
      rw [if_pos h0]
    · rw [if_neg hp]

/-- C13: a closing tag `</n>` met while the cursor is at a node whose name is
not `n` (a proper prefix or a proper extension of `n` included), or at a node
without a name, as the document node is, makes the parser return `false`
under every option mask.  The tag is met at the label `LOC_TAG`, after the
`'<'`; the main loop, which comes there at a `'<'`, fails with it, and so
does `parse`. -/
theorem parse_close_mismatch (o : parse_options) (st : parse_state) (tag rest : List Nat)
    (hbuf : st.buf.drop st.s = 47 :: (tag ++ rest))
    (htag : ∀ c ∈ tag, is_chartype c ct_symbol = true)
    (hrest : is_chartype (rd rest) ct_symbol = false)
    (hname : (node_at st.nodes st.cursor).name = none ∨
      ∃ p, (node_at st.nodes st.cursor).name = some p ∧ cstrAt st.buf p ≠ tag) :
    parse_tag o st = some none ∧
      ∀ (n : Nat) (st0 : parse_state), peek st0.buf st0.s = 60 →
        { st0 with s := st0.s + 1 } = st → parse_loop o (n + 1) st0 = some none := by
  have h := parse_close_fail o st tag rest hbuf htag hrest hname
  refine ⟨h, ?_⟩
  intro n st0 h0 hst
  exact parse_loop_tag_fail o n st0 h0 (by rw [hst]; exact h)

/-- The input `<a></b>` fails under every option mask. -/
theorem parse_mismatch_example (o : parse_options) :
    xml_document_parse o [60, 97, 62, 60, 47, 98, 62] = some none := by
  have h1 :
      parse_tag o
        { buf := [60, 97, 62, 60, 47, 98, 62], s := 1, cursor := 0,
          nodes := [{ xml_node_struct.new node_document with parent := some 0 }],
          attrs := [] } =
      some (some
        { buf := [60, 97, 0, 60, 47, 98, 62], s := 3, cursor := 1,
          nodes := [{ xml_node_struct.new node_document with
                      parent := some 0, first_child := some 1, last_child := some 1 },
                    { xml_node_struct.new node_element with parent := some 0, name := some 1 }],
          attrs := [] }) := rfl
  have h2 := parse_close_fail o
    { buf := [60, 97, 0, 60, 47, 98, 62], s := 4, cursor := 1,
      nodes := [{ xml_node_struct.new node_document with
                  parent := some 0, first_child := some 1, last_child := some 1 },
                { xml_node_struct.new node_element with parent := some 0, name := some 1 }],
      attrs := [] } [98] [62] rfl (by decide) (by decide) (Or.inr ⟨1, rfl, by decide⟩)
  apply parse_fail_of_loop
  show parse_loop o 8 _ = some none
  rw [parse_loop_tag_ok o 7 _ _ (by rfl) h1]
  exact parse_loop_tag_fail o 6 _ (by rfl) h2

/-- The input `</a>`, a closing tag at the document node, fails under every
option mask. -/
theorem parse_close_at_document (o : parse_options) :
    xml_document_parse o [60, 47, 97, 62] = some none := by
  apply parse_fail_of_loop
  exact parse_loop_tag_fail o 4 _ (by rfl)
    (parse_close_fail o _ [97] [62] rfl (by decide) (by decide) (Or.inl rfl))

theorem parse_close_mismatch_witness :
    parse_tag ⟨false, false, false, false, false, true, true, false, false⟩
      { buf := [60, 97, 0, 60, 47, 98, 62], s := 4, cursor := 1,
        nodes := [{ xml_node_struct.new node_document with
                    parent := some 0, first_child := some 1, last_child := some 1 },
                  { xml_node_struct.new node_element with parent := some 0, name := some 1 }],
        attrs := [] } = some none ∧
      ∀ (n : Nat) (st0 : parse_state), peek st0.buf st0.s = 60 →
        { st0 with s := st0.s + 1 } =
          ({ buf := [60, 97, 0, 60, 47, 98, 62], s := 4, cursor := 1,
             nodes := [{ xml_node_struct.new node_document with
                         parent := some 0, first_child := some 1, last_child := some 1 },
                       { xml_node_struct.new node_element with
                         parent := some 0, name := some 1 }],
             attrs := [] } : parse_state) →
        parse_loop ⟨false, false, false, false, false, true, true, false, false⟩ (n + 1) st0 =
          some none :=
  parse_close_mismatch _ _ [98] [62] rfl (by decide) (by decide) (Or.inr ⟨1, rfl, by decide⟩)

/-! ## Two documents parsed (C16, C17) -/

/-- C16: parsing `<a><b x='1'/>text</a>` with entity expansion and line-ending
normalization on and comments, processing instructions and whitespace-only
text off (the other options are free) succeeds, and the tree is the document
with the only child `a`, whose children are the element `b`, without children
and with the one attribute `x` of value `1`, and the character data `text`. -/
theorem parse_example_elements (cdata ext wnorm wconv : Bool) :
    parsed_tree
      { parse_pi := false, parse_comments := false, parse_cdata := cdata,
        parse_ws_pcdata := false, parse_ext_pcdata := ext, parse_escapes := true,
        parse_eol := true, parse_wnorm_attribute := wnorm, parse_wconv_attribute := wconv }
      [60, 97, 62, 60, 98, 32, 120, 61, 39, 49, 39, 47, 62, 116, 101, 120, 116, 60, 47, 97, 62] 3 =
    some (some (xml_tree.node node_document none none []
      [xml_tree.node node_element (some [97]) none []
        [xml_tree.node node_element (some [98]) none [(some [120], some [49])] [],
         xml_tree.node node_pcdata none (some [116, 101, 120, 116]) [] []]])) := by
  cases cdata <;> cases ext <;> cases wnorm <;> cases wconv <;> rfl

/-- C17: parsing `<a><!--c-->t</a>` with comments on, under every setting of
the other options (line-ending normalization among them), succeeds and gives
the element `a` with the children comment `c` and character data `t`; with
comments off the only child of `a` is the character data `t`. -/
theorem parse_example_comment (pi cdata ws ext esc eol wnorm wconv : Bool) :
    parsed_tree
      { parse_pi := pi, parse_comments := true, parse_cdata := cdata,
        parse_ws_pcdata := ws, parse_ext_pcdata := ext, parse_escapes := esc,
        parse_eol := eol, parse_wnorm_attribute := wnorm, parse_wconv_attribute := wconv }
      [60, 97, 62, 60, 33, 45, 45, 99, 45, 45, 62, 116, 60, 47, 97, 62] 3 =
    some (some (xml_tree.node node_document none none []
      [xml_tree.node node_element (some [97]) none []
        [xml_tree.node node_comment none (some [99]) [] [],
         xml_tree.node node_pcdata none (some [116]) [] []]])) ∧
    parsed_tree
      { parse_pi := pi, parse_comments := false, parse_cdata := cdata,
        parse_ws_pcdata := ws, parse_ext_pcdata := ext, parse_escapes := esc,
        parse_eol := eol, parse_wnorm_attribute := wnorm, parse_wconv_attribute := wconv }
      [60, 97, 62, 60, 33, 45, 45, 99, 45, 45, 62, 116, 60, 47, 97, 62] 3 =
    some (some (xml_tree.node node_document none none []
      [xml_tree.node node_element (some [97]) none []
        [xml_tree.node node_pcdata none (some [116]) [] []]])) := by
  cases pi <;> cases cdata <;> cases ws <;> cases ext <;> cases esc <;> cases eol <;>
    cases wnorm <;> cases wconv <;> exact ⟨rfl, rfl⟩

/-! ## The end of `parse` (C18) -/

/-- The empty input is parsed with success as well: the document node is left
without an element child. -/
theorem parse_no_top_level_element (o : parse_options) :
    (xml_document_parse o []).map
        (Option.map (fun st => (st.cursor, (element_children st 0).length))) =
      some (some (0, 0)) := rfl

theorem start_symbol_lt : is_chartype 60 ct_start_symbol = false := by decide

/-- At the label `LOC_TAG` a `'<'` is none of the bytes that open a tag: the
parser returns `false`. -/
theorem parse_tag_at_lt (o : parse_options) (st : parse_state) (h : peek st.buf st.s = 60) :
    parse_tag o st = some none := by
  rw [parse_tag, if_neg (by rw [h]; decide), if_neg (by rw [h]; decide), h, start_symbol_lt]
  simp

/-- With `parse_ext_pcdata` off, character data with a byte other than
whitespace that is met at the document node and is followed by a `'<'` makes
the main loop return `false`: the scan for the `'<'` stops at it, and the jump
to `LOC_TAG` finds the `'<'` where the byte after it is expected. -/
theorem parse_loop_text_at_document (o : parse_options) (hext : o.parse_ext_pcdata = false)
    (st : parse_state) (w t rest : List Nat) (c n : Nat)
    (hdoc : (node_at st.nodes st.cursor).type = node_document)
    (hbuf : st.buf.drop st.s = w ++ c :: (t ++ 60 :: rest))
    (hw : ∀ x ∈ w, is_chartype x ct_space = true)
    (hc : is_chartype c ct_space = false) (hc0 : c ≠ 0) (hc1 : c ≠ 60)
    (ht : ∀ x ∈ t, x ≠ 0 ∧ x ≠ 60) :
    parse_loop o (n + 1) st = some none := by
  have hall : ∀ x ∈ w ++ c :: t, x ≠ 0 ∧ (fun y => decide (y = 60)) x = false := by
    intro x hx
    rcases List.mem_append.mp hx with hx | hx
    · exact ⟨space_ne_zero (hw x hx), by simpa using space_ne_lt (hw x hx)⟩
    · rcases List.mem_cons.mp hx with hx | hx
      · subst hx; exact ⟨hc0, by simpa using hc1⟩
      · exact ⟨(ht x hx).1, by simpa using (ht x hx).2⟩
  have hfirst : peek st.buf st.s ≠ 0 ∧ peek st.buf st.s ≠ 60 := by
    rw [← rd_drop, hbuf]
    cases w with
    | nil => exact ⟨hc0, hc1⟩
    | cons x w =>
      exact ⟨space_ne_zero (hw x (List.mem_cons_self _ _)),
        space_ne_lt (hw x (List.mem_cons_self _ _))⟩
  have hskip : skipWhile ct_space (st.buf.drop st.s) st.s = st.s + w.length := by
    rw [hbuf]
    exact skipWhile_run ct_space w _ st.s hw (by rw [rd_cons]; exact hc)
  have hpk : peek st.buf (st.s + w.length) = c := by
    rw [← peek_drop, hbuf]
    exact peek_append_left_cons w c _
  have hscan : scanfor1 (fun y => decide (y = 60)) (st.buf.drop st.s) st.s =
      st.s + (w ++ c :: t).length := by
    rw [hbuf, show w ++ c :: (t ++ 60 :: rest) = (w ++ c :: t) ++ 60 :: rest by simp,
      scanfor1_append _ _ _ hall]
    exact scanfor1_stop _ _ _ (Or.inr (by simp))
  have hpk2 : peek st.buf (st.s + (w ++ c :: t).length) = 60 := by
    rw [← peek_drop, hbuf, show w ++ c :: (t ++ 60 :: rest) = (w ++ c :: t) ++ 60 :: rest by simp]
    exact peek_append_left_cons _ 60 _
  rw [parse_loop, if_neg hfirst.1, if_neg hfirst.2]
  simp only [hskip, hpk]
  rw [if_neg (by
    rintro ⟨_, h | h⟩
    · exact hc0 h
    · exact hc1 h)]
  rw [if_neg (by
    rintro (h | h)
    · rw [hext] at h; exact Bool.noConfusion h
    · exact h hdoc)]
  simp only [hscan, hpk2]
  rw [if_neg (by decide)]
  rw [parse_tag_at_lt o _ hpk2]

/-- C19, on the code: with `parse_ext_pcdata` off, a document that starts with
character data `text` (optional whitespace `w`, a byte `c` that is not
whitespace, further bytes `t`) followed by a `'<'` is rejected, whatever
follows: `parse` returns `false` and no tree is built.  The claim expects the
text to be skipped and the element after it to be parsed. -/
theorem parse_text_before_root (o : parse_options) (hext : o.parse_ext_pcdata = false)
    (w t rest : List Nat) (c : Nat) (hw : ∀ x ∈ w, is_chartype x ct_space = true)
    (hc : is_chartype c ct_space = false) (hc0 : c ≠ 0) (hc1 : c ≠ 60)
    (ht : ∀ x ∈ t, x ≠ 0 ∧ x ≠ 60) :
    xml_document_parse o (w ++ c :: (t ++ 60 :: rest)) = some none := by
  apply parse_fail_of_loop
  exact parse_loop_text_at_document o hext _ w t rest c _ rfl rfl hw hc hc0 hc1 ht

theorem parse_text_before_root_witness :
    (∀ x ∈ ([] : List Nat), is_chartype x ct_space = true) ∧
      is_chartype 116 ct_space = false ∧ (116 : Nat) ≠ 0 ∧ (116 : Nat) ≠ 60 ∧
      (∀ x ∈ [101, 120, 116], x ≠ 0 ∧ x ≠ 60) ∧
      xml_document_parse
        { parse_pi := false, parse_comments := false, parse_cdata := false,
          parse_ws_pcdata := false, parse_ext_pcdata := false, parse_escapes := true,
          parse_eol := true, parse_wnorm_attribute := false, parse_wconv_attribute := false }
        ([] ++ 116 :: ([101, 120, 116] ++ 60 :: [97, 47, 62])) = some none :=
  ⟨by decide, by decide, by decide, by decide, by decide,
    parse_text_before_root _ rfl [] [101, 120, 116] [97, 47, 62] 116 (by decide) (by decide)
      (by decide) (by decide) (by decide)⟩

/-! ## The scheme of the decoder loops -/

theorem FirstStop.zero {P : List Nat → Prop} {rest : List Nat} (h : rd rest = 0 ∨ P rest) :
    FirstStop P rest 0 :=
  ⟨by simpa using h, fun j hj => absurd hj (Nat.not_lt_zero j)⟩

theorem FirstStop.cons {P : List Nat → Prop} {c : Nat} {r : List Nat} {i : Nat}
    (hc : c ≠ 0) (hP : ¬ P (c :: r)) (h : FirstStop P r i) : FirstStop P (c :: r) (i + 1) := by
  refine ⟨by simpa using h.1, ?_⟩
  intro j hj
  cases j with
  | zero => exact ⟨by simpa using hc, by simpa using hP⟩
  | succ j => simpa using h.2 j (by omega)

/-- Skipping `1 + k` bytes, none of which is a stop. -/
theorem FirstStop.skip {P : List Nat → Prop} {c : Nat} {r : List Nat} {i k : Nat}
    (hc : c ≠ 0) (hP : ¬ P (c :: r))
    (hk : ∀ j, j < k → rd (r.drop j) ≠ 0 ∧ ¬ P (r.drop j))
    (h : FirstStop P (r.drop k) i) : FirstStop P (c :: r) (1 + k + i) := by
  have e : (c :: r).drop (1 + k + i) = (r.drop k).drop i := by
    rw [show 1 + k + i = (k + i) + 1 by omega, List.drop_succ_cons, List.drop_drop]
  refine ⟨by rw [e]; exact h.1, ?_⟩
  intro j hj
  cases j with
  | zero => exact ⟨by simpa using hc, by simpa using hP⟩
  | succ j =>
    rw [List.drop_succ_cons]
    by_cases hjk : j < k
    · exact hk j hjk
    · have := h.2 (j - k) (by omega)
      rw [List.drop_drop] at this
      rw [show j = j - k + k by omega]
      first
        | exact this
        | (rw [Nat.add_comm]; exact this)

theorem FirstStop.unique {P : List Nat → Prop} {rest : List Nat} {i j : Nat}
    (hi : FirstStop P rest i) (hj : FirstStop P rest j) : i = j := by
  rcases Nat.lt_trichotomy i j with h | h | h
  · exfalso
    obtain ⟨h1, h2⟩ := hj.2 i h
    rcases hi.1 with h0 | hp
    · exact h1 h0
    · exact h2 hp
  · exact h
  · exfalso
    obtain ⟨h1, h2⟩ := hi.2 j h
    rcases hj.1 with h0 | hp
    · exact h1 h0
    · exact h2 hp

/-- The run of a decoder loop `L`.  A byte outside the class that the loop
scans for is read over without fuel being spent (`hplain`); a byte of the
class that is neither NUL nor the start of the terminator takes one iteration,
which keeps the gap invariant and moves over that byte and over `k` more, none
of them a stop (`hstep`); at a NUL or at the terminator the loop returns what
`R` says (`hdone`).  With fuel for every byte left, the loop comes to the
first stop and returns there. -/
theorem scan_loop_run
    (L : Nat → List Nat → Nat → gap → Option (Option Nat × List Nat))
    (R : List Nat → Nat → gap → Option (Option Nat × List Nat))
    (P : List Nat → Prop) (stop : Nat → Bool) (pre : List Nat)
    (hplain : ∀ (n : Nat) (out : List Nat) (c : Nat) (r buf : List Nat) (s : Nat) (g : gap),
      GapInv pre out (c :: r) buf s g → stop c = false →
        L (n + 1) buf s g = L (n + 1) buf (s + 1) g)
    (hP : ∀ (c : Nat) (r : List Nat), c = 0 ∨ P (c :: r) → stop c = true)
    (hstep : ∀ (n : Nat) (out : List Nat) (c : Nat) (r buf : List Nat) (s : Nat) (g : gap),
      GapInv pre out (c :: r) buf s g → stop c = true → c ≠ 0 → ¬ P (c :: r) →
        ∃ (out' : List Nat) (k : Nat) (b' : List Nat) (g' : gap), k ≤ r.length ∧
          (∀ j, j < k → rd (r.drop j) ≠ 0 ∧ ¬ P (r.drop j)) ∧
          GapInv pre out' (r.drop k) b' (s + 1 + k) g' ∧
          L (n + 1) buf s g = L n b' (s + 1 + k) g')
    (hdone : ∀ (n : Nat) (out rest buf : List Nat) (s : Nat) (g : gap),
      GapInv pre out rest buf s g → (rd rest = 0 ∨ P rest) → L (n + 1) buf s g = R buf s g) :
    ∀ (m : Nat) (rest : List Nat), rest.length ≤ m →
      ∀ (n : Nat) (out buf : List Nat) (s : Nat) (g : gap), rest.length < n →
        GapInv pre out rest buf s g →
        ∃ (i : Nat) (out' b' : List Nat) (g' : gap), FirstStop P rest i ∧ i ≤ rest.length ∧
          GapInv pre out' (rest.drop i) b' (s + i) g' ∧ L n buf s g = R b' (s + i) g' := by
  intro m
  induction m with
  | zero =>
    intro rest hm n out buf s g hn h
    have hr : rest = [] := List.length_eq_zero.mp (Nat.le_zero.mp hm)
    subst hr
    obtain ⟨n, rfl⟩ : ∃ n', n = n' + 1 := ⟨n - 1, by simp at hn; omega⟩
    exact ⟨0, out, buf, g, FirstStop.zero (Or.inl rfl), le_refl _, by simpa using h,
      by simpa using hdone n out [] buf s g h (Or.inl rfl)⟩
  | succ m ih =>
    intro rest hm n out buf s g hn h
    obtain ⟨n, rfl⟩ : ∃ n', n = n' + 1 := ⟨n - 1, by omega⟩
    cases rest with
    | nil =>
      exact ⟨0, out, buf, g, FirstStop.zero (Or.inl rfl), le_refl _, by simpa using h,
        by simpa using hdone n out [] buf s g h (Or.inl rfl)⟩
    | cons c r =>
      simp only [List.length_cons] at hm hn
      by_cases hs : stop c = true
      · by_cases hd : c = 0 ∨ P (c :: r)
        · exact ⟨0, out, buf, g, FirstStop.zero (by simpa using hd), Nat.zero_le _,
            by simpa using h, by simpa using hdone n out (c :: r) buf s g h (by simpa using hd)⟩
        · have hc : c ≠ 0 := fun h0 => hd (Or.inl h0)
          have hp : ¬ P (c :: r) := fun h0 => hd (Or.inr h0)
          obtain ⟨out1, k, b1, g1, hk, hsafe, hinv, hL⟩ := hstep n out c r buf s g h hs hc hp
          have hlen : (r.drop k).length ≤ m := by simp only [List.length_drop]; omega
          have hfuel : (r.drop k).length < n := by simp only [List.length_drop]; omega
          obtain ⟨i, out2, b2, g2, hfs, hi, hinv2, hL2⟩ :=
            ih (r.drop k) hlen n out1 b1 (s + 1 + k) g1 hfuel hinv
          have hi' : i ≤ r.length - k := by simpa using hi
          refine ⟨1 + k + i, out2, b2, g2, FirstStop.skip hc hp hsafe hfs,
            by simp only [List.length_cons]; omega, ?_, ?_⟩
          · have e : (c :: r).drop (1 + k + i) = (r.drop k).drop i := by
              rw [show 1 + k + i = (k + i) + 1 by omega, List.drop_succ_cons, List.drop_drop]
            rw [e, show s + (1 + k + i) = s + 1 + k + i by omega]
            exact hinv2
          · rw [hL, hL2, show s + (1 + k + i) = s + 1 + k + i by omega]
      · have hs' : stop c = false := by simpa using hs
        have hc : c ≠ 0 := fun h0 => hs (hP c r (Or.inl h0))
        have hp : ¬ P (c :: r) := fun h0 => hs (hP c r (Or.inr h0))
        obtain ⟨i, out2, b2, g2, hfs, hi, hinv2, hL2⟩ :=
          ih r (by omega) (n + 1) (out ++ [c]) buf (s + 1) g (by omega) h.advance
        refine ⟨i + 1, out2, b2, g2, FirstStop.cons hc hp hfs,
          by simp only [List.length_cons]; omega, ?_, ?_⟩
        · rw [List.drop_succ_cons, show s + (i + 1) = s + 1 + i by omega]
          exact hinv2
        · rw [hplain n out c r buf s g h hs', hL2, show s + (i + 1) = s + 1 + i by omega]

/-! ## One call of `strconv_escape`, on any input -/

theorem RefByte.not_nul {c : Nat} (h : RefByte c) : c ≠ 0 := by
  unfold RefByte at h; omega

theorem RefByte.of_dec_digit {c : Nat} (h : DecDigit c) : RefByte c := by
  unfold DecDigit at h; unfold RefByte; omega

theorem RefByte.of_hex_digit {c : Nat} (h : HexDigit c) : RefByte c := by
  unfold HexDigit at h; unfold RefByte; omega

/-- The bytes that `strconv_escape` reads over are none of the bytes that end
a scan or that a decoder treats in a way of its own. -/
theorem RefByte.plain {c : Nat} (h : RefByte c) :
    c ≠ 0 ∧ c ≠ 60 ∧ c ≠ 34 ∧ c ≠ 39 ∧ c ≠ 38 ∧ c ≠ 13 ∧ c ≠ 10 ∧ c ≠ 9 ∧ c ≠ 32 := by
  unfold RefByte at h; omega

theorem dec_loop_zero (l : List Nat) (stre u : Nat) (h : (dec_loop l stre u).1 = stre) :
    (dec_loop l stre u).2 = u := by
  cases l with
  | nil => rfl
  | cons c r =>
    rw [dec_loop] at h ⊢
    by_cases hc : 48 ≤ c ∧ c ≤ 57
    · rw [if_pos hc] at h
      obtain ⟨j, _, hj, _⟩ := dec_loop_stop r (stre + 1) ((10 * u + (c - 48)) % 2 ^ 32)
      rw [hj] at h
      omega
    · rw [if_neg hc]

theorem strutf16_utf8_skip (buf : List Nat) (s n : Nat) (hn : 0x200000 ≤ n) :
    strutf16_utf8 buf s n = (buf, s) := by
  unfold strutf16_utf8
  rw [if_neg (by omega), if_neg (by omega), if_neg (by omega), if_neg (by omega)]

/-- The tail of a numeric reference for any value: the bytes of the reference
are replaced by what `strutf16_utf8` writes, which is nothing for a value
from `0x200000` on. -/
theorem escape_numeric_step {pre out rest buf : List Nat} {s : Nat} {g : gap} (src : List Nat)
    (n : Nat) (h : GapInv pre out (src ++ rest) buf s g) (hl : 3 ≤ src.length)
    (hn : 4 ≤ src.length ∨ n < 0x80 ∨ 0x200000 ≤ n) :
    ∃ out' : List Nat,
      GapInv pre out' rest (escape_numeric buf s g (s + src.length) n).1 (s + src.length)
        (escape_numeric buf s g (s + src.length) n).2.2 ∧
      (escape_numeric buf s g (s + src.length) n).2.1 = s + src.length := by
  by_cases hbig : 0x200000 ≤ n
  · obtain ⟨hp, _⟩ := h.push src.length (by simp)
    unfold escape_numeric
    rw [strutf16_utf8_skip buf s n hbig]
    simp only [show s + src.length - s = src.length by omega]
    exact ⟨out, by simpa using hp, trivial⟩
  · have hlt : n < 0x200000 := by omega
    by_cases h4 : 4 ≤ src.length
    · obtain ⟨h1, h2, _⟩ := escape_numeric_inv src n h h4 hlt
      exact ⟨out ++ utf8 n, h1, h2⟩
    · have h80 : n < 0x80 := by omega
      cases src with
      | nil => simp at hl
      | cons a src =>
        have hw : strutf16_utf8 buf s n = (poke buf (s + 0) n, s + 1) := by
          rw [strutf16_utf8_eq buf s n hlt, if_pos h80]
        have h1 := (h.poke_at 0 n)
        simp only [List.cons_append, List.set_cons_zero] at h1
        have h2 := h1.advance
        obtain ⟨hp, _⟩ := h2.push src.length (by simp)
        unfold escape_numeric
        rw [hw]
        simp only [List.length_cons, show s + (src.length + 1) - (s + 1) = src.length by omega]
        refine ⟨out ++ [n], ?_, trivial⟩
        have e : s + 1 + src.length = s + (src.length + 1) := by omega
        rw [e] at hp
        simpa using hp

theorem EscapeStep.cancel {pre out r buf : List Nat} {s : Nat} {g : gap}
    (h : GapInv pre out (38 :: r) buf s g) (k : Nat) (hk : k ≤ r.length)
    (hb : ∀ x ∈ r.take k, RefByte x) : EscapeStep pre r s (buf, s + 1 + k, g) := by
  refine ⟨out ++ 38 :: r.take k, k, hk, hb, rfl, ?_⟩
  have e : 38 :: r = (38 :: r.take k) ++ r.drop k := by
    rw [List.cons_append, List.take_append_drop]
  rw [e] at h
  have h2 := h.advance_list (38 :: r.take k)
  have e2 : s + (38 :: r.take k).length = s + 1 + k := by
    simp only [List.length_cons, List.length_take, Nat.min_eq_left hk]; omega
  rw [e2] at h2
  exact h2

/-- A named branch of `strconv_escape`: the comparisons either all hold, and
the reference is replaced by the byte `c`, or stop at the first byte that
differs. -/
theorem EscapeStep.named {pre out r buf : List Nat} {s : Nat} {g : gap}
    (h : GapInv pre out (38 :: r) buf s g) (lead pat : List Nat) (c : Nat)
    (hlead : lead <+: r) (href : ∀ x ∈ lead ++ pat, RefByte x) :
    EscapeStep pre r s
      (if (match_seq buf (s + lead.length) pat).2 = true then
          escape_named buf s g (match_seq buf (s + lead.length) pat).1 c
        else (buf, (match_seq buf (s + lead.length) pat).1, g)) := by
  have hdrop : buf.drop (s + 1) = r := h.advance.drop_eq
  have hpat0 : ∀ x ∈ pat, x ≠ 0 := fun x hx => (href x (List.mem_append_right _ hx)).not_nul
  have hd2 : buf.drop (s + lead.length + 1) = r.drop lead.length := by
    rw [← hdrop, List.drop_drop]
    congr 1
    omega
  obtain ⟨tl, htl⟩ := hlead
  have hrd : r.drop lead.length = tl := by rw [← htl]; exact List.drop_left _ _
  by_cases hm : (match_seq buf (s + lead.length) pat).2 = true
  · rw [if_pos hm]
    obtain ⟨hpos, hp⟩ := match_seq_full buf pat hpat0 _ hm
    rw [hd2, hrd] at hp
    obtain ⟨rest, hrest⟩ := hp
    have hr : r = (lead ++ pat) ++ rest := by rw [← htl, ← hrest]; simp
    have h' : GapInv pre out (38 :: ((lead ++ pat) ++ rest)) buf s g := by rw [← hr]; exact h
    obtain ⟨h1, h2, _⟩ := escape_named_inv (lead ++ pat) c
      (match_seq buf (s + lead.length) pat).1 h' (by rw [hpos]; simp; omega)
    refine ⟨out ++ [c], (lead ++ pat).length, by rw [hr]; simp, ?_, h2, ?_⟩
    · rw [hr, List.take_left]
      exact href
    · rw [hr, List.drop_left]
      exact h1
  · rw [if_neg hm]
    have hm' : (match_seq buf (s + lead.length) pat).2 = false := by simpa using hm
    obtain ⟨j, hj, hpos, hp⟩ := match_seq_cancel buf pat hpat0 _ hm'
    rw [hd2, hrd] at hp
    have hpre : lead ++ pat.take j <+: r := by
      rw [← htl]
      exact (List.prefix_append_right_inj lead).mpr hp
    have hlen : (lead ++ pat.take j).length = lead.length + j := by
      rw [List.length_append, List.length_take, Nat.min_eq_left (le_of_lt hj)]
    have hk : lead.length + j ≤ r.length := by rw [← hlen]; exact hpre.length_le
    have hb : ∀ x ∈ r.take (lead.length + j), RefByte x := by
      have e : r.take (lead.length + j) = lead ++ pat.take j := by
        rw [← hlen]; exact (List.prefix_iff_eq_take.mp hpre).symm
      rw [e]
      intro x hx
      rcases List.mem_append.mp hx with hx | hx
      · exact href x (List.mem_append_left _ hx)
      · exact href x (List.mem_append_right _ (List.mem_of_mem_take hx))
    have := EscapeStep.cancel h (lead.length + j) hk hb
    rw [hpos, show s + lead.length + j + 1 = s + 1 + (lead.length + j) by omega]
    exact this

theorem refByte_hash : RefByte 35 := by unfold RefByte; omega

theorem refByte_semi : RefByte 59 := by unfold RefByte; omega

theorem refByte_x : RefByte 120 := by unfold RefByte; omega

/-- The decimal branch of `strconv_escape`. -/
theorem EscapeStep.dec {pre out l buf : List Nat} {s : Nat} {g : gap}
    (h : GapInv pre out (38 :: 35 :: l) buf s g) (hx : peek buf (s + 2) ≠ 120) :
    EscapeStep pre (35 :: l) s (strconv_escape buf s g) := by
  have hdrop : buf.drop (s + 1) = 35 :: l := h.advance.drop_eq
  have hd2 : buf.drop (s + 2) = l := h.advance.advance.drop_eq
  have p1 : peek buf (s + 1) = 35 := by
    rw [← rd_drop, hdrop]; rfl
  obtain ⟨j, hj, hpos, hdig⟩ := dec_loop_stop l (s + 2) 0
  rw [strconv_escape_dec_eq buf s g p1 hx, hd2]
  by_cases h59 : peek buf (dec_loop l (s + 2) 0).1 = 59
  · rw [if_neg (by simpa using h59)]
    rw [hpos, ← peek_drop, hd2] at h59
    have hval : 1 ≤ j ∨ (dec_loop l (s + 2) 0).2 < 0x80 := by
      by_cases hj0 : j = 0
      · right
        rw [dec_loop_zero l (s + 2) 0 (by rw [hpos, hj0])]
        decide
      · left; omega
    have e : (dec_loop l (s + 2) 0).1 + 1 = s + (j + 3) := by rw [hpos]; omega
    rw [e]
    generalize (dec_loop l (s + 2) 0).2 = u at hval ⊢
    obtain ⟨rest, hrest⟩ := prefix_take_snoc l j 59 h59 (by decide)
    have hjl : (l.take j).length = j := by rw [List.length_take, Nat.min_eq_left hj]
    generalize l.take j = ds at hrest hjl hdig
    subst hrest
    have h' : GapInv pre out ((38 :: 35 :: (ds ++ [59])) ++ rest) buf s g := by
      simpa using h
    have hlen : (38 :: 35 :: (ds ++ [59])).length = j + 3 := by
      simp only [List.length_cons, List.length_append, hjl, List.length_nil]
    obtain ⟨out', h1, h2⟩ := escape_numeric_step (38 :: 35 :: (ds ++ [59])) u h'
      (by rw [hlen]; omega) (by rw [hlen]; omega)
    rw [hlen] at h1 h2
    have e2 : 35 :: (ds ++ [59] ++ rest) = (35 :: (ds ++ [59])) ++ rest := by simp
    have hl2 : (35 :: (ds ++ [59])).length = j + 2 := by
      simp only [List.length_cons, List.length_append, hjl, List.length_nil]
    refine ⟨out', j + 2, by rw [e2, List.length_append, hl2]; omega, ?_, by rw [h2]; omega, ?_⟩
    · rw [e2, ← hl2, List.take_left]
      intro x hx'
      rcases List.mem_cons.mp hx' with hx' | hx'
      · rw [hx']; exact refByte_hash
      · rcases List.mem_append.mp hx' with hx' | hx'
        · exact RefByte.of_dec_digit (hdig x hx')
        · rw [List.mem_singleton.mp hx']; exact refByte_semi
    · rw [e2, ← hl2, List.drop_left, hl2, show s + 1 + (j + 2) = s + (j + 3) by omega]
      exact h1
  · rw [if_pos (by simpa using h59), hpos]
    have hb : ∀ x ∈ (35 :: l).take (1 + j), RefByte x := by
      intro x hx'
      rw [Nat.add_comm, List.take_succ_cons] at hx'
      rcases List.mem_cons.mp hx' with hx' | hx'
      · rw [hx']; exact refByte_hash
      · exact RefByte.of_dec_digit (hdig x hx')
    have := EscapeStep.cancel h (1 + j) (by simp only [List.length_cons]; omega) hb
    rw [show s + 2 + j = s + 1 + (1 + j) by omega]
    exact this

/-- The hexadecimal branch of `strconv_escape`. -/
theorem EscapeStep.hex {pre out l buf : List Nat} {s : Nat} {g : gap}
    (h : GapInv pre out (38 :: 35 :: 120 :: l) buf s g) :
    EscapeStep pre (35 :: 120 :: l) s (strconv_escape buf s g) := by
  have hdrop : buf.drop (s + 1) = 35 :: 120 :: l := h.advance.drop_eq
  have hd2 : buf.drop (s + 2) = 120 :: l := h.advance.advance.drop_eq
  have hd3 : buf.drop (s + 3) = l := h.advance.advance.advance.drop_eq
  have p1 : peek buf (s + 1) = 35 := by
    rw [← rd_drop, hdrop]; rfl
  have p2 : peek buf (s + 2) = 120 := by
    rw [← rd_drop, hd2]; rfl
  obtain ⟨j, hj, hpos, hdig⟩ := hex_loop_stop l (s + 3) 0
  have hcancel : EscapeStep pre (35 :: 120 :: l) s (buf, (hex_loop l (s + 3) 0).1, g) := by
    have hb : ∀ x ∈ (35 :: 120 :: l).take (2 + j), RefByte x := by
      intro x hx'
      rw [show 2 + j = j + 1 + 1 by omega, List.take_succ_cons, List.take_succ_cons] at hx'
      rcases List.mem_cons.mp hx' with hx' | hx'
      · rw [hx']; exact refByte_hash
      · rcases List.mem_cons.mp hx' with hx' | hx'
        · rw [hx']; exact refByte_x
        · exact RefByte.of_hex_digit (hdig x hx')
    have := EscapeStep.cancel h (2 + j) (by simp only [List.length_cons]; omega) hb
    rw [hpos, show s + 3 + j = s + 1 + (2 + j) by omega]
    exact this
  rw [strconv_escape_hex_eq buf s g p1 p2, hd3]
  by_cases hf : (hex_loop l (s + 3) 0).2.2 = true
  · rw [if_pos hf]; exact hcancel
  rw [if_neg hf]
  by_cases h59 : peek buf (hex_loop l (s + 3) 0).1 = 59
  · rw [if_neg (by simpa using h59)]
    rw [hpos, ← peek_drop, hd3] at h59
    have e : (hex_loop l (s + 3) 0).1 + 1 = s + (j + 4) := by rw [hpos]; omega
    rw [e]
    generalize (hex_loop l (s + 3) 0).2.1 = u
    obtain ⟨rest, hrest⟩ := prefix_take_snoc l j 59 h59 (by decide)
    have hjl : (l.take j).length = j := by rw [List.length_take, Nat.min_eq_left hj]
    generalize l.take j = hs at hrest hjl hdig
    subst hrest
    have h' : GapInv pre out ((38 :: 35 :: 120 :: (hs ++ [59])) ++ rest) buf s g := by
      simpa using h
    have hlen : (38 :: 35 :: 120 :: (hs ++ [59])).length = j + 4 := by
      simp only [List.length_cons, List.length_append, hjl, List.length_nil]
    obtain ⟨out', h1, h2⟩ := escape_numeric_step (38 :: 35 :: 120 :: (hs ++ [59])) u h'
      (by rw [hlen]; omega) (by rw [hlen]; omega)
    rw [hlen] at h1 h2
    have e2 : 35 :: 120 :: (hs ++ [59] ++ rest) = (35 :: 120 :: (hs ++ [59])) ++ rest := by simp
    have hl2 : (35 :: 120 :: (hs ++ [59])).length = j + 3 := by
      simp only [List.length_cons, List.length_append, hjl, List.length_nil]
    refine ⟨out', j + 3, by rw [e2, List.length_append, hl2]; omega, ?_, by rw [h2]; omega, ?_⟩
    · rw [e2, ← hl2, List.take_left]
      intro x hx'
      rcases List.mem_cons.mp hx' with hx' | hx'
      · rw [hx']; exact refByte_hash
      · rcases List.mem_cons.mp hx' with hx' | hx'
        · rw [hx']; exact refByte_x
        · rcases List.mem_append.mp hx' with hx' | hx'
          · exact RefByte.of_hex_digit (hdig x hx')
          · rw [List.mem_singleton.mp hx']; exact refByte_semi
    · rw [e2, ← hl2, List.drop_left, hl2, show s + 1 + (j + 3) = s + (j + 4) by omega]
      exact h1
  · rw [if_pos (by simpa using h59)]; exact hcancel

theorem cons_of_peek_zero (l : List Nat) (c : Nat) (h : peek l 0 = c) (hc : c ≠ 0) :
    l = c :: l.drop 1 := by
  have := drop_of_peek l 0 c h hc
  simpa using this

/-- One call of `strconv_escape` at an `'&'`, whatever follows it: the pointer
returned is after the `'&'` and after `k` bytes of the kind a reference is made
of, and the gap invariant holds for the bytes that are left. -/
theorem strconv_escape_step {pre out r buf : List Nat} {s : Nat} {g : gap}
    (h : GapInv pre out (38 :: r) buf s g) :
    EscapeStep pre r s (strconv_escape buf s g) := by
  have hdrop : buf.drop (s + 1) = r := h.advance.drop_eq
  have pk : ∀ i, peek buf (s + 1 + i) = peek r i := by
    intro i; rw [← hdrop, peek_drop]
  have p1 : peek buf (s + 1) = peek r 0 := pk 0
  have p2 : peek buf (s + 2) = peek r 1 := pk 1
  have hnone : strconv_escape buf s g = (buf, s + 1, g) →
      EscapeStep pre r s (strconv_escape buf s g) := by
    intro e
    rw [e]
    exact EscapeStep.cancel h 0 (Nat.zero_le _) (by simp)
  by_cases h35 : peek r 0 = 35
  · have hr := cons_of_peek_zero r 35 h35 (by decide)
    by_cases hx : peek buf (s + 2) = 120
    · have hr1 : r.drop 1 = 120 :: (r.drop 1).drop 1 :=
        cons_of_peek_zero (r.drop 1) 120 (by rw [peek_drop, ← p2]; exact hx) (by decide)
      rw [hr1] at hr
      rw [hr] at h ⊢
      exact EscapeStep.hex h
    · rw [hr] at h ⊢
      exact EscapeStep.dec h hx
  by_cases h103 : peek r 0 = 103
  · have hr := cons_of_peek_zero r 103 h103 (by decide)
    rw [strconv_escape_g buf s g (by rw [p1]; exact h103)]
    exact EscapeStep.named h [103] [116, 59] 62 ⟨r.drop 1, hr.symm⟩ (by decide)
  by_cases h108 : peek r 0 = 108
  · have hr := cons_of_peek_zero r 108 h108 (by decide)
    rw [strconv_escape_l buf s g (by rw [p1]; exact h108)]
    exact EscapeStep.named h [108] [116, 59] 60 ⟨r.drop 1, hr.symm⟩ (by decide)
  by_cases h113 : peek r 0 = 113
  · have hr := cons_of_peek_zero r 113 h113 (by decide)
    rw [strconv_escape_q buf s g (by rw [p1]; exact h113)]
    exact EscapeStep.named h [113] [117, 111, 116, 59] 34 ⟨r.drop 1, hr.symm⟩ (by decide)
  by_cases h97 : peek r 0 = 97
  · have hr := cons_of_peek_zero r 97 h97 (by decide)
    have hc1 : peek buf (s + 1) = 97 := by rw [p1]; exact h97
    by_cases hm : peek buf (s + 2) = 109
    · have hr1 : r.drop 1 = 109 :: (r.drop 1).drop 1 :=
        cons_of_peek_zero (r.drop 1) 109 (by rw [peek_drop, ← p2]; exact hm) (by decide)
      rw [strconv_escape_am buf s g hc1 hm]
      exact EscapeStep.named h [97, 109] [112, 59] 38
        ⟨(r.drop 1).drop 1, by rw [List.cons_append, List.cons_append, List.nil_append,
          ← hr1, ← hr]⟩ (by decide)
    · by_cases hp : peek buf (s + 2) = 112
      · have hr1 : r.drop 1 = 112 :: (r.drop 1).drop 1 :=
          cons_of_peek_zero (r.drop 1) 112 (by rw [peek_drop, ← p2]; exact hp) (by decide)
        rw [strconv_escape_ap buf s g hc1 hp]
        exact EscapeStep.named h [97, 112] [111, 115, 59] 39
          ⟨(r.drop 1).drop 1, by rw [List.cons_append, List.cons_append, List.nil_append,
            ← hr1, ← hr]⟩ (by decide)
      · rw [strconv_escape_a buf s g hc1 hm hp]
        have hb : ∀ x ∈ r.take 1, RefByte x := by
          rw [hr]
          intro x hx
          simp only [List.take_succ_cons, List.take_zero, List.mem_singleton] at hx
          rw [hx]; unfold RefByte; omega
        have hk : 1 ≤ r.length := by rw [hr]; simp
        exact EscapeStep.cancel h 1 hk hb
  · exact hnone (strconv_escape_other buf s g (by rw [p1]; exact h35) (by rw [p1]; exact h97)
      (by rw [p1]; exact h103) (by rw [p1]; exact h108) (by rw [p1]; exact h113))

/-! ## Steps that the decoders share -/

theorem rd_eq_peek (l : List Nat) : rd l = peek l 0 := by
  cases l <;> rfl

theorem GapInv.peek_rd {pre out rest buf : List Nat} {s : Nat} {g : gap}
    (h : GapInv pre out rest buf s g) : peek buf s = rd rest := by
  rw [h.peek_zero, rd_eq_peek]

/-- The scan reads over a byte that is not of the class scanned for. -/
theorem skipTo_plain (ct : Nat) {pre out r buf : List Nat} {s c : Nat} {g : gap}
    (h : GapInv pre out (c :: r) buf s g) (hc : is_chartype c ct = false) :
    skipTo ct (buf.drop s) s = skipTo ct (buf.drop (s + 1)) (s + 1) := by
  rw [h.drop_eq, h.advance.drop_eq, skipTo, hc]
  simp

/-- The scan stops at a byte of the class scanned for, and at the end of the
bytes. -/
theorem skipTo_halt (ct : Nat) {pre out rest buf : List Nat} {s : Nat} {g : gap}
    (h : GapInv pre out rest buf s g) (hc : rest = [] ∨ is_chartype (rd rest) ct = true) :
    skipTo ct (buf.drop s) s = s := by
  rw [h.drop_eq]
  cases rest with
  | nil => rfl
  | cons c r =>
    rcases hc with hc | hc
    · exact absurd hc (List.cons_ne_nil _ _)
    · rw [rd_cons] at hc
      rw [skipTo, hc]
      simp

theorem rd_drop_mem_take (r : List Nat) (j k : Nat) (hj : j < k) (hk : k ≤ r.length) :
    rd (r.drop j) ∈ r.take k := by
  have hjl : j < r.length := by omega
  rw [rd_drop]
  unfold peek
  rw [List.getD_eq_getElem?_getD, List.getElem?_eq_getElem hjl]
  simp only [Option.getD_some]
  rw [List.mem_take_iff_getElem]
  exact ⟨j, by omega, rfl⟩

/-- Writing a byte at the read position and stepping over it. -/
theorem GapInv.write {pre out r buf : List Nat} {s c : Nat} {g : gap} (v : Nat)
    (h : GapInv pre out (c :: r) buf s g) :
    GapInv pre (out ++ [v]) r (poke buf s v) (s + 1) g :=
  (h.poke_head v).advance

/-- Dropping the next byte of the input after a byte was written: the step
of a line end `"\r\n"`. -/
theorem GapInv.write_skip {pre out r buf : List Nat} {s c : Nat} {g : gap} (v : Nat)
    (h : GapInv pre out (c :: r) buf s g) (hr : r ≠ []) :
    GapInv pre (out ++ [v]) (r.drop 1) (g.push (poke buf s v) (s + 1) 1).1 (s + 1 + 1)
      (g.push (poke buf s v) (s + 1) 1).2.2 ∧
      (g.push (poke buf s v) (s + 1) 1).2.1 = s + 1 + 1 := by
  have h1 := h.write v
  have hl : 1 ≤ r.length := by
    cases r with
    | nil => exact absurd rfl hr
    | cons x r => simp
  exact h1.push 1 hl

theorem ne_nil_of_rd {r : List Nat} {c : Nat} (h : rd r = c) (hc : c ≠ 0) : r ≠ [] := by
  intro hr
  subst hr
  exact hc h.symm

/-- The end of a decoder at its terminator: the gap is flushed and the text is
NUL-terminated.  The bytes `Y` after the NUL are as many as were removed. -/
theorem GapInv.flush_poke {pre out post buf : List Nat} {s t : Nat} {g : gap}
    (h : GapInv pre out (t :: post) buf s g) :
    ∃ Y : List Nat, Y.length = g.size ∧
      poke (g.flush buf s).1 (g.flush buf s).2 0 =
        pre ++ (out ++ 0 :: (Y ++ post)) ∧
      (g.size = 0 ∨ Y.getLast? = some t) := by
  obtain ⟨X, hX, hf⟩ := h.flush
  rw [hf]
  have hpoke : poke (pre ++ (out ++ (X ++ t :: post))) (pre.length + out.length) 0 =
      pre ++ (out ++ (X ++ t :: post).set 0 0) := by
    unfold poke
    rw [show pre.length + out.length = (pre ++ out).length by simp,
      show pre ++ (out ++ (X ++ t :: post)) = (pre ++ out) ++ (X ++ t :: post) by simp,
      List.set_append_right _ _ (le_refl _)]
    simp
  rw [hpoke]
  cases X with
  | nil => exact ⟨[], by simpa using hX, by simp, Or.inl (by simpa using hX.symm)⟩
  | cons x X => exact ⟨X ++ [t], by simpa using hX, by simp, Or.inr (by simp)⟩

/-- The size of the gap when a decoder has come `i` bytes forward. -/
theorem GapInv.out_length {pre out rest buf : List Nat} {s : Nat} {g : gap}
    (h : GapInv pre out rest buf s g) : pre.length + out.length + g.size = s := by
  obtain ⟨o1, junk, o2, ho, _, hs, hg, _⟩ := h
  rw [ho, hs, hg, List.length_append]
  omega

theorem GapInv.buf_length {pre out rest buf : List Nat} {s : Nat} {g : gap}
    (h : GapInv pre out rest buf s g) : buf.length = s + rest.length := by
  obtain ⟨o1, junk, o2, _, hb, hs, _, _⟩ := h
  rw [hb, hs]
  simp only [List.length_append]
  omega

/-! ## The run of `strconv_pcdata` on any input -/

theorem strconv_pcdata_loop_skip (esc eol : Bool) (n : Nat) {pre out r buf : List Nat}
    {s c : Nat} {g : gap} (h : GapInv pre out (c :: r) buf s g)
    (hc : is_chartype c ct_parse_pcdata = false) :
    strconv_pcdata_loop esc eol (n + 1) buf s g =
      strconv_pcdata_loop esc eol (n + 1) buf (s + 1) g := by
  rw [strconv_pcdata_loop_succ, strconv_pcdata_loop_succ, skipTo_plain _ h hc]

theorem strconv_pcdata_loop_done (esc eol : Bool) (n : Nat) {pre out rest buf : List Nat}
    {s : Nat} {g : gap} (h : GapInv pre out rest buf s g) (hd : rd rest = 0 ∨ rd rest = 60) :
    strconv_pcdata_loop esc eol (n + 1) buf s g =
      if peek buf s = 60 then some (some (s + 1), poke (g.flush buf s).1 (g.flush buf s).2 0)
      else some (none, buf) := by
  have hs : skipTo ct_parse_pcdata (buf.drop s) s = s :=
    skipTo_halt _ h (Or.inr (by rcases hd with h0 | h0 <;> rw [h0] <;> decide))
  rw [strconv_pcdata_loop_succ, hs, h.peek_rd]
  rcases hd with h0 | h0 <;> rw [h0] <;> simp

theorem strconv_pcdata_loop_step (esc eol : Bool) (n : Nat) {pre out r buf : List Nat}
    {s c : Nat} {g : gap} (h : GapInv pre out (c :: r) buf s g)
    (hs : is_chartype c ct_parse_pcdata = true) (hc0 : c ≠ 0) (hc : c ≠ 60) :
    ∃ (out' : List Nat) (k : Nat) (b' : List Nat) (g' : gap), k ≤ r.length ∧
      (∀ j, j < k → rd (r.drop j) ≠ 0 ∧ ¬ rd (r.drop j) = 60) ∧
      GapInv pre out' (r.drop k) b' (s + 1 + k) g' ∧
      strconv_pcdata_loop esc eol (n + 1) buf s g = strconv_pcdata_loop esc eol n b' (s + 1 + k) g' := by
  have hstop : skipTo ct_parse_pcdata (buf.drop s) s = s := skipTo_halt _ h (Or.inr hs)
  have hp : peek buf s = c := h.peek_rd
  rw [strconv_pcdata_loop_succ, hstop, hp]
  by_cases he : eol = true ∧ c = 13
  · rw [if_pos he]
    obtain ⟨_, rfl⟩ := he
    have hw := h.write 10
    by_cases hlf : rd r = 10
    · rw [if_pos (by rw [hw.peek_rd]; exact hlf)]
      have hne := ne_nil_of_rd hlf (by decide)
      obtain ⟨h1, h2⟩ := h.write_skip 10 hne
      refine ⟨out ++ [10], 1, _, _, ?_, ?_, h1, by rw [h2]⟩
      · cases r with
        | nil => exact absurd rfl hne
        | cons x r => simp
      · intro j hj
        have : j = 0 := by omega
        subst this
        simp only [List.drop_zero, hlf]
        decide
    · rw [if_neg (by rw [hw.peek_rd]; exact hlf)]
      exact ⟨out ++ [10], 0, _, _, Nat.zero_le _, fun j hj => absurd hj (Nat.not_lt_zero j),
        by simpa using hw, rfl⟩
  · rw [if_neg he]
    by_cases ha : esc = true ∧ c = 38
    · rw [if_pos ha]
      obtain ⟨_, rfl⟩ := ha
      obtain ⟨out', k, hk, hb, hpos, hinv⟩ := strconv_escape_step h
      refine ⟨out', k, _, _, hk, ?_, hinv, by rw [hpos]⟩
      intro j hj
      have := (hb _ (rd_drop_mem_take r j k hj hk)).plain
      exact ⟨this.1, this.2.1⟩
    · rw [if_neg ha, if_neg hc, if_neg hc0]
      exact ⟨out ++ [c], 0, _, _, Nat.zero_le _, fun j hj => absurd hj (Nat.not_lt_zero j),
        by simpa using h.advance, rfl⟩

/-- The loop of `strconv_pcdata` with fuel for every byte left: it comes to
the first NUL or `'<'` and returns there. -/
theorem strconv_pcdata_loop_run (esc eol : Bool) (pre rest : List Nat) (n : Nat) (out buf : List Nat)
    (s : Nat) (g : gap) (hn : rest.length < n) (h : GapInv pre out rest buf s g) :
    ∃ (i : Nat) (out' b' : List Nat) (g' : gap),
      FirstStop (fun l => rd l = 60) rest i ∧ i ≤ rest.length ∧
      GapInv pre out' (rest.drop i) b' (s + i) g' ∧
      strconv_pcdata_loop esc eol n buf s g =
        if peek b' (s + i) = 60 then
          some (some (s + i + 1), poke (g'.flush b' (s + i)).1 (g'.flush b' (s + i)).2 0)
        else some (none, b') :=
  scan_loop_run (strconv_pcdata_loop esc eol)
    (fun b s g => if peek b s = 60 then
        some (some (s + 1), poke (g.flush b s).1 (g.flush b s).2 0)
      else some (none, b))
    (fun l => rd l = 60) (fun c => is_chartype c ct_parse_pcdata) pre
    (fun n _ _ _ _ _ _ h hc => strconv_pcdata_loop_skip esc eol n h hc)
    (fun c r hc => by
      rcases hc with hc | hc
      · rw [hc]; decide
      · rw [rd_cons] at hc; rw [hc]; decide)
    (fun n _ _ _ _ _ _ h hs hc0 hc => strconv_pcdata_loop_step esc eol n h hs hc0
      (by simpa using hc))
    (fun n _ _ _ _ _ h hd => strconv_pcdata_loop_done esc eol n h hd)
    rest.length rest (le_refl _) n out buf s g hn h

theorem drop_cons_of_rd (l : List Nat) (i t : Nat) (h : rd (l.drop i) = t) (ht : t ≠ 0) :
    l.drop i = t :: l.drop (i + 1) := by
  rw [rd_drop] at h
  exact drop_of_peek l i t h ht

/-- `strconv_pcdata` on any input, under every setting of its options. -/
theorem strconv_pcdata_run (esc eol : Bool) (pre rest : List Nat) :
    DecoderRun (fun l => rd l = 60) 1 pre rest
      (strconv_pcdata esc eol (pre ++ rest) pre.length) := by
  have hinit := GapInv.init pre rest
  unfold strconv_pcdata
  by_cases h0 : peek (pre ++ rest) pre.length = 0
  · rw [if_pos h0]
    have hr : rd rest = 0 := by rw [← hinit.peek_rd]; exact h0
    refine ⟨0, FirstStop.zero (Or.inl hr), Nat.zero_le _, Or.inr ⟨?_, _, rfl⟩⟩
    simp only [List.drop_zero, hr]
    decide
  · rw [if_neg h0]
    obtain ⟨i, out', b', g', hfs, hi, hinv, hL⟩ :=
      strconv_pcdata_loop_run esc eol pre rest ((pre ++ rest).length + 1) [] (pre ++ rest)
        pre.length { end_ := none, size := 0 } (by simp; omega) hinit
    rw [hL, hinv.peek_rd]
    refine ⟨i, hfs, hi, ?_⟩
    by_cases ht : rd (rest.drop i) = 60
    · rw [if_pos ht]
      have hd := drop_cons_of_rd rest i 60 ht (by decide)
      rw [hd] at hinv
      obtain ⟨Y, hY, hbuf, _⟩ := hinv.flush_poke
      have hlen := hinv.out_length
      exact Or.inl ⟨ht, out', Y, by omega, by rw [hbuf]⟩
    · rw [if_neg ht]
      exact Or.inr ⟨ht, _, rfl⟩

/-! ## The runs of `strconv_comment` and `strconv_cdata` on any input -/

/-- The run of a loop of the shape that `strconv_comment` and `strconv_cdata`
share: scan for the class `ct`, turn `'\r'` and `"\r\n"` into `'\n'`, return
at the terminator `a b c` or at a NUL. -/
theorem seq_loop_run (L : Nat → List Nat → Nat → gap → Option (Option Nat × List Nat))
    (ct a b c off : Nat)
    (hL : ∀ (n : Nat) (buf : List Nat) (s0 : Nat) (g : gap), L (n + 1) buf s0 g =
      if peek buf (skipTo ct (buf.drop s0) s0) = 13 then
        if peek (poke buf (skipTo ct (buf.drop s0) s0) 10) (skipTo ct (buf.drop s0) s0 + 1) = 10
        then
          L n (g.push (poke buf (skipTo ct (buf.drop s0) s0) 10) (skipTo ct (buf.drop s0) s0 + 1) 1).1
            (g.push (poke buf (skipTo ct (buf.drop s0) s0) 10) (skipTo ct (buf.drop s0) s0 + 1) 1).2.1
            (g.push (poke buf (skipTo ct (buf.drop s0) s0) 10) (skipTo ct (buf.drop s0) s0 + 1) 1).2.2
        else L n (poke buf (skipTo ct (buf.drop s0) s0) 10) (skipTo ct (buf.drop s0) s0 + 1) g
      else if peek buf (skipTo ct (buf.drop s0) s0) = a ∧
          peek buf (skipTo ct (buf.drop s0) s0 + 1) = b ∧
          peek buf (skipTo ct (buf.drop s0) s0 + 2) = c then
        some (some (skipTo ct (buf.drop s0) s0 + off),
          poke (g.flush buf (skipTo ct (buf.drop s0) s0)).1
            (g.flush buf (skipTo ct (buf.drop s0) s0)).2 0)
      else if peek buf (skipTo ct (buf.drop s0) s0) = 0 then some (none, buf)
      else L n buf (skipTo ct (buf.drop s0) s0 + 1) g)
    (h0 : is_chartype 0 ct = true) (hca : is_chartype a ct = true)
    (ha : a ≠ 0 ∧ a ≠ 13 ∧ a ≠ 10)
    (pre rest : List Nat) (n : Nat) (out buf : List Nat) (s : Nat) (g : gap)
    (hn : rest.length < n) (h : GapInv pre out rest buf s g) :
    ∃ (i : Nat) (out' b' : List Nat) (g' : gap),
      FirstStop (StartsWith3 a b c) rest i ∧ i ≤ rest.length ∧
      GapInv pre out' (rest.drop i) b' (s + i) g' ∧
      L n buf s g =
        if StartsWith3 a b c (rest.drop i) then
          some (some (s + i + off), poke (g'.flush b' (s + i)).1 (g'.flush b' (s + i)).2 0)
        else some (none, b') := by
  have hpk : ∀ {out rest buf s g}, GapInv pre out rest buf s g →
      (peek buf s = a ∧ peek buf (s + 1) = b ∧ peek buf (s + 2) = c ↔ StartsWith3 a b c rest) := by
    intro out rest buf s g h
    unfold StartsWith3
    rw [← h.peek_eq 0, ← h.peek_eq 1, ← h.peek_eq 2]
    simp
  obtain ⟨i, out', b', g', hfs, hi, hinv, hrun⟩ := scan_loop_run L
    (fun bf s g => if peek bf s = a ∧ peek bf (s + 1) = b ∧ peek bf (s + 2) = c then
        some (some (s + off), poke (g.flush bf s).1 (g.flush bf s).2 0)
      else some (none, bf))
    (StartsWith3 a b c) (fun x => is_chartype x ct) pre
    (fun n out x r buf s g h hc => by
      rw [hL, hL, skipTo_plain ct h hc])
    (fun x r hx => by
      rcases hx with hx | hx
      · rw [hx]; exact h0
      · have : x = a := hx.1
        rw [this]; exact hca)
    (fun n out x r buf s g h hs hx0 hxP => by
      have hstop : skipTo ct (buf.drop s) s = s := skipTo_halt ct h (Or.inr hs)
      have hp : peek buf s = x := h.peek_rd
      have hnP : ¬ (peek buf s = a ∧ peek buf (s + 1) = b ∧ peek buf (s + 2) = c) :=
        fun hh => hxP ((hpk h).mp hh)
      rw [hL, hstop]
      by_cases hcr : x = 13
      · subst hcr
        rw [if_pos hp]
        have hw := h.write 10
        by_cases hlf : rd r = 10
        · rw [if_pos (by rw [hw.peek_rd]; exact hlf)]
          have hne := ne_nil_of_rd hlf (by decide)
          obtain ⟨h1, h2⟩ := h.write_skip 10 hne
          refine ⟨out ++ [10], 1, _, _, ?_, ?_, h1, by rw [h2]⟩
          · cases r with
            | nil => exact absurd rfl hne
            | cons y r => simp
          · intro j hj
            have : j = 0 := by omega
            subst this
            simp only [List.drop_zero, hlf]
            refine ⟨by decide, fun hP => ?_⟩
            have h10 : peek r 0 = a := hP.1
            rw [← rd_eq_peek, hlf] at h10
            exact ha.2.2 h10.symm
        · rw [if_neg (by rw [hw.peek_rd]; exact hlf)]
          exact ⟨out ++ [10], 0, _, _, Nat.zero_le _,
            fun j hj => absurd hj (Nat.not_lt_zero j), by simpa using hw, rfl⟩
      · rw [if_neg (by rw [hp]; exact hcr), if_neg hnP, if_neg (by rw [hp]; exact hx0)]
        exact ⟨out ++ [x], 0, _, _, Nat.zero_le _, fun j hj => absurd hj (Nat.not_lt_zero j),
          by simpa using h.advance, rfl⟩)
    (fun n out rest buf s g h hd => by
      show L (n + 1) buf s g = if peek buf s = a ∧ peek buf (s + 1) = b ∧ peek buf (s + 2) = c
        then some (some (s + off), poke (g.flush buf s).1 (g.flush buf s).2 0)
        else some (none, buf)
      have hstop : skipTo ct (buf.drop s) s = s := by
        apply skipTo_halt ct h
        right
        rcases hd with hd | hd
        · rw [hd]; exact h0
        · have : rd rest = a := by rw [rd_eq_peek]; exact hd.1
          rw [this]; exact hca
      rw [hL, hstop]
      have hne13 : peek buf s ≠ 13 := by
        rw [h.peek_rd]
        rcases hd with hd | hd
        · rw [hd]; decide
        · have : rd rest = a := by rw [rd_eq_peek]; exact hd.1
          rw [this]; exact ha.2.1
      rw [if_neg hne13]
      by_cases hP : peek buf s = a ∧ peek buf (s + 1) = b ∧ peek buf (s + 2) = c
      · rw [if_pos hP, if_pos hP]
      · rw [if_neg hP, if_neg hP]
        have hz : peek buf s = 0 := by
          rw [h.peek_rd]
          rcases hd with hd | hd
          · exact hd
          · exact absurd ((hpk h).mpr hd) hP
        rw [if_pos hz])
    rest.length rest (le_refl _) n out buf s g hn h
  refine ⟨i, out', b', g', hfs, hi, hinv, ?_⟩
  rw [hrun]
  show (if peek b' (s + i) = a ∧ peek b' (s + i + 1) = b ∧ peek b' (s + i + 2) = c
    then some (some (s + i + off), poke (g'.flush b' (s + i)).1 (g'.flush b' (s + i)).2 0)
    else some (none, b')) = _
  by_cases hP : StartsWith3 a b c (rest.drop i)
  · rw [if_pos hP, if_pos ((hpk hinv).mpr hP)]
  · rw [if_neg hP, if_neg (fun hh => hP ((hpk hinv).mp hh))]

theorem StartsWith3.rd_first {a b c : Nat} {l : List Nat} (h : StartsWith3 a b c l) : rd l = a := by
  rw [rd_eq_peek]; exact h.1

/-- A decoder of the shape of `strconv_comment` and `strconv_cdata` on any
input. -/
theorem seq_decoder_run (L : Nat → List Nat → Nat → gap → Option (Option Nat × List Nat))
    (ct a b c off : Nat)
    (hL : ∀ (n : Nat) (buf : List Nat) (s0 : Nat) (g : gap), L (n + 1) buf s0 g =
      if peek buf (skipTo ct (buf.drop s0) s0) = 13 then
        if peek (poke buf (skipTo ct (buf.drop s0) s0) 10) (skipTo ct (buf.drop s0) s0 + 1) = 10
        then
          L n (g.push (poke buf (skipTo ct (buf.drop s0) s0) 10) (skipTo ct (buf.drop s0) s0 + 1) 1).1
            (g.push (poke buf (skipTo ct (buf.drop s0) s0) 10) (skipTo ct (buf.drop s0) s0 + 1) 1).2.1
            (g.push (poke buf (skipTo ct (buf.drop s0) s0) 10) (skipTo ct (buf.drop s0) s0 + 1) 1).2.2
        else L n (poke buf (skipTo ct (buf.drop s0) s0) 10) (skipTo ct (buf.drop s0) s0 + 1) g
      else if peek buf (skipTo ct (buf.drop s0) s0) = a ∧
          peek buf (skipTo ct (buf.drop s0) s0 + 1) = b ∧
          peek buf (skipTo ct (buf.drop s0) s0 + 2) = c then
        some (some (skipTo ct (buf.drop s0) s0 + off),
          poke (g.flush buf (skipTo ct (buf.drop s0) s0)).1
            (g.flush buf (skipTo ct (buf.drop s0) s0)).2 0)
      else if peek buf (skipTo ct (buf.drop s0) s0) = 0 then some (none, buf)
      else L n buf (skipTo ct (buf.drop s0) s0 + 1) g)
    (h0 : is_chartype 0 ct = true) (hca : is_chartype a ct = true)
    (ha : a ≠ 0 ∧ a ≠ 13 ∧ a ≠ 10) (pre rest : List Nat) :
    DecoderRun (StartsWith3 a b c) off pre rest
      (if peek (pre ++ rest) pre.length = 0 then some (none, pre ++ rest)
        else L ((pre ++ rest).length + 1) (pre ++ rest) pre.length { end_ := none, size := 0 }) := by
  have hinit := GapInv.init pre rest
  by_cases hz : peek (pre ++ rest) pre.length = 0
  · rw [if_pos hz]
    have hr : rd rest = 0 := by rw [← hinit.peek_rd]; exact hz
    refine ⟨0, FirstStop.zero (Or.inl hr), Nat.zero_le _, Or.inr ⟨?_, _, rfl⟩⟩
    intro hP
    have := hP.rd_first
    simp only [List.drop_zero] at this
    rw [hr] at this
    exact ha.1 this.symm
  · rw [if_neg hz]
    obtain ⟨i, out', b', g', hfs, hi, hinv, hrun⟩ :=
      seq_loop_run L ct a b c off hL h0 hca ha pre rest ((pre ++ rest).length + 1) []
        (pre ++ rest) pre.length { end_ := none, size := 0 } (by simp; omega) hinit
    rw [hrun]
    refine ⟨i, hfs, hi, ?_⟩
    by_cases hP : StartsWith3 a b c (rest.drop i)
    · rw [if_pos hP]
      have hd := drop_cons_of_rd rest i a hP.rd_first ha.1
      rw [hd] at hinv
      obtain ⟨Y, hY, hbuf, _⟩ := hinv.flush_poke
      have hlen := hinv.out_length
      exact Or.inl ⟨hP, out', Y, by omega, by rw [hbuf]⟩
    · rw [if_neg hP]
      exact Or.inr ⟨hP, _, rfl⟩

/-- `strconv_comment` on any input: the pointer returned is after the `-->`. -/
theorem strconv_comment_run (pre rest : List Nat) :
    DecoderRun (StartsWith3 45 45 62) 3 pre rest (strconv_comment (pre ++ rest) pre.length) :=
  seq_decoder_run strconv_comment_loop ct_parse_comment 45 45 62 3
    (fun _ _ _ _ => rfl) (by decide) (by decide) (by decide) pre rest

/-- `strconv_cdata` on any input: the pointer returned is after the first
`]` of the `]]>`. -/
theorem strconv_cdata_run (pre rest : List Nat) :
    DecoderRun (StartsWith3 93 93 62) 1 pre rest (strconv_cdata (pre ++ rest) pre.length) :=
  seq_decoder_run strconv_cdata_loop ct_parse_cdata 93 93 62 1
    (fun _ _ _ _ => rfl) (by decide) (by decide) (by decide) pre rest

/-! ## The run of `strconv_attribute` on any input -/

/-- The step of a line end: a byte `v` is written at the read position, and a
`'\n'` after it is dropped. -/
theorem GapInv.crlf {β : Type} (F : List Nat → Nat → gap → β) (T : Nat → Prop) (hT : ¬ T 10)
    {pre out r buf : List Nat} {s c : Nat} {g : gap} (v : Nat)
    (h : GapInv pre out (c :: r) buf s g) :
    ∃ (k : Nat) (b' : List Nat) (g' : gap), k ≤ r.length ∧
      (∀ j, j < k → rd (r.drop j) ≠ 0 ∧ ¬ T (rd (r.drop j))) ∧
      GapInv pre (out ++ [v]) (r.drop k) b' (s + 1 + k) g' ∧
      (if peek (poke buf s v) (s + 1) = 10 then
          F (g.push (poke buf s v) (s + 1) 1).1 (g.push (poke buf s v) (s + 1) 1).2.1
            (g.push (poke buf s v) (s + 1) 1).2.2
        else F (poke buf s v) (s + 1) g) = F b' (s + 1 + k) g' := by
  have hw := h.write v
  by_cases hlf : rd r = 10
  · rw [if_pos (by rw [hw.peek_rd]; exact hlf)]
    have hne := ne_nil_of_rd hlf (by decide)
    obtain ⟨h1, h2⟩ := h.write_skip v hne
    refine ⟨1, _, _, ?_, ?_, h1, by rw [h2]⟩
    · cases r with
      | nil => exact absurd rfl hne
      | cons x r => simp
    · intro j hj
      have : j = 0 := by omega
      subst this
      simp only [List.drop_zero, hlf]
      exact ⟨by decide, hT⟩
  · rw [if_neg (by rw [hw.peek_rd]; exact hlf)]
    exact ⟨0, _, _, Nat.zero_le _, fun j hj => absurd hj (Nat.not_lt_zero j),
      by simpa using hw, rfl⟩

/-- The scan `while (is_chartype(*s, ct)) ++s;` stops after the bytes of the
class that stand first. -/
theorem skipWhile_spec (ct : Nat) (h0 : is_chartype 0 ct = false) (l : List Nat) :
    ∀ s, ∃ j, j ≤ l.length ∧ skipWhile ct l s = s + j ∧
      (∀ x ∈ l.take j, is_chartype x ct = true) ∧ is_chartype (rd (l.drop j)) ct = false := by
  induction l with
  | nil => intro s; exact ⟨0, le_refl _, rfl, by simp, by simpa using h0⟩
  | cons c l ih =>
    intro s
    rw [skipWhile]
    by_cases hc : is_chartype c ct = true
    · rw [if_pos hc]
      obtain ⟨j, hj, hs, ha, hb⟩ := ih (s + 1)
      refine ⟨j + 1, by simp only [List.length_cons]; omega, by rw [hs]; omega, ?_, ?_⟩
      · intro x hx
        rw [List.take_succ_cons] at hx
        rcases List.mem_cons.mp hx with hx | hx
        · rw [hx]; exact hc
        · exact ha x hx
      · simpa using hb
    · rw [if_neg hc]
      exact ⟨0, Nat.zero_le _, rfl, by simp, by simpa using hc⟩

/-- The step of `opt_wnorm` at whitespace that is followed by more: one
space is written and the whole run is dropped. -/
theorem GapInv.ws_run {pre out r buf : List Nat} {s c : Nat} {g : gap}
    (h : GapInv pre out (c :: r) buf s g) (hws : is_chartype (rd r) ct_space = true) :
    ∃ k, 1 ≤ k ∧ k ≤ r.length ∧ (∀ x ∈ r.take k, is_chartype x ct_space = true) ∧
      is_chartype (rd (r.drop k)) ct_space = false ∧
      GapInv pre (out ++ [32]) (r.drop k)
        (g.push (poke buf s 32) (s + 1)
          (skipWhile ct_space ((poke buf s 32).drop (s + 2)) (s + 2) - (s + 1))).1 (s + 1 + k)
        (g.push (poke buf s 32) (s + 1)
          (skipWhile ct_space ((poke buf s 32).drop (s + 2)) (s + 2) - (s + 1))).2.2 ∧
      (g.push (poke buf s 32) (s + 1)
          (skipWhile ct_space ((poke buf s 32).drop (s + 2)) (s + 2) - (s + 1))).2.1 =
        s + 1 + k := by
  have hw := h.write 32
  have hne : r ≠ [] := by
    intro hr; subst hr; revert hws; decide
  obtain ⟨x, r1, rfl⟩ := List.exists_cons_of_ne_nil hne
  rw [rd_cons] at hws
  have hd : (poke buf s 32).drop (s + 2) = r1 := hw.advance.drop_eq
  obtain ⟨j, hj, hs, ha, hb⟩ := skipWhile_spec ct_space (by decide) r1 (s + 2)
  rw [hd, hs, show s + 2 + j - (s + 1) = j + 1 by omega]
  obtain ⟨hp, hp2⟩ := hw.push (j + 1) (by simp only [List.length_cons]; omega)
  refine ⟨j + 1, by omega, by simp only [List.length_cons]; omega, ?_, ?_, hp, hp2⟩
  · intro y hy
    rw [List.take_succ_cons] at hy
    rcases List.mem_cons.mp hy with hy | hy
    · rw [hy]; exact hws
    · exact ha y hy
  · simpa using hb

/-- One unfolding of the loop of `strconv_attribute`. -/
theorem strconv_attribute_loop_succ (esc wnorm wconv eol : Bool) (q n : Nat) (buf : List Nat)
    (s0 : Nat) (g : gap) :
    strconv_attribute_loop esc wnorm wconv eol q (n + 1) buf s0 g =
      if esc = true ∧ peek buf (skipTo (if wnorm = true ∨ wconv = true then ct_parse_attr_ws
          else ct_parse_attr) (buf.drop s0) s0) = 38 then
        strconv_attribute_loop esc wnorm wconv eol q n
          (strconv_escape buf (skipTo (if wnorm = true ∨ wconv = true then ct_parse_attr_ws
            else ct_parse_attr) (buf.drop s0) s0) g).1
          (strconv_escape buf (skipTo (if wnorm = true ∨ wconv = true then ct_parse_attr_ws
            else ct_parse_attr) (buf.drop s0) s0) g).2.1
          (strconv_escape buf (skipTo (if wnorm = true ∨ wconv = true then ct_parse_attr_ws
            else ct_parse_attr) (buf.drop s0) s0) g).2.2
      else
        (fun s =>
          if wnorm = true ∧ is_chartype (peek buf s) ct_space = true then
            if is_chartype (peek (poke buf s 32) (s + 1)) ct_space = true then
              strconv_attribute_loop esc wnorm wconv eol q n
                (g.push (poke buf s 32) (s + 1)
                  (skipWhile ct_space ((poke buf s 32).drop (s + 2)) (s + 2) - (s + 1))).1
                (g.push (poke buf s 32) (s + 1)
                  (skipWhile ct_space ((poke buf s 32).drop (s + 2)) (s + 2) - (s + 1))).2.1
                (g.push (poke buf s 32) (s + 1)
                  (skipWhile ct_space ((poke buf s 32).drop (s + 2)) (s + 2) - (s + 1))).2.2
            else strconv_attribute_loop esc wnorm wconv eol q n (poke buf s 32) (s + 1) g
          else if wconv = true ∧ is_chartype (peek buf s) ct_space = true then
            if eol = true then
              if peek buf s = 13 then
                if peek (poke buf s 32) (s + 1) = 10 then
                  strconv_attribute_loop esc wnorm wconv eol q n
                    (g.push (poke buf s 32) (s + 1) 1).1 (g.push (poke buf s 32) (s + 1) 1).2.1
                    (g.push (poke buf s 32) (s + 1) 1).2.2
                else strconv_attribute_loop esc wnorm wconv eol q n (poke buf s 32) (s + 1) g
              else strconv_attribute_loop esc wnorm wconv eol q n (poke buf s 32) (s + 1) g
            else strconv_attribute_loop esc wnorm wconv eol q n (poke buf s 32) (s + 1) g
          else if eol = true ∧ peek buf s = 13 then
            if peek (poke buf s 10) (s + 1) = 10 then
              strconv_attribute_loop esc wnorm wconv eol q n
                (g.push (poke buf s 10) (s + 1) 1).1 (g.push (poke buf s 10) (s + 1) 1).2.1
                (g.push (poke buf s 10) (s + 1) 1).2.2
            else strconv_attribute_loop esc wnorm wconv eol q n (poke buf s 10) (s + 1) g
          else if peek buf s = q then
            if wnorm = true then
              match wnorm_trim (g.flush buf s).1 (g.flush buf s).2 with
              | some buf1 => some (some (s + 1), buf1)
              | none => none
            else some (some (s + 1), poke (g.flush buf s).1 (g.flush buf s).2 0)
          else if peek buf s = 0 then some (none, buf)
          else strconv_attribute_loop esc wnorm wconv eol q n buf (s + 1) g)
        (skipTo (if wnorm = true ∨ wconv = true then ct_parse_attr_ws else ct_parse_attr)
          (buf.drop s0) s0) := rfl

theorem space_not_quote {c q : Nat} (hq : q = 34 ∨ q = 39)
    (h : is_chartype c ct_space = true) : c ≠ q := by
  intro hc
  subst hc
  rcases hq with hq | hq <;> subst hq <;> revert h <;> decide

theorem attr_class_zero (wnorm wconv : Bool) :
    is_chartype 0 (if wnorm = true ∨ wconv = true then ct_parse_attr_ws else ct_parse_attr) =
      true := by
  cases wnorm <;> cases wconv <;> decide

theorem attr_class_quote (wnorm wconv : Bool) {q : Nat} (hq : q = 34 ∨ q = 39) :
    is_chartype q (if wnorm = true ∨ wconv = true then ct_parse_attr_ws else ct_parse_attr) =
      true := by
  rcases hq with hq | hq <;> subst hq <;> cases wnorm <;> cases wconv <;> decide

theorem strconv_attribute_loop_skip (esc wnorm wconv eol : Bool) (q n : Nat)
    {pre out r buf : List Nat} {s c : Nat} {g : gap} (h : GapInv pre out (c :: r) buf s g)
    (hc : is_chartype c (if wnorm = true ∨ wconv = true then ct_parse_attr_ws
      else ct_parse_attr) = false) :
    strconv_attribute_loop esc wnorm wconv eol q (n + 1) buf s g =
      strconv_attribute_loop esc wnorm wconv eol q (n + 1) buf (s + 1) g := by
  rw [strconv_attribute_loop_succ, strconv_attribute_loop_succ, skipTo_plain _ h hc]

/-- One iteration of the loop of `strconv_attribute` at a byte of the class
scanned for that is neither NUL nor the closing quote. -/
theorem strconv_attribute_loop_step (esc wnorm wconv eol : Bool) (q n : Nat)
    (hq : q = 34 ∨ q = 39) {pre out r buf : List Nat} {s c : Nat} {g : gap}
    (h : GapInv pre out (c :: r) buf s g)
    (hs : is_chartype c (if wnorm = true ∨ wconv = true then ct_parse_attr_ws
      else ct_parse_attr) = true) (hc0 : c ≠ 0) (hcq : c ≠ q) :
    ∃ (out' : List Nat) (k : Nat) (b' : List Nat) (g' : gap), k ≤ r.length ∧
      (∀ j, j < k → rd (r.drop j) ≠ 0 ∧ ¬ rd (r.drop j) = q) ∧
      GapInv pre out' (r.drop k) b' (s + 1 + k) g' ∧
      strconv_attribute_loop esc wnorm wconv eol q (n + 1) buf s g =
        strconv_attribute_loop esc wnorm wconv eol q n b' (s + 1 + k) g' := by
  have hstop := skipTo_halt _ h (Or.inr hs)
  have hp : peek buf s = c := h.peek_rd
  have h10 : ¬ (fun x => x = q) 10 := by
    rcases hq with hq | hq <;> subst hq <;> decide
  have hadv : ∀ v, ∃ (out' : List Nat) (k : Nat) (b' : List Nat) (g' : gap), k ≤ r.length ∧
      (∀ j, j < k → rd (r.drop j) ≠ 0 ∧ ¬ rd (r.drop j) = q) ∧
      GapInv pre out' (r.drop k) b' (s + 1 + k) g' ∧
      strconv_attribute_loop esc wnorm wconv eol q n (poke buf s v) (s + 1) g =
        strconv_attribute_loop esc wnorm wconv eol q n b' (s + 1 + k) g' :=
    fun v => ⟨out ++ [v], 0, _, _, Nat.zero_le _, fun j hj => absurd hj (Nat.not_lt_zero j),
      by simpa using h.write v, rfl⟩
  rw [strconv_attribute_loop_succ, hstop]
  by_cases ha : esc = true ∧ peek buf s = 38
  · rw [if_pos ha]
    have hc38 : c = 38 := by rw [← hp]; exact ha.2
    subst hc38
    obtain ⟨out', k, hk, hb, hpos, hinv⟩ := strconv_escape_step h
    refine ⟨out', k, _, _, hk, ?_, hinv, by rw [hpos]⟩
    intro j hj
    have := (hb _ (rd_drop_mem_take r j k hj hk)).plain
    refine ⟨this.1, ?_⟩
    rcases hq with hq | hq <;> subst hq
    · exact this.2.2.1
    · exact this.2.2.2.1
  · rw [if_neg ha]
    beta_reduce
    by_cases hwn : wnorm = true ∧ is_chartype (peek buf s) ct_space = true
    · rw [if_pos hwn]
      by_cases hnx : is_chartype (peek (poke buf s 32) (s + 1)) ct_space = true
      · rw [if_pos hnx]
        have hr : is_chartype (rd r) ct_space = true := by
          rw [← (h.write 32).peek_rd]; exact hnx
        obtain ⟨k, _, hk, hall, _, hinv, hpos⟩ := h.ws_run hr
        refine ⟨out ++ [32], k, _, _, hk, ?_, hinv, by rw [hpos]⟩
        intro j hj
        have := hall _ (rd_drop_mem_take r j k hj hk)
        exact ⟨space_ne_zero this, space_not_quote hq this⟩
      · rw [if_neg hnx]
        exact hadv 32
    · rw [if_neg hwn]
      by_cases hwc : wconv = true ∧ is_chartype (peek buf s) ct_space = true
      · rw [if_pos hwc]
        by_cases he : eol = true
        · rw [if_pos he]
          by_cases h13 : peek buf s = 13
          · rw [if_pos h13]
            obtain ⟨k, b', g', hk, hsafe, hinv, hF⟩ :=
              GapInv.crlf (strconv_attribute_loop esc wnorm wconv eol q n) (fun x => x = q)
                h10 32 h
            exact ⟨_, k, b', g', hk, hsafe, hinv, hF⟩
          · rw [if_neg h13]
            exact hadv 32
        · rw [if_neg he]
          exact hadv 32
      · rw [if_neg hwc]
        by_cases he : eol = true ∧ peek buf s = 13
        · rw [if_pos he]
          obtain ⟨k, b', g', hk, hsafe, hinv, hF⟩ :=
            GapInv.crlf (strconv_attribute_loop esc wnorm wconv eol q n) (fun x => x = q)
              h10 10 h
          exact ⟨_, k, b', g', hk, hsafe, hinv, hF⟩
        · rw [if_neg he, if_neg (by rw [hp]; exact hcq), if_neg (by rw [hp]; exact hc0)]
          exact ⟨out ++ [c], 0, _, _, Nat.zero_le _,
            fun j hj => absurd hj (Nat.not_lt_zero j), by simpa using h.advance, rfl⟩

/-- The loop of `strconv_attribute` at a NUL or at the closing quote. -/
theorem strconv_attribute_loop_done (esc wnorm wconv eol : Bool) (q n : Nat)
    (hq : q = 34 ∨ q = 39) {pre out rest buf : List Nat} {s : Nat} {g : gap}
    (h : GapInv pre out rest buf s g) (hd : rd rest = 0 ∨ rd rest = q) :
    strconv_attribute_loop esc wnorm wconv eol q (n + 1) buf s g =
      if peek buf s = q then
        if wnorm = true then
          match wnorm_trim (g.flush buf s).1 (g.flush buf s).2 with
          | some buf1 => some (some (s + 1), buf1)
          | none => none
        else some (some (s + 1), poke (g.flush buf s).1 (g.flush buf s).2 0)
      else some (none, buf) := by
  have hcls : is_chartype (rd rest)
      (if wnorm = true ∨ wconv = true then ct_parse_attr_ws else ct_parse_attr) = true := by
    rcases hd with hd | hd <;> rw [hd]
    · exact attr_class_zero wnorm wconv
    · exact attr_class_quote wnorm wconv hq
  have hstop := skipTo_halt _ h (Or.inr hcls)
  have hp : peek buf s = rd rest := h.peek_rd
  have hns : is_chartype (peek buf s) ct_space = false := by
    rw [hp]
    rcases hd with hd | hd <;> rw [hd]
    · decide
    · rcases hq with hq | hq <;> subst hq <;> decide
  have hn38 : peek buf s ≠ 38 := by
    rw [hp]
    rcases hd with hd | hd <;> rw [hd]
    · decide
    · rcases hq with hq | hq <;> subst hq <;> decide
  have hn13 : peek buf s ≠ 13 := by
    rw [hp]
    rcases hd with hd | hd <;> rw [hd]
    · decide
    · rcases hq with hq | hq <;> subst hq <;> decide
  rw [strconv_attribute_loop_succ, hstop, if_neg (fun hh => hn38 hh.2)]
  beta_reduce
  rw [if_neg (fun hh => by rw [hns] at hh; exact Bool.noConfusion hh.2),
    if_neg (fun hh => by rw [hns] at hh; exact Bool.noConfusion hh.2),
    if_neg (fun hh => hn13 hh.2)]
  by_cases hqq : peek buf s = q
  · exact (if_pos hqq).trans (if_pos hqq).symm
  · rw [if_neg hqq, if_neg hqq]
    have hz : peek buf s = 0 := by
      rw [hp]
      rcases hd with hd | hd
      · exact hd
      · exact absurd (hp.trans hd) hqq
    rw [if_pos hz]

/-- The loop of `strconv_attribute` with fuel for every byte left: it comes
to the first NUL or closing quote and returns there. -/
theorem strconv_attribute_loop_run (esc wnorm wconv eol : Bool) (q : Nat) (hq : q = 34 ∨ q = 39)
    (pre rest : List Nat) (n : Nat) (out buf : List Nat) (s : Nat) (g : gap)
    (hn : rest.length < n) (h : GapInv pre out rest buf s g) :
    ∃ (i : Nat) (out' b' : List Nat) (g' : gap),
      FirstStop (fun l => rd l = q) rest i ∧ i ≤ rest.length ∧
      GapInv pre out' (rest.drop i) b' (s + i) g' ∧
      strconv_attribute_loop esc wnorm wconv eol q n buf s g =
        if peek b' (s + i) = q then
          if wnorm = true then
            match wnorm_trim (g'.flush b' (s + i)).1 (g'.flush b' (s + i)).2 with
            | some buf1 => some (some (s + i + 1), buf1)
            | none => none
          else some (some (s + i + 1), poke (g'.flush b' (s + i)).1 (g'.flush b' (s + i)).2 0)
        else some (none, b') :=
  scan_loop_run (strconv_attribute_loop esc wnorm wconv eol q)
    (fun b s g => if peek b s = q then
        if wnorm = true then
          match wnorm_trim (g.flush b s).1 (g.flush b s).2 with
          | some buf1 => some (some (s + 1), buf1)
          | none => none
        else some (some (s + 1), poke (g.flush b s).1 (g.flush b s).2 0)
      else some (none, b))
    (fun l => rd l = q)
    (fun c => is_chartype c (if wnorm = true ∨ wconv = true then ct_parse_attr_ws
      else ct_parse_attr)) pre
    (fun n _ _ _ _ _ _ h hc => strconv_attribute_loop_skip esc wnorm wconv eol q n h hc)
    (fun c r hc => by
      rcases hc with hc | hc
      · rw [hc]; exact attr_class_zero wnorm wconv
      · rw [rd_cons] at hc; rw [hc]; exact attr_class_quote wnorm wconv hq)
    (fun n _ _ _ _ _ _ h hs hc0 hc => strconv_attribute_loop_step esc wnorm wconv eol q n hq h hs
      hc0 (by simpa using hc))
    (fun n _ _ _ _ _ h hd => strconv_attribute_loop_done esc wnorm wconv eol q n hq h hd)
    rest.length rest (le_refl _) n out buf s g hn h

/-! ## The end of `strconv_attribute` -/

theorem poke_append_length (a : List Nat) (t : Nat) (b : List Nat) (v : Nat) :
    poke (a ++ t :: b) a.length v = a ++ v :: b := by
  unfold poke
  rw [List.set_append_right _ _ (le_refl _)]
  simp

/-- The backward loop of `opt_wnorm` zeroes the whitespace that ends the text
and stops at the byte before it. -/
theorem wnorm_trim_spec (M : List Nat) (x : Nat) (hx : is_chartype x ct_space = false)
    (sp : List Nat) : (∀ c ∈ sp, is_chartype c ct_space = true) → ∀ (t : Nat) (B : List Nat),
      wnorm_trim (((M ++ [x]) ++ sp) ++ t :: B) ((M ++ [x]) ++ sp).length =
        some (((M ++ [x]) ++ List.replicate (sp.length + 1) 0) ++ B) := by
  induction sp using List.reverseRecOn with
  | nil =>
    intro _ t B
    have hl : ((M ++ [x]) ++ ([] : List Nat)).length = M.length + 1 := by simp
    rw [hl, wnorm_trim]
    have hb : poke (((M ++ [x]) ++ []) ++ t :: B) (M.length + 1) 0 = (M ++ [x]) ++ 0 :: B := by
      have := poke_append_length (M ++ [x]) t B 0
      simpa using this
    simp only [hb]
    have hp : peek ((M ++ [x]) ++ 0 :: B) M.length = x := by
      have := peek_append_length M (0 :: B) x
      simpa using this
    rw [hp, hx]
    simp
  | append_singleton sp y ih =>
    intro hsp t B
    have hy : is_chartype y ct_space = true := hsp y (by simp)
    have hsp' : ∀ c ∈ sp, is_chartype c ct_space = true := fun c hc => hsp c (by simp [hc])
    have hl : ((M ++ [x]) ++ (sp ++ [y])).length = ((M ++ [x]) ++ sp).length + 1 := by
      simp only [List.length_append, List.length_cons, List.length_nil]; omega
    rw [hl, wnorm_trim]
    have hb : poke (((M ++ [x]) ++ (sp ++ [y])) ++ t :: B) (((M ++ [x]) ++ sp).length + 1) 0 =
        (((M ++ [x]) ++ sp) ++ y :: 0 :: B) := by
      have := poke_append_length ((M ++ [x]) ++ (sp ++ [y])) t B 0
      rw [hl] at this
      rw [this]
      simp
    simp only [hb]
    rw [peek_append_length, hy, if_pos rfl, ih hsp' y (0 :: B)]
    congr 1
    simp only [List.length_append, List.length_cons, List.length_nil, List.append_assoc]
    rw [List.replicate_succ' (sp.length + 0 + 1) 0]
    simp

/-- Every text is a text that does not end in whitespace followed by
whitespace. -/
theorem trailing_ws (out : List Nat) :
    ∃ o sp : List Nat, out = o ++ sp ∧ (∀ c ∈ sp, is_chartype c ct_space = true) ∧
      (o = [] ∨ ∃ o1 y, o = o1 ++ [y] ∧ is_chartype y ct_space = false) := by
  induction out using List.reverseRecOn with
  | nil => exact ⟨[], [], rfl, by simp, Or.inl rfl⟩
  | append_singleton l y ih =>
    by_cases hy : is_chartype y ct_space = true
    · obtain ⟨o, sp, ho, hsp, hl⟩ := ih
      refine ⟨o, sp ++ [y], by rw [ho]; simp, ?_, hl⟩
      intro c hc
      rcases List.mem_append.mp hc with hc | hc
      · exact hsp c hc
      · rw [List.mem_singleton.mp hc]; exact hy
    · exact ⟨l ++ [y], [], by simp, by simp, Or.inr ⟨l, y, rfl, by simpa using hy⟩⟩

/-- The backward loop of `opt_wnorm` on the flushed text, when the byte before
the text is not whitespace. -/
theorem wnorm_trim_flush (p0 : List Nat) (x0 : Nat) (hx0 : is_chartype x0 ct_space = false)
    (out X post : List Nat) (q : Nat) :
    ∃ o sp Y : List Nat, out = o ++ sp ∧ (∀ c ∈ sp, is_chartype c ct_space = true) ∧
      (o = [] ∨ ∃ o1 y, o = o1 ++ [y] ∧ is_chartype y ct_space = false) ∧
      Y.length = sp.length + X.length ∧
      wnorm_trim ((p0 ++ [x0]) ++ (out ++ (X ++ q :: post))) ((p0 ++ [x0]).length + out.length) =
        some ((p0 ++ [x0]) ++ (o ++ 0 :: (Y ++ post))) := by
  obtain ⟨o, sp, ho, hsp, hl⟩ := trailing_ws out
  have hM : ∃ M x, (p0 ++ [x0]) ++ o = M ++ [x] ∧ is_chartype x ct_space = false := by
    rcases hl with hl | ⟨o1, y, hl, hy⟩
    · exact ⟨p0, x0, by rw [hl]; simp, hx0⟩
    · exact ⟨(p0 ++ [x0]) ++ o1, y, by rw [hl]; simp, hy⟩
  obtain ⟨M, x, hM, hx⟩ := hM
  have htB : ∃ (t : Nat) (B Y1 : List Nat), X ++ q :: post = t :: B ∧ B = Y1 ++ post ∧
      Y1.length = X.length := by
    cases X with
    | nil => exact ⟨q, post, [], rfl, rfl, rfl⟩
    | cons x1 X1 => exact ⟨x1, X1 ++ q :: post, X1 ++ [q], rfl, by simp, by simp⟩
  obtain ⟨t, B, Y1, htB, hB, hY1⟩ := htB
  refine ⟨o, sp, List.replicate sp.length 0 ++ Y1, ho, hsp, hl, by simp [hY1], ?_⟩
  have e1 : (p0 ++ [x0]) ++ (out ++ (X ++ q :: post)) = ((M ++ [x]) ++ sp) ++ t :: B := by
    rw [← hM, htB, ho]; simp
  have e2 : (p0 ++ [x0]).length + out.length = ((M ++ [x]) ++ sp).length := by
    rw [← hM, ho]; simp only [List.length_append]; omega
  rw [e1, e2, wnorm_trim_spec M x hx sp hsp t B, ← hM, hB, List.replicate_succ]
  simp

/-- Bytes that are no stop may stand before the first stop. -/
theorem FirstStop.shift {P : List Nat → Prop} {rest : List Nat} {j i : Nat}
    (hk : ∀ m, m < j → rd (rest.drop m) ≠ 0 ∧ ¬ P (rest.drop m))
    (h : FirstStop P (rest.drop j) i) : FirstStop P rest (j + i) := by
  have e : ∀ m, (rest.drop j).drop m = rest.drop (j + m) := fun m => by rw [List.drop_drop]
  refine ⟨by rw [← e]; exact h.1, ?_⟩
  intro m hm
  by_cases hmj : m < j
  · exact hk m hmj
  · have := h.2 (m - j) (by omega)
    rw [e, show j + (m - j) = m by omega] at this
    exact this

theorem quote_ne_zero {q : Nat} (hq : q = 34 ∨ q = 39) : q ≠ 0 := by
  rcases hq with hq | hq <;> subst hq <;> decide

/-- What `strconv_attribute` returns at the first NUL or closing quote. -/
theorem strconv_attribute_finish (wnorm : Bool) (q : Nat) (hq : q = 34 ∨ q = 39)
    (pre rest : List Nat)
    (hpre : wnorm = true → ∃ p0 x0, pre = p0 ++ [x0] ∧ is_chartype x0 ct_space = false)
    (i : Nat) (hi : i ≤ rest.length) (hfs : FirstStop (fun l => rd l = q) rest i)
    (out b : List Nat) (g : gap) (s : Nat) (hs : s = pre.length + i)
    (hinv : GapInv pre out (rest.drop i) b s g) :
    DecoderRun (fun l => rd l = q) 1 pre rest
      (if peek b s = q then
        if wnorm = true then
          match wnorm_trim (g.flush b s).1 (g.flush b s).2 with
          | some buf1 => some (some (s + 1), buf1)
          | none => none
        else some (some (s + 1), poke (g.flush b s).1 (g.flush b s).2 0)
      else some (none, b)) := by
  rw [hinv.peek_rd]
  refine ⟨i, hfs, hi, ?_⟩
  by_cases ht : rd (rest.drop i) = q
  · rw [if_pos ht]
    refine Or.inl ⟨ht, ?_⟩
    have hd := drop_cons_of_rd rest i q ht (quote_ne_zero hq)
    rw [hd] at hinv
    have hlen := hinv.out_length
    by_cases hwn : wnorm = true
    · rw [if_pos hwn]
      obtain ⟨p0, x0, hp, hx0⟩ := hpre hwn
      obtain ⟨X, hX, hf⟩ := hinv.flush
      rw [hf]
      subst hp
      obtain ⟨o, sp, Y, ho, _, _, hY, hw⟩ := wnorm_trim_flush p0 x0 hx0 out X (rest.drop (i + 1)) q
      simp only [hw]
      refine ⟨o, Y, ?_, by rw [hs]⟩
      have : out.length = o.length + sp.length := by rw [ho]; simp
      omega
    · rw [if_neg hwn]
      obtain ⟨Y, hY, hbuf, _⟩ := hinv.flush_poke
      exact ⟨out, Y, by omega, by rw [hbuf, hs]⟩
  · rw [if_neg ht]
    exact Or.inr ⟨ht, _, rfl⟩

/-- `strconv_attribute` on any input, under every setting of its options, for
a closing quote `'"'` or `'\''`.  Under `opt_wnorm` the byte before the value
is taken not to be whitespace: the backward loop that trims the value stops
at it. -/
theorem strconv_attribute_run (esc wnorm wconv eol : Bool) (q : Nat) (hq : q = 34 ∨ q = 39)
    (pre rest : List Nat)
    (hpre : wnorm = true → ∃ p0 x0, pre = p0 ++ [x0] ∧ is_chartype x0 ct_space = false) :
    DecoderRun (fun l => rd l = q) 1 pre rest
      (strconv_attribute esc wnorm wconv eol (pre ++ rest) pre.length q) := by
  have hinit := GapInv.init pre rest
  unfold strconv_attribute
  by_cases h0 : peek (pre ++ rest) pre.length = 0
  · rw [if_pos h0]
    have hr : rd rest = 0 := by rw [← hinit.peek_rd]; exact h0
    refine ⟨0, FirstStop.zero (Or.inl hr), Nat.zero_le _, Or.inr ⟨?_, _, rfl⟩⟩
    simp only [List.drop_zero, hr]
    exact fun h => quote_ne_zero hq h.symm
  · rw [if_neg h0]
    obtain ⟨j, hj, hsk, ha, _⟩ := skipWhile_spec ct_space (by decide) rest pre.length
    dsimp only
    rw [hinit.drop_eq, hsk]
    by_cases hw : wnorm = true ∧ pre.length + j ≠ pre.length
    · rw [if_pos hw, Nat.add_sub_cancel_left]
      obtain ⟨hp, hp2⟩ := hinit.push j hj
      obtain ⟨i, out', b', g', hfs, hi, hinv, hL⟩ :=
        strconv_attribute_loop_run esc wnorm wconv eol q hq pre (rest.drop j)
          ((pre ++ rest).length + 1) [] _ _ _ (by simp; omega) hp
      rw [hp2, hL]
      rw [List.drop_drop] at hinv
      have hsafe : ∀ m, m < j → rd (rest.drop m) ≠ 0 ∧ ¬ (fun l => rd l = q) (rest.drop m) := by
        intro m hm
        have := ha _ (rd_drop_mem_take rest m j hm hj)
        exact ⟨space_ne_zero this, space_not_quote hq this⟩
      have hi' : j + i ≤ rest.length := by
        have := hi
        rw [List.length_drop] at this
        omega
      exact strconv_attribute_finish wnorm q hq pre rest hpre (j + i) hi' (hfs.shift hsafe)
        out' b' g' (pre.length + j + i) (by omega) hinv
    · rw [if_neg hw]
      obtain ⟨i, out', b', g', hfs, hi, hinv, hL⟩ :=
        strconv_attribute_loop_run esc wnorm wconv eol q hq pre rest
          ((pre ++ rest).length + 1) [] _ _ _ (by simp; omega) hinit
      rw [hL]
      exact strconv_attribute_finish wnorm q hq pre rest hpre i hi hfs out' b' g'
        (pre.length + i) rfl hinv

/-! ## C11: a decoder fails exactly on input without its terminator -/

/-- `strconv_cdata` on `x]]>y`: the pointer returned is `2`, the position of
the second `']'`, and not `4`, the position after the terminator `]]>`. -/
theorem strconv_cdata_returns_inside_terminator :
    strconv_cdata [120, 93, 93, 62, 121] 0 = some (some 2, [120, 0, 93, 62, 121]) := by
  decide

/-- C11: each decoder, run at the position `pre.length` of the buffer
`pre ++ rest`, goes to the first index `i` of `rest` at which a NUL stands or
its terminator starts (`'<'` for `strconv_pcdata`, `-->` for
`strconv_comment`, `]]>` for `strconv_cdata`, the closing quote for
`strconv_attribute`).  It returns the null pointer exactly when no terminator
starts there; otherwise `strconv_pcdata` and `strconv_attribute` return the
position after the terminator byte, `strconv_comment` the position after
`-->`, and `strconv_cdata` the position after the first `']'` of `]]>`.  The
closing quote is `'"'` or `'\''`, and under `opt_wnorm` the byte before the
value is not whitespace, as the opening quote is. -/
theorem strconv_fail_iff_unterminated (esc wnorm wconv eol : Bool) (q : Nat)
    (pre rest : List Nat) (hq : q = 34 ∨ q = 39)
    (hpre : wnorm = true → ∃ p0 x0, pre = p0 ++ [x0] ∧ is_chartype x0 ct_space = false) :
    DecoderRun (fun l => rd l = 60) 1 pre rest
        (strconv_pcdata esc eol (pre ++ rest) pre.length) ∧
      DecoderRun (StartsWith3 45 45 62) 3 pre rest (strconv_comment (pre ++ rest) pre.length) ∧
      DecoderRun (StartsWith3 93 93 62) 1 pre rest (strconv_cdata (pre ++ rest) pre.length) ∧
      DecoderRun (fun l => rd l = q) 1 pre rest
        (strconv_attribute esc wnorm wconv eol (pre ++ rest) pre.length q) :=
  ⟨strconv_pcdata_run esc eol pre rest, strconv_comment_run pre rest,
    strconv_cdata_run pre rest, strconv_attribute_run esc wnorm wconv eol q hq pre rest hpre⟩

/-- The decoders on the bytes `a]]>b"c` after an opening quote, with every
option on: `strconv_pcdata` and `strconv_comment` find no terminator,
`strconv_cdata` and `strconv_attribute` do. -/
theorem strconv_fail_iff_unterminated_witness :
    (34 = 34 ∨ 34 = 39) ∧
      (∃ p0 x0, [34] = p0 ++ [x0] ∧ is_chartype x0 ct_space = false) ∧
      DecoderRun (fun l => rd l = 60) 1 [34] [97, 93, 93, 62, 98, 34, 99]
        (strconv_pcdata true true ([34] ++ [97, 93, 93, 62, 98, 34, 99]) [34].length) ∧
      DecoderRun (StartsWith3 45 45 62) 3 [34] [97, 93, 93, 62, 98, 34, 99]
        (strconv_comment ([34] ++ [97, 93, 93, 62, 98, 34, 99]) [34].length) ∧
      DecoderRun (StartsWith3 93 93 62) 1 [34] [97, 93, 93, 62, 98, 34, 99]
        (strconv_cdata ([34] ++ [97, 93, 93, 62, 98, 34, 99]) [34].length) ∧
      DecoderRun (fun l => rd l = 34) 1 [34] [97, 93, 93, 62, 98, 34, 99]
        (strconv_attribute true true true true ([34] ++ [97, 93, 93, 62, 98, 34, 99])
          [34].length 34) :=
  ⟨Or.inl rfl, ⟨[], 34, rfl, by decide⟩,
    strconv_fail_iff_unterminated true true true true 34 [34] [97, 93, 93, 62, 98, 34, 99]
      (Or.inl rfl) (fun _ => ⟨[], 34, rfl, by decide⟩)⟩

/-! ## C12: whitespace normalization of attribute values -/

theorem is_chartype_mod (c ct : Nat) : is_chartype (c % 256) ct = is_chartype c ct := by
  unfold is_chartype
  rw [Nat.mod_mod]

set_option maxRecDepth 100000 in
theorem is_chartype_space_table :
    ∀ c < 256, is_chartype c ct_space = true → is_chartype c ct_parse_attr_ws = true := by
  decide

/-- Whitespace is of the class that `strconv_attribute` scans for under
`opt_wnorm`. -/
theorem space_attr_ws {c : Nat} (h : is_chartype c ct_space = true) :
    is_chartype c ct_parse_attr_ws = true := by
  rw [← is_chartype_mod] at h ⊢
  exact is_chartype_space_table _ (Nat.mod_lt _ (by decide)) h

theorem collapse_ws_space (b : Bool) {c : Nat} (r : List Nat)
    (hc : is_chartype c ct_space = true) :
    collapse_ws b (c :: r) = if b = true then collapse_ws true r else 32 :: collapse_ws true r := by
  rw [collapse_ws, if_pos hc]

theorem collapse_ws_other (b : Bool) {c : Nat} (r : List Nat)
    (hc : is_chartype c ct_space = false) : collapse_ws b (c :: r) = c :: collapse_ws false r := by
  rw [collapse_ws, if_neg (by rw [hc]; exact Bool.false_ne_true)]

theorem collapse_ws_drop (k : Nat) : ∀ r : List Nat,
    (∀ x ∈ r.take k, is_chartype x ct_space = true) →
      collapse_ws true r = collapse_ws true (r.drop k) := by
  induction k with
  | zero => intro r _; rfl
  | succ k ih =>
    intro r h
    cases r with
    | nil => rfl
    | cons c r =>
      have hc : is_chartype c ct_space = true := h c (by simp)
      rw [collapse_ws_space true r hc, if_pos rfl, List.drop_succ_cons]
      exact ih r (fun x hx => h x (by rw [List.take_succ_cons]; exact List.mem_cons_of_mem _ hx))

theorem collapse_ws_flag (l t : List Nat) (h : is_chartype (rd (l ++ t)) ct_space = false) :
    collapse_ws true l = collapse_ws false l := by
  cases l with
  | nil => rfl
  | cons c r =>
    rw [List.cons_append, rd_cons] at h
    rw [collapse_ws_other true r h, collapse_ws_other false r h]

theorem mem_collapse_ws {x : Nat} : ∀ (v : List Nat) (b : Bool), x ∈ collapse_ws b v →
    x = 32 ∨ (is_chartype x ct_space = false ∧ x ∈ v) := by
  intro v
  induction v with
  | nil => intro b h; exact absurd h (List.not_mem_nil _)
  | cons c r ih =>
    intro b h
    by_cases hc : is_chartype c ct_space = true
    · rw [collapse_ws_space b r hc] at h
      have key : x ∈ collapse_ws true r → x = 32 ∨ (is_chartype x ct_space = false ∧ x ∈ c :: r) :=
        fun hx => (ih true hx).imp id (fun hh => ⟨hh.1, List.mem_cons_of_mem _ hh.2⟩)
      cases b with
      | true => exact key (by simpa using h)
      | false =>
        rw [if_neg Bool.false_ne_true] at h
        rcases List.mem_cons.mp h with h | h
        · exact Or.inl h
        · exact key h
    · have hc' : is_chartype c ct_space = false := by simpa using hc
      rw [collapse_ws_other b r hc'] at h
      rcases List.mem_cons.mp h with h | h
      · exact Or.inr ⟨by rw [h]; exact hc', by rw [h]; exact List.mem_cons_self _ _⟩
      · exact (ih false h).imp id (fun hh => ⟨hh.1, List.mem_cons_of_mem _ hh.2⟩)

theorem head_collapse_ws (v : List Nat) :
    ∀ x, (collapse_ws true v).head? = some x → is_chartype x ct_space = false := by
  induction v with
  | nil => intro x h; simp [collapse_ws] at h
  | cons c r ih =>
    intro x h
    by_cases hc : is_chartype c ct_space = true
    · rw [collapse_ws_space true r hc, if_pos rfl] at h
      exact ih x h
    · have hc' : is_chartype c ct_space = false := by simpa using hc
      rw [collapse_ws_other true r hc'] at h
      simp only [List.head?_cons, Option.some.injEq] at h
      rw [← h]; exact hc'

theorem chain_collapse_ws (v : List Nat) :
    ∀ b, List.Chain' (fun x y => ¬ (x = 32 ∧ y = 32)) (collapse_ws b v) := by
  induction v with
  | nil => intro b; simp [collapse_ws]
  | cons c r ih =>
    intro b
    by_cases hc : is_chartype c ct_space = true
    · rw [collapse_ws_space b r hc]
      cases b with
      | true => rw [if_pos rfl]; exact ih true
      | false =>
        rw [if_neg Bool.false_ne_true, List.chain'_cons']
        refine ⟨?_, ih true⟩
        intro y hy hh
        have := head_collapse_ws r y hy
        rw [hh.2] at this
        revert this
        decide
    · have hc' : is_chartype c ct_space = false := by simpa using hc
      rw [collapse_ws_other b r hc', List.chain'_cons']
      refine ⟨?_, ih false⟩
      intro y _ hh
      rw [hh.1] at hc'
      revert hc'
      decide

theorem filter_collapse_ws (v : List Nat) : ∀ b,
    (collapse_ws b v).filter (fun c => !is_chartype c ct_space) =
      v.filter (fun c => !is_chartype c ct_space) := by
  induction v with
  | nil => intro b; rfl
  | cons c r ih =>
    intro b
    by_cases hc : is_chartype c ct_space = true
    · rw [collapse_ws_space b r hc]
      have h32 : (!is_chartype 32 ct_space) = false := by decide
      cases b with
      | true => rw [if_pos rfl, ih true]; simp [hc]
      | false => rw [if_neg Bool.false_ne_true]; simp [hc, h32, ih true]
    · have hc' : is_chartype c ct_space = false := by simpa using hc
      rw [collapse_ws_other b r hc']
      simp [hc', ih false]

theorem attr_class_wnorm (wconv : Bool) :
    (if true = true ∨ wconv = true then ct_parse_attr_ws else ct_parse_attr) =
      ct_parse_attr_ws :=
  if_pos (Or.inl rfl)

/-- The loop of `strconv_attribute` under `opt_wnorm` at whitespace: one space
is written and the whitespace that follows is dropped. -/
theorem strconv_attribute_loop_wnorm_space (wconv eol : Bool) (q n : Nat)
    {pre out r buf : List Nat} {s c : Nat} {g : gap} (h : GapInv pre out (c :: r) buf s g)
    (hc : is_chartype c ct_space = true) :
    ∃ (k : Nat) (b' : List Nat) (g' : gap), k ≤ r.length ∧
      (∀ x ∈ r.take k, is_chartype x ct_space = true) ∧
      is_chartype (rd (r.drop k)) ct_space = false ∧
      GapInv pre (out ++ [32]) (r.drop k) b' (s + 1 + k) g' ∧
      strconv_attribute_loop false true wconv eol q (n + 1) buf s g =
        strconv_attribute_loop false true wconv eol q n b' (s + 1 + k) g' := by
  have hs : is_chartype (rd (c :: r))
      (if true = true ∨ wconv = true then ct_parse_attr_ws else ct_parse_attr) = true := by
    rw [attr_class_wnorm, rd_cons]; exact space_attr_ws hc
  have hstop := skipTo_halt _ h (Or.inr hs)
  have hp : peek buf s = c := h.peek_rd
  rw [strconv_attribute_loop_succ, hstop, if_neg (fun hh => Bool.false_ne_true hh.1)]
  beta_reduce
  rw [if_pos ⟨rfl, by rw [hp]; exact hc⟩]
  by_cases hnx : is_chartype (peek (poke buf s 32) (s + 1)) ct_space = true
  · rw [if_pos hnx]
    have hr : is_chartype (rd r) ct_space = true := by
      rw [← (h.write 32).peek_rd]; exact hnx
    obtain ⟨k, _, hk, hall, hend, hinv, hpos⟩ := h.ws_run hr
    exact ⟨k, _, _, hk, hall, hend, hinv, by rw [hpos]⟩
  · rw [if_neg hnx]
    have hr : is_chartype (rd r) ct_space = false := by
      rw [← (h.write 32).peek_rd]; simpa using hnx
    exact ⟨0, _, _, Nat.zero_le _, by simp, by simpa using hr, by simpa using h.write 32, rfl⟩

/-- The loop of `strconv_attribute` under `opt_wnorm` and without
`opt_escape` at a byte of the value that is not whitespace: the byte is kept. -/
theorem strconv_attribute_loop_wnorm_other (wconv eol : Bool) (q n : Nat)
    {pre out r buf : List Nat} {s c : Nat} {g : gap} (h : GapInv pre out (c :: r) buf s g)
    (hc : is_chartype c ct_space = false) (hc0 : c ≠ 0) (hcq : c ≠ q) :
    strconv_attribute_loop false true wconv eol q (n + 1) buf s g =
        strconv_attribute_loop false true wconv eol q n buf (s + 1) g ∨
      strconv_attribute_loop false true wconv eol q (n + 1) buf s g =
        strconv_attribute_loop false true wconv eol q (n + 1) buf (s + 1) g := by
  by_cases hs : is_chartype c
      (if true = true ∨ wconv = true then ct_parse_attr_ws else ct_parse_attr) = true
  · left
    have hstop := skipTo_halt _ h (Or.inr hs)
    have hp : peek buf s = c := h.peek_rd
    rw [strconv_attribute_loop_succ, hstop, if_neg (fun hh => Bool.false_ne_true hh.1)]
    beta_reduce
    rw [hp, hc, if_neg (fun hh => Bool.false_ne_true hh.2),
      if_neg (fun hh => Bool.false_ne_true hh.2)]
    have h13 : c ≠ 13 := by
      intro h13; rw [h13] at hc; revert hc; decide
    rw [if_neg (fun hh => h13 hh.2), if_neg hcq, if_neg hc0]
  · right
    exact strconv_attribute_loop_skip false true wconv eol q n h (by simpa using hs)

/-- The loop of `strconv_attribute` under `opt_wnorm` and without
`opt_escape` over a value `v` that is followed by the closing quote: it
writes `collapse_ws false v` and comes to the quote. -/
theorem strconv_attribute_loop_wnorm (wconv eol : Bool) (q : Nat) (hq : q = 34 ∨ q = 39)
    (pre post : List Nat) : ∀ (m : Nat) (v : List Nat), v.length ≤ m →
      (∀ c ∈ v, c ≠ 0 ∧ c ≠ q) → ∀ (n : Nat) (out buf : List Nat) (s : Nat) (g : gap),
      v.length < n → GapInv pre out (v ++ q :: post) buf s g →
      ∃ (b' : List Nat) (g' : gap),
        GapInv pre (out ++ collapse_ws false v) (q :: post) b' (s + v.length) g' ∧
        strconv_attribute_loop false true wconv eol q n buf s g =
          strconv_attribute_loop false true wconv eol q 1 b' (s + v.length) g' := by
  intro m
  induction m with
  | zero =>
    intro v hm _ n out buf s g hn h
    have hv : v = [] := List.length_eq_zero.mp (Nat.le_zero.mp hm)
    subst hv
    obtain ⟨n', rfl⟩ : ∃ n', n = n' + 1 := ⟨n - 1, by omega⟩
    refine ⟨buf, g, by simpa [collapse_ws] using h, ?_⟩
    have hd : rd (q :: post) = 0 ∨ rd (q :: post) = q := Or.inr rfl
    exact (strconv_attribute_loop_done false true wconv eol q n' hq h hd).trans
      (strconv_attribute_loop_done false true wconv eol q 0 hq h hd).symm
  | succ m ih =>
    intro v hm hv n out buf s g hn h
    cases v with
    | nil => exact ih [] (Nat.zero_le _) hv n out buf s g hn h
    | cons c r =>
      have hr : ∀ x ∈ r, x ≠ 0 ∧ x ≠ q := fun x hx => hv x (List.mem_cons_of_mem _ hx)
      have hlen : r.length ≤ m := by simpa using hm
      rw [List.cons_append] at h
      by_cases hc : is_chartype c ct_space = true
      · obtain ⟨n', rfl⟩ : ∃ n', n = n' + 1 := ⟨n - 1, by omega⟩
        obtain ⟨k, b1, g1, hk, hall, hend, hinv, hL⟩ :=
          strconv_attribute_loop_wnorm_space wconv eol q n' h hc
        have hkr : k ≤ r.length := by
          by_contra hcon
          have hmem := rd_drop_mem_take (r ++ q :: post) r.length k (by omega) hk
          rw [List.drop_left] at hmem
          exact space_not_quote hq (hall _ hmem) rfl
        rw [List.drop_append_of_le_length hkr] at hinv hend
        rw [List.take_append_of_le_length hkr] at hall
        obtain ⟨b', g', hinv', hL'⟩ := ih (r.drop k) (by rw [List.length_drop]; omega)
          (fun x hx => hr x (List.mem_of_mem_drop hx)) n' _ b1 _ g1
          (by rw [List.length_drop]; simp only [List.length_cons] at hn; omega) hinv
        have hcol : collapse_ws false (c :: r) = 32 :: collapse_ws false (r.drop k) := by
          rw [collapse_ws_space false r hc, if_neg Bool.false_ne_true, collapse_ws_drop k r hall,
            collapse_ws_flag _ _ hend]
        have hpos : s + 1 + k + (r.drop k).length = s + (c :: r).length := by
          rw [List.length_drop]; simp only [List.length_cons]; omega
        rw [hpos] at hinv' hL'
        refine ⟨b', g', ?_, hL.trans hL'⟩
        rw [hcol]
        simpa using hinv'
      · have hc' : is_chartype c ct_space = false := by simpa using hc
        have hadv := h.advance
        have hcol : collapse_ws false (c :: r) = c :: collapse_ws false r :=
          collapse_ws_other false r hc'
        have hpos : s + 1 + r.length = s + (c :: r).length := by
          simp only [List.length_cons]; omega
        obtain ⟨n', rfl⟩ : ∃ n', n = n' + 1 := ⟨n - 1, by omega⟩
        rcases strconv_attribute_loop_wnorm_other wconv eol q n' h hc' (hv c (by simp)).1
          (hv c (by simp)).2 with hL | hL
        · obtain ⟨b', g', hinv', hL'⟩ := ih r hlen hr n' _ buf _ g
            (by simp only [List.length_cons] at hn; omega) hadv
          rw [hpos] at hinv' hL'
          refine ⟨b', g', ?_, hL.trans hL'⟩
          rw [hcol]
          simpa using hinv'
        · obtain ⟨b', g', hinv', hL'⟩ := ih r hlen hr (n' + 1) _ buf _ g
            (by simp only [List.length_cons] at hn; omega) hadv
          rw [hpos] at hinv' hL'
          refine ⟨b', g', ?_, hL.trans hL'⟩
          rw [hcol]
          simpa using hinv'

/-- What `strconv_attribute` returns under `opt_wnorm` at the closing quote:
the text written, without the whitespace that ends it. -/
theorem strconv_attribute_loop_wnorm_done (esc wconv eol : Bool) (q n : Nat)
    (hq : q = 34 ∨ q = 39) (p0 : List Nat) (x0 : Nat) (hx0 : is_chartype x0 ct_space = false)
    {out post buf : List Nat} {s : Nat} {g : gap}
    (h : GapInv (p0 ++ [x0]) out (q :: post) buf s g) :
    ∃ o sp Y : List Nat, out = o ++ sp ∧ (∀ c ∈ sp, is_chartype c ct_space = true) ∧
      (o = [] ∨ ∃ o1 y, o = o1 ++ [y] ∧ is_chartype y ct_space = false) ∧
      strconv_attribute_loop esc true wconv eol q (n + 1) buf s g =
        some (some (s + 1), (p0 ++ [x0]) ++ (o ++ 0 :: (Y ++ post))) := by
  obtain ⟨X, _, hf⟩ := h.flush
  obtain ⟨o, sp, Y, ho, hsp, hl, _, hw⟩ := wnorm_trim_flush p0 x0 hx0 out X post q
  refine ⟨o, sp, Y, ho, hsp, hl, ?_⟩
  rw [strconv_attribute_loop_done esc true wconv eol q n hq h (Or.inr rfl),
    if_pos (by rw [h.peek_rd]; rfl), if_pos rfl, hf]
  simp only [hw]

/-- `strconv_attribute` with `opt_wnorm` and without `opt_escape` on a value
`v` that is followed by its closing quote: the text in the buffer is
`collapse_ws true v` without the whitespace that ends it. -/
theorem strconv_attribute_wnorm_text (wconv eol : Bool) (q : Nat) (hq : q = 34 ∨ q = 39)
    (p0 : List Nat) (x0 : Nat) (hx0 : is_chartype x0 ct_space = false) (v post : List Nat)
    (hv : ∀ c ∈ v, c ≠ 0 ∧ c ≠ q) :
    ∃ o sp Y : List Nat, collapse_ws true v = o ++ sp ∧
      (∀ c ∈ sp, is_chartype c ct_space = true) ∧
      (o = [] ∨ ∃ o1 y, o = o1 ++ [y] ∧ is_chartype y ct_space = false) ∧
      strconv_attribute false true wconv eol ((p0 ++ [x0]) ++ (v ++ q :: post))
          (p0 ++ [x0]).length q =
        some (some ((p0 ++ [x0]).length + v.length + 1),
          (p0 ++ [x0]) ++ (o ++ 0 :: (Y ++ post))) := by
  have hinit := GapInv.init (p0 ++ [x0]) (v ++ q :: post)
  have h0 : peek ((p0 ++ [x0]) ++ (v ++ q :: post)) (p0 ++ [x0]).length ≠ 0 := by
    rw [hinit.peek_rd]
    cases v with
    | nil => exact quote_ne_zero hq
    | cons c r => exact (hv c (by simp)).1
  obtain ⟨j, hj, hsk, ha, hb⟩ :=
    skipWhile_spec ct_space (by decide) (v ++ q :: post) (p0 ++ [x0]).length
  have hjv : j ≤ v.length := by
    by_contra hcon
    have hmem := rd_drop_mem_take (v ++ q :: post) v.length j (by omega) hj
    rw [List.drop_left] at hmem
    exact space_not_quote hq (ha _ hmem) rfl
  rw [List.drop_append_of_le_length hjv] at hb
  rw [List.take_append_of_le_length hjv] at ha
  have hcol : collapse_ws true v = collapse_ws false (v.drop j) := by
    rw [collapse_ws_drop j v ha, collapse_ws_flag _ _ hb]
  have hvd : ∀ c ∈ v.drop j, c ≠ 0 ∧ c ≠ q := fun x hx => hv x (List.mem_of_mem_drop hx)
  have hfuel : (v.drop j).length < ((p0 ++ [x0]) ++ (v ++ q :: post)).length + 1 := by
    rw [List.length_drop]
    simp only [List.length_append, List.length_cons]
    omega
  have hpos : ∀ a : Nat, a + j + (v.drop j).length = a + v.length := by
    intro a; rw [List.length_drop]; omega
  unfold strconv_attribute
  rw [if_neg h0]
  dsimp only
  rw [hinit.drop_eq, hsk]
  by_cases hw : true = true ∧ (p0 ++ [x0]).length + j ≠ (p0 ++ [x0]).length
  · rw [if_pos hw, Nat.add_sub_cancel_left]
    obtain ⟨hp, hp2⟩ := hinit.push j hj
    rw [List.drop_append_of_le_length hjv] at hp
    obtain ⟨b', g', hinv, hL⟩ := strconv_attribute_loop_wnorm wconv eol q hq (p0 ++ [x0]) post
      (v.drop j).length (v.drop j) (le_refl _) hvd _ [] _ _ _ hfuel hp
    rw [hp2, hL]
    rw [hpos] at hinv ⊢
    obtain ⟨o, sp, Y, ho, hsp, hl, hres⟩ :=
      strconv_attribute_loop_wnorm_done false wconv eol q 0 hq p0 x0 hx0 hinv
    refine ⟨o, sp, Y, by rw [hcol]; simpa using ho, hsp, hl, hres⟩
  · rw [if_neg hw]
    have hj0 : j = 0 := by
      by_contra hcon
      exact hw ⟨rfl, by omega⟩
    subst hj0
    obtain ⟨b', g', hinv, hL⟩ := strconv_attribute_loop_wnorm wconv eol q hq (p0 ++ [x0]) post
      v.length v (le_refl _) hv (((p0 ++ [x0]) ++ (v ++ q :: post)).length + 1) [] _ _ _
      (by simp only [List.length_append, List.length_cons]; omega) hinit
    rw [hL]
    obtain ⟨o, sp, Y, ho, hsp, hl, hres⟩ :=
      strconv_attribute_loop_wnorm_done false wconv eol q 0 hq p0 x0 hx0 hinv
    refine ⟨o, sp, Y, by rw [hcol]; simpa using ho, hsp, hl, hres⟩

/-- C12: `strconv_attribute` with `opt_wnorm` on and `opt_escape` off, under
every setting of `opt_wconv` and `opt_eol`, run on a value `v` (bytes other
than NUL and the quote) that is followed by its closing quote `q` and stands
after a byte that is not whitespace, as the opening quote is.  It returns the
position after the closing quote, and the NUL-terminated text it leaves at
the start of the value neither starts nor ends with whitespace, holds no
`'\r'`, `'\n'` or tab, holds no two spaces in a row, and has the bytes of `v`
that are not whitespace, in their order. -/
theorem strconv_attribute_wnorm (wconv eol : Bool) (q : Nat) (hq : q = 34 ∨ q = 39)
    (p0 : List Nat) (x0 : Nat) (hx0 : is_chartype x0 ct_space = false) (v post : List Nat)
    (hv : ∀ c ∈ v, c ≠ 0 ∧ c ≠ q) :
    ∃ b : List Nat,
      strconv_attribute false true wconv eol ((p0 ++ [x0]) ++ (v ++ q :: post))
          (p0 ++ [x0]).length q = some (some ((p0 ++ [x0]).length + v.length + 1), b) ∧
      (∀ c, (cstrAt b (p0 ++ [x0]).length).head? = some c → is_chartype c ct_space = false) ∧
      (∀ c, (cstrAt b (p0 ++ [x0]).length).getLast? = some c →
        is_chartype c ct_space = false) ∧
      (∀ c ∈ cstrAt b (p0 ++ [x0]).length, c ≠ 13 ∧ c ≠ 10 ∧ c ≠ 9) ∧
      List.Chain' (fun x y => ¬ (x = 32 ∧ y = 32)) (cstrAt b (p0 ++ [x0]).length) ∧
      (cstrAt b (p0 ++ [x0]).length).filter (fun c => !is_chartype c ct_space) =
        v.filter (fun c => !is_chartype c ct_space) := by
  obtain ⟨o, sp, Y, ho, hsp, hl, hres⟩ :=
    strconv_attribute_wnorm_text wconv eol q hq p0 x0 hx0 v post hv
  have hmem : ∀ c ∈ o, c = 32 ∨ (is_chartype c ct_space = false ∧ c ∈ v) := fun c hc =>
    mem_collapse_ws v true (by rw [ho]; exact List.mem_append_left _ hc)
  have hnz : ∀ c ∈ o, c ≠ 0 := by
    intro c hc
    rcases hmem c hc with h | h
    · rw [h]; decide
    · exact (hv c h.2).1
  refine ⟨_, hres, ?_⟩
  rw [cstrAt_result (p0 ++ [x0]) o (Y ++ post) hnz]
  refine ⟨?_, ?_, ?_, ?_, ?_⟩
  · intro c hc
    apply head_collapse_ws v c
    rw [ho]
    cases o with
    | nil => simp at hc
    | cons a o => simpa using hc
  · intro c hc
    rcases hl with hl | ⟨o1, y, hl, hy⟩
    · rw [hl] at hc; simp at hc
    · rw [hl, List.getLast?_append, List.getLast?_singleton] at hc
      have hyc : y = c := by simpa using hc
      rw [← hyc]; exact hy
  · intro c hc
    rcases hmem c hc with h | h
    · rw [h]; decide
    · have h1 := h.1
      refine ⟨?_, ?_, ?_⟩ <;> intro hh <;> rw [hh] at h1 <;> revert h1 <;> decide
  · have := chain_collapse_ws v true
    rw [ho] at this
    exact this.left_of_append
  · have := filter_collapse_ws v true
    rw [ho, List.filter_append] at this
    have hsp0 : sp.filter (fun c => !is_chartype c ct_space) = [] := by
      rw [List.filter_eq_nil_iff]
      intro c hc
      simp [hsp c hc]
    rw [hsp0, List.append_nil] at this
    exact this

/-- The value `"  a \t b\r\n"` between double quotes is left as `"a b"`. -/
theorem strconv_attribute_wnorm_witness :
    (34 = 34 ∨ 34 = 39) ∧ is_chartype 34 ct_space = false ∧
      (∀ c ∈ [32, 32, 97, 32, 9, 98, 13, 10], c ≠ 0 ∧ c ≠ 34) ∧
      ∃ b : List Nat,
        strconv_attribute false true false true
            (([61] ++ [34]) ++ ([32, 32, 97, 32, 9, 98, 13, 10] ++ 34 :: [62]))
            ([61] ++ [34]).length 34 =
          some (some (([61] ++ [34]).length + [32, 32, 97, 32, 9, 98, 13, 10].length + 1), b) ∧
        (∀ c, (cstrAt b ([61] ++ [34]).length).head? = some c →
          is_chartype c ct_space = false) ∧
        (∀ c, (cstrAt b ([61] ++ [34]).length).getLast? = some c →
          is_chartype c ct_space = false) ∧
        (∀ c ∈ cstrAt b ([61] ++ [34]).length, c ≠ 13 ∧ c ≠ 10 ∧ c ≠ 9) ∧
        List.Chain' (fun x y => ¬ (x = 32 ∧ y = 32)) (cstrAt b ([61] ++ [34]).length) ∧
        (cstrAt b ([61] ++ [34]).length).filter (fun c => !is_chartype c ct_space) =
          [32, 32, 97, 32, 9, 98, 13, 10].filter (fun c => !is_chartype c ct_space) :=
  ⟨Or.inl rfl, by decide, by decide,
    strconv_attribute_wnorm false true 34 (Or.inl rfl) [61] 34 (by decide)
      [32, 32, 97, 32, 9, 98, 13, 10] [62] (by decide)⟩

/-- The run of the witness of C12, evaluated. -/
theorem strconv_attribute_wnorm_example :
    strconv_attribute false true false true [61, 34, 32, 32, 97, 32, 9, 98, 13, 10, 34, 62] 2 34 =
      some (some 11, [61, 34, 97, 32, 98, 0, 0, 98, 32, 10, 34, 62]) := by
  decide

/-! ## C14: comments, CDATA sections and processing instructions without end -/

theorem FirstStop.of_cons {P : List Nat → Prop} {x : Nat} {r : List Nat} {i : Nat}
    (h : FirstStop P (x :: r) (i + 1)) : FirstStop P r i :=
  ⟨by simpa using h.1, fun j hj => by simpa using h.2 (j + 1) (by omega)⟩

theorem FirstStop.head {P : List Nat → Prop} {x : Nat} {r : List Nat} {i : Nat}
    (h : FirstStop P (x :: r) (i + 1)) : x ≠ 0 ∧ ¬ P (x :: r) := by
  simpa using h.2 0 (by omega)

theorem FirstStop.nil {P : List Nat → Prop} {i : Nat} (h : FirstStop P [] i) : i = 0 := by
  by_contra hi
  have := (h.2 0 (by omega)).1
  simp at this

/-- At the first stop of bytes without terminator stands the NUL. -/
theorem FirstStop.rd_zero {P : List Nat → Prop} {l : List Nat} {i : Nat}
    (h : FirstStop P l i) (hP : ¬ P (l.drop i)) : rd (l.drop i) = 0 :=
  h.1.resolve_right hP

/-- The first stop is not among bytes that are not NUL, when no terminator
starts there. -/
theorem FirstStop.le_of_nz {P : List Nat → Prop} {l : List Nat} {i k : Nat}
    (h : FirstStop P l i) (hP : ¬ P (l.drop i)) (hk : ∀ j, j < k → rd (l.drop j) ≠ 0) :
    k ≤ i := by
  by_contra hcon
  exact hk i (by omega) (h.rd_zero hP)

theorem FirstStop.drop {P : List Nat → Prop} {l : List Nat} {i k : Nat}
    (h : FirstStop P l i) (hk : k ≤ i) : FirstStop P (l.drop k) (i - k) := by
  have e : ∀ m, (l.drop k).drop m = l.drop (k + m) := fun m => by rw [List.drop_drop]
  refine ⟨by rw [e, show k + (i - k) = i by omega]; exact h.1, ?_⟩
  intro j hj
  rw [e]
  exact h.2 (k + j) (by omega)

theorem Unterminated.drop_nz {P : List Nat → Prop} {l : List Nat} {k : Nat}
    (h : Unterminated P l) (hk : ∀ j, j < k → rd (l.drop j) ≠ 0) :
    Unterminated P (l.drop k) := by
  obtain ⟨i, hfs, hP⟩ := h
  have hki := hfs.le_of_nz hP hk
  refine ⟨i - k, hfs.drop hki, ?_⟩
  rw [List.drop_drop, show k + (i - k) = i by omega]
  exact hP

theorem peek_cons_succ (x : Nat) (r : List Nat) (n : Nat) : peek (x :: r) (n + 1) = peek r n := rfl

theorem peek_one (r : List Nat) : peek r 1 = rd r.tail := by
  cases r with
  | nil => rfl
  | cons y t => rw [peek_cons_succ, List.tail_cons, rd_eq_peek]

theorem startsWith3_cons (a b c x : Nat) (r : List Nat) :
    StartsWith3 a b c (x :: r) ↔ x = a ∧ rd r = b ∧ rd r.tail = c := by
  unfold StartsWith3
  rw [peek_cons_zero, peek_cons_succ, peek_cons_succ, ← rd_eq_peek, peek_one]

theorem startsWith2_cons (a b x : Nat) (r : List Nat) :
    StartsWith2 a b (x :: r) ↔ x = a ∧ rd r = b := by
  unfold StartsWith2
  rw [peek_cons_zero, peek_cons_succ, ← rd_eq_peek]

/-- `SCANFOR` for a terminator of three bytes stops at the first NUL or
terminator. -/
theorem scanfor3_spec (a b c : Nat) : ∀ (l : List Nat) (i s : Nat),
    FirstStop (StartsWith3 a b c) l i → scanfor3 a b c l s = s + i := by
  intro l
  induction l with
  | nil => intro i s h; rw [h.nil]; rfl
  | cons x r ih =>
    intro i s h
    rw [scanfor3]
    cases i with
    | zero =>
      rcases h.1 with h0 | hP
      · rw [if_pos (by simpa using h0)]; rfl
      · by_cases hx : x = 0
        · rw [if_pos hx]; rfl
        · rw [if_neg hx, if_pos ((startsWith3_cons a b c x r).mp (by simpa using hP))]; rfl
    | succ i =>
      obtain ⟨hx, hP⟩ := h.head
      rw [if_neg hx, if_neg (fun hh => hP ((startsWith3_cons a b c x r).mpr hh)),
        ih i (s + 1) h.of_cons]
      omega

/-- `SCANFOR` for a terminator of two bytes stops at the first NUL or
terminator. -/
theorem scanfor2_spec (a b : Nat) : ∀ (l : List Nat) (i s : Nat),
    FirstStop (StartsWith2 a b) l i → scanfor2 a b l s = s + i := by
  intro l
  induction l with
  | nil => intro i s h; rw [h.nil]; rfl
  | cons x r ih =>
    intro i s h
    rw [scanfor2]
    cases i with
    | zero =>
      rcases h.1 with h0 | hP
      · rw [if_pos (by simpa using h0)]; rfl
      · by_cases hx : x = 0
        · rw [if_pos hx]; rfl
        · rw [if_neg hx, if_pos ((startsWith2_cons a b x r).mp (by simpa using hP))]; rfl
    | succ i =>
      obtain ⟨hx, hP⟩ := h.head
      rw [if_neg hx, if_neg (fun hh => hP ((startsWith2_cons a b x r).mpr hh)),
        ih i (s + 1) h.of_cons]
      omega

/-- The scan for a terminator of three bytes comes to the NUL when the bytes
have no terminator. -/
theorem scanfor3_unterminated (a b c : Nat) (buf : List Nat) (s : Nat)
    (h : Unterminated (StartsWith3 a b c) (buf.drop s)) :
    peek buf (scanfor3 a b c (buf.drop s) s) = 0 := by
  obtain ⟨i, hfs, hP⟩ := h
  rw [scanfor3_spec a b c _ i s hfs, ← peek_drop, ← rd_drop]
  exact hfs.rd_zero hP

/-- The scan for a terminator of two bytes comes to the NUL when the bytes have
no terminator. -/
theorem scanfor2_unterminated (a b : Nat) (buf : List Nat) (s : Nat)
    (h : Unterminated (StartsWith2 a b) (buf.drop s)) :
    peek buf (scanfor2 a b (buf.drop s) s) = 0 := by
  obtain ⟨i, hfs, hP⟩ := h
  rw [scanfor2_spec a b _ i s hfs, ← peek_drop, ← rd_drop]
  exact hfs.rd_zero hP

/-- A decoder that runs on bytes without its terminator returns the null
pointer. -/
theorem DecoderRun.unterminated {P : List Nat → Prop} {off : Nat} {pre rest : List Nat}
    {res : Option (Option Nat × List Nat)} (h : DecoderRun P off pre rest res)
    (hu : Unterminated P rest) : ∃ b, res = some (none, b) := by
  obtain ⟨i, hfs, _, hres⟩ := h
  obtain ⟨j, hfs', hP⟩ := hu
  have hij := hfs.unique hfs'
  subst hij
  rcases hres with ⟨hP', _⟩ | ⟨_, hb⟩
  · exact absurd hP' hP
  · exact hb

theorem strconv_comment_unterminated (buf : List Nat) (s : Nat) (hs : s ≤ buf.length)
    (h : Unterminated (StartsWith3 45 45 62) (buf.drop s)) :
    ∃ b, strconv_comment buf s = some (none, b) := by
  have := strconv_comment_run (buf.take s) (buf.drop s)
  rw [List.take_append_drop, List.length_take, Nat.min_eq_left hs] at this
  exact this.unterminated h

theorem strconv_cdata_unterminated (buf : List Nat) (s : Nat) (hs : s ≤ buf.length)
    (h : Unterminated (StartsWith3 93 93 62) (buf.drop s)) :
    ∃ b, strconv_cdata buf s = some (none, b) := by
  have := strconv_cdata_run (buf.take s) (buf.drop s)
  rw [List.take_append_drop, List.length_take, Nat.min_eq_left hs] at this
  exact this.unterminated h

/-- A comment without `-->` makes the parser return `false`. -/
theorem parse_comment_fail (o : parse_options) (st : parse_state) (hs : st.s ≤ st.buf.length)
    (hu : Unterminated (StartsWith3 45 45 62) (st.buf.drop st.s)) :
    parse_comment o st = some none := by
  obtain ⟨b, hb⟩ := strconv_comment_unterminated st.buf st.s hs hu
  have hsc := scanfor3_unterminated 45 45 62 st.buf st.s hu
  unfold parse_comment
  cases hcm : o.parse_comments <;> cases heol : o.parse_eol <;>
    simp [set_cursor_value, PUSHNODE, hb, hsc]

/-- A CDATA section without `]]>` makes the parser return `false`. -/
theorem parse_cdata_tag_fail (o : parse_options) (st : parse_state) (hs : st.s ≤ st.buf.length)
    (hu : Unterminated (StartsWith3 93 93 62) (st.buf.drop st.s)) :
    parse_cdata_tag o st = some none := by
  obtain ⟨b, hb⟩ := strconv_cdata_unterminated st.buf st.s hs hu
  have hsc := scanfor3_unterminated 93 93 62 st.buf st.s hu
  unfold parse_cdata_tag
  cases hcd : o.parse_cdata <;> cases heol : o.parse_eol <;>
    simp [set_cursor_value, PUSHNODE, hb, hsc]

theorem drop_poke_lt (buf : List Nat) (i j v : Nat) (h : i < j) :
    (poke buf i v).drop j = buf.drop j := by
  unfold poke
  exact List.drop_set_of_lt v buf h

theorem peek_poke_ne (buf : List Nat) (i j v : Nat) (h : i ≠ j) :
    peek (poke buf i v) j = peek buf j := by
  unfold peek poke
  rw [List.getD_eq_getElem?_getD, List.getD_eq_getElem?_getD, List.getElem?_set_ne h]

/-- A processing instruction without `?>` makes the parser return `false`. -/
theorem parse_pi_tag_fail (o : parse_options) (st : parse_state)
    (hu : Unterminated (StartsWith2 63 62) (st.buf.drop st.s)) :
    parse_pi_tag o st = some none := by
  unfold parse_pi_tag
  by_cases hss : is_chartype (peek st.buf st.s) ct_start_symbol = false
  · rw [if_pos hss]
  rw [if_neg hss]
  cases hpi : o.parse_pi
  · rw [if_neg Bool.false_ne_true]
    dsimp only
    rw [if_pos (scanfor2_unterminated 63 62 st.buf st.s hu)]
  rw [if_pos rfl]
  obtain ⟨j, hj, hsk, ha, _⟩ := skipWhile_spec ct_symbol (by decide) (st.buf.drop st.s) st.s
  dsimp only
  rw [hsk]
  by_cases h1 : peek st.buf (st.s + j) = 0
  · rw [if_pos h1]
  rw [if_neg h1]
  by_cases h2 : is_chartype (peek st.buf (st.s + j)) ct_space = false ∧
      peek st.buf (st.s + j) ≠ 63
  · rw [if_pos h2]
  rw [if_neg h2]
  by_cases h3 : peek (poke st.buf (st.s + j) 0) (st.s + j + 1) = 0
  · rw [if_pos h3]
  rw [if_neg h3]
  have hnz : ∀ m, m < j + 1 → rd ((st.buf.drop st.s).drop m) ≠ 0 := by
    intro m hm
    by_cases hmj : m < j
    · exact symbol_ne_zero (ha _ (rd_drop_mem_take _ m j hmj hj))
    · have : m = j := by omega
      subst this
      rw [rd_drop, peek_drop]
      exact h1
  have hu1 : Unterminated (StartsWith2 63 62) ((poke st.buf (st.s + j) 0).drop (st.s + j + 1)) := by
    rw [drop_poke_lt _ _ _ _ (by omega)]
    have := hu.drop_nz hnz
    rwa [List.drop_drop, ← Nat.add_assoc] at this
  by_cases h4 : peek st.buf (st.s + j) = 63
  · rw [if_pos h4]
    have h5 : peek (poke st.buf (st.s + j) 0) (st.s + j + 1) ≠ 62 := by
      intro h5
      rw [peek_poke_ne _ _ _ _ (by omega)] at h5
      obtain ⟨i, hfs, hP⟩ := hu
      have hji : j + 1 ≤ i := hfs.le_of_nz hP hnz
      apply (hfs.2 j (by omega)).2
      refine ⟨?_, ?_⟩
      · rw [peek_drop, peek_drop]; exact h4
      · rw [peek_drop, peek_drop, ← Nat.add_assoc]; exact h5
    rw [if_pos h5]
  rw [if_neg h4]
  have hsp : is_chartype (peek st.buf (st.s + j)) ct_space = true := by
    by_contra hcon
    exact h2 ⟨by simpa using hcon, h4⟩
  by_cases h6 : is_xml_target (poke st.buf (st.s + j) 0) st.s = true
  · rw [if_pos h6]
    rw [if_pos (scanfor2_unterminated 63 62 _ _ hu1)]
  rw [if_neg h6, if_pos hsp]
  obtain ⟨j2, hj2, hsk2, ha2, _⟩ := skipWhile_spec ct_space (by decide)
    ((poke st.buf (st.s + j) 0).drop (st.s + j + 1)) (st.s + j + 1)
  rw [hsk2]
  by_cases h7 : is_chartype (peek st.buf (st.s + j)) ct_space = true ∧
      peek (poke st.buf (st.s + j) 0) (st.s + j + 1 + j2) = 0
  · rw [if_pos h7]
  rw [if_neg h7]
  have hu2 : Unterminated (StartsWith2 63 62)
      ((poke st.buf (st.s + j) 0).drop (st.s + j + 1 + j2)) := by
    have := hu1.drop_nz (k := j2)
      (fun m hm => space_ne_zero (ha2 _ (rd_drop_mem_take _ m j2 hm hj2)))
    rwa [List.drop_drop] at this
  rw [if_pos (scanfor2_unterminated 63 62 _ _ hu2)]

theorem peek_of_drop {buf l : List Nat} {s : Nat} (h : buf.drop s = l) (k : Nat) :
    peek buf (s + k) = peek l k := by
  rw [← h, peek_drop]

theorem drop_of_drop {buf l : List Nat} {s : Nat} (h : buf.drop s = l) (k : Nat) :
    buf.drop (s + k) = l.drop k := by
  rw [← h, List.drop_drop]

theorem le_length_of_drop {buf l : List Nat} {s : Nat} (h : buf.drop s = l) (k : Nat)
    (hk : k ≤ l.length) (hk0 : 0 < k) : s + k ≤ buf.length := by
  have := congrArg List.length h
  rw [List.length_drop] at this
  omega

/-- C14: when the parser is at the label `LOC_TAG`, after a `'<'`, and the
bytes from there on are `!--`, `![CDATA[` or `?` followed by bytes in which
the end of input, a NUL, comes before any `-->`, `]]>` or `?>`, it returns
`false` under every option mask; the main loop, which comes to the label at a
`'<'`, fails with it. -/
theorem parse_unterminated (o : parse_options) (st : parse_state) (body : List Nat)
    (h : (st.buf.drop st.s = 33 :: 45 :: 45 :: body ∧
          Unterminated (StartsWith3 45 45 62) body) ∨
        (st.buf.drop st.s = 33 :: 91 :: 67 :: 68 :: 65 :: 84 :: 65 :: 91 :: body ∧
          Unterminated (StartsWith3 93 93 62) body) ∨
        (st.buf.drop st.s = 63 :: body ∧ Unterminated (StartsWith2 63 62) body)) :
    parse_tag o st = some none ∧
      ∀ (n : Nat) (st0 : parse_state), peek st0.buf st0.s = 60 →
        { st0 with s := st0.s + 1 } = st → parse_loop o (n + 1) st0 = some none := by
  have key : parse_tag o st = some none := by
    rcases h with ⟨hb, hu⟩ | ⟨hb, hu⟩ | ⟨hb, hu⟩
    · have p0 : peek st.buf st.s = 33 := peek_of_drop hb 0
      have p1 : peek st.buf (st.s + 1) = 45 := peek_of_drop hb 1
      have p2 : peek st.buf (st.s + 1 + 1) = 45 := peek_of_drop hb 2
      rw [parse_tag, if_neg (by rw [p0]; decide), if_pos p0, parse_exclam]
      dsimp only
      rw [if_pos p1, if_pos p2]
      apply parse_comment_fail
      · exact le_length_of_drop hb 3 (by simp) (by decide)
      · show Unterminated _ (st.buf.drop (st.s + 3))
        rw [drop_of_drop hb 3]
        exact hu
    · have p0 : peek st.buf st.s = 33 := peek_of_drop hb 0
      have p1 : peek st.buf (st.s + 1) = 91 := peek_of_drop hb 1
      have p2 : peek st.buf (st.s + 1 + 1) = 67 := peek_of_drop hb 2
      have p3 : peek st.buf (st.s + 1 + 2) = 68 := peek_of_drop hb 3
      have p4 : peek st.buf (st.s + 1 + 3) = 65 := peek_of_drop hb 4
      have p5 : peek st.buf (st.s + 1 + 4) = 84 := peek_of_drop hb 5
      have p6 : peek st.buf (st.s + 1 + 5) = 65 := peek_of_drop hb 6
      have p7 : peek st.buf (st.s + 1 + 6) = 91 := peek_of_drop hb 7
      rw [parse_tag, if_neg (by rw [p0]; decide), if_pos p0, parse_exclam]
      dsimp only
      rw [if_neg (by rw [p1]; decide), if_pos p1, if_pos ⟨p2, p3, p4, p5, p6, p7⟩]
      apply parse_cdata_tag_fail
      · exact le_length_of_drop hb 8 (by simp) (by decide)
      · show Unterminated _ (st.buf.drop (st.s + 8))
        rw [drop_of_drop hb 8]
        exact hu
    · have p0 : peek st.buf st.s = 63 := peek_of_drop hb 0
      rw [parse_tag, if_pos p0]
      apply parse_pi_tag_fail
      show Unterminated _ (st.buf.drop (st.s + 1))
      rw [drop_of_drop hb 1]
      exact hu
  refine ⟨key, ?_⟩
  intro n st0 h0 hst
  exact parse_loop_tag_fail o n st0 h0 (by rw [hst]; exact key)

/-- The input `<a><!--unterminated` fails under every option mask. -/
theorem parse_unterminated_comment_example (o : parse_options) :
    xml_document_parse o [60, 97, 62, 60, 33, 45, 45, 117, 110, 116, 101, 114, 109, 105, 110,
      97, 116, 101, 100] = some none := by
  have h1 :
      parse_tag o
        { buf := [60, 97, 62, 60, 33, 45, 45, 117, 110, 116, 101, 114, 109, 105, 110, 97, 116,
            101, 100],
          s := 1, cursor := 0,
          nodes := [{ xml_node_struct.new node_document with parent := some 0 }],
          attrs := [] } =
      some (some
        { buf := [60, 97, 0, 60, 33, 45, 45, 117, 110, 116, 101, 114, 109, 105, 110, 97, 116,
            101, 100],
          s := 3, cursor := 1,
          nodes := [{ xml_node_struct.new node_document with
                      parent := some 0, first_child := some 1, last_child := some 1 },
                    { xml_node_struct.new node_element with parent := some 0, name := some 1 }],
          attrs := [] }) := rfl
  apply parse_fail_of_loop
  show parse_loop o 20 _ = some none
  rw [parse_loop_tag_ok o 19 _ _ (by rfl) h1]
  exact (parse_unterminated o _ [117, 110, 116, 101, 114, 109, 105, 110, 97, 116, 101, 100]
    (Or.inl ⟨by rfl, 12, by decide, by decide⟩)).2 18 _ (by rfl) rfl

/-- The input `<a><![CDATA[x]]` fails under every option mask. -/
theorem parse_unterminated_cdata_example (o : parse_options) :
    xml_document_parse o [60, 97, 62, 60, 33, 91, 67, 68, 65, 84, 65, 91, 120, 93, 93] =
      some none := by
  have h1 :
      parse_tag o
        { buf := [60, 97, 62, 60, 33, 91, 67, 68, 65, 84, 65, 91, 120, 93, 93],
          s := 1, cursor := 0,
          nodes := [{ xml_node_struct.new node_document with parent := some 0 }],
          attrs := [] } =
      some (some
        { buf := [60, 97, 0, 60, 33, 91, 67, 68, 65, 84, 65, 91, 120, 93, 93],
          s := 3, cursor := 1,
          nodes := [{ xml_node_struct.new node_document with
                      parent := some 0, first_child := some 1, last_child := some 1 },
                    { xml_node_struct.new node_element with parent := some 0, name := some 1 }],
          attrs := [] }) := rfl
  apply parse_fail_of_loop
  show parse_loop o 16 _ = some none
  rw [parse_loop_tag_ok o 15 _ _ (by rfl) h1]
  exact (parse_unterminated o _ [120, 93, 93]
    (Or.inr (Or.inl ⟨by rfl, 3, by decide, by decide⟩))).2 14 _ (by rfl) rfl

/-- The input `<a><?pi x>` fails under every option mask. -/
theorem parse_unterminated_pi_example (o : parse_options) :
    xml_document_parse o [60, 97, 62, 60, 63, 112, 105, 32, 120, 62] = some none := by
  have h1 :
      parse_tag o
        { buf := [60, 97, 62, 60, 63, 112, 105, 32, 120, 62],
          s := 1, cursor := 0,
          nodes := [{ xml_node_struct.new node_document with parent := some 0 }],
          attrs := [] } =
      some (some
        { buf := [60, 97, 0, 60, 63, 112, 105, 32, 120, 62],
          s := 3, cursor := 1,
          nodes := [{ xml_node_struct.new node_document with
                      parent := some 0, first_child := some 1, last_child := some 1 },
                    { xml_node_struct.new node_element with parent := some 0, name := some 1 }],
          attrs := [] }) := rfl
  apply parse_fail_of_loop
  show parse_loop o 11 _ = some none
  rw [parse_loop_tag_ok o 10 _ _ (by rfl) h1]
  exact (parse_unterminated o _ [112, 105, 32, 120, 62]
    (Or.inr (Or.inr ⟨by rfl, 5, by decide, by decide⟩))).2 9 _ (by rfl) rfl

/-- The state of the parser on `<a><!--unterminated` after the start tag `<a>`
and the `'<'` that follows. -/
theorem parse_unterminated_witness :
    parse_tag ⟨true, true, true, false, false, true, true, false, false⟩
      { buf := [60, 97, 0, 60, 33, 45, 45, 117, 110, 116, 101, 114, 109, 105, 110, 97, 116,
          101, 100],
        s := 4, cursor := 1,
        nodes := [{ xml_node_struct.new node_document with
                    parent := some 0, first_child := some 1, last_child := some 1 },
                  { xml_node_struct.new node_element with parent := some 0, name := some 1 }],
        attrs := [] } = some none ∧
      ∀ (n : Nat) (st0 : parse_state), peek st0.buf st0.s = 60 →
        { st0 with s := st0.s + 1 } =
          ({ buf := [60, 97, 0, 60, 33, 45, 45, 117, 110, 116, 101, 114, 109, 105, 110, 97, 116,
               101, 100],
             s := 4, cursor := 1,
             nodes := [{ xml_node_struct.new node_document with
                         parent := some 0, first_child := some 1, last_child := some 1 },
                       { xml_node_struct.new node_element with
                         parent := some 0, name := some 1 }],
             attrs := [] } : parse_state) →
        parse_loop ⟨true, true, true, false, false, true, true, false, false⟩ (n + 1) st0 =
          some none :=
  parse_unterminated _ _ [117, 110, 116, 101, 114, 109, 105, 110, 97, 116, 101, 100]
    (Or.inl ⟨rfl, 12, by decide, by decide⟩)

/-! ## C15: attributes that are no attributes -/

set_option maxRecDepth 100000 in
theorem is_chartype_start_symbol_table :
    ∀ c < 256, is_chartype c ct_start_symbol = true →
      is_chartype c ct_space = false ∧ is_chartype c ct_symbol = true ∧ c ≠ 0 := by
  decide

theorem start_symbol_props {c : Nat} (h : is_chartype c ct_start_symbol = true) :
    is_chartype c ct_space = false ∧ is_chartype c ct_symbol = true ∧ c ≠ 0 := by
  have h' := h
  rw [← is_chartype_mod] at h'
  obtain ⟨h1, h2, _⟩ := is_chartype_start_symbol_table _ (Nat.mod_lt _ (by decide)) h'
  rw [is_chartype_mod] at h1 h2
  exact ⟨h1, h2, fun hc => by rw [hc] at h; revert h; decide⟩

/-- C15: the attribute loop of the start tag, entered in any state and under
every option mask at whitespace `ws` and an attribute name `a :: nm`, makes the
parser return `false` when, after the name and whitespace `sp1`, the next byte
is not `'='` (a missing value, the end of the input included), when the
byte after the `'='` and whitespace `sp2` is not `'"'` or `'\''` (an unquoted
value), and when the quoted value is closed and is followed at once by the
first byte of a name. -/
theorem parse_attribute_invalid (o : parse_options) (n : Nat) (st : parse_state)
    (ws nm sp1 t1 : List Nat) (a : Nat)
    (hbuf : st.buf.drop st.s = ws ++ (a :: nm ++ (sp1 ++ t1)))
    (hws : ∀ c ∈ ws, is_chartype c ct_space = true)
    (ha : is_chartype a ct_start_symbol = true)
    (hnm : ∀ c ∈ nm, is_chartype c ct_symbol = true)
    (hend : is_chartype (rd (sp1 ++ t1)) ct_symbol = false)
    (hsp1 : ∀ c ∈ sp1, is_chartype c ct_space = true)
    (ht1 : is_chartype (rd t1) ct_space = false)
    (hbad : rd t1 ≠ 61 ∨
      (∃ sp2 t2 : List Nat, t1 = 61 :: (sp2 ++ t2) ∧
        (∀ c ∈ sp2, is_chartype c ct_space = true) ∧ is_chartype (rd t2) ct_space = false ∧
        rd t2 ≠ 39 ∧ rd t2 ≠ 34) ∨
      (∃ (sp2 : List Nat) (q : Nat) (w : List Nat) (i : Nat), t1 = 61 :: (sp2 ++ q :: w) ∧
        (∀ c ∈ sp2, is_chartype c ct_space = true) ∧ (q = 34 ∨ q = 39) ∧
        FirstStop (fun l => rd l = q) w i ∧
        is_chartype (peek w (i + 1)) ct_start_symbol = true)) :
    parse_attributes o (n + 1) st = some none := by
  obtain ⟨ha1, ha2, ha3⟩ := start_symbol_props ha
  have h0 : peek st.buf st.s ≠ 0 := by
    rw [← rd_drop, hbuf]
    cases ws with
    | nil => exact ha3
    | cons x r => exact space_ne_zero (hws x (by simp))
  have e1 : skipWhile ct_space (st.buf.drop st.s) st.s = st.s + ws.length := by
    rw [hbuf]
    exact skipWhile_run ct_space ws _ st.s hws (by rw [List.cons_append, rd_cons]; exact ha1)
  have hd1 : st.buf.drop (st.s + ws.length) = a :: nm ++ (sp1 ++ t1) := by
    rw [drop_of_drop hbuf, List.drop_left]
  have e2 : peek st.buf (st.s + ws.length) = a := by
    rw [← rd_drop, hd1]; rfl
  have e3 : skipWhile ct_symbol (st.buf.drop (st.s + ws.length)) (st.s + ws.length) =
      st.s + ws.length + (a :: nm).length := by
    rw [hd1]
    exact skipWhile_run ct_symbol (a :: nm) _ _
      (fun c hc => by
        rcases List.mem_cons.mp hc with hc | hc
        · rw [hc]; exact ha2
        · exact hnm c hc) hend
  have hd2 : st.buf.drop (st.s + ws.length + (a :: nm).length) = sp1 ++ t1 := by
    rw [drop_of_drop hd1, List.drop_left]
  rw [parse_attributes, if_neg h0]
  dsimp only
  rw [e1, e2, if_neg ha3, if_pos ha, e3]
  set S2 := st.s + ws.length + (a :: nm).length with hS2
  have hch : peek st.buf S2 = rd (sp1 ++ t1) := by rw [← rd_drop, hd2]
  set B1 := poke st.buf S2 0 with hB1
  have hdB : ∀ k, B1.drop (S2 + 1 + k) = (sp1 ++ t1).drop (1 + k) := fun k => by
    rw [hB1, drop_poke_lt _ _ _ _ (by omega), Nat.add_assoc, drop_of_drop hd2]
  have hpB : ∀ k, peek B1 (S2 + 1 + k) = peek (sp1 ++ t1) (1 + k) := fun k => by
    rw [← rd_drop, hdB, rd_drop]
  by_cases g1 : peek st.buf S2 = 0
  · rw [if_pos g1]
  rw [if_neg g1]
  by_cases g2 : peek B1 (S2 + 1) = 0
  · rw [if_pos g2]
  rw [if_neg g2]
  have hS4 : is_chartype (peek st.buf S2) ct_space = true →
      skipWhile ct_space (B1.drop (S2 + 1)) (S2 + 1) = S2 + sp1.length ∧ sp1 ≠ [] := by
    intro hC
    cases sp1 with
    | nil =>
      rw [hch, List.nil_append, ht1] at hC
      exact absurd hC Bool.false_ne_true
    | cons x r =>
      have := hdB 0
      rw [Nat.add_zero] at this
      rw [this]
      simp only [List.cons_append, Nat.add_zero, List.drop_succ_cons, List.drop_zero,
        List.length_cons]
      rw [skipWhile_run ct_space r t1 _ (fun c hc => hsp1 c (List.mem_cons_of_mem _ hc)) ht1]
      exact ⟨by omega, List.cons_ne_nil _ _⟩
  have hCH1 : (if is_chartype (peek st.buf S2) ct_space = true then
      peek B1 (if is_chartype (peek st.buf S2) ct_space = true then
        skipWhile ct_space (B1.drop (S2 + 1)) (S2 + 1) else S2 + 1)
      else peek st.buf S2) = rd t1 := by
    by_cases hC : is_chartype (peek st.buf S2) ct_space = true
    · obtain ⟨h4, hne⟩ := hS4 hC
      rw [if_pos hC, if_pos hC, h4]
      obtain ⟨x, r, rfl⟩ := List.exists_cons_of_ne_nil hne
      have := hpB r.length
      rw [show S2 + 1 + r.length = S2 + (x :: r).length by simp only [List.length_cons]; omega]
        at this
      rw [this, ← rd_drop, show 1 + r.length = (x :: r).length by
        simp only [List.length_cons]; omega, List.drop_left]
    · rw [if_neg hC, hch]
      cases sp1 with
      | nil => rfl
      | cons x r =>
        exfalso
        apply hC
        rw [hch]
        exact hsp1 x (by simp)
  have hS5 : (if is_chartype (peek st.buf S2) ct_space = true then
      (if is_chartype (peek st.buf S2) ct_space = true then
        skipWhile ct_space (B1.drop (S2 + 1)) (S2 + 1) else S2 + 1) + 1
      else S2 + 1) = S2 + 1 + sp1.length := by
    by_cases hC : is_chartype (peek st.buf S2) ct_space = true
    · obtain ⟨h4, _⟩ := hS4 hC
      rw [if_pos hC, if_pos hC, h4]
      omega
    · rw [if_neg hC]
      cases sp1 with
      | nil => rfl
      | cons x r =>
        exfalso
        apply hC
        rw [hch]
        exact hsp1 x (by simp)
  rw [hCH1, hS5]
  by_cases g3 : is_chartype (peek st.buf S2) ct_space = true ∧
      peek B1 (if is_chartype (peek st.buf S2) ct_space = true then
        skipWhile ct_space (B1.drop (S2 + 1)) (S2 + 1) else S2 + 1) = 0
  · rw [if_pos g3]
  rw [if_neg g3]
  have hd5 : B1.drop (S2 + 1 + sp1.length) = t1.drop 1 := by
    rw [hdB, Nat.add_comm 1, ← List.drop_drop, List.drop_left]
  rcases hbad with hA | ⟨sp2, t2, ht, hsp2, ht2, hn39, hn34⟩ | ⟨sp2, q, w, i, ht, hsp2, hq, hfs, hnext⟩
  · rw [if_neg hA]
  · rw [if_pos (by rw [ht]; rfl)]
    rw [ht, List.drop_succ_cons, List.drop_zero] at hd5
    have hp6 : peek B1 (S2 + 1 + sp1.length + sp2.length) = rd t2 := by
      rw [← rd_drop, drop_of_drop hd5, List.drop_left]
    rw [hd5, skipWhile_run ct_space sp2 t2 _ hsp2 ht2, hp6]
    by_cases g4 : rd t2 = 0
    · rw [if_pos g4]
    rw [if_neg g4, if_neg (fun hh => hh.elim hn39 hn34)]
  · rw [if_pos (by rw [ht]; rfl)]
    rw [ht, List.drop_succ_cons, List.drop_zero] at hd5
    have hqs : is_chartype (rd (q :: w)) ct_space = false := by
      rw [rd_cons]
      rcases hq with hq | hq <;> rw [hq] <;> decide
    have hd6 : B1.drop (S2 + 1 + sp1.length + sp2.length) = q :: w := by
      rw [drop_of_drop hd5, List.drop_left]
    have hp6 : peek B1 (S2 + 1 + sp1.length + sp2.length) = q := by
      rw [← rd_drop, hd6]; rfl
    rw [hd5, skipWhile_run ct_space sp2 (q :: w) _ hsp2 hqs, hp6,
      if_neg (quote_ne_zero hq), if_pos hq.symm]
    have hBeq : B1 = (B1.take (S2 + 1 + sp1.length + sp2.length) ++ [q]) ++ w := by
      rw [List.append_assoc, List.singleton_append, ← hd6, List.take_append_drop]
    have hle : S2 + 1 + sp1.length + sp2.length + 1 ≤ B1.length :=
      le_length_of_drop hd6 1 (by simp) (by decide)
    have hlen : (B1.take (S2 + 1 + sp1.length + sp2.length) ++ [q]).length =
        S2 + 1 + sp1.length + sp2.length + 1 := by
      rw [List.length_append, List.length_take, List.length_singleton]
      omega
    have hrun := strconv_attribute_run o.parse_escapes o.parse_wnorm_attribute
      o.parse_wconv_attribute o.parse_eol q hq
      (B1.take (S2 + 1 + sp1.length + sp2.length) ++ [q]) w
      (fun _ => ⟨_, q, rfl, by rcases hq with hq | hq <;> rw [hq] <;> decide⟩)
    rw [← hBeq, hlen] at hrun
    obtain ⟨i', hfs', _, hcase⟩ := hrun
    have hii := hfs'.unique hfs
    subst hii
    rcases hcase with ⟨_, out, Y, hoY, heq⟩ | ⟨_, b, heq⟩
    · simp only [heq]
      rw [if_pos]
      have e : (B1.take (S2 + 1 + sp1.length + sp2.length) ++ [q]) ++
          (out ++ 0 :: (Y ++ w.drop (i' + 1))) =
          ((B1.take (S2 + 1 + sp1.length + sp2.length) ++ [q]) ++ (out ++ 0 :: Y)) ++
            w.drop (i' + 1) := by simp
      have hl : (B1.take (S2 + 1 + sp1.length + sp2.length) ++ [q]).length + i' + 1 =
          ((B1.take (S2 + 1 + sp1.length + sp2.length) ++ [q]) ++ (out ++ 0 :: Y)).length + 0 := by
        rw [List.length_append _ (out ++ 0 :: Y), List.length_append out, List.length_cons]
        omega
      rw [e, hl, peek_append_right, peek_drop]
      exact hnext
    · simp only [heq]

/-- The input `<a attr=value>` fails under every option mask. -/
theorem parse_unquoted_value_example (o : parse_options) :
    xml_document_parse o [60, 97, 32, 97, 116, 116, 114, 61, 118, 97, 108, 117, 101, 62] =
      some none := by
  apply parse_fail_of_loop
  apply parse_loop_tag_fail o 14 _ (by rfl)
  show parse_attributes o (14 + 1)
    { buf := [60, 97, 0, 97, 116, 116, 114, 61, 118, 97, 108, 117, 101, 62], s := 3,
      cursor := 1,
      nodes := [{ xml_node_struct.new node_document with
                  parent := some 0, first_child := some 1, last_child := some 1 },
                { xml_node_struct.new node_element with parent := some 0, name := some 1 }],
      attrs := [] } = some none
  exact parse_attribute_invalid o 14 _ [] [116, 116, 114] [] [61, 118, 97, 108, 117, 101, 62] 97
    (by rfl) (by decide) (by decide) (by decide) (by decide) (by decide) (by decide)
    (Or.inr (Or.inl ⟨[], [118, 97, 108, 117, 101, 62], rfl, by decide, by decide, by decide,
      by decide⟩))

/-- The input `<a attr>` fails under every option mask. -/
theorem parse_missing_value_example (o : parse_options) :
    xml_document_parse o [60, 97, 32, 97, 116, 116, 114, 62] = some none := by
  apply parse_fail_of_loop
  apply parse_loop_tag_fail o 8 _ (by rfl)
  show parse_attributes o (8 + 1)
    { buf := [60, 97, 0, 97, 116, 116, 114, 62], s := 3,
      cursor := 1,
      nodes := [{ xml_node_struct.new node_document with
                  parent := some 0, first_child := some 1, last_child := some 1 },
                { xml_node_struct.new node_element with parent := some 0, name := some 1 }],
      attrs := [] } = some none
  exact parse_attribute_invalid o 8 _ [] [116, 116, 114] [] [62] 97
    (by rfl) (by decide) (by decide) (by decide) (by decide) (by decide) (by decide)
    (Or.inl (by decide))

/-- The input `<a x="1"y="2"/>` fails under every option mask. -/
theorem parse_attribute_glued_example (o : parse_options) :
    xml_document_parse o [60, 97, 32, 120, 61, 34, 49, 34, 121, 61, 34, 50, 34, 47, 62] =
      some none := by
  apply parse_fail_of_loop
  apply parse_loop_tag_fail o 15 _ (by rfl)
  show parse_attributes o (15 + 1)
    { buf := [60, 97, 0, 120, 61, 34, 49, 34, 121, 61, 34, 50, 34, 47, 62], s := 3,
      cursor := 1,
      nodes := [{ xml_node_struct.new node_document with
                  parent := some 0, first_child := some 1, last_child := some 1 },
                { xml_node_struct.new node_element with parent := some 0, name := some 1 }],
      attrs := [] } = some none
  exact parse_attribute_invalid o 15 _ [] [] []
    [61, 34, 49, 34, 121, 61, 34, 50, 34, 47, 62] 120
    (by rfl) (by decide) (by decide) (by decide) (by decide) (by decide) (by decide)
    (Or.inr (Or.inr ⟨[], 34, [49, 34, 121, 61, 34, 50, 34, 47, 62], 1, rfl, by decide,
      Or.inl rfl, by decide, by decide⟩))

/-- The attribute loop on `<a x="1"y="2"/>`, entered after the name of the
element, with every option on. -/
theorem parse_attribute_invalid_witness :
    parse_attributes ⟨true, true, true, true, true, true, true, true, true⟩ (15 + 1)
      { buf := [60, 97, 0, 120, 61, 34, 49, 34, 121, 61, 34, 50, 34, 47, 62], s := 3,
        cursor := 1,
        nodes := [{ xml_node_struct.new node_document with
                    parent := some 0, first_child := some 1, last_child := some 1 },
                  { xml_node_struct.new node_element with parent := some 0, name := some 1 }],
        attrs := [] } = some none :=
  parse_attribute_invalid _ 15 _ [] [] [] [61, 34, 49, 34, 121, 61, 34, 50, 34, 47, 62] 120
    (by rfl) (by decide) (by decide) (by decide) (by decide) (by decide) (by decide)
    (Or.inr (Or.inr ⟨[], 34, [49, 34, 121, 61, 34, 50, 34, 47, 62], 1, rfl, by decide,
      Or.inl rfl, by decide, by decide⟩))

/-! ## Whitespace between tags -/

/-- With `parse_ws_pcdata` off, the main loop at whitespace `W` that is
followed by a `'<'` or by the end of the input goes on at the byte after `W`:
the tree memory is as it was, no node is made. -/
theorem parse_loop_skip_space (o : parse_options) (hws : o.parse_ws_pcdata = false) (n : Nat)
    (st : parse_state) (W S : List Nat) (hbuf : st.buf.drop st.s = W ++ S)
    (hW : ∀ c ∈ W, is_chartype c ct_space = true) (hne : W ≠ [])
    (hS : rd S = 0 ∨ rd S = 60) :
    parse_loop o (n + 1) st = parse_loop o n { st with s := st.s + W.length } := by
  obtain ⟨x, r, rfl⟩ := List.exists_cons_of_ne_nil hne
  have hx : is_chartype x ct_space = true := hW x (by simp)
  have hp : peek st.buf st.s = x := by rw [← rd_drop, hbuf]; rfl
  have hSs : is_chartype (rd S) ct_space = false := by
    rcases hS with h | h <;> rw [h] <;> decide
  have hsk : skipWhile ct_space (st.buf.drop st.s) st.s = st.s + (x :: r).length := by
    rw [hbuf]; exact skipWhile_run ct_space (x :: r) S st.s hW hSs
  have hp2 : peek st.buf (st.s + (x :: r).length) = rd S := by
    rw [← rd_drop, drop_of_drop hbuf, List.drop_left]
  rw [parse_loop, if_neg (by rw [hp]; exact space_ne_zero hx),
    if_neg (by rw [hp]; exact space_ne_lt hx)]
  dsimp only
  rw [hsk, hp2, if_pos ⟨Or.inr hws, hS⟩]

/-! ## C21: processing instructions -/

theorem peek_poke_eq (buf : List Nat) (i v : Nat) (h : i < buf.length) :
    peek (poke buf i v) i = v := by
  unfold peek poke
  rw [List.getD_eq_getElem?_getD]
  simp [List.getElem?_set, h]

theorem lt_length_of_peek {buf : List Nat} {i : Nat} (h : peek buf i ≠ 0) : i < buf.length := by
  by_contra hcon
  apply h
  unfold peek
  rw [List.getD_eq_getElem?_getD, List.getElem?_eq_none (by omega)]
  rfl

theorem peek_append_left (a b : List Nat) (i : Nat) (h : i < a.length) :
    peek (a ++ b) i = peek a i := by
  unfold peek
  rw [List.getD_eq_getElem?_getD, List.getD_eq_getElem?_getD, List.getElem?_append_left h]

theorem peek_mem {l : List Nat} {i : Nat} (h : i < l.length) : peek l i ∈ l := by
  unfold peek
  rw [List.getD_eq_getElem?_getD, List.getElem?_eq_getElem h]
  exact List.getElem_mem _

/-- The C string at `p` is `t` when the bytes at `p` are those of `t`, none of
them NUL, and a NUL follows. -/
theorem cstrAt_of_peek (buf : List Nat) : ∀ (t : List Nat) (p : Nat), (∀ c ∈ t, c ≠ 0) →
    (∀ k, k < t.length → peek buf (p + k) = peek t k) → peek buf (p + t.length) = 0 →
    cstrAt buf p = t := by
  intro t p hnz hk h0
  apply cstrAt_of_head buf t p hnz _ h0
  induction t generalizing p with
  | nil => exact List.nil_prefix
  | cons c t ih =>
    rw [prefix_cons_drop buf c t p (hnz c (List.mem_cons_self _ _))]
    refine ⟨by simpa using hk 0 (by simp), ?_⟩
    apply ih (p + 1) (fun x hx => hnz x (List.mem_cons_of_mem _ hx))
    · intro k hk'
      have := hk (k + 1) (by simpa using hk')
      rw [peek_cons_succ] at this
      rw [← this]
      congr 1
      omega
    · rw [← h0]
      congr 1
      simp only [List.length_cons]
      omega

set_option maxRecDepth 100000 in
theorem is_chartype_space_symbol_table :
    ∀ c < 256, is_chartype c ct_space = true →
      is_chartype c ct_symbol = false ∧ c ≠ 63 := by
  decide

theorem space_props {c : Nat} (h : is_chartype c ct_space = true) :
    is_chartype c ct_symbol = false ∧ c ≠ 63 := by
  have h' := h
  rw [← is_chartype_mod] at h'
  obtain ⟨h1, _⟩ := is_chartype_space_symbol_table _ (Nat.mod_lt _ (by decide)) h'
  rw [is_chartype_mod] at h1
  exact ⟨h1, fun hc => by rw [hc] at h; revert h; decide⟩

/-- The first byte of a text that ends at the first `?>` is not NUL. -/
theorem rd_pi_body_ne_zero {value post : List Nat}
    (hfs : FirstStop (StartsWith2 63 62) (value ++ 63 :: 62 :: post) value.length) :
    rd (value ++ 63 :: 62 :: post) ≠ 0 := by
  cases value with
  | nil => show (63 : Nat) ≠ 0; decide
  | cons v r => exact (hfs.2 0 (by simp)).1

theorem rd_pi_body_not_space {value post : List Nat}
    (hv0 : is_chartype (rd value) ct_space = false) :
    is_chartype (rd (value ++ 63 :: 62 :: post)) ct_space = false := by
  cases value with
  | nil => show is_chartype 63 ct_space = false; decide
  | cons v r => exact hv0

/-- The test for the target `xml` on a target that is followed by a NUL. -/
theorem is_xml_target_iff (buf : List Nat) (mark : Nat) (t : List Nat) (hnz : ∀ c ∈ t, c ≠ 0)
    (hk : ∀ k, k < t.length → peek buf (mark + k) = peek t k)
    (h0 : peek buf (mark + t.length) = 0) :
    is_xml_target buf mark = true ↔ IsXmlName t := by
  unfold is_xml_target IsXmlName
  rw [decide_eq_true_iff]
  have hz : ∀ k, k < t.length → peek buf (mark + k) ≠ 0 := fun k h => by
    rw [hk k h]; exact hnz _ (peek_mem h)
  constructor
  · rintro ⟨h1, h2, h3, h4⟩
    have hl3 : ¬ 3 < t.length := fun h => hz 3 h h4
    have hl2 : ¬ t.length ≤ 2 := by
      intro h
      have hle : t.length = 0 ∨ t.length = 1 ∨ t.length = 2 := by omega
      rcases hle with hl | hl | hl <;> rw [hl] at h0
      · rw [Nat.add_zero] at h0; rw [h0] at h1; omega
      · rw [h0] at h2; omega
      · rw [h0] at h3; omega
    have hl : t.length = 3 := by omega
    refine ⟨hl, ?_, ?_, ?_⟩
    · rw [← hk 0 (by omega)]; exact h1
    · rw [← hk 1 (by omega)]; exact h2
    · rw [← hk 2 (by omega)]; exact h3
  · rintro ⟨hl, h1, h2, h3⟩
    refine ⟨?_, ?_, ?_, ?_⟩
    · have := hk 0 (by omega); rw [Nat.add_zero] at this; rw [this]; exact h1
    · rw [hk 1 (by omega)]; exact h2
    · rw [hk 2 (by omega)]; exact h3
    · rw [← hl]; exact h0

/-- The branch `'<?...'` with `parse_pi` on, at a target that is not `xml`,
whitespace, and a value that ends at the first `?>`: the run to `POPNODE`. -/
theorem parse_pi_tag_node (o : parse_options) (hpi : o.parse_pi = true) (st : parse_state)
    (a : Nat) (nm : List Nat) (w : Nat) (ws value post : List Nat)
    (hbuf : st.buf.drop st.s = (a :: nm) ++ (w :: (ws ++ (value ++ 63 :: 62 :: post))))
    (ha : is_chartype a ct_start_symbol = true)
    (hnm : ∀ c ∈ nm, is_chartype c ct_symbol = true)
    (hw : is_chartype w ct_space = true) (hws : ∀ c ∈ ws, is_chartype c ct_space = true)
    (hv0 : is_chartype (rd value) ct_space = false)
    (hfs : FirstStop (StartsWith2 63 62) (value ++ 63 :: 62 :: post) value.length)
    (hx : ¬ IsXmlName (a :: nm)) :
    parse_pi_tag o st =
      (POPNODE (set_cursor_value
        { set_cursor_name (PUSHNODE { st with buf := poke st.buf (st.s + (a :: nm).length) 0,
                                              s := st.s + (a :: nm).length + 1 } node_pi)
            (some st.s) with
          buf := poke (poke st.buf (st.s + (a :: nm).length) 0)
            (st.s + (a :: nm).length + 1 + ws.length + value.length) 0,
          s := st.s + (a :: nm).length + 1 + ws.length + value.length + 2 }
        (some (st.s + (a :: nm).length + 1 + ws.length)))).map some := by
  have hp : ∀ k, peek st.buf (st.s + k) = peek _ k := peek_of_drop hbuf
  have hd : ∀ k, st.buf.drop (st.s + k) = List.drop k _ := drop_of_drop hbuf
  have hsym : ∀ c ∈ a :: nm, is_chartype c ct_symbol = true := by
    intro c hc
    rcases List.mem_cons.mp hc with h | h
    · rw [h]; exact (start_symbol_props ha).2.1
    · exact hnm c h
  have hTnz : ∀ c ∈ a :: nm, c ≠ 0 := fun c hc => symbol_ne_zero (hsym c hc)
  have hwp := space_props hw
  have hw0 : w ≠ 0 := space_ne_zero hw
  -- the bytes
  have p0 : peek st.buf st.s = a := by simpa using hp 0
  have p1 : peek st.buf (st.s + (a :: nm).length) = w := by
    rw [hp, peek_append_length]
  have d1 : st.buf.drop (st.s + (a :: nm).length + 1) = ws ++ (value ++ 63 :: 62 :: post) := by
    rw [Nat.add_assoc, hd, ← List.drop_drop, List.drop_left]
    rfl
  have d2 : st.buf.drop (st.s + (a :: nm).length + 1 + ws.length) =
      value ++ 63 :: 62 :: post := by
    rw [← List.drop_drop, d1, List.drop_left]
  have d3 : st.buf.drop (st.s + (a :: nm).length + 1 + ws.length + value.length) =
      63 :: 62 :: post := by
    rw [← List.drop_drop, d2, List.drop_left]
  have hv : rd (value ++ 63 :: 62 :: post) ≠ 0 := rd_pi_body_ne_zero hfs
  have hvs : is_chartype (rd (value ++ 63 :: 62 :: post)) ct_space = false :=
    rd_pi_body_not_space hv0
  have p2 : peek st.buf (st.s + (a :: nm).length + 1) ≠ 0 := by
    rw [← rd_drop, d1]
    cases ws with
    | nil => exact hv
    | cons x r => exact space_ne_zero (hws x (List.mem_cons_self _ _))
  have p3 : peek st.buf (st.s + (a :: nm).length + 1 + ws.length) ≠ 0 := by
    rw [← rd_drop, d2]; exact hv
  have p4 : peek st.buf (st.s + (a :: nm).length + 1 + ws.length + value.length) = 63 := by
    rw [← rd_drop, d3]; rfl
  have p5 : peek st.buf (st.s + (a :: nm).length + 1 + ws.length + value.length + 1) = 62 := by
    have := peek_of_drop d3 1
    rw [this]; rfl
  have hlt : st.s + (a :: nm).length < st.buf.length :=
    lt_length_of_peek (by rw [p1]; exact hw0)
  have hxt : is_xml_target (poke st.buf (st.s + (a :: nm).length) 0) st.s = false := by
    have := is_xml_target_iff (poke st.buf (st.s + (a :: nm).length) 0) st.s (a :: nm) hTnz
      (fun k hk => by
        rw [peek_poke_ne _ _ _ _ (by omega), hp, peek_append_left _ _ _ hk])
      (peek_poke_eq _ _ _ hlt)
    cases h : is_xml_target (poke st.buf (st.s + (a :: nm).length) 0) st.s
    · rfl
    · exact absurd (this.mp h) hx
  unfold parse_pi_tag
  rw [if_neg (by rw [p0, ha]; simp), if_pos hpi]
  dsimp only
  have hsk : skipWhile ct_symbol (st.buf.drop st.s) st.s = st.s + (a :: nm).length := by
    rw [hbuf]
    exact skipWhile_run ct_symbol (a :: nm) _ st.s hsym (by rw [rd_cons]; exact hwp.1)
  rw [hsk, p1, if_neg hw0, if_neg (fun h => Bool.noConfusion (hw.symm.trans h.1)),
    peek_poke_ne _ _ _ _ (by omega), if_neg p2, if_neg hwp.2, hxt,
    if_neg Bool.false_ne_true, if_pos hw, drop_poke_lt _ _ _ _ (by omega), d1,
    skipWhile_run ct_space ws _ _ hws hvs, peek_poke_ne _ _ _ _ (by omega),
    if_neg (fun h => p3 h.2), if_pos hw, drop_poke_lt _ _ _ _ (by omega), d2,
    scanfor2_spec 63 62 _ _ _ hfs, peek_poke_ne _ _ _ _ (by omega), p4,
    if_neg (by decide), peek_poke_ne _ _ _ _ (by omega), peek_poke_ne _ _ _ _ (by omega), p5,
    if_neg (by decide)]

/-! ## Records in the list of allocated nodes -/

theorem node_at_set_eq (nodes : List xml_node_struct) (i : Nat) (v : xml_node_struct)
    (h : i < nodes.length) : node_at (nodes.set i v) i = v := by
  unfold node_at
  rw [List.getD_eq_getElem?_getD]
  simp [List.getElem?_set, h]

theorem node_at_set_ne (nodes : List xml_node_struct) (i j : Nat) (v : xml_node_struct)
    (h : i ≠ j) : node_at (nodes.set i v) j = node_at nodes j := by
  unfold node_at
  rw [List.getD_eq_getElem?_getD, List.getD_eq_getElem?_getD, List.getElem?_set_ne h]

theorem node_at_append_length (nodes : List xml_node_struct) (v : xml_node_struct) :
    node_at (nodes ++ [v]) nodes.length = v := by
  unfold node_at
  rw [List.getD_eq_getElem?_getD]
  simp

theorem node_at_append_lt (nodes : List xml_node_struct) (v : xml_node_struct) (j : Nat)
    (h : j < nodes.length) : node_at (nodes ++ [v]) j = node_at nodes j := by
  unfold node_at
  rw [List.getD_eq_getElem?_getD, List.getD_eq_getElem?_getD, List.getElem?_append_left h]

/-- A property of the record at `j` that the new record at `i` has when
`i = j` holds after the assignment. -/
theorem node_at_set_pres (P : xml_node_struct → Prop) (nodes : List xml_node_struct)
    (i j : Nat) (v : xml_node_struct) (hv : i = j → P v) (h : P (node_at nodes j)) :
    P (node_at (nodes.set i v) j) := by
  by_cases hij : i = j
  · by_cases hi : i < nodes.length
    · subst hij
      rw [node_at_set_eq nodes i v hi]
      exact hv rfl
    · rw [List.set_eq_of_length_le (by omega)]
      exact h
  · rw [node_at_set_ne nodes i j v hij]
    exact h

theorem append_node_snd (nodes : List xml_node_struct) (this : Nat) (type : xml_node_type) :
    (append_node nodes this type).2 = nodes.length := by
  unfold append_node
  dsimp only
  split <;> rfl

theorem append_node_length (nodes : List xml_node_struct) (this : Nat) (type : xml_node_type) :
    (append_node nodes this type).1.length = nodes.length + 1 := by
  unfold append_node
  dsimp only
  split <;> simp

/-- An assignment to a field of the record at `k` keeps a property of the
record at `j` that the assignment does not change. -/
theorem node_at_set_upd (P : xml_node_struct → Prop) (f : xml_node_struct → xml_node_struct)
    (hf : ∀ x, P x → P (f x)) (cur : List xml_node_struct) (k j : Nat)
    (h : P (node_at cur j)) : P (node_at (cur.set k (f (node_at cur k))) j) :=
  node_at_set_pres P cur k j _ (fun e => by subst e; exact hf _ h) h

/-- What `append_node` keeps in every record: a property `P` of records that
the assignments to the sibling and child pointers do not change. -/
theorem append_node_pres (P : xml_node_struct → Prop)
    (hP : ∀ (x : xml_node_struct) (a b c d : Option Nat),
      P x → P { x with first_child := a, last_child := b, prev_sibling := c, next_sibling := d })
    (nodes : List xml_node_struct) (this : Nat) (type : xml_node_type) (j : Nat)
    (h : P (node_at (nodes ++ [{ xml_node_struct.new type with parent := some this }]) j)) :
    P (node_at (append_node nodes this type).1 j) := by
  unfold append_node
  dsimp only
  split
  · dsimp only
    refine node_at_set_upd P (fun x => { x with last_child := some nodes.length })
      (fun x hx => hP x x.first_child _ x.prev_sibling x.next_sibling hx) _ _ _ ?_
    refine node_at_set_upd P (fun x => { x with prev_sibling := _ })
      (fun x hx => hP x x.first_child x.last_child _ x.next_sibling hx) _ _ _ ?_
    refine node_at_set_upd P (fun x => { x with next_sibling := some nodes.length })
      (fun x hx => hP x x.first_child x.last_child x.prev_sibling _ hx) _ _ _ ?_
    exact h
  · dsimp only
    refine node_at_set_upd P
      (fun x => { x with first_child := some nodes.length, last_child := some nodes.length })
      (fun x hx => hP x _ _ x.prev_sibling x.next_sibling hx) _ _ _ ?_
    exact h

theorem POPNODE_eq (st : parse_state) (p : Nat)
    (h : (node_at st.nodes st.cursor).parent = some p) :
    POPNODE st = some { st with cursor := p } := by
  unfold POPNODE
  rw [h]

theorem set_cursor_name_pres (P : xml_node_struct → Prop) (nm : Option Nat)
    (hf : ∀ x : xml_node_struct, P x → P { x with name := nm }) (st : parse_state) (j : Nat)
    (h : P (node_at st.nodes j)) : P (node_at (set_cursor_name st nm).nodes j) :=
  node_at_set_upd P (fun x => { x with name := nm }) hf st.nodes st.cursor j h

theorem set_cursor_value_pres (P : xml_node_struct → Prop) (vl : Option Nat)
    (hf : ∀ x : xml_node_struct, P x → P { x with value := vl }) (st : parse_state) (j : Nat)
    (h : P (node_at st.nodes j)) : P (node_at (set_cursor_value st vl).nodes j) :=
  node_at_set_upd P (fun x => { x with value := vl }) hf st.nodes st.cursor j h

theorem set_cursor_name_at (st : parse_state) (nm : Option Nat)
    (h : st.cursor < st.nodes.length) :
    (node_at (set_cursor_name st nm).nodes st.cursor).name = nm :=
  congrArg xml_node_struct.name (node_at_set_eq st.nodes st.cursor _ h)

theorem set_cursor_value_at (st : parse_state) (vl : Option Nat)
    (h : st.cursor < st.nodes.length) :
    (node_at (set_cursor_value st vl).nodes st.cursor).value = vl :=
  congrArg xml_node_struct.value (node_at_set_eq st.nodes st.cursor _ h)

theorem set_cursor_name_ne (st : parse_state) (nm : Option Nat) (j : Nat) (h : st.cursor ≠ j) :
    node_at (set_cursor_name st nm).nodes j = node_at st.nodes j :=
  node_at_set_ne st.nodes st.cursor j _ h

theorem set_cursor_value_ne (st : parse_state) (vl : Option Nat) (j : Nat) (h : st.cursor ≠ j) :
    node_at (set_cursor_value st vl).nodes j = node_at st.nodes j :=
  node_at_set_ne st.nodes st.cursor j _ h

theorem set_cursor_name_length (st : parse_state) (nm : Option Nat) :
    (set_cursor_name st nm).nodes.length = st.nodes.length := List.length_set _ _ _

theorem set_cursor_value_length (st : parse_state) (vl : Option Nat) :
    (set_cursor_value st vl).nodes.length = st.nodes.length := List.length_set _ _ _

theorem PUSHNODE_cursor (st : parse_state) (type : xml_node_type) :
    (PUSHNODE st type).cursor = st.nodes.length := append_node_snd _ _ _

theorem PUSHNODE_length (st : parse_state) (type : xml_node_type) :
    (PUSHNODE st type).nodes.length = st.nodes.length + 1 := append_node_length _ _ _

/-- The record that `PUSHNODE` allocates and the two assignments that the
branch of the processing instruction makes to it. -/
theorem pushnode_named (st : parse_state) (type : xml_node_type) (nm vl : Option Nat)
    (b : List Nat) (s : Nat) :
    ∃ st1 : parse_state,
      POPNODE (set_cursor_value
        { set_cursor_name (PUSHNODE st type) nm with buf := b, s := s } vl) = some st1 ∧
      st1.buf = b ∧ st1.s = s ∧ st1.cursor = st.cursor ∧ st1.attrs = st.attrs ∧
      st1.nodes.length = st.nodes.length + 1 ∧
      (node_at st1.nodes st.nodes.length).type = type ∧
      (node_at st1.nodes st.nodes.length).parent = some st.cursor ∧
      (node_at st1.nodes st.nodes.length).name = nm ∧
      (node_at st1.nodes st.nodes.length).value = vl ∧
      ∀ p, p < st.nodes.length →
        (node_at st1.nodes p).type = (node_at st.nodes p).type ∧
        (node_at st1.nodes p).name = (node_at st.nodes p).name ∧
        (node_at st1.nodes p).value = (node_at st.nodes p).value := by
  obtain ⟨Y, hY⟩ : ∃ Y : parse_state,
      Y = { set_cursor_name (PUSHNODE st type) nm with buf := b, s := s } := ⟨_, rfl⟩
  have hYc : Y.cursor = st.nodes.length := by rw [hY]; exact PUSHNODE_cursor st type
  have hYl : Y.nodes.length = st.nodes.length + 1 := by
    rw [hY]
    exact (set_cursor_name_length _ _).trans (PUSHNODE_length st type)
  have hYn : ∀ j, j ≠ st.nodes.length →
      node_at Y.nodes j = node_at (append_node st.nodes st.cursor type).1 j := by
    intro j hj
    rw [hY]
    exact set_cursor_name_ne (PUSHNODE st type) nm j
      (by rw [PUSHNODE_cursor]; exact fun h => hj h.symm)
  have hnew : (node_at Y.nodes st.nodes.length).type = type ∧
      (node_at Y.nodes st.nodes.length).parent = some st.cursor := by
    rw [hY]
    apply set_cursor_name_pres (fun x => x.type = type ∧ x.parent = some st.cursor) nm
      (fun x hx => hx)
    apply append_node_pres (fun x => x.type = type ∧ x.parent = some st.cursor)
      (fun x a b c d hx => hx)
    rw [node_at_append_length]
    exact ⟨rfl, rfl⟩
  have hname : (node_at Y.nodes st.nodes.length).name = nm := by
    rw [hY]
    have := set_cursor_name_at (PUSHNODE st type) nm
      (by rw [PUSHNODE_cursor, PUSHNODE_length]; omega)
    rw [PUSHNODE_cursor] at this
    exact this
  have hold : ∀ p, p < st.nodes.length →
      (node_at (append_node st.nodes st.cursor type).1 p).type = (node_at st.nodes p).type ∧
      (node_at (append_node st.nodes st.cursor type).1 p).name = (node_at st.nodes p).name ∧
      (node_at (append_node st.nodes st.cursor type).1 p).value = (node_at st.nodes p).value := by
    intro p hp
    apply append_node_pres (fun x => x.type = (node_at st.nodes p).type ∧
      x.name = (node_at st.nodes p).name ∧ x.value = (node_at st.nodes p).value)
      (fun x a b c d hx => hx)
    rw [node_at_append_lt _ _ _ hp]
    exact ⟨rfl, rfl, rfl⟩
  rw [← hY]
  have hpar : (node_at (set_cursor_value Y vl).nodes (set_cursor_value Y vl).cursor).parent =
      some st.cursor := by
    show (node_at (set_cursor_value Y vl).nodes Y.cursor).parent = some st.cursor
    rw [hYc]
    exact set_cursor_value_pres (fun x => x.parent = some st.cursor) vl (fun x hx => hx) Y _
      hnew.2
  rw [POPNODE_eq _ _ hpar]
  refine ⟨_, rfl, ?_, ?_, rfl, ?_, ?_, ?_, ?_, ?_, ?_, ?_⟩
  · show Y.buf = b
    rw [hY]
  · show Y.s = s
    rw [hY]
  · show Y.attrs = st.attrs
    rw [hY]; rfl
  · show (set_cursor_value Y vl).nodes.length = _
    rw [set_cursor_value_length, hYl]
  · exact set_cursor_value_pres (fun x => x.type = type) vl (fun x hx => hx) Y _ hnew.1
  · exact set_cursor_value_pres (fun x => x.parent = some st.cursor) vl (fun x hx => hx) Y _
      hnew.2
  · exact set_cursor_value_pres (fun x => x.name = nm) vl (fun x hx => hx) Y _ hname
  · have := set_cursor_value_at Y vl (by omega)
    rw [hYc] at this
    exact this
  · intro p hp
    show (node_at (set_cursor_value Y vl).nodes p).type = _ ∧ _
    rw [set_cursor_value_ne Y vl p (by omega), hYn p (by omega)]
    exact hold p hp

/-- The first `?>` after bytes that are neither NUL nor `'?'`. -/
theorem FirstStop.after {pre l : List Nat} {i : Nat} (hpre : ∀ c ∈ pre, c ≠ 0 ∧ c ≠ 63)
    (h : FirstStop (StartsWith2 63 62) l i) :
    FirstStop (StartsWith2 63 62) (pre ++ l) (pre.length + i) := by
  induction pre with
  | nil => simpa using h
  | cons c r ih =>
    have hc := hpre c (List.mem_cons_self _ _)
    have := FirstStop.cons (P := StartsWith2 63 62) (c := c) (r := r ++ l) hc.1
      (by rw [startsWith2_cons]; exact fun hh => hc.2 hh.1)
      (ih (fun x hx => hpre x (List.mem_cons_of_mem _ hx)))
    rw [List.cons_append, List.length_cons, show r.length + 1 + i = r.length + i + 1 by omega]
    exact this

/-- The bytes of a target `xml`. -/
theorem IsXmlName.bytes {t : List Nat} (h : IsXmlName t) :
    (∀ c ∈ t, is_chartype c ct_symbol = true) ∧ is_chartype (rd t) ct_start_symbol = true ∧
      (∀ c ∈ t, c ≠ 0 ∧ c ≠ 63) ∧ t.length = 3 := by
  obtain ⟨hl, h1, h2, h3⟩ := h
  match t, hl with
  | [x, m, l], _ =>
    have e1 : x = 120 ∨ x = 88 := h1
    have e2 : m = 109 ∨ m = 77 := h2
    have e3 : l = 108 ∨ l = 76 := h3
    clear h1 h2 h3
    rcases e1 with e1 | e1 <;> rcases e2 with e2 | e2 <;> rcases e3 with e3 | e3 <;>
      subst e1 <;> subst e2 <;> subst e3 <;> exact ⟨by decide, by decide, by decide, rfl⟩

/-- With `parse_pi` off a processing instruction is skipped up to its `?>`. -/
theorem parse_pi_tag_skip (o : parse_options) (hpi : o.parse_pi = false) (st : parse_state)
    (body post : List Nat) (hbuf : st.buf.drop st.s = body ++ 63 :: 62 :: post)
    (hstart : is_chartype (rd body) ct_start_symbol = true)
    (hfs : FirstStop (StartsWith2 63 62) (body ++ 63 :: 62 :: post) body.length) :
    parse_pi_tag o st = some (some { st with s := st.s + body.length + 2 }) := by
  have p0 : peek st.buf st.s = rd body := by
    rw [← rd_drop, hbuf]
    cases body with
    | nil => exact absurd hstart (by decide)
    | cons c r => rfl
  have p1 : peek st.buf (st.s + body.length) = 63 := by
    rw [peek_of_drop hbuf, peek_append_length]
  unfold parse_pi_tag
  rw [if_neg (by rw [p0, hstart]; simp), if_neg (by rw [hpi]; simp)]
  dsimp only
  rw [hbuf, scanfor2_spec 63 62 _ _ _ hfs, p1, if_neg (by decide)]

/-- With `parse_pi` on a processing instruction of target `xml` is skipped up
to its `?>`; the byte after the target is overwritten with a NUL. -/
theorem parse_pi_tag_xml (o : parse_options) (hpi : o.parse_pi = true) (st : parse_state)
    (t body post : List Nat) (hbuf : st.buf.drop st.s = t ++ (body ++ 63 :: 62 :: post))
    (ht : IsXmlName t) (hsep : body = [] ∨ is_chartype (rd body) ct_space = true)
    (hfs : FirstStop (StartsWith2 63 62) (body ++ 63 :: 62 :: post) body.length) :
    parse_pi_tag o st =
      some (some { st with buf := poke st.buf (st.s + t.length) 0,
                           s := st.s + t.length + body.length + 2 }) := by
  obtain ⟨hsym, hstart, hnz, hl3⟩ := ht.bytes
  have hp : ∀ k, peek st.buf (st.s + k) = peek _ k := peek_of_drop hbuf
  have d1 : st.buf.drop (st.s + t.length) = body ++ 63 :: 62 :: post := by
    rw [← List.drop_drop, hbuf, List.drop_left]
  have p0 : peek st.buf st.s = rd t := by
    rw [← rd_drop, hbuf]
    cases t with
    | nil => exact absurd hl3 (by decide)
    | cons c r => rfl
  have p1 : peek st.buf (st.s + t.length) = rd (body ++ 63 :: 62 :: post) := by
    rw [← rd_drop, d1]
  have hb0 : rd (body ++ 63 :: 62 :: post) ≠ 0 := rd_pi_body_ne_zero hfs
  have hlt : st.s + t.length < st.buf.length := lt_length_of_peek (by rw [p1]; exact hb0)
  have hxt : is_xml_target (poke st.buf (st.s + t.length) 0) st.s = true :=
    (is_xml_target_iff _ st.s t (fun c hc => (hnz c hc).1)
      (fun k hk => by rw [peek_poke_ne _ _ _ _ (by omega), hp, peek_append_left _ _ _ hk])
      (peek_poke_eq _ _ _ hlt)).mpr ht
  have hsk : skipWhile ct_symbol (st.buf.drop st.s) st.s = st.s + t.length := by
    rw [hbuf]
    apply skipWhile_run ct_symbol t _ st.s hsym
    cases body with
    | nil => show is_chartype 63 ct_symbol = false; decide
    | cons c r =>
      rcases hsep with hb | hb
      · exact absurd hb (List.cons_ne_nil _ _)
      · exact (space_props hb).1
  unfold parse_pi_tag
  rw [if_neg (by rw [p0, hstart]; simp), if_pos hpi]
  dsimp only
  rw [hsk, p1, if_neg hb0]
  cases body with
  | nil =>
    have p2 : peek st.buf (st.s + t.length + 1) = 62 := by
      rw [peek_of_drop d1 1]; rfl
    have hr : rd ([] ++ 63 :: 62 :: post) = 63 := rfl
    rw [hr, if_neg (fun h => h.2 rfl), peek_poke_ne _ _ _ _ (by omega), p2, if_neg (by decide),
      if_pos rfl, if_neg (fun h => h rfl), hxt, if_pos rfl]
    rfl
  | cons w body =>
    have hw : is_chartype w ct_space = true := by
      rcases hsep with hb | hb
      · exact absurd hb (List.cons_ne_nil _ _)
      · exact hb
    have hfs1 : FirstStop (StartsWith2 63 62) (body ++ 63 :: 62 :: post) body.length :=
      FirstStop.of_cons hfs
    have d2 : st.buf.drop (st.s + t.length + 1) = body ++ 63 :: 62 :: post := by
      rw [← List.drop_drop, d1]; rfl
    have p2 : peek st.buf (st.s + t.length + 1) ≠ 0 := by
      rw [← rd_drop, d2]; exact rd_pi_body_ne_zero hfs1
    have p3 : peek st.buf (st.s + t.length + 1 + body.length) = 63 := by
      rw [peek_of_drop d2, peek_append_length]
    have hrd : rd (w :: body ++ 63 :: 62 :: post) = w := rfl
    rw [hrd, if_neg (fun h => Bool.noConfusion (hw.symm.trans h.1)),
      peek_poke_ne _ _ _ _ (by omega), if_neg p2, if_neg (space_props hw).2, hxt, if_pos rfl,
      drop_poke_lt _ _ _ _ (by omega), d2, scanfor2_spec 63 62 _ _ _ hfs1,
      peek_poke_ne _ _ _ _ (by omega), p3, if_neg (by decide)]
    simp only [List.length_cons]
    congr 3
    omega

/-- The bytes before the first `?>` are not NUL. -/
theorem pi_body_nz {value post : List Nat}
    (hfs : FirstStop (StartsWith2 63 62) (value ++ 63 :: 62 :: post) value.length) :
    ∀ c ∈ value, c ≠ 0 := by
  intro c hc
  obtain ⟨k, hk, rfl⟩ := List.getElem_of_mem hc
  have := (hfs.2 k hk).1
  rw [rd_drop, peek_append_left _ _ _ hk] at this
  unfold peek at this
  rw [List.getD_eq_getElem?_getD, List.getElem?_eq_getElem hk] at this
  exact this

/-- C21: the parser at the label `LOC_TAG`, in any state, at `?`, a target
and `?>`.  A processing instruction whose target is `xml` in some letter case
and whose body is empty or starts with whitespace and ends at the first `?>`
is consumed under every option mask, with `parse_pi` on or off: the parser
moves to the byte after `?>` and leaves the cursor and the allocated nodes and
attributes as they are.  With `parse_pi` on, a processing instruction with
another target, whitespace and a value that does not start with whitespace and
ends at the first `?>` allocates exactly one node: it has the type `node_pi`,
the cursor as parent, the target as name and the value as value; the type and
the name and value pointers of the nodes allocated before are unchanged, and
the parser moves to the byte after `?>` with the cursor where it was. -/
theorem parse_pi (o : parse_options) (st : parse_state) :
    (∀ t body post : List Nat, IsXmlName t →
      (body = [] ∨ is_chartype (rd body) ct_space = true) →
      FirstStop (StartsWith2 63 62) (body ++ 63 :: 62 :: post) body.length →
      st.buf.drop st.s = 63 :: (t ++ (body ++ 63 :: 62 :: post)) →
      ∃ b : List Nat, parse_tag o st =
        some (some { st with buf := b, s := st.s + (1 + t.length + body.length + 2) })) ∧
    (o.parse_pi = true → ∀ (a : Nat) (nm : List Nat) (w : Nat) (ws value post : List Nat),
      is_chartype a ct_start_symbol = true → (∀ c ∈ nm, is_chartype c ct_symbol = true) →
      ¬ IsXmlName (a :: nm) → is_chartype w ct_space = true →
      (∀ c ∈ ws, is_chartype c ct_space = true) → is_chartype (rd value) ct_space = false →
      FirstStop (StartsWith2 63 62) (value ++ 63 :: 62 :: post) value.length →
      st.buf.drop st.s = 63 :: ((a :: nm) ++ (w :: (ws ++ (value ++ 63 :: 62 :: post)))) →
      ∃ st1 : parse_state, parse_tag o st = some (some st1) ∧
        st1.s = st.s + (1 + (a :: nm).length + (1 + ws.length) + value.length + 2) ∧
        st1.cursor = st.cursor ∧ st1.attrs = st.attrs ∧
        st1.nodes.length = st.nodes.length + 1 ∧
        (node_at st1.nodes st.nodes.length).type = node_pi ∧
        (node_at st1.nodes st.nodes.length).parent = some st.cursor ∧
        cstrOpt st1.buf (node_at st1.nodes st.nodes.length).name = some (a :: nm) ∧
        cstrOpt st1.buf (node_at st1.nodes st.nodes.length).value = some value ∧
        ∀ p, p < st.nodes.length →
          (node_at st1.nodes p).type = (node_at st.nodes p).type ∧
          (node_at st1.nodes p).name = (node_at st.nodes p).name ∧
          (node_at st1.nodes p).value = (node_at st.nodes p).value) := by
  refine ⟨?_, ?_⟩
  · intro t body post ht hsep hfs hbuf
    have h63 : peek st.buf st.s = 63 := by rw [← rd_drop, hbuf]; rfl
    have hb1 : ({ st with s := st.s + 1 } : parse_state).buf.drop
        ({ st with s := st.s + 1 } : parse_state).s = t ++ (body ++ 63 :: 62 :: post) := by
      show st.buf.drop (st.s + 1) = _
      rw [drop_of_drop hbuf 1]; rfl
    unfold parse_tag
    rw [if_pos h63]
    cases hpi : o.parse_pi
    · have hfs2 : FirstStop (StartsWith2 63 62) ((t ++ body) ++ 63 :: 62 :: post)
          (t ++ body).length := by
        have := @FirstStop.after t _ _ ht.bytes.2.2.1 hfs
        rw [List.append_assoc, List.length_append]
        exact this
      have hst : is_chartype (rd (t ++ body)) ct_start_symbol = true := by
        have := ht.bytes.2.1
        cases t with
        | nil => exact absurd ht.bytes.2.2.2 (by decide)
        | cons c r => exact this
      refine ⟨st.buf, ?_⟩
      rw [parse_pi_tag_skip o hpi _ (t ++ body) post (by rw [hb1, List.append_assoc]) hst hfs2]
      simp only [List.length_append]
      congr 3
      omega
    · refine ⟨poke st.buf (st.s + 1 + t.length) 0, ?_⟩
      rw [parse_pi_tag_xml o hpi _ t body post hb1 ht hsep hfs]
      congr 3
      show st.s + 1 + t.length + body.length + 2 = _
      omega
  · intro hpi a nm w ws value post ha hnm hx hw hws hv0 hfs hbuf
    have h63 : peek st.buf st.s = 63 := by rw [← rd_drop, hbuf]; rfl
    have hb1 : ({ st with s := st.s + 1 } : parse_state).buf.drop
        ({ st with s := st.s + 1 } : parse_state).s =
        (a :: nm) ++ (w :: (ws ++ (value ++ 63 :: 62 :: post))) := by
      show st.buf.drop (st.s + 1) = _
      rw [drop_of_drop hbuf 1]; rfl
    have hrun := parse_pi_tag_node o hpi _ a nm w ws value post hb1 ha hnm hw hws hv0 hfs hx
    obtain ⟨st1, h1, hbuf1, hs1, hc1, ha1, hl1, ht1, hp1, hn1, hv1, hold⟩ :=
      pushnode_named
        { st with buf := poke st.buf (st.s + 1 + (a :: nm).length) 0,
                  s := st.s + 1 + (a :: nm).length + 1 }
        node_pi (some (st.s + 1)) (some (st.s + 1 + (a :: nm).length + 1 + ws.length))
        (poke (poke st.buf (st.s + 1 + (a :: nm).length) 0)
          (st.s + 1 + (a :: nm).length + 1 + ws.length + value.length) 0)
        (st.s + 1 + (a :: nm).length + 1 + ws.length + value.length + 2)
    have hrun1 : parse_tag o st = some (some st1) := by
      unfold parse_tag
      rw [if_pos h63, hrun]
      exact congrArg (Option.map some) h1
    have hp : ∀ k, peek st.buf (st.s + 1 + k) = peek _ k := peek_of_drop hb1
    have hsym : ∀ c ∈ a :: nm, is_chartype c ct_symbol = true := by
      intro c hc
      rcases List.mem_cons.mp hc with h | h
      · rw [h]; exact (start_symbol_props ha).2.1
      · exact hnm c h
    have d2 : st.buf.drop (st.s + 1 + (a :: nm).length + 1 + ws.length) =
        value ++ 63 :: 62 :: post := by
      have e : st.s + 1 + (a :: nm).length + 1 + ws.length =
          st.s + 1 + ((a :: nm).length + (1 + ws.length)) := by omega
      rw [e, drop_of_drop hb1, ← List.drop_drop, List.drop_left, ← List.drop_drop]
      show List.drop ws.length (ws ++ _) = _
      rw [List.drop_left]
    have hlt1 : st.s + 1 + (a :: nm).length < st.buf.length := by
      apply lt_length_of_peek
      rw [hp, peek_append_length]
      exact space_ne_zero hw
    have hlt2 : st.s + 1 + (a :: nm).length + 1 + ws.length + value.length < st.buf.length := by
      apply lt_length_of_peek
      rw [peek_of_drop d2, peek_append_length]
      decide
    refine ⟨st1, hrun1, ?_, hc1, ha1, hl1, ht1, hp1, ?_, ?_, hold⟩
    · rw [hs1]; omega
    · rw [hn1, hbuf1]
      show some (cstrAt _ (st.s + 1)) = _
      congr 1
      apply cstrAt_of_peek _ _ _ (fun c hc => symbol_ne_zero (hsym c hc))
      · intro k hk
        rw [peek_poke_ne _ _ _ _ (by omega), peek_poke_ne _ _ _ _ (by omega), hp,
          peek_append_left _ _ _ hk]
      · rw [peek_poke_ne _ _ _ _ (by omega)]
        exact peek_poke_eq _ _ _ hlt1
    · rw [hv1, hbuf1]
      show some (cstrAt _ (st.s + 1 + (a :: nm).length + 1 + ws.length)) = _
      congr 1
      apply cstrAt_of_peek _ _ _ (pi_body_nz hfs)
      · intro k hk
        rw [peek_poke_ne _ _ _ _ (by omega), peek_poke_ne _ _ _ _ (by omega),
          peek_of_drop d2, peek_append_left _ _ _ hk]
      · exact peek_poke_eq _ _ _ (by unfold poke; rw [List.length_set]; exact hlt2)

/-- The states of the parser after the `'<'` of `<?xml version="1.0"?><a/>` and
of `<?target value?><a/>`, with `parse_pi` on. -/
theorem parse_pi_witness :
    (∃ b : List Nat,
      parse_tag ⟨true, true, true, false, false, true, true, false, false⟩
        { buf := [60, 63, 120, 109, 108, 32, 118, 101, 114, 115, 105, 111, 110, 61, 34, 49, 46, 48, 34, 63, 62, 60, 97, 47, 62],
          s := 1, cursor := 0,
          nodes := [{ xml_node_struct.new node_document with parent := some 0 }],
          attrs := [] } =
      some (some
        { buf := b, s := 1 + (1 + [120, 109, 108].length + [32, 118, 101, 114, 115, 105, 111, 110, 61, 34, 49, 46, 48, 34].length + 2),
          cursor := 0,
          nodes := [{ xml_node_struct.new node_document with parent := some 0 }],
          attrs := [] })) ∧
    (∃ st1 : parse_state,
      parse_tag ⟨true, true, true, false, false, true, true, false, false⟩
        { buf := [60, 63, 116, 97, 114, 103, 101, 116, 32, 118, 97, 108, 117, 101, 63, 62, 60, 97, 47, 62],
          s := 1, cursor := 0,
          nodes := [{ xml_node_struct.new node_document with parent := some 0 }],
          attrs := [] } = some (some st1) ∧
      st1.s = 1 + (1 + (116 :: [97, 114, 103, 101, 116]).length + (1 + ([] : List Nat).length) +
        [118, 97, 108, 117, 101].length + 2) ∧
      st1.cursor = 0 ∧ st1.attrs = [] ∧ st1.nodes.length = 1 + 1 ∧
      (node_at st1.nodes 1).type = node_pi ∧ (node_at st1.nodes 1).parent = some 0 ∧
      cstrOpt st1.buf (node_at st1.nodes 1).name = some (116 :: [97, 114, 103, 101, 116]) ∧
      cstrOpt st1.buf (node_at st1.nodes 1).value = some [118, 97, 108, 117, 101] ∧
      ∀ p, p < 1 →
        (node_at st1.nodes p).type =
          (node_at [{ xml_node_struct.new node_document with parent := some 0 }] p).type ∧
        (node_at st1.nodes p).name =
          (node_at [{ xml_node_struct.new node_document with parent := some 0 }] p).name ∧
        (node_at st1.nodes p).value =
          (node_at [{ xml_node_struct.new node_document with parent := some 0 }] p).value) :=
  ⟨(parse_pi _ _).1 [120, 109, 108] [32, 118, 101, 114, 115, 105, 111, 110, 61, 34, 49, 46, 48, 34] [60, 97, 47, 62]
      (by decide) (by decide) (by decide) rfl,
    (parse_pi _ _).2 rfl 116 [97, 114, 103, 101, 116] 32 [] [118, 97, 108, 117, 101] [60, 97, 47, 62]
      (by decide) (by decide) (by decide) (by decide) (by decide) (by decide) (by decide) rfl⟩

/-- The documents `<?xml version="1.0"?><a/>` and `<?XML?><a/>` are parsed, under
every option mask, to the document with the only child `a`. -/
theorem parse_pi_xml_example (pi comments cdata ws ext esc eol wnorm wconv : Bool) :
    parsed_tree ⟨pi, comments, cdata, ws, ext, esc, eol, wnorm, wconv⟩
      [60, 63, 120, 109, 108, 32, 118, 101, 114, 115, 105, 111, 110, 61, 34, 49, 46, 48, 34, 63, 62, 60, 97, 47, 62] 2 =
    some (some (xml_tree.node node_document none none []
      [xml_tree.node node_element (some [97]) none [] []])) ∧
    parsed_tree ⟨pi, comments, cdata, ws, ext, esc, eol, wnorm, wconv⟩
      [60, 63, 88, 77, 76, 63, 62, 60, 97, 47, 62] 2 =
    some (some (xml_tree.node node_document none none []
      [xml_tree.node node_element (some [97]) none [] []])) := by
  cases pi <;> cases comments <;> cases cdata <;> cases ws <;> cases ext <;> cases esc <;>
    cases eol <;> cases wnorm <;> cases wconv <;> exact ⟨rfl, rfl⟩

/-- The document `<?target value?><a/>` is parsed, with `parse_pi` on and under
every setting of the other options, to the document with the processing
instruction of name `target` and value `value` and the element `a`; with
`parse_pi` off the only child is `a`. -/
theorem parse_pi_node_example (comments cdata ws ext esc eol wnorm wconv : Bool) :
    parsed_tree ⟨true, comments, cdata, ws, ext, esc, eol, wnorm, wconv⟩
      [60, 63, 116, 97, 114, 103, 101, 116, 32, 118, 97, 108, 117, 101, 63, 62, 60, 97, 47, 62] 2 =
    some (some (xml_tree.node node_document none none []
      [xml_tree.node node_pi (some [116, 97, 114, 103, 101, 116]) (some [118, 97, 108, 117, 101]) [] [],
       xml_tree.node node_element (some [97]) none [] []])) ∧
    parsed_tree ⟨false, comments, cdata, ws, ext, esc, eol, wnorm, wconv⟩
      [60, 63, 116, 97, 114, 103, 101, 116, 32, 118, 97, 108, 117, 101, 63, 62, 60, 97, 47, 62] 2 =
    some (some (xml_tree.node node_document none none []
      [xml_tree.node node_element (some [97]) none [] []])) := by
  cases comments <;> cases cdata <;> cases ws <;> cases ext <;> cases esc <;>
    cases eol <;> cases wnorm <;> cases wconv <;> exact ⟨rfl, rfl⟩

/-! ## C24: lookup by name in the child list and in the attribute list -/

/-- `strcmp` returns 0 exactly for strings of the same bytes. -/
theorem strcmp_eq_zero_iff : ∀ a b : List Nat, strcmp a b = 0 ↔ cstr a = cstr b := by
  intro a
  induction a with
  | nil =>
    intro b
    cases b with
    | nil => simp [strcmp, cstr]
    | cons d t =>
      by_cases hd : d = 0
      · subst hd; simp [strcmp, cstr]
      · simp [strcmp, cstr, hd]
  | cons c r ih =>
    intro b
    cases b with
    | nil =>
      by_cases hc : c = 0
      · subst hc; simp [strcmp, cstr]
      · simp [strcmp, cstr, hc]
    | cons d t =>
      rw [strcmp]
      by_cases hcd : c = d
      · subst hcd
        rw [if_neg (fun h => h rfl)]
        by_cases hc : c = 0
        · subst hc; simp [cstr]
        · rw [if_neg hc, ih t]
          simp [cstr, hc]
      · rw [if_pos hcd]
        have h1 : ¬ ((c : Int) - (d : Int) = 0) := by omega
        simp only [h1, false_iff]
        unfold cstr
        by_cases hc : c = 0
        · subst hc
          have hd : d ≠ 0 := fun h => hcd h.symm
          simp [hd]
        · by_cases hd : d = 0
          · subst hd; simp [hc]
          · simp [hc, hd, hcd]

/-- The test `p && !strcmp(name, p)`: the pointer is not null and the string
that it points to has the bytes of `name`. -/
theorem str_is_iff (mem name : List Nat) (p : Option Nat) :
    str_is mem name p = true ↔ cstrOpt mem p = some (cstr name) := by
  cases p with
  | none => simp [str_is, cstrOpt]
  | some q =>
    simp only [str_is, cstrOpt, Option.map_some', decide_eq_true_eq, strcmp_eq_zero_iff,
      Option.some.injEq]
    unfold cstrAt cstr
    exact eq_comm

/-- The loop of `xml_node::child` over a sibling list returns the first node of
the list whose name is `name`. -/
theorem child_loop_spec (nodes : List xml_node_struct) (mem name : List Nat) :
    ∀ (l : List Nat) (p : Option Nat) (fuel : Nat), SiblingList nodes p l → l.length < fuel →
      child_loop nodes mem name fuel p =
        some (l.find? (fun i => str_is mem name (node_at nodes i).name)) := by
  intro l
  induction l with
  | nil =>
    intro p fuel h hf
    obtain ⟨n, rfl⟩ : ∃ n, fuel = n + 1 := ⟨fuel - 1, by omega⟩
    rw [show p = none from h]
    rfl
  | cons x xs ih =>
    intro p fuel h hf
    obtain ⟨n, rfl⟩ : ∃ n, fuel = n + 1 := ⟨fuel - 1, by simp at hf; omega⟩
    rw [h.1, child_loop, List.find?_cons]
    cases hx : str_is mem name (node_at nodes x).name
    · rw [if_neg Bool.false_ne_true]
      exact ih _ n h.2 (by simpa using hf)
    · rw [if_pos rfl]

theorem attribute_loop_spec (attrs : List xml_attribute_struct) (mem name : List Nat) :
    ∀ (l : List Nat) (p : Option Nat) (fuel : Nat), AttributeList attrs p l → l.length < fuel →
      attribute_loop attrs mem name fuel p =
        some (l.find? (fun i => str_is mem name (attr_at attrs i).name)) := by
  intro l
  induction l with
  | nil =>
    intro p fuel h hf
    obtain ⟨n, rfl⟩ : ∃ n, fuel = n + 1 := ⟨fuel - 1, by omega⟩
    rw [show p = none from h]
    rfl
  | cons x xs ih =>
    intro p fuel h hf
    obtain ⟨n, rfl⟩ : ∃ n, fuel = n + 1 := ⟨fuel - 1, by simp at hf; omega⟩
    rw [h.1, attribute_loop, List.find?_cons]
    cases hx : str_is mem name (attr_at attrs x).name
    · rw [if_neg Bool.false_ne_true]
      exact ih _ n h.2 (by simpa using hf)
    · rw [if_pos rfl]

theorem str_is_eq_decide (mem name : List Nat) (p : Option Nat) :
    str_is mem name p = decide (cstrOpt mem p = some (cstr name)) := by
  rw [Bool.eq_iff_iff, str_is_iff, decide_eq_true_iff]

/-- C24: `xml_node::child(name)` on a node whose child list is `l`, run with
fuel for every child, returns the first node of `l`, in list order, whose name
pointer is not null and points to a string with the bytes of `name`, and the
empty handle when `l` has no such node; on the empty handle it returns the
empty handle.  `xml_node::attribute(name)` does the same over the attribute
list. -/
theorem child_attribute_lookup (fuel : Nat) (nodes : List xml_node_struct)
    (attrs : List xml_attribute_struct) (mem name : List Nat) :
    (∀ (this : Nat) (l : List Nat), SiblingList nodes (node_at nodes this).first_child l →
      l.length < fuel →
      xml_node.child fuel nodes mem (some this) name =
        some (l.find? (fun i => decide (cstrOpt mem (node_at nodes i).name = some (cstr name))))) ∧
    xml_node.child fuel nodes mem none name = some none ∧
    (∀ (this : Nat) (l : List Nat),
      AttributeList attrs (node_at nodes this).first_attribute l → l.length < fuel →
      xml_node.attribute fuel nodes attrs mem (some this) name =
        some (l.find? (fun i => decide (cstrOpt mem (attr_at attrs i).name = some (cstr name))))) ∧
    xml_node.attribute fuel nodes attrs mem none name = some none := by
  refine ⟨?_, rfl, ?_, rfl⟩
  · intro this l h hf
    have := child_loop_spec nodes mem name l _ fuel h hf
    simp only [str_is_eq_decide] at this
    exact this
  · intro this l h hf
    have := attribute_loop_spec attrs mem name l _ fuel h hf
    simp only [str_is_eq_decide] at this
    exact this

/-! ## Sibling lists as lists -/

theorem childList_iff (nodes : List xml_node_struct) : ∀ (l : List Nat) (prev first last : Option Nat),
    ChildList nodes prev first l last ↔ SibSeg nodes prev first l none ∧ last = lastOr prev l := by
  intro l
  induction l with
  | nil => intro prev first last; exact Iff.rfl
  | cons x xs ih =>
    intro prev first last
    unfold ChildList SibSeg lastOr
    rw [ih]
    constructor
    · rintro ⟨h1, h2, h3, h4⟩; exact ⟨⟨h1, h2, h3⟩, h4⟩
    · rintro ⟨⟨h1, h2, h3⟩, h4⟩; exact ⟨h1, h2, h3, h4⟩

theorem sibSeg_siblingList (nodes : List xml_node_struct) : ∀ (l : List Nat)
    (prev first : Option Nat), SibSeg nodes prev first l none → SiblingList nodes first l := by
  intro l
  induction l with
  | nil => intro prev first h; exact h
  | cons x xs ih => intro prev first h; exact ⟨h.1, ih _ _ h.2.2⟩

theorem ChildList.siblingList {nodes : List xml_node_struct} {l : List Nat}
    {prev first last : Option Nat} (h : ChildList nodes prev first l last) :
    SiblingList nodes first l :=
  sibSeg_siblingList nodes l prev first ((childList_iff nodes l prev first last).mp h).1

/-- The walk from a pointer visits one list of nodes only. -/
theorem SiblingList.unique_walk {nodes : List xml_node_struct} : ∀ {l l2 : List Nat} {p : Option Nat},
    SiblingList nodes p l → SiblingList nodes p l2 → l = l2 := by
  intro l
  induction l with
  | nil =>
    intro l2 p h h2
    cases l2 with
    | nil => rfl
    | cons y ys =>
      have h' : p = none := h
      rw [h'] at h2
      exact absurd h2.1 (by simp)
  | cons x xs ih =>
    intro l2 p h h2
    cases l2 with
    | nil =>
      have h2' : p = none := h2
      rw [h2'] at h
      exact absurd h.1 (by simp)
    | cons y ys =>
      have hxy : x = y := by
        have := h.1.symm.trans h2.1
        exact Option.some.inj this
      subst hxy
      rw [ih h.2 h2.2]

theorem SiblingList.suffix {nodes : List xml_node_struct} : ∀ {a : List Nat} {x : Nat}
    {b : List Nat} {p : Option Nat}, SiblingList nodes p (a ++ x :: b) →
    SiblingList nodes (some x) (x :: b) := by
  intro a
  induction a with
  | nil => intro x b p h; exact ⟨rfl, h.2⟩
  | cons y ys ih => intro x b p h; exact ih h.2

/-- A sibling list that ends at the null pointer visits no node twice. -/
theorem SiblingList.nodup {nodes : List xml_node_struct} : ∀ {l : List Nat} {p : Option Nat},
    SiblingList nodes p l → l.Nodup := by
  intro l
  induction l with
  | nil => intro p _; exact List.nodup_nil
  | cons x xs ih =>
    intro p h
    rw [List.nodup_cons]
    refine ⟨?_, ih h.2⟩
    intro hx
    obtain ⟨a, b, hab⟩ := List.append_of_mem hx
    have h1 : SiblingList nodes (some x) (x :: xs) := ⟨rfl, h.2⟩
    have h2 : SiblingList nodes (some x) (x :: b) := by
      have := h.2
      rw [hab] at this
      exact this.suffix
    have := congrArg List.length (h1.unique_walk h2)
    rw [hab] at this
    simp at this
    omega

/-- The walk `sibling_walk` with fuel for every node gives the sibling list. -/
theorem sibling_walk_eq (nodes : List xml_node_struct) : ∀ (l : List Nat) (p : Option Nat)
    (fuel : Nat), SiblingList nodes p l → l.length ≤ fuel → sibling_walk nodes fuel p = l := by
  intro l
  induction l with
  | nil =>
    intro p fuel h _
    rw [show p = none from h]
    cases fuel <;> rfl
  | cons x xs ih =>
    intro p fuel h hf
    obtain ⟨n, rfl⟩ : ∃ n, fuel = n + 1 := ⟨fuel - 1, by simp at hf; omega⟩
    rw [h.1, sibling_walk, ih _ n h.2 (by simpa using hf)]

theorem lastOr_cons_ne (prev : Option Nat) (x : Nat) (xs : List Nat) :
    lastOr prev (x :: xs) = lastOr none (x :: xs) := rfl

theorem lastOr_append (prev : Option Nat) (a b : List Nat) :
    lastOr prev (a ++ b) = lastOr (lastOr prev a) b := by
  induction a generalizing prev with
  | nil => rfl
  | cons x xs ih => exact ih (some x)

theorem lastOr_mem : ∀ (l : List Nat) (prev : Option Nat) (y : Nat), lastOr prev l = some y →
    prev = some y ∨ y ∈ l := by
  intro l
  induction l with
  | nil => intro prev y h; exact Or.inl h
  | cons x xs ih =>
    intro prev y h
    rcases ih (some x) y h with h1 | h1
    · right; rw [Option.some.inj h1]; exact List.mem_cons_self _ _
    · right; exact List.mem_cons_of_mem _ h1

theorem sibSeg_append (nodes : List xml_node_struct) : ∀ (a b : List Nat)
    (prev first next : Option Nat),
    SibSeg nodes prev first (a ++ b) next ↔
      ∃ mid, SibSeg nodes prev first a mid ∧ SibSeg nodes (lastOr prev a) mid b next := by
  intro a
  induction a with
  | nil =>
    intro b prev first next
    constructor
    · intro h; exact ⟨first, rfl, h⟩
    · rintro ⟨mid, h1, h2⟩
      have h1' : first = mid := h1
      rw [h1']; exact h2
  | cons x xs ih =>
    intro b prev first next
    rw [List.cons_append]
    constructor
    · intro h
      obtain ⟨mid, h4, h5⟩ := (ih b _ _ _).mp h.2.2
      exact ⟨mid, ⟨h.1, h.2.1, h4⟩, h5⟩
    · rintro ⟨mid, h, h5⟩
      exact ⟨h.1, h.2.1, (ih b _ _ _).mpr ⟨mid, h.2.2, h5⟩⟩

/-- A segment is a segment in every memory with the same links at its nodes. -/
theorem sibSeg_frame (nodes nodes2 : List xml_node_struct) : ∀ (l : List Nat)
    (prev first next : Option Nat),
    (∀ x ∈ l, (node_at nodes2 x).prev_sibling = (node_at nodes x).prev_sibling ∧
      (node_at nodes2 x).next_sibling = (node_at nodes x).next_sibling) →
    SibSeg nodes prev first l next → SibSeg nodes2 prev first l next := by
  intro l
  induction l with
  | nil => intro prev first next _ h; exact h
  | cons x xs ih =>
    intro prev first next hl h
    have hx := hl x (List.mem_cons_self _ _)
    refine ⟨h.1, hx.1.trans h.2.1, ?_⟩
    rw [hx.2]
    exact ih _ _ _ (fun y hy => hl y (List.mem_cons_of_mem _ hy)) h.2.2

/-! ## C22: detaching a child -/

theorem sibSeg_head_next {nodes : List xml_node_struct} {prev first : Option Nat} {c : Nat}
    {B : List Nat} (h : SibSeg nodes prev first (c :: B) none) :
    (node_at nodes c).next_sibling = B.head? := by
  cases B with
  | nil => exact h.2.2
  | cons y ys => exact h.2.2.1

theorem sibSeg_mid {nodes : List xml_node_struct} {A : List Nat} {prev first : Option Nat}
    {c : Nat} {B : List Nat} (h : SibSeg nodes prev first (A ++ c :: B) none) :
    (if A = [] then first = some c else True) ∧
      (node_at nodes c).prev_sibling = lastOr prev A ∧
      (node_at nodes c).next_sibling = B.head? := by
  obtain ⟨mid, h1, h2⟩ := (sibSeg_append nodes A (c :: B) prev first none).mp h
  refine ⟨?_, h2.2.1, sibSeg_head_next h2⟩
  cases A with
  | nil =>
    rw [if_pos rfl]
    have h1' : first = mid := h1
    rw [h1']; exact h2.1
  | cons a A => rw [if_neg (List.cons_ne_nil _ _)]; trivial

/-- A sibling list from which the node `c` is left out is a sibling list in a
memory in which the node before `c` points on to the node after `c` and the
node after `c` points back to the node before `c`. -/
theorem sibSeg_bypass (nodes nodes2 : List xml_node_struct) (c : Nat) (B : List Nat) :
    ∀ (A : List Nat) (prev first : Option Nat),
      SibSeg nodes prev first (A ++ c :: B) none → (A ++ c :: B).Nodup →
      (∀ x ∈ A ++ c :: B, prev ≠ some x) →
      (∀ x ∈ A ++ B, lastOr prev A ≠ some x →
        (node_at nodes2 x).next_sibling = (node_at nodes x).next_sibling) →
      (∀ x ∈ A ++ B, (node_at nodes c).next_sibling ≠ some x →
        (node_at nodes2 x).prev_sibling = (node_at nodes x).prev_sibling) →
      (∀ pv ∈ A, lastOr prev A = some pv →
        (node_at nodes2 pv).next_sibling = (node_at nodes c).next_sibling) →
      (∀ nx, (node_at nodes c).next_sibling = some nx →
        (node_at nodes2 nx).prev_sibling = (node_at nodes c).prev_sibling) →
      SibSeg nodes2 prev (if A = [] then (node_at nodes c).next_sibling else first)
        (A ++ B) none := by
  intro A
  induction A with
  | nil =>
    intro prev first h hnd hprev h1 h2 _ h4
    rw [if_pos rfl]
    have hc : (node_at nodes c).prev_sibling = prev := h.2.1
    have hB : SibSeg nodes (some c) (node_at nodes c).next_sibling B none := h.2.2
    cases B with
    | nil => exact hB
    | cons nx B =>
      have hnx : (node_at nodes c).next_sibling = some nx := hB.1
      have hnd2 : nx ∉ B := by
        have := (List.nodup_cons.mp hnd).2
        exact (List.nodup_cons.mp this).1
      refine ⟨hnx, (h4 nx hnx).trans hc, ?_⟩
      rw [h1 nx (List.mem_cons_self _ _) (hprev nx (by simp))]
      apply sibSeg_frame nodes nodes2 B _ _ _ _ hB.2.2
      intro x hx
      refine ⟨h2 x (List.mem_cons_of_mem _ hx) ?_, h1 x (List.mem_cons_of_mem _ hx) ?_⟩
      · rw [hnx]
        intro e
        exact hnd2 (by rw [Option.some.inj e]; exact hx)
      · exact hprev x (by simp [hx])
  | cons a A ih =>
    intro prev first h hnd hprev h1 h2 h3 h4
    rw [if_neg (List.cons_ne_nil _ _)]
    have hrest : SibSeg nodes (some a) (node_at nodes a).next_sibling (A ++ c :: B) none := h.2.2
    have hmid := sibSeg_mid hrest
    have hnd1 := List.nodup_cons.mp hnd
    have haB : a ∉ B := fun hh => hnd1.1 (by simp [hh])
    have haA : a ∉ A := fun hh => hnd1.1 (by simp [hh])
    have hih := ih (some a) (node_at nodes a).next_sibling hrest hnd1.2
      (fun x hx e => hnd1.1 (by rw [Option.some.inj e]; exact hx))
      (fun x hx hl => h1 x (List.mem_cons_of_mem _ hx) hl)
      (fun x hx hl => h2 x (List.mem_cons_of_mem _ hx) hl)
      (fun pv hpv hl => h3 pv (List.mem_cons_of_mem _ hpv) hl) h4
    refine ⟨h.1, ?_, ?_⟩
    · rw [h2 a (List.mem_cons_self _ _) ?_]
      · exact h.2.1
      · rw [hmid.2.2]
        intro e
        exact haB (List.mem_of_mem_head? e)
    · by_cases hA : A = []
      · subst hA
        rw [if_pos rfl] at hih
        rw [h3 a (List.mem_cons_self _ _) rfl]
        exact hih
      · rw [if_neg hA] at hih
        rw [h1 a (List.mem_cons_self _ _) ?_]
        · exact hih
        · intro e
          have e' : lastOr (some a) A = some a := e
          cases A with
          | nil => exact hA rfl
          | cons y ys =>
            rcases lastOr_mem (y :: ys) none a e' with hh | hh
            · exact absurd hh (by simp)
            · exact haA hh

theorem relink_next_some {nodes : List xml_node_struct} {r c nx : Nat}
    (h : (node_at nodes c).next_sibling = some nx) :
    relink_next nodes r c =
      nodes.set nx { node_at nodes nx with prev_sibling := (node_at nodes c).prev_sibling } := by
  unfold relink_next
  rw [h]

theorem relink_next_none {nodes : List xml_node_struct} {r c : Nat}
    (h : (node_at nodes c).next_sibling = none) :
    relink_next nodes r c =
      nodes.set r { node_at nodes r with last_child := (node_at nodes c).prev_sibling } := by
  unfold relink_next
  rw [h]

theorem relink_prev_some {nodes : List xml_node_struct} {r c pv : Nat}
    (h : (node_at nodes c).prev_sibling = some pv) :
    relink_prev nodes r c =
      nodes.set pv { node_at nodes pv with next_sibling := (node_at nodes c).next_sibling } := by
  unfold relink_prev
  rw [h]

theorem relink_prev_none {nodes : List xml_node_struct} {r c : Nat}
    (h : (node_at nodes c).prev_sibling = none) :
    relink_prev nodes r c =
      nodes.set r { node_at nodes r with first_child := (node_at nodes c).next_sibling } := by
  unfold relink_prev
  rw [h]

/-- What the first statement of `remove_child` keeps in every record. -/
theorem relink_next_pres (P : xml_node_struct → Prop)
    (hP : ∀ (x : xml_node_struct) (a b : Option Nat),
      P x → P { x with prev_sibling := a, last_child := b })
    (nodes : List xml_node_struct) (r c j : Nat) (h : P (node_at nodes j)) :
    P (node_at (relink_next nodes r c) j) := by
  cases hn : (node_at nodes c).next_sibling with
  | none =>
    rw [relink_next_none hn]
    exact node_at_set_upd P (fun x => { x with last_child := _ })
      (fun x hx => hP x x.prev_sibling _ hx) _ _ _ h
  | some nx =>
    rw [relink_next_some hn]
    exact node_at_set_upd P (fun x => { x with prev_sibling := _ })
      (fun x hx => hP x _ x.last_child hx) _ _ _ h

/-- What the second statement of `remove_child` keeps in every record. -/
theorem relink_prev_pres (P : xml_node_struct → Prop)
    (hP : ∀ (x : xml_node_struct) (a b : Option Nat),
      P x → P { x with next_sibling := a, first_child := b })
    (nodes : List xml_node_struct) (r c j : Nat) (h : P (node_at nodes j)) :
    P (node_at (relink_prev nodes r c) j) := by
  cases hn : (node_at nodes c).prev_sibling with
  | none =>
    rw [relink_prev_none hn]
    exact node_at_set_upd P (fun x => { x with first_child := _ })
      (fun x hx => hP x x.next_sibling _ hx) _ _ _ h
  | some pv =>
    rw [relink_prev_some hn]
    exact node_at_set_upd P (fun x => { x with next_sibling := _ })
      (fun x hx => hP x _ x.first_child hx) _ _ _ h

theorem relink_next_length (nodes : List xml_node_struct) (r c : Nat) :
    (relink_next nodes r c).length = nodes.length := by
  unfold relink_next
  split <;> exact List.length_set _ _ _

/-- The `prev_sibling` of a node other than the one after `c` is kept. -/
theorem relink_next_prev_ne (nodes : List xml_node_struct) (r c x : Nat)
    (h : (node_at nodes c).next_sibling ≠ some x) :
    (node_at (relink_next nodes r c) x).prev_sibling = (node_at nodes x).prev_sibling := by
  cases hn : (node_at nodes c).next_sibling with
  | none =>
    rw [relink_next_none hn]
    exact node_at_set_upd (fun y => y.prev_sibling = (node_at nodes x).prev_sibling)
      (fun y => { y with last_child := (node_at nodes c).prev_sibling }) (fun y hy => hy) _ _ _ rfl
  | some nx =>
    rw [relink_next_some hn, node_at_set_ne]
    intro e
    exact h (by rw [hn, e])

/-- The `last_child` of every node is kept when `c` is not the last child. -/
theorem relink_next_last_some (nodes : List xml_node_struct) (r c nx x : Nat)
    (h : (node_at nodes c).next_sibling = some nx) :
    (node_at (relink_next nodes r c) x).last_child = (node_at nodes x).last_child := by
  rw [relink_next_some h]
  exact node_at_set_upd (fun y => y.last_child = (node_at nodes x).last_child)
    (fun y => { y with prev_sibling := (node_at nodes c).prev_sibling }) (fun y hy => hy) _ _ _ rfl

/-- The `next_sibling` of a node other than the one before `c` is kept. -/
theorem relink_prev_next_ne (nodes : List xml_node_struct) (r c x : Nat)
    (h : (node_at nodes c).prev_sibling ≠ some x) :
    (node_at (relink_prev nodes r c) x).next_sibling = (node_at nodes x).next_sibling := by
  cases hn : (node_at nodes c).prev_sibling with
  | none =>
    rw [relink_prev_none hn]
    exact node_at_set_upd (fun y => y.next_sibling = (node_at nodes x).next_sibling)
      (fun y => { y with first_child := (node_at nodes c).next_sibling }) (fun y hy => hy) _ _ _ rfl
  | some pv =>
    rw [relink_prev_some hn, node_at_set_ne]
    intro e
    exact h (by rw [hn, e])

/-- The `first_child` of every node is kept when `c` is not the first child. -/
theorem relink_prev_first_some (nodes : List xml_node_struct) (r c pv x : Nat)
    (h : (node_at nodes c).prev_sibling = some pv) :
    (node_at (relink_prev nodes r c) x).first_child = (node_at nodes x).first_child := by
  rw [relink_prev_some h]
  exact node_at_set_upd (fun y => y.first_child = (node_at nodes x).first_child)
    (fun y => { y with next_sibling := (node_at nodes c).next_sibling }) (fun y hy => hy) _ _ _ rfl

/-- The four assignments of `xml_node::remove_child`, read in the memory after
the call. -/
theorem remove_child_links (nodes : List xml_node_struct) (r c : Nat) (hr : r < nodes.length)
    (hnc : (node_at nodes c).next_sibling ≠ some c) :
    (∀ pv, (node_at nodes c).prev_sibling = some pv → pv < nodes.length →
      (node_at (relink_prev (relink_next nodes r c) r c) pv).next_sibling =
        (node_at nodes c).next_sibling) ∧
    ((node_at nodes c).prev_sibling = none →
      (node_at (relink_prev (relink_next nodes r c) r c) r).first_child =
        (node_at nodes c).next_sibling) ∧
    (∀ nx, (node_at nodes c).next_sibling = some nx → nx < nodes.length →
      (node_at (relink_prev (relink_next nodes r c) r c) nx).prev_sibling =
        (node_at nodes c).prev_sibling) ∧
    ((node_at nodes c).next_sibling = none →
      (node_at (relink_prev (relink_next nodes r c) r c) r).last_child =
        (node_at nodes c).prev_sibling) := by
  have hcn : (node_at (relink_next nodes r c) c).next_sibling = (node_at nodes c).next_sibling :=
    relink_next_pres (fun y => y.next_sibling = (node_at nodes c).next_sibling)
      (fun y a b hy => hy) nodes r c c rfl
  have hcp : (node_at (relink_next nodes r c) c).prev_sibling = (node_at nodes c).prev_sibling :=
    relink_next_prev_ne nodes r c c hnc
  have hlen := relink_next_length nodes r c
  refine ⟨?_, ?_, ?_, ?_⟩
  · intro pv hpv hlt
    rw [relink_prev_some (hcp.trans hpv), node_at_set_eq _ _ _ (by omega)]
    exact hcn
  · intro hpv
    rw [relink_prev_none (hcp.trans hpv), node_at_set_eq _ _ _ (by omega)]
    exact hcn
  · intro nx hnx hlt
    apply relink_prev_pres (fun y => y.prev_sibling = (node_at nodes c).prev_sibling)
      (fun y a b hy => hy)
    rw [relink_next_some hnx, node_at_set_eq _ _ _ hlt]
  · intro hnx
    apply relink_prev_pres (fun y => y.last_child = (node_at nodes c).prev_sibling)
      (fun y a b hy => hy)
    rw [relink_next_none hnx, node_at_set_eq _ _ _ hr]

/-- `n.parent()` is the node `r` for a node `n` other than `r` whose parent
pointer is `r`. -/
theorem parent_of_child (nodes : List xml_node_struct) (r c : Nat) (hcr : c ≠ r)
    (hp : (node_at nodes c).parent = some r) : xml_node.parent nodes (some c) = some r := by
  have : xml_node.type_document nodes (some c) = false := by
    show decide (some c = (node_at nodes c).parent ∧ (node_at nodes c).type = node_document) =
      false
    rw [decide_eq_false_iff_not, hp]
    intro h
    exact hcr (Option.some.inj h.1)
  show (if xml_node.type_document nodes (some c) = false then (node_at nodes c).parent
    else none) = some r
  rw [if_pos this, hp]

theorem lastOr_none_eq_none : ∀ (l : List Nat), lastOr none l = none → l = [] := by
  intro l h
  cases l with
  | nil => rfl
  | cons x xs =>
    exfalso
    have : ∀ (ys : List Nat) (y : Nat), lastOr (some y) ys ≠ none := by
      intro ys
      induction ys with
      | nil => intro y h; exact absurd h (by simp [lastOr])
      | cons z zs ih => intro y; exact ih z
    exact this xs x h

/-- C22: `xml_node::remove_child(n)` on a node `this` whose children are the
consistent doubly linked list `L` (every node of `L` has `this` as parent, and
`this` is not among them), for a node `n` of `L`.  In the memory after the
call the `next_sibling` of the former previous sibling of `n` is the former
next sibling of `n`, or the `first_child` of `this` is when `n` had no previous
sibling; the `prev_sibling` of the former next sibling is the former previous
sibling, or the `last_child` of `this` is when `n` had no next sibling; the
children of `this` are again a consistent doubly linked list, the list `L`
without `n` in the same order, which is what the walk along `next_sibling` from
`first_child` visits; and that list is shorter than `L` by one. -/
theorem remove_child_relinks (nodes : List xml_node_struct) (this n : Nat) (L : List Nat)
    (hthis : this < nodes.length)
    (hL : ∀ x ∈ L, x < nodes.length ∧ (node_at nodes x).parent = some this)
    (hnot : this ∉ L)
    (hlist : ChildList nodes none (node_at nodes this).first_child L
      (node_at nodes this).last_child)
    (hn : n ∈ L) :
    (∀ pv, (node_at nodes n).prev_sibling = some pv →
      (node_at (xml_node.remove_child nodes (some this) (some n)) pv).next_sibling =
        (node_at nodes n).next_sibling) ∧
    ((node_at nodes n).prev_sibling = none →
      (node_at (xml_node.remove_child nodes (some this) (some n)) this).first_child =
        (node_at nodes n).next_sibling) ∧
    (∀ nx, (node_at nodes n).next_sibling = some nx →
      (node_at (xml_node.remove_child nodes (some this) (some n)) nx).prev_sibling =
        (node_at nodes n).prev_sibling) ∧
    ((node_at nodes n).next_sibling = none →
      (node_at (xml_node.remove_child nodes (some this) (some n)) this).last_child =
        (node_at nodes n).prev_sibling) ∧
    ChildList (xml_node.remove_child nodes (some this) (some n)) none
      (node_at (xml_node.remove_child nodes (some this) (some n)) this).first_child (L.erase n)
      (node_at (xml_node.remove_child nodes (some this) (some n)) this).last_child ∧
    (∀ fuel, L.length ≤ fuel + 1 →
      sibling_walk (xml_node.remove_child nodes (some this) (some n)) fuel
        (node_at (xml_node.remove_child nodes (some this) (some n)) this).first_child =
          L.erase n) ∧
    (L.erase n).length + 1 = L.length := by
  have hnr : n ≠ this := fun e => hnot (e ▸ hn)
  have hrun : xml_node.remove_child nodes (some this) (some n) =
      relink_prev (relink_next nodes this n) this n := by
    unfold xml_node.remove_child
    dsimp only
    rw [parent_of_child nodes this n hnr (hL n hn).2, if_neg (fun h => h rfl)]
  rw [hrun]
  obtain ⟨A, B, hAB⟩ := List.append_of_mem hn
  have hseg := (childList_iff nodes L none _ _).mp hlist
  have hnd : L.Nodup := hlist.siblingList.nodup
  rw [hAB] at hseg hnd
  have hnA : n ∉ A := by
    intro h
    have := (List.nodup_append.mp hnd).2.2
    exact this h (List.mem_cons_self _ _)
  have hnB : n ∉ B := (List.nodup_cons.mp (List.nodup_append.mp hnd).2.1).1
  have hmid := sibSeg_mid hseg.1
  have herase : L.erase n = A ++ B := by
    rw [hAB, List.erase_append_right _ hnA, List.erase_cons_head]
  have hmemL : ∀ x, x ∈ A ++ B → x ∈ L := by
    intro x hx
    rw [hAB]
    rcases List.mem_append.mp hx with h | h
    · exact List.mem_append_left _ h
    · exact List.mem_append_right _ (List.mem_cons_of_mem _ h)
  have hnc : (node_at nodes n).next_sibling ≠ some n := by
    rw [hmid.2.2]
    intro e
    exact hnB (List.mem_of_mem_head? e)
  obtain ⟨k1, k2, k3, k4⟩ := remove_child_links nodes this n hthis hnc
  have hpvL : ∀ pv, (node_at nodes n).prev_sibling = some pv → pv ∈ A := by
    intro pv hpv
    rw [hmid.2.1] at hpv
    rcases lastOr_mem A none pv hpv with h | h
    · exact absurd h (by simp)
    · exact h
  have hnxL : ∀ nx, (node_at nodes n).next_sibling = some nx → nx ∈ B := by
    intro nx hnx
    rw [hmid.2.2] at hnx
    exact List.mem_of_mem_head? hnx
  have j1 : ∀ pv, (node_at nodes n).prev_sibling = some pv →
      (node_at (relink_prev (relink_next nodes this n) this n) pv).next_sibling =
        (node_at nodes n).next_sibling := fun pv hpv =>
    k1 pv hpv (hL pv (hmemL pv (List.mem_append_left _ (hpvL pv hpv)))).1
  have j3 : ∀ nx, (node_at nodes n).next_sibling = some nx →
      (node_at (relink_prev (relink_next nodes this n) this n) nx).prev_sibling =
        (node_at nodes n).prev_sibling := fun nx hnx =>
    k3 nx hnx (hL nx (hmemL nx (List.mem_append_right _ (hnxL nx hnx)))).1
  have hcp : (node_at (relink_next nodes this n) n).prev_sibling =
      (node_at nodes n).prev_sibling := relink_next_prev_ne nodes this n n hnc
  -- the list after the call
  have hsegnew : SibSeg (relink_prev (relink_next nodes this n) this n) none
      (if A = [] then (node_at nodes n).next_sibling else (node_at nodes this).first_child)
      (A ++ B) none := by
    apply sibSeg_bypass nodes _ n B A none _ hseg.1 hnd (fun x _ => by simp)
    · intro x hx hl
      rw [relink_prev_next_ne _ this n x (by rw [hcp, hmid.2.1]; exact hl)]
      exact relink_next_pres (fun y => y.next_sibling = (node_at nodes x).next_sibling)
        (fun y a b hy => hy) nodes this n x rfl
    · intro x hx hl
      apply relink_prev_pres (fun y => y.prev_sibling = (node_at nodes x).prev_sibling)
        (fun y a b hy => hy)
      exact relink_next_prev_ne nodes this n x hl
    · intro pv _ hl
      exact j1 pv (hmid.2.1.trans hl)
    · exact j3
  have hfirst : (node_at (relink_prev (relink_next nodes this n) this n) this).first_child =
      (if A = [] then (node_at nodes n).next_sibling else (node_at nodes this).first_child) := by
    by_cases hA : A = []
    · rw [if_pos hA]
      apply k2
      rw [hmid.2.1, hA]; rfl
    · rw [if_neg hA]
      cases hp : (node_at nodes n).prev_sibling with
      | none =>
        rw [hmid.2.1] at hp
        exact absurd (lastOr_none_eq_none A hp) hA
      | some pv =>
        rw [relink_prev_first_some _ this n pv this (hcp.trans hp)]
        exact relink_next_pres (fun y => y.first_child = (node_at nodes this).first_child)
          (fun y a b hy => hy) nodes this n this rfl
  have hlast : (node_at (relink_prev (relink_next nodes this n) this n) this).last_child =
      lastOr none (A ++ B) := by
    cases B with
    | nil =>
      rw [k4 hmid.2.2, hmid.2.1, List.append_nil]
    | cons nx B =>
      have hnx : (node_at nodes n).next_sibling = some nx := hmid.2.2
      have e1 : (node_at (relink_prev (relink_next nodes this n) this n) this).last_child =
          (node_at (relink_next nodes this n) this).last_child :=
        relink_prev_pres (fun y => y.last_child = (node_at (relink_next nodes this n) this).last_child)
          (fun y a b hy => hy) _ this n this rfl
      rw [e1, relink_next_last_some nodes this n nx this hnx, hseg.2, lastOr_append,
        lastOr_append]
      rfl
  have hchild : ChildList (relink_prev (relink_next nodes this n) this n) none
      (node_at (relink_prev (relink_next nodes this n) this n) this).first_child (L.erase n)
      (node_at (relink_prev (relink_next nodes this n) this n) this).last_child := by
    rw [childList_iff, herase, hfirst]
    exact ⟨hsegnew, hlast⟩
  have hlen : (L.erase n).length + 1 = L.length := by
    rw [List.length_erase_of_mem hn]
    have : 0 < L.length := List.length_pos_of_mem hn
    omega
  refine ⟨j1, k2, j3, k4, hchild, ?_, hlen⟩
  intro fuel hf
  exact sibling_walk_eq _ _ _ fuel hchild.siblingList (by omega)

/-! ## The sample documents are parsed documents -/

/-- The document `<r><a/><b x="1" y="2"/><b/></r>` is parsed to `sample_doc1`, with entity expansion and
line-ending normalization on and the other options off. -/
theorem sample_doc1_parsed :
    xml_document_parse ⟨false, false, false, false, false, true, true, false, false⟩
      [60, 114, 62, 60, 97, 47, 62, 60, 98, 32, 120, 61, 34, 49, 34, 32, 121, 61, 34, 50, 34, 47,
        62, 60, 98, 47, 62, 60, 47, 114, 62] =
    some (some sample_doc1) := rfl

/-- The document `<r><a><a>v</a></a></r>` is parsed to `sample_doc2`, with entity expansion and
line-ending normalization on and the other options off. -/
theorem sample_doc2_parsed :
    xml_document_parse ⟨false, false, false, false, false, true, true, false, false⟩
      [60, 114, 62, 60, 97, 62, 60, 97, 62, 118, 60, 47, 97, 62, 60, 47, 97, 62, 60, 47, 114, 62] =
    some (some sample_doc2) := rfl

/-- The document `<r><a id="1"/></r>` is parsed to `sample_doc3`, with entity expansion and
line-ending normalization on and the other options off. -/
theorem sample_doc3_parsed :
    xml_document_parse ⟨false, false, false, false, false, true, true, false, false⟩
      [60, 114, 62, 60, 97, 32, 105, 100, 61, 34, 49, 34, 47, 62, 60, 47, 114, 62] =
    some (some sample_doc3) := rfl

/-- The document `<r><a/><a><b/></a></r>` is parsed to `sample_doc4`, with entity expansion and
line-ending normalization on and the other options off. -/
theorem sample_doc4_parsed :
    xml_document_parse ⟨false, false, false, false, false, true, true, false, false⟩
      [60, 114, 62, 60, 97, 47, 62, 60, 97, 62, 60, 98, 47, 62, 60, 47, 97, 62, 60, 47, 114, 62] =
    some (some sample_doc4) := rfl

/-- In the document `<r><a/><b x="1" y="2"/><b/></r>` the children of `r` are
the nodes 2, 3 and 4 and the attributes of the first `b` are 0 and 1. -/
theorem child_attribute_lookup_witness :
    SiblingList sample_doc1.nodes (node_at sample_doc1.nodes 1).first_child [2, 3, 4] ∧
    xml_node.child 4 sample_doc1.nodes sample_doc1.buf (some 1) [98] =
      some (List.find? (fun i => decide (cstrOpt sample_doc1.buf
        (node_at sample_doc1.nodes i).name = some (cstr [98]))) [2, 3, 4]) ∧
    AttributeList sample_doc1.attrs (node_at sample_doc1.nodes 3).first_attribute ([0, 1]) ∧
    xml_node.attribute 3 sample_doc1.nodes sample_doc1.attrs sample_doc1.buf (some 3) [121] =
      some (List.find? (fun i => decide (cstrOpt sample_doc1.buf
        (attr_at sample_doc1.attrs i).name = some (cstr [121]))) [0, 1]) :=
  ⟨by decide,
    (child_attribute_lookup 4 sample_doc1.nodes sample_doc1.attrs sample_doc1.buf [98]).1 1
      [2, 3, 4] (by decide) (by decide),
    by decide,
    (child_attribute_lookup 3 sample_doc1.nodes sample_doc1.attrs sample_doc1.buf [121]).2.2.1 3
      [0, 1] (by decide) (by decide)⟩

/-- In the document `<r><a/><b x="1" y="2"/><b/></r>`, `child("b")` of `r` is the
first `b`, `child("c")` is empty, and `attribute("y")` of the first `b` is its
second attribute. -/
theorem child_attribute_lookup_example :
    xml_node.child 4 sample_doc1.nodes sample_doc1.buf (some 1) [98] = some (some 3) ∧
    xml_node.child 4 sample_doc1.nodes sample_doc1.buf (some 1) [99] = some none ∧
    xml_node.attribute 3 sample_doc1.nodes sample_doc1.attrs sample_doc1.buf (some 3) [121] =
      some (some 1) := by
  decide

/-- The first `b` is removed from the children of `r` in the document
`<r><a/><b x="1" y="2"/><b/></r>`. -/
theorem remove_child_relinks_witness :
    (∀ pv, (node_at sample_doc1.nodes 3).prev_sibling = some pv →
      (node_at (xml_node.remove_child sample_doc1.nodes (some 1) (some 3)) pv).next_sibling =
        (node_at sample_doc1.nodes 3).next_sibling) ∧
    ((node_at sample_doc1.nodes 3).prev_sibling = none →
      (node_at (xml_node.remove_child sample_doc1.nodes (some 1) (some 3)) 1).first_child =
        (node_at sample_doc1.nodes 3).next_sibling) ∧
    (∀ nx, (node_at sample_doc1.nodes 3).next_sibling = some nx →
      (node_at (xml_node.remove_child sample_doc1.nodes (some 1) (some 3)) nx).prev_sibling =
        (node_at sample_doc1.nodes 3).prev_sibling) ∧
    ((node_at sample_doc1.nodes 3).next_sibling = none →
      (node_at (xml_node.remove_child sample_doc1.nodes (some 1) (some 3)) 1).last_child =
        (node_at sample_doc1.nodes 3).prev_sibling) ∧
    ChildList (xml_node.remove_child sample_doc1.nodes (some 1) (some 3)) none
      (node_at (xml_node.remove_child sample_doc1.nodes (some 1) (some 3)) 1).first_child
      ([2, 3, 4].erase 3)
      (node_at (xml_node.remove_child sample_doc1.nodes (some 1) (some 3)) 1).last_child ∧
    (∀ fuel, [2, 3, 4].length ≤ fuel + 1 →
      sibling_walk (xml_node.remove_child sample_doc1.nodes (some 1) (some 3)) fuel
        (node_at (xml_node.remove_child sample_doc1.nodes (some 1) (some 3)) 1).first_child =
          [2, 3, 4].erase 3) ∧
    ([2, 3, 4].erase 3).length + 1 = [2, 3, 4].length :=
  remove_child_relinks sample_doc1.nodes 1 3 [2, 3, 4] (by decide) (by decide) (by decide)
    (by decide) (by decide)

/-- The memory after the first `b` is removed from the children of `r`: the
node `a` points on to the second `b`, which points back to `a`, and the walk
over the children of `r` visits these two. -/
theorem remove_child_example :
    xml_node.remove_child sample_doc1.nodes (some 1) (some 3) =
      [{ xml_node_struct.new node_document with
         parent := some 0, first_child := some 1, last_child := some 1 },
       { xml_node_struct.new node_element with
         parent := some 0, name := some 1, first_child := some 2, last_child := some 4 },
       { xml_node_struct.new node_element with
         parent := some 1, name := some 4, next_sibling := some 4 },
       { xml_node_struct.new node_element with
         parent := some 1, name := some 8, prev_sibling := some 2, next_sibling := some 4,
         first_attribute := some 0, last_attribute := some 1 },
       { xml_node_struct.new node_element with
         parent := some 1, name := some 24, prev_sibling := some 2 }] ∧
    sibling_walk (xml_node.remove_child sample_doc1.nodes (some 1) (some 3)) 5 (some 2) =
      [2, 4] := by
  decide

/-! ## C23: attaching a node or an attribute -/

/-- The last node of a consistent sibling list is a node of the list whose
`next_sibling` is null. -/
theorem ChildList.last_mem {nodes : List xml_node_struct} : ∀ {L : List Nat}
    {prev first last : Option Nat}, ChildList nodes prev first L last → L ≠ [] →
    ∃ l, last = some l ∧ l ∈ L ∧ (node_at nodes l).next_sibling = none := by
  intro L
  induction L with
  | nil => intro _ _ _ _ h; exact absurd rfl h
  | cons x xs ih =>
    intro prev first last h _
    cases xs with
    | nil => exact ⟨x, h.2.2.2, List.mem_cons_self _ _, h.2.2.1⟩
    | cons y ys =>
      obtain ⟨l, h1, h2, h3⟩ := ih h.2.2 (List.cons_ne_nil _ _)
      exact ⟨l, h1, List.mem_cons_of_mem _ h2, h3⟩

theorem ChildList.last_nil {nodes : List xml_node_struct} {prev first last : Option Nat}
    (h : ChildList nodes prev first [] last) : first = none ∧ last = prev := h

/-- A consistent sibling list with the node `c` linked in after its last node. -/
theorem childList_snoc (nodes nodes2 : List xml_node_struct) (c : Nat) :
    ∀ (L : List Nat) (prev first last : Option Nat), ChildList nodes prev first L last →
      (∀ x ∈ L, (node_at nodes2 x).prev_sibling = (node_at nodes x).prev_sibling) →
      (∀ x ∈ L, (node_at nodes x).next_sibling ≠ none →
        (node_at nodes2 x).next_sibling = (node_at nodes x).next_sibling) →
      (∀ x ∈ L, (node_at nodes x).next_sibling = none →
        (node_at nodes2 x).next_sibling = some c) →
      (node_at nodes2 c).prev_sibling = last → (node_at nodes2 c).next_sibling = none →
      ChildList nodes2 prev (if L = [] then some c else first) (L ++ [c]) (some c) := by
  intro L
  induction L with
  | nil =>
    intro prev first last h _ _ _ hp hn
    rw [if_pos rfl]
    exact ⟨rfl, hp.trans h.2, hn, rfl⟩
  | cons x xs ih =>
    intro prev first last h h1 h2 h3 hp hn
    rw [if_neg (List.cons_ne_nil _ _)]
    have hx := List.mem_cons_self x xs
    have hih := ih (some x) (node_at nodes x).next_sibling last h.2.2
      (fun y hy => h1 y (List.mem_cons_of_mem _ hy))
      (fun y hy => h2 y (List.mem_cons_of_mem _ hy))
      (fun y hy => h3 y (List.mem_cons_of_mem _ hy)) hp hn
    refine ⟨h.1, (h1 x hx).trans h.2.1, ?_⟩
    cases xs with
    | nil =>
      rw [if_pos rfl] at hih
      rw [h3 x hx h.2.2.1]
      exact hih
    | cons y ys =>
      rw [if_neg (List.cons_ne_nil _ _)] at hih
      rw [h2 x hx (by rw [h.2.2.1]; simp)]
      exact hih

theorem AttrList.last_attr_mem {attrs : List xml_attribute_struct} : ∀ {L : List Nat}
    {prev first last : Option Nat}, AttrList attrs prev first L last → L ≠ [] →
    ∃ l, last = some l ∧ l ∈ L ∧ (attr_at attrs l).next_attribute = none := by
  intro L
  induction L with
  | nil => intro _ _ _ _ h; exact absurd rfl h
  | cons x xs ih =>
    intro prev first last h _
    cases xs with
    | nil => exact ⟨x, h.2.2.2, List.mem_cons_self _ _, h.2.2.1⟩
    | cons y ys =>
      obtain ⟨l, h1, h2, h3⟩ := ih h.2.2 (List.cons_ne_nil _ _)
      exact ⟨l, h1, List.mem_cons_of_mem _ h2, h3⟩

/-- A consistent attribute list with the attribute `c` linked in after its
last attribute. -/
theorem attrList_snoc (attrs attrs2 : List xml_attribute_struct) (c : Nat) :
    ∀ (L : List Nat) (prev first last : Option Nat), AttrList attrs prev first L last →
      (∀ x ∈ L, (attr_at attrs2 x).prev_attribute = (attr_at attrs x).prev_attribute) →
      (∀ x ∈ L, (attr_at attrs x).next_attribute ≠ none →
        (attr_at attrs2 x).next_attribute = (attr_at attrs x).next_attribute) →
      (∀ x ∈ L, (attr_at attrs x).next_attribute = none →
        (attr_at attrs2 x).next_attribute = some c) →
      (attr_at attrs2 c).prev_attribute = last → (attr_at attrs2 c).next_attribute = none →
      AttrList attrs2 prev (if L = [] then some c else first) (L ++ [c]) (some c) := by
  intro L
  induction L with
  | nil =>
    intro prev first last h _ _ _ hp hn
    rw [if_pos rfl]
    exact ⟨rfl, hp.trans h.2, hn, rfl⟩
  | cons x xs ih =>
    intro prev first last h h1 h2 h3 hp hn
    rw [if_neg (List.cons_ne_nil _ _)]
    have hx := List.mem_cons_self x xs
    have hih := ih (some x) (attr_at attrs x).next_attribute last h.2.2
      (fun y hy => h1 y (List.mem_cons_of_mem _ hy))
      (fun y hy => h2 y (List.mem_cons_of_mem _ hy))
      (fun y hy => h3 y (List.mem_cons_of_mem _ hy)) hp hn
    refine ⟨h.1, (h1 x hx).trans h.2.1, ?_⟩
    cases xs with
    | nil =>
      rw [if_pos rfl] at hih
      rw [h3 x hx h.2.2.1]
      exact hih
    | cons y ys =>
      rw [if_neg (List.cons_ne_nil _ _)] at hih
      rw [h2 x hx (by rw [h.2.2.1]; simp)]
      exact hih

theorem AttrList.attributeList {attrs : List xml_attribute_struct} : ∀ {L : List Nat}
    {prev first last : Option Nat}, AttrList attrs prev first L last →
    AttributeList attrs first L := by
  intro L
  induction L with
  | nil => intro _ _ _ h; exact h.1
  | cons x xs ih => intro _ _ _ h; exact ⟨h.1, ih h.2.2⟩

theorem attribute_walk_eq (attrs : List xml_attribute_struct) : ∀ (l : List Nat) (p : Option Nat)
    (fuel : Nat), AttributeList attrs p l → l.length ≤ fuel →
    attribute_walk attrs fuel p = l := by
  intro l
  induction l with
  | nil =>
    intro p fuel h _
    rw [show p = none from h]
    cases fuel <;> rfl
  | cons x xs ih =>
    intro p fuel h hf
    obtain ⟨n, rfl⟩ : ∃ n, fuel = n + 1 := ⟨fuel - 1, by simp at hf; omega⟩
    rw [h.1, attribute_walk, ih _ n h.2 (by simpa using hf)]

theorem attr_at_set_eq (attrs : List xml_attribute_struct) (i : Nat) (v : xml_attribute_struct)
    (h : i < attrs.length) : attr_at (attrs.set i v) i = v := by
  unfold attr_at
  rw [List.getD_eq_getElem?_getD]
  simp [List.getElem?_set, h]

theorem attr_at_set_ne (attrs : List xml_attribute_struct) (i j : Nat)
    (v : xml_attribute_struct) (h : i ≠ j) : attr_at (attrs.set i v) j = attr_at attrs j := by
  unfold attr_at
  rw [List.getD_eq_getElem?_getD, List.getD_eq_getElem?_getD, List.getElem?_set_ne h]

theorem attr_at_append_length (attrs : List xml_attribute_struct) (v : xml_attribute_struct) :
    attr_at (attrs ++ [v]) attrs.length = v := by
  unfold attr_at
  rw [List.getD_eq_getElem?_getD]
  simp

theorem attr_at_append_lt (attrs : List xml_attribute_struct) (v : xml_attribute_struct)
    (j : Nat) (h : j < attrs.length) : attr_at (attrs ++ [v]) j = attr_at attrs j := by
  unfold attr_at
  rw [List.getD_eq_getElem?_getD, List.getD_eq_getElem?_getD, List.getElem?_append_left h]

theorem append_node_none {nodes : List xml_node_struct} {this : Nat} (type : xml_node_type)
    (hthis : this < nodes.length) (h : (node_at nodes this).last_child = none) :
    (append_node nodes this type).1 =
      (nodes ++ [{ xml_node_struct.new type with parent := some this }]).set this
        { node_at nodes this with
          first_child := some nodes.length, last_child := some nodes.length } := by
  unfold append_node
  simp only [node_at_append_lt _ _ _ hthis, h]

theorem append_node_some {nodes : List xml_node_struct} {this l : Nat} (type : xml_node_type)
    (hthis : this < nodes.length) (hl : l < nodes.length) (hne : l ≠ this)
    (h : (node_at nodes this).last_child = some l) :
    (append_node nodes this type).1 =
      (((nodes ++ [{ xml_node_struct.new type with parent := some this }]).set l
          { node_at nodes l with next_sibling := some nodes.length }).set nodes.length
          { xml_node_struct.new type with parent := some this, prev_sibling := some l }).set this
        { node_at nodes this with last_child := some nodes.length } := by
  unfold append_node
  simp only [node_at_append_lt _ _ _ hthis, h, node_at_append_lt _ _ _ hl]
  rw [node_at_set_ne _ l nodes.length _ (by omega), node_at_append_length,
    node_at_set_ne _ nodes.length this _ (by omega), node_at_set_ne _ l this _ hne,
    node_at_append_lt _ _ _ hthis]

/-- The records after `append_node`: the new node, the parent, the former
last child, and every other node allocated before. -/
theorem append_node_at (nodes : List xml_node_struct) (this : Nat) (type : xml_node_type)
    (hthis : this < nodes.length)
    (hlast : ∀ l, (node_at nodes this).last_child = some l → l < nodes.length ∧ l ≠ this) :
    node_at (append_node nodes this type).1 nodes.length =
      { xml_node_struct.new type with
        parent := some this, prev_sibling := (node_at nodes this).last_child } ∧
    node_at (append_node nodes this type).1 this =
      { node_at nodes this with
        first_child := if (node_at nodes this).last_child = none then some nodes.length
          else (node_at nodes this).first_child,
        last_child := some nodes.length } ∧
    (∀ l, (node_at nodes this).last_child = some l →
      node_at (append_node nodes this type).1 l =
        { node_at nodes l with next_sibling := some nodes.length }) ∧
    (∀ x, x < nodes.length → x ≠ this → (node_at nodes this).last_child ≠ some x →
      node_at (append_node nodes this type).1 x = node_at nodes x) := by
  cases h : (node_at nodes this).last_child with
  | none =>
    rw [append_node_none type hthis h]
    refine ⟨?_, ?_, ?_, ?_⟩
    · rw [node_at_set_ne _ _ _ _ (by omega), node_at_append_length]
      rfl
    · rw [node_at_set_eq _ _ _ (by simp; omega), if_pos rfl]
    · intro l hl; exact absurd hl (by simp)
    · intro x hx hxt _
      rw [node_at_set_ne _ _ _ _ (fun e => hxt e.symm), node_at_append_lt _ _ _ hx]
  | some l =>
    obtain ⟨hl, hlt⟩ := hlast l h
    rw [append_node_some type hthis hl hlt h]
    refine ⟨?_, ?_, ?_, ?_⟩
    · rw [node_at_set_ne _ _ _ _ (by omega), node_at_set_eq _ _ _ (by simp)]
    · rw [node_at_set_eq _ _ _ (by simp; omega), if_neg (by simp)]
    · intro l2 hl2
      have e : l2 = l := (Option.some.inj hl2).symm
      subst e
      rw [node_at_set_ne _ _ _ _ (fun e => hlt e.symm), node_at_set_ne _ _ _ _ (by omega),
        node_at_set_eq _ _ _ (by simp; omega)]
    · intro x hx hxt hxl
      rw [node_at_set_ne _ _ _ _ (fun e => hxt e.symm), node_at_set_ne _ _ _ _ (by omega),
        node_at_set_ne _ _ _ _ (fun e => hxl (by rw [e])), node_at_append_lt _ _ _ hx]

/-- In a consistent sibling list only the last node has a null `next_sibling`. -/
theorem ChildList.next_none {nodes : List xml_node_struct} : ∀ {L : List Nat}
    {prev first last : Option Nat}, ChildList nodes prev first L last → ∀ y ∈ L,
    (node_at nodes y).next_sibling = none → last = some y := by
  intro L
  induction L with
  | nil => intro _ _ _ _ y hy; exact absurd hy (List.not_mem_nil _)
  | cons x xs ih =>
    intro prev first last h y hy hn
    rcases List.mem_cons.mp hy with e | hy2
    · subst e
      have h2 := h.2.2
      rw [hn] at h2
      cases xs with
      | nil => exact h2.2
      | cons z zs => exact absurd h2.1 (by simp)
    · exact ih h.2.2 y hy2 hn

theorem AttrList.next_attr_none {attrs : List xml_attribute_struct} : ∀ {L : List Nat}
    {prev first last : Option Nat}, AttrList attrs prev first L last → ∀ y ∈ L,
    (attr_at attrs y).next_attribute = none → last = some y := by
  intro L
  induction L with
  | nil => intro _ _ _ _ y hy; exact absurd hy (List.not_mem_nil _)
  | cons x xs ih =>
    intro prev first last h y hy hn
    rcases List.mem_cons.mp hy with e | hy2
    · subst e
      have h2 := h.2.2
      rw [hn] at h2
      cases xs with
      | nil => exact h2.2
      | cons z zs => exact absurd h2.1 (by simp)
    · exact ih h.2.2 y hy2 hn

theorem ChildList.nil_iff {nodes : List xml_node_struct} {L : List Nat}
    {first last : Option Nat} (h : ChildList nodes none first L last) : L = [] ↔ last = none := by
  constructor
  · intro e; subst e; exact h.2
  · intro e
    by_contra hne
    obtain ⟨l, hl, _, _⟩ := h.last_mem hne
    rw [e] at hl
    exact absurd hl (by simp)

theorem AttrList.nil_attr_iff {attrs : List xml_attribute_struct} {L : List Nat}
    {first last : Option Nat} (h : AttrList attrs none first L last) : L = [] ↔ last = none := by
  constructor
  · intro e; subst e; exact h.2
  · intro e
    by_contra hne
    obtain ⟨l, hl, _, _⟩ := h.last_attr_mem hne
    rw [e] at hl
    exact absurd hl (by simp)

/-- The child list after `append_node`. -/
theorem append_node_childList (nodes : List xml_node_struct) (this : Nat) (type : xml_node_type)
    (L : List Nat) (hthis : this < nodes.length)
    (hL : ∀ x ∈ L, x < nodes.length ∧ x ≠ this)
    (hlist : ChildList nodes none (node_at nodes this).first_child L
      (node_at nodes this).last_child) :
    ChildList (append_node nodes this type).1 none
      (node_at (append_node nodes this type).1 this).first_child (L ++ [nodes.length])
      (node_at (append_node nodes this type).1 this).last_child := by
  have hlast : ∀ l, (node_at nodes this).last_child = some l → l < nodes.length ∧ l ≠ this := by
    intro l hl
    have hne : L ≠ [] := fun e => by
      rw [hlist.nil_iff.mp e] at hl
      exact absurd hl (by simp)
    obtain ⟨l2, h1, h2, _⟩ := hlist.last_mem hne
    rw [hl] at h1
    rw [Option.some.inj h1]
    exact hL l2 h2
  obtain ⟨e1, e2, e3, e4⟩ := append_node_at nodes this type hthis hlast
  have hold : ∀ x ∈ L, (node_at (append_node nodes this type).1 x).prev_sibling =
      (node_at nodes x).prev_sibling ∧
      ((node_at nodes this).last_child ≠ some x →
        (node_at (append_node nodes this type).1 x).next_sibling =
          (node_at nodes x).next_sibling) := by
    intro x hx
    by_cases hxl : (node_at nodes this).last_child = some x
    · rw [e3 x hxl]
      exact ⟨rfl, fun h => absurd hxl h⟩
    · rw [e4 x (hL x hx).1 (hL x hx).2 hxl]
      exact ⟨rfl, fun _ => rfl⟩
  have key := childList_snoc nodes (append_node nodes this type).1 nodes.length L none
    (node_at nodes this).first_child (node_at nodes this).last_child hlist
    (fun x hx => (hold x hx).1)
    (fun x hx hn => (hold x hx).2 (fun hl => by
      obtain ⟨l2, h1, h2, h3⟩ := hlist.last_mem (List.ne_nil_of_mem hx)
      rw [hl] at h1
      rw [Option.some.inj h1] at hn
      exact hn h3))
    (fun x hx hn => by
      rw [e3 x (hlist.next_none x hx hn)])
    (by rw [e1]) (by rw [e1]; rfl)
  rw [e2]
  show ChildList _ none (if (node_at nodes this).last_child = none then some nodes.length
    else (node_at nodes this).first_child) _ (some nodes.length)
  by_cases hnil : L = []
  · rw [if_pos hnil] at key
    rw [if_pos (hlist.nil_iff.mp hnil)]
    exact key
  · rw [if_neg hnil] at key
    rw [if_neg (fun e => hnil (hlist.nil_iff.mpr e))]
    exact key

/-- The records after `append_attribute`: the new attribute, the former last
attribute, every other attribute allocated before, and the nodes. -/
theorem append_attribute_at (nodes : List xml_node_struct) (attrs : List xml_attribute_struct)
    (this : Nat) (hthis : this < nodes.length)
    (hlast : ∀ l, (node_at nodes this).last_attribute = some l → l < attrs.length) :
    (append_attribute nodes attrs this).2.2 = attrs.length ∧
    attr_at (append_attribute nodes attrs this).2.1 attrs.length =
      { xml_attribute_struct.new with
        prev_attribute := (node_at nodes this).last_attribute } ∧
    (∀ l, (node_at nodes this).last_attribute = some l →
      attr_at (append_attribute nodes attrs this).2.1 l =
        { attr_at attrs l with next_attribute := some attrs.length }) ∧
    (∀ x, x < attrs.length → (node_at nodes this).last_attribute ≠ some x →
      attr_at (append_attribute nodes attrs this).2.1 x = attr_at attrs x) ∧
    node_at (append_attribute nodes attrs this).1 this =
      { node_at nodes this with
        first_attribute := if (node_at nodes this).last_attribute = none then some attrs.length
          else (node_at nodes this).first_attribute,
        last_attribute := some attrs.length } ∧
    (∀ x, x ≠ this → node_at (append_attribute nodes attrs this).1 x = node_at nodes x) := by
  cases h : (node_at nodes this).last_attribute with
  | none =>
    have e : append_attribute nodes attrs this =
        (nodes.set this { node_at nodes this with
            first_attribute := some attrs.length, last_attribute := some attrs.length },
          attrs ++ [xml_attribute_struct.new], attrs.length) := by
      unfold append_attribute
      simp only [h]
    rw [e]
    refine ⟨rfl, ?_, ?_, ?_, ?_, ?_⟩
    · exact attr_at_append_length _ _
    · intro l hl; exact absurd hl (by simp)
    · intro x hx _; exact attr_at_append_lt _ _ _ hx
    · show node_at (nodes.set this _) this = _
      rw [node_at_set_eq _ _ _ hthis, if_pos rfl]
    · intro x hx
      exact node_at_set_ne _ _ _ _ (fun e => hx e.symm)
  | some l =>
    have hl := hlast l h
    have e : append_attribute nodes attrs this =
        (nodes.set this { node_at nodes this with last_attribute := some attrs.length },
          ((attrs ++ [xml_attribute_struct.new]).set l
            { attr_at attrs l with next_attribute := some attrs.length }).set attrs.length
            { xml_attribute_struct.new with prev_attribute := some l },
          attrs.length) := by
      unfold append_attribute
      simp only [h, attr_at_append_lt _ _ _ hl]
      rw [attr_at_set_ne _ l attrs.length _ (by omega), attr_at_append_length]
    rw [e]
    refine ⟨rfl, ?_, ?_, ?_, ?_, ?_⟩
    · exact attr_at_set_eq _ _ _ (by simp)
    · intro l2 hl2
      have e2 : l2 = l := (Option.some.inj hl2).symm
      subst e2
      show attr_at (List.set _ _ _) l2 = _
      rw [attr_at_set_ne _ _ _ _ (by omega), attr_at_set_eq _ _ _ (by simp; omega)]
    · intro x hx hxl
      show attr_at (List.set _ _ _) x = _
      rw [attr_at_set_ne _ _ _ _ (by omega),
        attr_at_set_ne _ _ _ _ (fun e => hxl (by rw [e])), attr_at_append_lt _ _ _ hx]
    · show node_at (nodes.set this _) this = _
      rw [node_at_set_eq _ _ _ hthis, if_neg (by simp)]
    · intro x hx
      exact node_at_set_ne _ _ _ _ (fun e => hx e.symm)

/-- The attribute list after `append_attribute`. -/
theorem append_attribute_attrList (nodes : List xml_node_struct)
    (attrs : List xml_attribute_struct) (this : Nat) (L : List Nat)
    (hthis : this < nodes.length) (hL : ∀ x ∈ L, x < attrs.length)
    (hlist : AttrList attrs none (node_at nodes this).first_attribute L
      (node_at nodes this).last_attribute) :
    AttrList (append_attribute nodes attrs this).2.1 none
      (node_at (append_attribute nodes attrs this).1 this).first_attribute
      (L ++ [attrs.length])
      (node_at (append_attribute nodes attrs this).1 this).last_attribute := by
  have hlast : ∀ l, (node_at nodes this).last_attribute = some l → l < attrs.length := by
    intro l hl
    have hne : L ≠ [] := fun e => by
      rw [hlist.nil_attr_iff.mp e] at hl
      exact absurd hl (by simp)
    obtain ⟨l2, h1, h2, _⟩ := hlist.last_attr_mem hne
    rw [hl] at h1
    rw [Option.some.inj h1]
    exact hL l2 h2
  obtain ⟨_, e1, e3, e4, e2, _⟩ := append_attribute_at nodes attrs this hthis hlast
  have hold : ∀ x ∈ L, (attr_at (append_attribute nodes attrs this).2.1 x).prev_attribute =
      (attr_at attrs x).prev_attribute ∧
      ((node_at nodes this).last_attribute ≠ some x →
        (attr_at (append_attribute nodes attrs this).2.1 x).next_attribute =
          (attr_at attrs x).next_attribute) := by
    intro x hx
    by_cases hxl : (node_at nodes this).last_attribute = some x
    · rw [e3 x hxl]
      exact ⟨rfl, fun h => absurd hxl h⟩
    · rw [e4 x (hL x hx) hxl]
      exact ⟨rfl, fun _ => rfl⟩
  have key := attrList_snoc attrs (append_attribute nodes attrs this).2.1 attrs.length L none
    (node_at nodes this).first_attribute (node_at nodes this).last_attribute hlist
    (fun x hx => (hold x hx).1)
    (fun x hx hn => (hold x hx).2 (fun hl => by
      obtain ⟨l2, h1, h2, h3⟩ := hlist.last_attr_mem (List.ne_nil_of_mem hx)
      rw [hl] at h1
      rw [Option.some.inj h1] at hn
      exact hn h3))
    (fun x hx hn => by
      rw [e3 x (hlist.next_attr_none x hx hn)])
    (by rw [e1]) (by rw [e1]; rfl)
  rw [e2]
  show AttrList _ none (if (node_at nodes this).last_attribute = none then some attrs.length
    else (node_at nodes this).first_attribute) _ (some attrs.length)
  by_cases hnil : L = []
  · rw [if_pos hnil] at key
    rw [if_pos (hlist.nil_attr_iff.mp hnil)]
    exact key
  · rw [if_neg hnil] at key
    rw [if_neg (fun e => hnil (hlist.nil_attr_iff.mpr e))]
    exact key

theorem childList_frame (nodes nodes2 : List xml_node_struct) (L : List Nat)
    (prev first last : Option Nat)
    (h : ∀ x ∈ L, (node_at nodes2 x).prev_sibling = (node_at nodes x).prev_sibling ∧
      (node_at nodes2 x).next_sibling = (node_at nodes x).next_sibling)
    (hl : ChildList nodes prev first L last) : ChildList nodes2 prev first L last := by
  rw [childList_iff] at hl ⊢
  exact ⟨sibSeg_frame nodes nodes2 L prev first none h hl.1, hl.2⟩

/-- C23: `append_node` and `append_attribute` on a node `this` whose children
are the consistent doubly linked list `L`, which holds exactly the nodes other
than `this` itself whose parent pointer is `this` (the document is its own
parent), and whose attributes are the consistent doubly linked list `LA`.
After `append_node` the children are the consistent list `L` followed by the
new node, which is what the walk from `first_child` visits, and these are
again exactly the nodes whose parent is `this`; the new node is the last
child, its record is a fresh one (no name, value, children or attributes) with
the parent `this` and the former last child as `prev_sibling`; the records of
the earlier children are unchanged but for the `next_sibling` of the former
last child; the attribute list is untouched.  After `append_attribute` the
attributes are the consistent list `LA` followed by the new attribute, whose
record is a fresh one with the former last attribute as `prev_attribute`; the
records of the earlier attributes are unchanged but for the `next_attribute`
of the former last one; the child list is untouched.  `xml_node::append_child`
on a document or an element, for a type other than document and null, is
`append_node`. -/
theorem append_keeps_lists (nodes : List xml_node_struct) (attrs : List xml_attribute_struct)
    (this : Nat) (type : xml_node_type) (L LA : List Nat) (hthis : this < nodes.length)
    (hL : ∀ x, x ∈ L ↔ (x < nodes.length ∧ x ≠ this ∧ (node_at nodes x).parent = some this))
    (hlist : ChildList nodes none (node_at nodes this).first_child L
      (node_at nodes this).last_child)
    (hLA : ∀ a ∈ LA, a < attrs.length)
    (hattr : AttrList attrs none (node_at nodes this).first_attribute LA
      (node_at nodes this).last_attribute) :
    (ChildList (append_node nodes this type).1 none
        (node_at (append_node nodes this type).1 this).first_child (L ++ [nodes.length])
        (node_at (append_node nodes this type).1 this).last_child ∧
      (∀ x, x ∈ L ++ [nodes.length] ↔
        (x < (append_node nodes this type).1.length ∧ x ≠ this ∧
          (node_at (append_node nodes this type).1 x).parent = some this)) ∧
      (append_node nodes this type).2 = nodes.length ∧
      (node_at (append_node nodes this type).1 this).last_child = some nodes.length ∧
      node_at (append_node nodes this type).1 nodes.length =
        { xml_node_struct.new type with
          parent := some this, prev_sibling := (node_at nodes this).last_child } ∧
      (∀ x ∈ L, { node_at (append_node nodes this type).1 x with
          next_sibling := (node_at nodes x).next_sibling } = node_at nodes x) ∧
      (∀ fuel, L.length + 1 ≤ fuel →
        sibling_walk (append_node nodes this type).1 fuel
          (node_at (append_node nodes this type).1 this).first_child = L ++ [nodes.length]) ∧
      AttrList attrs none (node_at (append_node nodes this type).1 this).first_attribute LA
        (node_at (append_node nodes this type).1 this).last_attribute ∧
      (((node_at nodes this).type = node_element ∨ (node_at nodes this).type = node_document) →
        type ≠ node_document → type ≠ node_null →
        xml_node.append_child nodes (some this) type =
          ((append_node nodes this type).1, some nodes.length))) ∧
    (AttrList (append_attribute nodes attrs this).2.1 none
        (node_at (append_attribute nodes attrs this).1 this).first_attribute
        (LA ++ [attrs.length])
        (node_at (append_attribute nodes attrs this).1 this).last_attribute ∧
      (append_attribute nodes attrs this).2.2 = attrs.length ∧
      attr_at (append_attribute nodes attrs this).2.1 attrs.length =
        { xml_attribute_struct.new with
          prev_attribute := (node_at nodes this).last_attribute } ∧
      (∀ a ∈ LA, { attr_at (append_attribute nodes attrs this).2.1 a with
          next_attribute := (attr_at attrs a).next_attribute } = attr_at attrs a) ∧
      (∀ fuel, LA.length + 1 ≤ fuel →
        attribute_walk (append_attribute nodes attrs this).2.1 fuel
          (node_at (append_attribute nodes attrs this).1 this).first_attribute =
            LA ++ [attrs.length]) ∧
      ChildList (append_attribute nodes attrs this).1 none
        (node_at (append_attribute nodes attrs this).1 this).first_child L
        (node_at (append_attribute nodes attrs this).1 this).last_child) := by
  have hL1 : ∀ x ∈ L, x < nodes.length ∧ x ≠ this := fun x hx =>
    ⟨((hL x).mp hx).1, ((hL x).mp hx).2.1⟩
  have hlast : ∀ l, (node_at nodes this).last_child = some l → l < nodes.length ∧ l ≠ this := by
    intro l hl
    have hne : L ≠ [] := fun e => by
      rw [hlist.nil_iff.mp e] at hl
      exact absurd hl (by simp)
    obtain ⟨l2, h1, h2, _⟩ := hlist.last_mem hne
    rw [hl] at h1
    rw [Option.some.inj h1]
    exact hL1 l2 h2
  have hlastA : ∀ l, (node_at nodes this).last_attribute = some l → l < attrs.length := by
    intro l hl
    have hne : LA ≠ [] := fun e => by
      rw [hattr.nil_attr_iff.mp e] at hl
      exact absurd hl (by simp)
    obtain ⟨l2, h1, h2, _⟩ := hattr.last_attr_mem hne
    rw [hl] at h1
    rw [Option.some.inj h1]
    exact hLA l2 h2
  obtain ⟨e1, e2, e3, e4⟩ := append_node_at nodes this type hthis hlast
  obtain ⟨a0, a1, a3, a4, a2, a5⟩ := append_attribute_at nodes attrs this hthis hlastA
  have hcl := append_node_childList nodes this type L hthis hL1 hlist
  have hal := append_attribute_attrList nodes attrs this LA hthis hLA hattr
  have hpar : ∀ x, x < nodes.length →
      (node_at (append_node nodes this type).1 x).parent = (node_at nodes x).parent := by
    intro x hx
    apply append_node_pres (fun y => y.parent = (node_at nodes x).parent)
      (fun y a b c d hy => hy)
    rw [node_at_append_lt _ _ _ hx]
  refine ⟨⟨hcl, ?_, append_node_snd _ _ _, ?_, e1, ?_, ?_, ?_, ?_⟩,
    ⟨hal, a0, a1, ?_, ?_, ?_⟩⟩
  · intro x
    rw [append_node_length, List.mem_append, List.mem_singleton, hL x]
    constructor
    · rintro (⟨h1, h2, h3⟩ | h)
      · exact ⟨by omega, h2, (hpar x h1).trans h3⟩
      · subst h
        refine ⟨by omega, by omega, ?_⟩
        rw [e1]
    · rintro ⟨h1, h2, h3⟩
      by_cases hx : x < nodes.length
      · exact Or.inl ⟨hx, h2, (hpar x hx).symm.trans h3⟩
      · exact Or.inr (by omega)
  · rw [e2]
  · intro x hx
    by_cases hxl : (node_at nodes this).last_child = some x
    · rw [e3 x hxl]
    · rw [e4 x (hL1 x hx).1 (hL1 x hx).2 hxl]
  · intro fuel hf
    exact sibling_walk_eq _ _ _ fuel hcl.siblingList (by simpa using hf)
  · rw [e2]
    exact hattr
  · intro ht hd hn
    unfold xml_node.append_child
    dsimp only
    rw [if_neg, append_node_snd]
    rintro (⟨h1, h2⟩ | h | h)
    · rcases ht with h | h
      · exact h1 h
      · exact h2 h
    · exact hd h
    · exact hn h
  · intro a ha
    by_cases hal2 : (node_at nodes this).last_attribute = some a
    · rw [a3 a hal2]
    · rw [a4 a (hLA a ha) hal2]
  · intro fuel hf
    exact attribute_walk_eq _ _ _ fuel hal.attributeList (by simpa using hf)
  · rw [a2]
    apply childList_frame nodes _ L none _ _ _ hlist
    intro x hx
    rw [a5 x (hL1 x hx).2]
    exact ⟨rfl, rfl⟩

/-- The element `r` of the document `<r><a/><b x="1" y="2"/><b/></r>`, which
has the children 2, 3 and 4 and no attribute, gets a child and an attribute. -/
theorem append_keeps_lists_witness :
    (ChildList (append_node sample_doc1.nodes 1 node_element).1 none
        (node_at (append_node sample_doc1.nodes 1 node_element).1 1).first_child ([2, 3, 4] ++
            [sample_doc1.nodes.length])
        (node_at (append_node sample_doc1.nodes 1 node_element).1 1).last_child ∧
      (∀ x, x ∈ [2, 3, 4] ++ [sample_doc1.nodes.length] ↔
        (x < (append_node sample_doc1.nodes 1 node_element).1.length ∧ x ≠ 1 ∧
          (node_at (append_node sample_doc1.nodes 1 node_element).1 x).parent = some 1)) ∧
      (append_node sample_doc1.nodes 1 node_element).2 = sample_doc1.nodes.length ∧
      (node_at (append_node sample_doc1.nodes 1 node_element).1 1).last_child = some
          sample_doc1.nodes.length ∧
      node_at (append_node sample_doc1.nodes 1 node_element).1 sample_doc1.nodes.length =
        { xml_node_struct.new node_element with
          parent := some 1, prev_sibling := (node_at sample_doc1.nodes 1).last_child } ∧
      (∀ x ∈ [2, 3, 4], { node_at (append_node sample_doc1.nodes 1 node_element).1 x with
          next_sibling := (node_at sample_doc1.nodes x).next_sibling } = node_at sample_doc1.nodes
              x) ∧
      (∀ fuel, [2, 3, 4].length + 1 ≤ fuel →
        sibling_walk (append_node sample_doc1.nodes 1 node_element).1 fuel
          (node_at (append_node sample_doc1.nodes 1 node_element).1 1).first_child = [2, 3, 4] ++
              [sample_doc1.nodes.length]) ∧
      AttrList sample_doc1.attrs none (node_at (append_node sample_doc1.nodes 1 node_element).1
          1).first_attribute ([] : List Nat)
        (node_at (append_node sample_doc1.nodes 1 node_element).1 1).last_attribute ∧
      (((node_at sample_doc1.nodes 1).type = node_element ∨ (node_at sample_doc1.nodes 1).type =
          node_document) →
        node_element ≠ node_document → node_element ≠ node_null →
        xml_node.append_child sample_doc1.nodes (some 1) node_element =
          ((append_node sample_doc1.nodes 1 node_element).1, some sample_doc1.nodes.length))) ∧
    (AttrList (append_attribute sample_doc1.nodes sample_doc1.attrs 1).2.1 none
        (node_at (append_attribute sample_doc1.nodes sample_doc1.attrs 1).1 1).first_attribute
        (([] : List Nat) ++ [sample_doc1.attrs.length])
        (node_at (append_attribute sample_doc1.nodes sample_doc1.attrs 1).1 1).last_attribute ∧
      (append_attribute sample_doc1.nodes sample_doc1.attrs 1).2.2 = sample_doc1.attrs.length ∧
      attr_at (append_attribute sample_doc1.nodes sample_doc1.attrs 1).2.1
          sample_doc1.attrs.length =
        { xml_attribute_struct.new with
          prev_attribute := (node_at sample_doc1.nodes 1).last_attribute } ∧
      (∀ a ∈ ([] : List Nat), { attr_at (append_attribute sample_doc1.nodes sample_doc1.attrs
          1).2.1 a with
          next_attribute := (attr_at sample_doc1.attrs a).next_attribute } = attr_at
              sample_doc1.attrs a) ∧
      (∀ fuel, ([] : List Nat).length + 1 ≤ fuel →
        attribute_walk (append_attribute sample_doc1.nodes sample_doc1.attrs 1).2.1 fuel
          (node_at (append_attribute sample_doc1.nodes sample_doc1.attrs 1).1 1).first_attribute =
            ([] : List Nat) ++ [sample_doc1.attrs.length]) ∧
      ChildList (append_attribute sample_doc1.nodes sample_doc1.attrs 1).1 none
        (node_at (append_attribute sample_doc1.nodes sample_doc1.attrs 1).1 1).first_child [2, 3, 4]
        (node_at (append_attribute sample_doc1.nodes sample_doc1.attrs 1).1 1).last_child) :=
  append_keeps_lists sample_doc1.nodes sample_doc1.attrs 1 node_element [2, 3, 4] [] (by decide)
    (fun x => ⟨fun h => by
        have h2 : x = 2 ∨ x = 3 ∨ x = 4 := by simpa using h
        rcases h2 with e | e | e <;> subst e <;> decide,
      fun h => by
        obtain ⟨h1, h2, h3⟩ := h
        have h5 : x < 5 := h1
        interval_cases x
        · exact absurd h3 (by decide)
        · exact absurd rfl h2
        · decide
        · decide
        · decide⟩)
    (by decide) (by decide) (by decide)

/-- The memory after `append_node` on the element `r` and after
`append_attribute` on the first `b` of the document
`<r><a/><b x="1" y="2"/><b/></r>`: the walks over the children and over the
attributes. -/
theorem append_example :
    sibling_walk (append_node sample_doc1.nodes 1 node_element).1 6
      (node_at (append_node sample_doc1.nodes 1 node_element).1 1).first_child = [2, 3, 4, 5] ∧
    (node_at (append_node sample_doc1.nodes 1 node_element).1 5).prev_sibling = some 4 ∧
    (node_at (append_node sample_doc1.nodes 1 node_element).1 4).next_sibling = some 5 ∧
    attribute_walk (append_attribute sample_doc1.nodes sample_doc1.attrs 3).2.1 4
      (node_at (append_attribute sample_doc1.nodes sample_doc1.attrs 3).1 3).first_attribute =
        [0, 1, 2] ∧
    (attr_at (append_attribute sample_doc1.nodes sample_doc1.attrs 3).2.1 2).prev_attribute =
      some 1 ∧
    (attr_at (append_attribute sample_doc1.nodes sample_doc1.attrs 3).2.1 1).next_attribute =
      some 2 := by
  decide

/-! ## C25: `first_element` -/

theorem IsForest.of_none {nodes : List xml_node_struct} {t : forest}
    (h : IsForest nodes none t) : t = forest.nil := by
  cases t with
  | nil => rfl
  | node p c n => exact absurd h.1 (by simp)

theorem first_element_loop_succ (nodes : List xml_node_struct) (mem name : List Nat) (n i : Nat) :
    first_element_loop nodes mem name (n + 1) (some i) =
      if str_is mem name (node_at nodes i).name = true then some (some i)
      else if (node_at nodes i).first_child ≠ none then
        match first_element_loop nodes mem name n (node_at nodes i).first_child with
        | none => none
        | some (some found) => some (some found)
        | some none => first_element_loop nodes mem name n (node_at nodes i).next_sibling
      else first_element_loop nodes mem name n (node_at nodes i).next_sibling := rfl

/-- The loop of `impl::first_element` over a forest returns the first node, in
pre-order, whose name is `name`. -/
theorem first_element_loop_spec (nodes : List xml_node_struct) (mem name : List Nat) :
    ∀ (t : forest) (q : Option Nat) (fuel : Nat), IsForest nodes q t →
      t.preorder.length < fuel →
      first_element_loop nodes mem name fuel q =
        some (t.preorder.find? (fun i => str_is mem name (node_at nodes i).name)) := by
  intro t
  induction t with
  | nil =>
    intro q fuel h hf
    obtain ⟨n, rfl⟩ : ∃ n, fuel = n + 1 := ⟨fuel - 1, by omega⟩
    rw [show q = none from h]
    rfl
  | node p c nx ihc ihn =>
    intro q fuel h hf
    obtain ⟨n, rfl⟩ : ∃ n, fuel = n + 1 := ⟨fuel - 1, by omega⟩
    simp only [forest.preorder, List.length_cons, List.length_append] at hf
    rw [h.1, first_element_loop_succ]
    simp only [forest.preorder, List.find?_cons]
    cases hp : str_is mem name (node_at nodes p).name
    · rw [if_neg Bool.false_ne_true]
      have hn := ihn _ n h.2.2 (by omega)
      by_cases hfc : (node_at nodes p).first_child = none
      · rw [if_neg (fun hh => hh hfc), hn]
        have hc : c = forest.nil := by
          have := h.2.1
          rw [hfc] at this
          exact this.of_none
        rw [hc]
        rfl
      · rw [if_pos hfc, ihc _ n h.2.1 (by omega), List.find?_append]
        cases hfind : List.find? (fun i => str_is mem name (node_at nodes i).name) c.preorder with
        | none => simpa using hn
        | some f => rfl
    · rw [if_pos rfl]

/-- C25: `xml_node::first_element(name)` on a node whose children and their
descendants are the forest `t`, run with fuel for every node of `t`, returns
the first node of the pre-order walk of `t`, the proper descendants of the
node, whose name pointer is not null and points to a string with the bytes of
`name`, and the empty handle when the walk has no such node; on the empty
handle it returns the empty handle. -/
theorem first_element_preorder (fuel : Nat) (nodes : List xml_node_struct) (mem name : List Nat) :
    (∀ (this : Nat) (t : forest), IsForest nodes (node_at nodes this).first_child t →
      t.preorder.length < fuel →
      xml_node.first_element fuel nodes mem (some this) name =
        some (t.preorder.find?
          (fun i => decide (cstrOpt mem (node_at nodes i).name = some (cstr name))))) ∧
    xml_node.first_element fuel nodes mem none name = some none := by
  refine ⟨?_, rfl⟩
  intro this t h hf
  have := first_element_loop_spec nodes mem name t _ fuel h hf
  simp only [str_is_eq_decide] at this
  exact this

/-- In the document `<r><a/><a><b/></a></r>` the descendants of the document
are `r`, the first `a`, the second `a` and `b`, in pre-order. -/
theorem first_element_preorder_witness :
    IsForest sample_doc4.nodes (node_at sample_doc4.nodes 0).first_child
      (forest.node 1 (forest.node 2 forest.nil (forest.node 3 (forest.node 4 forest.nil forest.nil)
        forest.nil)) forest.nil) ∧
    xml_node.first_element 5 sample_doc4.nodes sample_doc4.buf (some 0) [98] =
      some ((forest.node 1 (forest.node 2 forest.nil (forest.node 3
        (forest.node 4 forest.nil forest.nil) forest.nil)) forest.nil).preorder.find?
          (fun i => decide (cstrOpt sample_doc4.buf (node_at sample_doc4.nodes i).name =
            some (cstr [98])))) :=
  ⟨by decide,
    (first_element_preorder 5 sample_doc4.nodes sample_doc4.buf [98]).1 0
      (forest.node 1 (forest.node 2 forest.nil (forest.node 3 (forest.node 4 forest.nil forest.nil)
        forest.nil)) forest.nil) (by decide) (by decide)⟩

/-- In the document `<r><a/><a><b/></a></r>`, `first_element` from the document
finds the first `a` for the name `a`, the element `b` for the name `b`, and
nothing for the name `c`. -/
theorem first_element_example :
    xml_node.first_element 5 sample_doc4.nodes sample_doc4.buf (some 0) [97] = some (some 2) ∧
    xml_node.first_element 5 sample_doc4.nodes sample_doc4.buf (some 0) [98] = some (some 4) ∧
    xml_node.first_element 5 sample_doc4.nodes sample_doc4.buf (some 0) [99] = some none := by
  decide

/-! ## C26, C27: the searches by value and by attribute -/

/-- C26: in the document `<r><a><a>v</a></a></r>` the inner `a` (node 3) is a
descendant of the document, has the name `a` and has the character data `v`
(node 4) as a direct child, but `first_element_by_value("a", "v")` from the
document returns the empty handle: at the outer `a` (node 2), whose name is
`a` and which has no character data `v` among its children, the loop goes on
to the next sibling without a look at the children of the outer `a`.  From
the outer `a` the search finds the inner one. -/
theorem first_element_by_value_skips_nested :
    xml_node.first_element_by_value 6 sample_doc2.nodes sample_doc2.buf (some 0) [97] [118] =
      some none ∧
    IsForest sample_doc2.nodes (node_at sample_doc2.nodes 0).first_child
      (forest.node 1 (forest.node 2 (forest.node 3 (forest.node 4 forest.nil forest.nil)
        forest.nil) forest.nil) forest.nil) ∧
    cstrOpt sample_doc2.buf (node_at sample_doc2.nodes 3).name = some [97] ∧
    (node_at sample_doc2.nodes 3).first_child = some 4 ∧
    (node_at sample_doc2.nodes 4).type = node_pcdata ∧
    cstrOpt sample_doc2.buf (node_at sample_doc2.nodes 4).value = some [118] ∧
    xml_node.first_element_by_value 6 sample_doc2.nodes sample_doc2.buf (some 2) [97] [118] =
      some (some 3) := by
  decide

/-- C27: in the document `<r><a id="1"/></r>` the element `a` (node 2) carries
the attribute `id` of value `1`, but `first_element_by_attribute("id", "1")`
from the document returns the empty handle: for the element `r` the loop calls
itself with `i->first_child`, the element `a`, as the node whose children are
searched, and `a` has none.  From `r` the search finds `a`. -/
theorem first_element_by_attribute_misses_child :
    xml_node.first_element_by_attribute 6 sample_doc3.nodes sample_doc3.attrs sample_doc3.buf
      (some 0) [105, 100] [49] = some none ∧
    (node_at sample_doc3.nodes 1).first_child = some 2 ∧
    (node_at sample_doc3.nodes 2).first_attribute = some 0 ∧
    cstrOpt sample_doc3.buf (attr_at sample_doc3.attrs 0).name = some [105, 100] ∧
    cstrOpt sample_doc3.buf (attr_at sample_doc3.attrs 0).value = some [49] ∧
    xml_node.first_element_by_attribute 6 sample_doc3.nodes sample_doc3.attrs sample_doc3.buf
      (some 1) [105, 100] [49] = some (some 2) := by
  decide

/-! ## C28: paths of names -/

/-- `strcmprange` returns 0 exactly when the string has the bytes of the
range, for a range without NUL. -/
theorem strcmprange_eq_zero_iff : ∀ (seg lhs : List Nat), (∀ c ∈ seg, c ≠ 0) →
    (strcmprange lhs seg = 0 ↔ cstr lhs = seg) := by
  intro seg
  induction seg with
  | nil =>
    intro lhs _
    cases lhs with
    | nil => simp [strcmprange, cstr, rd]
    | cons a l =>
      by_cases ha : a = 0
      · subst ha; simp [strcmprange, cstr, rd]
      · simp [strcmprange, cstr, rd, ha]
  | cons c r ih =>
    intro lhs hseg
    have hc : c ≠ 0 := hseg c (List.mem_cons_self _ _)
    cases lhs with
    | nil => simp [strcmprange, cstr]
    | cons a l =>
      rw [strcmprange]
      by_cases hac : a ≠ 0 ∧ a = c
      · rw [if_pos hac, ih l (fun x hx => hseg x (List.mem_cons_of_mem _ hx))]
        obtain ⟨ha, rfl⟩ := hac
        simp [cstr, ha]
      · rw [if_neg hac]
        simp only [one_ne_zero, false_iff]
        unfold cstr
        by_cases ha : a = 0
        · subst ha; simp
        · have : a ≠ c := fun e => hac ⟨ha, e⟩
          simp [ha, this]

theorem range_is_iff (mem seg : List Nat) (hseg : ∀ c ∈ seg, c ≠ 0) (p : Option Nat) :
    range_is mem seg p = true ↔ cstrOpt mem p = some seg := by
  cases p with
  | none => simp [range_is, cstrOpt]
  | some q =>
    simp only [range_is, cstrOpt, Option.map_some', decide_eq_true_eq,
      strcmprange_eq_zero_iff seg _ hseg, Option.some.injEq]
    rfl

theorem skip_delimiters_stop (d : Nat) (hd : d ≠ 0) (l : List Nat) (h : rd l ≠ d) :
    skip_delimiters d l = some l := by
  cases l with
  | nil => simp [skip_delimiters, hd]
  | cons c r => simp only [skip_delimiters]; exact if_neg h

theorem skip_delimiters_cons (d : Nat) (l : List Nat) :
    skip_delimiters d (d :: l) = skip_delimiters d l := by
  simp [skip_delimiters]

theorem skip_delimiters_replicate (d : Nat) (hd : d ≠ 0) (k : Nat) :
    skip_delimiters d (List.replicate k d) = some [] := by
  induction k with
  | zero => simp [skip_delimiters, hd]
  | succ k ih => rw [List.replicate_succ, skip_delimiters_cons, ih]

/-- The scan of a segment reads the bytes that are neither NUL nor the
delimiter. -/
theorem scan_segment_append (d : Nat) (s tail : List Nat) (hs : ∀ c ∈ s, c ≠ 0 ∧ c ≠ d)
    (ht : rd tail = 0 ∨ rd tail = d) : scan_segment d (s ++ tail) = (s, tail) := by
  induction s with
  | nil =>
    cases tail with
    | nil => rfl
    | cons c r =>
      have hc : ¬ (c ≠ 0 ∧ c ≠ d) := fun h => by
        rcases ht with h0 | h0
        · exact h.1 h0
        · exact h.2 h0
      simp only [List.nil_append, scan_segment]
      rw [if_neg hc]
  | cons c r ih =>
    rw [List.cons_append, scan_segment, if_pos (hs c (List.mem_cons_self _ _)),
      ih (fun x hx => hs x (List.mem_cons_of_mem _ hx))]

/-- A path of names: the names with one delimiter between two of them. -/
theorem intercalate_cons (d : Nat) (s : List Nat) (rest : List (List Nat)) :
    List.intercalate [d] (s :: rest) =
      s ++ (if rest = [] then [] else d :: List.intercalate [d] rest) := by
  cases rest with
  | nil => simp [List.intercalate]
  | cons t ts => simp [List.intercalate, List.intersperse]

theorem rd_plain {d : Nat} {s : List Nat} (h : PlainName d s) (tail : List Nat) :
    rd (s ++ tail) ≠ 0 ∧ rd (s ++ tail) ≠ d := by
  obtain ⟨hne, hs, _, _⟩ := h
  cases s with
  | nil => exact absurd rfl hne
  | cons c r => exact hs c (List.mem_cons_self _ _)

theorem rd_intercalate {d : Nat} {segs : List (List Nat)} (h : ∀ s ∈ segs, PlainName d s)
    (hne : segs ≠ []) :
    rd (List.intercalate [d] segs) ≠ 0 ∧ rd (List.intercalate [d] segs) ≠ d := by
  cases segs with
  | nil => exact absurd rfl hne
  | cons s rest =>
    rw [intercalate_cons]
    exact rd_plain (h s (List.mem_cons_self _ _)) _

/-- What the body of `first_element_by_path` reads from a path of names: the
first name and the pointer to the next one. -/
theorem path_head (d : Nat) (hd : d ≠ 0) (s : List Nat) (rest : List (List Nat))
    (hs : PlainName d s) (hrest : ∀ x ∈ rest, PlainName d x) :
    skip_delimiters d (List.intercalate [d] (s :: rest)) =
        some (List.intercalate [d] (s :: rest)) ∧
      (scan_segment d (List.intercalate [d] (s :: rest))).1 = s ∧
      skip_delimiters d (scan_segment d (List.intercalate [d] (s :: rest))).2 =
        some (List.intercalate [d] rest) := by
  have h1 := @rd_intercalate d (s :: rest)
    (fun x hx => by
      rcases List.mem_cons.mp hx with e | e
      · rw [e]; exact hs
      · exact hrest x e) (List.cons_ne_nil _ _)
  refine ⟨skip_delimiters_stop d hd _ h1.2, ?_, ?_⟩
  · rw [intercalate_cons, scan_segment_append d s _ hs.2.1]
    by_cases hr : rest = []
    · rw [if_pos hr]; exact Or.inl rfl
    · rw [if_neg hr]; exact Or.inr rfl
  · rw [intercalate_cons, scan_segment_append d s _ hs.2.1]
    · by_cases hr : rest = []
      · rw [if_pos hr, hr]
        simp [skip_delimiters, hd, List.intercalate]
      · rw [if_neg hr]
        show skip_delimiters d (d :: List.intercalate [d] rest) = _
        rw [skip_delimiters_cons]
        exact skip_delimiters_stop d hd _ (rd_intercalate hrest hr).2
    · by_cases hr : rest = []
      · rw [if_pos hr]; exact Or.inl rfl
      · rw [if_neg hr]; exact Or.inr rfl

theorem path_run_nil (nodes : List xml_node_struct) (mem : List Nat) (d n r : Nat) :
    first_element_by_path_run nodes mem d (n + 1) none (some r) [] = some (some r) := rfl

theorem path_run_loop_none (nodes : List xml_node_struct) (mem : List Nat) (d n : Nat)
    (seg next : List Nat) :
    first_element_by_path_run nodes mem d (n + 1) (some seg) none next = some none := rfl

theorem path_run_loop_some (nodes : List xml_node_struct) (mem : List Nat) (d n : Nat)
    (seg next : List Nat) (i : Nat) :
    first_element_by_path_run nodes mem d (n + 1) (some seg) (some i) next =
      if range_is mem seg (node_at nodes i).name = true then
        match first_element_by_path_run nodes mem d n none (some i) next with
        | none => none
        | some (some subsearch) => some (some subsearch)
        | some none =>
          first_element_by_path_run nodes mem d n (some seg) (node_at nodes i).next_sibling next
      else
        first_element_by_path_run nodes mem d n (some seg) (node_at nodes i).next_sibling next :=
  rfl

theorem path_run_call (nodes : List xml_node_struct) (mem : List Nat) (d n r : Nat)
    (path : List Nat) :
    first_element_by_path_run nodes mem d (n + 1) none (some r) path =
      if rd path = 0 then some (some r)
      else
        match (if rd path = d then (root_loop nodes n r).map (fun f => (f, path.tail))
          else some (r, path)) with
        | none => none
        | some (f, path1) =>
          match skip_delimiters d path1 with
          | none => none
          | some path_segment =>
            if (scan_segment d path_segment).1 = [] then some (some f)
            else
              match skip_delimiters d (scan_segment d path_segment).2 with
              | none => none
              | some next_segment =>
                if rd path_segment = 46 ∧ (scan_segment d path_segment).1.length = 1 then
                  first_element_by_path_run nodes mem d n none (some f) next_segment
                else if rd path_segment = 46 ∧ rd path_segment.tail = 46 ∧
                    (scan_segment d path_segment).1.length = 2 then
                  first_element_by_path_run nodes mem d n none
                    (xml_node.parent nodes (some f)) next_segment
                else
                  first_element_by_path_run nodes mem d n
                    (some (scan_segment d path_segment).1) (node_at nodes f).first_child
                    next_segment := rfl

/-- The call of `first_element_by_path` on a path of names is the loop over the
children for the first name. -/
theorem path_call_name (nodes : List xml_node_struct) (mem : List Nat) (d : Nat) (hd : d ≠ 0)
    (n r : Nat) (s : List Nat) (rest : List (List Nat)) (hs : PlainName d s)
    (hrest : ∀ x ∈ rest, PlainName d x) :
    first_element_by_path_run nodes mem d (n + 1) none (some r)
        (List.intercalate [d] (s :: rest)) =
      first_element_by_path_run nodes mem d n (some s) (node_at nodes r).first_child
        (List.intercalate [d] rest) := by
  obtain ⟨h1, h2, h3⟩ := path_head d hd s rest hs hrest
  have hrd := @rd_intercalate d (s :: rest)
    (fun x hx => by
      rcases List.mem_cons.mp hx with e | e
      · rw [e]; exact hs
      · exact hrest x e) (List.cons_ne_nil _ _)
  rw [path_run_call, if_neg hrd.1, if_neg hrd.2]
  simp only [h1, h2, h3]
  rw [if_neg hs.1]
  have hdot : ¬ (rd (List.intercalate [d] (s :: rest)) = 46 ∧ s.length = 1) := by
    rintro ⟨ha, hb⟩
    apply hs.2.2.1
    match s, hb with
    | [c], _ =>
      rw [intercalate_cons] at ha
      have : c = 46 := ha
      rw [this]
  have hdotdot : ¬ (rd (List.intercalate [d] (s :: rest)) = 46 ∧
      rd (List.intercalate [d] (s :: rest)).tail = 46 ∧ s.length = 2) := by
    rintro ⟨ha, hb, hc⟩
    apply hs.2.2.2
    match s, hc with
    | [c1, c2], _ =>
      rw [intercalate_cons] at ha hb
      have e1 : c1 = 46 := ha
      have e2 : c2 = 46 := hb
      rw [e1, e2]
  rw [if_neg hdot, if_neg hdotdot]

/-- The loop of `first_element_by_path` over the children, for a path of
names: the children named by the first segment are tried in list order. -/
theorem path_loop_spec (nodes : List xml_node_struct) (mem : List Nat) (d : Nat) (hd : d ≠ 0) :
    ∀ (t : forest) (s : List Nat) (rest : List (List Nat)) (q : Option Nat) (fuel : Nat),
      IsForest nodes q t → PlainName d s → (∀ x ∈ rest, PlainName d x) →
      2 * t.preorder.length + 1 < fuel →
      first_element_by_path_run nodes mem d fuel (some s) q (List.intercalate [d] rest) =
        some (find_path nodes mem (s :: rest) t) := by
  intro t
  induction t with
  | nil =>
    intro s rest q fuel h _ _ hf
    obtain ⟨n, rfl⟩ : ∃ n, fuel = n + 1 := ⟨fuel - 1, by omega⟩
    rw [show q = none from h]
    rfl
  | node p c nx ihc ihn =>
    intro s rest q fuel h hs hrest hf
    obtain ⟨n, rfl⟩ : ∃ n, fuel = n + 1 := ⟨fuel - 1, by omega⟩
    simp only [forest.preorder, List.length_cons, List.length_append] at hf
    have hnx := ihn s rest _ n h.2.2 hs hrest (by omega)
    rw [h.1, path_run_loop_some]
    have hfp : find_path nodes mem (s :: rest) (forest.node p c nx) =
        if cstrOpt mem (node_at nodes p).name = some s then
          match (if rest = [] then some p else find_path nodes mem rest c) with
          | some r => some r
          | none => find_path nodes mem (s :: rest) nx
        else find_path nodes mem (s :: rest) nx := rfl
    rw [hfp]
    by_cases hm : cstrOpt mem (node_at nodes p).name = some s
    · rw [if_pos hm, if_pos ((range_is_iff mem s (fun x hx => (hs.2.1 x hx).1) _).mpr hm)]
      obtain ⟨n2, rfl⟩ : ∃ n2, n = n2 + 1 := ⟨n - 1, by omega⟩
      cases rest with
      | nil =>
        rw [if_pos rfl]
        rfl
      | cons s2 rest2 =>
        rw [if_neg (List.cons_ne_nil _ _),
          path_call_name nodes mem d hd n2 p s2 rest2 (hrest s2 (List.mem_cons_self _ _))
            (fun x hx => hrest x (List.mem_cons_of_mem _ hx)),
          ihc s2 rest2 _ n2 h.2.1 (hrest s2 (List.mem_cons_self _ _))
            (fun x hx => hrest x (List.mem_cons_of_mem _ hx)) (by omega)]
        cases hfind : find_path nodes mem (s2 :: rest2) c with
        | none => exact hnx
        | some r => rfl
    · rw [if_neg hm, if_neg (fun hh => hm ((range_is_iff mem s
        (fun x hx => (hs.2.1 x hx).1) _).mp hh))]
      exact hnx

theorem cstr_of_nz (s : List Nat) (h : ∀ c ∈ s, c ≠ 0) : cstr s = s := by
  unfold cstr
  rw [List.takeWhile_eq_self_iff]
  intro c hc
  simpa using h c hc

theorem child_chain_none (fuel : Nat) (nodes : List xml_node_struct) (mem : List Nat) :
    ∀ segs : List (List Nat), child_chain fuel nodes mem segs none = some none := by
  intro segs
  induction segs with
  | nil => rfl
  | cons s rest ih => exact ih

/-- The child that `child(s)` returns is the first node of the forest of
children at which `find_path` tries the rest of the path. -/
theorem child_loop_find (nodes : List xml_node_struct) (mem s : List Nat)
    (rest : List (List Nat)) (hs : ∀ c ∈ s, c ≠ 0) (c : Nat) :
    ∀ (t : forest) (q : Option Nat) (fuel : Nat), IsForest nodes q t →
      child_loop nodes mem s fuel q = some (some c) →
      ∃ tc tn : forest, IsForest nodes (node_at nodes c).first_child tc ∧
        find_path nodes mem (s :: rest) t =
          match (if rest = [] then some c else find_path nodes mem rest tc) with
          | some r => some r
          | none => find_path nodes mem (s :: rest) tn := by
  intro t
  induction t with
  | nil =>
    intro q fuel h hc
    rw [show q = none from h] at hc
    cases fuel with
    | zero => exact absurd hc (by simp [child_loop])
    | succ n => exact absurd hc (by simp [child_loop])
  | node p tc nx _ ihn =>
    intro q fuel h hc
    rw [h.1] at hc
    cases fuel with
    | zero => exact absurd hc (by simp [child_loop])
    | succ n =>
      rw [child_loop] at hc
      have hfp : find_path nodes mem (s :: rest) (forest.node p tc nx) =
          if cstrOpt mem (node_at nodes p).name = some s then
            match (if rest = [] then some p else find_path nodes mem rest tc) with
            | some r => some r
            | none => find_path nodes mem (s :: rest) nx
          else find_path nodes mem (s :: rest) nx := rfl
      by_cases hm : str_is mem s (node_at nodes p).name = true
      · rw [if_pos hm] at hc
        have e : p = c := Option.some.inj (Option.some.inj hc)
        subst e
        have hm2 : cstrOpt mem (node_at nodes p).name = some s := by
          have := (str_is_iff mem s _).mp hm
          rwa [cstr_of_nz s hs] at this
        exact ⟨tc, nx, h.2.1, by rw [hfp, if_pos hm2]⟩
      · rw [if_neg hm] at hc
        obtain ⟨tc2, tn2, h1, h2⟩ := ihn _ n h.2.2 hc
        have hm2 : ¬ cstrOpt mem (node_at nodes p).name = some s := by
          intro hh
          apply hm
          rw [str_is_iff, cstr_of_nz s hs]
          exact hh
        exact ⟨tc2, tn2, h1, by rw [hfp, if_neg hm2]; exact h2⟩

/-- A node that the chain of child lookups comes to is the node that
`find_path` gives. -/
theorem child_chain_find (fuel : Nat) (nodes : List xml_node_struct) (mem : List Nat) (d : Nat) :
    ∀ (segs : List (List Nat)) (n : Nat) (t : forest) (r : Nat), segs ≠ [] →
      (∀ s ∈ segs, PlainName d s) → IsForest nodes (node_at nodes n).first_child t →
      child_chain fuel nodes mem segs (some n) = some (some r) →
      find_path nodes mem segs t = some r := by
  intro segs
  induction segs with
  | nil => intro _ _ _ h; exact absurd rfl h
  | cons s rest ih =>
    intro n t r _ hplain ht hc
    have hs := hplain s (List.mem_cons_self _ _)
    have hc1 : child_chain fuel nodes mem (s :: rest) (some n) =
        match xml_node.child fuel nodes mem (some n) s with
        | none => none
        | some c => child_chain fuel nodes mem rest c := rfl
    rw [hc1] at hc
    cases hch : xml_node.child fuel nodes mem (some n) s with
    | none => rw [hch] at hc; exact absurd hc (by simp)
    | some c1 =>
      rw [hch] at hc
      cases c1 with
      | none =>
        have hc3 : child_chain fuel nodes mem rest none = some (some r) := hc
        rw [child_chain_none] at hc3
        exact absurd hc3 (by simp)
      | some c =>
        have hc2 : child_chain fuel nodes mem rest (some c) = some (some r) := hc
        obtain ⟨tc, tn, h1, h2⟩ := child_loop_find nodes mem s rest
          (fun x hx => (hs.2.1 x hx).1) c t _ fuel ht hch
        rw [h2]
        cases rest with
        | nil =>
          rw [if_pos rfl]
          have : c = r := Option.some.inj (Option.some.inj hc2)
          rw [this]
        | cons s2 rest2 =>
          rw [if_neg (List.cons_ne_nil _ _),
            ih c tc r (List.cons_ne_nil _ _)
              (fun x hx => hplain x (List.mem_cons_of_mem _ hx)) h1 hc2]

/-- C28, counterexample: in the document `<r><a/><a><b/></a></r>` the path `a/b`
from `r` leads to the element `b`, which is a child of the second `a`, while
the lookup `child("a")` and then `child("b")` is empty: the first `a` has no
child `b`. -/
theorem first_element_by_path_backtracks :
    xml_node.first_element_by_path 12 sample_doc4.nodes sample_doc4.buf (some 1) [97, 47, 98] 47 =
      some (some 4) ∧
    child_chain 12 sample_doc4.nodes sample_doc4.buf [[97], [98]] (some 1) = some none := by
  decide

/-- C28, as amended: `first_element_by_path` on a node whose children and
their descendants are the forest `t`, for a path `s1/s2/.../sk` of names
(bytes other than NUL and the delimiter, not `.` or `..`) and a delimiter
other than NUL, run with enough fuel.  A segment moves to a direct child with
exactly that name: the children with the name `s1` are tried in list order,
and the first one from which `s2/.../sk` leads to a node gives the result
(`find_path`); the result is empty when there is none.  When the chain
`child(s1)`, `child(s2)`, ... comes to a node, the result is that node. -/
theorem first_element_by_path_names (nodes : List xml_node_struct) (mem : List Nat) (d : Nat)
    (hd : d ≠ 0) (this : Nat) (t : forest) (segs : List (List Nat)) (fuel : Nat)
    (hne : segs ≠ []) (hplain : ∀ s ∈ segs, PlainName d s)
    (ht : IsForest nodes (node_at nodes this).first_child t)
    (hf : 2 * t.preorder.length + 2 < fuel) :
    xml_node.first_element_by_path fuel nodes mem (some this) (List.intercalate [d] segs) d =
      some (find_path nodes mem segs t) ∧
    ∀ r, child_chain fuel nodes mem segs (some this) = some (some r) →
      xml_node.first_element_by_path fuel nodes mem (some this) (List.intercalate [d] segs) d =
        some (some r) := by
  have key : xml_node.first_element_by_path fuel nodes mem (some this)
      (List.intercalate [d] segs) d = some (find_path nodes mem segs t) := by
    cases segs with
    | nil => exact absurd rfl hne
    | cons s rest =>
      obtain ⟨n, rfl⟩ : ∃ n, fuel = n + 1 := ⟨fuel - 1, by omega⟩
      unfold xml_node.first_element_by_path
      rw [path_call_name nodes mem d hd n this s rest (hplain s (List.mem_cons_self _ _))
        (fun x hx => hplain x (List.mem_cons_of_mem _ hx))]
      exact path_loop_spec nodes mem d hd t s rest _ n ht (hplain s (List.mem_cons_self _ _))
        (fun x hx => hplain x (List.mem_cons_of_mem _ hx)) (by omega)
  refine ⟨key, ?_⟩
  intro r hr
  rw [key, child_chain_find fuel nodes mem d segs this t r hne hplain ht hr]

/-- The path `a/b` from the element `r` of `<r><a/><a><b/></a></r>`. -/
theorem first_element_by_path_names_witness :
    xml_node.first_element_by_path 12 sample_doc4.nodes sample_doc4.buf (some 1)
        (List.intercalate [47] [[97], [98]]) 47 =
      some (find_path sample_doc4.nodes sample_doc4.buf [[97], [98]]
        (forest.node 2 forest.nil (forest.node 3 (forest.node 4 forest.nil forest.nil)
          forest.nil))) ∧
    ∀ r, child_chain 12 sample_doc4.nodes sample_doc4.buf [[97], [98]] (some 1) =
        some (some r) →
      xml_node.first_element_by_path 12 sample_doc4.nodes sample_doc4.buf (some 1)
        (List.intercalate [47] [[97], [98]]) 47 = some (some r) :=
  first_element_by_path_names sample_doc4.nodes sample_doc4.buf 47 (by decide) 1
    (forest.node 2 forest.nil (forest.node 3 (forest.node 4 forest.nil forest.nil) forest.nil))
    [[97], [98]] 12 (by decide) (by decide) (by decide) (by decide)

/-! ## C29: the empty path, `.`, `..`, the delimiter alone, delimiters at the end -/

theorem root_loop_spec (nodes : List xml_node_struct) : ∀ (l : List Nat) (n top fuel : Nat),
    ParentChain nodes n l top → l.length < fuel → root_loop nodes fuel n = some top := by
  intro l
  induction l with
  | nil =>
    intro n top fuel h hf
    obtain ⟨k, rfl⟩ : ∃ k, fuel = k + 1 := ⟨fuel - 1, by omega⟩
    rw [root_loop, h.2, h.1]
  | cons x xs ih =>
    intro n top fuel h hf
    obtain ⟨k, rfl⟩ : ∃ k, fuel = k + 1 := ⟨fuel - 1, by simp at hf; omega⟩
    rw [root_loop, h.1]
    exact ih x top k h.2 (by simpa using hf)

/-- The call of `first_element_by_path` on a path of one segment, which may be
followed by delimiters. -/
theorem path_call_single (nodes : List xml_node_struct) (mem : List Nat) (d : Nat) (hd : d ≠ 0)
    (n r : Nat) (name tail : List Nat) (hne : name ≠ [])
    (hname : ∀ c ∈ name, c ≠ 0 ∧ c ≠ d) (ht : rd tail = 0 ∨ rd tail = d)
    (hskip : skip_delimiters d tail = some []) :
    first_element_by_path_run nodes mem d (n + 1) none (some r) (name ++ tail) =
      if name = [46] then first_element_by_path_run nodes mem d n none (some r) []
      else if name = [46, 46] then
        first_element_by_path_run nodes mem d n none (xml_node.parent nodes (some r)) []
      else first_element_by_path_run nodes mem d n (some name) (node_at nodes r).first_child [] := by
  have hrd : rd (name ++ tail) ≠ 0 ∧ rd (name ++ tail) ≠ d := by
    cases name with
    | nil => exact absurd rfl hne
    | cons c cs => exact hname c (List.mem_cons_self _ _)
  rw [path_run_call, if_neg hrd.1, if_neg hrd.2]
  simp only [skip_delimiters_stop d hd _ hrd.2, scan_segment_append d name tail hname ht, hskip]
  rw [if_neg hne]
  have t1 : (rd (name ++ tail) = 46 ∧ name.length = 1) ↔ name = [46] := by
    constructor
    · rintro ⟨ha, hb⟩
      match name, hb with
      | [c], _ =>
        have : c = 46 := ha
        rw [this]
    · intro e; subst e; exact ⟨rfl, rfl⟩
  have t2 : (rd (name ++ tail) = 46 ∧ rd (name ++ tail).tail = 46 ∧ name.length = 2) ↔
      name = [46, 46] := by
    constructor
    · rintro ⟨ha, hb, hc⟩
      match name, hc with
      | [c1, c2], _ =>
        have e1 : c1 = 46 := ha
        have e2 : c2 = 46 := hb
        rw [e1, e2]
    · intro e; subst e; exact ⟨rfl, rfl, rfl⟩
  by_cases h1 : name = [46]
  · rw [if_pos (t1.mpr h1), if_pos h1]
  · rw [if_neg (fun h => h1 (t1.mp h)), if_neg h1]
    by_cases h2 : name = [46, 46]
    · rw [if_pos (t2.mpr h2), if_pos h2]
    · rw [if_neg (fun h => h2 (t2.mp h)), if_neg h2]

theorem path_run_empty (nodes : List xml_node_struct) (mem : List Nat) (d n : Nat)
    (found : xml_node) :
    first_element_by_path_run nodes mem d (n + 1) none found [] = some found := by
  cases found <;> rfl

/-- C29, counterexample: with the delimiter `.` the path `.` is the path of
the delimiter alone, and from the element `r` of `<r><a/><a><b/></a></r>` it
leads to the document, not to `r`. -/
theorem first_element_by_path_dot_delimiter :
    xml_node.first_element_by_path 12 sample_doc4.nodes sample_doc4.buf (some 1) [46] 46 =
      some (some 0) := by
  decide

/-- C29, as amended: `first_element_by_path` on a node `n`, for a delimiter
other than `.` and NUL, run with enough fuel.  The empty path and the path `.`
lead to `n`; the path `..` leads to `n.parent()`, which is empty for the
document; the path of the delimiter alone leads to the node at the top of the
chain of `parent()` from `n`, a node that is a document or has a null parent
pointer; a name followed by delimiters leads where the name leads. -/
theorem first_element_by_path_special (nodes : List xml_node_struct) (mem : List Nat) (d : Nat)
    (hd0 : d ≠ 0) (hdot : d ≠ 46) (n fuel : Nat) :
    xml_node.first_element_by_path (fuel + 1) nodes mem (some n) [] d = some (some n) ∧
    xml_node.first_element_by_path (fuel + 2) nodes mem (some n) [46] d = some (some n) ∧
    xml_node.first_element_by_path (fuel + 2) nodes mem (some n) [46, 46] d =
      some (xml_node.parent nodes (some n)) ∧
    (xml_node.type_document nodes (some n) = true → xml_node.parent nodes (some n) = none) ∧
    (∀ (l : List Nat) (top : Nat), ParentChain nodes n l top → l.length < fuel →
      xml_node.first_element_by_path (fuel + 1) nodes mem (some n) [d] d = some (some top) ∧
      (xml_node.type_document nodes (some top) = true ∨ (node_at nodes top).parent = none)) ∧
    (∀ (name : List Nat) (k f : Nat), name ≠ [] → (∀ c ∈ name, c ≠ 0 ∧ c ≠ d) →
      xml_node.first_element_by_path f nodes mem (some n) (name ++ List.replicate k d) d =
        xml_node.first_element_by_path f nodes mem (some n) name d) := by
  have h46 : ∀ c ∈ [46], c ≠ 0 ∧ c ≠ d := by
    intro c hc
    rw [List.mem_singleton.mp hc]
    exact ⟨by decide, fun e => hdot e.symm⟩
  have h4646 : ∀ c ∈ [46, 46], c ≠ 0 ∧ c ≠ d := by
    intro c hc
    have : c = 46 := by simpa using hc
    rw [this]
    exact ⟨by decide, fun e => hdot e.symm⟩
  have hnil : skip_delimiters d [] = some [] := by simp [skip_delimiters, hd0]
  refine ⟨rfl, ?_, ?_, ?_, ?_, ?_⟩
  · have := path_call_single nodes mem d hd0 (fuel + 1) n [46] [] (by simp) h46 (Or.inl rfl) hnil
    rw [List.append_nil, if_pos rfl] at this
    exact this
  · have := path_call_single nodes mem d hd0 (fuel + 1) n [46, 46] [] (by simp) h4646
      (Or.inl rfl) hnil
    rw [List.append_nil, if_neg (by decide), if_pos rfl, path_run_empty] at this
    exact this
  · intro h
    unfold xml_node.parent
    dsimp only
    rw [if_neg (by rw [h]; simp)]
  · intro l top hc hf
    refine ⟨?_, ?_⟩
    · unfold xml_node.first_element_by_path
      have hr : rd [d] = d := rfl
      rw [path_run_call, if_neg (by rw [hr]; exact hd0), if_pos hr,
        root_loop_spec nodes l n top fuel hc hf]
      simp only [Option.map_some', List.tail_cons, hnil, scan_segment]
      rfl
    · have htop : xml_node.parent nodes (some top) = none := by
        have : ∀ (l : List Nat) (n : Nat), ParentChain nodes n l top →
            xml_node.parent nodes (some top) = none := by
          intro l
          induction l with
          | nil => intro n h; rw [← h.1]; exact h.2
          | cons x xs ih => intro n h; exact ih x h.2
        exact this l n hc
      unfold xml_node.parent at htop
      dsimp only at htop
      by_cases ht : xml_node.type_document nodes (some top) = false
      · rw [if_pos ht] at htop
        exact Or.inr htop
      · exact Or.inl (by simpa using ht)
  · intro name k f hne hname
    cases f with
    | zero => rfl
    | succ f =>
      unfold xml_node.first_element_by_path
      have h1 := path_call_single nodes mem d hd0 f n name (List.replicate k d) hne hname
        (by
          cases k with
          | zero => exact Or.inl rfl
          | succ k => exact Or.inr rfl)
        (skip_delimiters_replicate d hd0 k)
      have h2 := path_call_single nodes mem d hd0 f n name [] hne hname (Or.inl rfl) hnil
      rw [List.append_nil] at h2
      rw [h1, h2]

/-- The element `b` of the document `<r><a/><a><b/></a></r>` and the delimiter
`/`. -/
theorem first_element_by_path_special_witness :
    xml_node.first_element_by_path (5 + 1) sample_doc4.nodes sample_doc4.buf (some 4) [] 47 = some
        (some 4) ∧
    xml_node.first_element_by_path (5 + 2) sample_doc4.nodes sample_doc4.buf (some 4) [46] 47 =
        some (some 4) ∧
    xml_node.first_element_by_path (5 + 2) sample_doc4.nodes sample_doc4.buf (some 4) [46, 46] 47 =
      some (xml_node.parent sample_doc4.nodes (some 4)) ∧
    (xml_node.type_document sample_doc4.nodes (some 4) = true → xml_node.parent sample_doc4.nodes
        (some 4) = none) ∧
    (∀ (l : List Nat) (top : Nat), ParentChain sample_doc4.nodes 4 l top → l.length < 5 →
      xml_node.first_element_by_path (5 + 1) sample_doc4.nodes sample_doc4.buf (some 4) [47] 47 =
          some (some top) ∧
      (xml_node.type_document sample_doc4.nodes (some top) = true ∨ (node_at sample_doc4.nodes
          top).parent = none)) ∧
    (∀ (name : List Nat) (k f : Nat), name ≠ [] → (∀ c ∈ name, c ≠ 0 ∧ c ≠ 47) →
      xml_node.first_element_by_path f sample_doc4.nodes sample_doc4.buf (some 4) (name ++
          List.replicate k 47) 47 =
        xml_node.first_element_by_path f sample_doc4.nodes sample_doc4.buf (some 4) name 47) :=
  first_element_by_path_special sample_doc4.nodes sample_doc4.buf 47 (by decide) (by decide) 4 5

/-- In the document `<r><a/><a><b/></a></r>`, from the element `b`: the paths
``, `.`, `..`, `/`, `../..` and `/r/a//`, and from the document the path `..`. -/
theorem first_element_by_path_example :
    xml_node.first_element_by_path 12 sample_doc4.nodes sample_doc4.buf (some 4) [] 47 =
      some (some 4) ∧
    xml_node.first_element_by_path 12 sample_doc4.nodes sample_doc4.buf (some 4) [46] 47 =
      some (some 4) ∧
    xml_node.first_element_by_path 12 sample_doc4.nodes sample_doc4.buf (some 4) [46, 46] 47 =
      some (some 3) ∧
    xml_node.first_element_by_path 12 sample_doc4.nodes sample_doc4.buf (some 4) [47] 47 =
      some (some 0) ∧
    xml_node.first_element_by_path 12 sample_doc4.nodes sample_doc4.buf (some 4)
      [46, 46, 47, 46, 46] 47 = some (some 1) ∧
    xml_node.first_element_by_path 12 sample_doc4.nodes sample_doc4.buf (some 4)
      [47, 114, 47, 97, 47, 47] 47 = some (some 2) ∧
    xml_node.first_element_by_path 12 sample_doc4.nodes sample_doc4.buf (some 0) [46, 46] 47 =
      some none ∧
    ParentChain sample_doc4.nodes 4 [3, 1, 0] 0 := by
  decide

/-! ## C30: the tree walk -/

theorem run_events_append {σ : Type} (begin_ end_ : σ → Int → xml_node → Bool × σ) :
    ∀ (es fs : List walk_event) (s : σ),
      run_events begin_ end_ s (es ++ fs) =
        run_events begin_ end_ (run_events begin_ end_ s es) fs := by
  intro es
  induction es with
  | nil => intro fs s; rfl
  | cons e es ih =>
    intro fs s
    cases e with
    | enter p d => exact ih fs _
    | leave p d => exact ih fs _

theorem depth_of_nonneg {σ : Type} (w : xml_tree_walker σ) (h : 0 ≤ w.deep) :
    w.depth = w.deep := by
  unfold xml_tree_walker.depth
  by_cases h0 : w.deep > 0
  · rw [if_pos h0]
  · rw [if_neg h0]; omega

theorem traverse_run_loop_none {σ : Type} (nodes : List xml_node_struct)
    (begin_ end_ : σ → Int → xml_node → Bool × σ) (n : Nat) (w : xml_tree_walker σ) :
    traverse_run nodes begin_ end_ (n + 1) true none w = some (true, w) := rfl

theorem traverse_run_loop_some {σ : Type} (nodes : List xml_node_struct)
    (begin_ end_ : σ → Int → xml_node → Bool × σ) (n c : Nat) (w : xml_tree_walker σ) :
    traverse_run nodes begin_ end_ (n + 1) true (some c) w =
      match traverse_run nodes begin_ end_ n false (some c) w with
      | none => none
      | some (false, w1) => some (false, w1)
      | some (true, w1) =>
        traverse_run nodes begin_ end_ n true (node_at nodes c).next_sibling w1 := rfl

theorem traverse_run_node {σ : Type} (nodes : List xml_node_struct)
    (begin_ end_ : σ → Int → xml_node → Bool × σ) (n r : Nat) (w : xml_tree_walker σ) :
    traverse_run nodes begin_ end_ (n + 1) false (some r) w =
      if (begin_ w.user w.depth (some r)).1 = false then
        some (false, { w with user := (begin_ w.user w.depth (some r)).2 })
      else
        match traverse_run nodes begin_ end_ n true (node_at nodes r).first_child
            (xml_tree_walker.push { w with user := (begin_ w.user w.depth (some r)).2 }) with
        | none => none
        | some (false, w2) => some (false, w2)
        | some (true, w2) =>
          some ((end_ w2.pop.user w2.pop.depth (some r)).1,
            { w2.pop with user := (end_ w2.pop.user w2.pop.depth (some r)).2 }) := rfl

/-- The call `traverse` on a node, when the loop over its children makes the
calls `es` and no callback returns `false`. -/
theorem traverse_run_node_ok {σ : Type} (nodes : List xml_node_struct)
    (begin_ end_ : σ → Int → xml_node → Bool × σ)
    (hb : ∀ s d n, (begin_ s d n).1 = true) (he : ∀ s d n, (end_ s d n).1 = true)
    (n r : Nat) (w : xml_tree_walker σ) (hw : 0 ≤ w.deep) (es : List walk_event)
    (hloop : ∀ w1 : xml_tree_walker σ, w1.deep = w.deep + 1 →
      traverse_run nodes begin_ end_ n true (node_at nodes r).first_child w1 =
        some (true, { deep := w1.deep, user := run_events begin_ end_ w1.user es })) :
    traverse_run nodes begin_ end_ (n + 1) false (some r) w =
      some (true, { deep := w.deep,
                    user := run_events begin_ end_ w.user
                      (walk_event.enter r w.deep :: (es ++ [walk_event.leave r w.deep])) }) := by
  rw [traverse_run_node, if_neg (by rw [hb]; simp), hloop _ rfl]
  simp only [xml_tree_walker.push, xml_tree_walker.pop]
  rw [he]
  have hd : w.depth = w.deep := depth_of_nonneg w hw
  have hd2 : (xml_tree_walker.depth
      ({ deep := w.deep + 1 - 1,
         user := run_events begin_ end_ (begin_ w.user w.depth (some r)).2 es } :
        xml_tree_walker σ)) = w.deep := by
    rw [depth_of_nonneg]
    · show w.deep + 1 - 1 = w.deep
      omega
    · show 0 ≤ w.deep + 1 - 1
      omega
  have hu : run_events begin_ end_ w.user
      (walk_event.enter r w.deep :: (es ++ [walk_event.leave r w.deep])) =
      (end_ (run_events begin_ end_ (begin_ w.user w.deep (some r)).2 es) w.deep (some r)).2 := by
    show run_events begin_ end_ (begin_ w.user w.deep (some r)).2
      (es ++ [walk_event.leave r w.deep]) = _
    rw [run_events_append]
    rfl
  rw [hd2, hd, hu, show w.deep + 1 - 1 = w.deep by omega]

/-- The loop of `traverse` over a forest makes the calls `t.events`. -/
theorem traverse_run_loop_ok {σ : Type} (nodes : List xml_node_struct)
    (begin_ end_ : σ → Int → xml_node → Bool × σ)
    (hb : ∀ s d n, (begin_ s d n).1 = true) (he : ∀ s d n, (end_ s d n).1 = true) :
    ∀ (t : forest) (q : Option Nat) (fuel : Nat) (w : xml_tree_walker σ),
      IsForest nodes q t → 0 ≤ w.deep → 2 * t.preorder.length + 1 < fuel →
      traverse_run nodes begin_ end_ fuel true q w =
        some (true, { deep := w.deep, user := run_events begin_ end_ w.user (t.events w.deep) }) := by
  intro t
  induction t with
  | nil =>
    intro q fuel w h _ hf
    obtain ⟨n, rfl⟩ : ∃ n, fuel = n + 1 := ⟨fuel - 1, by omega⟩
    rw [show q = none from h]
    rfl
  | node p c nx ihc ihn =>
    intro q fuel w h hw hf
    obtain ⟨n, rfl⟩ : ∃ n, fuel = n + 1 := ⟨fuel - 1, by omega⟩
    simp only [forest.preorder, List.length_cons, List.length_append] at hf
    obtain ⟨n2, rfl⟩ : ∃ n2, n = n2 + 1 := ⟨n - 1, by omega⟩
    rw [h.1, traverse_run_loop_some,
      traverse_run_node_ok nodes begin_ end_ hb he n2 p w hw (c.events (w.deep + 1))
        (fun w1 hw1 => by
          rw [ihc _ n2 w1 h.2.1 (by omega) (by omega), hw1])]
    simp only
    rw [ihn _ (n2 + 1)
      { deep := w.deep,
        user := run_events begin_ end_ w.user
          (walk_event.enter p w.deep :: (c.events (w.deep + 1) ++ [walk_event.leave p w.deep])) }
      h.2.2 hw (by omega)]
    simp only [forest.events]
    congr 3
    rw [show walk_event.enter p w.deep ::
        (c.events (w.deep + 1) ++ walk_event.leave p w.deep :: nx.events w.deep) =
      (walk_event.enter p w.deep :: (c.events (w.deep + 1) ++ [walk_event.leave p w.deep])) ++
        nx.events w.deep by simp,
      run_events_append]

theorem events_entered (base : Int) : ∀ (t : forest) (k : Nat),
    (t.events (base + k)).filterMap walk_event.entered =
      (t.levels k).map (fun x => (x.1, base + (x.2 : Int))) := by
  intro t
  induction t with
  | nil => intro k; rfl
  | node p c n ihc ihn =>
    intro k
    have hc := ihc (k + 1)
    rw [show base + ((k + 1 : Nat) : Int) = base + (k : Int) + 1 by push_cast; omega] at hc
    simp only [forest.events, forest.levels, List.filterMap_cons, walk_event.entered,
      List.filterMap_append, List.map_cons, List.map_append, hc, ihn k]

theorem events_left (base : Int) : ∀ (t : forest) (k : Nat),
    ((t.events (base + k)).filterMap walk_event.left).Perm
      ((t.levels k).map (fun x => (x.1, base + (x.2 : Int)))) := by
  intro t
  induction t with
  | nil => intro k; exact List.Perm.refl _
  | node p c n ihc ihn =>
    intro k
    have hc := ihc (k + 1)
    rw [show base + ((k + 1 : Nat) : Int) = base + (k : Int) + 1 by push_cast; omega] at hc
    simp only [forest.events, forest.levels, List.filterMap_cons, walk_event.left,
      List.filterMap_append, List.map_cons, List.map_append]
    exact (List.perm_middle.trans (List.Perm.cons _ (List.Perm.append hc (ihn k))))

theorem levels_fst : ∀ (t : forest) (k : Nat), (t.levels k).map Prod.fst = t.preorder := by
  intro t
  induction t with
  | nil => intro k; rfl
  | node p c n ihc ihn =>
    intro k
    simp only [forest.levels, forest.preorder, List.map_cons, List.map_append, ihc, ihn]

theorem events_left_fst : ∀ (t : forest) (d : Int),
    ((t.events d).filterMap walk_event.left).map Prod.fst = t.postorder := by
  intro t
  induction t with
  | nil => intro d; rfl
  | node p c n ihc ihn =>
    intro d
    simp only [forest.events, forest.postorder, List.filterMap_cons, walk_event.left,
      List.filterMap_append, List.map_cons, List.map_append, ihc, ihn]

/-- The calls for a node and its descendants stand together in the calls of
the walk: `begin` on the node, the calls for its descendants, `end` on the
node. -/
theorem events_nested (base : Int) : ∀ (t : forest) (k : Nat), ∀ x ∈ t.subtrees k,
    ∃ pre post : List walk_event,
      t.events (base + k) =
        pre ++ (walk_event.enter x.1 (base + (x.2.2 : Int)) ::
          (x.2.1.events (base + (x.2.2 : Int) + 1) ++
            [walk_event.leave x.1 (base + (x.2.2 : Int))])) ++ post := by
  intro t
  induction t with
  | nil => intro k x hx; exact absurd hx (List.not_mem_nil _)
  | node p c n ihc ihn =>
    intro k x hx
    simp only [forest.subtrees, List.mem_cons, List.mem_append] at hx
    rcases hx with e | hx | hx
    · subst e
      exact ⟨[], n.events (base + k), by simp [forest.events]⟩
    · obtain ⟨pre, post, h⟩ := ihc (k + 1) x hx
      rw [show base + ((k + 1 : Nat) : Int) = base + (k : Int) + 1 by push_cast; omega] at h
      refine ⟨walk_event.enter p (base + k) :: pre,
        post ++ walk_event.leave p (base + k) :: n.events (base + k), ?_⟩
      simp only [forest.events, h]
      simp
    · obtain ⟨pre, post, h⟩ := ihn k x hx
      refine ⟨walk_event.enter p (base + k) :: (c.events (base + k + 1) ++
        walk_event.leave p (base + k) :: pre), post, ?_⟩
      simp only [forest.events, h]
      simp

/-- C30: `xml_node::traverse` on a node `this` whose children and their
descendants are the forest `t`, with callbacks that never return `false`, a
walker whose counter is not negative (it is 0 for a fresh walker) and enough
fuel.  The call returns `true`, the counter of the walker is what it was, and
the callbacks have been called as `events` lists them for the tree of `this`:
`begin` on the nodes in pre-order and `end` on them in post-order, each at a
depth that is the initial depth plus the distance of the node from `this`, the
same for `begin` and `end`, and for every node of the tree its `begin`, the
calls for its descendants and its `end` stand together in that order. -/
theorem traverse_all_true {σ : Type} (nodes : List xml_node_struct)
    (begin_ end_ : σ → Int → xml_node → Bool × σ)
    (hb : ∀ s d n, (begin_ s d n).1 = true) (he : ∀ s d n, (end_ s d n).1 = true)
    (this : Nat) (t : forest) (w : xml_tree_walker σ) (fuel : Nat)
    (ht : IsForest nodes (node_at nodes this).first_child t) (hw : 0 ≤ w.deep)
    (hf : 2 * t.preorder.length + 2 < fuel) :
    xml_node.traverse fuel nodes begin_ end_ (some this) w =
      some (true, { deep := w.deep,
                    user := run_events begin_ end_ w.user
                      ((forest.node this t forest.nil).events w.deep) }) ∧
    (((forest.node this t forest.nil).events w.deep).filterMap walk_event.entered).map
      Prod.fst = this :: t.preorder ∧
    (((forest.node this t forest.nil).events w.deep).filterMap walk_event.left).map
      Prod.fst = t.postorder ++ [this] ∧
    ((forest.node this t forest.nil).events w.deep).filterMap walk_event.entered =
      ((forest.node this t forest.nil).levels 0).map (fun x => (x.1, w.deep + (x.2 : Int))) ∧
    (((forest.node this t forest.nil).events w.deep).filterMap walk_event.left).Perm
      (((forest.node this t forest.nil).levels 0).map (fun x => (x.1, w.deep + (x.2 : Int)))) ∧
    (∀ x ∈ (forest.node this t forest.nil).subtrees 0, ∃ pre post : List walk_event,
      (forest.node this t forest.nil).events w.deep =
        pre ++ (walk_event.enter x.1 (w.deep + (x.2.2 : Int)) ::
          (x.2.1.events (w.deep + (x.2.2 : Int) + 1) ++
            [walk_event.leave x.1 (w.deep + (x.2.2 : Int))])) ++ post) := by
  have e0 : w.deep + ((0 : Nat) : Int) = w.deep := by simp
  have h1 := events_entered w.deep (forest.node this t forest.nil) 0
  have h2 := events_left w.deep (forest.node this t forest.nil) 0
  have h3 := events_nested w.deep (forest.node this t forest.nil) 0
  rw [e0] at h1 h2 h3
  refine ⟨?_, ?_, ?_, h1, h2, h3⟩
  · obtain ⟨n, rfl⟩ : ∃ n, fuel = n + 1 := ⟨fuel - 1, by omega⟩
    unfold xml_node.traverse
    rw [traverse_run_node_ok nodes begin_ end_ hb he n this w hw (t.events (w.deep + 1))
      (fun w1 hw1 => by
        rw [traverse_run_loop_ok nodes begin_ end_ hb he t _ n w1 ht (by omega) (by omega), hw1])]
    simp [forest.events]
  · rw [h1, List.map_map]
    have := levels_fst (forest.node this t forest.nil) 0
    simp only [forest.preorder, forest.nil, List.append_nil] at this
    rw [← this]
    rfl
  · rw [events_left_fst]
    simp [forest.postorder]

/-- The walk of `r` in `<r><a/><a><b/></a></r>` with a fresh walker and
callbacks that return `true`. -/
theorem traverse_all_true_witness :
    IsForest sample_doc4.nodes (node_at sample_doc4.nodes 1).first_child sample_forest4 ∧
    (0 : Int) ≤ (⟨0, []⟩ : xml_tree_walker (List walk_event)).deep ∧
    2 * sample_forest4.preorder.length + 2 < 12 ∧
    (xml_node.traverse 12 sample_doc4.nodes log_begin log_end (some 1) ⟨0, []⟩ =
      some (true, { deep := (⟨0, []⟩ : xml_tree_walker (List walk_event)).deep,
                    user := run_events log_begin log_end
                      (⟨0, []⟩ : xml_tree_walker (List walk_event)).user
                      ((forest.node 1 sample_forest4 forest.nil).events
                        (⟨0, []⟩ : xml_tree_walker (List walk_event)).deep) }) ∧
    (((forest.node 1 sample_forest4 forest.nil).events
        (⟨0, []⟩ : xml_tree_walker (List walk_event)).deep).filterMap walk_event.entered).map
      Prod.fst = 1 :: sample_forest4.preorder ∧
    (((forest.node 1 sample_forest4 forest.nil).events
        (⟨0, []⟩ : xml_tree_walker (List walk_event)).deep).filterMap walk_event.left).map
      Prod.fst = sample_forest4.postorder ++ [1] ∧
    ((forest.node 1 sample_forest4 forest.nil).events
        (⟨0, []⟩ : xml_tree_walker (List walk_event)).deep).filterMap walk_event.entered =
      ((forest.node 1 sample_forest4 forest.nil).levels 0).map
        (fun x => (x.1, (⟨0, []⟩ : xml_tree_walker (List walk_event)).deep + (x.2 : Int))) ∧
    (((forest.node 1 sample_forest4 forest.nil).events
        (⟨0, []⟩ : xml_tree_walker (List walk_event)).deep).filterMap walk_event.left).Perm
      (((forest.node 1 sample_forest4 forest.nil).levels 0).map
        (fun x => (x.1, (⟨0, []⟩ : xml_tree_walker (List walk_event)).deep + (x.2 : Int)))) ∧
    (∀ x ∈ (forest.node 1 sample_forest4 forest.nil).subtrees 0,
      ∃ pre post : List walk_event,
        (forest.node 1 sample_forest4 forest.nil).events
            (⟨0, []⟩ : xml_tree_walker (List walk_event)).deep =
          pre ++ (walk_event.enter x.1
              ((⟨0, []⟩ : xml_tree_walker (List walk_event)).deep + (x.2.2 : Int)) ::
            (x.2.1.events
                ((⟨0, []⟩ : xml_tree_walker (List walk_event)).deep + (x.2.2 : Int) + 1) ++
              [walk_event.leave x.1
                ((⟨0, []⟩ : xml_tree_walker (List walk_event)).deep + (x.2.2 : Int))])) ++
            post)) :=
  ⟨by decide, by decide, by decide,
    traverse_all_true sample_doc4.nodes log_begin log_end (fun _ _ _ => rfl) (fun _ _ _ => rfl)
      1 sample_forest4 ⟨0, []⟩ 12 (by decide) (by decide) (by decide)⟩

/-- The walk of the witness of C30, evaluated: the calls in their order, each
with the depth that the walker showed. -/
theorem traverse_example :
    xml_node.traverse 12 sample_doc4.nodes log_begin log_end (some 1) ⟨0, []⟩ =
      some (true, ⟨0, [walk_event.enter 1 0, walk_event.enter 2 1, walk_event.leave 2 1,
        walk_event.enter 3 1, walk_event.enter 4 2, walk_event.leave 4 2, walk_event.leave 3 1,
        walk_event.leave 1 0]⟩) := by
  rfl

/-! ## C38: detaching by a name that is absent -/

/-- `xml_node::remove_child(name)` with a name that no child has leaves every
node as it is: the empty handle that the lookup gives has the parent
`xml_node()`, which is not `*this`. -/
theorem remove_child_absent_same (fuel : Nat) (nodes : List xml_node_struct) (mem : List Nat)
    (r : Nat) (name : List Nat) (h : xml_node.child fuel nodes mem (some r) name = some none) :
    xml_node.remove_child_named fuel nodes mem (some r) name = some nodes := by
  unfold xml_node.remove_child_named
  rw [h]
  rfl

/-- C38: `xml_node::remove_attribute(name)` on a node that is not empty and
has no attribute with the name: the lookup gives the empty handle, and
`remove_attribute` reads `attr->prev_attribute` through its null pointer. -/
theorem remove_attribute_absent_null (fuel : Nat) (nodes : List xml_node_struct)
    (attrs : List xml_attribute_struct) (mem : List Nat) (r : Nat) (name : List Nat)
    (h : xml_node.attribute fuel nodes attrs mem (some r) name = some none) :
    xml_node.remove_attribute_named fuel nodes attrs mem (some r) name = some none := by
  unfold xml_node.remove_attribute_named
  rw [h]
  rfl

/-- The second element of `<r><a/><b x="1" y="2"/><b/></r>` has no attribute
`z`. -/
theorem remove_attribute_absent_null_witness :
    xml_node.attribute 4 sample_doc1.nodes sample_doc1.attrs sample_doc1.buf (some 3) [122] =
      some none ∧
    xml_node.remove_attribute_named 4 sample_doc1.nodes sample_doc1.attrs sample_doc1.buf (some 3)
      [122] = some none :=
  ⟨by decide,
    remove_attribute_absent_null 4 sample_doc1.nodes sample_doc1.attrs sample_doc1.buf 3 [122]
      (by decide)⟩

/-- In the document `<r><a/><b x="1" y="2"/><b/></r>` the second element has
the attributes `x` and `y`: `remove_attribute("z")` on it follows the null
pointer, `remove_attribute("x")` detaches `x`, and `remove_child("z")` on `r`
changes nothing. -/
theorem remove_attribute_example :
    xml_node.remove_attribute_named 4 sample_doc1.nodes sample_doc1.attrs sample_doc1.buf (some 3)
      [122] = some none ∧
    (xml_node.remove_attribute_named 4 sample_doc1.nodes sample_doc1.attrs sample_doc1.buf
      (some 3) [120]).map (Option.map (fun x =>
        attribute_walk x.2 4 (node_at x.1 3).first_attribute)) = some (some [1]) ∧
    xml_node.remove_child_named 4 sample_doc1.nodes sample_doc1.buf (some 1) [122] =
      some sample_doc1.nodes := by
  decide

/-! ## C36: UTF-8 written and read back -/

theorem utf8_lead_2 : ∀ x, x < 32 →
    (0xC0 + x) % 256 = 0xC0 + x ∧ (0xC0 + x) &&& (2 ^ 32 - 1 - 0xC0) = x := by
  decide

theorem utf8_lead_3 : ∀ x, x < 16 →
    (0xE0 + x) % 256 = 0xE0 + x ∧ (0xE0 + x) &&& (2 ^ 32 - 1 - 0xE0) = x := by
  decide

theorem utf8_lead_4 : ∀ x, x < 8 →
    (0xF0 + x) % 256 = 0xF0 + x ∧ (0xF0 + x) &&& (2 ^ 32 - 1 - 0xF0) = x := by
  decide

theorem utf8_tail_read : ∀ y, y < 64 → (0x80 + y) % 256 &&& 0x3F = y := by
  decide

/-- One step of the reader at a continuation byte `0x80 + y`. -/
theorem utf8_read_cont_at (buf : List Nat) (p x y : Nat) (hp : peek buf p = 0x80 + y)
    (hy : y < 64) (hx : x < 2 ^ 26) :
    utf8_read_cont buf (p, x) = (p + 1, x * 64 + y) := by
  unfold utf8_read_cont
  simp only [hp, utf8_tail_read y hy, Nat.shiftLeft_eq]
  have e : (2 : Nat) ^ 6 = 64 := by norm_num
  have e32 : (2 : Nat) ^ 32 = 4294967296 := by norm_num
  have e26 : (2 : Nat) ^ 26 = 67108864 := by norm_num
  rw [e, e32]
  rw [e26] at hx
  rw [Nat.mod_eq_of_lt (by omega), Nat.mod_eq_of_lt (by omega)]

theorem peek_poke_same_length (buf : List Nat) (i v : Nat) :
    (poke buf i v).length = buf.length := by
  unfold poke
  simp

/-- C36: `strutf16_utf8` writes a code point `ch < 0x200000` at a position
`s` of a buffer with room for it as 1 byte if `ch < 0x80`, 2 if `ch < 0x800`, 3 if
`ch < 0x10000` and 4 otherwise: it returns the position after these bytes and
leaves the other bytes as they are; `strutf8_utf16` at `s` then gives `ch`
and the same position.  For `ch >= 0x200000`, `strutf16_utf8` writes nothing
and returns `s`. -/
theorem utf8_round_trip (buf : List Nat) (s ch : Nat)
    (hs : ch < 0x200000 →
      s + (if ch < 0x80 then 1 else if ch < 0x800 then 2 else if ch < 0x10000 then 3
        else 4) ≤ buf.length) :
    if ch < 0x200000 then
      (strutf16_utf8 buf s ch).2 =
        s + (if ch < 0x80 then 1 else if ch < 0x800 then 2 else if ch < 0x10000 then 3
          else 4) ∧
      (strutf16_utf8 buf s ch).1.length = buf.length ∧
      (∀ i, i < s ∨ (strutf16_utf8 buf s ch).2 ≤ i →
        peek (strutf16_utf8 buf s ch).1 i = peek buf i) ∧
      strutf8_utf16 (strutf16_utf8 buf s ch).1 s = ((strutf16_utf8 buf s ch).2, ch)
    else strutf16_utf8 buf s ch = (buf, s) := by
  by_cases hlt : ch < 0x200000
  · have hs := hs hlt
    rw [if_pos hlt, strutf16_utf8_eq buf s ch hlt]
    by_cases h1 : ch < 0x80
    · simp only [if_pos h1] at hs ⊢
      refine ⟨trivial, peek_poke_same_length _ _ _, ?_, ?_⟩
      · intro i hi
        exact peek_poke_ne _ _ _ _ (by omega)
      · unfold strutf8_utf16
        have hp : peek (poke buf (s + 0) ch) s = ch := peek_poke_eq buf s ch (by omega)
        simp only [hp]
        rw [Nat.mod_eq_of_lt (by omega), if_pos h1]
    · by_cases h2 : ch < 0x800
      · simp only [if_neg h1, if_pos h2] at hs ⊢
        refine ⟨trivial, by simp [peek_poke_same_length], ?_, ?_⟩
        · intro i hi
          rw [peek_poke_ne _ _ _ _ (by omega), peek_poke_ne _ _ _ _ (by omega)]
        · have hx : ch / 64 < 32 := by omega
          have hy : ch % 64 < 64 := Nat.mod_lt _ (by decide)
          obtain ⟨l1, l2⟩ := utf8_lead_2 _ hx
          have hp0 : peek (poke (poke buf (s + 1) (0x80 + ch % 64)) (s + 0) (0xC0 + ch / 64)) s =
              0xC0 + ch / 64 :=
            peek_poke_eq _ s _ (by rw [peek_poke_same_length]; omega)
          have hp1 : peek (poke (poke buf (s + 1) (0x80 + ch % 64)) (s + 0) (0xC0 + ch / 64))
              (s + 1) = 0x80 + ch % 64 := by
            rw [peek_poke_ne _ _ _ _ (by omega)]
            exact peek_poke_eq _ _ _ (by omega)
          unfold strutf8_utf16
          simp only [hp0, l1]
          rw [if_neg (by omega), if_neg (by omega), if_pos (by omega)]
          have hm : UTF8_FIRST_BYTE_MARK.getD 2 0 = 0xC0 := rfl
          rw [hm, l2, utf8_read_cont_at _ _ _ _ hp1 hy (by omega)]
          congr 1
          omega
      · by_cases h3 : ch < 0x10000
        · simp only [if_neg h1, if_neg h2, if_pos h3] at hs ⊢
          refine ⟨trivial, by simp [peek_poke_same_length], ?_, ?_⟩
          · intro i hi
            rw [peek_poke_ne _ _ _ _ (by omega), peek_poke_ne _ _ _ _ (by omega),
              peek_poke_ne _ _ _ _ (by omega)]
          · have hx : ch / 4096 < 16 := by omega
            have hy : ch % 64 < 64 := Nat.mod_lt _ (by decide)
            have hy2 : ch / 64 % 64 < 64 := Nat.mod_lt _ (by decide)
            obtain ⟨l1, l2⟩ := utf8_lead_3 _ hx
            have hp0 : peek (poke (poke (poke buf (s + 2) (0x80 + ch % 64)) (s + 1)
                (0x80 + ch / 64 % 64)) (s + 0) (0xE0 + ch / 4096)) s = 0xE0 + ch / 4096 :=
              peek_poke_eq _ s _ (by simp only [peek_poke_same_length]; omega)
            have hp1 : peek (poke (poke (poke buf (s + 2) (0x80 + ch % 64)) (s + 1)
                (0x80 + ch / 64 % 64)) (s + 0) (0xE0 + ch / 4096)) (s + 1) =
                0x80 + ch / 64 % 64 := by
              rw [peek_poke_ne _ _ _ _ (by omega)]
              exact peek_poke_eq _ _ _ (by simp only [peek_poke_same_length]; omega)
            have hp2 : peek (poke (poke (poke buf (s + 2) (0x80 + ch % 64)) (s + 1)
                (0x80 + ch / 64 % 64)) (s + 0) (0xE0 + ch / 4096)) (s + 1 + 1) =
                0x80 + ch % 64 := by
              rw [peek_poke_ne _ _ _ _ (by omega), peek_poke_ne _ _ _ _ (by omega)]
              exact peek_poke_eq _ _ _ (by omega)
            unfold strutf8_utf16
            simp only [hp0, l1]
            rw [if_neg (by omega), if_neg (by omega), if_neg (by omega), if_pos (by omega)]
            have hm : UTF8_FIRST_BYTE_MARK.getD 3 0 = 0xE0 := rfl
            rw [hm, l2, utf8_read_cont_at _ _ _ _ hp1 hy2 (by omega),
              utf8_read_cont_at _ _ _ _ hp2 hy (by omega)]
            congr 1
            omega
        · simp only [if_neg h1, if_neg h2, if_neg h3] at hs ⊢
          refine ⟨trivial, by simp [peek_poke_same_length], ?_, ?_⟩
          · intro i hi
            rw [peek_poke_ne _ _ _ _ (by omega), peek_poke_ne _ _ _ _ (by omega),
              peek_poke_ne _ _ _ _ (by omega), peek_poke_ne _ _ _ _ (by omega)]
          · have hx : ch / 262144 < 8 := by omega
            have hy : ch % 64 < 64 := Nat.mod_lt _ (by decide)
            have hy2 : ch / 64 % 64 < 64 := Nat.mod_lt _ (by decide)
            have hy3 : ch / 4096 % 64 < 64 := Nat.mod_lt _ (by decide)
            obtain ⟨l1, l2⟩ := utf8_lead_4 _ hx
            have hp0 : peek (poke (poke (poke (poke buf (s + 3) (0x80 + ch % 64)) (s + 2)
                (0x80 + ch / 64 % 64)) (s + 1) (0x80 + ch / 4096 % 64)) (s + 0)
                (0xF0 + ch / 262144)) s = 0xF0 + ch / 262144 :=
              peek_poke_eq _ s _ (by simp only [peek_poke_same_length]; omega)
            have hp1 : peek (poke (poke (poke (poke buf (s + 3) (0x80 + ch % 64)) (s + 2)
                (0x80 + ch / 64 % 64)) (s + 1) (0x80 + ch / 4096 % 64)) (s + 0)
                (0xF0 + ch / 262144)) (s + 1) = 0x80 + ch / 4096 % 64 := by
              rw [peek_poke_ne _ _ _ _ (by omega)]
              exact peek_poke_eq _ _ _ (by simp only [peek_poke_same_length]; omega)
            have hp2 : peek (poke (poke (poke (poke buf (s + 3) (0x80 + ch % 64)) (s + 2)
                (0x80 + ch / 64 % 64)) (s + 1) (0x80 + ch / 4096 % 64)) (s + 0)
                (0xF0 + ch / 262144)) (s + 1 + 1) = 0x80 + ch / 64 % 64 := by
              rw [peek_poke_ne _ _ _ _ (by omega), peek_poke_ne _ _ _ _ (by omega)]
              exact peek_poke_eq _ _ _ (by simp only [peek_poke_same_length]; omega)
            have hp3 : peek (poke (poke (poke (poke buf (s + 3) (0x80 + ch % 64)) (s + 2)
                (0x80 + ch / 64 % 64)) (s + 1) (0x80 + ch / 4096 % 64)) (s + 0)
                (0xF0 + ch / 262144)) (s + 1 + 1 + 1) = 0x80 + ch % 64 := by
              rw [peek_poke_ne _ _ _ _ (by omega), peek_poke_ne _ _ _ _ (by omega),
                peek_poke_ne _ _ _ _ (by omega)]
              exact peek_poke_eq _ _ _ (by omega)
            unfold strutf8_utf16
            simp only [hp0, l1]
            rw [if_neg (by omega), if_neg (by omega), if_neg (by omega), if_neg (by omega),
              if_pos (by omega)]
            have hm : UTF8_FIRST_BYTE_MARK.getD 4 0 = 0xF0 := rfl
            rw [hm, l2, utf8_read_cont_at _ _ _ _ hp1 hy3 (by omega),
              utf8_read_cont_at _ _ _ _ hp2 hy2 (by omega),
              utf8_read_cont_at _ _ _ _ hp3 hy (by omega)]
            congr 1
            omega
  · rw [if_neg hlt]
    exact strutf16_utf8_skip buf s ch (by omega)

/-- The code point U+20AC written at position 1 of a buffer of six bytes and
read back. -/
theorem utf8_round_trip_witness :
    (0x20AC < 0x200000 →
      1 + (if 0x20AC < 0x80 then 1 else if 0x20AC < 0x800 then 2 else if 0x20AC < 0x10000 then 3
        else 4) ≤ [1, 2, 3, 4, 5, 6].length) ∧
    (if 0x20AC < 0x200000 then
      (strutf16_utf8 [1, 2, 3, 4, 5, 6] 1 0x20AC).2 =
        1 + (if 0x20AC < 0x80 then 1 else if 0x20AC < 0x800 then 2
          else if 0x20AC < 0x10000 then 3 else 4) ∧
      (strutf16_utf8 [1, 2, 3, 4, 5, 6] 1 0x20AC).1.length = [1, 2, 3, 4, 5, 6].length ∧
      (∀ i, i < 1 ∨ (strutf16_utf8 [1, 2, 3, 4, 5, 6] 1 0x20AC).2 ≤ i →
        peek (strutf16_utf8 [1, 2, 3, 4, 5, 6] 1 0x20AC).1 i = peek [1, 2, 3, 4, 5, 6] i) ∧
      strutf8_utf16 (strutf16_utf8 [1, 2, 3, 4, 5, 6] 1 0x20AC).1 1 =
        ((strutf16_utf8 [1, 2, 3, 4, 5, 6] 1 0x20AC).2, 0x20AC)
    else strutf16_utf8 [1, 2, 3, 4, 5, 6] 1 0x20AC = ([1, 2, 3, 4, 5, 6], 1)) :=
  ⟨by decide, utf8_round_trip [1, 2, 3, 4, 5, 6] 1 0x20AC (by decide)⟩

/-- The bytes of U+20AC, U+E9, `A` and U+10348 as written and as read, and a
code point that is too large. -/
theorem utf8_round_trip_example :
    strutf16_utf8 [0, 0, 0, 0] 0 0x20AC = ([0xE2, 0x82, 0xAC, 0], 3) ∧
    strutf8_utf16 [0xE2, 0x82, 0xAC, 0] 0 = (3, 0x20AC) ∧
    strutf16_utf8 [0, 0, 0, 0] 0 0xE9 = ([0xC3, 0xA9, 0, 0], 2) ∧
    strutf8_utf16 [0xC3, 0xA9, 0, 0] 0 = (2, 0xE9) ∧
    strutf16_utf8 [0, 0, 0, 0] 0 65 = ([65, 0, 0, 0], 1) ∧
    strutf8_utf16 [65, 0, 0, 0] 0 = (1, 65) ∧
    strutf16_utf8 [0, 0, 0, 0] 0 0x10348 = ([0xF0, 0x90, 0x8D, 0x88], 4) ∧
    strutf8_utf16 [0xF0, 0x90, 0x8D, 0x88] 0 = (4, 0x10348) ∧
    strutf16_utf8 [0, 0, 0, 0] 0 0x200000 = ([0, 0, 0, 0], 0) := by
  decide

/-! ## C35: slots of the allocator -/

theorem block_at_set_eq (blocks : List xml_memory_block) (i : Nat) (v : xml_memory_block)
    (h : i < blocks.length) : block_at (blocks.set i v) i = v := by
  unfold block_at
  rw [List.getD_eq_getElem?_getD]
  simp [List.getElem?_set, h]

theorem block_at_set_ne (blocks : List xml_memory_block) (i j : Nat) (v : xml_memory_block)
    (h : i ≠ j) : block_at (blocks.set i v) j = block_at blocks j := by
  unfold block_at
  rw [List.getD_eq_getElem?_getD, List.getD_eq_getElem?_getD, List.getElem?_set_ne h]

theorem block_at_append_lt (blocks : List xml_memory_block) (v : xml_memory_block) (i : Nat)
    (h : i < blocks.length) : block_at (blocks ++ [v]) i = block_at blocks i := by
  unfold block_at
  rw [List.getD_eq_getElem?_getD, List.getD_eq_getElem?_getD, List.getElem?_append_left h]

theorem block_at_append_length (blocks : List xml_memory_block) (v : xml_memory_block) :
    block_at (blocks ++ [v]) blocks.length = v := by
  unfold block_at
  rw [List.getD_eq_getElem?_getD]
  simp

/-- One request that fits into the block of `_root`. -/
theorem memalloc_fit (B : Nat) (a : xml_allocator) (n : Nat)
    (h : (block_at a.blocks a.root).size + n ≤ B) :
    (xml_allocator.memalloc B a n).2 = (a.root, (block_at a.blocks a.root).size) ∧
    (xml_allocator.memalloc B a n).1.root = a.root ∧
    (xml_allocator.memalloc B a n).1.blocks.length = a.blocks.length ∧
    (a.root < a.blocks.length →
      (block_at (xml_allocator.memalloc B a n).1.blocks a.root).size =
        (block_at a.blocks a.root).size + n) ∧
    (∀ i, i ≠ a.root →
      block_at (xml_allocator.memalloc B a n).1.blocks i = block_at a.blocks i) := by
  unfold xml_allocator.memalloc
  rw [if_pos h]
  refine ⟨rfl, rfl, by simp, ?_, ?_⟩
  · intro hr
    show (block_at (a.blocks.set a.root _) a.root).size = _
    rw [block_at_set_eq _ _ _ hr]
  · intro i hi
    exact block_at_set_ne _ _ _ _ (Ne.symm hi)

/-- One request that does not fit into the block of `_root`. -/
theorem memalloc_new (B : Nat) (a : xml_allocator) (n : Nat)
    (h : ¬ (block_at a.blocks a.root).size + n ≤ B) (hr : a.root < a.blocks.length) :
    (xml_allocator.memalloc B a n).2 = (a.blocks.length, 0) ∧
    (xml_allocator.memalloc B a n).1.root = a.blocks.length ∧
    (xml_allocator.memalloc B a n).1.blocks.length = a.blocks.length + 1 ∧
    (block_at (xml_allocator.memalloc B a n).1.blocks a.blocks.length).size = n ∧
    (block_at (xml_allocator.memalloc B a n).1.blocks a.root).next = some a.blocks.length ∧
    (∀ i, i < a.blocks.length →
      (block_at (xml_allocator.memalloc B a n).1.blocks i).size = (block_at a.blocks i).size) := by
  unfold xml_allocator.memalloc
  rw [if_neg h]
  have hne : a.root ≠ a.blocks.length := by omega
  refine ⟨rfl, rfl, by simp, ?_, ?_, ?_⟩
  · show (block_at (List.set _ a.blocks.length _) a.blocks.length).size = n
    rw [block_at_set_eq _ _ _ (by simp)]
  · show (block_at (List.set (List.set _ a.root _) a.blocks.length _) a.root).next = _
    rw [block_at_set_ne _ _ _ _ (Ne.symm hne), block_at_set_eq _ _ _ (by simp; omega)]
  · intro i hi
    show (block_at (List.set (List.set _ a.root _) a.blocks.length _) i).size = _
    rw [block_at_set_ne _ _ _ _ (by omega)]
    by_cases hir : i = a.root
    · subst hir
      rw [block_at_set_eq _ _ _ (by simp; omega), block_at_append_lt _ _ _ hi]
    · rw [block_at_set_ne _ _ _ _ (Ne.symm hir), block_at_append_lt _ _ _ hi]

theorem memalloc_run_cons (B : Nat) (a : xml_allocator) (n : Nat) (rest : List Nat) :
    memalloc_run B a (n :: rest) =
      ((memalloc_run B (xml_allocator.memalloc B a n).1 rest).1,
        ((xml_allocator.memalloc B a n).2.1, (xml_allocator.memalloc B a n).2.2, n) ::
          (memalloc_run B (xml_allocator.memalloc B a n).1 rest).2) := rfl

/-- The invariant of a run of requests: where the slots lie, that they are
apart, and that no block is filled beyond `B`. -/
theorem memalloc_run_inv (B : Nat) : ∀ (reqs : List Nat) (a : xml_allocator),
    (∀ n ∈ reqs, n ≤ B) → a.root < a.blocks.length →
    (∀ i, i < a.blocks.length → (block_at a.blocks i).size ≤ B) →
    (memalloc_run B a reqs).1.root < (memalloc_run B a reqs).1.blocks.length ∧
    a.blocks.length ≤ (memalloc_run B a reqs).1.blocks.length ∧
    (∀ i, i < (memalloc_run B a reqs).1.blocks.length →
      (block_at (memalloc_run B a reqs).1.blocks i).size ≤ B) ∧
    (∀ x ∈ (memalloc_run B a reqs).2,
      x.1 < (memalloc_run B a reqs).1.blocks.length ∧ x.2.1 + x.2.2 ≤ B ∧
      ((x.1 = a.root ∧ (block_at a.blocks a.root).size ≤ x.2.1) ∨ a.blocks.length ≤ x.1)) ∧
    (memalloc_run B a reqs).2.Pairwise slots_disjoint ∧
    (memalloc_run B a reqs).2.map (fun x => x.2.2) = reqs := by
  intro reqs
  induction reqs with
  | nil =>
    intro a _ hr hb
    exact ⟨hr, le_refl _, hb, fun x hx => absurd hx (List.not_mem_nil _), List.Pairwise.nil, rfl⟩
  | cons n rest ih =>
    intro a hreq hr hb
    have hn : n ≤ B := hreq n (List.mem_cons_self _ _)
    have hrest : ∀ m ∈ rest, m ≤ B := fun m hm => hreq m (List.mem_cons_of_mem _ hm)
    rw [memalloc_run_cons]
    dsimp only
    by_cases hfit : (block_at a.blocks a.root).size + n ≤ B
    · obtain ⟨e1, e2, e3, e4, e5⟩ := memalloc_fit B a n hfit
      have hb2 : ∀ i, i < (xml_allocator.memalloc B a n).1.blocks.length →
          (block_at (xml_allocator.memalloc B a n).1.blocks i).size ≤ B := by
        intro i hi
        by_cases hir : i = a.root
        · rw [hir, e4 hr]; exact hfit
        · rw [e5 i hir]; exact hb i (by omega)
      obtain ⟨i1, i2, i3, i4, i5, i6⟩ := ih (xml_allocator.memalloc B a n).1 hrest
        (by rw [e2, e3]; exact hr) hb2
      refine ⟨i1, by omega, i3, ?_, ?_, ?_⟩
      · intro x hx
        rcases List.mem_cons.mp hx with hx | hx
        · subst hx
          rw [e1]
          exact ⟨by show a.root < _; omega, hfit, Or.inl ⟨rfl, le_refl _⟩⟩
        · obtain ⟨j1, j2, j3⟩ := i4 x hx
          refine ⟨j1, j2, ?_⟩
          rcases j3 with ⟨j3, j4⟩ | j3
          · rw [e2] at j3 j4
            rw [e4 hr] at j4
            exact Or.inl ⟨j3, by omega⟩
          · exact Or.inr (by omega)
      · refine List.Pairwise.cons ?_ i5
        intro y hy
        obtain ⟨_, _, j3⟩ := i4 y hy
        rw [e1]
        unfold slots_disjoint
        rcases j3 with ⟨j3, j4⟩ | j3
        · rw [e2, e4 hr] at j4
          exact Or.inr (Or.inl j4)
        · rw [e3] at j3
          exact Or.inl (by show a.root ≠ y.1; omega)
      · rw [List.map_cons, i6]
    · obtain ⟨e1, e2, e3, e4, _, e6⟩ := memalloc_new B a n hfit hr
      have hb2 : ∀ i, i < (xml_allocator.memalloc B a n).1.blocks.length →
          (block_at (xml_allocator.memalloc B a n).1.blocks i).size ≤ B := by
        intro i hi
        by_cases hil : i < a.blocks.length
        · rw [e6 i hil]; exact hb i hil
        · have : i = a.blocks.length := by omega
          rw [this, e4]; exact hn
      obtain ⟨i1, i2, i3, i4, i5, i6⟩ := ih (xml_allocator.memalloc B a n).1 hrest
        (by rw [e2, e3]; omega) hb2
      refine ⟨i1, by omega, i3, ?_, ?_, ?_⟩
      · intro x hx
        rcases List.mem_cons.mp hx with hx | hx
        · subst hx
          rw [e1]
          exact ⟨by show a.blocks.length < _; omega, by show 0 + n ≤ B; omega,
            Or.inr (le_refl _)⟩
        · obtain ⟨j1, j2, j3⟩ := i4 x hx
          refine ⟨j1, j2, Or.inr ?_⟩
          rcases j3 with ⟨j3, _⟩ | j3
          · rw [e2] at j3; omega
          · omega
      · refine List.Pairwise.cons ?_ i5
        intro y hy
        obtain ⟨_, _, j3⟩ := i4 y hy
        rw [e1]
        unfold slots_disjoint
        rcases j3 with ⟨j3, j4⟩ | j3
        · rw [e2, e4] at j4
          exact Or.inr (Or.inl (by show 0 + n ≤ y.2.1; omega))
        · rw [e3] at j3
          exact Or.inl (by show a.blocks.length ≠ y.1; omega)
      · rw [List.map_cons, i6]

/-- C35: `memalloc` for a block size `B`, on an allocator whose `_root` is one
of its blocks and whose blocks are filled up to `B` at most, run on requests
of sizes up to `B`.  A request is carved at the offset `_root->size` of the
block of `_root` when `_root->size + size <= B`; otherwise a new block is
appended after it, becomes `_root`, and the slot is at its offset 0.  Every
slot returned ends within the `B` bytes of one block, lies in the old block of
`_root` behind the bytes used before or in a block that is new, no two slots
have a byte in common, and no block is filled beyond `B`. -/
theorem memalloc_slots (B : Nat) (a : xml_allocator) (reqs : List Nat)
    (hreq : ∀ n ∈ reqs, n ≤ B) (hr : a.root < a.blocks.length)
    (hb : ∀ i, i < a.blocks.length → (block_at a.blocks i).size ≤ B) :
    (∀ (a1 : xml_allocator) (n : Nat), a1.root < a1.blocks.length →
      if (block_at a1.blocks a1.root).size + n ≤ B then
        (xml_allocator.memalloc B a1 n).2 = (a1.root, (block_at a1.blocks a1.root).size) ∧
        (xml_allocator.memalloc B a1 n).1.root = a1.root ∧
        (xml_allocator.memalloc B a1 n).1.blocks.length = a1.blocks.length ∧
        (block_at (xml_allocator.memalloc B a1 n).1.blocks a1.root).size =
          (block_at a1.blocks a1.root).size + n
      else
        (xml_allocator.memalloc B a1 n).2 = (a1.blocks.length, 0) ∧
        (xml_allocator.memalloc B a1 n).1.root = a1.blocks.length ∧
        (xml_allocator.memalloc B a1 n).1.blocks.length = a1.blocks.length + 1 ∧
        (block_at (xml_allocator.memalloc B a1 n).1.blocks a1.blocks.length).size = n ∧
        (block_at (xml_allocator.memalloc B a1 n).1.blocks a1.root).next =
          some a1.blocks.length) ∧
    (memalloc_run B a reqs).2.map (fun x => x.2.2) = reqs ∧
    (∀ x ∈ (memalloc_run B a reqs).2,
      x.1 < (memalloc_run B a reqs).1.blocks.length ∧ x.2.1 + x.2.2 ≤ B ∧
      ((x.1 = a.root ∧ (block_at a.blocks a.root).size ≤ x.2.1) ∨ a.blocks.length ≤ x.1)) ∧
    (memalloc_run B a reqs).2.Pairwise slots_disjoint ∧
    (∀ i, i < (memalloc_run B a reqs).1.blocks.length →
      (block_at (memalloc_run B a reqs).1.blocks i).size ≤ B) := by
  obtain ⟨_, _, i3, i4, i5, i6⟩ := memalloc_run_inv B reqs a hreq hr hb
  refine ⟨?_, i6, i4, i5, i3⟩
  intro a1 n hr1
  by_cases hfit : (block_at a1.blocks a1.root).size + n ≤ B
  · rw [if_pos hfit]
    obtain ⟨e1, e2, e3, e4, _⟩ := memalloc_fit B a1 n hfit
    exact ⟨e1, e2, e3, e4 hr1⟩
  · rw [if_neg hfit]
    obtain ⟨e1, e2, e3, e4, e5, _⟩ := memalloc_new B a1 n hfit hr1
    exact ⟨e1, e2, e3, e4, e5⟩

/-- Requests of 3, 4, 2, 8 and 0 bytes to a fresh allocator with blocks of 8
bytes. -/
theorem memalloc_slots_witness :
    (∀ n ∈ [3, 4, 2, 8, 0], n ≤ 8) ∧
    (⟨[xml_memory_block.new], 0⟩ : xml_allocator).root <
      (⟨[xml_memory_block.new], 0⟩ : xml_allocator).blocks.length ∧
    (∀ i, i < (⟨[xml_memory_block.new], 0⟩ : xml_allocator).blocks.length →
      (block_at (⟨[xml_memory_block.new], 0⟩ : xml_allocator).blocks i).size ≤ 8) ∧
    (memalloc_run 8 ⟨[xml_memory_block.new], 0⟩ [3, 4, 2, 8, 0]).2.map (fun x => x.2.2) =
      [3, 4, 2, 8, 0] ∧
    (memalloc_run 8 ⟨[xml_memory_block.new], 0⟩ [3, 4, 2, 8, 0]).2.Pairwise slots_disjoint ∧
    (∀ i, i < (memalloc_run 8 ⟨[xml_memory_block.new], 0⟩ [3, 4, 2, 8, 0]).1.blocks.length →
      (block_at (memalloc_run 8 ⟨[xml_memory_block.new], 0⟩ [3, 4, 2, 8, 0]).1.blocks i).size ≤
        8) :=
  ⟨by decide, by decide, by decide,
    (memalloc_slots 8 ⟨[xml_memory_block.new], 0⟩ [3, 4, 2, 8, 0] (by decide) (by decide)
      (by decide)).2.1,
    (memalloc_slots 8 ⟨[xml_memory_block.new], 0⟩ [3, 4, 2, 8, 0] (by decide) (by decide)
      (by decide)).2.2.2.1,
    (memalloc_slots 8 ⟨[xml_memory_block.new], 0⟩ [3, 4, 2, 8, 0] (by decide) (by decide)
      (by decide)).2.2.2.2⟩

/-- The run of the witness of C35, evaluated: the slots and the blocks. -/
theorem memalloc_example :
    memalloc_run 8 ⟨[xml_memory_block.new], 0⟩ [3, 4, 2, 8, 0] =
      (⟨[⟨some 1, 7⟩, ⟨some 2, 2⟩, ⟨none, 8⟩], 2⟩,
        [(0, 0, 3), (0, 3, 4), (1, 0, 2), (2, 0, 8), (2, 8, 0)]) := by
  decide

/-! ## C31: the tree walk that a callback stops -/

theorem run_events_cons {σ : Type} (begin_ end_ : σ → Int → xml_node → Bool × σ) (s : σ)
    (e : walk_event) (es : List walk_event) :
    run_events begin_ end_ s (e :: es) = run_events begin_ end_ (e.call begin_ end_ s).2 es := by
  cases e <;> rfl

theorem run_until_cons {σ : Type} (begin_ end_ : σ → Int → xml_node → Bool × σ) (s : σ)
    (e : walk_event) (es : List walk_event) :
    run_until begin_ end_ s (e :: es) =
      if (e.call begin_ end_ s).1 = false then (false, (e.call begin_ end_ s).2)
      else run_until begin_ end_ (e.call begin_ end_ s).2 es := rfl

theorem calls_until_cons {σ : Type} (begin_ end_ : σ → Int → xml_node → Bool × σ) (s : σ)
    (e : walk_event) (es : List walk_event) :
    calls_until begin_ end_ s (e :: es) =
      if (e.call begin_ end_ s).1 = false then [e]
      else e :: calls_until begin_ end_ (e.call begin_ end_ s).2 es := rfl

theorem run_until_append {σ : Type} (begin_ end_ : σ → Int → xml_node → Bool × σ) :
    ∀ (es fs : List walk_event) (s : σ),
      run_until begin_ end_ s (es ++ fs) =
        if (run_until begin_ end_ s es).1 = false then run_until begin_ end_ s es
        else run_until begin_ end_ (run_until begin_ end_ s es).2 fs := by
  intro es
  induction es with
  | nil => intro fs s; rfl
  | cons e es ih =>
    intro fs s
    rw [List.cons_append, run_until_cons, run_until_cons]
    by_cases h : (e.call begin_ end_ s).1 = false
    · simp only [if_pos h, if_true]
    · simp only [if_neg h]
      exact ih fs _

/-- The state after the calls made is the state after `calls_until`. -/
theorem run_until_state {σ : Type} (begin_ end_ : σ → Int → xml_node → Bool × σ) :
    ∀ (es : List walk_event) (s : σ),
      (run_until begin_ end_ s es).2 =
        run_events begin_ end_ s (calls_until begin_ end_ s es) := by
  intro es
  induction es with
  | nil => intro s; rfl
  | cons e es ih =>
    intro s
    rw [run_until_cons, calls_until_cons]
    by_cases h : (e.call begin_ end_ s).1 = false
    · rw [if_pos h, if_pos h, run_events_cons]
      rfl
    · rw [if_neg h, if_neg h, run_events_cons, ih]

/-- The calls made are the first calls of the list. -/
theorem calls_until_prefix {σ : Type} (begin_ end_ : σ → Int → xml_node → Bool × σ) :
    ∀ (es : List walk_event) (s : σ),
      ∃ post, es = calls_until begin_ end_ s es ++ post := by
  intro es
  induction es with
  | nil => intro s; exact ⟨[], rfl⟩
  | cons e es ih =>
    intro s
    rw [calls_until_cons]
    by_cases h : (e.call begin_ end_ s).1 = false
    · rw [if_pos h]; exact ⟨es, rfl⟩
    · rw [if_neg h]
      obtain ⟨post, hp⟩ := ih (e.call begin_ end_ s).2
      exact ⟨post, by rw [List.cons_append, ← hp]⟩

/-- With the result `true`, every call is made. -/
theorem calls_until_all {σ : Type} (begin_ end_ : σ → Int → xml_node → Bool × σ) :
    ∀ (es : List walk_event) (s : σ), (run_until begin_ end_ s es).1 = true →
      calls_until begin_ end_ s es = es := by
  intro es
  induction es with
  | nil => intro s _; rfl
  | cons e es ih =>
    intro s
    rw [run_until_cons, calls_until_cons]
    by_cases h : (e.call begin_ end_ s).1 = false
    · rw [if_pos h, if_pos h]
      intro hh
      exact Bool.noConfusion hh
    · rw [if_neg h, if_neg h]
      intro hh
      rw [ih _ hh]

/-- With the result `false`, the last call made has returned `false`. -/
theorem calls_until_last {σ : Type} (begin_ end_ : σ → Int → xml_node → Bool × σ) :
    ∀ (es : List walk_event) (s : σ), (run_until begin_ end_ s es).1 = false →
      ∃ pre e, calls_until begin_ end_ s es = pre ++ [e] ∧
        (e.call begin_ end_ (run_events begin_ end_ s pre)).1 = false := by
  intro es
  induction es with
  | nil => intro s hh; exact Bool.noConfusion hh
  | cons e es ih =>
    intro s
    rw [run_until_cons, calls_until_cons]
    by_cases h : (e.call begin_ end_ s).1 = false
    · rw [if_pos h, if_pos h]
      intro _
      exact ⟨[], e, rfl, h⟩
    · rw [if_neg h, if_neg h]
      intro hh
      obtain ⟨pre, e2, h1, h2⟩ := ih _ hh
      refine ⟨e :: pre, e2, by rw [h1]; rfl, ?_⟩
      rw [run_events_cons]
      exact h2

/-- Every call made before the last one has returned `true`. -/
theorem calls_until_before {σ : Type} (begin_ end_ : σ → Int → xml_node → Bool × σ) :
    ∀ (es : List walk_event) (s : σ) (pre : List walk_event) (e : walk_event)
      (post : List walk_event), calls_until begin_ end_ s es = pre ++ e :: post → post ≠ [] →
      (e.call begin_ end_ (run_events begin_ end_ s pre)).1 = true := by
  intro es
  induction es with
  | nil =>
    intro s pre e post h _
    have := congrArg List.length h
    simp [calls_until] at this
    omega
  | cons e0 es ih =>
    intro s pre e post h hpost
    rw [calls_until_cons] at h
    by_cases h0 : (e0.call begin_ end_ s).1 = false
    · rw [if_pos h0] at h
      have := congrArg List.length h
      simp only [List.length_cons, List.length_nil, List.length_append] at this
      have hl : post.length = 0 := by omega
      exact absurd (List.length_eq_zero.mp hl) hpost
    · rw [if_neg h0] at h
      cases pre with
      | nil =>
        rw [List.nil_append] at h
        have he : e0 = e := (List.cons.inj h).1
        rw [← he]
        simpa using h0
      | cons p pre =>
        rw [List.cons_append] at h
        obtain ⟨hp, ht⟩ := List.cons.inj h
        rw [← hp, run_events_cons]
        exact ih _ pre e post ht hpost

theorem call_enter {σ : Type} (begin_ end_ : σ → Int → xml_node → Bool × σ) (s : σ) (p : Nat)
    (d : Int) : walk_event.call begin_ end_ s (walk_event.enter p d) = begin_ s d (some p) := rfl

theorem call_leave {σ : Type} (begin_ end_ : σ → Int → xml_node → Bool × σ) (s : σ) (p : Nat)
    (d : Int) : walk_event.call begin_ end_ s (walk_event.leave p d) = end_ s d (some p) := rfl

/-- The call `traverse` on a node, when the loop over its children does what
`run_until` says for the calls `es`. -/
theorem traverse_run_node_until {σ : Type} (nodes : List xml_node_struct)
    (begin_ end_ : σ → Int → xml_node → Bool × σ)
    (n r : Nat) (w : xml_tree_walker σ) (hw : 0 ≤ w.deep) (es : List walk_event)
    (hloop : ∀ w1 : xml_tree_walker σ, w1.deep = w.deep + 1 →
      ∃ w2, traverse_run nodes begin_ end_ n true (node_at nodes r).first_child w1 =
          some ((run_until begin_ end_ w1.user es).1, w2) ∧
        w2.user = (run_until begin_ end_ w1.user es).2 ∧
        ((run_until begin_ end_ w1.user es).1 = true → w2.deep = w1.deep)) :
    ∃ w2, traverse_run nodes begin_ end_ (n + 1) false (some r) w =
        some ((run_until begin_ end_ w.user
          (walk_event.enter r w.deep :: (es ++ [walk_event.leave r w.deep]))).1, w2) ∧
      w2.user = (run_until begin_ end_ w.user
        (walk_event.enter r w.deep :: (es ++ [walk_event.leave r w.deep]))).2 ∧
      ((run_until begin_ end_ w.user
        (walk_event.enter r w.deep :: (es ++ [walk_event.leave r w.deep]))).1 = true →
        w2.deep = w.deep) := by
  have hd : w.depth = w.deep := depth_of_nonneg w hw
  rw [traverse_run_node, run_until_cons, hd, call_enter]
  by_cases hb : (begin_ w.user w.deep (some r)).1 = false
  · simp only [if_pos hb]
    exact ⟨_, rfl, rfl, fun h => Bool.noConfusion h⟩
  · simp only [if_neg hb]
    obtain ⟨w2, h1, h2, h3⟩ :=
      hloop (xml_tree_walker.push { w with user := (begin_ w.user w.deep (some r)).2 }) rfl
    rw [h1, run_until_append]
    have hu : (xml_tree_walker.push
        { w with user := (begin_ w.user w.deep (some r)).2 }).user =
        (begin_ w.user w.deep (some r)).2 := rfl
    rw [hu] at h2 h3 ⊢
    cases hr : (run_until begin_ end_ (begin_ w.user w.deep (some r)).2 es).1 with
    | false =>
      simp only [if_true]
      exact ⟨w2, by rw [hr], h2, fun h => Bool.noConfusion (hr.symm.trans h)⟩
    | true =>
      have hdeep : w2.deep = w.deep + 1 := h3 hr
      have hpd : w2.pop.depth = w.deep := by
        rw [depth_of_nonneg]
        · show w2.deep - 1 = w.deep
          omega
        · show 0 ≤ w2.deep - 1
          omega
      have hpu : w2.pop.user = (run_until begin_ end_ (begin_ w.user w.deep (some r)).2 es).2 :=
        h2
      simp only [Bool.true_eq_false, if_false, hpd, hpu]
      refine ⟨{ deep := w2.pop.deep,
                user := (end_ (run_until begin_ end_ (begin_ w.user w.deep (some r)).2 es).2
                  w.deep (some r)).2 }, ?_, ?_, ?_⟩
      · rw [run_until_cons, call_leave]
        by_cases he : (end_ (run_until begin_ end_ (begin_ w.user w.deep (some r)).2 es).2
            w.deep (some r)).1 = false
        · rw [if_pos he, he]
        · rw [if_neg he]
          have : (end_ (run_until begin_ end_ (begin_ w.user w.deep (some r)).2 es).2
            w.deep (some r)).1 = true := by simpa using he
          rw [this]
          rfl
      · rw [run_until_cons, call_leave]
        by_cases he : (end_ (run_until begin_ end_ (begin_ w.user w.deep (some r)).2 es).2
            w.deep (some r)).1 = false
        · rw [if_pos he]
        · rw [if_neg he]
          rfl
      · intro _
        show w2.deep - 1 = w.deep
        omega

/-- The loop of `traverse` over a forest does what `run_until` says for the
calls `t.events`. -/
theorem traverse_run_loop_until {σ : Type} (nodes : List xml_node_struct)
    (begin_ end_ : σ → Int → xml_node → Bool × σ) :
    ∀ (t : forest) (q : Option Nat) (fuel : Nat) (w : xml_tree_walker σ),
      IsForest nodes q t → 0 ≤ w.deep → 2 * t.preorder.length + 1 < fuel →
      ∃ w2, traverse_run nodes begin_ end_ fuel true q w =
          some ((run_until begin_ end_ w.user (t.events w.deep)).1, w2) ∧
        w2.user = (run_until begin_ end_ w.user (t.events w.deep)).2 ∧
        ((run_until begin_ end_ w.user (t.events w.deep)).1 = true → w2.deep = w.deep) := by
  intro t
  induction t with
  | nil =>
    intro q fuel w h _ hf
    obtain ⟨n, rfl⟩ : ∃ n, fuel = n + 1 := ⟨fuel - 1, by omega⟩
    rw [show q = none from h]
    exact ⟨w, rfl, rfl, fun _ => rfl⟩
  | node p c nx ihc ihn =>
    intro q fuel w h hw hf
    obtain ⟨n, rfl⟩ : ∃ n, fuel = n + 1 := ⟨fuel - 1, by omega⟩
    simp only [forest.preorder, List.length_cons, List.length_append] at hf
    obtain ⟨n2, rfl⟩ : ∃ n2, n = n2 + 1 := ⟨n - 1, by omega⟩
    obtain ⟨w1, h1, h2, h3⟩ := traverse_run_node_until nodes begin_ end_ n2 p w hw
      (c.events (w.deep + 1))
      (fun w1 hw1 => by
        obtain ⟨w2, a1, a2, a3⟩ :=
          ihc (node_at nodes p).first_child n2 w1 h.2.1 (by omega) (by omega)
        rw [hw1] at a1 a2 a3
        exact ⟨w2, a1, a2, fun hh => (a3 hh).trans hw1.symm⟩)
    have hev : nx.events w.deep = nx.events w.deep := rfl
    have hsplit : (forest.node p c nx).events w.deep =
        (walk_event.enter p w.deep :: (c.events (w.deep + 1) ++ [walk_event.leave p w.deep])) ++
          nx.events w.deep := by
      simp [forest.events]
    rw [h.1, traverse_run_loop_some, h1, hsplit, run_until_append]
    cases hr : (run_until begin_ end_ w.user
        (walk_event.enter p w.deep :: (c.events (w.deep + 1) ++ [walk_event.leave p w.deep]))).1
      with
    | false =>
      simp only [if_true]
      exact ⟨w1, by rw [hr], h2, fun hh => Bool.noConfusion (hr.symm.trans hh)⟩
    | true =>
      simp only [Bool.true_eq_false, if_false]
      have hd1 : w1.deep = w.deep := h3 hr
      obtain ⟨w2, g1, g2, g3⟩ := ihn (node_at nodes p).next_sibling (n2 + 1) w1 h.2.2
        (by omega) (by omega)
      rw [hd1, h2] at g1 g2
      rw [h2] at g3
      exact ⟨w2, g1, g2, fun hh => (g3 (by rw [hd1]; exact hh)).trans hd1⟩

/-- C31: `xml_node::traverse` on a node `this` whose children and their
descendants are the forest `t`, with any callbacks, a walker whose counter is
not negative and enough fuel.  With `es` the calls that the walk makes when no
callback stops it (`events`), the call returns what `run_until` says: `false`
as soon as a callback returns `false`, and `true` otherwise.  The state of
the walker is then the state after the calls `calls_until`, made in their
order: these are the first calls of `es`; when the result is `false`, the
last of them has returned `false` and every call before it `true`; when the
result is `true`, they are all of `es`. -/
theorem traverse_until {σ : Type} (nodes : List xml_node_struct)
    (begin_ end_ : σ → Int → xml_node → Bool × σ)
    (this : Nat) (t : forest) (w : xml_tree_walker σ) (fuel : Nat)
    (ht : IsForest nodes (node_at nodes this).first_child t) (hw : 0 ≤ w.deep)
    (hf : 2 * t.preorder.length + 2 < fuel) :
    (∃ w2, xml_node.traverse fuel nodes begin_ end_ (some this) w =
        some ((run_until begin_ end_ w.user
          ((forest.node this t forest.nil).events w.deep)).1, w2) ∧
      w2.user = run_events begin_ end_ w.user
        (calls_until begin_ end_ w.user ((forest.node this t forest.nil).events w.deep))) ∧
    (∃ post, (forest.node this t forest.nil).events w.deep =
      calls_until begin_ end_ w.user ((forest.node this t forest.nil).events w.deep) ++ post) ∧
    ((run_until begin_ end_ w.user ((forest.node this t forest.nil).events w.deep)).1 = false →
      ∃ pre e, calls_until begin_ end_ w.user
          ((forest.node this t forest.nil).events w.deep) = pre ++ [e] ∧
        (e.call begin_ end_ (run_events begin_ end_ w.user pre)).1 = false) ∧
    (∀ pre e post, calls_until begin_ end_ w.user
        ((forest.node this t forest.nil).events w.deep) = pre ++ e :: post → post ≠ [] →
      (e.call begin_ end_ (run_events begin_ end_ w.user pre)).1 = true) ∧
    ((run_until begin_ end_ w.user ((forest.node this t forest.nil).events w.deep)).1 = true →
      calls_until begin_ end_ w.user ((forest.node this t forest.nil).events w.deep) =
        (forest.node this t forest.nil).events w.deep) := by
  refine ⟨?_, calls_until_prefix begin_ end_ _ _, calls_until_last begin_ end_ _ _,
    calls_until_before begin_ end_ _ _, calls_until_all begin_ end_ _ _⟩
  obtain ⟨n, rfl⟩ : ∃ n, fuel = n + 1 := ⟨fuel - 1, by omega⟩
  obtain ⟨w2, h1, h2, _⟩ := traverse_run_node_until nodes begin_ end_ n this w hw
    (t.events (w.deep + 1))
    (fun w1 hw1 => by
      obtain ⟨w2, a1, a2, a3⟩ := traverse_run_loop_until nodes begin_ end_ t
        (node_at nodes this).first_child n w1 ht (by omega) (by omega)
      rw [hw1] at a1 a2 a3
      exact ⟨w2, a1, a2, fun hh => (a3 hh).trans hw1.symm⟩)
  have hsplit : (forest.node this t forest.nil).events w.deep =
      walk_event.enter this w.deep :: (t.events (w.deep + 1) ++ [walk_event.leave this w.deep]) :=
    rfl
  refine ⟨w2, ?_, ?_⟩
  · unfold xml_node.traverse
    rw [h1, hsplit]
  · rw [h2, hsplit, run_until_state]

/-- The walk of `r` in `<r><a/><a><b/></a></r>` with a fresh walker and a
`begin` callback that returns `false` on the second `a`. -/
theorem traverse_until_witness :
    IsForest sample_doc4.nodes (node_at sample_doc4.nodes 1).first_child sample_forest4 ∧
    (0 : Int) ≤ (⟨0, []⟩ : xml_tree_walker (List walk_event)).deep ∧
    2 * sample_forest4.preorder.length + 2 < 12 ∧
    (∃ w2, xml_node.traverse 12 sample_doc4.nodes (log_begin_until 3) log_end (some 1) ⟨0, []⟩ =
        some ((run_until (log_begin_until 3) log_end
          (⟨0, []⟩ : xml_tree_walker (List walk_event)).user
          ((forest.node 1 sample_forest4 forest.nil).events
            (⟨0, []⟩ : xml_tree_walker (List walk_event)).deep)).1, w2) ∧
      w2.user = run_events (log_begin_until 3) log_end
        (⟨0, []⟩ : xml_tree_walker (List walk_event)).user
        (calls_until (log_begin_until 3) log_end
          (⟨0, []⟩ : xml_tree_walker (List walk_event)).user
          ((forest.node 1 sample_forest4 forest.nil).events
            (⟨0, []⟩ : xml_tree_walker (List walk_event)).deep))) :=
  ⟨by decide, by decide, by decide,
    (traverse_until sample_doc4.nodes (log_begin_until 3) log_end 1 sample_forest4 ⟨0, []⟩ 12
      (by decide) (by decide) (by decide)).1⟩

/-- The walk of the witness of C31, evaluated: the result is `false` and the
calls made are the first four of the eight calls of the whole walk.  With an
`end` callback that returns `false` on the first `a`, three calls are made. -/
theorem traverse_until_example :
    xml_node.traverse 12 sample_doc4.nodes (log_begin_until 3) log_end (some 1) ⟨0, []⟩ =
      some (false, ⟨1, [walk_event.enter 1 0, walk_event.enter 2 1, walk_event.leave 2 1,
        walk_event.enter 3 1]⟩) ∧
    calls_until (log_begin_until 3) log_end []
        ((forest.node 1 sample_forest4 forest.nil).events 0) =
      [walk_event.enter 1 0, walk_event.enter 2 1, walk_event.leave 2 1, walk_event.enter 3 1] ∧
    (forest.node 1 sample_forest4 forest.nil).events 0 =
      [walk_event.enter 1 0, walk_event.enter 2 1, walk_event.leave 2 1, walk_event.enter 3 1,
        walk_event.enter 4 2, walk_event.leave 4 2, walk_event.leave 3 1, walk_event.leave 1 0] ∧
    xml_node.traverse 12 sample_doc4.nodes log_begin (log_end_until 2) (some 1) ⟨0, []⟩ =
      some (false, ⟨1, [walk_event.enter 1 0, walk_event.enter 2 1, walk_event.leave 2 1]⟩) := by
  refine ⟨?_, ?_, ?_, ?_⟩ <;> rfl

/-! ## C33, C34: strings that are replaced -/

theorem poke_split : ∀ (mem : List Nat) (d v : Nat),
    poke mem d v = mem.take d ++ poke (mem.drop d) 0 v := by
  intro mem
  induction mem with
  | nil => intro d v; simp [poke]
  | cons x xs ih =>
    intro d v
    cases d with
    | zero => rfl
    | succ d =>
      have := ih d v
      unfold poke at this ⊢
      simp only [List.set_cons_succ, List.take_succ_cons, List.drop_succ_cons, List.cons_append]
      rw [this]

theorem poke_eq_of_lt (mem : List Nat) (d v : Nat) (h : d < mem.length) :
    poke mem d v = mem.take d ++ v :: mem.drop (d + 1) := by
  rw [poke_split]
  congr 1
  rw [List.drop_eq_getElem_cons h]
  rfl

theorem cstr_nil : cstr [] = [] := rfl

theorem cstr_cons_zero (r : List Nat) : cstr (0 :: r) = [] := rfl

theorem cstr_cons_ne (c : Nat) (r : List Nat) (h : c ≠ 0) : cstr (c :: r) = c :: cstr r := by
  unfold cstr
  rw [List.takeWhile_cons_of_pos (by simpa using h)]

theorem cstr_ne_zero (a : List Nat) : ∀ c ∈ cstr a, c ≠ 0 := by
  intro c hc
  have := List.mem_takeWhile_imp hc
  simpa using this

/-- What `strcpy` leaves in the memory, when the string fits into it: the
bytes before `dest`, the bytes of the string, a NUL in the place of the byte
after them, and the bytes behind. -/
theorem strcpy_eq : ∀ (source mem : List Nat) (dest : Nat),
    dest + (cstr source).length ≤ mem.length →
    strcpy mem dest source =
      mem.take dest ++ (cstr source ++ poke (mem.drop (dest + (cstr source).length)) 0 0) := by
  intro source
  induction source with
  | nil =>
    intro mem dest _
    show poke mem dest 0 = _
    rw [cstr_nil, List.nil_append, List.length_nil, Nat.add_zero]
    exact poke_split mem dest 0
  | cons c r ih =>
    intro mem dest h
    by_cases hc : c = 0
    · subst hc
      show (if (0 : Nat) = 0 then poke mem dest 0 else _) = _
      rw [if_pos rfl, cstr_cons_zero, List.nil_append, List.length_nil, Nat.add_zero]
      exact poke_split mem dest 0
    · show (if c = 0 then _ else strcpy (poke mem dest c) (dest + 1) r) = _
      rw [if_neg hc]
      rw [cstr_cons_ne c r hc, List.length_cons] at h ⊢
      have hd : dest < mem.length := by omega
      rw [ih (poke mem dest c) (dest + 1) (by unfold poke; simp; omega)]
      have hl : (mem.take dest).length = dest := by
        rw [List.length_take]; omega
      have h1 : (poke mem dest c).take (dest + 1) = mem.take dest ++ [c] := by
        rw [poke_eq_of_lt mem dest c hd, List.take_append_eq_append_take, hl]
        simp
      have h2 : (poke mem dest c).drop (dest + 1 + (cstr r).length) =
          mem.drop (dest + ((cstr r).length + 1)) := by
        rw [poke_eq_of_lt mem dest c hd, List.drop_append_eq_append_drop, hl]
        rw [List.drop_eq_nil_of_le (by rw [hl]; omega), List.nil_append,
          show dest + 1 + (cstr r).length - dest = (cstr r).length + 1 by omega,
          List.drop_succ_cons, List.drop_drop]
        congr 1
        omega
      rw [h1, h2]
      simp

theorem strcpy_length : ∀ (source mem : List Nat) (dest : Nat),
    (strcpy mem dest source).length = mem.length := by
  intro source
  induction source with
  | nil => intro mem dest; exact peek_poke_same_length mem dest 0
  | cons c r ih =>
    intro mem dest
    show (if c = 0 then poke mem dest 0 else strcpy (poke mem dest c) (dest + 1) r).length = _
    by_cases hc : c = 0
    · rw [if_pos hc]; exact peek_poke_same_length mem dest 0
    · rw [if_neg hc, ih]; exact peek_poke_same_length mem dest c

theorem poke_zero_head (l : List Nat) : poke l 0 0 = [] ∨ ∃ t, poke l 0 0 = 0 :: t := by
  cases l with
  | nil => exact Or.inl rfl
  | cons x t => exact Or.inr ⟨t, rfl⟩

theorem takeWhile_cstr_append (a X : List Nat) (hX : X = [] ∨ ∃ t, X = 0 :: t) :
    (cstr a ++ X).takeWhile (fun c => c != 0) = cstr a := by
  have h : ∀ l : List Nat, (∀ c ∈ l, c ≠ 0) → (l ++ X).takeWhile (fun c => c != 0) = l := by
    intro l
    induction l with
    | nil =>
      intro _
      rcases hX with h | ⟨t, h⟩ <;> rw [h] <;> rfl
    | cons x l ih =>
      intro hl
      rw [List.cons_append, List.takeWhile_cons_of_pos
        (by simpa using hl x (List.mem_cons_self _ _)),
        ih (fun c hc => hl c (List.mem_cons_of_mem _ hc))]
  exact h _ (cstr_ne_zero a)

/-- After `strcpy` into storage that holds the string, the string stands at
`dest`. -/
theorem strcpy_cstrAt (source mem : List Nat) (dest : Nat)
    (h : dest + (cstr source).length ≤ mem.length) :
    cstrAt (strcpy mem dest source) dest = cstr source := by
  rw [strcpy_eq source mem dest h]
  unfold cstrAt
  have hl : (mem.take dest).length = dest := by rw [List.length_take]; omega
  rw [List.drop_append_eq_append_drop, hl, Nat.sub_self, List.drop_zero,
    List.drop_eq_nil_of_le (by rw [hl]), List.nil_append]
  exact takeWhile_cstr_append _ _ (poke_zero_head _)

theorem strcpy_take (source mem : List Nat) (dest : Nat)
    (h : dest + (cstr source).length ≤ mem.length) :
    (strcpy mem dest source).take dest = mem.take dest := by
  rw [strcpy_eq source mem dest h]
  have hl : (mem.take dest).length = dest := by rw [List.length_take]; omega
  rw [List.take_append_eq_append_take, hl, Nat.sub_self, List.take_zero, List.append_nil,
    List.take_of_length_le (by rw [hl])]

theorem strcpy_drop (source mem : List Nat) (dest : Nat)
    (h : dest + (cstr source).length ≤ mem.length) :
    (strcpy mem dest source).drop (dest + (cstr source).length + 1) =
      mem.drop (dest + (cstr source).length + 1) := by
  rw [strcpy_eq source mem dest h]
  have hl : (mem.take dest).length = dest := by rw [List.length_take]; omega
  rw [List.drop_append_eq_append_drop, hl, List.drop_eq_nil_of_le (by rw [hl]; omega),
    List.nil_append, show dest + (cstr source).length + 1 - dest = (cstr source).length + 1 by omega,
    List.drop_append_eq_append_drop, List.drop_eq_nil_of_le (by omega), List.nil_append,
    show (cstr source).length + 1 - (cstr source).length = 1 by omega]
  rw [poke_split, List.take_zero, List.nil_append, List.drop_zero]
  cases hm : mem.drop (dest + (cstr source).length) with
  | nil =>
    have : mem.drop (dest + (cstr source).length + 1) = [] := by
      rw [← List.drop_drop, hm]
      rfl
    rw [this]
    rfl
  | cons x t =>
    have : mem.drop (dest + (cstr source).length + 1) = t := by
      rw [← List.drop_drop, hm]
      rfl
    rw [this]
    rfl

theorem strlen_le (mem : List Nat) (p : Nat) : strlen mem p ≤ mem.length - p := by
  unfold strlen cstrAt
  have := (List.takeWhile_sublist (fun c => c != 0) (l := mem.drop p)).length_le
  rw [List.length_drop] at this
  exact this

/-- A string written over a string that is not shorter stands where that
string stood. -/
theorem strcpy_over (source mem : List Nat) (dest : Nat)
    (h : (cstr source).length ≤ strlen mem dest) :
    cstrAt (strcpy mem dest source) dest = cstr source := by
  by_cases hd : dest ≤ mem.length
  · exact strcpy_cstrAt source mem dest (by have := strlen_le mem dest; omega)
  · have h0 : (cstr source).length = 0 := by have := strlen_le mem dest; omega
    rw [List.length_eq_zero.mp h0]
    unfold cstrAt
    rw [List.drop_eq_nil_of_le (by rw [strcpy_length]; omega)]
    rfl

/-- `strcpy_insitu` when the string at `dest` is not shorter than `source`:
the string is written over it, and `dest` and `insitu` are kept. -/
theorem strcpy_insitu_over (ok : Bool) (mem : List Nat) (d : Nat) (insitu : Bool)
    (source : List Nat) (h : (cstr source).length ≤ strlen mem d) :
    strcpy_insitu ok mem (some d) insitu source = (true, strcpy mem d source, some d, insitu) := by
  unfold strcpy_insitu
  rw [if_pos ⟨rfl, h⟩]
  rfl

/-- `strcpy_insitu` when `dest` is null or its string is shorter than
`source`: the string is written to new storage, or nothing is done when there
is none. -/
theorem strcpy_insitu_new (ok : Bool) (mem : List Nat) (dest : Option Nat) (insitu : Bool)
    (source : List Nat) (h : ∀ d, dest = some d → strlen mem d < (cstr source).length) :
    strcpy_insitu ok mem dest insitu source =
      if ok = false then (false, mem, dest, insitu)
      else (true, strcpy (mem ++ List.replicate ((cstr source).length + 1) 0) mem.length source,
        some mem.length, false) := by
  unfold strcpy_insitu
  rw [if_neg]
  intro hh
  cases dest with
  | none => exact Bool.noConfusion hh.1
  | some d =>
    have := h d rfl
    have h2 : strlen mem d ≥ (cstr source).length := hh.2
    omega

/-- What every call of `strcpy_insitu` comes to.  With the result `true` the
string stands at the new `dest`; with the result `false` nothing is
changed. -/
theorem strcpy_insitu_spec (ok : Bool) (mem : List Nat) (dest : Option Nat) (insitu : Bool)
    (source : List Nat) :
    ((strcpy_insitu ok mem dest insitu source).1 = true →
      ∃ p, (strcpy_insitu ok mem dest insitu source).2.2.1 = some p ∧
        cstrAt (strcpy_insitu ok mem dest insitu source).2.1 p = cstr source) ∧
    ((strcpy_insitu ok mem dest insitu source).1 = false →
      strcpy_insitu ok mem dest insitu source = (false, mem, dest, insitu)) := by
  by_cases hov : ∃ d, dest = some d ∧ (cstr source).length ≤ strlen mem d
  · obtain ⟨d, rfl, hd⟩ := hov
    rw [strcpy_insitu_over ok mem d insitu source hd]
    exact ⟨fun _ => ⟨d, rfl, strcpy_over source mem d hd⟩, fun h => Bool.noConfusion h⟩
  · rw [strcpy_insitu_new ok mem dest insitu source (fun d hd => by
      by_contra hc
      exact hov ⟨d, hd, by omega⟩)]
    cases ok with
    | false => exact ⟨fun h => Bool.noConfusion h, fun _ => rfl⟩
    | true =>
      refine ⟨fun _ => ⟨mem.length, rfl, ?_⟩, fun h => Bool.noConfusion h⟩
      exact strcpy_cstrAt source _ mem.length (by simp)

theorem set_getD_self {α : Type} (l : List α) (a : Nat) (d : α) : l.set a (l.getD a d) = l := by
  apply List.ext_getElem?
  intro i
  rw [List.getElem?_set]
  by_cases h : a = i
  · subst h
    rw [if_pos rfl]
    by_cases hl : a < l.length
    · rw [if_pos hl, List.getD_eq_getElem _ _ hl, List.getElem?_eq_getElem hl]
    · rw [if_neg hl, List.getElem?_eq_none (by omega)]
  · rw [if_neg h]

theorem attr_set_self (attrs : List xml_attribute_struct) (a : Nat) :
    attrs.set a (attr_at attrs a) = attrs :=
  set_getD_self attrs a _

theorem node_set_self (nodes : List xml_node_struct) (r : Nat) :
    nodes.set r (node_at nodes r) = nodes :=
  set_getD_self nodes r _

theorem attribute_set_name_spec (ok : Bool) (mem : List Nat) (attrs : List xml_attribute_struct)
    (a : Nat) (rhs : List Nat) (ha : a < attrs.length) :
    ((xml_attribute.set_name ok mem attrs (some a) rhs).1 = true →
      xml_attribute.name (xml_attribute.set_name ok mem attrs (some a) rhs).2.1
        (xml_attribute.set_name ok mem attrs (some a) rhs).2.2 (some a) = cstr rhs) ∧
    ((xml_attribute.set_name ok mem attrs (some a) rhs).1 = false →
      (xml_attribute.set_name ok mem attrs (some a) rhs).2 = (mem, attrs)) := by
  obtain ⟨h1, h2⟩ :=
    strcpy_insitu_spec ok mem (attr_at attrs a).name (attr_at attrs a).name_insitu rhs
  unfold xml_attribute.set_name
  dsimp only
  refine ⟨fun h => ?_, fun h => ?_⟩
  · obtain ⟨p, hp, hs⟩ := h1 h
    unfold xml_attribute.name
    dsimp only
    rw [attr_at_set_eq _ _ _ ha]
    dsimp only
    rw [hp]
    exact hs
  · rw [h2 h]
    dsimp only
    rw [show ({ attr_at attrs a with name := (attr_at attrs a).name,
                                      name_insitu := (attr_at attrs a).name_insitu } :
        xml_attribute_struct) = attr_at attrs a from rfl, attr_set_self]

theorem attribute_set_value_spec (ok : Bool) (mem : List Nat) (attrs : List xml_attribute_struct)
    (a : Nat) (rhs : List Nat) (ha : a < attrs.length) :
    ((xml_attribute.set_value ok mem attrs (some a) rhs).1 = true →
      xml_attribute.value (xml_attribute.set_value ok mem attrs (some a) rhs).2.1
        (xml_attribute.set_value ok mem attrs (some a) rhs).2.2 (some a) = cstr rhs) ∧
    ((xml_attribute.set_value ok mem attrs (some a) rhs).1 = false →
      (xml_attribute.set_value ok mem attrs (some a) rhs).2 = (mem, attrs)) := by
  obtain ⟨h1, h2⟩ :=
    strcpy_insitu_spec ok mem (attr_at attrs a).value (attr_at attrs a).value_insitu rhs
  unfold xml_attribute.set_value
  dsimp only
  refine ⟨fun h => ?_, fun h => ?_⟩
  · obtain ⟨p, hp, hs⟩ := h1 h
    unfold xml_attribute.value
    dsimp only
    rw [attr_at_set_eq _ _ _ ha]
    dsimp only
    rw [hp]
    exact hs
  · rw [h2 h]
    dsimp only
    rw [show ({ attr_at attrs a with value := (attr_at attrs a).value,
                                      value_insitu := (attr_at attrs a).value_insitu } :
        xml_attribute_struct) = attr_at attrs a from rfl, attr_set_self]

theorem node_set_name_spec (ok : Bool) (mem : List Nat) (nodes : List xml_node_struct)
    (n : Nat) (rhs : List Nat) (hn : n < nodes.length) :
    ((xml_node.set_name ok mem nodes (some n) rhs).1 = true →
      xml_node.name (xml_node.set_name ok mem nodes (some n) rhs).2.1
        (xml_node.set_name ok mem nodes (some n) rhs).2.2 (some n) = cstr rhs) ∧
    ((xml_node.set_name ok mem nodes (some n) rhs).1 = false →
      (xml_node.set_name ok mem nodes (some n) rhs).2 = (mem, nodes)) := by
  obtain ⟨h1, h2⟩ :=
    strcpy_insitu_spec ok mem (node_at nodes n).name (node_at nodes n).name_insitu rhs
  unfold xml_node.set_name
  dsimp only
  by_cases ht : xml_node.type nodes (some n) = node_pi ∨
      xml_node.type nodes (some n) = node_element
  · rw [if_pos ht]
    refine ⟨fun h => ?_, fun h => ?_⟩
    · obtain ⟨p, hp, hs⟩ := h1 h
      unfold xml_node.name
      dsimp only
      rw [node_at_set_eq _ _ _ hn]
      dsimp only
      rw [hp]
      exact hs
    · rw [h2 h]
      dsimp only
      rw [show ({ node_at nodes n with name := (node_at nodes n).name,
                                        name_insitu := (node_at nodes n).name_insitu } :
          xml_node_struct) = node_at nodes n from rfl, node_set_self]
  · rw [if_neg ht]
    exact ⟨fun h => Bool.noConfusion h, fun _ => rfl⟩

theorem node_set_value_spec (ok : Bool) (mem : List Nat) (nodes : List xml_node_struct)
    (n : Nat) (rhs : List Nat) (hn : n < nodes.length) :
    ((xml_node.set_value ok mem nodes (some n) rhs).1 = true →
      xml_node.value (xml_node.set_value ok mem nodes (some n) rhs).2.1
        (xml_node.set_value ok mem nodes (some n) rhs).2.2 (some n) = cstr rhs) ∧
    ((xml_node.set_value ok mem nodes (some n) rhs).1 = false →
      (xml_node.set_value ok mem nodes (some n) rhs).2 = (mem, nodes)) := by
  obtain ⟨h1, h2⟩ :=
    strcpy_insitu_spec ok mem (node_at nodes n).value (node_at nodes n).value_insitu rhs
  unfold xml_node.set_value
  dsimp only
  by_cases ht : xml_node.type nodes (some n) = node_pi ∨
      xml_node.type nodes (some n) = node_cdata ∨ xml_node.type nodes (some n) = node_pcdata ∨
      xml_node.type nodes (some n) = node_comment
  · rw [if_pos ht]
    refine ⟨fun h => ?_, fun h => ?_⟩
    · obtain ⟨p, hp, hs⟩ := h1 h
      unfold xml_node.value
      dsimp only
      rw [node_at_set_eq _ _ _ hn]
      dsimp only
      rw [hp]
      exact hs
    · rw [h2 h]
      dsimp only
      rw [show ({ node_at nodes n with value := (node_at nodes n).value,
                                        value_insitu := (node_at nodes n).value_insitu } :
          xml_node_struct) = node_at nodes n from rfl, node_set_self]
  · rw [if_neg ht]
    exact ⟨fun h => Bool.noConfusion h, fun _ => rfl⟩

/-- C33: the setters of names and values, for an attribute `a` and a node `n`
that are allocated, any memory, any string `rhs` and either outcome of the
allocation.  When `set_name` or `set_value` returns `true`, `name()` or
`value()` then gives the bytes of `rhs`; when it returns `false`, the memory
and the records are as they were.  `xml_node::set_name` returns `false` on a
node that is neither an element nor a processing instruction, and on the
empty handle; `xml_node::set_value` returns `false` on an element, on a
document and on the empty handle; the setters of `xml_attribute` return
`false` on the empty handle. -/
theorem set_string (ok : Bool) (mem : List Nat) (nodes : List xml_node_struct)
    (attrs : List xml_attribute_struct) (a n : Nat) (rhs : List Nat) (ha : a < attrs.length)
    (hn : n < nodes.length) :
    (((xml_attribute.set_name ok mem attrs (some a) rhs).1 = true →
      xml_attribute.name (xml_attribute.set_name ok mem attrs (some a) rhs).2.1
        (xml_attribute.set_name ok mem attrs (some a) rhs).2.2 (some a) = cstr rhs) ∧
    ((xml_attribute.set_name ok mem attrs (some a) rhs).1 = false →
      (xml_attribute.set_name ok mem attrs (some a) rhs).2 = (mem, attrs))) ∧
    (((xml_attribute.set_value ok mem attrs (some a) rhs).1 = true →
      xml_attribute.value (xml_attribute.set_value ok mem attrs (some a) rhs).2.1
        (xml_attribute.set_value ok mem attrs (some a) rhs).2.2 (some a) = cstr rhs) ∧
    ((xml_attribute.set_value ok mem attrs (some a) rhs).1 = false →
      (xml_attribute.set_value ok mem attrs (some a) rhs).2 = (mem, attrs))) ∧
    (((xml_node.set_name ok mem nodes (some n) rhs).1 = true →
      xml_node.name (xml_node.set_name ok mem nodes (some n) rhs).2.1
        (xml_node.set_name ok mem nodes (some n) rhs).2.2 (some n) = cstr rhs) ∧
    ((xml_node.set_name ok mem nodes (some n) rhs).1 = false →
      (xml_node.set_name ok mem nodes (some n) rhs).2 = (mem, nodes))) ∧
    (((xml_node.set_value ok mem nodes (some n) rhs).1 = true →
      xml_node.value (xml_node.set_value ok mem nodes (some n) rhs).2.1
        (xml_node.set_value ok mem nodes (some n) rhs).2.2 (some n) = cstr rhs) ∧
    ((xml_node.set_value ok mem nodes (some n) rhs).1 = false →
      (xml_node.set_value ok mem nodes (some n) rhs).2 = (mem, nodes))) ∧
    (xml_node.type nodes (some n) ≠ node_element → xml_node.type nodes (some n) ≠ node_pi →
      (xml_node.set_name ok mem nodes (some n) rhs).1 = false) ∧
    (xml_node.type nodes (some n) = node_element ∨ xml_node.type nodes (some n) = node_document →
      (xml_node.set_value ok mem nodes (some n) rhs).1 = false) ∧
    xml_node.set_name ok mem nodes none rhs = (false, mem, nodes) ∧
    xml_node.set_value ok mem nodes none rhs = (false, mem, nodes) ∧
    xml_attribute.set_name ok mem attrs none rhs = (false, mem, attrs) ∧
    xml_attribute.set_value ok mem attrs none rhs = (false, mem, attrs) := by
  refine ⟨attribute_set_name_spec ok mem attrs a rhs ha,
    attribute_set_value_spec ok mem attrs a rhs ha, node_set_name_spec ok mem nodes n rhs hn,
    node_set_value_spec ok mem nodes n rhs hn, ?_, ?_, rfl, rfl, rfl, rfl⟩
  · intro h1 h2
    unfold xml_node.set_name
    dsimp only
    rw [if_neg (fun h => h.elim h2 h1)]
  · intro h
    unfold xml_node.set_value
    dsimp only
    rw [if_neg]
    intro hh
    rcases h with h | h <;> rw [h] at hh <;> revert hh <;> decide

theorem strcpy_empty (source mem : List Nat) (dest : Nat) (h : (cstr source).length = 0) :
    strcpy mem dest source = poke mem dest 0 := by
  cases source with
  | nil => rfl
  | cons c r =>
    by_cases hc : c = 0
    · subst hc; rfl
    · rw [cstr_cons_ne c r hc] at h
      simp at h

/-- What `strcpy` over a string that is not shorter leaves as it is: the
length of the memory, the bytes before `dest` and the bytes after the NUL
written. -/
theorem strcpy_over_frame (source mem : List Nat) (dest : Nat)
    (h : (cstr source).length ≤ strlen mem dest) :
    (strcpy mem dest source).length = mem.length ∧
    (strcpy mem dest source).take dest = mem.take dest ∧
    (strcpy mem dest source).drop (dest + (cstr source).length + 1) =
      mem.drop (dest + (cstr source).length + 1) := by
  refine ⟨strcpy_length _ _ _, ?_, ?_⟩
  · by_cases hd : dest ≤ mem.length
    · exact strcpy_take source mem dest (by have := strlen_le mem dest; omega)
    · have h0 : (cstr source).length = 0 := by have := strlen_le mem dest; omega
      rw [strcpy_empty source mem dest h0]
      unfold poke
      rw [List.set_eq_of_length_le (by omega)]
  · by_cases hd : dest ≤ mem.length
    · exact strcpy_drop source mem dest (by have := strlen_le mem dest; omega)
    · have h0 : (cstr source).length = 0 := by have := strlen_le mem dest; omega
      rw [strcpy_empty source mem dest h0]
      unfold poke
      rw [List.set_eq_of_length_le (by omega)]

theorem strcpy_new_take (source mem : List Nat) :
    (strcpy (mem ++ List.replicate ((cstr source).length + 1) 0) mem.length source).take
      mem.length = mem := by
  rw [strcpy_take source _ mem.length (by simp), List.take_left']
  rfl

/-- C34, counterexample: the value `1` of the attribute `id` in the document
parsed from `<r><a id="1"/></r>` is borrowed; `set_value("2")` succeeds, the
value is still flagged borrowed, and the byte of the input buffer at the
place of the value has been changed. -/
theorem set_value_in_place :
    (attr_at sample_doc3.attrs 0).value_insitu = true ∧
    xml_attribute.value sample_doc3.buf sample_doc3.attrs (some 0) = [49] ∧
    (xml_attribute.set_value true sample_doc3.buf sample_doc3.attrs (some 0) [50]).1 = true ∧
    (attr_at (xml_attribute.set_value true sample_doc3.buf sample_doc3.attrs (some 0) [50]).2.2
      0).value_insitu = true ∧
    peek sample_doc3.buf 10 = 49 ∧
    peek (xml_attribute.set_value true sample_doc3.buf sample_doc3.attrs (some 0) [50]).2.1 10 =
      50 := by
  decide

/-- C34, as amended: `strcpy_insitu` on a string that is flagged borrowed.
When the pointer is null or the string `rhs` is longer than the string that
stands there, a call that succeeds leaves the flag at owned and the pointer at
new storage behind the memory, all bytes of which are as they were.  When
`rhs` is not longer, the call succeeds, the string is written over the old
one, the flag stays at borrowed, and the bytes of the memory before the
string and behind the NUL written are as they were.  The four setters pass
the string and the flag of the record of an attribute `a` or a node `n` that
is allocated to `strcpy_insitu` and store the outcome: the memory after the
setter and the flag in the record are those that `strcpy_insitu` gives
(`xml_node::set_name` on an element or a processing instruction,
`xml_node::set_value` on the other kinds that are neither element nor
document nor null). -/
theorem set_string_borrowed (ok : Bool) (mem : List Nat) (nodes : List xml_node_struct)
    (attrs : List xml_attribute_struct) (a n : Nat) (rhs : List Nat) (ha : a < attrs.length)
    (hn : n < nodes.length) :
    (∀ dest : Option Nat, (∀ d, dest = some d → strlen mem d < (cstr rhs).length) →
      (strcpy_insitu ok mem dest true rhs).1 = true →
      (strcpy_insitu ok mem dest true rhs).2.2.2 = false ∧
      (strcpy_insitu ok mem dest true rhs).2.2.1 = some mem.length ∧
      (strcpy_insitu ok mem dest true rhs).2.1.take mem.length = mem) ∧
    (∀ d : Nat, (cstr rhs).length ≤ strlen mem d →
      strcpy_insitu ok mem (some d) true rhs = (true, strcpy mem d rhs, some d, true) ∧
      cstrAt (strcpy mem d rhs) d = cstr rhs ∧
      (strcpy mem d rhs).length = mem.length ∧
      (strcpy mem d rhs).take d = mem.take d ∧
      (strcpy mem d rhs).drop (d + (cstr rhs).length + 1) =
        mem.drop (d + (cstr rhs).length + 1)) ∧
    ((xml_attribute.set_value ok mem attrs (some a) rhs).2.1 =
        (strcpy_insitu ok mem (attr_at attrs a).value (attr_at attrs a).value_insitu rhs).2.1 ∧
      (attr_at (xml_attribute.set_value ok mem attrs (some a) rhs).2.2 a).value_insitu =
        (strcpy_insitu ok mem (attr_at attrs a).value (attr_at attrs a).value_insitu rhs).2.2.2) ∧
    ((xml_attribute.set_name ok mem attrs (some a) rhs).2.1 =
        (strcpy_insitu ok mem (attr_at attrs a).name (attr_at attrs a).name_insitu rhs).2.1 ∧
      (attr_at (xml_attribute.set_name ok mem attrs (some a) rhs).2.2 a).name_insitu =
        (strcpy_insitu ok mem (attr_at attrs a).name (attr_at attrs a).name_insitu rhs).2.2.2) ∧
    (xml_node.type nodes (some n) = node_pi ∨ xml_node.type nodes (some n) = node_element →
      (xml_node.set_name ok mem nodes (some n) rhs).2.1 =
        (strcpy_insitu ok mem (node_at nodes n).name (node_at nodes n).name_insitu rhs).2.1 ∧
      (node_at (xml_node.set_name ok mem nodes (some n) rhs).2.2 n).name_insitu =
        (strcpy_insitu ok mem (node_at nodes n).name (node_at nodes n).name_insitu rhs).2.2.2) ∧
    (xml_node.type nodes (some n) = node_pi ∨ xml_node.type nodes (some n) = node_cdata ∨
        xml_node.type nodes (some n) = node_pcdata ∨
        xml_node.type nodes (some n) = node_comment →
      (xml_node.set_value ok mem nodes (some n) rhs).2.1 =
        (strcpy_insitu ok mem (node_at nodes n).value (node_at nodes n).value_insitu rhs).2.1 ∧
      (node_at (xml_node.set_value ok mem nodes (some n) rhs).2.2 n).value_insitu =
        (strcpy_insitu ok mem (node_at nodes n).value (node_at nodes n).value_insitu rhs).2.2.2) := by
  refine ⟨?_, ?_, ?_, ?_, ?_, ?_⟩
  · intro dest hlong
    rw [strcpy_insitu_new ok mem dest true rhs hlong]
    cases ok with
    | false => intro h; exact Bool.noConfusion h
    | true => intro _; exact ⟨rfl, rfl, strcpy_new_take rhs mem⟩
  · intro d hd
    obtain ⟨f1, f2, f3⟩ := strcpy_over_frame rhs mem d hd
    exact ⟨strcpy_insitu_over ok mem d true rhs hd, strcpy_over rhs mem d hd, f1, f2, f3⟩
  · unfold xml_attribute.set_value
    dsimp only
    rw [attr_at_set_eq _ _ _ ha]
    exact ⟨rfl, rfl⟩
  · unfold xml_attribute.set_name
    dsimp only
    rw [attr_at_set_eq _ _ _ ha]
    exact ⟨rfl, rfl⟩
  · intro ht
    unfold xml_node.set_name
    dsimp only
    rw [if_pos ht]
    dsimp only
    rw [node_at_set_eq _ _ _ hn]
    exact ⟨rfl, rfl⟩
  · intro ht
    unfold xml_node.set_value
    dsimp only
    rw [if_pos ht]
    dsimp only
    rw [node_at_set_eq _ _ _ hn]
    exact ⟨rfl, rfl⟩

/-- The attribute `id` and the element `a` of `<r><a id="1"/></r>`, and the
string `23`. -/
theorem set_string_witness :
    0 < sample_doc3.attrs.length ∧ 2 < sample_doc3.nodes.length ∧
    (((xml_attribute.set_value true sample_doc3.buf sample_doc3.attrs (some 0) [50, 51]).1 =
        true →
      xml_attribute.value
        (xml_attribute.set_value true sample_doc3.buf sample_doc3.attrs (some 0) [50, 51]).2.1
        (xml_attribute.set_value true sample_doc3.buf sample_doc3.attrs (some 0) [50, 51]).2.2
        (some 0) = cstr [50, 51]) ∧
    ((xml_attribute.set_value true sample_doc3.buf sample_doc3.attrs (some 0) [50, 51]).1 =
        false →
      (xml_attribute.set_value true sample_doc3.buf sample_doc3.attrs (some 0) [50, 51]).2 =
        (sample_doc3.buf, sample_doc3.attrs))) :=
  ⟨by decide, by decide,
    (set_string true sample_doc3.buf sample_doc3.nodes sample_doc3.attrs 0 2 [50, 51]
      (by decide) (by decide)).2.1⟩

/-- The setters on the document parsed from `<r><a id="1"/></r>`: the value
`1` is replaced by `23` in new storage; without storage the call fails and
nothing is changed; the element `a` is renamed to `b` in its place, and the
document takes no name and the element no value. -/
theorem set_string_example :
    (xml_attribute.set_value true sample_doc3.buf sample_doc3.attrs (some 0) [50, 51]).1 = true ∧
    xml_attribute.value
      (xml_attribute.set_value true sample_doc3.buf sample_doc3.attrs (some 0) [50, 51]).2.1
      (xml_attribute.set_value true sample_doc3.buf sample_doc3.attrs (some 0) [50, 51]).2.2
      (some 0) = [50, 51] ∧
    xml_attribute.set_value false sample_doc3.buf sample_doc3.attrs (some 0) [50, 51] =
      (false, sample_doc3.buf, sample_doc3.attrs) ∧
    (xml_node.set_name true sample_doc3.buf sample_doc3.nodes (some 2) [98]).1 = true ∧
    xml_node.name (xml_node.set_name true sample_doc3.buf sample_doc3.nodes (some 2) [98]).2.1
      (xml_node.set_name true sample_doc3.buf sample_doc3.nodes (some 2) [98]).2.2 (some 2) =
      [98] ∧
    (xml_node.set_name true sample_doc3.buf sample_doc3.nodes (some 0) [98]).1 = false ∧
    (xml_node.set_value true sample_doc3.buf sample_doc3.nodes (some 2) [98]).1 = false := by
  decide

/-- The value `1` of the attribute `id` of `<r><a id="1"/></r>` replaced by
`23`, which is longer. -/
theorem set_string_borrowed_witness :
    0 < sample_doc3.attrs.length ∧ 2 < sample_doc3.nodes.length ∧
    (∀ dest : Option Nat,
      (∀ d, dest = some d → strlen sample_doc3.buf d < (cstr [50, 51]).length) →
      (strcpy_insitu true sample_doc3.buf dest true [50, 51]).1 = true →
      (strcpy_insitu true sample_doc3.buf dest true [50, 51]).2.2.2 = false ∧
      (strcpy_insitu true sample_doc3.buf dest true [50, 51]).2.2.1 =
        some sample_doc3.buf.length ∧
      (strcpy_insitu true sample_doc3.buf dest true [50, 51]).2.1.take sample_doc3.buf.length =
        sample_doc3.buf) ∧
    ((xml_attribute.set_value true sample_doc3.buf sample_doc3.attrs (some 0) [50, 51]).2.1 =
        (strcpy_insitu true sample_doc3.buf (attr_at sample_doc3.attrs 0).value
          (attr_at sample_doc3.attrs 0).value_insitu [50, 51]).2.1 ∧
      (attr_at (xml_attribute.set_value true sample_doc3.buf sample_doc3.attrs (some 0)
        [50, 51]).2.2 0).value_insitu =
        (strcpy_insitu true sample_doc3.buf (attr_at sample_doc3.attrs 0).value
          (attr_at sample_doc3.attrs 0).value_insitu [50, 51]).2.2.2) :=
  ⟨by decide, by decide,
    (set_string_borrowed true sample_doc3.buf sample_doc3.nodes sample_doc3.attrs 0 2 [50, 51]
      (by decide) (by decide)).1,
    (set_string_borrowed true sample_doc3.buf sample_doc3.nodes sample_doc3.attrs 0 2 [50, 51]
      (by decide) (by decide)).2.2.1⟩

/-- The value `1` replaced by `23`: the flag is owned, the value stands behind
the input buffer, and the buffer is as it was. -/
theorem set_string_borrowed_example :
    (attr_at (xml_attribute.set_value true sample_doc3.buf sample_doc3.attrs (some 0)
      [50, 51]).2.2 0).value_insitu = false ∧
    (attr_at (xml_attribute.set_value true sample_doc3.buf sample_doc3.attrs (some 0)
      [50, 51]).2.2 0).value = some 18 ∧
    (xml_attribute.set_value true sample_doc3.buf sample_doc3.attrs (some 0) [50, 51]).2.1 =
      sample_doc3.buf ++ [50, 51, 0] := by
  decide

/-! ## C32: document order -/

theorem same_links_refl (st : tree_traverser) : st.same_links st :=
  ⟨rfl, rfl, fun _ => ⟨rfl, rfl, rfl⟩, fun _ => rfl⟩

theorem same_links_trans {a b c : tree_traverser} (h1 : a.same_links b) (h2 : b.same_links c) :
    a.same_links c :=
  ⟨h2.1.trans h1.1, h2.2.1.trans h1.2.1,
    fun i => ⟨(h2.2.2.1 i).1.trans (h1.2.2.1 i).1, (h2.2.2.1 i).2.1.trans (h1.2.2.1 i).2.1,
      (h2.2.2.1 i).2.2.trans (h1.2.2.1 i).2.2⟩,
    fun i => (h2.2.2.2 i).trans (h1.2.2.2 i)⟩

theorem same_links_order_node (st : tree_traverser) (p : Nat) :
    st.same_links (st.order_node p) := by
  refine ⟨by simp [tree_traverser.order_node], rfl, ?_, fun _ => rfl⟩
  intro i
  show (node_at (st.nodes.set p _) i).first_child = _ ∧ (node_at (st.nodes.set p _) i).next_sibling = _ ∧
    (node_at (st.nodes.set p _) i).first_attribute = _
  by_cases h : p = i
  · subst h
    by_cases hl : p < st.nodes.length
    · rw [node_at_set_eq _ _ _ hl]
      exact ⟨rfl, rfl, rfl⟩
    · rw [List.set_eq_of_length_le (by omega)]
      exact ⟨rfl, rfl, rfl⟩
  · rw [node_at_set_ne _ _ _ _ h]
    exact ⟨rfl, rfl, rfl⟩

theorem same_links_order_attribute (st : tree_traverser) (a : Nat) :
    st.same_links (st.order_attribute a) := by
  refine ⟨rfl, by simp [tree_traverser.order_attribute], fun _ => ⟨rfl, rfl, rfl⟩, ?_⟩
  intro i
  show (attr_at (st.attrs.set a _) i).next_attribute = _
  by_cases h : a = i
  · subst h
    by_cases hl : a < st.attrs.length
    · rw [attr_at_set_eq _ _ _ hl]
    · rw [List.set_eq_of_length_le (by omega)]
  · rw [attr_at_set_ne _ _ _ _ h]

theorem same_links_assign (st : tree_traverser) (x : order_item) : st.same_links (st.assign x) := by
  cases x with
  | node p => exact same_links_order_node st p
  | attr a => exact same_links_order_attribute st a

theorem same_links_foldl : ∀ (l : List order_item) (st : tree_traverser),
    st.same_links (l.foldl tree_traverser.assign st) := by
  intro l
  induction l with
  | nil => intro st; exact same_links_refl st
  | cons x xs ih =>
    intro st
    exact same_links_trans (same_links_assign st x) (ih _)

theorem isForest_same_links {st1 st2 : tree_traverser} (h : st1.same_links st2) :
    ∀ (t : forest) (q : Option Nat), IsForest st1.nodes q t → IsForest st2.nodes q t := by
  intro t
  induction t with
  | nil => intro q hq; exact hq
  | node p c n ihc ihn =>
    intro q hq
    refine ⟨hq.1, ?_, ?_⟩
    · rw [(h.2.2.1 p).1]; exact ihc _ hq.2.1
    · rw [(h.2.2.1 p).2.1]; exact ihn _ hq.2.2

theorem attributeList_same_links {st1 st2 : tree_traverser} (h : st1.same_links st2) :
    ∀ (l : List Nat) (q : Option Nat), AttributeList st1.attrs q l →
      AttributeList st2.attrs q l := by
  intro l
  induction l with
  | nil => intro q hq; exact hq
  | cons x xs ih =>
    intro q hq
    refine ⟨hq.1, ?_⟩
    rw [h.2.2.2 x]
    exact ih _ hq.2

/-- The attribute loop of the pass makes the assignments to the attributes of
the list, in their order. -/
theorem order_attributes_eq : ∀ (l : List Nat) (q : Option Nat) (fuel : Nat)
    (st : tree_traverser), AttributeList st.attrs q l → l.length < fuel →
    order_attributes fuel q st =
      some ((l.map order_item.attr).foldl tree_traverser.assign st) := by
  intro l
  induction l with
  | nil =>
    intro q fuel st h hf
    obtain ⟨n, rfl⟩ : ∃ n, fuel = n + 1 := ⟨fuel - 1, by omega⟩
    rw [show q = none from h]
    rfl
  | cons x xs ih =>
    intro q fuel st h hf
    obtain ⟨n, rfl⟩ : ∃ n, fuel = n + 1 := ⟨fuel - 1, by omega⟩
    simp only [List.length_cons] at hf
    rw [h.1]
    show order_attributes n (attr_at (st.order_attribute x).attrs x).next_attribute
      (st.order_attribute x) = _
    have hl := same_links_order_attribute st x
    rw [ih _ n (st.order_attribute x)
      (by rw [hl.2.2.2 x]; exact attributeList_same_links hl xs _ h.2) (by omega)]
    rfl

theorem walk_length_preorder (al : Nat → List Nat) : ∀ t : forest,
    t.preorder.length ≤ (t.walk al).length := by
  intro t
  induction t with
  | nil => exact le_refl _
  | node p c n ihc ihn =>
    simp only [forest.preorder, forest.walk, List.length_cons, List.length_append,
      List.length_map]
    omega

/-- The pass over a forest makes the assignments to the items of its walk, in
their order. -/
theorem traverse_run_eq (al : Nat → List Nat) : ∀ (t : forest) (q : Option Nat) (fuel : Nat)
    (st : tree_traverser), IsForest st.nodes q t →
    (∀ p ∈ t.preorder, AttributeList st.attrs (node_at st.nodes p).first_attribute (al p)) →
    2 * (t.walk al).length + 1 < fuel →
    tree_traverser.traverse_run fuel true q st =
      some ((t.walk al).foldl tree_traverser.assign st) := by
  intro t
  induction t with
  | nil =>
    intro q fuel st h _ hf
    obtain ⟨n, rfl⟩ : ∃ n, fuel = n + 1 := ⟨fuel - 1, by omega⟩
    rw [show q = none from h]
    rfl
  | node p c nx ihc ihn =>
    intro q fuel st h hal hf
    simp only [forest.walk, List.length_cons, List.length_append, List.length_map] at hf
    obtain ⟨n, rfl⟩ : ∃ n, fuel = n + 1 := ⟨fuel - 1, by omega⟩
    obtain ⟨n2, rfl⟩ : ∃ n2, n = n2 + 1 := ⟨n - 1, by omega⟩
    rw [h.1]
    show (match tree_traverser.traverse_run (n2 + 1) false (some p) st with
      | none => none
      | some st1 =>
        tree_traverser.traverse_run (n2 + 1) true (node_at st1.nodes p).next_sibling st1) = _
    have l1 := same_links_order_node st p
    have hp : p ∈ (forest.node p c nx).preorder := List.mem_cons_self _ _
    have hA : order_attributes n2 (node_at (st.order_node p).nodes p).first_attribute
        (st.order_node p) =
        some (((al p).map order_item.attr).foldl tree_traverser.assign (st.order_node p)) :=
      order_attributes_eq (al p) _ n2 _
        (by rw [(l1.2.2.1 p).2.2]; exact attributeList_same_links l1 _ _ (hal p hp)) (by omega)
    have l2 := same_links_trans l1
      (same_links_foldl ((al p).map order_item.attr) (st.order_node p))
    have hC := ihc (node_at (((al p).map order_item.attr).foldl tree_traverser.assign
        (st.order_node p)).nodes p).first_child n2
      (((al p).map order_item.attr).foldl tree_traverser.assign (st.order_node p))
      (by rw [(l2.2.2.1 p).1]; exact isForest_same_links l2 _ _ h.2.1)
      (fun x hx => by
        rw [(l2.2.2.1 x).2.2]
        exact attributeList_same_links l2 _ _
          (hal x (List.mem_cons_of_mem _ (List.mem_append_left _ hx))))
      (by omega)
    have hN : tree_traverser.traverse_run (n2 + 1) false (some p) st =
        some ((c.walk al).foldl tree_traverser.assign
          (((al p).map order_item.attr).foldl tree_traverser.assign (st.order_node p))) := by
      show (match order_attributes n2 (node_at (st.order_node p).nodes p).first_attribute
          (st.order_node p) with
        | none => none
        | some st2 =>
          tree_traverser.traverse_run n2 true (node_at st2.nodes p).first_child st2) = _
      rw [hA]
      exact hC
    rw [hN]
    have l3 := same_links_trans l2 (same_links_foldl (c.walk al)
      (((al p).map order_item.attr).foldl tree_traverser.assign (st.order_node p)))
    have hX := ihn (node_at ((c.walk al).foldl tree_traverser.assign
        (((al p).map order_item.attr).foldl tree_traverser.assign
          (st.order_node p))).nodes p).next_sibling (n2 + 1)
      ((c.walk al).foldl tree_traverser.assign
        (((al p).map order_item.attr).foldl tree_traverser.assign (st.order_node p)))
      (by rw [(l3.2.2.1 p).2.1]; exact isForest_same_links l3 _ _ h.2.2)
      (fun x hx => by
        rw [(l3.2.2.1 x).2.2]
        exact attributeList_same_links l3 _ _
          (hal x (List.mem_cons_of_mem _ (List.mem_append_right _ hx))))
      (by omega)
    show tree_traverser.traverse_run (n2 + 1) true _ _ = _
    rw [hX]
    simp only [forest.walk, List.foldl_cons, List.foldl_append]
    rfl

/-- The call `traverse` of the pass on a node makes the assignments to the
node, to its attributes, and to the items of the walk of its children. -/
theorem traverse_run_node_eq (al : Nat → List Nat) (p : Nat) (t : forest) (fuel : Nat)
    (st : tree_traverser) (h : IsForest st.nodes (node_at st.nodes p).first_child t)
    (hal : ∀ x ∈ p :: t.preorder,
      AttributeList st.attrs (node_at st.nodes x).first_attribute (al x))
    (hf : 2 * ((forest.node p t forest.nil).walk al).length + 1 < fuel) :
    tree_traverser.traverse_run fuel false (some p) st =
      some (((forest.node p t forest.nil).walk al).foldl tree_traverser.assign st) := by
  simp only [forest.walk, List.length_cons, List.length_append, List.length_map,
    List.length_nil] at hf
  obtain ⟨n, rfl⟩ : ∃ n, fuel = n + 1 := ⟨fuel - 1, by omega⟩
  have l1 := same_links_order_node st p
  have hA : order_attributes n (node_at (st.order_node p).nodes p).first_attribute
      (st.order_node p) =
      some (((al p).map order_item.attr).foldl tree_traverser.assign (st.order_node p)) :=
    order_attributes_eq (al p) _ n _
      (by rw [(l1.2.2.1 p).2.2]
          exact attributeList_same_links l1 _ _ (hal p (List.mem_cons_self _ _))) (by omega)
  have l2 := same_links_trans l1
    (same_links_foldl ((al p).map order_item.attr) (st.order_node p))
  have hC := traverse_run_eq al t (node_at (((al p).map order_item.attr).foldl
      tree_traverser.assign (st.order_node p)).nodes p).first_child n
    (((al p).map order_item.attr).foldl tree_traverser.assign (st.order_node p))
    (by rw [(l2.2.2.1 p).1]; exact isForest_same_links l2 _ _ h)
    (fun x hx => by
      rw [(l2.2.2.1 x).2.2]
      exact attributeList_same_links l2 _ _ (hal x (List.mem_cons_of_mem _ hx)))
    (by omega)
  show (match order_attributes n (node_at (st.order_node p).nodes p).first_attribute
      (st.order_node p) with
    | none => none
    | some st2 =>
      tree_traverser.traverse_run n true (node_at st2.nodes p).first_child st2) = _
  rw [hA]
  show tree_traverser.traverse_run n true _ _ = _
  rw [hC]
  simp only [forest.walk, List.foldl_cons, List.foldl_append, List.foldl_nil]
  rfl

theorem assign_counter (st : tree_traverser) (x : order_item) :
    (st.assign x).m_current = (st.m_current + 1) % 2 ^ 32 := by
  cases x <;> rfl

theorem assign_self (st : tree_traverser) (x : order_item)
    (h : x.allocated st.nodes st.attrs) :
    document_order_of (st.assign x).nodes (st.assign x).attrs x =
      st.m_current % 2 ^ x.width := by
  cases x with
  | node p =>
    show (node_at (st.nodes.set p _) p).document_order = _
    rw [node_at_set_eq _ _ _ h]
    rfl
  | attr a =>
    show (attr_at (st.attrs.set a _) a).document_order = _
    rw [attr_at_set_eq _ _ _ h]
    rfl

theorem assign_other (st : tree_traverser) (x y : order_item) (h : x ≠ y) :
    document_order_of (st.assign y).nodes (st.assign y).attrs x =
      document_order_of st.nodes st.attrs x := by
  cases x with
  | node p =>
    cases y with
    | node q =>
      show (node_at (st.nodes.set q _) p).document_order = _
      rw [node_at_set_ne _ _ _ _ (fun e => h (by rw [e]))]
      rfl
    | attr b => rfl
  | attr a =>
    cases y with
    | node q => rfl
    | attr b =>
      show (attr_at (st.attrs.set b _) a).document_order = _
      rw [attr_at_set_ne _ _ _ _ (fun e => h (by rw [e]))]
      rfl

theorem allocated_same_links {st1 st2 : tree_traverser} (h : st1.same_links st2)
    (x : order_item) (hx : x.allocated st1.nodes st1.attrs) : x.allocated st2.nodes st2.attrs := by
  cases x with
  | node p => show p < st2.nodes.length; rw [h.1]; exact hx
  | attr a => show a < st2.attrs.length; rw [h.2.1]; exact hx

theorem foldl_assign_other : ∀ (l : List order_item) (st : tree_traverser) (x : order_item),
    x ∉ l →
    document_order_of (l.foldl tree_traverser.assign st).nodes
      (l.foldl tree_traverser.assign st).attrs x = document_order_of st.nodes st.attrs x := by
  intro l
  induction l with
  | nil => intro st x _; rfl
  | cons y ys ih =>
    intro st x hx
    rw [List.foldl_cons, ih _ x (fun h => hx (List.mem_cons_of_mem _ h)),
      assign_other st x y (fun e => hx (by rw [e]; exact List.mem_cons_self _ _))]

theorem foldl_assign_counter : ∀ (l : List order_item) (st : tree_traverser),
    (l.foldl tree_traverser.assign st).m_current = (st.m_current + l.length) % 2 ^ 32 ∨
      (l = [] ∧ (l.foldl tree_traverser.assign st).m_current = st.m_current) := by
  intro l
  induction l with
  | nil => intro st; exact Or.inr ⟨rfl, rfl⟩
  | cons y ys ih =>
    intro st
    left
    rw [List.foldl_cons, List.length_cons]
    rcases ih (st.assign y) with h | ⟨h1, h2⟩
    · rw [h, assign_counter, Nat.add_mod, Nat.mod_mod, ← Nat.add_mod]
      congr 1
      omega
    · rw [h2, assign_counter, h1]
      rfl

theorem mod_width (m : Nat) (x : order_item) : m % 2 ^ 32 % 2 ^ x.width = m % 2 ^ x.width := by
  cases x with
  | node p => exact Nat.mod_mod_of_dvd m (by show 2 ^ 27 ∣ 2 ^ 32; exact Nat.pow_dvd_pow 2 (by omega))
  | attr a => exact Nat.mod_mod_of_dvd m (by show 2 ^ 30 ∣ 2 ^ 32; exact Nat.pow_dvd_pow 2 (by omega))

/-- The order that the pass leaves in an item that the walk meets once: the
value of the counter at the start and the number of items before it, cut to
the width of the field. -/
theorem foldl_assign_at (A B : List order_item) (x : order_item) (st : tree_traverser)
    (hn : (A ++ x :: B).Nodup) (hx : x.allocated st.nodes st.attrs) :
    document_order_of ((A ++ x :: B).foldl tree_traverser.assign st).nodes
      ((A ++ x :: B).foldl tree_traverser.assign st).attrs x =
      (st.m_current + A.length) % 2 ^ x.width := by
  rw [List.foldl_append, List.foldl_cons]
  have hxB : x ∉ B := by
    have := (List.nodup_append.mp hn).2.1
    exact (List.nodup_cons.mp this).1
  rw [foldl_assign_other B _ x hxB,
    assign_self _ x (allocated_same_links (same_links_foldl A st) x hx)]
  rcases foldl_assign_counter A st with h | ⟨h1, h2⟩
  · rw [h, mod_width]
  · rw [h2, h1]
    rfl

/-- `precompute_document_order` on a document makes the assignments to the
items of the walk from the document, in their order, with the counter
starting at 1. -/
theorem precompute_eq (nodes : List xml_node_struct) (attrs : List xml_attribute_struct)
    (d : Nat) (t : forest) (al : Nat → List Nat) (fuel : Nat)
    (hdoc : xml_node.type nodes (some d) = node_document)
    (ht : IsForest nodes (node_at nodes d).first_child t)
    (hal : ∀ p ∈ d :: t.preorder, AttributeList attrs (node_at nodes p).first_attribute (al p))
    (hf : 2 * ((forest.node d t forest.nil).walk al).length + 1 < fuel) :
    xml_node.precompute_document_order fuel nodes attrs (some d) =
      some ((((forest.node d t forest.nil).walk al).foldl tree_traverser.assign
          { nodes := nodes, attrs := attrs, m_current := 1 }).nodes,
        (((forest.node d t forest.nil).walk al).foldl tree_traverser.assign
          { nodes := nodes, attrs := attrs, m_current := 1 }).attrs) := by
  unfold xml_node.precompute_document_order
  rw [if_neg (by rw [hdoc]; simp),
    traverse_run_node_eq al d t fuel { nodes := nodes, attrs := attrs, m_current := 1 } ht hal hf]
  rfl

theorem range'_one_getElem? (n k : Nat) (h : k < n) : (List.range' 1 n)[k]? = some (1 + k) := by
  rw [List.getElem?_range' _ _ h]
  simp

/-- The orders that the assignments leave in the items of a walk that meets
no item twice and has fewer than `2 ^ 27` items: 1, 2, 3, ... -/
theorem foldl_assign_orders (W : List order_item) (nodes : List xml_node_struct)
    (attrs : List xml_attribute_struct) (hnd : W.Nodup)
    (halloc : ∀ x ∈ W, x.allocated nodes attrs) (hsize : W.length < 2 ^ 27) :
    W.map (document_order_of
        (W.foldl tree_traverser.assign { nodes := nodes, attrs := attrs, m_current := 1 }).nodes
        (W.foldl tree_traverser.assign { nodes := nodes, attrs := attrs, m_current := 1 }).attrs) =
      List.range' 1 W.length := by
  apply List.ext_getElem?
  intro k
  by_cases hk : k < W.length
  · rw [range'_one_getElem? _ _ hk, List.getElem?_map, List.getElem?_eq_getElem hk]
    simp only [Option.map_some']
    congr 1
    have hsplit : W = W.take k ++ W[k] :: W.drop (k + 1) := by
      rw [← List.drop_eq_getElem_cons hk, List.take_append_drop]
    have hnd2 : (W.take k ++ W[k] :: W.drop (k + 1)).Nodup := by rw [← hsplit]; exact hnd
    have := foldl_assign_at (W.take k) (W.drop (k + 1)) W[k]
      { nodes := nodes, attrs := attrs, m_current := 1 } hnd2
      (halloc _ (List.getElem_mem _))
    rw [← hsplit] at this
    rw [this, List.length_take, Nat.min_eq_left (Nat.le_of_lt hk)]
    show (1 + k) % 2 ^ (W[k]).width = 1 + k
    apply Nat.mod_eq_of_lt
    have h27 : (2 : Nat) ^ 27 = 134217728 := by norm_num
    rw [h27] at hsize
    cases W[k] with
    | node p => show 1 + k < 2 ^ 27; rw [h27]; omega
    | attr a => show 1 + k < 2 ^ 30; norm_num; omega
  · rw [List.getElem?_eq_none (by simp; omega), List.getElem?_eq_none (by simp; omega)]

theorem orders_of_range {α : Type} (f : α → Nat) (W : List α)
    (h : W.map f = List.range' 1 W.length) :
    (W.map f).Pairwise (fun x y => x < y) ∧ (∀ x ∈ W, f x ≠ 0) ∧
      (∀ x ∈ W, ∀ y ∈ W, f x = f y → x = y) := by
  refine ⟨?_, ?_, ?_⟩
  · rw [h]
    exact List.pairwise_lt_range' 1 _
  · intro x hx
    have : f x ∈ List.range' 1 W.length := by
      rw [← h]
      exact List.mem_map_of_mem _ hx
    rw [List.mem_range'_1] at this
    omega
  · intro x hx y hy hxy
    have hnd2 : (W.map f).Nodup := by
      rw [h]
      exact List.nodup_range' 1 _
    exact List.inj_on_of_nodup_map hnd2 hx hy hxy

/-- C32, as amended: `precompute_document_order` on a document `d` whose
children and their descendants are the forest `t` and whose nodes have the
attribute lists `al`, when the walk from the document (a node, its attributes
in list order, its children with their walks) meets no record twice, every
record met is allocated, the walk has fewer than `2 ^ 27` items, and the fuel
is enough.  The call returns, and the document orders read along the walk are
1, 2, 3, ...: they are strictly increasing and start at 1 for the document, no
item has the order 0, and no two items share one. -/
theorem precompute_document_order_increasing (nodes : List xml_node_struct)
    (attrs : List xml_attribute_struct) (d : Nat) (t : forest) (al : Nat → List Nat)
    (fuel : Nat) (hdoc : xml_node.type nodes (some d) = node_document)
    (ht : IsForest nodes (node_at nodes d).first_child t)
    (hal : ∀ p ∈ d :: t.preorder, AttributeList attrs (node_at nodes p).first_attribute (al p))
    (hnd : ((forest.node d t forest.nil).walk al).Nodup)
    (halloc : ∀ x ∈ (forest.node d t forest.nil).walk al, x.allocated nodes attrs)
    (hsize : ((forest.node d t forest.nil).walk al).length < 2 ^ 27)
    (hf : 2 * ((forest.node d t forest.nil).walk al).length + 1 < fuel) :
    ∃ (nodes2 : List xml_node_struct) (attrs2 : List xml_attribute_struct),
      xml_node.precompute_document_order fuel nodes attrs (some d) = some (nodes2, attrs2) ∧
      ((forest.node d t forest.nil).walk al).map (document_order_of nodes2 attrs2) =
        List.range' 1 ((forest.node d t forest.nil).walk al).length ∧
      (((forest.node d t forest.nil).walk al).map (document_order_of nodes2 attrs2)).Pairwise
        (fun x y => x < y) ∧
      document_order_of nodes2 attrs2 (order_item.node d) = 1 ∧
      (∀ x ∈ (forest.node d t forest.nil).walk al, document_order_of nodes2 attrs2 x ≠ 0) ∧
      (∀ x ∈ (forest.node d t forest.nil).walk al, ∀ y ∈ (forest.node d t forest.nil).walk al,
        document_order_of nodes2 attrs2 x = document_order_of nodes2 attrs2 y → x = y) := by
  have hmap := foldl_assign_orders _ nodes attrs hnd halloc hsize
  obtain ⟨o1, o2, o3⟩ := orders_of_range _ _ hmap
  refine ⟨_, _, precompute_eq nodes attrs d t al fuel hdoc ht hal hf, hmap, o1, ?_, o2, o3⟩
  · have h0 := congrArg (fun l => l[0]?) hmap
    have hpos : 0 < ((forest.node d t forest.nil).walk al).length := by
      show 0 < (order_item.node d :: _).length
      simp
    have hhead : ((forest.node d t forest.nil).walk al)[0]? = some (order_item.node d) := by
      show (order_item.node d :: _)[0]? = _
      exact List.getElem?_cons_zero
    dsimp only at h0
    rw [List.getElem?_map, hhead, range'_one_getElem? _ _ hpos] at h0
    exact Option.some.inj h0

theorem attr_at_chain (k i : Nat) (h : i < k) :
    attr_at (attribute_chain k) i =
      { xml_attribute_struct.new with
        prev_attribute := if i = 0 then none else some (i - 1),
        next_attribute := if i + 1 < k then some (i + 1) else none } := by
  unfold attr_at attribute_chain
  rw [List.getD_eq_getElem _ _ (by simpa using h)]
  simp

theorem attribute_chain_list (k : Nat) : ∀ (j i : Nat), i + j = k →
    AttributeList (attribute_chain k) (if i < k then some i else none) (List.range' i j) := by
  intro j
  induction j with
  | zero =>
    intro i h
    rw [if_neg (by omega)]
    rfl
  | succ j ih =>
    intro i h
    have hi : i < k := by omega
    rw [if_pos hi]
    refine ⟨rfl, ?_⟩
    rw [attr_at_chain k i hi]
    exact ih (i + 1) (by omega)

/-- The pass on the document with two elements, the first with `k`
attributes: the second element gets the order `k + 3`, cut to 27 bits. -/
theorem wide_document_order (k : Nat) :
    ∃ (nodes2 : List xml_node_struct) (attrs2 : List xml_attribute_struct),
      xml_node.precompute_document_order (2 * k + 8) (wide_document k) (attribute_chain k)
        (some 0) = some (nodes2, attrs2) ∧
      (node_at nodes2 2).document_order = (k + 3) % 2 ^ 27 := by
  have hW : (forest.node 0 (forest.node 1 forest.nil (forest.node 2 forest.nil forest.nil))
      forest.nil).walk (fun p => if p = 1 then List.range' 0 k else []) =
      (order_item.node 0 :: order_item.node 1 :: (List.range' 0 k).map order_item.attr) ++
        order_item.node 2 :: [] := by
    simp [forest.walk]
  have hlen : ((forest.node 0 (forest.node 1 forest.nil (forest.node 2 forest.nil forest.nil))
      forest.nil).walk (fun p => if p = 1 then List.range' 0 k else [])).length = k + 3 := by
    rw [hW]
    simp
  have hnd : ((order_item.node 0 :: order_item.node 1 ::
      (List.range' 0 k).map order_item.attr) ++ order_item.node 2 :: []).Nodup := by
    rw [List.nodup_append]
    refine ⟨?_, List.nodup_singleton _, ?_⟩
    · rw [List.nodup_cons, List.nodup_cons]
      refine ⟨?_, ?_, ?_⟩
      · intro h
        rcases List.mem_cons.mp h with h | h
        · exact absurd h (by decide)
        · obtain ⟨a, _, ha⟩ := List.mem_map.mp h
          exact order_item.noConfusion ha
      · intro h
        obtain ⟨a, _, ha⟩ := List.mem_map.mp h
        exact order_item.noConfusion ha
      · exact (List.nodup_range' 0 k).map (fun a b h => order_item.attr.inj h)
    · intro x hx hx2
      rw [List.mem_singleton] at hx2
      subst hx2
      rcases List.mem_cons.mp hx with h | h
      · exact absurd h (by decide)
      · rcases List.mem_cons.mp h with h | h
        · exact absurd h (by decide)
        · obtain ⟨a, _, ha⟩ := List.mem_map.mp h
          exact order_item.noConfusion ha
  have heq := precompute_eq (wide_document k) (attribute_chain k) 0
    (forest.node 1 forest.nil (forest.node 2 forest.nil forest.nil))
    (fun p => if p = 1 then List.range' 0 k else []) (2 * k + 8) rfl
    ⟨rfl, rfl, rfl, rfl, rfl⟩
    (by
      intro p hp
      have hp3 : p = 0 ∨ p = 1 ∨ p = 2 := by simpa [forest.preorder] using hp
      rcases hp3 with h | h | h
      · subst h; exact (rfl : (none : Option Nat) = none)
      · subst h
        show AttributeList (attribute_chain k) (if 0 < k then some 0 else none)
          (if 1 = 1 then List.range' 0 k else [])
        rw [if_pos rfl]
        exact attribute_chain_list k k 0 (by omega)
      · subst h; exact (rfl : (none : Option Nat) = none))
    (by rw [hlen]; omega)
  refine ⟨_, _, heq, ?_⟩
  rw [hW]
  have := foldl_assign_at
    (order_item.node 0 :: order_item.node 1 :: (List.range' 0 k).map order_item.attr) []
    (order_item.node 2)
    { nodes := wide_document k, attrs := attribute_chain k, m_current := 1 } hnd
    (by show 2 < (wide_document k).length
        unfold wide_document
        simp)
  have e : (1 + (order_item.node 0 :: order_item.node 1 ::
      (List.range' 0 k).map order_item.attr).length) = k + 3 := by
    simp
    omega
  rw [e] at this
  exact this

/-- C32, counterexample: a document with two elements, the first of which has
`2 ^ 27 - 3` attributes.  The pass gives the order 1 to the document, 2 to the
first element, 3 to `2 ^ 27 - 1` to its attributes, and the second element,
the `2 ^ 27`-th item of the walk, is left with the order 0: the field of a
node keeps 27 bits. -/
theorem precompute_document_order_wraps :
    ∃ (nodes2 : List xml_node_struct) (attrs2 : List xml_attribute_struct),
      xml_node.precompute_document_order (2 * 134217725 + 8) (wide_document 134217725)
        (attribute_chain 134217725) (some 0) = some (nodes2, attrs2) ∧
      (node_at nodes2 2).document_order = 0 := by
  obtain ⟨nodes2, attrs2, h1, h2⟩ := wide_document_order 134217725
  exact ⟨nodes2, attrs2, h1, h2.trans (by norm_num)⟩

/-- The document parsed from `<r><a/><b x="1" y="2"/><b/></r>`. -/
theorem precompute_document_order_increasing_witness :
    xml_node.type sample_doc1.nodes (some 0) = node_document ∧
    IsForest sample_doc1.nodes (node_at sample_doc1.nodes 0).first_child sample_forest1 ∧
    (∀ p ∈ 0 :: sample_forest1.preorder,
      AttributeList sample_doc1.attrs (node_at sample_doc1.nodes p).first_attribute
        (sample_attributes1 p)) ∧
    ((forest.node 0 sample_forest1 forest.nil).walk sample_attributes1).Nodup ∧
    (∀ x ∈ (forest.node 0 sample_forest1 forest.nil).walk sample_attributes1,
      x.allocated sample_doc1.nodes sample_doc1.attrs) ∧
    ((forest.node 0 sample_forest1 forest.nil).walk sample_attributes1).length < 2 ^ 27 ∧
    2 * ((forest.node 0 sample_forest1 forest.nil).walk sample_attributes1).length + 1 < 20 ∧
    ∃ (nodes2 : List xml_node_struct) (attrs2 : List xml_attribute_struct),
      xml_node.precompute_document_order 20 sample_doc1.nodes sample_doc1.attrs (some 0) =
        some (nodes2, attrs2) ∧
      ((forest.node 0 sample_forest1 forest.nil).walk sample_attributes1).map
          (document_order_of nodes2 attrs2) =
        List.range' 1 ((forest.node 0 sample_forest1 forest.nil).walk sample_attributes1).length ∧
      (((forest.node 0 sample_forest1 forest.nil).walk sample_attributes1).map
        (document_order_of nodes2 attrs2)).Pairwise (fun x y => x < y) ∧
      document_order_of nodes2 attrs2 (order_item.node 0) = 1 ∧
      (∀ x ∈ (forest.node 0 sample_forest1 forest.nil).walk sample_attributes1,
        document_order_of nodes2 attrs2 x ≠ 0) ∧
      (∀ x ∈ (forest.node 0 sample_forest1 forest.nil).walk sample_attributes1,
        ∀ y ∈ (forest.node 0 sample_forest1 forest.nil).walk sample_attributes1,
        document_order_of nodes2 attrs2 x = document_order_of nodes2 attrs2 y → x = y) :=
  ⟨by decide, by decide, by decide, by decide, by decide, by decide, by decide,
    precompute_document_order_increasing sample_doc1.nodes sample_doc1.attrs 0 sample_forest1
      sample_attributes1 20 (by decide) (by decide) (by decide) (by decide) (by decide)
      (by decide) (by decide)⟩

/-- The pass on the document parsed from `<r><a/><b x="1" y="2"/><b/></r>`,
evaluated: the walk, and the orders of the nodes and of the attributes. -/
theorem precompute_document_order_example :
    (forest.node 0 sample_forest1 forest.nil).walk sample_attributes1 =
      [order_item.node 0, order_item.node 1, order_item.node 2, order_item.node 3,
        order_item.attr 0, order_item.attr 1, order_item.node 4] ∧
    (xml_node.precompute_document_order 20 sample_doc1.nodes sample_doc1.attrs (some 0)).map
        (fun r => (r.1.map (fun x => x.document_order), r.2.map (fun x => x.document_order))) =
      some ([1, 2, 3, 4, 7], [5, 6]) ∧
    xml_node.precompute_document_order 20 sample_doc1.nodes sample_doc1.attrs (some 1) =
      some (sample_doc1.nodes, sample_doc1.attrs) := by
  decide

/-! ## The run of `strconv_attribute` for any end quote -/

theorem refByte_lt (x : Nat) (h : RefByte x) : x < 128 := by
  unfold RefByte at h; omega

set_option maxRecDepth 100000 in
theorem refByte_class_table : ∀ x < 128, RefByte x →
    is_chartype x ct_parse_attr_ws = false ∧ is_chartype x ct_parse_attr = false := by
  decide

/-- A byte that a reference is made of is not of the classes that
`strconv_attribute` scans for. -/
theorem refByte_class (wnorm wconv : Bool) {x : Nat} (h : RefByte x) :
    is_chartype x (if wnorm = true ∨ wconv = true then ct_parse_attr_ws else ct_parse_attr) =
      false := by
  obtain ⟨h1, h2⟩ := refByte_class_table x (refByte_lt x h) h
  by_cases hw : wnorm = true ∨ wconv = true
  · rw [if_pos hw]; exact h1
  · rw [if_neg hw]; exact h2

theorem refByte_not_end (esc wnorm wconv eol : Bool) (q : Nat) {x : Nat} (h : RefByte x) :
    ¬ (x = q ∧ attribute_quote esc wnorm wconv eol q) := by
  intro hh
  have h1 := hh.2.1
  rw [← hh.1, refByte_class wnorm wconv h] at h1
  exact Bool.noConfusion h1

theorem space_not_end (esc wnorm wconv eol : Bool) (q : Nat) {x : Nat}
    (hw : wnorm = true ∨ wconv = true) (h : is_chartype x ct_space = true) :
    ¬ (x = q ∧ attribute_quote esc wnorm wconv eol q) := by
  intro hh
  exact hh.2.2.2.1 ⟨hw, by rw [← hh.1]; exact h⟩

theorem lf_not_end (esc wnorm wconv eol : Bool) (q : Nat) :
    ¬ (fun x => x = q ∧ attribute_quote esc wnorm wconv eol q) 10 := by
  intro hh
  by_cases hw : wnorm = true ∨ wconv = true
  · exact space_not_end esc wnorm wconv eol q hw (by decide) hh
  · have h1 := hh.2.1
    rw [if_neg hw, ← hh.1] at h1
    revert h1
    decide

/-- One iteration of the loop of `strconv_attribute` at a byte of the class
scanned for that is neither NUL nor an end quote that can end the value. -/
theorem strconv_attribute_loop_step_any (esc wnorm wconv eol : Bool) (q n : Nat)
    {pre out r buf : List Nat} {s c : Nat} {g : gap}
    (h : GapInv pre out (c :: r) buf s g)
    (hs : is_chartype c (if wnorm = true ∨ wconv = true then ct_parse_attr_ws
      else ct_parse_attr) = true) (hc0 : c ≠ 0)
    (hcq : ¬ attribute_end esc wnorm wconv eol q (c :: r)) :
    ∃ (out' : List Nat) (k : Nat) (b' : List Nat) (g' : gap), k ≤ r.length ∧
      (∀ j, j < k → rd (r.drop j) ≠ 0 ∧ ¬ attribute_end esc wnorm wconv eol q (r.drop j)) ∧
      GapInv pre out' (r.drop k) b' (s + 1 + k) g' ∧
      strconv_attribute_loop esc wnorm wconv eol q (n + 1) buf s g =
        strconv_attribute_loop esc wnorm wconv eol q n b' (s + 1 + k) g' := by
  have hstop := skipTo_halt _ h (Or.inr hs)
  have hp : peek buf s = c := h.peek_rd
  have hadv : ∀ v, ∃ (out' : List Nat) (k : Nat) (b' : List Nat) (g' : gap), k ≤ r.length ∧
      (∀ j, j < k → rd (r.drop j) ≠ 0 ∧ ¬ attribute_end esc wnorm wconv eol q (r.drop j)) ∧
      GapInv pre out' (r.drop k) b' (s + 1 + k) g' ∧
      strconv_attribute_loop esc wnorm wconv eol q n (poke buf s v) (s + 1) g =
        strconv_attribute_loop esc wnorm wconv eol q n b' (s + 1 + k) g' :=
    fun v => ⟨out ++ [v], 0, _, _, Nat.zero_le _, fun j hj => absurd hj (Nat.not_lt_zero j),
      by simpa using h.write v, rfl⟩
  rw [strconv_attribute_loop_succ, hstop]
  by_cases ha : esc = true ∧ peek buf s = 38
  · rw [if_pos ha]
    have hc38 : c = 38 := by rw [← hp]; exact ha.2
    subst hc38
    obtain ⟨out', k, hk, hb, hpos, hinv⟩ := strconv_escape_step h
    refine ⟨out', k, _, _, hk, ?_, hinv, by rw [hpos]⟩
    intro j hj
    have hr := hb _ (rd_drop_mem_take r j k hj hk)
    exact ⟨hr.plain.1, refByte_not_end esc wnorm wconv eol q hr⟩
  · rw [if_neg ha]
    beta_reduce
    by_cases hwn : wnorm = true ∧ is_chartype (peek buf s) ct_space = true
    · rw [if_pos hwn]
      by_cases hnx : is_chartype (peek (poke buf s 32) (s + 1)) ct_space = true
      · rw [if_pos hnx]
        have hr : is_chartype (rd r) ct_space = true := by
          rw [← (h.write 32).peek_rd]; exact hnx
        obtain ⟨k, _, hk, hall, _, hinv, hpos⟩ := h.ws_run hr
        refine ⟨out ++ [32], k, _, _, hk, ?_, hinv, by rw [hpos]⟩
        intro j hj
        have := hall _ (rd_drop_mem_take r j k hj hk)
        exact ⟨space_ne_zero this, space_not_end esc wnorm wconv eol q (Or.inl hwn.1) this⟩
      · rw [if_neg hnx]
        exact hadv 32
    · rw [if_neg hwn]
      by_cases hwc : wconv = true ∧ is_chartype (peek buf s) ct_space = true
      · rw [if_pos hwc]
        by_cases he : eol = true
        · rw [if_pos he]
          by_cases h13 : peek buf s = 13
          · rw [if_pos h13]
            obtain ⟨k, b', g', hk, hsafe, hinv, hF⟩ :=
              GapInv.crlf (strconv_attribute_loop esc wnorm wconv eol q n)
                (fun x => x = q ∧ attribute_quote esc wnorm wconv eol q)
                (lf_not_end esc wnorm wconv eol q) 32 h
            exact ⟨_, k, b', g', hk, hsafe, hinv, hF⟩
          · rw [if_neg h13]
            exact hadv 32
        · rw [if_neg he]
          exact hadv 32
      · rw [if_neg hwc]
        by_cases he : eol = true ∧ peek buf s = 13
        · rw [if_pos he]
          obtain ⟨k, b', g', hk, hsafe, hinv, hF⟩ :=
            GapInv.crlf (strconv_attribute_loop esc wnorm wconv eol q n)
              (fun x => x = q ∧ attribute_quote esc wnorm wconv eol q)
              (lf_not_end esc wnorm wconv eol q) 10 h
          exact ⟨_, k, b', g', hk, hsafe, hinv, hF⟩
        · have hne : c ≠ q := by
            intro e
            apply hcq
            refine ⟨e, ?_, ?_, ?_, ?_⟩
            · rw [← e]; exact hs
            · rw [← e, ← hp]; exact ha
            · rw [← e, ← hp]
              intro hh
              rcases hh.1 with hw | hw
              · exact hwn ⟨hw, hh.2⟩
              · exact hwc ⟨hw, hh.2⟩
            · rw [← e, ← hp]; exact he
          rw [if_neg he, if_neg (by rw [hp]; exact hne), if_neg (by rw [hp]; exact hc0)]
          exact ⟨out ++ [c], 0, _, _, Nat.zero_le _,
            fun j hj => absurd hj (Nat.not_lt_zero j), by simpa using h.advance, rfl⟩

/-- The loop of `strconv_attribute` at a NUL or at an end quote that can end
the value. -/
theorem strconv_attribute_loop_done_any (esc wnorm wconv eol : Bool) (q n : Nat)
    {pre out rest buf : List Nat} {s : Nat} {g : gap}
    (h : GapInv pre out rest buf s g)
    (hd : rd rest = 0 ∨ attribute_end esc wnorm wconv eol q rest) :
    strconv_attribute_loop esc wnorm wconv eol q (n + 1) buf s g =
      if peek buf s = q then
        if wnorm = true then
          match wnorm_trim (g.flush buf s).1 (g.flush buf s).2 with
          | some buf1 => some (some (s + 1), buf1)
          | none => none
        else some (some (s + 1), poke (g.flush buf s).1 (g.flush buf s).2 0)
      else some (none, buf) := by
  have hp : peek buf s = rd rest := h.peek_rd
  have hcls : is_chartype (rd rest)
      (if wnorm = true ∨ wconv = true then ct_parse_attr_ws else ct_parse_attr) = true := by
    rcases hd with hd | hd
    · rw [hd]; exact attr_class_zero wnorm wconv
    · rw [hd.1]; exact hd.2.1
  have hstop := skipTo_halt _ h (Or.inr hcls)
  have hA : ¬ (esc = true ∧ peek buf s = 38) := by
    rw [hp]
    rcases hd with hd | hd
    · rw [hd]; exact fun hh => absurd hh.2 (by decide)
    · rw [hd.1]; exact hd.2.2.1
  have hB : ¬ (wnorm = true ∧ is_chartype (peek buf s) ct_space = true) := by
    rw [hp]
    rcases hd with hd | hd
    · rw [hd]; exact fun hh => absurd hh.2 (by decide)
    · rw [hd.1]; exact fun hh => hd.2.2.2.1 ⟨Or.inl hh.1, hh.2⟩
  have hC : ¬ (wconv = true ∧ is_chartype (peek buf s) ct_space = true) := by
    rw [hp]
    rcases hd with hd | hd
    · rw [hd]; exact fun hh => absurd hh.2 (by decide)
    · rw [hd.1]; exact fun hh => hd.2.2.2.1 ⟨Or.inr hh.1, hh.2⟩
  have hD : ¬ (eol = true ∧ peek buf s = 13) := by
    rw [hp]
    rcases hd with hd | hd
    · rw [hd]; exact fun hh => absurd hh.2 (by decide)
    · rw [hd.1]; exact hd.2.2.2.2
  rw [strconv_attribute_loop_succ, hstop, if_neg hA]
  beta_reduce
  rw [if_neg hB, if_neg hC, if_neg hD]
  by_cases hqq : peek buf s = q
  · exact (if_pos hqq).trans (if_pos hqq).symm
  · rw [if_neg hqq, if_neg hqq]
    have hz : peek buf s = 0 := by
      rw [hp]
      rcases hd with hd | hd
      · exact hd
      · exact absurd (hp.trans hd.1) hqq
    rw [if_pos hz]

/-- The loop of `strconv_attribute` with fuel for every byte left, for any end
quote: it comes to the first NUL or end quote that can end the value and
returns there. -/
theorem strconv_attribute_loop_run_any (esc wnorm wconv eol : Bool) (q : Nat)
    (pre rest : List Nat) (n : Nat) (out buf : List Nat) (s : Nat) (g : gap)
    (hn : rest.length < n) (h : GapInv pre out rest buf s g) :
    ∃ (i : Nat) (out' b' : List Nat) (g' : gap),
      FirstStop (attribute_end esc wnorm wconv eol q) rest i ∧ i ≤ rest.length ∧
      GapInv pre out' (rest.drop i) b' (s + i) g' ∧
      strconv_attribute_loop esc wnorm wconv eol q n buf s g =
        if peek b' (s + i) = q then
          if wnorm = true then
            match wnorm_trim (g'.flush b' (s + i)).1 (g'.flush b' (s + i)).2 with
            | some buf1 => some (some (s + i + 1), buf1)
            | none => none
          else some (some (s + i + 1), poke (g'.flush b' (s + i)).1 (g'.flush b' (s + i)).2 0)
        else some (none, b') :=
  scan_loop_run (strconv_attribute_loop esc wnorm wconv eol q)
    (fun b s g => if peek b s = q then
        if wnorm = true then
          match wnorm_trim (g.flush b s).1 (g.flush b s).2 with
          | some buf1 => some (some (s + 1), buf1)
          | none => none
        else some (some (s + 1), poke (g.flush b s).1 (g.flush b s).2 0)
      else some (none, b))
    (attribute_end esc wnorm wconv eol q)
    (fun c => is_chartype c (if wnorm = true ∨ wconv = true then ct_parse_attr_ws
      else ct_parse_attr)) pre
    (fun n _ _ _ _ _ _ h hc => strconv_attribute_loop_skip esc wnorm wconv eol q n h hc)
    (fun c r hc => by
      rcases hc with hc | hc
      · rw [hc]; exact attr_class_zero wnorm wconv
      · have h1 : c = q := by simpa using hc.1
        rw [h1]; exact hc.2.1)
    (fun n _ _ _ _ _ _ h hs hc0 hc =>
      strconv_attribute_loop_step_any esc wnorm wconv eol q n h hs hc0 hc)
    (fun n _ _ _ _ _ h hd => strconv_attribute_loop_done_any esc wnorm wconv eol q n h hd)
    rest.length rest (le_refl _) n out buf s g hn h

/-- NUL as an end quote can end a value under every setting of the options. -/
theorem attribute_quote_zero (esc wnorm wconv eol : Bool) :
    attribute_quote esc wnorm wconv eol 0 := by
  cases esc <;> cases wnorm <;> cases wconv <;> cases eol <;> decide

/-- The first stop is inside the bytes when they hold a NUL. -/
theorem FirstStop.lt_of_mem {P : List Nat → Prop} {rest : List Nat} {i : Nat}
    (h : FirstStop P rest i) (hz : 0 ∈ rest) : i < rest.length := by
  obtain ⟨k, hk, hk0⟩ := List.getElem_of_mem hz
  by_contra hc
  have := (h.2 k (by omega)).1
  rw [List.drop_eq_getElem_cons hk, hk0] at this
  exact this rfl

/-- The bytes from an index inside a list start with the byte read there. -/
theorem drop_cons_of_lt (l : List Nat) (i : Nat) (h : i < l.length) :
    l.drop i = rd (l.drop i) :: l.drop (i + 1) := by
  rw [List.drop_eq_getElem_cons h]
  rfl

/-- What `strconv_attribute` returns at the first NUL or end quote, for any
end quote; when the end quote is the NUL it is taken to stand inside the
buffer. -/
theorem strconv_attribute_finish_any (esc wnorm wconv eol : Bool) (q : Nat)
    (pre rest : List Nat)
    (hpre : wnorm = true → ∃ p0 x0, pre = p0 ++ [x0] ∧ is_chartype x0 ct_space = false)
    (i : Nat) (hi : i ≤ rest.length) (hq : q = 0 → i < rest.length)
    (hfs : FirstStop (attribute_end esc wnorm wconv eol q) rest i)
    (out b : List Nat) (g : gap) (s : Nat) (hs : s = pre.length + i)
    (hinv : GapInv pre out (rest.drop i) b s g) :
    DecoderRun (attribute_end esc wnorm wconv eol q) 1 pre rest
      (if peek b s = q then
        if wnorm = true then
          match wnorm_trim (g.flush b s).1 (g.flush b s).2 with
          | some buf1 => some (some (s + 1), buf1)
          | none => none
        else some (some (s + 1), poke (g.flush b s).1 (g.flush b s).2 0)
      else some (none, b)) := by
  rw [hinv.peek_rd]
  refine ⟨i, hfs, hi, ?_⟩
  by_cases ht : rd (rest.drop i) = q
  · rw [if_pos ht]
    have hP : attribute_end esc wnorm wconv eol q (rest.drop i) := by
      rcases hfs.1 with h0 | hP
      · have hq0 : q = 0 := ht.symm.trans h0
        refine ⟨ht, ?_⟩
        rw [hq0]
        exact attribute_quote_zero esc wnorm wconv eol
      · exact hP
    refine Or.inl ⟨hP, ?_⟩
    have hd : rest.drop i = q :: rest.drop (i + 1) := by
      by_cases hq0 : q = 0
      · have := drop_cons_of_lt rest i (hq hq0)
        rw [ht] at this
        exact this
      · exact drop_cons_of_rd rest i q ht hq0
    rw [hd] at hinv
    have hlen := hinv.out_length
    by_cases hwn : wnorm = true
    · rw [if_pos hwn]
      obtain ⟨p0, x0, hp, hx0⟩ := hpre hwn
      obtain ⟨X, hX, hf⟩ := hinv.flush
      rw [hf]
      subst hp
      obtain ⟨o, sp, Y, ho, _, _, hY, hw⟩ := wnorm_trim_flush p0 x0 hx0 out X (rest.drop (i + 1)) q
      simp only [hw]
      refine ⟨o, Y, ?_, by rw [hs]⟩
      have : out.length = o.length + sp.length := by rw [ho]; simp
      omega
    · rw [if_neg hwn]
      obtain ⟨Y, hY, hbuf, _⟩ := hinv.flush_poke
      exact ⟨out, Y, by omega, by rw [hbuf, hs]⟩
  · rw [if_neg ht]
    exact Or.inr ⟨fun hP => ht hP.1, _, rfl⟩

/-- `strconv_attribute` on any input, under every setting of its options, for
any end quote; when the end quote is the NUL the value is taken not to start
with it and to hold it.  Under `opt_wnorm` the byte before the value is taken
not to be whitespace: the backward loop that trims the value stops at it. -/
theorem strconv_attribute_run_any (esc wnorm wconv eol : Bool) (q : Nat)
    (pre rest : List Nat) (hq : q = 0 → rd rest ≠ 0 ∧ 0 ∈ rest)
    (hpre : wnorm = true → ∃ p0 x0, pre = p0 ++ [x0] ∧ is_chartype x0 ct_space = false) :
    DecoderRun (attribute_end esc wnorm wconv eol q) 1 pre rest
      (strconv_attribute esc wnorm wconv eol (pre ++ rest) pre.length q) := by
  have hinit := GapInv.init pre rest
  unfold strconv_attribute
  by_cases h0 : peek (pre ++ rest) pre.length = 0
  · rw [if_pos h0]
    have hr : rd rest = 0 := by rw [← hinit.peek_rd]; exact h0
    refine ⟨0, FirstStop.zero (Or.inl hr), Nat.zero_le _, Or.inr ⟨?_, _, rfl⟩⟩
    simp only [List.drop_zero]
    exact fun h => (hq (h.1.symm.trans hr)).1 hr
  · rw [if_neg h0]
    obtain ⟨j, hj, hsk, ha, _⟩ := skipWhile_spec ct_space (by decide) rest pre.length
    dsimp only
    rw [hinit.drop_eq, hsk]
    by_cases hw : wnorm = true ∧ pre.length + j ≠ pre.length
    · rw [if_pos hw, Nat.add_sub_cancel_left]
      obtain ⟨hp, hp2⟩ := hinit.push j hj
      obtain ⟨i, out', b', g', hfs, hi, hinv, hL⟩ :=
        strconv_attribute_loop_run_any esc wnorm wconv eol q pre (rest.drop j)
          ((pre ++ rest).length + 1) [] _ _ _ (by simp; omega) hp
      rw [hp2, hL]
      rw [List.drop_drop] at hinv
      have hsafe : ∀ m, m < j →
          rd (rest.drop m) ≠ 0 ∧ ¬ attribute_end esc wnorm wconv eol q (rest.drop m) := by
        intro m hm
        have := ha _ (rd_drop_mem_take rest m j hm hj)
        exact ⟨space_ne_zero this, space_not_end esc wnorm wconv eol q (Or.inl hw.1) this⟩
      have hi' : j + i ≤ rest.length := by
        have := hi
        rw [List.length_drop] at this
        omega
      exact strconv_attribute_finish_any esc wnorm wconv eol q pre rest hpre (j + i) hi'
        (fun hq0 => (hfs.shift hsafe).lt_of_mem (hq hq0).2) (hfs.shift hsafe) out' b' g' (pre.length + j + i) (by omega) hinv
    · rw [if_neg hw]
      obtain ⟨i, out', b', g', hfs, hi, hinv, hL⟩ :=
        strconv_attribute_loop_run_any esc wnorm wconv eol q pre rest
          ((pre ++ rest).length + 1) [] _ _ _ (by simp; omega) hinit
      rw [hL]
      exact strconv_attribute_finish_any esc wnorm wconv eol q pre rest hpre i hi
        (fun hq0 => hfs.lt_of_mem (hq hq0).2) hfs out' b'
        g' (pre.length + i) rfl hinv

/-! ## C37: the decoders write inside the segment -/

/-- The value that the decimal loop leaves after `j` digits is below
`B * 10 ^ j` when it starts below `B`: the wrap-around makes it smaller. -/
theorem dec_loop_bound (l : List Nat) : ∀ (stre u B : Nat), u < B →
    ∃ j, (dec_loop l stre u).1 = stre + j ∧ (dec_loop l stre u).2 < B * 10 ^ j := by
  induction l with
  | nil => intro stre u B h; exact ⟨0, rfl, by simpa [dec_loop] using h⟩
  | cons c r ih =>
    intro stre u B h
    rw [dec_loop]
    by_cases hc : 48 ≤ c ∧ c ≤ 57
    · rw [if_pos hc]
      have hu : (10 * u + (c - 48)) % 2 ^ 32 < B * 10 := by
        have := Nat.mod_le (10 * u + (c - 48)) (2 ^ 32)
        omega
      obtain ⟨j, h1, h2⟩ := ih (stre + 1) _ (B * 10) hu
      refine ⟨j + 1, by rw [h1]; omega, ?_⟩
      rw [pow_succ]
      calc (dec_loop r (stre + 1) ((10 * u + (c - 48)) % 2 ^ 32)).2 < B * 10 * 10 ^ j := h2
        _ = B * (10 ^ j * 10) := by ring
    · rw [if_neg hc]
      exact ⟨0, rfl, by simpa using h⟩

/-- The value that the hexadecimal loop leaves after `j` digits is below
`B * 16 ^ j`. -/
theorem hex_loop_bound (l : List Nat) : ∀ (stre u B : Nat), u < B →
    ∃ j, (hex_loop l stre u).1 = stre + j ∧ (hex_loop l stre u).2.1 < B * 16 ^ j := by
  induction l with
  | nil => intro stre u B h; exact ⟨0, rfl, by simpa [hex_loop] using h⟩
  | cons c r ih =>
    intro stre u B h
    have step : ∀ v, v < 16 →
        ∃ j, (hex_loop r (stre + 1) ((16 * u + v) % 2 ^ 32)).1 = stre + j ∧
          (hex_loop r (stre + 1) ((16 * u + v) % 2 ^ 32)).2.1 < B * 16 ^ j := by
      intro v hv
      have hu : (16 * u + v) % 2 ^ 32 < B * 16 := by
        have := Nat.mod_le (16 * u + v) (2 ^ 32)
        omega
      obtain ⟨j, h1, h2⟩ := ih (stre + 1) _ (B * 16) hu
      refine ⟨j + 1, by rw [h1]; omega, ?_⟩
      rw [pow_succ]
      calc (hex_loop r (stre + 1) ((16 * u + v) % 2 ^ 32)).2.1 < B * 16 * 16 ^ j := h2
        _ = B * (16 ^ j * 16) := by ring
    have stop : ∃ j, stre = stre + j ∧ u < B * 16 ^ j := ⟨0, rfl, by simpa using h⟩
    rw [hex_loop]
    split_ifs with h0 h1 h2 h3 h4
    · exact stop
    · exact step (c - 48) (by omega)
    · exact step (c - 65 + 10) (by omega)
    · exact step (c - 97 + 10) (by omega)
    · exact stop
    · exact stop

/-- The number of bytes that `strutf16_utf8` writes. -/
theorem strutf16_utf8_written (buf : List Nat) (s n : Nat) :
    (strutf16_utf8 buf s n).2 =
      s + (if n < 0x80 then 1 else if n < 0x800 then 2 else if n < 0x10000 then 3
        else if n < 0x200000 then 4 else 0) := by
  unfold strutf16_utf8
  split_ifs <;> rfl

/-- The bytes written for a value read from `j` decimal digits are fewer than
the `j + 3` bytes of the reference. -/
theorem written_lt_dec (buf : List Nat) (s n j : Nat) (h : n < 10 ^ j) :
    (strutf16_utf8 buf s n).2 - s < j + 3 := by
  rw [strutf16_utf8_written]
  have h1 : j = 0 → n < 1 := fun e => by rw [e] at h; simpa using h
  have h2 : j = 1 → n < 10 := fun e => by rw [e] at h; simpa using h
  split_ifs <;> omega

/-- The bytes written for a value read from `j` hexadecimal digits are fewer
than the `j + 4` bytes of the reference. -/
theorem written_lt_hex (buf : List Nat) (s n j : Nat) (h : n < 16 ^ j) :
    (strutf16_utf8 buf s n).2 - s < j + 4 := by
  rw [strutf16_utf8_written]
  have h1 : j = 0 → n < 1 := fun e => by rw [e] at h; simpa using h
  split_ifs <;> omega

/-- What a run that succeeds leaves: the position returned is `off` bytes
after the start of the terminator, the buffer has kept its length, the bytes
before the start position and the bytes after the first byte of the
terminator are as they were, and the decoded string is not longer than the
segment.  The terminator is taken not to start with a NUL, or the bytes to
hold a NUL. -/
theorem DecoderRun.frame {P : List Nat → Prop} {off : Nat} {pre rest : List Nat}
    {res : Option (Option Nat × List Nat)} (h : DecoderRun P off pre rest res)
    (hP : (∀ l, P l → rd l ≠ 0) ∨ 0 ∈ rest) (p : Nat) (b : List Nat)
    (hres : res = some (some p, b)) :
    ∃ i, FirstStop P rest i ∧ P (rest.drop i) ∧ i < rest.length ∧ p = pre.length + i + off ∧
      b.length = (pre ++ rest).length ∧ b.take pre.length = pre ∧
      b.drop (pre.length + i + 1) = rest.drop (i + 1) ∧ (cstrAt b pre.length).length ≤ i := by
  obtain ⟨i, hfs, hi, hcase⟩ := h
  rcases hcase with ⟨hp, out, Y, hlen, hr⟩ | ⟨_, b2, hr⟩
  · rw [hres] at hr
    have e := Option.some.inj hr
    have ep : p = pre.length + i + off := Option.some.inj (Prod.mk.inj e).1
    have eb : b = pre ++ (out ++ 0 :: (Y ++ rest.drop (i + 1))) := (Prod.mk.inj e).2
    have hil : i < rest.length := by
      rcases hP with hP | hP
      · by_contra hc
        have : rest.drop i = [] := List.drop_eq_nil_of_le (by omega)
        exact hP _ hp (by rw [this]; rfl)
      · exact hfs.lt_of_mem hP
    refine ⟨i, hfs, hp, hil, ep, ?_, ?_, ?_, ?_⟩
    · rw [eb]
      simp only [List.length_append, List.length_cons, List.length_drop]
      omega
    · rw [eb, List.take_left']
      rfl
    · rw [eb]
      have e1 : pre ++ (out ++ 0 :: (Y ++ rest.drop (i + 1))) =
          (pre ++ (out ++ 0 :: Y)) ++ rest.drop (i + 1) := by simp
      rw [e1, List.drop_left']
      simp only [List.length_append, List.length_cons]
      omega
    · rw [eb]
      unfold cstrAt
      rw [List.drop_left']
      · have := (List.takeWhile_sublist (fun c => c != 0)
          (l := out ++ 0 :: (Y ++ rest.drop (i + 1)))).length_le
        have h2 : (List.takeWhile (fun c => c != 0) (out ++ 0 :: (Y ++ rest.drop (i + 1)))).length ≤
            out.length := by
          rw [List.takeWhile_append]
          split
          · rw [List.length_append, List.takeWhile_cons_of_neg (by simp)]
            simp
          · exact (List.takeWhile_sublist _).length_le
        omega
      · rfl
  · rw [hres] at hr
    exact absurd (Prod.mk.inj (Option.some.inj hr)).1 (by simp)

/-- The bytes written for a decimal reference are fewer than the bytes of the
reference. -/
theorem escape_dec_shorter (buf : List Nat) (s : Nat) :
    (strutf16_utf8 buf s (dec_loop (buf.drop (s + 2)) (s + 2) 0).2).2 - s <
      (dec_loop (buf.drop (s + 2)) (s + 2) 0).1 + 1 - s := by
  obtain ⟨j, h1, h2⟩ := dec_loop_bound (buf.drop (s + 2)) (s + 2) 0 1 (by decide)
  rw [Nat.one_mul] at h2
  have := written_lt_dec buf s _ j h2
  rw [h1]
  omega

/-- The bytes written for a hexadecimal reference are fewer than the bytes of
the reference. -/
theorem escape_hex_shorter (buf : List Nat) (s : Nat) :
    (strutf16_utf8 buf s (hex_loop (buf.drop (s + 3)) (s + 3) 0).2.1).2 - s <
      (hex_loop (buf.drop (s + 3)) (s + 3) 0).1 + 1 - s := by
  obtain ⟨j, h1, h2⟩ := hex_loop_bound (buf.drop (s + 3)) (s + 3) 0 1 (by decide)
  rw [Nat.one_mul] at h2
  have := written_lt_hex buf s _ j h2
  rw [h1]
  omega

/-- A run of a decoder gives a result. -/
theorem DecoderRun.result {P : List Nat → Prop} {off : Nat} {pre rest : List Nat}
    {res : Option (Option Nat × List Nat)} (h : DecoderRun P off pre rest res) :
    ∃ r, res = some r := by
  obtain ⟨i, _, _, hcase⟩ := h
  rcases hcase with ⟨_, out, Y, _, hr⟩ | ⟨_, b2, hr⟩
  · exact ⟨_, hr⟩
  · exact ⟨_, hr⟩

/-- What a run that succeeds with the offset 1 leaves, in the words of the
specification. -/
theorem DecoderRun.shrunk {P : List Nat → Prop} {pre rest : List Nat}
    {res : Option (Option Nat × List Nat)} (h : DecoderRun P 1 pre rest res)
    (hP : (∀ l, P l → rd l ≠ 0) ∨ 0 ∈ rest) (p : Nat) (b : List Nat)
    (hres : res = some (some p, b)) : shrunk_in_place P pre rest p b :=
  h.frame hP p b hres

/-- `strconv_attribute` does not succeed on a value that starts with a NUL. -/
theorem strconv_attribute_nul (esc wnorm wconv eol : Bool) (q : Nat) (pre rest : List Nat)
    (h : rd rest = 0) :
    strconv_attribute esc wnorm wconv eol (pre ++ rest) pre.length q = some (none, pre ++ rest) := by
  have hinit := GapInv.init pre rest
  unfold strconv_attribute
  rw [if_pos (by rw [hinit.peek_rd]; exact h)]

/-- With `opt_wnorm`, `strconv_attribute` started at the closing quote of an
empty value that stands after a space succeeds and writes a NUL over the
space, which is before the start of the value. -/
theorem strconv_attribute_trims_before :
    strconv_attribute false true false false ([120, 32] ++ [34, 0]) 2 34 =
      some (some 3, [120, 0, 0, 0]) ∧
    ¬ shrunk_in_place (attribute_end false true false false 34) [120, 32] [34, 0] 3
      [120, 0, 0, 0] := by
  refine ⟨by decide, ?_⟩
  rintro ⟨i, _, _, _, _, _, h, _⟩
  exact absurd h (by decide)

/-- C37, amended: the decoders only shrink text in place.  `strconv_pcdata`
and `strconv_attribute` give a result under every setting of their options,
and when they succeed the decoded string is not longer than the segment, the
bytes before the start of the segment and the bytes after the first byte of
the terminator are as they were, and the buffer has kept its length; for
`strconv_attribute` under `opt_wnorm` this is so when the byte before the value
is not whitespace, as the opening quote is.  A NUL that is passed as the end
quote is taken to stand in the buffer.  The bytes that `strconv_escape` writes
for a numeric reference, decimal or hexadecimal, are fewer than the bytes of
the reference. -/
theorem strconv_in_place (esc wnorm wconv eol : Bool) (q : Nat) (pre rest : List Nat)
    (hq : q = 0 → 0 ∈ rest)
    (hpre : wnorm = true → ∃ p0 x0, pre = p0 ++ [x0] ∧ is_chartype x0 ct_space = false) :
    (∃ r, strconv_pcdata esc eol (pre ++ rest) pre.length = some r) ∧
    (∀ p b, strconv_pcdata esc eol (pre ++ rest) pre.length = some (some p, b) →
      shrunk_in_place (fun l => rd l = 60) pre rest p b) ∧
    (∃ r, strconv_attribute esc wnorm wconv eol (pre ++ rest) pre.length q = some r) ∧
    (∀ p b, strconv_attribute esc wnorm wconv eol (pre ++ rest) pre.length q = some (some p, b) →
      shrunk_in_place (attribute_end esc wnorm wconv eol q) pre rest p b) ∧
    (∀ buf s g, peek buf (s + 1) = 35 → peek buf (s + 2) ≠ 120 →
      peek buf (dec_loop (buf.drop (s + 2)) (s + 2) 0).1 = 59 →
      strconv_escape buf s g =
        escape_numeric buf s g ((dec_loop (buf.drop (s + 2)) (s + 2) 0).1 + 1)
          (dec_loop (buf.drop (s + 2)) (s + 2) 0).2 ∧
      (strutf16_utf8 buf s (dec_loop (buf.drop (s + 2)) (s + 2) 0).2).2 - s <
        (dec_loop (buf.drop (s + 2)) (s + 2) 0).1 + 1 - s) ∧
    (∀ buf s g, peek buf (s + 1) = 35 → peek buf (s + 2) = 120 →
      (hex_loop (buf.drop (s + 3)) (s + 3) 0).2.2 = false →
      peek buf (hex_loop (buf.drop (s + 3)) (s + 3) 0).1 = 59 →
      strconv_escape buf s g =
        escape_numeric buf s g ((hex_loop (buf.drop (s + 3)) (s + 3) 0).1 + 1)
          (hex_loop (buf.drop (s + 3)) (s + 3) 0).2.1 ∧
      (strutf16_utf8 buf s (hex_loop (buf.drop (s + 3)) (s + 3) 0).2.1).2 - s <
        (hex_loop (buf.drop (s + 3)) (s + 3) 0).1 + 1 - s) := by
  have hpc := strconv_pcdata_run esc eol pre rest
  refine ⟨hpc.result, fun p b h => hpc.shrunk (Or.inl ?_) p b h, ?_, ?_, ?_, ?_⟩
  · intro l hl h0
    rw [h0] at hl
    exact absurd hl (by decide)
  · by_cases h0 : rd rest = 0
    · exact ⟨_, strconv_attribute_nul esc wnorm wconv eol q pre rest h0⟩
    · exact (strconv_attribute_run_any esc wnorm wconv eol q pre rest
        (fun hq0 => ⟨h0, hq hq0⟩) hpre).result
  · intro p b h
    by_cases h0 : rd rest = 0
    · rw [strconv_attribute_nul esc wnorm wconv eol q pre rest h0] at h
      exact absurd (Prod.mk.inj (Option.some.inj h)).1 (by simp)
    · have hrun := strconv_attribute_run_any esc wnorm wconv eol q pre rest
        (fun hq0 => ⟨h0, hq hq0⟩) hpre
      refine hrun.shrunk ?_ p b h
      by_cases hq0 : q = 0
      · exact Or.inr (hq hq0)
      · exact Or.inl (fun l hl h1 => hq0 (hl.1.symm.trans h1))
  · intro buf s g h1 h2 h3
    refine ⟨?_, escape_dec_shorter buf s⟩
    rw [strconv_escape_dec_eq buf s g h1 h2, if_neg (not_not.mpr h3)]
  · intro buf s g h1 h2 h3 h4
    refine ⟨?_, escape_hex_shorter buf s⟩
    rw [strconv_escape_hex_eq buf s g h1 h2, if_neg (by rw [h3]; decide),
      if_neg (not_not.mpr h4)]

/-- The value ` a&#65;  b ` between double quotes after `=`, decoded with every
option set. -/
theorem strconv_in_place_witness :
    ((34 : Nat) = 0 → 0 ∈ [32, 97, 38, 35, 54, 53, 59, 32, 32, 98, 32, 34, 62, 0]) ∧
    (true = true → ∃ p0 x0, [61, 34] = p0 ++ [x0] ∧ is_chartype x0 ct_space = false) ∧
    strconv_attribute true true true true
      ([61, 34] ++ [32, 97, 38, 35, 54, 53, 59, 32, 32, 98, 32, 34, 62, 0]) 2 34 =
      some (some 14, [61, 34, 97, 65, 32, 98, 0, 0, 59, 32, 32, 98, 32, 34, 62, 0]) ∧
    shrunk_in_place (attribute_end true true true true 34) [61, 34]
      [32, 97, 38, 35, 54, 53, 59, 32, 32, 98, 32, 34, 62, 0] 14
      [61, 34, 97, 65, 32, 98, 0, 0, 59, 32, 32, 98, 32, 34, 62, 0] :=
  ⟨by decide, fun _ => ⟨[61], 34, rfl, by decide⟩, by decide,
    (strconv_in_place true true true true 34 [61, 34]
      [32, 97, 38, 35, 54, 53, 59, 32, 32, 98, 32, 34, 62, 0] (by decide)
      (fun _ => ⟨[61], 34, rfl, by decide⟩)).2.2.2.1 14 _ (by decide)⟩

/-- Both quotes can end a value under every setting of the options; the
references `&#65;`, `&#x41;` and `&#;` are longer than what is written for
them; and the text `a&lt;b` is decoded in place. -/
theorem strconv_in_place_example :
    (∀ esc wnorm wconv eol : Bool,
      attribute_quote esc wnorm wconv eol 34 ∧ attribute_quote esc wnorm wconv eol 39) ∧
    strconv_escape [38, 35, 54, 53, 59, 0] 0 { end_ := none, size := 0 } =
      ([65, 35, 54, 53, 59, 0], 5, { end_ := some 5, size := 4 }) ∧
    strconv_escape [38, 35, 120, 52, 49, 59, 0] 0 { end_ := none, size := 0 } =
      ([65, 35, 120, 52, 49, 59, 0], 6, { end_ := some 6, size := 5 }) ∧
    strconv_pcdata true true ([62] ++ [97, 38, 108, 116, 59, 98, 60, 0]) 1 =
      some (some 8, [62, 97, 60, 98, 0, 59, 98, 60, 0]) := by
  refine ⟨?_, by decide, by decide, by decide⟩
  intro esc wnorm wconv eol
  cases esc <;> cases wnorm <;> cases wconv <;> cases eol <;> exact ⟨by decide, by decide⟩

/-! ## C39: the parser stops at the NUL -/

theorem bound_peek {E : Nat} {junk buf : List Nat} {s : Nat} (h : parse_bound E junk buf s) :
    peek buf E = 0 := by
  rw [← rd_drop, h.2]
  rfl

theorem bound_lt_length {E : Nat} {junk buf : List Nat} {s : Nat}
    (h : parse_bound E junk buf s) : E < buf.length := by
  have := congrArg List.length h.2
  rw [List.length_drop, List.length_cons] at this
  omega

/-- A step over a byte that is not the NUL. -/
theorem bound_next {E : Nat} {junk buf : List Nat} {s : Nat} (h : parse_bound E junk buf s)
    (hp : peek buf s ≠ 0) : parse_bound E junk buf (s + 1) := by
  refine ⟨?_, h.2⟩
  have := h.1
  have : s ≠ E := fun e => hp (by rw [e]; exact bound_peek h)
  omega

/-- A run over bytes of which none is the NUL. -/
theorem bound_run {E : Nat} {junk buf : List Nat} {s : Nat} (h : parse_bound E junk buf s)
    (i : Nat) (hp : ∀ j, j < i → peek buf (s + j) ≠ 0) : parse_bound E junk buf (s + i) := by
  refine ⟨?_, h.2⟩
  by_contra hc
  have h1 := h.1
  have := hp (E - s) (by omega)
  rw [show s + (E - s) = E by omega] at this
  exact this (bound_peek h)

theorem bound_le {E : Nat} {junk buf : List Nat} {s t : Nat} (h : parse_bound E junk buf t)
    (_ : s ≤ t) : parse_bound E junk buf s := ⟨by have := h.1; omega, h.2⟩

/-- A byte written before the scan pointer. -/
theorem bound_poke {E : Nat} {junk buf : List Nat} {s : Nat} (h : parse_bound E junk buf s)
    (i v : Nat) (hi : i < s) : parse_bound E junk (poke buf i v) s := by
  refine ⟨h.1, ?_⟩
  unfold poke
  rw [List.drop_set_of_lt _ _ (by have := h.1; omega)]
  exact h.2

/-- `ENDSEG()` at a byte that is not the NUL. -/
theorem bound_endseg {E : Nat} {junk buf : List Nat} {s : Nat} (h : parse_bound E junk buf s)
    (hp : peek buf s ≠ 0) (v : Nat) : parse_bound E junk (poke buf s v) (s + 1) :=
  bound_poke (bound_next h hp) s v (by omega)

/-- A buffer that is as the old one from the new scan pointer on. -/
theorem bound_frame {E : Nat} {junk buf b : List Nat} {s p k : Nat}
    (h : parse_bound E junk buf s) (hp : parse_bound E junk buf p) (hk : k ≤ p)
    (hb : b.drop k = buf.drop k) : parse_bound E junk b p := by
  refine ⟨hp.1, ?_⟩
  have h1 := hp.1
  have e : E = k + (E - k) := by omega
  rw [e, ← List.drop_drop, hb, List.drop_drop, ← e]
  exact h.2

theorem skipWhile_nz (ct : Nat) (h0 : is_chartype 0 ct = false) (l : List Nat) :
    ∀ s, ∃ i, skipWhile ct l s = s + i ∧ ∀ j, j < i → peek l j ≠ 0 := by
  induction l with
  | nil => intro s; exact ⟨0, rfl, fun j hj => absurd hj (Nat.not_lt_zero _)⟩
  | cons c l ih =>
    intro s
    rw [skipWhile]
    by_cases hc : is_chartype c ct = true
    · rw [if_pos hc]
      obtain ⟨i, hi, hz⟩ := ih (s + 1)
      refine ⟨i + 1, by rw [hi]; omega, ?_⟩
      intro j hj
      cases j with
      | zero =>
        rw [peek_cons_zero]
        intro e
        rw [e, h0] at hc
        exact absurd hc (by decide)
      | succ j => rw [peek_cons_succ]; exact hz j (by omega)
    · rw [if_neg hc]
      exact ⟨0, rfl, fun j hj => absurd hj (Nat.not_lt_zero _)⟩

/-- `SKIPWS()` and `SCANWHILE(is_chartype(*s, ct))` stop at the NUL. -/
theorem bound_skipWhile {E : Nat} {junk buf : List Nat} {s : Nat} (ct : Nat)
    (h0 : is_chartype 0 ct = false) (h : parse_bound E junk buf s) :
    s ≤ skipWhile ct (buf.drop s) s ∧ parse_bound E junk buf (skipWhile ct (buf.drop s) s) := by
  obtain ⟨i, hi, hz⟩ := skipWhile_nz ct h0 (buf.drop s) s
  rw [hi]
  exact ⟨by omega, bound_run h i (fun j hj => by rw [← peek_drop]; exact hz j hj)⟩

theorem scanfor1_nz (P : Nat → Bool) (l : List Nat) :
    ∀ s, ∃ i, scanfor1 P l s = s + i ∧ ∀ j, j < i → peek l j ≠ 0 := by
  induction l with
  | nil => intro s; exact ⟨0, rfl, fun j hj => absurd hj (Nat.not_lt_zero _)⟩
  | cons c l ih =>
    intro s
    rw [scanfor1]
    by_cases hc : c = 0
    · rw [if_pos hc]
      exact ⟨0, rfl, fun j hj => absurd hj (Nat.not_lt_zero _)⟩
    · rw [if_neg hc]
      by_cases hP : P c = true
      · rw [if_pos hP]
        exact ⟨0, rfl, fun j hj => absurd hj (Nat.not_lt_zero _)⟩
      · rw [if_neg hP]
        obtain ⟨i, hi, hz⟩ := ih (s + 1)
        refine ⟨i + 1, by rw [hi]; omega, ?_⟩
        intro j hj
        cases j with
        | zero => rw [peek_cons_zero]; exact hc
        | succ j => rw [peek_cons_succ]; exact hz j (by omega)

/-- `SCANFOR(X)` with one byte tested stops at the NUL. -/
theorem bound_scanfor1 {E : Nat} {junk buf : List Nat} {s : Nat} (P : Nat → Bool)
    (h : parse_bound E junk buf s) :
    s ≤ scanfor1 P (buf.drop s) s ∧ parse_bound E junk buf (scanfor1 P (buf.drop s) s) := by
  obtain ⟨i, hi, hz⟩ := scanfor1_nz P (buf.drop s) s
  rw [hi]
  exact ⟨by omega, bound_run h i (fun j hj => by rw [← peek_drop]; exact hz j hj)⟩

theorem scanfor2_nz (a b : Nat) (l : List Nat) :
    ∀ s, ∃ i, scanfor2 a b l s = s + i ∧ (∀ j, j < i → peek l j ≠ 0) ∧
      (peek l i ≠ 0 → peek l i = a ∧ peek l (i + 1) = b) := by
  induction l with
  | nil =>
    intro s
    exact ⟨0, rfl, fun j hj => absurd hj (Nat.not_lt_zero _), fun h => absurd rfl h⟩
  | cons c l ih =>
    intro s
    rw [scanfor2]
    by_cases hc : c = 0
    · rw [if_pos hc]
      exact ⟨0, rfl, fun j hj => absurd hj (Nat.not_lt_zero _),
        fun h => absurd (by rw [peek_cons_zero]; exact hc) h⟩
    · rw [if_neg hc]
      by_cases hP : c = a ∧ rd l = b
      · rw [if_pos hP]
        refine ⟨0, rfl, fun j hj => absurd hj (Nat.not_lt_zero _), fun _ => ?_⟩
        rw [peek_cons_zero, peek_cons_succ, ← rd_eq_peek]
        exact hP
      · rw [if_neg hP]
        obtain ⟨i, hi, hz, hm⟩ := ih (s + 1)
        refine ⟨i + 1, by rw [hi]; omega, ?_, ?_⟩
        · intro j hj
          cases j with
          | zero => rw [peek_cons_zero]; exact hc
          | succ j => rw [peek_cons_succ]; exact hz j (by omega)
        · rw [peek_cons_succ, peek_cons_succ]
          exact hm

/-- `SCANFOR(*s == a && *(s+1) == b)` stops at the NUL, and where it stops at
another byte the two bytes stand there. -/
theorem bound_scanfor2 {E : Nat} {junk buf : List Nat} {s : Nat} (a b : Nat)
    (h : parse_bound E junk buf s) :
    s ≤ scanfor2 a b (buf.drop s) s ∧ parse_bound E junk buf (scanfor2 a b (buf.drop s) s) ∧
      (peek buf (scanfor2 a b (buf.drop s) s) ≠ 0 →
        peek buf (scanfor2 a b (buf.drop s) s) = a ∧
        peek buf (scanfor2 a b (buf.drop s) s + 1) = b) := by
  obtain ⟨i, hi, hz, hm⟩ := scanfor2_nz a b (buf.drop s) s
  rw [hi]
  refine ⟨by omega, bound_run h i (fun j hj => by rw [← peek_drop]; exact hz j hj), ?_⟩
  rw [Nat.add_assoc, ← peek_drop, ← peek_drop]
  exact hm

theorem scanfor3_nz (a b c : Nat) (l : List Nat) :
    ∀ s, ∃ i, scanfor3 a b c l s = s + i ∧ (∀ j, j < i → peek l j ≠ 0) ∧
      (peek l i ≠ 0 → peek l i = a ∧ peek l (i + 1) = b ∧ peek l (i + 2) = c) := by
  induction l with
  | nil =>
    intro s
    exact ⟨0, rfl, fun j hj => absurd hj (Nat.not_lt_zero _), fun h => absurd rfl h⟩
  | cons x l ih =>
    intro s
    rw [scanfor3]
    by_cases hc : x = 0
    · rw [if_pos hc]
      exact ⟨0, rfl, fun j hj => absurd hj (Nat.not_lt_zero _),
        fun h => absurd (by rw [peek_cons_zero]; exact hc) h⟩
    · rw [if_neg hc]
      by_cases hP : x = a ∧ rd l = b ∧ rd l.tail = c
      · rw [if_pos hP]
        refine ⟨0, rfl, fun j hj => absurd hj (Nat.not_lt_zero _), fun _ => ?_⟩
        rw [peek_cons_zero, peek_cons_succ, peek_cons_succ, ← rd_eq_peek, peek_one]
        exact hP
      · rw [if_neg hP]
        obtain ⟨i, hi, hz, hm⟩ := ih (s + 1)
        refine ⟨i + 1, by rw [hi]; omega, ?_, ?_⟩
        · intro j hj
          cases j with
          | zero => rw [peek_cons_zero]; exact hc
          | succ j => rw [peek_cons_succ]; exact hz j (by omega)
        · rw [peek_cons_succ, peek_cons_succ, peek_cons_succ]
          exact hm

/-- `SCANFOR(*s == a && *(s+1) == b && *(s+2) == c)` stops at the NUL, and
where it stops at another byte the three bytes stand there. -/
theorem bound_scanfor3 {E : Nat} {junk buf : List Nat} {s : Nat} (a b c : Nat)
    (h : parse_bound E junk buf s) :
    s ≤ scanfor3 a b c (buf.drop s) s ∧
      parse_bound E junk buf (scanfor3 a b c (buf.drop s) s) ∧
      (peek buf (scanfor3 a b c (buf.drop s) s) ≠ 0 →
        peek buf (scanfor3 a b c (buf.drop s) s) = a ∧
        peek buf (scanfor3 a b c (buf.drop s) s + 1) = b ∧
        peek buf (scanfor3 a b c (buf.drop s) s + 2) = c) := by
  obtain ⟨i, hi, hz, hm⟩ := scanfor3_nz a b c (buf.drop s) s
  rw [hi]
  refine ⟨by omega, bound_run h i (fun j hj => by rw [← peek_drop]; exact hz j hj), ?_⟩
  simp only [peek_drop] at hm
  simpa only [Nat.add_assoc] using hm

theorem bracket_loop_nz (l : List Nat) :
    ∀ s bd, ∃ i, bracket_loop l s bd = s + i ∧ ∀ j, j < i → peek l j ≠ 0 := by
  induction l with
  | nil => intro s bd; exact ⟨0, rfl, fun j hj => absurd hj (Nat.not_lt_zero _)⟩
  | cons c l ih =>
    intro s bd
    rw [bracket_loop]
    by_cases hc : c = 0
    · rw [if_pos hc]
      exact ⟨0, rfl, fun j hj => absurd hj (Nat.not_lt_zero _)⟩
    · rw [if_neg hc]
      dsimp only
      split_ifs
      · exact ⟨0, rfl, fun j hj => absurd hj (Nat.not_lt_zero _)⟩
      · obtain ⟨i, hi, hz⟩ := ih (s + 1) ((bd + 2 ^ 32 - 1) % 2 ^ 32)
        refine ⟨i + 1, by rw [hi]; omega, ?_⟩
        intro j hj
        cases j with
        | zero => rw [peek_cons_zero]; exact hc
        | succ j => rw [peek_cons_succ]; exact hz j (by omega)
      · exact ⟨0, rfl, fun j hj => absurd hj (Nat.not_lt_zero _)⟩
      · obtain ⟨i, hi, hz⟩ := ih (s + 1) ((bd + 1) % 2 ^ 32)
        refine ⟨i + 1, by rw [hi]; omega, ?_⟩
        intro j hj
        cases j with
        | zero => rw [peek_cons_zero]; exact hc
        | succ j => rw [peek_cons_succ]; exact hz j (by omega)
      · exact ⟨0, rfl, fun j hj => absurd hj (Nat.not_lt_zero _)⟩
      · obtain ⟨i, hi, hz⟩ := ih (s + 1) bd
        refine ⟨i + 1, by rw [hi]; omega, ?_⟩
        intro j hj
        cases j with
        | zero => rw [peek_cons_zero]; exact hc
        | succ j => rw [peek_cons_succ]; exact hz j (by omega)

/-- The loop over the brackets of a `DOCTYPE` stops at the NUL. -/
theorem bound_bracket_loop {E : Nat} {junk buf : List Nat} {s : Nat} (bd : Nat)
    (h : parse_bound E junk buf s) :
    s ≤ bracket_loop (buf.drop s) s bd ∧
      parse_bound E junk buf (bracket_loop (buf.drop s) s bd) := by
  obtain ⟨i, hi, hz⟩ := bracket_loop_nz (buf.drop s) s bd
  rw [hi]
  exact ⟨by omega, bound_run h i (fun j hj => by rw [← peek_drop]; exact hz j hj)⟩

theorem close_loop_nz (buf : List Nat) (l : List Nat) :
    ∀ s name s1 name1, close_loop buf l s name = some (s1, name1) →
      ∃ i, s1 = s + i ∧ ∀ j, j < i → peek l j ≠ 0 := by
  induction l with
  | nil =>
    intro s name s1 name1 h
    rw [close_loop] at h
    exact ⟨0, (Prod.mk.inj (Option.some.inj h)).1.symm, fun j hj => absurd hj (Nat.not_lt_zero _)⟩
  | cons c l ih =>
    intro s name s1 name1 h
    rw [close_loop] at h
    by_cases hc : c ≠ 0 ∧ is_chartype c ct_symbol = true
    · rw [if_pos hc] at h
      by_cases hn : c ≠ peek buf name
      · rw [if_pos hn] at h
        exact absurd h (by simp)
      · rw [if_neg hn] at h
        obtain ⟨i, hi, hz⟩ := ih _ _ _ _ h
        refine ⟨i + 1, by rw [hi]; omega, ?_⟩
        intro j hj
        cases j with
        | zero => rw [peek_cons_zero]; exact hc.1
        | succ j => rw [peek_cons_succ]; exact hz j (by omega)
    · rw [if_neg hc] at h
      exact ⟨0, (Prod.mk.inj (Option.some.inj h)).1.symm,
        fun j hj => absurd hj (Nat.not_lt_zero _)⟩

/-- The loop that compares the name of a closing tag stops at the NUL. -/
theorem bound_close_loop {E : Nat} {junk buf : List Nat} {s : Nat} (name s1 name1 : Nat)
    (h : parse_bound E junk buf s)
    (hc : close_loop buf (buf.drop s) s name = some (s1, name1)) :
    s ≤ s1 ∧ parse_bound E junk buf s1 := by
  obtain ⟨i, hi, hz⟩ := close_loop_nz buf (buf.drop s) s name s1 name1 hc
  rw [hi]
  exact ⟨by omega, bound_run h i (fun j hj => by rw [← peek_drop]; exact hz j hj)⟩

/-- A decoder that is run at the scan pointer: the buffer is what stands before
the pointer and what stands from it on. -/
theorem decoder_at {P : List Nat → Prop} {off : Nat}
    (f : List Nat → Nat → Option (Option Nat × List Nat))
    (hrun : ∀ pre rest, DecoderRun P off pre rest (f (pre ++ rest) pre.length))
    (buf : List Nat) (s : Nat) (hs : s ≤ buf.length) :
    DecoderRun P off (buf.take s) (buf.drop s) (f buf s) := by
  have := hrun (buf.take s) (buf.drop s)
  rw [List.take_append_drop, List.length_take, Nat.min_eq_left hs] at this
  exact this

/-- A decoder returns, and the position that it returns is after the one it
was started at and not past the NUL, also when the `d` bytes of the terminator
that stand after it are stepped over; the NUL and the bytes after it are as
they were. -/
theorem bound_decoder {P : List Nat → Prop} {off E : Nat} {junk buf : List Nat} {s : Nat}
    {res : Option (Option Nat × List Nat)} (d : Nat) (h : parse_bound E junk buf s)
    (hrun : DecoderRun P off (buf.take s) (buf.drop s) res) (hoff : 1 ≤ off)
    (hP : ∀ l, P l → ∀ k, k < off + d → peek l k ≠ 0) :
    ∃ x, res = some x ∧ ∀ p b, x = (some p, b) → s < p ∧ parse_bound E junk b (p + d) := by
  have hsl : s ≤ buf.length := by
    have := bound_lt_length h
    have := h.1
    omega
  have hlen : (buf.take s).length = s := by rw [List.length_take, Nat.min_eq_left hsl]
  obtain ⟨x, hx⟩ := hrun.result
  refine ⟨x, hx, ?_⟩
  intro p b e
  subst e
  obtain ⟨i, hfs, hPi, hil, hp, hbl, htake, hdrop, _⟩ :=
    hrun.frame (Or.inl (fun l hl => by rw [rd_eq_peek]; exact hP l hl 0 (by omega))) p b hx
  rw [hlen] at hp hdrop
  have hb : parse_bound E junk buf (s + (i + off + d)) := by
    refine bound_run h (i + off + d) ?_
    intro j hj
    by_cases hji : j < i
    · have := (hfs.2 j hji).1
      rw [rd_drop, peek_drop] at this
      exact this
    · have := hP _ hPi (j - i) (by omega)
      rw [peek_drop, peek_drop] at this
      rw [show s + (i + (j - i)) = s + j by omega] at this
      exact this
  rw [hp]
  refine ⟨by omega, ?_⟩
  rw [show s + i + off + d = s + (i + off + d) by omega]
  refine bound_frame h hb (k := s + (i + 1)) (by omega) ?_
  rw [← Nat.add_assoc, hdrop]
  exact (drop_of_drop rfl (i + 1)).symm

theorem take_succ_peek (buf : List Nat) (s : Nat) (h : s < buf.length) :
    buf.take (s + 1) = buf.take s ++ [peek buf s] := by
  rw [List.take_succ]
  congr 1
  unfold peek
  rw [List.getD_eq_getElem?_getD, List.getElem?_eq_getElem h]
  rfl

/-- `strconv_attribute` called after an opening quote returns, and the position
that it returns is after the one it was started at and not past the NUL. -/
theorem bound_attribute {E : Nat} {junk buf : List Nat} {s : Nat}
    (esc wnorm wconv eol : Bool) (q : Nat) (hq : q ≠ 0)
    (h : parse_bound E junk buf (s + 1)) (hquote : is_chartype (peek buf s) ct_space = false) :
    ∃ x, strconv_attribute esc wnorm wconv eol buf (s + 1) q = some x ∧
      ∀ p b, x = (some p, b) → s + 1 < p ∧ parse_bound E junk b p := by
  have hsl : s + 1 ≤ buf.length := by
    have := bound_lt_length h
    have := h.1
    omega
  have hrun := strconv_attribute_run_any esc wnorm wconv eol q (buf.take (s + 1))
    (buf.drop (s + 1)) (fun e => absurd e hq)
    (fun _ => ⟨buf.take s, peek buf s, take_succ_peek buf s (by omega), hquote⟩)
  rw [List.take_append_drop, List.length_take, Nat.min_eq_left hsl] at hrun
  exact bound_decoder 0 h hrun (le_refl 1) (fun l hl k hk => by
    have hk0 : k = 0 := by omega
    rw [hk0, ← rd_eq_peek, hl.1]
    exact hq)

/-! ### The tree -/

theorem tree_linked_set {E : Nat} (nodes : List xml_node_struct) (cursor k : Nat)
    (f : xml_node_struct → xml_node_struct) (hf : ∀ x, (f x).parent = x.parent)
    (hn : ∀ x p, (f x).name = some p → x.name = some p ∨ p ≤ E)
    (h : tree_linked E nodes cursor) :
    tree_linked E (nodes.set k (f (node_at nodes k))) cursor := by
  refine ⟨by rw [List.length_set]; exact h.1, ?_, ?_⟩
  · intro j hj
    rw [List.length_set] at hj ⊢
    exact node_at_set_upd (fun x => ∃ p, x.parent = some p ∧ p < nodes.length) f
      (fun x hx => by
        obtain ⟨p, hp, hpl⟩ := hx
        exact ⟨p, (hf x).trans hp, hpl⟩) nodes k j (h.2.1 j hj)
  · intro j
    exact node_at_set_upd (fun x => ∀ p, x.name = some p → p ≤ E) f
      (fun x hx p hp => by
        rcases hn x p hp with e | e
        · exact hx p e
        · exact e) nodes k j (h.2.2 j)

theorem node_at_append_gt (nodes : List xml_node_struct) (v : xml_node_struct) (j : Nat)
    (h : nodes.length < j) : node_at (nodes ++ [v]) j = xml_node_struct.new node_null := by
  unfold node_at
  rw [List.getD_eq_getElem?_getD, List.getElem?_eq_none (by simp; omega)]
  rfl

theorem tree_linked_pushnode {E : Nat} (st : parse_state) (type : xml_node_type)
    (h : tree_linked E st.nodes st.cursor) :
    tree_linked E (PUSHNODE st type).nodes (PUSHNODE st type).cursor := by
  unfold PUSHNODE
  dsimp only
  rw [append_node_snd]
  refine ⟨by rw [append_node_length]; omega, ?_, ?_⟩
  · intro j hj
    rw [append_node_length] at hj ⊢
    refine append_node_pres (fun x => ∃ p, x.parent = some p ∧ p < st.nodes.length + 1)
      (fun x a b c d hx => hx) st.nodes st.cursor type j ?_
    by_cases hjl : j < st.nodes.length
    · rw [node_at_append_lt _ _ _ hjl]
      obtain ⟨p, hp, hpl⟩ := h.2.1 j hjl
      exact ⟨p, hp, by omega⟩
    · have : j = st.nodes.length := by omega
      rw [this, node_at_append_length]
      exact ⟨st.cursor, rfl, by have := h.1; omega⟩
  · intro j
    refine append_node_pres (fun x => ∀ p, x.name = some p → p ≤ E)
      (fun x a b c d hx => hx) st.nodes st.cursor type j ?_
    by_cases hjl : j < st.nodes.length
    · rw [node_at_append_lt _ _ _ hjl]
      exact h.2.2 j
    · by_cases hje : j = st.nodes.length
      · rw [hje, node_at_append_length]
        intro p hp
        exact absurd hp (by simp [xml_node_struct.new])
      · rw [node_at_append_gt _ _ _ (by omega)]
        intro p hp
        exact absurd hp (by simp [xml_node_struct.new])

theorem tree_linked_name {E : Nat} (st : parse_state) (p : Option Nat)
    (hp : ∀ q, p = some q → q ≤ E) (h : tree_linked E st.nodes st.cursor) :
    tree_linked E (set_cursor_name st p).nodes (set_cursor_name st p).cursor :=
  tree_linked_set st.nodes st.cursor st.cursor (fun x => { x with name := p }) (fun _ => rfl)
    (fun _ q e => Or.inr (hp q e)) h

theorem tree_linked_value {E : Nat} (st : parse_state) (p : Option Nat)
    (h : tree_linked E st.nodes st.cursor) :
    tree_linked E (set_cursor_value st p).nodes (set_cursor_value st p).cursor :=
  tree_linked_set st.nodes st.cursor st.cursor (fun x => { x with value := p }) (fun _ => rfl)
    (fun _ _ e => Or.inl e) h

theorem tree_linked_parent {E : Nat} (nodes : List xml_node_struct) (cursor : Nat)
    (h : tree_linked E nodes cursor) :
    ∃ p, (node_at nodes cursor).parent = some p ∧ tree_linked E nodes p := by
  obtain ⟨p, hp, hpl⟩ := h.2.1 cursor h.1
  exact ⟨p, hp, hpl, h.2⟩

theorem tree_linked_popnode {E : Nat} (st : parse_state) (h : tree_linked E st.nodes st.cursor) :
    ∃ p, POPNODE st = some { st with cursor := p } ∧ tree_linked E st.nodes p := by
  obtain ⟨p, hp, hpl⟩ := h.2.1 st.cursor h.1
  exact ⟨p, POPNODE_eq st p hp, hpl, h.2⟩

theorem tree_linked_attribute {E : Nat} (nodes : List xml_node_struct)
    (attrs : List xml_attribute_struct) (cursor : Nat) (h : tree_linked E nodes cursor) :
    tree_linked E (append_attribute nodes attrs cursor).1 cursor := by
  unfold append_attribute
  dsimp only
  split
  · exact tree_linked_set nodes cursor cursor (fun x => { x with last_attribute := _ })
      (fun _ => rfl) (fun _ _ e => Or.inl e) h
  · exact tree_linked_set nodes cursor cursor
      (fun x => { x with first_attribute := _, last_attribute := _ }) (fun _ => rfl)
      (fun _ _ e => Or.inl e) h

/-! ### The branches of the parser -/

theorem safe_none (E : Nat) (junk : List Nat) (s0 : Nat) : parse_safe E junk s0 (some none) :=
  ⟨none, rfl, fun _ h => absurd h (by simp)⟩

theorem safe_some {E : Nat} {junk : List Nat} {s0 : Nat} {st : parse_state} (hs : s0 ≤ st.s)
    (hb : parse_bound E junk st.buf st.s) (ht : tree_linked E st.nodes st.cursor) :
    parse_safe E junk s0 (some (some st)) :=
  ⟨some st, rfl, fun st' h => by
    have e : st = st' := Option.some.inj h
    subst e
    exact ⟨hs, hb, ht⟩⟩

theorem safe_pop {E : Nat} {junk : List Nat} {s0 : Nat} {st : parse_state} (hs : s0 ≤ st.s)
    (hb : parse_bound E junk st.buf st.s) (ht : tree_linked E st.nodes st.cursor) :
    parse_safe E junk s0 ((POPNODE st).map some) := by
  obtain ⟨p, hp, hpl⟩ := tree_linked_popnode st ht
  rw [hp]
  exact @safe_some _ _ _ { st with cursor := p } hs hb hpl

theorem safe_mono {E : Nat} {junk : List Nat} {s0 s1 : Nat} {r : Option (Option parse_state)}
    (h : parse_safe E junk s1 r) (hs : s0 ≤ s1) : parse_safe E junk s0 r := by
  obtain ⟨x, hx, hall⟩ := h
  exact ⟨x, hx, fun st hst => ⟨by have := (hall st hst).1; omega, (hall st hst).2⟩⟩

theorem bound_next2 {E : Nat} {junk buf : List Nat} {s : Nat} (h : parse_bound E junk buf s)
    (hp : peek buf s ≠ 0) (hq : peek buf (s + 1) ≠ 0) : parse_bound E junk buf (s + 2) :=
  bound_next (bound_next h hp) hq

/-- The branch `<?...` returns, with the scan pointer not past the NUL. -/
theorem parse_pi_tag_safe (o : parse_options) (st : parse_state) (E : Nat) (junk : List Nat)
    (hb : parse_bound E junk st.buf st.s) (ht : tree_linked E st.nodes st.cursor) :
    parse_safe E junk st.s (parse_pi_tag o st) := by
  unfold parse_pi_tag
  by_cases hss : is_chartype (peek st.buf st.s) ct_start_symbol = false
  · rw [if_pos hss]; exact safe_none _ _ _
  rw [if_neg hss]
  by_cases hpi : o.parse_pi = true
  swap
  · rw [if_neg hpi]
    dsimp only
    obtain ⟨h0le, h0, h0m⟩ := bound_scanfor2 63 62 hb
    generalize scanfor2 63 62 (st.buf.drop st.s) st.s = s0 at h0le h0 h0m ⊢
    by_cases c : peek st.buf s0 = 0
    · rw [if_pos c]; exact safe_none _ _ _
    rw [if_neg c]
    exact @safe_some _ _ _ { st with s := s0 + 2 } (by show st.s ≤ s0 + 2; omega)
      (bound_next2 h0 c (by rw [(h0m c).2]; decide)) ht
  rw [if_pos hpi]
  dsimp only
  obtain ⟨h1le, h1⟩ := bound_skipWhile ct_symbol (by decide) hb
  generalize skipWhile ct_symbol (st.buf.drop st.s) st.s = s1 at h1le h1 ⊢
  by_cases c1 : peek st.buf s1 = 0
  · rw [if_pos c1]; exact safe_none _ _ _
  rw [if_neg c1]
  by_cases c2 : is_chartype (peek st.buf s1) ct_space = false ∧ peek st.buf s1 ≠ 63
  · rw [if_pos c2]; exact safe_none _ _ _
  rw [if_neg c2]
  have h2 := bound_endseg h1 c1 0
  generalize poke st.buf s1 0 = buf1 at h2 ⊢
  by_cases c3 : peek buf1 (s1 + 1) = 0
  · rw [if_pos c3]; exact safe_none _ _ _
  rw [if_neg c3]
  have h3 := bound_next h2 c3
  by_cases c4 : peek st.buf s1 = 63
  · rw [if_pos c4]
    by_cases c5 : peek buf1 (s1 + 1) ≠ 62
    · rw [if_pos c5]; exact safe_none _ _ _
    rw [if_neg c5]
    by_cases c6 : is_xml_target buf1 st.s = true
    · rw [if_pos c6]
      exact @safe_some _ _ _ { st with buf := buf1, s := s1 + 1 + 1 }
        (by show st.s ≤ s1 + 1 + 1; omega) h3 ht
    rw [if_neg c6]
    exact @safe_pop _ _ _
      (set_cursor_name (PUSHNODE { st with buf := buf1, s := s1 + 1 + 1 } node_pi) (some st.s))
      (by show st.s ≤ s1 + 1 + 1; omega) h3
      (tree_linked_name _ _ (fun q e => by rw [← Option.some.inj e]; exact hb.1)
        (tree_linked_pushnode _ _ ht))
  rw [if_neg c4]
  by_cases c6 : is_xml_target buf1 st.s = true
  · rw [if_pos c6]
    obtain ⟨h4le, h4, h4m⟩ := bound_scanfor2 63 62 h2
    generalize scanfor2 63 62 (buf1.drop (s1 + 1)) (s1 + 1) = s3 at h4le h4 h4m ⊢
    by_cases c7 : peek buf1 s3 = 0
    · rw [if_pos c7]; exact safe_none _ _ _
    rw [if_neg c7]
    exact @safe_some _ _ _ { st with buf := buf1, s := s3 + 2 }
      (by show st.s ≤ s3 + 2; omega) (bound_next2 h4 c7 (by rw [(h4m c7).2]; decide)) ht
  rw [if_neg c6]
  have h5 : s1 + 1 ≤ (if is_chartype (peek st.buf s1) ct_space = true then
        skipWhile ct_space (buf1.drop (s1 + 1)) (s1 + 1) else s1 + 1) ∧
      parse_bound E junk buf1 (if is_chartype (peek st.buf s1) ct_space = true then
        skipWhile ct_space (buf1.drop (s1 + 1)) (s1 + 1) else s1 + 1) := by
    by_cases csp : is_chartype (peek st.buf s1) ct_space = true
    · rw [if_pos csp]; exact bound_skipWhile ct_space (by decide) h2
    · rw [if_neg csp]; exact ⟨le_refl _, h2⟩
  generalize (if is_chartype (peek st.buf s1) ct_space = true then
    skipWhile ct_space (buf1.drop (s1 + 1)) (s1 + 1) else s1 + 1) = s3 at h5 ⊢
  by_cases c8 : is_chartype (peek st.buf s1) ct_space = true ∧ peek buf1 s3 = 0
  · rw [if_pos c8]; exact safe_none _ _ _
  rw [if_neg c8]
  obtain ⟨h6le, h6, h6m⟩ := bound_scanfor2 63 62 h5.2
  generalize scanfor2 63 62 (buf1.drop s3) s3 = s4 at h6le h6 h6m ⊢
  by_cases c9 : peek buf1 s4 = 0
  · rw [if_pos c9]; exact safe_none _ _ _
  rw [if_neg c9]
  by_cases c10 : peek (poke buf1 s4 0) (s4 + 1) = 0
  · rw [if_pos c10]; exact safe_none _ _ _
  rw [if_neg c10]
  exact @safe_pop _ _ _
    (set_cursor_value { set_cursor_name (PUSHNODE { st with buf := buf1, s := s1 + 1 } node_pi)
      (some st.s) with buf := poke buf1 s4 0, s := s4 + 2 }
      (if is_chartype (peek st.buf s1) ct_space = true then some s3 else none))
    (by show st.s ≤ s4 + 2; have := h5.1; omega)
    (bound_next (bound_endseg h6 c9 0) c10)
    (tree_linked_value _ _ (tree_linked_name _ _ (fun q e => by rw [← Option.some.inj e]; exact hb.1)
        (tree_linked_pushnode _ _ ht)))

theorem bound_next3 {E : Nat} {junk buf : List Nat} {s : Nat} (h : parse_bound E junk buf s)
    (hp : peek buf s ≠ 0) (hq : peek buf (s + 1) ≠ 0) (hr : peek buf (s + 2) ≠ 0) :
    parse_bound E junk buf (s + 3) :=
  bound_next (bound_next2 h hp hq) hr

theorem bound_length_le {E : Nat} {junk buf : List Nat} {s : Nat}
    (h : parse_bound E junk buf s) : s ≤ buf.length := by
  have := bound_lt_length h
  have := h.1
  omega

/-- The branch `<!--...` returns, with the scan pointer not past the NUL. -/
theorem parse_comment_safe (o : parse_options) (st : parse_state) (E : Nat) (junk : List Nat)
    (hb : parse_bound E junk st.buf st.s) (ht : tree_linked E st.nodes st.cursor) :
    parse_safe E junk st.s (parse_comment o st) := by
  unfold parse_comment
  dsimp only
  have hbuf : (if o.parse_comments = true then
      set_cursor_value (PUSHNODE st node_comment) (some st.s) else st).buf = st.buf := by
    split <;> rfl
  have hs : (if o.parse_comments = true then
      set_cursor_value (PUSHNODE st node_comment) (some st.s) else st).s = st.s := by
    split <;> rfl
  have htr : tree_linked E (if o.parse_comments = true then
      set_cursor_value (PUSHNODE st node_comment) (some st.s) else st).nodes
      (if o.parse_comments = true then
      set_cursor_value (PUSHNODE st node_comment) (some st.s) else st).cursor := by
    split
    · exact tree_linked_value _ _ (tree_linked_pushnode _ _ ht)
    · exact ht
  generalize (if o.parse_comments = true then
      set_cursor_value (PUSHNODE st node_comment) (some st.s) else st) = st1 at hbuf hs htr ⊢
  rw [← hbuf, ← hs] at hb
  rw [← hs]
  by_cases c1 : o.parse_eol = true ∧ o.parse_comments = true
  · rw [if_pos c1]
    obtain ⟨x, hx, hall⟩ := bound_decoder 0 hb
      (decoder_at strconv_comment strconv_comment_run st1.buf st1.s (bound_length_le hb))
      (by decide) (fun l hl k hk => by
        obtain ⟨e0, e1, e2⟩ := hl
        have : k = 0 ∨ k = 1 ∨ k = 2 := by omega
        rcases this with e | e | e <;> subst e
        · rw [e0]; decide
        · rw [e1]; decide
        · rw [e2]; decide)
    rw [hx]
    rcases x with ⟨_ | p, b⟩
    · exact safe_none _ _ _
    · obtain ⟨hlt, hbd⟩ := hall p b rfl
      show parse_safe E junk st1.s
        (if o.parse_comments = true then (POPNODE { st1 with buf := b, s := p }).map some
          else some (some { st1 with buf := b, s := p }))
      rw [if_pos c1.2]
      exact @safe_pop _ _ _ { st1 with buf := b, s := p } (by show st1.s ≤ p; omega) hbd htr
  rw [if_neg c1]
  obtain ⟨h1le, h1, h1m⟩ := bound_scanfor3 45 45 62 hb
  generalize scanfor3 45 45 62 (st1.buf.drop st1.s) st1.s = s1 at h1le h1 h1m ⊢
  by_cases c2 : peek st1.buf s1 = 0
  · rw [if_pos c2]; exact safe_none _ _ _
  rw [if_neg c2]
  have h3 : parse_bound E junk st1.buf (s1 + 3) :=
    bound_next3 h1 c2 (by rw [(h1m c2).2.1]; decide) (by rw [(h1m c2).2.2]; decide)
  show parse_safe E junk st1.s
    (if o.parse_comments = true then
      (POPNODE { st1 with buf := if o.parse_comments = true then poke st1.buf s1 0 else st1.buf,
                          s := s1 + 3 }).map some
      else some (some { st1 with
        buf := if o.parse_comments = true then poke st1.buf s1 0 else st1.buf, s := s1 + 3 }))
  by_cases c3 : o.parse_comments = true
  · rw [if_pos c3, if_pos c3]
    exact @safe_pop _ _ _ { st1 with buf := poke st1.buf s1 0, s := s1 + 3 }
      (by show st1.s ≤ s1 + 3; omega) (bound_poke h3 s1 0 (by omega)) htr
  · rw [if_neg c3, if_neg c3]
    exact @safe_some _ _ _ { st1 with buf := st1.buf, s := s1 + 3 }
      (by show st1.s ≤ s1 + 3; omega) h3 htr

/-- The branch `<![CDATA[...` returns, with the scan pointer not past the NUL. -/
theorem parse_cdata_tag_safe (o : parse_options) (st : parse_state) (E : Nat) (junk : List Nat)
    (hb : parse_bound E junk st.buf st.s) (ht : tree_linked E st.nodes st.cursor) :
    parse_safe E junk st.s (parse_cdata_tag o st) := by
  unfold parse_cdata_tag
  by_cases c0 : o.parse_cdata = true
  swap
  · rw [if_neg c0]
    dsimp only
    obtain ⟨h1le, h1, h1m⟩ := bound_scanfor3 93 93 62 hb
    generalize scanfor3 93 93 62 (st.buf.drop st.s) st.s = s1 at h1le h1 h1m ⊢
    by_cases c2 : peek st.buf s1 = 0
    · rw [if_pos c2]; exact safe_none _ _ _
    rw [if_neg c2]
    exact @safe_some _ _ _ { st with s := s1 + 1 + 2 } (by show st.s ≤ s1 + 1 + 2; omega)
      (bound_next3 h1 c2 (by rw [(h1m c2).2.1]; decide) (by rw [(h1m c2).2.2]; decide)) ht
  rw [if_pos c0]
  dsimp only
  have htr := tree_linked_value _ (some st.s) (tree_linked_pushnode st node_cdata ht)
  have hb1 : parse_bound E junk (set_cursor_value (PUSHNODE st node_cdata) (some st.s)).buf
    (set_cursor_value (PUSHNODE st node_cdata) (some st.s)).s := hb
  have hs : (set_cursor_value (PUSHNODE st node_cdata) (some st.s)).s = st.s := rfl
  generalize set_cursor_value (PUSHNODE st node_cdata) (some st.s) = st1 at htr hb1 hs ⊢
  rw [← hs]
  obtain ⟨p, hp, hpl⟩ := tree_linked_parent st1.nodes st1.cursor htr
  by_cases c1 : o.parse_eol = true
  · rw [if_pos c1]
    obtain ⟨x, hx, hall⟩ := bound_decoder 2 hb1
      (decoder_at strconv_cdata strconv_cdata_run st1.buf st1.s (bound_length_le hb1))
      (by decide) (fun l hl k hk => by
        obtain ⟨e0, e1, e2⟩ := hl
        have : k = 0 ∨ k = 1 ∨ k = 2 := by omega
        rcases this with e | e | e <;> subst e
        · rw [e0]; decide
        · rw [e1]; decide
        · rw [e2]; decide)
    rw [hx]
    rcases x with ⟨_ | q, b⟩
    · exact safe_none _ _ _
    · obtain ⟨hlt, hbd⟩ := hall q b rfl
      show parse_safe E junk st1.s
        ((POPNODE { st1 with buf := b, s := q }).map (fun st3 => some { st3 with s := st3.s + 2 }))
      rw [POPNODE_eq { st1 with buf := b, s := q } p hp]
      exact @safe_some _ _ _ { st1 with buf := b, s := q + 2, cursor := p }
        (by show st1.s ≤ q + 2; omega) hbd hpl
  rw [if_neg c1]
  obtain ⟨h1le, h1, h1m⟩ := bound_scanfor3 93 93 62 hb1
  generalize scanfor3 93 93 62 (st1.buf.drop st1.s) st1.s = s1 at h1le h1 h1m ⊢
  by_cases c2 : peek st1.buf s1 = 0
  · rw [if_pos c2]; exact safe_none _ _ _
  rw [if_neg c2]
  by_cases c3 : peek (poke st1.buf s1 0) (s1 + 1) = 0
  · rw [if_pos c3]; exact safe_none _ _ _
  rw [if_neg c3]
  show parse_safe E junk st1.s
    ((POPNODE { st1 with buf := poke st1.buf s1 0, s := s1 + 1 }).map
      (fun st3 => some { st3 with s := st3.s + 2 }))
  rw [POPNODE_eq { st1 with buf := poke st1.buf s1 0, s := s1 + 1 } p hp]
  exact @safe_some _ _ _ { st1 with buf := poke st1.buf s1 0, s := s1 + 1 + 2, cursor := p }
    (by show st1.s ≤ s1 + 1 + 2; omega)
    (bound_poke (bound_next3 h1 c2 (by rw [(h1m c2).2.1]; decide)
      (by rw [(h1m c2).2.2]; decide)) s1 0 (by omega)) hpl

/-- The part of the `DOCTYPE` branch from `LOC_DOCTYPE` on returns when it has
fuel for every byte before the NUL, with the scan pointer not past the NUL. -/
theorem doctype_loop_safe (buf : List Nat) (E : Nat) (junk : List Nat) :
    ∀ n s0, parse_bound E junk buf s0 → E - s0 < n →
      ∃ r, doctype_loop buf n s0 = some r ∧
        ∀ s2, r = some s2 → s0 ≤ s2 ∧ parse_bound E junk buf s2 := by
  intro n
  induction n with
  | zero => intro s0 _ h; exact absurd h (Nat.not_lt_zero _)
  | succ n ih =>
    intro s0 hb hn
    rw [doctype_loop]
    dsimp only
    obtain ⟨h1le, h1⟩ := bound_scanfor1 (fun c => c = 39 ∨ c = 34 ∨ c = 91 ∨ c = 62) hb
    generalize scanfor1 (fun c => decide (c = 39 ∨ c = 34 ∨ c = 91 ∨ c = 62))
      (buf.drop s0) s0 = s at h1le h1 ⊢
    by_cases c1 : peek buf s = 0
    · rw [if_pos c1]; exact ⟨none, rfl, fun _ h => absurd h (by simp)⟩
    rw [if_neg c1]
    have h1n := bound_next h1 c1
    by_cases c2 : peek buf s = 39 ∨ peek buf s = 34
    · rw [if_pos c2]
      obtain ⟨h2le, h2⟩ := bound_scanfor1 (fun c => c = peek buf s) h1n
      generalize scanfor1 (fun c => decide (c = peek buf s)) (buf.drop (s + 1)) (s + 1) = s1
        at h2le h2 ⊢
      by_cases c3 : peek buf s1 = 0
      · rw [if_pos c3]; exact ⟨none, rfl, fun _ h => absurd h (by simp)⟩
      rw [if_neg c3]
      have h3 := bound_next h2 c3
      obtain ⟨r, hr, hall⟩ := ih (s1 + 1) h3 (by have := h3.1; omega)
      exact ⟨r, hr, fun s2 e => ⟨by have := (hall s2 e).1; omega, (hall s2 e).2⟩⟩
    rw [if_neg c2]
    have h4 : s ≤ (if peek buf s = 91 then bracket_loop (buf.drop (s + 1)) (s + 1) 1 else s) ∧
        parse_bound E junk buf
          (if peek buf s = 91 then bracket_loop (buf.drop (s + 1)) (s + 1) 1 else s) := by
      by_cases c4 : peek buf s = 91
      · rw [if_pos c4]
        have := bound_bracket_loop 1 h1n
        exact ⟨by omega, this.2⟩
      · rw [if_neg c4]; exact ⟨le_refl _, h1⟩
    generalize (if peek buf s = 91 then bracket_loop (buf.drop (s + 1)) (s + 1) 1 else s) = s2
      at h4 ⊢
    obtain ⟨h5le, h5⟩ := bound_scanfor1 (fun c => c = 62) h4.2
    generalize scanfor1 (fun c => decide (c = 62)) (buf.drop s2) s2 = s3 at h5le h5 ⊢
    by_cases c5 : peek buf s3 = 0
    · rw [if_pos c5]; exact ⟨none, rfl, fun _ h => absurd h (by simp)⟩
    rw [if_neg c5]
    refine ⟨some (s3 + 1), rfl, fun s4 e => ?_⟩
    have e2 : s3 + 1 = s4 := Option.some.inj e
    rw [← e2]
    exact ⟨by have := h4.1; omega, bound_next h5 c5⟩

/-- The branch `<!...` returns, with the scan pointer not past the NUL. -/
theorem parse_exclam_safe (o : parse_options) (st : parse_state) (E : Nat) (junk : List Nat)
    (hb : parse_bound E junk st.buf st.s) (ht : tree_linked E st.nodes st.cursor) :
    parse_safe E junk st.s (parse_exclam o st) := by
  unfold parse_exclam
  by_cases c1 : peek st.buf st.s = 45
  · rw [if_pos c1]
    by_cases c2 : peek st.buf (st.s + 1) = 45
    · rw [if_pos c2]
      exact safe_mono (parse_comment_safe o { st with s := st.s + 2 } E junk
        (bound_next2 hb (by rw [c1]; decide) (by rw [c2]; decide)) ht) (Nat.le_add_right _ _)
    · rw [if_neg c2]; exact safe_none _ _ _
  rw [if_neg c1]
  by_cases c3 : peek st.buf st.s = 91
  · rw [if_pos c3]
    by_cases c4 : peek st.buf (st.s + 1) = 67 ∧ peek st.buf (st.s + 2) = 68 ∧
        peek st.buf (st.s + 3) = 65 ∧ peek st.buf (st.s + 4) = 84 ∧
        peek st.buf (st.s + 5) = 65 ∧ peek st.buf (st.s + 6) = 91
    · rw [if_pos c4]
      obtain ⟨e1, e2, e3, e4, e5, e6⟩ := c4
      refine safe_mono (parse_cdata_tag_safe o { st with s := st.s + 7 } E junk
        (bound_run hb 7 ?_) ht) (Nat.le_add_right _ _)
      intro j hj
      have : j = 0 ∨ j = 1 ∨ j = 2 ∨ j = 3 ∨ j = 4 ∨ j = 5 ∨ j = 6 := by omega
      rcases this with e | e | e | e | e | e | e <;> subst e
      · rw [Nat.add_zero, c3]; decide
      · rw [e1]; decide
      · rw [e2]; decide
      · rw [e3]; decide
      · rw [e4]; decide
      · rw [e5]; decide
      · rw [e6]; decide
    · rw [if_neg c4]; exact safe_none _ _ _
  rw [if_neg c3]
  by_cases c5 : peek st.buf st.s = 68 ∧ peek st.buf (st.s + 1) = 79 ∧
      peek st.buf (st.s + 2) = 67 ∧ peek st.buf (st.s + 3) = 84 ∧
      peek st.buf (st.s + 4) = 89 ∧ peek st.buf (st.s + 5) = 80 ∧ peek st.buf (st.s + 6) = 69
  · rw [if_pos c5]
    dsimp only
    obtain ⟨e0, e1, e2, e3, e4, e5, e6⟩ := c5
    have h7 : parse_bound E junk st.buf (st.s + 7) := by
      refine bound_run hb 7 ?_
      intro j hj
      have : j = 0 ∨ j = 1 ∨ j = 2 ∨ j = 3 ∨ j = 4 ∨ j = 5 ∨ j = 6 := by omega
      rcases this with e | e | e | e | e | e | e <;> subst e
      · rw [Nat.add_zero, e0]; decide
      · rw [e1]; decide
      · rw [e2]; decide
      · rw [e3]; decide
      · rw [e4]; decide
      · rw [e5]; decide
      · rw [e6]; decide
    obtain ⟨h8le, h8⟩ := bound_skipWhile ct_space (by decide) h7
    generalize skipWhile ct_space (st.buf.drop (st.s + 7)) (st.s + 7) = s1 at h8le h8 ⊢
    by_cases c6 : peek st.buf s1 = 0
    · rw [if_pos c6]; exact safe_none _ _ _
    rw [if_neg c6]
    obtain ⟨r, hr, hall⟩ := doctype_loop_safe st.buf E junk (st.buf.length + 1) s1 h8
      (by have := bound_lt_length hb; omega)
    rw [hr]
    rcases r with _ | s2
    · exact safe_none _ _ _
    · obtain ⟨hle, hbd⟩ := hall s2 rfl
      exact @safe_some _ _ _ { st with s := s2 } (by show st.s ≤ s2; omega) hbd ht
  · rw [if_neg c5]; exact safe_none _ _ _

theorem scanfor1_hit (P : Nat → Bool) (l : List Nat) :
    ∀ s, ∃ i, scanfor1 P l s = s + i ∧ (peek l i ≠ 0 → P (peek l i) = true) := by
  induction l with
  | nil => intro s; exact ⟨0, rfl, fun h => absurd rfl h⟩
  | cons c l ih =>
    intro s
    rw [scanfor1]
    by_cases hc : c = 0
    · rw [if_pos hc]
      exact ⟨0, rfl, fun h => absurd (by rw [peek_cons_zero]; exact hc) h⟩
    · rw [if_neg hc]
      by_cases hP : P c = true
      · rw [if_pos hP]
        exact ⟨0, rfl, fun _ => by rw [peek_cons_zero]; exact hP⟩
      · rw [if_neg hP]
        obtain ⟨i, hi, hm⟩ := ih (s + 1)
        refine ⟨i + 1, by rw [hi]; omega, ?_⟩
        rw [peek_cons_succ]
        exact hm

/-- Where `SCANFOR(X)` stops at a byte other than the NUL, the test holds. -/
theorem bound_scanfor1_hit (P : Nat → Bool) (buf : List Nat) (s : Nat)
    (h : peek buf (scanfor1 P (buf.drop s) s) ≠ 0) :
    P (peek buf (scanfor1 P (buf.drop s) s)) = true := by
  obtain ⟨i, hi, hm⟩ := scanfor1_hit P (buf.drop s) s
  rw [hi] at h ⊢
  rw [← peek_drop] at h ⊢
  exact hm h

/-- The attribute loop returns when it has fuel for every byte before the NUL,
with the scan pointer not past the NUL. -/
theorem parse_attributes_safe (o : parse_options) (E : Nat) (junk : List Nat) :
    ∀ n st, parse_bound E junk st.buf st.s → tree_linked E st.nodes st.cursor → E - st.s < n →
      parse_safe E junk st.s (parse_attributes o n st) := by
  intro n
  induction n with
  | zero => intro st _ _ h; exact absurd h (Nat.not_lt_zero _)
  | succ n ih =>
    intro st hb ht hn
    rw [parse_attributes]
    by_cases c0 : peek st.buf st.s = 0
    · rw [if_pos c0]; exact safe_some (le_refl _) hb ht
    rw [if_neg c0]
    dsimp only
    obtain ⟨h1le, h1⟩ := bound_skipWhile ct_space (by decide) hb
    generalize skipWhile ct_space (st.buf.drop st.s) st.s = s1 at h1le h1 ⊢
    by_cases c1 : peek st.buf s1 = 0
    · rw [if_pos c1]; exact safe_none _ _ _
    rw [if_neg c1]
    by_cases c2 : is_chartype (peek st.buf s1) ct_start_symbol = true
    · rw [if_pos c2]
      obtain ⟨h2le, h2⟩ := bound_skipWhile ct_symbol (by decide) h1
      generalize skipWhile ct_symbol (st.buf.drop s1) s1 = s2 at h2le h2 ⊢
      by_cases c3 : peek st.buf s2 = 0
      · rw [if_pos c3]; exact safe_none _ _ _
      rw [if_neg c3]
      have h3 := bound_endseg h2 c3 0
      generalize poke st.buf s2 0 = buf1 at h3 ⊢
      by_cases c4 : peek buf1 (s2 + 1) = 0
      · rw [if_pos c4]; exact safe_none _ _ _
      rw [if_neg c4]
      by_cases c5 : is_chartype (peek st.buf s2) ct_space = true ∧
          peek buf1 (if is_chartype (peek st.buf s2) ct_space = true then
            skipWhile ct_space (buf1.drop (s2 + 1)) (s2 + 1) else s2 + 1) = 0
      · rw [if_pos c5]; exact safe_none _ _ _
      rw [if_neg c5]
      have h5 : s2 + 1 ≤ (if is_chartype (peek st.buf s2) ct_space = true then
            (if is_chartype (peek st.buf s2) ct_space = true then
              skipWhile ct_space (buf1.drop (s2 + 1)) (s2 + 1) else s2 + 1) + 1 else s2 + 1) ∧
          parse_bound E junk buf1 (if is_chartype (peek st.buf s2) ct_space = true then
            (if is_chartype (peek st.buf s2) ct_space = true then
              skipWhile ct_space (buf1.drop (s2 + 1)) (s2 + 1) else s2 + 1) + 1 else s2 + 1) := by
        by_cases csp : is_chartype (peek st.buf s2) ct_space = true
        · simp only [if_pos csp] at c5 ⊢
          obtain ⟨hle, hbd⟩ := bound_skipWhile ct_space (by decide) h3
          exact ⟨by omega, bound_next hbd (fun e => c5 ⟨csp, e⟩)⟩
        · rw [if_neg csp]; exact ⟨le_refl _, h3⟩
      generalize (if is_chartype (peek st.buf s2) ct_space = true then
            (if is_chartype (peek st.buf s2) ct_space = true then
              skipWhile ct_space (buf1.drop (s2 + 1)) (s2 + 1) else s2 + 1) + 1 else s2 + 1) = s5
        at h5 ⊢
      generalize (if is_chartype (peek st.buf s2) ct_space = true then
          peek buf1 (if is_chartype (peek st.buf s2) ct_space = true then
            skipWhile ct_space (buf1.drop (s2 + 1)) (s2 + 1) else s2 + 1)
          else peek st.buf s2) = ch1
      by_cases c6 : ch1 = 61
      swap
      · rw [if_neg c6]; exact safe_none _ _ _
      rw [if_pos c6]
      obtain ⟨h6le, h6⟩ := bound_skipWhile ct_space (by decide) h5.2
      generalize skipWhile ct_space (buf1.drop s5) s5 = s6 at h6le h6 ⊢
      by_cases c7 : peek buf1 s6 = 0
      · rw [if_pos c7]; exact safe_none _ _ _
      rw [if_neg c7]
      by_cases c8 : peek buf1 s6 = 39 ∨ peek buf1 s6 = 34
      swap
      · rw [if_neg c8]; exact safe_none _ _ _
      rw [if_pos c8]
      obtain ⟨x, hx, hall⟩ := bound_attribute o.parse_escapes o.parse_wnorm_attribute
        o.parse_wconv_attribute o.parse_eol (peek buf1 s6) c7 (bound_next h6 c7)
        (by rcases c8 with e | e <;> rw [e] <;> decide)
      rw [hx]
      rcases x with ⟨_ | p, b⟩
      · exact safe_none _ _ _
      · obtain ⟨hlt, hbd⟩ := hall p b rfl
        dsimp only
        by_cases c9 : is_chartype (peek b p) ct_start_symbol = true
        · rw [if_pos c9]; exact safe_none _ _ _
        rw [if_neg c9]
        have h5le := h5.1
        refine safe_mono (ih _ hbd ?_ ?_) (by show st.s ≤ p; omega)
        · exact tree_linked_attribute st.nodes st.attrs st.cursor ht
        · show E - p < n
          have := hbd.1
          omega
    rw [if_neg c2]
    by_cases c10 : peek st.buf s1 = 47
    · rw [if_pos c10]
      by_cases c11 : peek st.buf (s1 + 1) ≠ 62
      · rw [if_pos c11]; exact safe_none _ _ _
      rw [if_neg c11]
      exact @safe_pop _ _ _ { st with s := s1 + 2 } (by show st.s ≤ s1 + 2; omega)
        (bound_next2 h1 c1 (by rw [not_not.mp c11]; decide)) ht
    rw [if_neg c10]
    by_cases c12 : peek st.buf s1 = 62
    · rw [if_pos c12]
      exact @safe_some _ _ _ { st with s := s1 + 1 } (by show st.s ≤ s1 + 1; omega)
        (bound_next h1 c1) ht
    · rw [if_neg c12]; exact safe_none _ _ _

/-- The branch of a start tag returns, with the scan pointer not past the NUL. -/
theorem parse_element_safe (o : parse_options) (st : parse_state) (E : Nat) (junk : List Nat)
    (hb : parse_bound E junk st.buf st.s) (ht : tree_linked E st.nodes st.cursor) :
    parse_safe E junk st.s (parse_element o st) := by
  unfold parse_element
  dsimp only
  have htr := tree_linked_name _ (some st.s)
    (fun q e => by rw [← Option.some.inj e]; exact hb.1) (tree_linked_pushnode st node_element ht)
  obtain ⟨h1le, h1⟩ := bound_skipWhile ct_symbol (by decide) hb
  generalize skipWhile ct_symbol (st.buf.drop st.s) st.s = s1 at h1le h1 ⊢
  by_cases c1 : peek st.buf s1 = 0
  · rw [if_pos c1]; exact safe_none _ _ _
  rw [if_neg c1]
  have h2 := bound_endseg h1 c1 0
  by_cases c2 : peek (poke st.buf s1 0) (s1 + 1) = 0
  · rw [if_pos c2]; exact safe_none _ _ _
  rw [if_neg c2]
  by_cases c3 : peek st.buf s1 = 47
  · rw [if_pos c3]
    by_cases c4 : peek (poke st.buf s1 0) (s1 + 1) ≠ 62
    · rw [if_pos c4]; exact safe_none _ _ _
    rw [if_neg c4]
    exact @safe_pop _ _ _
      { set_cursor_name (PUSHNODE st node_element) (some st.s) with
        buf := poke st.buf s1 0, s := s1 + 1 + 1 }
      (by show st.s ≤ s1 + 1 + 1; omega) (bound_next h2 c2) htr
  rw [if_neg c3]
  by_cases c5 : peek st.buf s1 = 62
  · rw [if_pos c5]
    exact @safe_some _ _ _
      { set_cursor_name (PUSHNODE st node_element) (some st.s) with
        buf := poke st.buf s1 0, s := s1 + 1 }
      (by show st.s ≤ s1 + 1; omega) h2 htr
  rw [if_neg c5]
  by_cases c6 : is_chartype (peek st.buf s1) ct_space = true
  · rw [if_pos c6]
    refine safe_mono (parse_attributes_safe o E junk _
      { set_cursor_name (PUSHNODE st node_element) (some st.s) with
        buf := poke st.buf s1 0, s := s1 + 1 } h2 htr ?_) (by show st.s ≤ s1 + 1; omega)
    show E - (s1 + 1) < (poke st.buf s1 0).length + 1
    have := bound_lt_length h2
    omega
  · rw [if_neg c6]; exact safe_none _ _ _

/-- The branch of a closing tag returns, with the scan pointer not past the
NUL. -/
theorem parse_close_safe (st : parse_state) (E : Nat) (junk : List Nat)
    (hb : parse_bound E junk st.buf st.s) (ht : tree_linked E st.nodes st.cursor) :
    parse_safe E junk st.s (parse_close st) := by
  unfold parse_close
  generalize (node_at st.nodes st.cursor).name = nm
  rcases nm with _ | name
  · exact safe_none _ _ _
  dsimp only
  generalize hcl : close_loop st.buf (st.buf.drop st.s) st.s name = cl
  rcases cl with _ | ⟨s1, name1⟩
  · exact safe_none _ _ _
  dsimp only
  obtain ⟨h1le, h1⟩ := bound_close_loop name s1 name1 hb hcl
  by_cases c1 : peek st.buf name1 ≠ 0
  · rw [if_pos c1]; exact safe_none _ _ _
  rw [if_neg c1]
  obtain ⟨p, hp, hpl⟩ := tree_linked_parent st.nodes st.cursor ht
  rw [POPNODE_eq st p hp]
  dsimp only
  obtain ⟨h2le, h2⟩ := bound_skipWhile ct_space (by decide) h1
  generalize skipWhile ct_space (st.buf.drop s1) s1 = s2 at h2le h2 ⊢
  by_cases c2 : peek st.buf s2 = 0
  · rw [if_pos c2]; exact safe_none _ _ _
  rw [if_neg c2]
  by_cases c3 : peek st.buf s2 ≠ 62
  · rw [if_pos c3]; exact safe_none _ _ _
  rw [if_neg c3]
  exact @safe_some _ _ _ { st with cursor := p, s := s2 + 1 } (by show st.s ≤ s2 + 1; omega)
    (bound_next h2 c2) hpl

/-- The code from `LOC_TAG` on returns, with the scan pointer not past the
NUL. -/
theorem parse_tag_safe (o : parse_options) (st : parse_state) (E : Nat) (junk : List Nat)
    (hb : parse_bound E junk st.buf st.s) (ht : tree_linked E st.nodes st.cursor) :
    parse_safe E junk st.s (parse_tag o st) := by
  unfold parse_tag
  by_cases c1 : peek st.buf st.s = 63
  · rw [if_pos c1]
    exact safe_mono (parse_pi_tag_safe o { st with s := st.s + 1 } E junk
      (bound_next hb (by rw [c1]; decide)) ht) (Nat.le_add_right _ _)
  rw [if_neg c1]
  by_cases c2 : peek st.buf st.s = 33
  · rw [if_pos c2]
    exact safe_mono (parse_exclam_safe o { st with s := st.s + 1 } E junk
      (bound_next hb (by rw [c2]; decide)) ht) (Nat.le_add_right _ _)
  rw [if_neg c2]
  by_cases c3 : is_chartype (peek st.buf st.s) ct_start_symbol = true
  · rw [if_pos c3]
    exact parse_element_safe o st E junk hb ht
  rw [if_neg c3]
  by_cases c4 : peek st.buf st.s = 47
  · rw [if_pos c4]
    exact safe_mono (parse_close_safe { st with s := st.s + 1 } E junk
      (bound_next hb (by rw [c4]; decide)) ht) (Nat.le_add_right _ _)
  · rw [if_neg c4]; exact safe_none _ _ _

/-- The main loop returns when it has fuel for every byte before the NUL, with
the scan pointer not past the NUL. -/
theorem parse_loop_safe (o : parse_options) (E : Nat) (junk : List Nat) :
    ∀ n st, parse_bound E junk st.buf st.s → tree_linked E st.nodes st.cursor → E - st.s < n →
      parse_safe E junk st.s (parse_loop o n st) := by
  intro n
  induction n with
  | zero => intro st _ _ h; exact absurd h (Nat.not_lt_zero _)
  | succ n ih =>
    intro st hb ht hn
    have after_tag : ∀ (st0 : parse_state), st.s < st0.s ∨ peek st0.buf st0.s = 60 →
        st.s ≤ st0.s →
        parse_bound E junk st0.buf st0.s → tree_linked E st0.nodes st0.cursor →
        parse_safe E junk st.s
          (match parse_tag o st0 with
            | some (some st1) => parse_loop o n st1
            | some none => some none
            | none => none) := by
      intro st0 hlt hle hb0 ht0
      rcases hlt with hlt | hlt
      · obtain ⟨x, hx, hall⟩ := parse_tag_safe o st0 E junk hb0 ht0
        rw [hx]
        rcases x with _ | st1
        · exact safe_none _ _ _
        · obtain ⟨h1, h2, h3⟩ := hall st1 rfl
          exact safe_mono (ih st1 h2 h3 (by have := h2.1; omega)) (by omega)
      · rw [parse_tag_at_lt o st0 hlt]
        exact safe_none _ _ _
    rw [parse_loop]
    by_cases c0 : peek st.buf st.s = 0
    · rw [if_pos c0]; exact safe_some (le_refl _) hb ht
    rw [if_neg c0]
    by_cases c1 : peek st.buf st.s = 60
    · rw [if_pos c1]
      exact after_tag { st with s := st.s + 1 } (Or.inl (Nat.lt_succ_self _))
        (Nat.le_add_right _ _) (bound_next hb c0) ht
    rw [if_neg c1]
    dsimp only
    obtain ⟨h1le, h1⟩ := bound_skipWhile ct_space (by decide) hb
    by_cases c2 : (st.s = skipWhile ct_space (st.buf.drop st.s) st.s ∨ o.parse_ws_pcdata = false) ∧
        (peek st.buf (skipWhile ct_space (st.buf.drop st.s) st.s) = 0 ∨
          peek st.buf (skipWhile ct_space (st.buf.drop st.s) st.s) = 60)
    · rw [if_pos c2]
      have hne : st.s ≠ skipWhile ct_space (st.buf.drop st.s) st.s := by
        intro e
        rw [← e] at c2
        rcases c2.2 with e0 | e0
        · exact c0 e0
        · exact c1 e0
      refine safe_mono (ih { st with s := skipWhile ct_space (st.buf.drop st.s) st.s } h1 ht ?_)
        h1le
      show E - skipWhile ct_space (st.buf.drop st.s) st.s < n
      have := h1.1
      omega
    rw [if_neg c2]
    by_cases c3 : o.parse_ext_pcdata = true ∨ (node_at st.nodes st.cursor).type ≠ node_document
    · rw [if_pos c3]
      have htr := tree_linked_value _ (some st.s) (tree_linked_pushnode st node_pcdata ht)
      obtain ⟨x, hx, hall⟩ := bound_decoder 0 hb
        (decoder_at (strconv_pcdata o.parse_escapes o.parse_eol)
          (strconv_pcdata_run o.parse_escapes o.parse_eol) st.buf st.s (bound_length_le hb))
        (le_refl 1) (fun l hl k hk => by
          have hk0 : k = 0 := by omega
          rw [hk0, ← rd_eq_peek, hl]
          decide)
      have hx2 : strconv_pcdata o.parse_escapes o.parse_eol
          (set_cursor_value (PUSHNODE st node_pcdata) (some st.s)).buf st.s = some x := hx
      rw [hx2]
      rcases x with ⟨_ | p, b⟩
      · exact safe_none _ _ _
      · obtain ⟨hlt, hbd⟩ := hall p b rfl
        dsimp only
        obtain ⟨q, hq, hql⟩ := tree_linked_parent _ _ htr
        rw [POPNODE_eq { set_cursor_value (PUSHNODE st node_pcdata) (some st.s) with
          buf := b, s := p } q hq]
        dsimp only
        exact after_tag { set_cursor_value (PUSHNODE st node_pcdata) (some st.s) with
          buf := b, s := p, cursor := q } (Or.inl hlt) (Nat.le_of_lt hlt) hbd hql
    rw [if_neg c3]
    obtain ⟨h2le, h2⟩ := bound_scanfor1 (fun c => c = 60) hb
    have h2hit := bound_scanfor1_hit (fun c => c = 60) st.buf st.s
    generalize scanfor1 (fun c => decide (c = 60)) (st.buf.drop st.s) st.s = s2
      at h2le h2 h2hit ⊢
    by_cases c4 : peek st.buf s2 = 0
    · rw [if_pos c4]
      exact @safe_some _ _ _ { st with s := s2 } h2le h2 ht
    rw [if_neg c4]
    exact after_tag { st with s := s2 } (Or.inr (by simpa using h2hit c4)) h2le h2 ht

/-- `parse` returns, and when it returns `true` the scan pointer is not past
the NUL. -/
theorem parse_returns (o : parse_options) (st : parse_state) (s0 doc E : Nat) (junk : List Nat)
    (hs : s0 ≤ E) (hb : st.buf.drop E = 0 :: junk) (ht : tree_linked E st.nodes doc) :
    parse_safe E junk s0 (parse o st (some s0) (some doc)) := by
  unfold parse
  dsimp only
  have hbd : parse_bound E junk st.buf s0 := ⟨hs, hb⟩
  obtain ⟨x, hx, hall⟩ := parse_loop_safe o E junk (st.buf.length + 1)
    { st with s := s0, cursor := doc } hbd ht
    (by show E - s0 < st.buf.length + 1; have := bound_lt_length hbd; omega)
  rw [hx]
  rcases x with _ | st1
  · exact safe_none _ _ _
  · dsimp only
    by_cases c : st1.cursor ≠ doc
    · rw [if_pos c]; exact safe_none _ _ _
    · rw [if_neg c]
      obtain ⟨h1, h2, h3⟩ := hall st1 rfl
      exact safe_some h1 h2 h3

/-- The document that `xml_document::parse` starts from is linked. -/
theorem tree_linked_document (E : Nat) :
    tree_linked E [{ xml_node_struct.new node_document with parent := some 0 }] 0 := by
  refine ⟨by decide, ?_, ?_⟩
  · intro j hj
    have : j = 0 := by simpa using hj
    subst this
    exact ⟨0, rfl, by decide⟩
  · intro j p h
    rcases j with _ | j
    · exact Option.noConfusion (show (none : Option Nat) = some p from h)
    · exact Option.noConfusion (show (none : Option Nat) = some p from h)

/-- The pointer that `strconv_escape` returns is after the `'&'` and after `k`
bytes of which none is the NUL. -/
theorem strconv_escape_bound {pre out r buf : List Nat} {s : Nat} {g : gap}
    (h : GapInv pre out (38 :: r) buf s g) :
    ∃ k, (strconv_escape buf s g).2.1 = s + 1 + k ∧ k ≤ r.length ∧ ∀ x ∈ r.take k, x ≠ 0 := by
  obtain ⟨_, k, hk, hb, hp, _⟩ := strconv_escape_step h
  exact ⟨k, hp, hk, fun x hx => (hb x hx).not_nul⟩

/-! ### The bytes after the NUL take no part -/

theorem bound_length {E : Nat} {B : List Nat} {s : Nat} (h : parse_bound E [] B s) :
    B.length = E + 1 := by
  have := congrArg List.length h.2
  rw [List.length_drop, List.length_cons, List.length_nil] at this
  omega

theorem peek_tail (B t : List Nat) (i : Nat) (h : i < B.length) :
    peek (B ++ t) i = peek B i := peek_append_left B t i h

theorem poke_tail (B t : List Nat) (i v : Nat) (h : i < B.length) :
    poke (B ++ t) i v = poke B i v ++ t := by
  unfold poke
  rw [List.set_append, if_pos h]

theorem drop_tail (B t : List Nat) (s : Nat) (h : s ≤ B.length) :
    (B ++ t).drop s = B.drop s ++ t := List.drop_append_of_le_length h

theorem memmove_tail (B t : List Nat) (dst src n : Nat) (h1 : src + n ≤ B.length)
    (h2 : dst ≤ src) : memmove (B ++ t) dst src n = memmove B dst src n ++ t := by
  unfold memmove
  rw [List.take_append_of_le_length (by omega), drop_tail B t src (by omega),
    List.take_append_of_le_length (by rw [List.length_drop]; omega),
    drop_tail B t (dst + n) (by omega)]
  simp

theorem memmove_drop (B : List Nat) (dst src n k : Nat) (h1 : src + n ≤ B.length)
    (h2 : dst ≤ src) (hk : dst + n ≤ k) : (memmove B dst src n).drop k = B.drop k := by
  unfold memmove
  have e1 : (B.take dst).length = dst := by rw [List.length_take]; omega
  have e2 : ((B.drop src).take n).length = n := by
    rw [List.length_take, List.length_drop]; omega
  have e : List.take dst B ++ (List.take n (List.drop src B) ++ List.drop (dst + n) B) =
      (List.take dst B ++ List.take n (List.drop src B)) ++ List.drop (dst + n) B := by simp
  rw [e, List.drop_append_eq_append_drop, List.drop_eq_nil_of_le (by
    rw [List.length_append, e1, e2]; exact hk), List.nil_append, List.length_append, e1, e2,
    List.drop_drop]
  congr 1
  omega

/-- A byte written before the NUL. -/
theorem bound_poke_lt {E : Nat} {junk buf : List Nat} {s : Nat} (h : parse_bound E junk buf s)
    (i v : Nat) (hi : i < E) : parse_bound E junk (poke buf i v) s := by
  refine ⟨h.1, ?_⟩
  unfold poke
  rw [List.drop_set_of_lt _ _ hi]
  exact h.2

theorem push_fst (g : gap) (buf : List Nat) (s count : Nat) :
    (g.push buf s count).1 =
      match g.end_ with
      | some e => memmove buf (e - g.size) e (s - e)
      | none => buf := rfl

theorem push_snd (g : gap) (buf : List Nat) (s count : Nat) :
    (g.push buf s count).2 = (s + count, { end_ := some (s + count), size := g.size + count }) :=
  rfl

/-- `gap::push` on a buffer with bytes after its end. -/
theorem push_tail (g : gap) (B t : List Nat) (s count : Nat) (hs : s ≤ B.length)
    (hg : gap_ok g s) :
    g.push (B ++ t) s count =
      ((g.push B s count).1 ++ t, (g.push B s count).2.1, (g.push B s count).2.2) := by
  refine Prod.ext ?_ rfl
  rw [push_fst, push_fst]
  cases he : g.end_ with
  | none => rfl
  | some e =>
    have := hg e he
    exact memmove_tail B t _ _ _ (by omega) (Nat.sub_le _ _)

/-- `gap::push` keeps the NUL and what stands after it. -/
theorem bound_push {E : Nat} {junk B : List Nat} {s : Nat} (g : gap) (count : Nat)
    (h : parse_bound E junk B (s + count)) (hg : gap_ok g s) :
    parse_bound E junk (g.push B s count).1 (g.push B s count).2.1 ∧
      gap_ok (g.push B s count).2.2 (g.push B s count).2.1 := by
  have hl := bound_lt_length h
  have h1 := h.1
  refine ⟨⟨h.1, ?_⟩, fun e he => ?_⟩
  · rw [push_fst]
    cases he : g.end_ with
    | none => exact h.2
    | some e =>
      have := hg e he
      show (memmove B (e - g.size) e (s - e)).drop E = 0 :: junk
      rw [memmove_drop B _ _ _ E (by omega) (Nat.sub_le _ _) (by omega)]
      exact h.2
  · have e1 : some (s + count) = some e := he
    have := Option.some.inj e1
    show e ≤ s + count
    omega

theorem flush_fst (g : gap) (buf : List Nat) (s : Nat) :
    (g.flush buf s).1 =
      match g.end_ with
      | some e => memmove buf (e - g.size) e (s - e)
      | none => buf := by
  unfold gap.flush
  cases g.end_ <;> rfl

theorem flush_snd_le (g : gap) (buf : List Nat) (s : Nat) : (g.flush buf s).2 ≤ s := by
  unfold gap.flush
  split
  · exact Nat.sub_le _ _
  · exact le_refl _

/-- `gap::flush` on a buffer with bytes after its end. -/
theorem flush_tail (g : gap) (B t : List Nat) (s : Nat) (hs : s ≤ B.length) (hg : gap_ok g s) :
    g.flush (B ++ t) s = ((g.flush B s).1 ++ t, (g.flush B s).2) := by
  unfold gap.flush
  cases he : g.end_ with
  | none => rfl
  | some e =>
    have := hg e he
    dsimp only
    rw [memmove_tail B t _ _ _ (by omega) (Nat.sub_le _ _)]

/-- `gap::flush` keeps the NUL and what stands after it. -/
theorem bound_flush {E : Nat} {junk B : List Nat} {s : Nat} (g : gap)
    (h : parse_bound E junk B s) (hg : gap_ok g s) :
    parse_bound E junk (g.flush B s).1 s := by
  have hl := bound_lt_length h
  have h1 := h.1
  refine ⟨h.1, ?_⟩
  rw [flush_fst]
  cases he : g.end_ with
  | none => exact h.2
  | some e =>
    have := hg e he
    show (memmove B (e - g.size) e (s - e)).drop E = 0 :: junk
    rw [memmove_drop B _ _ _ E (by omega) (Nat.sub_le _ _) (by omega)]
    exact h.2

theorem gap_ok_le {g : gap} {s s1 : Nat} (h : gap_ok g s) (hs : s ≤ s1) : gap_ok g s1 :=
  fun e he => Nat.le_trans (h e he) hs

theorem gap_ok_init (s : Nat) : gap_ok { end_ := none, size := 0 } s :=
  fun e he => absurd he (by simp)

/-- The bytes from the scan pointer on end with the NUL, and with the bytes `t`
after the buffer they go on with `t`. -/
theorem bound_split {E : Nat} {B : List Nat} {s : Nat} (t : List Nat)
    (h : parse_bound E [] B s) :
    ∃ l0, l0.length = E - s ∧ B.drop s = l0 ++ [0] ∧ (B ++ t).drop s = l0 ++ 0 :: t := by
  have hl := bound_length h
  have h1 := h.1
  have e : B.drop s = (B.drop s).take (E - s) ++ [0] := by
    conv_lhs => rw [← List.take_append_drop (E - s) (B.drop s)]
    rw [List.drop_drop, show s + (E - s) = E by omega, h.2]
  refine ⟨(B.drop s).take (E - s), by rw [List.length_take, List.length_drop]; omega, e, ?_⟩
  rw [drop_tail B t s (by omega)]
  conv_lhs => rw [e]
  simp

/-- A scan that gives the same on `l0 ++ 0 :: t` as on `l0 ++ [0]` gives the
same on the buffer with the bytes `t` after its end. -/
theorem scan_tail {α : Type} {E : Nat} {B : List Nat} {s : Nat} (t : List Nat)
    (f : List Nat → α) (hf : ∀ l0 : List Nat, f (l0 ++ 0 :: t) = f (l0 ++ [0]))
    (h : parse_bound E [] B s) : f ((B ++ t).drop s) = f (B.drop s) := by
  obtain ⟨l0, _, e1, e2⟩ := bound_split t h
  rw [e1, e2]
  exact hf l0

theorem skipWhile_tail (ct : Nat) (h0 : is_chartype 0 ct = false) (t : List Nat) :
    ∀ (l0 : List Nat) (s : Nat), skipWhile ct (l0 ++ 0 :: t) s = skipWhile ct (l0 ++ [0]) s := by
  intro l0
  induction l0 with
  | nil => intro s; simp [skipWhile, h0]
  | cons c l ih =>
    intro s
    rw [List.cons_append, List.cons_append, skipWhile, skipWhile, ih]

theorem skipTo_tail (ct : Nat) (h0 : is_chartype 0 ct = true) (t : List Nat) :
    ∀ (l0 : List Nat) (s : Nat), skipTo ct (l0 ++ 0 :: t) s = skipTo ct (l0 ++ [0]) s := by
  intro l0
  induction l0 with
  | nil => intro s; simp [skipTo, h0]
  | cons c l ih =>
    intro s
    rw [List.cons_append, List.cons_append, skipTo, skipTo, ih]

theorem scanfor1_tail (P : Nat → Bool) (t : List Nat) :
    ∀ (l0 : List Nat) (s : Nat), scanfor1 P (l0 ++ 0 :: t) s = scanfor1 P (l0 ++ [0]) s := by
  intro l0
  induction l0 with
  | nil => intro s; simp [scanfor1]
  | cons c l ih =>
    intro s
    rw [List.cons_append, List.cons_append, scanfor1, scanfor1, ih]

theorem rd_tail (t : List Nat) (l0 : List Nat) : rd (l0 ++ 0 :: t) = rd (l0 ++ [0]) := by
  cases l0 <;> rfl

theorem scanfor2_tail (a b : Nat) (t : List Nat) :
    ∀ (l0 : List Nat) (s : Nat),
      scanfor2 a b (l0 ++ 0 :: t) s = scanfor2 a b (l0 ++ [0]) s := by
  intro l0
  induction l0 with
  | nil => intro s; simp [scanfor2]
  | cons c l ih =>
    intro s
    rw [List.cons_append, List.cons_append, scanfor2, scanfor2, ih, rd_tail]

theorem scanfor3_tail (a b c : Nat) (hb : b ≠ 0) (t : List Nat) :
    ∀ (l0 : List Nat) (s : Nat),
      scanfor3 a b c (l0 ++ 0 :: t) s = scanfor3 a b c (l0 ++ [0]) s := by
  intro l0
  induction l0 with
  | nil => intro s; simp [scanfor3]
  | cons x l ih =>
    intro s
    rw [List.cons_append, List.cons_append, scanfor3, scanfor3, ih, rd_tail]
    cases l with
    | nil =>
      have e1 : rd ([] ++ [0]) = 0 := rfl
      rw [e1]
      have : ∀ q : Prop, (x = a ∧ 0 = b ∧ q) ↔ False :=
        fun q => ⟨fun h => hb h.2.1.symm, False.elim⟩
      simp only [this]
    | cons y l2 =>
      have e1 : (y :: l2 ++ 0 :: t).tail = l2 ++ 0 :: t := rfl
      have e2 : (y :: l2 ++ [0]).tail = l2 ++ [0] := rfl
      rw [e1, e2, rd_tail t l2]

theorem bracket_loop_tail (t : List Nat) :
    ∀ (l0 : List Nat) (s bd : Nat),
      bracket_loop (l0 ++ 0 :: t) s bd = bracket_loop (l0 ++ [0]) s bd := by
  intro l0
  induction l0 with
  | nil => intro s bd; simp [bracket_loop]
  | cons c l ih =>
    intro s bd
    rw [List.cons_append, List.cons_append, bracket_loop, bracket_loop]
    simp only [ih]

theorem dec_loop_tail (t : List Nat) :
    ∀ (l0 : List Nat) (s u : Nat), dec_loop (l0 ++ 0 :: t) s u = dec_loop (l0 ++ [0]) s u := by
  intro l0
  induction l0 with
  | nil => intro s u; simp [dec_loop]
  | cons c l ih =>
    intro s u
    rw [List.cons_append, List.cons_append, dec_loop, dec_loop, ih]

theorem hex_loop_tail (t : List Nat) :
    ∀ (l0 : List Nat) (s u : Nat), hex_loop (l0 ++ 0 :: t) s u = hex_loop (l0 ++ [0]) s u := by
  intro l0
  induction l0 with
  | nil => intro s u; simp [hex_loop]
  | cons c l ih =>
    intro s u
    rw [List.cons_append, List.cons_append, hex_loop, hex_loop]
    simp only [ih]

theorem bound_take {E : Nat} {junk B : List Nat} {s : Nat} (h : parse_bound E junk B s)
    (j : Nat) (hj : j ≤ (B.drop s).length) (hz : ∀ c ∈ (B.drop s).take j, c ≠ 0) :
    parse_bound E junk B (s + j) := by
  refine bound_run h j (fun i hi => ?_)
  have := hz _ (rd_drop_mem_take (B.drop s) i j hi hj)
  rw [rd_drop, peek_drop] at this
  exact this

theorem poke_length (B : List Nat) (i v : Nat) : (poke B i v).length = B.length :=
  List.length_set _ _ _

theorem strutf16_utf8_length (B : List Nat) (s ch : Nat) :
    (strutf16_utf8 B s ch).1.length = B.length := by
  unfold strutf16_utf8 utf8_first utf8_cont
  split_ifs <;> simp only [poke_length]

/-- `strutf16_utf8` on a buffer with bytes after its end, when what it writes
is inside the buffer. -/
theorem strutf16_utf8_tail (B t : List Nat) (s ch : Nat)
    (h : (strutf16_utf8 B s ch).2 ≤ B.length) :
    strutf16_utf8 (B ++ t) s ch = ((strutf16_utf8 B s ch).1 ++ t, (strutf16_utf8 B s ch).2) := by
  rw [strutf16_utf8_written] at h
  unfold strutf16_utf8 utf8_first utf8_cont
  dsimp only
  split_ifs with h1 h2 h3 h4
  · rw [if_pos h1] at h
    rw [poke_tail _ _ _ _ (by omega)]
  · rw [if_neg h1, if_pos h2] at h
    rw [poke_tail _ _ _ _ (by omega), poke_tail _ _ _ _ (by rw [poke_length]; omega)]
  · rw [if_neg h1, if_neg h2, if_pos h3] at h
    rw [poke_tail _ _ _ _ (by omega), poke_tail _ _ _ _ (by rw [poke_length]; omega),
      poke_tail _ _ _ _ (by rw [poke_length, poke_length]; omega)]
  · rw [if_neg h1, if_neg h2, if_neg h3, if_pos h4] at h
    rw [poke_tail _ _ _ _ (by omega), poke_tail _ _ _ _ (by rw [poke_length]; omega),
      poke_tail _ _ _ _ (by rw [poke_length, poke_length]; omega),
      poke_tail _ _ _ _ (by rw [poke_length, poke_length, poke_length]; omega)]
  · rfl

/-- `strutf16_utf8` keeps the NUL and what stands after it when what it writes
is before the NUL. -/
theorem bound_strutf16_utf8 {E : Nat} {junk B : List Nat} {s0 : Nat} (s ch : Nat)
    (hb : parse_bound E junk B s0) (h : (strutf16_utf8 B s ch).2 ≤ E) :
    parse_bound E junk (strutf16_utf8 B s ch).1 s0 := by
  rw [strutf16_utf8_written] at h
  unfold strutf16_utf8 utf8_first utf8_cont
  dsimp only
  split_ifs with h1 h2 h3 h4
  · rw [if_pos h1] at h
    exact bound_poke_lt hb _ _ (by omega)
  · rw [if_neg h1, if_pos h2] at h
    exact bound_poke_lt (bound_poke_lt hb _ _ (by omega)) _ _ (by omega)
  · rw [if_neg h1, if_neg h2, if_pos h3] at h
    exact bound_poke_lt (bound_poke_lt (bound_poke_lt hb _ _ (by omega)) _ _ (by omega)) _ _
      (by omega)
  · rw [if_neg h1, if_neg h2, if_neg h3, if_pos h4] at h
    exact bound_poke_lt (bound_poke_lt (bound_poke_lt (bound_poke_lt hb _ _ (by omega)) _ _
      (by omega)) _ _ (by omega)) _ _ (by omega)
  · exact hb

theorem strutf16_utf8_ge (B : List Nat) (s ch : Nat) : s ≤ (strutf16_utf8 B s ch).2 := by
  rw [strutf16_utf8_written]
  omega

/-- The chain of comparisons on a buffer with bytes after its end. -/
theorem match_seq_tail {E : Nat} {B : List Nat} (t : List Nat) (pat : List Nat)
    (hpat : ∀ c ∈ pat, c ≠ 0) :
    ∀ stre, parse_bound E [] B (stre + 1) →
      match_seq (B ++ t) stre pat = match_seq B stre pat := by
  induction pat with
  | nil => intro stre _; rfl
  | cons c cs ih =>
    intro stre hb
    have hl := bound_length hb
    have h1 := hb.1
    rw [match_seq, match_seq, peek_tail B t (stre + 1) (by omega)]
    by_cases hp : peek B (stre + 1) = c
    · rw [if_pos hp, if_pos hp]
      exact ih (fun x hx => hpat x (List.mem_cons_of_mem _ hx)) (stre + 1)
        (bound_next hb (by rw [hp]; exact hpat c (List.mem_cons_self _ _)))
    · rw [if_neg hp, if_neg hp]

/-- The chain of comparisons stops before the NUL or at it, and when every
comparison has held it stops at a byte of the pattern. -/
theorem bound_match_seq {E : Nat} {junk B : List Nat} (pat : List Nat)
    (hpat : ∀ c ∈ pat, c ≠ 0) (hne : pat ≠ []) :
    ∀ stre, parse_bound E junk B (stre + 1) →
      stre < (match_seq B stre pat).1 ∧ parse_bound E junk B (match_seq B stre pat).1 ∧
      ((match_seq B stre pat).2 = true → peek B (match_seq B stre pat).1 ≠ 0) := by
  induction pat with
  | nil => exact absurd rfl hne
  | cons c cs ih =>
    intro stre hb
    have hc : c ≠ 0 := hpat c (List.mem_cons_self _ _)
    rw [match_seq]
    by_cases hp : peek B (stre + 1) = c
    · rw [if_pos hp]
      cases cs with
      | nil =>
        exact ⟨Nat.lt_succ_self _, hb, fun _ => by
          show peek B (stre + 1) ≠ 0
          rw [hp]; exact hc⟩
      | cons d ds =>
        obtain ⟨h1, h2, h3⟩ := ih (fun x hx => hpat x (List.mem_cons_of_mem _ hx))
          (List.cons_ne_nil _ _) (stre + 1) (bound_next hb (by rw [hp]; exact hc))
        exact ⟨by omega, h2, h3⟩
    · rw [if_neg hp]
      exact ⟨Nat.lt_succ_self _, hb, fun h => absurd h (by simp)⟩

/-- The tail of a reference that is cancelled. -/
theorem step_tail_cancel {E : Nat} {B : List Nat} (t : List Nat) {s p : Nat} {g : gap}
    (hlt : s < p) (hb : parse_bound E [] B p) (hg : gap_ok g s) :
    step_tail E t s (B ++ t, p, g) (B, p, g) :=
  ⟨rfl, hlt, hb, gap_ok_le hg (Nat.le_of_lt hlt)⟩

/-- The tail of a named reference on a buffer with bytes after its end. -/
theorem escape_named_tail {E : Nat} {B : List Nat} (t : List Nat) {s : Nat} {g : gap}
    (stre c : Nat) (hb : parse_bound E [] B s) (hs0 : peek B s ≠ 0) (hg : gap_ok g s)
    (hst : s ≤ stre) (hbs : parse_bound E [] B (stre + 1)) :
    step_tail E t s (escape_named (B ++ t) s g stre c) (escape_named B s g stre c) := by
  have hl := bound_length hb
  have h1 := (bound_next hb hs0).1
  have hcnt : s + 1 + (stre + 1 - (s + 1)) = stre + 1 := by omega
  have hbp : parse_bound E [] (poke B s c) (s + 1 + (stre + 1 - (s + 1))) := by
    rw [hcnt]
    exact bound_poke_lt hbs s c (by omega)
  obtain ⟨hp1, hp2⟩ := bound_push g (stre + 1 - (s + 1)) hbp (gap_ok_le hg (Nat.le_succ s))
  unfold escape_named
  dsimp only
  rw [poke_tail B t s c (by omega),
    push_tail g (poke B s c) t (s + 1) _ (by rw [poke_length]; omega)
      (gap_ok_le hg (Nat.le_succ s))]
  refine ⟨rfl, by show s < stre + 1; omega, ?_, ?_⟩
  · have := hp1
    rw [push_snd] at this
    dsimp only at this
    rw [hcnt] at this
    exact this
  · have := hp2
    rw [push_snd] at this
    dsimp only at this
    rw [hcnt] at this
    rw [push_snd]
    dsimp only
    rw [hcnt]
    exact this

/-- The tail of a numeric reference on a buffer with bytes after its end. -/
theorem escape_numeric_tail {E : Nat} {B : List Nat} (t : List Nat) {s : Nat} {g : gap}
    (stre ucsc : Nat) (hg : gap_ok g s) (hlt : s < stre)
    (hw : (strutf16_utf8 B s ucsc).2 ≤ stre) (hbs : parse_bound E [] B stre) :
    step_tail E t s (escape_numeric (B ++ t) s g stre ucsc) (escape_numeric B s g stre ucsc) := by
  have hl := bound_length hbs
  have h1 := hbs.1
  have hge := strutf16_utf8_ge B s ucsc
  have hcnt : (strutf16_utf8 B s ucsc).2 + (stre - (strutf16_utf8 B s ucsc).2) = stre := by
    omega
  have hbw : parse_bound E [] (strutf16_utf8 B s ucsc).1
      ((strutf16_utf8 B s ucsc).2 + (stre - (strutf16_utf8 B s ucsc).2)) := by
    rw [hcnt]
    exact bound_strutf16_utf8 s ucsc hbs (by omega)
  obtain ⟨hp1, hp2⟩ := bound_push g (stre - (strutf16_utf8 B s ucsc).2) hbw (gap_ok_le hg hge)
  unfold escape_numeric
  dsimp only
  rw [strutf16_utf8_tail B t s ucsc (by omega)]
  dsimp only
  rw [push_tail g (strutf16_utf8 B s ucsc).1 t _ _ (by rw [strutf16_utf8_length]; omega)
    (gap_ok_le hg hge)]
  refine ⟨rfl, hlt, ?_, ?_⟩
  · have := hp1
    rw [push_snd] at this
    dsimp only at this
    rw [hcnt] at this
    exact this
  · have := hp2
    rw [push_snd] at this
    dsimp only at this
    rw [hcnt] at this
    rw [push_snd]
    dsimp only
    rw [hcnt]
    exact this

/-- A named reference on a buffer with bytes after its end: the chain of
comparisons and what follows it. -/
theorem escape_match_tail {E : Nat} {B : List Nat} (t : List Nat) {s : Nat} {g : gap}
    (stre c : Nat) (pat : List Nat) (hpat : ∀ x ∈ pat, x ≠ 0) (hne : pat ≠ [])
    (hb : parse_bound E [] B s) (hs0 : peek B s ≠ 0) (hg : gap_ok g s) (hst : s ≤ stre)
    (hbs : parse_bound E [] B (stre + 1)) :
    step_tail E t s
      (if (match_seq (B ++ t) stre pat).2 = true then
        escape_named (B ++ t) s g (match_seq (B ++ t) stre pat).1 c
        else (B ++ t, (match_seq (B ++ t) stre pat).1, g))
      (if (match_seq B stre pat).2 = true then
        escape_named B s g (match_seq B stre pat).1 c
        else (B, (match_seq B stre pat).1, g)) := by
  rw [match_seq_tail t pat hpat stre hbs]
  obtain ⟨h1, h2, h3⟩ := bound_match_seq pat hpat hne stre hbs
  by_cases hm : (match_seq B stre pat).2 = true
  · rw [if_pos hm, if_pos hm]
    exact escape_named_tail t _ c hb hs0 hg (by omega) (bound_next h2 (h3 hm))
  · rw [if_neg hm, if_neg hm]
    exact step_tail_cancel t (by omega) h2 hg

/-- `strconv_escape` on a buffer with bytes after its end: the bytes take no
part, the pointer returned is after the `'&'` and not past the NUL, and the
gap is not after it. -/
theorem strconv_escape_tail {E : Nat} {B : List Nat} (t : List Nat) {s : Nat} {g : gap}
    (hb : parse_bound E [] B s) (h38 : peek B s = 38) (hg : gap_ok g s) :
    step_tail E t s (strconv_escape (B ++ t) s g) (strconv_escape B s g) := by
  have hs0 : peek B s ≠ 0 := by rw [h38]; decide
  have hl := bound_length hb
  have hb1 := bound_next hb hs0
  have hle1 := hb1.1
  unfold strconv_escape
  dsimp only
  rw [peek_tail B t (s + 1) (by omega)]
  by_cases c35 : peek B (s + 1) = 35
  · rw [if_pos c35, if_pos c35]
    have hb2 := bound_next hb1 (by rw [c35]; decide)
    have hle2 := hb2.1
    rw [peek_tail B t (s + 1 + 1) (by omega)]
    by_cases c120 : peek B (s + 1 + 1) = 120
    · rw [if_pos c120, if_pos c120]
      have hb3 : parse_bound E [] B (s + 1 + 2) := bound_next hb2 (by rw [c120]; decide)
      rw [scan_tail t (fun l => hex_loop l (s + 1 + 2) 0) (fun l0 => hex_loop_tail t l0 _ _) hb3]
      have hsh : (strutf16_utf8 B s (hex_loop (B.drop (s + 1 + 2)) (s + 1 + 2) 0).2.1).2 - s <
          (hex_loop (B.drop (s + 1 + 2)) (s + 1 + 2) 0).1 + 1 - s := escape_hex_shorter B s
      obtain ⟨j, hj, hpos, hdig⟩ := hex_loop_stop (B.drop (s + 1 + 2)) (s + 1 + 2) 0
      have hbh := bound_take hb3 j hj (fun x hx => by
        have := hdig x hx
        unfold HexDigit at this
        omega)
      rw [← hpos] at hbh
      have hge : s + 1 + 2 ≤ (hex_loop (B.drop (s + 1 + 2)) (s + 1 + 2) 0).1 := by
        rw [hpos]; omega
      generalize hex_loop (B.drop (s + 1 + 2)) (s + 1 + 2) 0 = h at hsh hbh hge ⊢
      have hleh := hbh.1
      by_cases cbad : h.2.2 = true
      · rw [if_pos cbad, if_pos cbad]
        exact step_tail_cancel t (by omega) hbh hg
      rw [if_neg cbad, if_neg cbad, peek_tail B t h.1 (by omega)]
      by_cases c59 : peek B h.1 ≠ 59
      · rw [if_pos c59, if_pos c59]
        exact step_tail_cancel t (by omega) hbh hg
      rw [if_neg c59, if_neg c59]
      have hge2 := strutf16_utf8_ge B s h.2.1
      exact escape_numeric_tail t (h.1 + 1) h.2.1 hg (by omega) (by omega)
        (bound_next hbh (by rw [not_not.mp c59]; decide))
    · rw [if_neg c120, if_neg c120]
      rw [scan_tail t (fun l => dec_loop l (s + 1 + 1) 0) (fun l0 => dec_loop_tail t l0 _ _) hb2]
      have hsh : (strutf16_utf8 B s (dec_loop (B.drop (s + 1 + 1)) (s + 1 + 1) 0).2).2 - s <
          (dec_loop (B.drop (s + 1 + 1)) (s + 1 + 1) 0).1 + 1 - s := escape_dec_shorter B s
      obtain ⟨j, hj, hpos, hdig⟩ := dec_loop_stop (B.drop (s + 1 + 1)) (s + 1 + 1) 0
      have hbh := bound_take hb2 j hj (fun x hx => by
        have := hdig x hx
        unfold DecDigit at this
        omega)
      rw [← hpos] at hbh
      have hge : s + 1 + 1 ≤ (dec_loop (B.drop (s + 1 + 1)) (s + 1 + 1) 0).1 := by
        rw [hpos]; omega
      generalize dec_loop (B.drop (s + 1 + 1)) (s + 1 + 1) 0 = d at hsh hbh hge ⊢
      have hleh := hbh.1
      rw [peek_tail B t d.1 (by omega)]
      by_cases c59 : peek B d.1 ≠ 59
      · rw [if_pos c59, if_pos c59]
        exact step_tail_cancel t (by omega) hbh hg
      rw [if_neg c59, if_neg c59]
      have hge2 := strutf16_utf8_ge B s d.2
      exact escape_numeric_tail t (d.1 + 1) d.2 hg (by omega) (by omega)
        (bound_next hbh (by rw [not_not.mp c59]; decide))
  rw [if_neg c35, if_neg c35]
  by_cases c97 : peek B (s + 1) = 97
  · rw [if_pos c97, if_pos c97]
    have hb2 := bound_next hb1 (by rw [c97]; decide)
    have hle2 := hb2.1
    rw [peek_tail B t (s + 1 + 1) (by omega)]
    by_cases c109 : peek B (s + 1 + 1) = 109
    · rw [if_pos c109, if_pos c109]
      exact escape_match_tail t (s + 1 + 1) 38 [112, 59] (by decide) (by decide) hb hs0 hg
        (by omega) (bound_next hb2 (by rw [c109]; decide))
    rw [if_neg c109, if_neg c109]
    by_cases c112 : peek B (s + 1 + 1) = 112
    · rw [if_pos c112, if_pos c112]
      exact escape_match_tail t (s + 1 + 1) 39 [111, 115, 59] (by decide) (by decide) hb hs0 hg
        (by omega) (bound_next hb2 (by rw [c112]; decide))
    rw [if_neg c112, if_neg c112]
    exact step_tail_cancel t (by omega) hb2 hg
  rw [if_neg c97, if_neg c97]
  by_cases c103 : peek B (s + 1) = 103
  · rw [if_pos c103, if_pos c103]
    exact escape_match_tail t (s + 1) 62 [116, 59] (by decide) (by decide) hb hs0 hg
      (by omega) (bound_next hb1 (by rw [c103]; decide))
  rw [if_neg c103, if_neg c103]
  by_cases c108 : peek B (s + 1) = 108
  · rw [if_pos c108, if_pos c108]
    exact escape_match_tail t (s + 1) 60 [116, 59] (by decide) (by decide) hb hs0 hg
      (by omega) (bound_next hb1 (by rw [c108]; decide))
  rw [if_neg c108, if_neg c108]
  by_cases c113 : peek B (s + 1) = 113
  · rw [if_pos c113, if_pos c113]
    exact escape_match_tail t (s + 1) 34 [117, 111, 116, 59] (by decide) (by decide) hb hs0 hg
      (by omega) (bound_next hb1 (by rw [c113]; decide))
  rw [if_neg c113, if_neg c113]
  exact step_tail_cancel t (by omega) hb1 hg

theorem skipTo_nz (ct : Nat) (h0 : is_chartype 0 ct = true) (l : List Nat) :
    ∀ s, ∃ i, skipTo ct l s = s + i ∧ ∀ j, j < i → peek l j ≠ 0 := by
  induction l with
  | nil => intro s; exact ⟨0, rfl, fun j hj => absurd hj (Nat.not_lt_zero _)⟩
  | cons c l ih =>
    intro s
    rw [skipTo]
    by_cases hc : is_chartype c ct = true
    · rw [if_pos hc]
      exact ⟨0, rfl, fun j hj => absurd hj (Nat.not_lt_zero _)⟩
    · rw [if_neg hc]
      obtain ⟨i, hi, hz⟩ := ih (s + 1)
      refine ⟨i + 1, by rw [hi]; omega, ?_⟩
      intro j hj
      cases j with
      | zero =>
        rw [peek_cons_zero]
        intro e
        rw [e] at hc
        exact hc h0
      | succ j => rw [peek_cons_succ]; exact hz j (by omega)

/-- The scan `while (!is_chartype(*s, ct)) ++s;` for a class that holds the NUL
stops at the NUL, and the bytes after the buffer take no part in it. -/
theorem bound_skipTo {E : Nat} {B : List Nat} {s : Nat} (t : List Nat) (ct : Nat)
    (h0 : is_chartype 0 ct = true) (h : parse_bound E [] B s) :
    skipTo ct ((B ++ t).drop s) s = skipTo ct (B.drop s) s ∧
      s ≤ skipTo ct (B.drop s) s ∧ parse_bound E [] B (skipTo ct (B.drop s) s) := by
  refine ⟨scan_tail t (fun l => skipTo ct l s) (fun l0 => skipTo_tail ct h0 t l0 s) h, ?_⟩
  obtain ⟨i, hi, hz⟩ := skipTo_nz ct h0 (B.drop s) s
  rw [hi]
  exact ⟨by omega, bound_run h i (fun j hj => by rw [← peek_drop]; exact hz j hj)⟩

theorem tail_decoded_some (t : List Nat) (p : Option Nat) (b : List Nat) :
    tail_decoded t (some (p, b)) = some (p, b ++ t) := rfl

/-- The step of a line end on a buffer with bytes after its end: a byte is
written at the read position, and a `'\n'` after it is dropped. -/
theorem crlf_tail {E : Nat} {B : List Nat} (t : List Nat) {s : Nat} {g : gap} (v : Nat)
    (L R : List Nat → Nat → gap → Option (Option Nat × List Nat))
    (hrec : ∀ B1 s1 g1, s < s1 → parse_bound E [] B1 s1 → gap_ok g1 s1 →
      L (B1 ++ t) s1 g1 = tail_decoded t (R B1 s1 g1))
    (hb : parse_bound E [] B s) (hs0 : peek B s ≠ 0) (hg : gap_ok g s) :
    (if peek (poke (B ++ t) s v) (s + 1) = 10 then
        L (g.push (poke (B ++ t) s v) (s + 1) 1).1 (g.push (poke (B ++ t) s v) (s + 1) 1).2.1
          (g.push (poke (B ++ t) s v) (s + 1) 1).2.2
      else L (poke (B ++ t) s v) (s + 1) g) =
    tail_decoded t
      (if peek (poke B s v) (s + 1) = 10 then
        R (g.push (poke B s v) (s + 1) 1).1 (g.push (poke B s v) (s + 1) 1).2.1
          (g.push (poke B s v) (s + 1) 1).2.2
      else R (poke B s v) (s + 1) g) := by
  have hl := bound_length hb
  have hb1 := bound_endseg hb hs0 v
  have h1 := hb1.1
  rw [poke_tail B t s v (by omega), peek_tail _ t (s + 1) (by rw [poke_length]; omega)]
  by_cases c : peek (poke B s v) (s + 1) = 10
  · rw [if_pos c, if_pos c]
    have hb2 : parse_bound E [] (poke B s v) (s + 1 + 1) := bound_next hb1 (by rw [c]; decide)
    obtain ⟨hp1, hp2⟩ := bound_push g 1 hb2 (gap_ok_le hg (Nat.le_succ s))
    rw [push_tail g (poke B s v) t (s + 1) 1 (by rw [poke_length]; omega)
      (gap_ok_le hg (Nat.le_succ s))]
    exact hrec _ _ _ (by rw [push_snd]; show s < s + 1 + 1; omega) hp1 hp2
  · rw [if_neg c, if_neg c]
    exact hrec _ _ _ (Nat.lt_succ_self s) hb1 (gap_ok_le hg (Nat.le_succ s))

/-- The step of a reference on a buffer with bytes after its end. -/
theorem escape_rec_tail {E : Nat} {B : List Nat} (t : List Nat) {s : Nat} {g : gap}
    (L R : List Nat → Nat → gap → Option (Option Nat × List Nat))
    (hrec : ∀ B1 s1 g1, s < s1 → parse_bound E [] B1 s1 → gap_ok g1 s1 →
      L (B1 ++ t) s1 g1 = tail_decoded t (R B1 s1 g1))
    (hb : parse_bound E [] B s) (h38 : peek B s = 38) (hg : gap_ok g s) :
    L (strconv_escape (B ++ t) s g).1 (strconv_escape (B ++ t) s g).2.1
        (strconv_escape (B ++ t) s g).2.2 =
      tail_decoded t (R (strconv_escape B s g).1 (strconv_escape B s g).2.1
        (strconv_escape B s g).2.2) := by
  obtain ⟨e, hlt, hbn, hgn⟩ := strconv_escape_tail t hb h38 hg
  rw [e]
  exact hrec _ _ _ hlt hbn hgn

/-- The end of a decoder on a buffer with bytes after its end: the gap is
closed and the text is ended by a NUL. -/
theorem flush_poke_tail {E : Nat} {B : List Nat} (t : List Nat) {s : Nat} {g : gap}
    (p : Option Nat) (hb : parse_bound E [] B s) (hg : gap_ok g s) :
    (some (p, poke (g.flush (B ++ t) s).1 (g.flush (B ++ t) s).2 0) :
        Option (Option Nat × List Nat)) =
      tail_decoded t (some (p, poke (g.flush B s).1 (g.flush B s).2 0)) := by
  have hl := bound_length hb
  have h1 := hb.1
  have hf := bound_length (bound_flush g hb hg)
  have hle := flush_snd_le g B s
  rw [flush_tail g B t s (by omega) hg, tail_decoded_some]
  dsimp only
  rw [poke_tail _ t _ 0 (by omega)]

/-- The loop of `strconv_pcdata` on a buffer with bytes after its end: with
fuel for the bytes up to the NUL, the bytes after the buffer take no part. -/
theorem strconv_pcdata_loop_tail (esc eol : Bool) (t : List Nat) (E : Nat) :
    ∀ (n m : Nat) (B : List Nat) (s : Nat) (g : gap), parse_bound E [] B s → gap_ok g s →
      E - s < n → E - s < m →
      strconv_pcdata_loop esc eol n (B ++ t) s g =
        tail_decoded t (strconv_pcdata_loop esc eol m B s g) := by
  intro n
  induction n with
  | zero => intro m B s g _ _ h; exact absurd h (Nat.not_lt_zero _)
  | succ n ih =>
    intro m B s g hb hg hn hm
    cases m with
    | zero => exact absurd hm (Nat.not_lt_zero _)
    | succ m =>
      rw [strconv_pcdata_loop_succ, strconv_pcdata_loop_succ]
      obtain ⟨e1, hle, hb1⟩ := bound_skipTo t ct_parse_pcdata (by decide) hb
      rw [e1]
      have hl := bound_length hb
      have hg1 := gap_ok_le hg hle
      generalize skipTo ct_parse_pcdata (B.drop s) s = s1 at hle hb1 hg1 ⊢
      have h1 := hb1.1
      have hrec : ∀ B1 s2 g1, s1 < s2 → parse_bound E [] B1 s2 → gap_ok g1 s2 →
          strconv_pcdata_loop esc eol n (B1 ++ t) s2 g1 =
            tail_decoded t (strconv_pcdata_loop esc eol m B1 s2 g1) :=
        fun B1 s2 g1 hlt hb2 hg2 =>
          ih m B1 s2 g1 hb2 hg2 (by have := hb2.1; omega) (by have := hb2.1; omega)
      rw [peek_tail B t s1 (by omega)]
      by_cases c1 : eol = true ∧ peek B s1 = 13
      · rw [if_pos c1, if_pos c1]
        exact crlf_tail t 10 _ _ hrec hb1 (by rw [c1.2]; decide) hg1
      rw [if_neg c1, if_neg c1]
      by_cases c2 : esc = true ∧ peek B s1 = 38
      · rw [if_pos c2, if_pos c2]
        exact escape_rec_tail t _ _ hrec hb1 c2.2 hg1
      rw [if_neg c2, if_neg c2]
      by_cases c3 : peek B s1 = 60
      · rw [if_pos c3, if_pos c3]
        exact flush_poke_tail t _ hb1 hg1
      rw [if_neg c3, if_neg c3]
      by_cases c4 : peek B s1 = 0
      · rw [if_pos c4, if_pos c4]
        rfl
      rw [if_neg c4, if_neg c4]
      exact hrec _ _ _ (Nat.lt_succ_self s1) (bound_next hb1 c4) (gap_ok_le hg1 (Nat.le_succ s1))

/-- `strconv_pcdata` on a buffer with bytes after its end. -/
theorem strconv_pcdata_tail (esc eol : Bool) (t : List Nat) {E : Nat} {B : List Nat} {s : Nat}
    (hb : parse_bound E [] B s) :
    strconv_pcdata esc eol (B ++ t) s = tail_decoded t (strconv_pcdata esc eol B s) := by
  have hl := bound_length hb
  have h1 := hb.1
  unfold strconv_pcdata
  rw [peek_tail B t s (by omega)]
  by_cases c : peek B s = 0
  · rw [if_pos c, if_pos c]; rfl
  · rw [if_neg c, if_neg c]
    exact strconv_pcdata_loop_tail esc eol t E _ _ B s _ hb (gap_ok_init s)
      (by rw [List.length_append]; omega) (by omega)

/-- The test of a terminator of three bytes on a buffer with bytes after its
end. -/
theorem peek3_tail {E : Nat} {B : List Nat} (t : List Nat) {s : Nat} (a b c : Nat)
    (ha : a ≠ 0) (hb0 : b ≠ 0) (hb : parse_bound E [] B s) :
    (peek (B ++ t) s = a ∧ peek (B ++ t) (s + 1) = b ∧ peek (B ++ t) (s + 2) = c) ↔
      (peek B s = a ∧ peek B (s + 1) = b ∧ peek B (s + 2) = c) := by
  have hl := bound_length hb
  have h1 := hb.1
  rw [peek_tail B t s (by omega)]
  by_cases c1 : peek B s = a
  · have hb1 := bound_next hb (by rw [c1]; exact ha)
    have h2 := hb1.1
    rw [peek_tail B t (s + 1) (by omega)]
    by_cases c2 : peek B (s + 1) = b
    · have hb2 := bound_next hb1 (by rw [c2]; exact hb0)
      have h3 := hb2.1
      rw [peek_tail B t (s + 2) (by omega)]
    · exact ⟨fun h => absurd h.2.1 c2, fun h => absurd h.2.1 c2⟩
  · exact ⟨fun h => absurd h.1 c1, fun h => absurd h.1 c1⟩

/-- The loop of `strconv_comment` on a buffer with bytes after its end. -/
theorem strconv_comment_loop_tail (t : List Nat) (E : Nat) :
    ∀ (n m : Nat) (B : List Nat) (s : Nat) (g : gap), parse_bound E [] B s → gap_ok g s →
      E - s < n → E - s < m →
      strconv_comment_loop n (B ++ t) s g = tail_decoded t (strconv_comment_loop m B s g) := by
  intro n
  induction n with
  | zero => intro m B s g _ _ h; exact absurd h (Nat.not_lt_zero _)
  | succ n ih =>
    intro m B s g hb hg hn hm
    cases m with
    | zero => exact absurd hm (Nat.not_lt_zero _)
    | succ m =>
      rw [strconv_comment_loop, strconv_comment_loop]
      dsimp only
      obtain ⟨e1, hle, hb1⟩ := bound_skipTo t ct_parse_comment (by decide) hb
      rw [e1]
      have hl := bound_length hb
      have hg1 := gap_ok_le hg hle
      generalize skipTo ct_parse_comment (B.drop s) s = s1 at hle hb1 hg1 ⊢
      have h1 := hb1.1
      have hrec : ∀ B1 s2 g1, s1 < s2 → parse_bound E [] B1 s2 → gap_ok g1 s2 →
          strconv_comment_loop n (B1 ++ t) s2 g1 =
            tail_decoded t (strconv_comment_loop m B1 s2 g1) :=
        fun B1 s2 g1 hlt hb2 hg2 =>
          ih m B1 s2 g1 hb2 hg2 (by have := hb2.1; omega) (by have := hb2.1; omega)
      have e3 := peek3_tail t 45 45 62 (by decide) (by decide) hb1
      rw [peek_tail B t s1 (by omega)]
      rw [peek_tail B t s1 (by omega)] at e3
      by_cases c1 : peek B s1 = 13
      · rw [if_pos c1, if_pos c1]
        exact crlf_tail t 10 _ _ hrec hb1 (by rw [c1]; decide) hg1
      rw [if_neg c1, if_neg c1]
      by_cases c3 : peek B s1 = 45 ∧ peek B (s1 + 1) = 45 ∧ peek B (s1 + 2) = 62
      · rw [if_pos c3, if_pos (e3.mpr c3)]
        exact flush_poke_tail t _ hb1 hg1
      rw [if_neg c3, if_neg (fun h => c3 (e3.mp h))]
      by_cases c4 : peek B s1 = 0
      · rw [if_pos c4, if_pos c4]
        rfl
      rw [if_neg c4, if_neg c4]
      exact hrec _ _ _ (Nat.lt_succ_self s1) (bound_next hb1 c4) (gap_ok_le hg1 (Nat.le_succ s1))

/-- `strconv_comment` on a buffer with bytes after its end. -/
theorem strconv_comment_tail (t : List Nat) {E : Nat} {B : List Nat} {s : Nat}
    (hb : parse_bound E [] B s) :
    strconv_comment (B ++ t) s = tail_decoded t (strconv_comment B s) := by
  have hl := bound_length hb
  have h1 := hb.1
  unfold strconv_comment
  rw [peek_tail B t s (by omega)]
  by_cases c : peek B s = 0
  · rw [if_pos c, if_pos c]; rfl
  · rw [if_neg c, if_neg c]
    exact strconv_comment_loop_tail t E _ _ B s _ hb (gap_ok_init s)
      (by rw [List.length_append]; omega) (by omega)

/-- The loop of `strconv_cdata` on a buffer with bytes after its end. -/
theorem strconv_cdata_loop_tail (t : List Nat) (E : Nat) :
    ∀ (n m : Nat) (B : List Nat) (s : Nat) (g : gap), parse_bound E [] B s → gap_ok g s →
      E - s < n → E - s < m →
      strconv_cdata_loop n (B ++ t) s g = tail_decoded t (strconv_cdata_loop m B s g) := by
  intro n
  induction n with
  | zero => intro m B s g _ _ h; exact absurd h (Nat.not_lt_zero _)
  | succ n ih =>
    intro m B s g hb hg hn hm
    cases m with
    | zero => exact absurd hm (Nat.not_lt_zero _)
    | succ m =>
      rw [strconv_cdata_loop, strconv_cdata_loop]
      dsimp only
      obtain ⟨e1, hle, hb1⟩ := bound_skipTo t ct_parse_cdata (by decide) hb
      rw [e1]
      have hl := bound_length hb
      have hg1 := gap_ok_le hg hle
      generalize skipTo ct_parse_cdata (B.drop s) s = s1 at hle hb1 hg1 ⊢
      have h1 := hb1.1
      have hrec : ∀ B1 s2 g1, s1 < s2 → parse_bound E [] B1 s2 → gap_ok g1 s2 →
          strconv_cdata_loop n (B1 ++ t) s2 g1 =
            tail_decoded t (strconv_cdata_loop m B1 s2 g1) :=
        fun B1 s2 g1 hlt hb2 hg2 =>
          ih m B1 s2 g1 hb2 hg2 (by have := hb2.1; omega) (by have := hb2.1; omega)
      have e3 := peek3_tail t 93 93 62 (by decide) (by decide) hb1
      rw [peek_tail B t s1 (by omega)]
      rw [peek_tail B t s1 (by omega)] at e3
      by_cases c1 : peek B s1 = 13
      · rw [if_pos c1, if_pos c1]
        exact crlf_tail t 10 _ _ hrec hb1 (by rw [c1]; decide) hg1
      rw [if_neg c1, if_neg c1]
      by_cases c3 : peek B s1 = 93 ∧ peek B (s1 + 1) = 93 ∧ peek B (s1 + 2) = 62
      · rw [if_pos c3, if_pos (e3.mpr c3)]
        exact flush_poke_tail t _ hb1 hg1
      rw [if_neg c3, if_neg (fun h => c3 (e3.mp h))]
      by_cases c4 : peek B s1 = 0
      · rw [if_pos c4, if_pos c4]
        rfl
      rw [if_neg c4, if_neg c4]
      exact hrec _ _ _ (Nat.lt_succ_self s1) (bound_next hb1 c4) (gap_ok_le hg1 (Nat.le_succ s1))

/-- `strconv_cdata` on a buffer with bytes after its end. -/
theorem strconv_cdata_tail (t : List Nat) {E : Nat} {B : List Nat} {s : Nat}
    (hb : parse_bound E [] B s) :
    strconv_cdata (B ++ t) s = tail_decoded t (strconv_cdata B s) := by
  have hl := bound_length hb
  have h1 := hb.1
  unfold strconv_cdata
  rw [peek_tail B t s (by omega)]
  by_cases c : peek B s = 0
  · rw [if_pos c, if_pos c]; rfl
  · rw [if_neg c, if_neg c]
    exact strconv_cdata_loop_tail t E _ _ B s _ hb (gap_ok_init s)
      (by rw [List.length_append]; omega) (by omega)

/-- The backward loop of `opt_wnorm` on a buffer with bytes after its end. -/
theorem wnorm_trim_tail (t : List Nat) :
    ∀ (k : Nat) (b : List Nat), k < b.length →
      wnorm_trim (b ++ t) k = (wnorm_trim b k).map (fun x => x ++ t) := by
  intro k
  induction k with
  | zero => intro b _; rfl
  | succ k ih =>
    intro b h
    rw [wnorm_trim, wnorm_trim]
    rw [poke_tail b t (k + 1) 0 h, peek_tail _ t k (by rw [poke_length]; omega)]
    by_cases c : is_chartype (peek (poke b (k + 1) 0) k) ct_space = true
    · rw [if_pos c, if_pos c]
      exact ih _ (by rw [poke_length]; omega)
    · rw [if_neg c, if_neg c]
      rfl

/-- The step of `opt_wnorm` at whitespace on a buffer with bytes after its end:
a space is written, and the whitespace after it is dropped. -/
theorem ws_push_tail {E : Nat} {B : List Nat} (t : List Nat) {s : Nat} {g : gap}
    (L R : List Nat → Nat → gap → Option (Option Nat × List Nat))
    (hrec : ∀ B1 s1 g1, s < s1 → parse_bound E [] B1 s1 → gap_ok g1 s1 →
      L (B1 ++ t) s1 g1 = tail_decoded t (R B1 s1 g1))
    (hb : parse_bound E [] B s) (hs0 : peek B s ≠ 0) (hg : gap_ok g s) :
    (if is_chartype (peek (poke (B ++ t) s 32) (s + 1)) ct_space = true then
        L (g.push (poke (B ++ t) s 32) (s + 1)
            (skipWhile ct_space ((poke (B ++ t) s 32).drop (s + 2)) (s + 2) - (s + 1))).1
          (g.push (poke (B ++ t) s 32) (s + 1)
            (skipWhile ct_space ((poke (B ++ t) s 32).drop (s + 2)) (s + 2) - (s + 1))).2.1
          (g.push (poke (B ++ t) s 32) (s + 1)
            (skipWhile ct_space ((poke (B ++ t) s 32).drop (s + 2)) (s + 2) - (s + 1))).2.2
      else L (poke (B ++ t) s 32) (s + 1) g) =
    tail_decoded t
      (if is_chartype (peek (poke B s 32) (s + 1)) ct_space = true then
        R (g.push (poke B s 32) (s + 1)
            (skipWhile ct_space ((poke B s 32).drop (s + 2)) (s + 2) - (s + 1))).1
          (g.push (poke B s 32) (s + 1)
            (skipWhile ct_space ((poke B s 32).drop (s + 2)) (s + 2) - (s + 1))).2.1
          (g.push (poke B s 32) (s + 1)
            (skipWhile ct_space ((poke B s 32).drop (s + 2)) (s + 2) - (s + 1))).2.2
      else R (poke B s 32) (s + 1) g) := by
  have hl := bound_length hb
  have hb1 := bound_endseg hb hs0 32
  have h1 := hb1.1
  rw [poke_tail B t s 32 (by omega), peek_tail _ t (s + 1) (by rw [poke_length]; omega)]
  by_cases c : is_chartype (peek (poke B s 32) (s + 1)) ct_space = true
  · rw [if_pos c, if_pos c]
    have hb2 : parse_bound E [] (poke B s 32) (s + 2) := bound_next hb1 (space_ne_zero c)
    rw [scan_tail t (fun l => skipWhile ct_space l (s + 2))
      (fun l0 => skipWhile_tail ct_space (by decide) t l0 _) hb2]
    obtain ⟨hle, hbs⟩ := bound_skipWhile ct_space (by decide) hb2
    generalize skipWhile ct_space ((poke B s 32).drop (s + 2)) (s + 2) = str at hle hbs ⊢
    have hcnt : s + 1 + (str - (s + 1)) = str := by omega
    rw [← hcnt] at hbs
    obtain ⟨hp1, hp2⟩ := bound_push g (str - (s + 1)) hbs (gap_ok_le hg (Nat.le_succ s))
    rw [push_tail g (poke B s 32) t (s + 1) _ (by rw [poke_length]; omega)
      (gap_ok_le hg (Nat.le_succ s))]
    exact hrec _ _ _ (by rw [push_snd]; show s < s + 1 + (str - (s + 1)); omega) hp1 hp2
  · rw [if_neg c, if_neg c]
    exact hrec _ _ _ (Nat.lt_succ_self s) hb1 (gap_ok_le hg (Nat.le_succ s))

/-- The loop of `strconv_attribute` on a buffer with bytes after its end: with
fuel for the bytes up to the NUL, the bytes after the buffer take no part. -/
theorem strconv_attribute_loop_tail (esc wnorm wconv eol : Bool) (q : Nat) (t : List Nat)
    (E : Nat) :
    ∀ (n m : Nat) (B : List Nat) (s : Nat) (g : gap), parse_bound E [] B s → gap_ok g s →
      E - s < n → E - s < m →
      strconv_attribute_loop esc wnorm wconv eol q n (B ++ t) s g =
        tail_decoded t (strconv_attribute_loop esc wnorm wconv eol q m B s g) := by
  intro n
  induction n with
  | zero => intro m B s g _ _ h; exact absurd h (Nat.not_lt_zero _)
  | succ n ih =>
    intro m B s g hb hg hn hm
    cases m with
    | zero => exact absurd hm (Nat.not_lt_zero _)
    | succ m =>
      rw [strconv_attribute_loop_succ, strconv_attribute_loop_succ]
      beta_reduce
      obtain ⟨e1, hle, hb1⟩ := bound_skipTo t
        (if wnorm = true ∨ wconv = true then ct_parse_attr_ws else ct_parse_attr)
        (by split <;> decide) hb
      rw [e1]
      have hl := bound_length hb
      have hg1 := gap_ok_le hg hle
      generalize skipTo (if wnorm = true ∨ wconv = true then ct_parse_attr_ws else ct_parse_attr)
        (B.drop s) s = s1 at hle hb1 hg1 ⊢
      have h1 := hb1.1
      have hrec : ∀ B1 s2 g1, s1 < s2 → parse_bound E [] B1 s2 → gap_ok g1 s2 →
          strconv_attribute_loop esc wnorm wconv eol q n (B1 ++ t) s2 g1 =
            tail_decoded t (strconv_attribute_loop esc wnorm wconv eol q m B1 s2 g1) :=
        fun B1 s2 g1 hlt hb2 hg2 =>
          ih m B1 s2 g1 hb2 hg2 (by have := hb2.1; omega) (by have := hb2.1; omega)
      rw [peek_tail B t s1 (by omega)]
      by_cases c1 : esc = true ∧ peek B s1 = 38
      · rw [if_pos c1, if_pos c1]
        exact escape_rec_tail t _ _ hrec hb1 c1.2 hg1
      rw [if_neg c1, if_neg c1]
      by_cases c2 : wnorm = true ∧ is_chartype (peek B s1) ct_space = true
      · rw [if_pos c2, if_pos c2]
        exact ws_push_tail t _ _ hrec hb1 (space_ne_zero c2.2) hg1
      rw [if_neg c2, if_neg c2]
      by_cases c3 : wconv = true ∧ is_chartype (peek B s1) ct_space = true
      · rw [if_pos c3, if_pos c3]
        have hs0 := space_ne_zero c3.2
        have hplain : strconv_attribute_loop esc wnorm wconv eol q n (poke (B ++ t) s1 32)
            (s1 + 1) g = tail_decoded t
              (strconv_attribute_loop esc wnorm wconv eol q m (poke B s1 32) (s1 + 1) g) := by
          rw [poke_tail B t s1 32 (by omega)]
          exact hrec _ _ _ (Nat.lt_succ_self s1) (bound_endseg hb1 hs0 32)
            (gap_ok_le hg1 (Nat.le_succ s1))
        by_cases c4 : eol = true
        · rw [if_pos c4, if_pos c4]
          by_cases c5 : peek B s1 = 13
          · rw [if_pos c5, if_pos c5]
            exact crlf_tail t 32 _ _ hrec hb1 hs0 hg1
          · rw [if_neg c5, if_neg c5]
            exact hplain
        · rw [if_neg c4, if_neg c4]
          exact hplain
      rw [if_neg c3, if_neg c3]
      by_cases c6 : eol = true ∧ peek B s1 = 13
      · rw [if_pos c6, if_pos c6]
        exact crlf_tail t 10 _ _ hrec hb1 (by rw [c6.2]; decide) hg1
      rw [if_neg c6, if_neg c6]
      by_cases c7 : peek B s1 = q
      · rw [if_pos c7, if_pos c7]
        by_cases c8 : wnorm = true
        · rw [if_pos c8, if_pos c8]
          have hf := bound_length (bound_flush g hb1 hg1)
          have hfl := flush_snd_le g B s1
          rw [flush_tail g B t s1 (by omega) hg1]
          dsimp only
          rw [wnorm_trim_tail t _ _ (by omega)]
          cases wnorm_trim (g.flush B s1).1 (g.flush B s1).2 <;> rfl
        · rw [if_neg c8, if_neg c8]
          exact flush_poke_tail t _ hb1 hg1
      rw [if_neg c7, if_neg c7]
      by_cases c9 : peek B s1 = 0
      · rw [if_pos c9, if_pos c9]
        rfl
      rw [if_neg c9, if_neg c9]
      exact hrec _ _ _ (Nat.lt_succ_self s1) (bound_next hb1 c9) (gap_ok_le hg1 (Nat.le_succ s1))

/-- `strconv_attribute` on a buffer with bytes after its end. -/
theorem strconv_attribute_tail (esc wnorm wconv eol : Bool) (q : Nat) (t : List Nat) {E : Nat}
    {B : List Nat} {s : Nat} (hb : parse_bound E [] B s) :
    strconv_attribute esc wnorm wconv eol (B ++ t) s q =
      tail_decoded t (strconv_attribute esc wnorm wconv eol B s q) := by
  have hl := bound_length hb
  have h1 := hb.1
  unfold strconv_attribute
  rw [peek_tail B t s (by omega)]
  by_cases c : peek B s = 0
  · rw [if_pos c, if_pos c]; rfl
  rw [if_neg c, if_neg c]
  dsimp only
  rw [scan_tail t (fun l => skipWhile ct_space l s)
    (fun l0 => skipWhile_tail ct_space (by decide) t l0 _) hb]
  obtain ⟨hle, hbs⟩ := bound_skipWhile ct_space (by decide) hb
  generalize skipWhile ct_space (B.drop s) s = str at hle hbs ⊢
  by_cases hw : wnorm = true ∧ str ≠ s
  · rw [if_pos hw, if_pos hw]
    have hcnt : s + (str - s) = str := by omega
    rw [← hcnt] at hbs
    obtain ⟨hp1, hp2⟩ := bound_push { end_ := none, size := 0 } (str - s) hbs (gap_ok_init s)
    rw [push_tail _ B t s _ (by omega) (gap_ok_init s)]
    dsimp only
    exact strconv_attribute_loop_tail esc wnorm wconv eol q t E _ _ _ _ _ hp1 hp2
      (by rw [List.length_append]; omega) (by omega)
  · rw [if_neg hw, if_neg hw]
    exact strconv_attribute_loop_tail esc wnorm wconv eol q t E _ _ B s _ hb (gap_ok_init s)
      (by rw [List.length_append]; omega) (by omega)

theorem with_tail_buf (st : parse_state) (t : List Nat) : (st.with_tail t).buf = st.buf ++ t :=
  rfl

theorem with_tail_s (st : parse_state) (t : List Nat) : (st.with_tail t).s = st.s := rfl

theorem with_tail_cursor (st : parse_state) (t : List Nat) :
    (st.with_tail t).cursor = st.cursor := rfl

theorem with_tail_nodes (st : parse_state) (t : List Nat) : (st.with_tail t).nodes = st.nodes :=
  rfl

theorem with_tail_attrs (st : parse_state) (t : List Nat) : (st.with_tail t).attrs = st.attrs :=
  rfl

/-- `POPNODE()` with bytes after the end of the buffer. -/
theorem popnode_tail (st : parse_state) (t : List Nat) :
    (POPNODE (st.with_tail t)).map some = tail_result t ((POPNODE st).map some) := by
  unfold POPNODE
  show (match (node_at st.nodes st.cursor).parent with
      | some p => some { st.with_tail t with cursor := p }
      | none => none).map some = _
  cases (node_at st.nodes st.cursor).parent <;> rfl

/-- The branch `<?...` with bytes after the end of the buffer: the bytes take
no part. -/
theorem parse_pi_tag_tail (o : parse_options) (st : parse_state) (t : List Nat) (E : Nat)
    (hb : parse_bound E [] st.buf st.s) :
    parse_pi_tag o (st.with_tail t) = tail_result t (parse_pi_tag o st) := by
  have hl := bound_length hb
  have hle := hb.1
  unfold parse_pi_tag
  simp only [with_tail_buf, with_tail_s, with_tail_cursor, with_tail_nodes, with_tail_attrs]
  rw [peek_tail st.buf t st.s (by omega)]
  by_cases hss : is_chartype (peek st.buf st.s) ct_start_symbol = false
  · rw [if_pos hss, if_pos hss]; rfl
  rw [if_neg hss, if_neg hss]
  by_cases hpi : o.parse_pi = true
  swap
  · rw [if_neg hpi, if_neg hpi]
    rw [scan_tail t (fun l => scanfor2 63 62 l st.s) (fun l0 => scanfor2_tail 63 62 t l0 _) hb]
    obtain ⟨h0le, h0, h0m⟩ := bound_scanfor2 63 62 hb
    generalize scanfor2 63 62 (st.buf.drop st.s) st.s = s0 at h0le h0 h0m ⊢
    have := h0.1
    rw [peek_tail st.buf t s0 (by omega)]
    by_cases c : peek st.buf s0 = 0
    · rw [if_pos c, if_pos c]; rfl
    rw [if_neg c, if_neg c]
    rfl
  rw [if_pos hpi, if_pos hpi]
  rw [scan_tail t (fun l => skipWhile ct_symbol l st.s)
    (fun l0 => skipWhile_tail ct_symbol (by decide) t l0 _) hb]
  obtain ⟨h1le, h1⟩ := bound_skipWhile ct_symbol (by decide) hb
  generalize skipWhile ct_symbol (st.buf.drop st.s) st.s = s1 at h1le h1 ⊢
  have hle1 := h1.1
  rw [peek_tail st.buf t s1 (by omega)]
  by_cases c1 : peek st.buf s1 = 0
  · rw [if_pos c1, if_pos c1]; rfl
  rw [if_neg c1, if_neg c1]
  by_cases c2 : is_chartype (peek st.buf s1) ct_space = false ∧ peek st.buf s1 ≠ 63
  · rw [if_pos c2, if_pos c2]; rfl
  rw [if_neg c2, if_neg c2]
  have h2 := bound_endseg h1 c1 0
  have hle2 := h2.1
  have hl1 : (poke st.buf s1 0).length = E + 1 := by rw [poke_length]; exact hl
  rw [poke_tail st.buf t s1 0 (by omega)]
  generalize poke st.buf s1 0 = buf1 at h2 hl1 ⊢
  rw [peek_tail buf1 t (s1 + 1) (by omega)]
  by_cases c3 : peek buf1 (s1 + 1) = 0
  · rw [if_pos c3, if_pos c3]; rfl
  rw [if_neg c3, if_neg c3]
  have h3 := bound_next h2 c3
  have hxml : is_xml_target (buf1 ++ t) st.s = is_xml_target buf1 st.s := by
    unfold is_xml_target
    have hst0 : peek buf1 st.s = peek (buf1 ++ t) st.s := (peek_tail buf1 t st.s (by omega)).symm
    by_cases e0 : peek buf1 st.s = 120 ∨ peek buf1 st.s = 88
    swap
    · have e0' : ¬ (peek (buf1 ++ t) st.s = 120 ∨ peek (buf1 ++ t) st.s = 88) := by
        rw [← hst0]; exact e0
      simp only [e0, e0', false_and]
    have hb0 : parse_bound E [] buf1 (st.s + 1) :=
      bound_next (bound_le h2 (by omega)) (by rcases e0 with e | e <;> rw [e] <;> decide)
    have hst1 : peek buf1 (st.s + 1) = peek (buf1 ++ t) (st.s + 1) :=
      (peek_tail buf1 t _ (by have := hb0.1; omega)).symm
    by_cases e1 : peek buf1 (st.s + 1) = 109 ∨ peek buf1 (st.s + 1) = 77
    swap
    · have e1' : ¬ (peek (buf1 ++ t) (st.s + 1) = 109 ∨ peek (buf1 ++ t) (st.s + 1) = 77) := by
        rw [← hst1]; exact e1
      simp only [e1, e1', false_and, and_false]
    have hb1 : parse_bound E [] buf1 (st.s + 2) :=
      bound_next hb0 (by rcases e1 with e | e <;> rw [e] <;> decide)
    have hst2 : peek buf1 (st.s + 2) = peek (buf1 ++ t) (st.s + 2) :=
      (peek_tail buf1 t _ (by have := hb1.1; omega)).symm
    by_cases e2 : peek buf1 (st.s + 2) = 108 ∨ peek buf1 (st.s + 2) = 76
    swap
    · have e2' : ¬ (peek (buf1 ++ t) (st.s + 2) = 108 ∨ peek (buf1 ++ t) (st.s + 2) = 76) := by
        rw [← hst2]; exact e2
      simp only [e2, e2', false_and, and_false]
    have hb2 : parse_bound E [] buf1 (st.s + 3) :=
      bound_next hb1 (by rcases e2 with e | e <;> rw [e] <;> decide)
    have hst3 : peek buf1 (st.s + 3) = peek (buf1 ++ t) (st.s + 3) :=
      (peek_tail buf1 t _ (by have := hb2.1; omega)).symm
    rw [← hst0, ← hst1, ← hst2, ← hst3]
  rw [hxml]
  by_cases c4 : peek st.buf s1 = 63
  · rw [if_pos c4, if_pos c4]
    by_cases c5 : peek buf1 (s1 + 1) ≠ 62
    · rw [if_pos c5, if_pos c5]; rfl
    rw [if_neg c5, if_neg c5]
    by_cases c6 : is_xml_target buf1 st.s = true
    · rw [if_pos c6, if_pos c6]; rfl
    rw [if_neg c6, if_neg c6]
    exact popnode_tail
      (set_cursor_name (PUSHNODE { st with buf := buf1, s := s1 + 1 + 1 } node_pi) (some st.s)) t
  rw [if_neg c4, if_neg c4]
  by_cases c6 : is_xml_target buf1 st.s = true
  · rw [if_pos c6, if_pos c6]
    rw [scan_tail t (fun l => scanfor2 63 62 l (s1 + 1)) (fun l0 => scanfor2_tail 63 62 t l0 _) h2]
    obtain ⟨h4le, h4, h4m⟩ := bound_scanfor2 63 62 h2
    generalize scanfor2 63 62 (buf1.drop (s1 + 1)) (s1 + 1) = s3 at h4le h4 h4m ⊢
    have := h4.1
    rw [peek_tail buf1 t s3 (by omega)]
    by_cases c7 : peek buf1 s3 = 0
    · rw [if_pos c7, if_pos c7]; rfl
    rw [if_neg c7, if_neg c7]
    rfl
  rw [if_neg c6, if_neg c6]
  rw [scan_tail t (fun l => skipWhile ct_space l (s1 + 1))
    (fun l0 => skipWhile_tail ct_space (by decide) t l0 _) h2]
  have h5 : s1 + 1 ≤ (if is_chartype (peek st.buf s1) ct_space = true then
        skipWhile ct_space (buf1.drop (s1 + 1)) (s1 + 1) else s1 + 1) ∧
      parse_bound E [] buf1 (if is_chartype (peek st.buf s1) ct_space = true then
        skipWhile ct_space (buf1.drop (s1 + 1)) (s1 + 1) else s1 + 1) := by
    by_cases csp : is_chartype (peek st.buf s1) ct_space = true
    · rw [if_pos csp]; exact bound_skipWhile ct_space (by decide) h2
    · rw [if_neg csp]; exact ⟨le_refl _, h2⟩
  generalize (if is_chartype (peek st.buf s1) ct_space = true then
    skipWhile ct_space (buf1.drop (s1 + 1)) (s1 + 1) else s1 + 1) = s3 at h5 ⊢
  have hle5 := h5.2.1
  rw [peek_tail buf1 t s3 (by omega)]
  by_cases c8 : is_chartype (peek st.buf s1) ct_space = true ∧ peek buf1 s3 = 0
  · rw [if_pos c8, if_pos c8]; rfl
  rw [if_neg c8, if_neg c8]
  rw [scan_tail t (fun l => scanfor2 63 62 l s3) (fun l0 => scanfor2_tail 63 62 t l0 _) h5.2]
  obtain ⟨h6le, h6, h6m⟩ := bound_scanfor2 63 62 h5.2
  generalize scanfor2 63 62 (buf1.drop s3) s3 = s4 at h6le h6 h6m ⊢
  have hle6 := h6.1
  rw [peek_tail buf1 t s4 (by omega)]
  by_cases c9 : peek buf1 s4 = 0
  · rw [if_pos c9, if_pos c9]; rfl
  rw [if_neg c9, if_neg c9]
  have h7 := bound_endseg h6 c9 0
  have hle7 := h7.1
  rw [poke_tail buf1 t s4 0 (by omega),
    peek_tail (poke buf1 s4 0) t (s4 + 1) (by rw [poke_length]; omega)]
  by_cases c10 : peek (poke buf1 s4 0) (s4 + 1) = 0
  · rw [if_pos c10, if_pos c10]; rfl
  rw [if_neg c10, if_neg c10]
  exact popnode_tail
    (set_cursor_value { set_cursor_name (PUSHNODE { st with buf := buf1, s := s1 + 1 } node_pi)
      (some st.s) with buf := poke buf1 s4 0, s := s4 + 2 }
      (if is_chartype (peek st.buf s1) ct_space = true then some s3 else none)) t

theorem tail_result_none (t : List Nat) : tail_result t (some none) = some none := rfl

theorem tail_result_some (t : List Nat) (st : parse_state) :
    tail_result t (some (some st)) = some (some (st.with_tail t)) := rfl

/-- `POPNODE()` followed by a step over two bytes, with bytes after the end of
the buffer. -/
theorem popnode_step_tail (st : parse_state) (t : List Nat) :
    (POPNODE (st.with_tail t)).map (fun st3 => some { st3 with s := st3.s + 2 }) =
      tail_result t ((POPNODE st).map (fun st3 => some { st3 with s := st3.s + 2 })) := by
  unfold POPNODE
  show (match (node_at st.nodes st.cursor).parent with
      | some p => some { st.with_tail t with cursor := p }
      | none => none).map _ = _
  cases (node_at st.nodes st.cursor).parent <;> rfl

/-- The branch `<!--...` with bytes after the end of the buffer: the bytes take
no part. -/
theorem parse_comment_tail (o : parse_options) (st : parse_state) (t : List Nat) (E : Nat)
    (hb : parse_bound E [] st.buf st.s) :
    parse_comment o (st.with_tail t) = tail_result t (parse_comment o st) := by
  unfold parse_comment
  dsimp only
  have hst : (if o.parse_comments = true then
      set_cursor_value (PUSHNODE (st.with_tail t) node_comment) (some (st.with_tail t).s)
      else st.with_tail t) =
      (if o.parse_comments = true then
        set_cursor_value (PUSHNODE st node_comment) (some st.s) else st).with_tail t := by
    split <;> rfl
  rw [hst]
  have hbuf : (if o.parse_comments = true then
      set_cursor_value (PUSHNODE st node_comment) (some st.s) else st).buf = st.buf := by
    split <;> rfl
  have hs : (if o.parse_comments = true then
      set_cursor_value (PUSHNODE st node_comment) (some st.s) else st).s = st.s := by
    split <;> rfl
  generalize (if o.parse_comments = true then
      set_cursor_value (PUSHNODE st node_comment) (some st.s) else st) = st1 at hbuf hs ⊢
  rw [← hbuf, ← hs] at hb
  have hl := bound_length hb
  have hle := hb.1
  simp only [with_tail_buf, with_tail_s]
  by_cases c1 : o.parse_eol = true ∧ o.parse_comments = true
  · rw [if_pos c1, if_pos c1, strconv_comment_tail t hb]
    generalize strconv_comment st1.buf st1.s = r
    rcases r with _ | ⟨_ | p, b⟩
    · rfl
    · rfl
    · show (if o.parse_comments = true then
          (POPNODE (({ st1 with buf := b, s := p } : parse_state).with_tail t)).map some
          else some (some (({ st1 with buf := b, s := p } : parse_state).with_tail t))) =
        tail_result t (if o.parse_comments = true then
          (POPNODE { st1 with buf := b, s := p }).map some
          else some (some { st1 with buf := b, s := p }))
      rw [if_pos c1.2, if_pos c1.2]
      exact popnode_tail _ t
  rw [if_neg c1, if_neg c1]
  rw [scan_tail t (fun l => scanfor3 45 45 62 l st1.s)
    (fun l0 => scanfor3_tail 45 45 62 (by decide) t l0 _) hb]
  obtain ⟨h1le, h1, h1m⟩ := bound_scanfor3 45 45 62 hb
  generalize scanfor3 45 45 62 (st1.buf.drop st1.s) st1.s = s1 at h1le h1 h1m ⊢
  have hle1 := h1.1
  rw [peek_tail st1.buf t s1 (by omega)]
  by_cases c2 : peek st1.buf s1 = 0
  · rw [if_pos c2, if_pos c2]; rfl
  rw [if_neg c2, if_neg c2]
  by_cases c3 : o.parse_comments = true
  · show (if o.parse_comments = true then
        (POPNODE { st1.with_tail t with
          buf := if o.parse_comments = true then poke (st1.buf ++ t) s1 0 else st1.buf ++ t,
          s := s1 + 3 }).map some
        else some (some { st1.with_tail t with
          buf := if o.parse_comments = true then poke (st1.buf ++ t) s1 0 else st1.buf ++ t,
          s := s1 + 3 })) =
      tail_result t (if o.parse_comments = true then
        (POPNODE { st1 with
          buf := if o.parse_comments = true then poke st1.buf s1 0 else st1.buf,
          s := s1 + 3 }).map some
        else some (some { st1 with
          buf := if o.parse_comments = true then poke st1.buf s1 0 else st1.buf, s := s1 + 3 }))
    rw [if_pos c3, if_pos c3, if_pos c3, if_pos c3, poke_tail st1.buf t s1 0 (by omega)]
    exact popnode_tail { st1 with buf := poke st1.buf s1 0, s := s1 + 3 } t
  · show (if o.parse_comments = true then
        (POPNODE { st1.with_tail t with
          buf := if o.parse_comments = true then poke (st1.buf ++ t) s1 0 else st1.buf ++ t,
          s := s1 + 3 }).map some
        else some (some { st1.with_tail t with
          buf := if o.parse_comments = true then poke (st1.buf ++ t) s1 0 else st1.buf ++ t,
          s := s1 + 3 })) =
      tail_result t (if o.parse_comments = true then
        (POPNODE { st1 with
          buf := if o.parse_comments = true then poke st1.buf s1 0 else st1.buf,
          s := s1 + 3 }).map some
        else some (some { st1 with
          buf := if o.parse_comments = true then poke st1.buf s1 0 else st1.buf, s := s1 + 3 }))
    rw [if_neg c3, if_neg c3, if_neg c3, if_neg c3]
    rfl

/-- The branch `<![CDATA[...` with bytes after the end of the buffer: the bytes
take no part. -/
theorem parse_cdata_tag_tail (o : parse_options) (st : parse_state) (t : List Nat) (E : Nat)
    (hb : parse_bound E [] st.buf st.s) :
    parse_cdata_tag o (st.with_tail t) = tail_result t (parse_cdata_tag o st) := by
  have hl := bound_length hb
  have hle := hb.1
  unfold parse_cdata_tag
  by_cases c0 : o.parse_cdata = true
  swap
  · rw [if_neg c0, if_neg c0]
    simp only [with_tail_buf, with_tail_s]
    rw [scan_tail t (fun l => scanfor3 93 93 62 l st.s)
      (fun l0 => scanfor3_tail 93 93 62 (by decide) t l0 _) hb]
    obtain ⟨h1le, h1, h1m⟩ := bound_scanfor3 93 93 62 hb
    generalize scanfor3 93 93 62 (st.buf.drop st.s) st.s = s1 at h1le h1 h1m ⊢
    have hle1 := h1.1
    rw [peek_tail st.buf t s1 (by omega)]
    by_cases c2 : peek st.buf s1 = 0
    · rw [if_pos c2, if_pos c2]; rfl
    rw [if_neg c2, if_neg c2]
    rfl
  rw [if_pos c0, if_pos c0]
  dsimp only
  have hst : set_cursor_value (PUSHNODE (st.with_tail t) node_cdata) (some (st.with_tail t).s) =
      (set_cursor_value (PUSHNODE st node_cdata) (some st.s)).with_tail t := rfl
  rw [hst]
  have hb1 : parse_bound E [] (set_cursor_value (PUSHNODE st node_cdata) (some st.s)).buf
    (set_cursor_value (PUSHNODE st node_cdata) (some st.s)).s := hb
  generalize set_cursor_value (PUSHNODE st node_cdata) (some st.s) = st1 at hb1 ⊢
  have hl1 := bound_length hb1
  have hle1 := hb1.1
  simp only [with_tail_buf, with_tail_s]
  by_cases c1 : o.parse_eol = true
  · rw [if_pos c1, if_pos c1, strconv_cdata_tail t hb1]
    generalize strconv_cdata st1.buf st1.s = r
    rcases r with _ | ⟨_ | p, b⟩
    · rfl
    · rfl
    · exact popnode_step_tail { st1 with buf := b, s := p } t
  rw [if_neg c1, if_neg c1]
  rw [scan_tail t (fun l => scanfor3 93 93 62 l st1.s)
    (fun l0 => scanfor3_tail 93 93 62 (by decide) t l0 _) hb1]
  obtain ⟨h1le, h1, h1m⟩ := bound_scanfor3 93 93 62 hb1
  generalize scanfor3 93 93 62 (st1.buf.drop st1.s) st1.s = s1 at h1le h1 h1m ⊢
  have hle2 := h1.1
  rw [peek_tail st1.buf t s1 (by omega)]
  by_cases c2 : peek st1.buf s1 = 0
  · rw [if_pos c2, if_pos c2]; rfl
  rw [if_neg c2, if_neg c2]
  have h2 := bound_endseg h1 c2 0
  have hle3 := h2.1
  rw [poke_tail st1.buf t s1 0 (by omega),
    peek_tail (poke st1.buf s1 0) t (s1 + 1) (by rw [poke_length]; omega)]
  by_cases c3 : peek (poke st1.buf s1 0) (s1 + 1) = 0
  · rw [if_pos c3, if_pos c3]; rfl
  rw [if_neg c3, if_neg c3]
  exact popnode_step_tail { st1 with buf := poke st1.buf s1 0, s := s1 + 1 } t

/-- The part of the `DOCTYPE` branch from `LOC_DOCTYPE` on, with bytes after
the end of the buffer and fuel for the bytes up to the NUL: the bytes take no
part. -/
theorem doctype_loop_tail (B t : List Nat) (E : Nat) :
    ∀ n m s0, parse_bound E [] B s0 → E - s0 < n → E - s0 < m →
      doctype_loop (B ++ t) n s0 = doctype_loop B m s0 := by
  intro n
  induction n with
  | zero => intro m s0 _ h; exact absurd h (Nat.not_lt_zero _)
  | succ n ih =>
    intro m s0 hb hn hm
    cases m with
    | zero => exact absurd hm (Nat.not_lt_zero _)
    | succ m =>
      have hl := bound_length hb
      rw [doctype_loop, doctype_loop]
      dsimp only
      rw [scan_tail t (fun l => scanfor1 (fun c => decide (c = 39 ∨ c = 34 ∨ c = 91 ∨ c = 62)) l s0)
        (fun l0 => scanfor1_tail _ t l0 _) hb]
      obtain ⟨h1le, h1⟩ := bound_scanfor1 (fun c => c = 39 ∨ c = 34 ∨ c = 91 ∨ c = 62) hb
      generalize scanfor1 (fun c => decide (c = 39 ∨ c = 34 ∨ c = 91 ∨ c = 62))
        (B.drop s0) s0 = s at h1le h1 ⊢
      have hle1 := h1.1
      rw [peek_tail B t s (by omega)]
      by_cases c1 : peek B s = 0
      · rw [if_pos c1, if_pos c1]
      rw [if_neg c1, if_neg c1]
      have h1n := bound_next h1 c1
      by_cases c2 : peek B s = 39 ∨ peek B s = 34
      · rw [if_pos c2, if_pos c2]
        rw [scan_tail t (fun l => scanfor1 (fun c => decide (c = peek B s)) l (s + 1))
          (fun l0 => scanfor1_tail _ t l0 _) h1n]
        obtain ⟨h2le, h2⟩ := bound_scanfor1 (fun c => c = peek B s) h1n
        generalize scanfor1 (fun c => decide (c = peek B s)) (B.drop (s + 1)) (s + 1) = s1
          at h2le h2 ⊢
        have hle2 := h2.1
        rw [peek_tail B t s1 (by omega)]
        by_cases c3 : peek B s1 = 0
        · rw [if_pos c3, if_pos c3]
        rw [if_neg c3, if_neg c3]
        have h3 := bound_next h2 c3
        exact ih m (s1 + 1) h3 (by have := h3.1; omega) (by have := h3.1; omega)
      rw [if_neg c2, if_neg c2]
      have e4 : (if peek B s = 91 then bracket_loop ((B ++ t).drop (s + 1)) (s + 1) 1 else s) =
          (if peek B s = 91 then bracket_loop (B.drop (s + 1)) (s + 1) 1 else s) := by
        by_cases c4 : peek B s = 91
        · rw [if_pos c4, if_pos c4]
          exact scan_tail t (fun l => bracket_loop l (s + 1) 1)
            (fun l0 => bracket_loop_tail t l0 _ _) h1n
        · rw [if_neg c4, if_neg c4]
      rw [e4]
      have h4 : s ≤ (if peek B s = 91 then bracket_loop (B.drop (s + 1)) (s + 1) 1 else s) ∧
          parse_bound E [] B
            (if peek B s = 91 then bracket_loop (B.drop (s + 1)) (s + 1) 1 else s) := by
        by_cases c4 : peek B s = 91
        · rw [if_pos c4]
          have := bound_bracket_loop 1 h1n
          exact ⟨by omega, this.2⟩
        · rw [if_neg c4]; exact ⟨le_refl _, h1⟩
      generalize (if peek B s = 91 then bracket_loop (B.drop (s + 1)) (s + 1) 1 else s) = s2
        at h4 ⊢
      rw [scan_tail t (fun l => scanfor1 (fun c => decide (c = 62)) l s2)
        (fun l0 => scanfor1_tail _ t l0 _) h4.2]
      obtain ⟨h5le, h5⟩ := bound_scanfor1 (fun c => c = 62) h4.2
      generalize scanfor1 (fun c => decide (c = 62)) (B.drop s2) s2 = s3 at h5le h5 ⊢
      have hle5 := h5.1
      rw [peek_tail B t s3 (by omega)]

/-- The test of one byte on a buffer with bytes after its end. -/
theorem peek_iff_tail {E : Nat} {B : List Nat} (t : List Nat) (i a : Nat)
    (hb : parse_bound E [] B i) : peek (B ++ t) i = a ↔ peek B i = a := by
  have hl := bound_length hb
  have h1 := hb.1
  rw [peek_tail B t i (by omega)]

/-- The test of a byte other than the NUL and of what is tested after it, on a
buffer with bytes after its end. -/
theorem peek_and_tail {E : Nat} {B : List Nat} (t : List Nat) (i j a : Nat) (ha : a ≠ 0)
    (hj : j = i + 1) (hb : parse_bound E [] B i) {Q1 Q : Prop}
    (h : parse_bound E [] B j → (Q1 ↔ Q)) :
    (peek (B ++ t) i = a ∧ Q1) ↔ (peek B i = a ∧ Q) := by
  have hl := bound_length hb
  have h1 := hb.1
  rw [peek_tail B t i (by omega)]
  by_cases c : peek B i = a
  · have hb1 : parse_bound E [] B j := by
      rw [hj]
      exact bound_next hb (by rw [c]; exact ha)
    rw [h hb1]
  · exact ⟨fun x => absurd x.1 c, fun x => absurd x.1 c⟩

/-- The branch `<!...` with bytes after the end of the buffer: the bytes take
no part. -/
theorem parse_exclam_tail (o : parse_options) (st : parse_state) (t : List Nat) (E : Nat)
    (hb : parse_bound E [] st.buf st.s) :
    parse_exclam o (st.with_tail t) = tail_result t (parse_exclam o st) := by
  have hl := bound_length hb
  have hle := hb.1
  unfold parse_exclam
  simp only [with_tail_buf, with_tail_s]
  rw [peek_tail st.buf t st.s (by omega)]
  by_cases c1 : peek st.buf st.s = 45
  · rw [if_pos c1, if_pos c1]
    have hb1 := bound_next hb (by rw [c1]; decide)
    have hle1 := hb1.1
    rw [peek_tail st.buf t (st.s + 1) (by omega)]
    by_cases c2 : peek st.buf (st.s + 1) = 45
    · rw [if_pos c2, if_pos c2]
      exact parse_comment_tail o { st with s := st.s + 2 } t E
        (bound_next hb1 (by rw [c2]; decide))
    · rw [if_neg c2, if_neg c2]; rfl
  rw [if_neg c1, if_neg c1]
  by_cases c3 : peek st.buf st.s = 91
  · rw [if_pos c3, if_pos c3]
    have hb1 := bound_next hb (by rw [c3]; decide)
    have e := peek_and_tail t (st.s + 1) (st.s + 2) 67 (by decide) rfl hb1
      (fun h2 => peek_and_tail t (st.s + 2) (st.s + 3) 68 (by decide) rfl h2
        (fun h3 => peek_and_tail t (st.s + 3) (st.s + 4) 65 (by decide) rfl h3
          (fun h4 => peek_and_tail t (st.s + 4) (st.s + 5) 84 (by decide) rfl h4
            (fun h5 => peek_and_tail t (st.s + 5) (st.s + 6) 65 (by decide) rfl h5
              (fun h6 => peek_iff_tail t (st.s + 6) 91 h6)))))
    by_cases c4 : peek st.buf (st.s + 1) = 67 ∧ peek st.buf (st.s + 2) = 68 ∧
        peek st.buf (st.s + 3) = 65 ∧ peek st.buf (st.s + 4) = 84 ∧
        peek st.buf (st.s + 5) = 65 ∧ peek st.buf (st.s + 6) = 91
    · rw [if_pos c4, if_pos (e.mpr c4)]
      obtain ⟨e1, e2, e3, e4, e5, e6⟩ := c4
      refine parse_cdata_tag_tail o { st with s := st.s + 7 } t E (bound_run hb 7 ?_)
      intro j hj
      have : j = 0 ∨ j = 1 ∨ j = 2 ∨ j = 3 ∨ j = 4 ∨ j = 5 ∨ j = 6 := by omega
      rcases this with e | e | e | e | e | e | e <;> subst e
      · rw [Nat.add_zero, c3]; decide
      · rw [e1]; decide
      · rw [e2]; decide
      · rw [e3]; decide
      · rw [e4]; decide
      · rw [e5]; decide
      · rw [e6]; decide
    · rw [if_neg c4, if_neg (fun h => c4 (e.mp h))]; rfl
  rw [if_neg c3, if_neg c3]
  have e := peek_and_tail t st.s (st.s + 1) 68 (by decide) rfl hb
    (fun h1 => peek_and_tail t (st.s + 1) (st.s + 2) 79 (by decide) rfl h1
      (fun h2 => peek_and_tail t (st.s + 2) (st.s + 3) 67 (by decide) rfl h2
        (fun h3 => peek_and_tail t (st.s + 3) (st.s + 4) 84 (by decide) rfl h3
          (fun h4 => peek_and_tail t (st.s + 4) (st.s + 5) 89 (by decide) rfl h4
            (fun h5 => peek_and_tail t (st.s + 5) (st.s + 6) 80 (by decide) rfl h5
              (fun h6 => peek_iff_tail t (st.s + 6) 69 h6))))))
  rw [peek_tail st.buf t st.s (by omega)] at e
  by_cases c5 : peek st.buf st.s = 68 ∧ peek st.buf (st.s + 1) = 79 ∧
      peek st.buf (st.s + 2) = 67 ∧ peek st.buf (st.s + 3) = 84 ∧
      peek st.buf (st.s + 4) = 89 ∧ peek st.buf (st.s + 5) = 80 ∧ peek st.buf (st.s + 6) = 69
  · rw [if_pos c5, if_pos (e.mpr c5)]
    obtain ⟨e0, e1, e2, e3, e4, e5, e6⟩ := c5
    have h7 : parse_bound E [] st.buf (st.s + 7) := by
      refine bound_run hb 7 ?_
      intro j hj
      have : j = 0 ∨ j = 1 ∨ j = 2 ∨ j = 3 ∨ j = 4 ∨ j = 5 ∨ j = 6 := by omega
      rcases this with e | e | e | e | e | e | e <;> subst e
      · rw [Nat.add_zero, e0]; decide
      · rw [e1]; decide
      · rw [e2]; decide
      · rw [e3]; decide
      · rw [e4]; decide
      · rw [e5]; decide
      · rw [e6]; decide
    rw [scan_tail t (fun l => skipWhile ct_space l (st.s + 7))
      (fun l0 => skipWhile_tail ct_space (by decide) t l0 _) h7]
    obtain ⟨h8le, h8⟩ := bound_skipWhile ct_space (by decide) h7
    generalize skipWhile ct_space (st.buf.drop (st.s + 7)) (st.s + 7) = s1 at h8le h8 ⊢
    have hle8 := h8.1
    rw [peek_tail st.buf t s1 (by omega)]
    by_cases c6 : peek st.buf s1 = 0
    · rw [if_pos c6, if_pos c6]; rfl
    rw [if_neg c6, if_neg c6]
    rw [doctype_loop_tail st.buf t E ((st.buf ++ t).length + 1) (st.buf.length + 1) s1 h8
      (by rw [List.length_append]; omega) (by omega)]
    generalize doctype_loop st.buf (st.buf.length + 1) s1 = r
    rcases r with _ | _ | s2 <;> rfl
  · rw [if_neg c5, if_neg (fun h => c5 (e.mp h))]; rfl

/-- The attribute loop with bytes after the end of the buffer and fuel for the
bytes up to the NUL: the bytes take no part. -/
theorem parse_attributes_tail (o : parse_options) (t : List Nat) (E : Nat) :
    ∀ n m st, parse_bound E [] st.buf st.s → E - st.s < n → E - st.s < m →
      parse_attributes o n (st.with_tail t) = tail_result t (parse_attributes o m st) := by
  intro n
  induction n with
  | zero => intro m st _ h; exact absurd h (Nat.not_lt_zero _)
  | succ n ih =>
    intro m st hb hn hm
    cases m with
    | zero => exact absurd hm (Nat.not_lt_zero _)
    | succ m =>
      have hl := bound_length hb
      have hle := hb.1
      rw [parse_attributes, parse_attributes]
      simp only [with_tail_buf, with_tail_s, with_tail_cursor, with_tail_nodes, with_tail_attrs]
      rw [peek_tail st.buf t st.s (by omega)]
      by_cases c0 : peek st.buf st.s = 0
      · rw [if_pos c0, if_pos c0]; rfl
      rw [if_neg c0, if_neg c0]
      rw [scan_tail t (fun l => skipWhile ct_space l st.s)
        (fun l0 => skipWhile_tail ct_space (by decide) t l0 _) hb]
      obtain ⟨h1le, h1⟩ := bound_skipWhile ct_space (by decide) hb
      generalize skipWhile ct_space (st.buf.drop st.s) st.s = s1 at h1le h1 ⊢
      have hle1 := h1.1
      rw [peek_tail st.buf t s1 (by omega)]
      by_cases c1 : peek st.buf s1 = 0
      · rw [if_pos c1, if_pos c1]; rfl
      rw [if_neg c1, if_neg c1]
      by_cases c2 : is_chartype (peek st.buf s1) ct_start_symbol = true
      · rw [if_pos c2, if_pos c2]
        rw [scan_tail t (fun l => skipWhile ct_symbol l s1)
          (fun l0 => skipWhile_tail ct_symbol (by decide) t l0 _) h1]
        obtain ⟨h2le, h2⟩ := bound_skipWhile ct_symbol (by decide) h1
        generalize skipWhile ct_symbol (st.buf.drop s1) s1 = s2 at h2le h2 ⊢
        have hle2 := h2.1
        rw [peek_tail st.buf t s2 (by omega)]
        by_cases c3 : peek st.buf s2 = 0
        · rw [if_pos c3, if_pos c3]; rfl
        rw [if_neg c3, if_neg c3]
        have h3 := bound_endseg h2 c3 0
        have hle3 := h3.1
        have hl1 : (poke st.buf s2 0).length = E + 1 := by rw [poke_length]; exact hl
        rw [poke_tail st.buf t s2 0 (by omega)]
        generalize poke st.buf s2 0 = buf1 at h3 hl1 ⊢
        rw [peek_tail buf1 t (s2 + 1) (by omega)]
        by_cases c4 : peek buf1 (s2 + 1) = 0
        · rw [if_pos c4, if_pos c4]; rfl
        rw [if_neg c4, if_neg c4]
        rw [scan_tail t (fun l => skipWhile ct_space l (s2 + 1))
          (fun l0 => skipWhile_tail ct_space (by decide) t l0 _) h3]
        have h4 : s2 + 1 ≤ (if is_chartype (peek st.buf s2) ct_space = true then
              skipWhile ct_space (buf1.drop (s2 + 1)) (s2 + 1) else s2 + 1) ∧
            parse_bound E [] buf1 (if is_chartype (peek st.buf s2) ct_space = true then
              skipWhile ct_space (buf1.drop (s2 + 1)) (s2 + 1) else s2 + 1) := by
          by_cases csp : is_chartype (peek st.buf s2) ct_space = true
          · rw [if_pos csp]; exact bound_skipWhile ct_space (by decide) h3
          · rw [if_neg csp]; exact ⟨le_refl _, h3⟩
        generalize (if is_chartype (peek st.buf s2) ct_space = true then
              skipWhile ct_space (buf1.drop (s2 + 1)) (s2 + 1) else s2 + 1) = s4 at h4 ⊢
        have hle4 := h4.2.1
        rw [peek_tail buf1 t s4 (by omega)]
        by_cases c5 : is_chartype (peek st.buf s2) ct_space = true ∧ peek buf1 s4 = 0
        · rw [if_pos c5, if_pos c5]; rfl
        rw [if_neg c5, if_neg c5]
        have h5 : s2 + 1 ≤ (if is_chartype (peek st.buf s2) ct_space = true then s4 + 1
              else s2 + 1) ∧
            parse_bound E [] buf1 (if is_chartype (peek st.buf s2) ct_space = true then s4 + 1
              else s2 + 1) := by
          by_cases csp : is_chartype (peek st.buf s2) ct_space = true
          · rw [if_pos csp]
            exact ⟨by omega, bound_next h4.2 (fun e => c5 ⟨csp, e⟩)⟩
          · rw [if_neg csp]; exact ⟨le_refl _, h3⟩
        generalize (if is_chartype (peek st.buf s2) ct_space = true then s4 + 1
              else s2 + 1) = s5 at h5 ⊢
        generalize (if is_chartype (peek st.buf s2) ct_space = true then peek buf1 s4
              else peek st.buf s2) = ch1
        by_cases c6 : ch1 = 61
        swap
        · rw [if_neg c6, if_neg c6]; rfl
        rw [if_pos c6, if_pos c6]
        rw [scan_tail t (fun l => skipWhile ct_space l s5)
          (fun l0 => skipWhile_tail ct_space (by decide) t l0 _) h5.2]
        obtain ⟨h6le, h6⟩ := bound_skipWhile ct_space (by decide) h5.2
        generalize skipWhile ct_space (buf1.drop s5) s5 = s6 at h6le h6 ⊢
        have hle6 := h6.1
        rw [peek_tail buf1 t s6 (by omega)]
        by_cases c7 : peek buf1 s6 = 0
        · rw [if_pos c7, if_pos c7]; rfl
        rw [if_neg c7, if_neg c7]
        by_cases c8 : peek buf1 s6 = 39 ∨ peek buf1 s6 = 34
        swap
        · rw [if_neg c8, if_neg c8]; rfl
        rw [if_pos c8, if_pos c8]
        have h7 := bound_next h6 c7
        rw [strconv_attribute_tail o.parse_escapes o.parse_wnorm_attribute
          o.parse_wconv_attribute o.parse_eol (peek buf1 s6) t h7]
        obtain ⟨x, hx, hall⟩ := bound_attribute o.parse_escapes o.parse_wnorm_attribute
          o.parse_wconv_attribute o.parse_eol (peek buf1 s6) c7 h7
          (by rcases c8 with e | e <;> rw [e] <;> decide)
        rw [hx]
        rcases x with ⟨_ | p, b⟩
        · rfl
        · obtain ⟨hlt, hbd⟩ := hall p b rfl
          have hlb := bound_length hbd
          have hleb := hbd.1
          have h5le := h5.1
          show (if is_chartype (peek (b ++ t) p) ct_start_symbol = true then some none
              else parse_attributes o n
                (({ set_attr_value (set_attr_name
                  { st with nodes := (append_attribute st.nodes st.attrs st.cursor).1,
                            attrs := (append_attribute st.nodes st.attrs st.cursor).2.1 }
                  (append_attribute st.nodes st.attrs st.cursor).2.2 (some s1))
                  (append_attribute st.nodes st.attrs st.cursor).2.2 (some (s6 + 1)) with
                  buf := b, s := p } : parse_state).with_tail t)) =
            tail_result t (if is_chartype (peek b p) ct_start_symbol = true then some none
              else parse_attributes o m
                { set_attr_value (set_attr_name
                  { st with nodes := (append_attribute st.nodes st.attrs st.cursor).1,
                            attrs := (append_attribute st.nodes st.attrs st.cursor).2.1 }
                  (append_attribute st.nodes st.attrs st.cursor).2.2 (some s1))
                  (append_attribute st.nodes st.attrs st.cursor).2.2 (some (s6 + 1)) with
                  buf := b, s := p })
          rw [peek_tail b t p (by omega)]
          by_cases c9 : is_chartype (peek b p) ct_start_symbol = true
          · rw [if_pos c9, if_pos c9]; rfl
          rw [if_neg c9, if_neg c9]
          exact ih m _ hbd (by show E - p < n; omega) (by show E - p < m; omega)
      rw [if_neg c2, if_neg c2]
      by_cases c10 : peek st.buf s1 = 47
      · rw [if_pos c10, if_pos c10]
        have h1n := bound_next h1 c1
        have := h1n.1
        rw [peek_tail st.buf t (s1 + 1) (by omega)]
        by_cases c11 : peek st.buf (s1 + 1) ≠ 62
        · rw [if_pos c11, if_pos c11]; rfl
        rw [if_neg c11, if_neg c11]
        exact popnode_tail { st with s := s1 + 2 } t
      rw [if_neg c10, if_neg c10]
      by_cases c12 : peek st.buf s1 = 62
      · rw [if_pos c12, if_pos c12]; rfl
      · rw [if_neg c12, if_neg c12]; rfl

/-- The branch of a start tag with bytes after the end of the buffer: the
bytes take no part. -/
theorem parse_element_tail (o : parse_options) (st : parse_state) (t : List Nat) (E : Nat)
    (hb : parse_bound E [] st.buf st.s) :
    parse_element o (st.with_tail t) = tail_result t (parse_element o st) := by
  have hl := bound_length hb
  have hle := hb.1
  unfold parse_element
  dsimp only
  have hst : set_cursor_name (PUSHNODE (st.with_tail t) node_element) (some (st.with_tail t).s) =
      (set_cursor_name (PUSHNODE st node_element) (some st.s)).with_tail t := rfl
  rw [hst]
  simp only [with_tail_buf, with_tail_s]
  rw [scan_tail t (fun l => skipWhile ct_symbol l st.s)
    (fun l0 => skipWhile_tail ct_symbol (by decide) t l0 _) hb]
  obtain ⟨h1le, h1⟩ := bound_skipWhile ct_symbol (by decide) hb
  generalize skipWhile ct_symbol (st.buf.drop st.s) st.s = s1 at h1le h1 ⊢
  have hle1 := h1.1
  rw [peek_tail st.buf t s1 (by omega)]
  by_cases c1 : peek st.buf s1 = 0
  · rw [if_pos c1, if_pos c1]; rfl
  rw [if_neg c1, if_neg c1]
  have h2 := bound_endseg h1 c1 0
  have hle2 := h2.1
  rw [poke_tail st.buf t s1 0 (by omega),
    peek_tail (poke st.buf s1 0) t (s1 + 1) (by rw [poke_length]; omega)]
  by_cases c2 : peek (poke st.buf s1 0) (s1 + 1) = 0
  · rw [if_pos c2, if_pos c2]; rfl
  rw [if_neg c2, if_neg c2]
  by_cases c3 : peek st.buf s1 = 47
  · rw [if_pos c3, if_pos c3]
    by_cases c4 : peek (poke st.buf s1 0) (s1 + 1) ≠ 62
    · rw [if_pos c4, if_pos c4]; rfl
    rw [if_neg c4, if_neg c4]
    exact popnode_tail { set_cursor_name (PUSHNODE st node_element) (some st.s) with
      buf := poke st.buf s1 0, s := s1 + 1 + 1 } t
  rw [if_neg c3, if_neg c3]
  by_cases c5 : peek st.buf s1 = 62
  · rw [if_pos c5, if_pos c5]; rfl
  rw [if_neg c5, if_neg c5]
  by_cases c6 : is_chartype (peek st.buf s1) ct_space = true
  · rw [if_pos c6, if_pos c6]
    exact parse_attributes_tail o t E _ _
      { set_cursor_name (PUSHNODE st node_element) (some st.s) with
        buf := poke st.buf s1 0, s := s1 + 1 } h2
      (by show E - (s1 + 1) < (poke st.buf s1 0 ++ t).length + 1
          rw [List.length_append, poke_length]; omega)
      (by show E - (s1 + 1) < (poke st.buf s1 0).length + 1
          rw [poke_length]; omega)
  · rw [if_neg c6, if_neg c6]; rfl

/-- The loop that compares the name of a closing tag, with bytes after the end
of the buffer: the bytes take no part, and the pointer into the name stays
before the NUL or at it. -/
theorem close_loop_tail {E : Nat} {B : List Nat} (t : List Nat) (hl : B.length = E + 1)
    (h0 : peek B E = 0) :
    ∀ (l0 : List Nat) (s name : Nat), name ≤ E →
      close_loop (B ++ t) (l0 ++ 0 :: t) s name = close_loop B (l0 ++ [0]) s name ∧
      ∀ s1 name1, close_loop B (l0 ++ [0]) s name = some (s1, name1) → name1 ≤ E := by
  intro l0
  induction l0 with
  | nil =>
    intro s name hn
    refine ⟨rfl, fun s1 name1 h => ?_⟩
    have e : some (s, name) = some (s1, name1) := h
    rw [← (Prod.mk.inj (Option.some.inj e)).2]
    exact hn
  | cons c l ih =>
    intro s name hn
    rw [List.cons_append, List.cons_append, close_loop, close_loop,
      peek_tail B t name (by omega)]
    by_cases hc : c ≠ 0 ∧ is_chartype c ct_symbol = true
    · rw [if_pos hc, if_pos hc]
      by_cases hp : c ≠ peek B name
      · rw [if_pos hp, if_pos hp]
        exact ⟨rfl, fun s1 name1 h => absurd h (by simp)⟩
      · rw [if_neg hp, if_neg hp]
        refine ih (s + 1) (name + 1) ?_
        have hne : name ≠ E := by
          intro e
          rw [e, h0] at hp
          exact hc.1 (not_not.mp hp)
        omega
    · rw [if_neg hc, if_neg hc]
      refine ⟨rfl, fun s1 name1 h => ?_⟩
      have e : some (s, name) = some (s1, name1) := h
      rw [← (Prod.mk.inj (Option.some.inj e)).2]
      exact hn

theorem popnode_with_tail (st : parse_state) (t : List Nat) :
    POPNODE (st.with_tail t) = (POPNODE st).map (fun x => x.with_tail t) := by
  unfold POPNODE
  show (match (node_at st.nodes st.cursor).parent with
      | some p => some { st.with_tail t with cursor := p }
      | none => none) = _
  cases (node_at st.nodes st.cursor).parent <;> rfl

/-- The branch of a closing tag with bytes after the end of the buffer: the
bytes take no part. -/
theorem parse_close_tail (st : parse_state) (t : List Nat) (E : Nat)
    (hb : parse_bound E [] st.buf st.s) (ht : tree_linked E st.nodes st.cursor) :
    parse_close (st.with_tail t) = tail_result t (parse_close st) := by
  have hl := bound_length hb
  have hle := hb.1
  unfold parse_close
  rw [popnode_with_tail]
  simp only [with_tail_buf, with_tail_s, with_tail_cursor, with_tail_nodes]
  have hname := ht.2.2 st.cursor
  generalize (node_at st.nodes st.cursor).name = nm at hname
  rcases nm with _ | name
  · rfl
  dsimp only
  obtain ⟨l0, _, e1, e2⟩ := bound_split t hb
  obtain ⟨ecl, hn1⟩ := close_loop_tail t hl (bound_peek hb) l0 st.s name (hname name rfl)
  rw [e1, e2, ecl]
  have hbc : ∀ s1 name1, close_loop st.buf (l0 ++ [0]) st.s name = some (s1, name1) →
      st.s ≤ s1 ∧ parse_bound E [] st.buf s1 := by
    intro s1 name1 h
    rw [← e1] at h
    exact bound_close_loop name s1 name1 hb h
  generalize close_loop st.buf (l0 ++ [0]) st.s name = cl at hn1 hbc
  rcases cl with _ | ⟨s1, name1⟩
  · rfl
  dsimp only
  have hn := hn1 s1 name1 rfl
  obtain ⟨h1le, h1⟩ := hbc s1 name1 rfl
  have hle1 := h1.1
  rw [peek_tail st.buf t name1 (by omega)]
  by_cases c1 : peek st.buf name1 ≠ 0
  · rw [if_pos c1, if_pos c1]; rfl
  rw [if_neg c1, if_neg c1]
  generalize POPNODE st = pp
  rcases pp with _ | st1
  · rfl
  show (if peek (st.buf ++ t) (skipWhile ct_space ((st.buf ++ t).drop s1) s1) = 0 then some none
      else if peek (st.buf ++ t) (skipWhile ct_space ((st.buf ++ t).drop s1) s1) ≠ 62 then
        some none
      else some (some { st1.with_tail t with
        s := skipWhile ct_space ((st.buf ++ t).drop s1) s1 + 1 })) =
    tail_result t (if peek st.buf (skipWhile ct_space (st.buf.drop s1) s1) = 0 then some none
      else if peek st.buf (skipWhile ct_space (st.buf.drop s1) s1) ≠ 62 then some none
      else some (some { st1 with s := skipWhile ct_space (st.buf.drop s1) s1 + 1 }))
  rw [scan_tail t (fun l => skipWhile ct_space l s1)
    (fun l0 => skipWhile_tail ct_space (by decide) t l0 _) h1]
  obtain ⟨h2le, h2⟩ := bound_skipWhile ct_space (by decide) h1
  generalize skipWhile ct_space (st.buf.drop s1) s1 = s2 at h2le h2 ⊢
  have hle2 := h2.1
  rw [peek_tail st.buf t s2 (by omega)]
  by_cases c2 : peek st.buf s2 = 0
  · rw [if_pos c2, if_pos c2]; rfl
  rw [if_neg c2, if_neg c2]
  by_cases c3 : peek st.buf s2 ≠ 62
  · rw [if_pos c3, if_pos c3]; rfl
  rw [if_neg c3, if_neg c3]
  rfl

/-- The code from `LOC_TAG` on with bytes after the end of the buffer: the
bytes take no part. -/
theorem parse_tag_tail (o : parse_options) (st : parse_state) (t : List Nat) (E : Nat)
    (hb : parse_bound E [] st.buf st.s) (ht : tree_linked E st.nodes st.cursor) :
    parse_tag o (st.with_tail t) = tail_result t (parse_tag o st) := by
  have hl := bound_length hb
  have hle := hb.1
  unfold parse_tag
  simp only [with_tail_buf, with_tail_s]
  rw [peek_tail st.buf t st.s (by omega)]
  by_cases c1 : peek st.buf st.s = 63
  · rw [if_pos c1, if_pos c1]
    exact parse_pi_tag_tail o { st with s := st.s + 1 } t E (bound_next hb (by rw [c1]; decide))
  rw [if_neg c1, if_neg c1]
  by_cases c2 : peek st.buf st.s = 33
  · rw [if_pos c2, if_pos c2]
    exact parse_exclam_tail o { st with s := st.s + 1 } t E (bound_next hb (by rw [c2]; decide))
  rw [if_neg c2, if_neg c2]
  by_cases c3 : is_chartype (peek st.buf st.s) ct_start_symbol = true
  · rw [if_pos c3, if_pos c3]
    exact parse_element_tail o st t E hb
  rw [if_neg c3, if_neg c3]
  by_cases c4 : peek st.buf st.s = 47
  · rw [if_pos c4, if_pos c4]
    exact parse_close_tail { st with s := st.s + 1 } t E (bound_next hb (by rw [c4]; decide)) ht
  · rw [if_neg c4, if_neg c4]; rfl

/-- The main loop with bytes after the end of the buffer and fuel for the bytes
up to the NUL: the bytes take no part. -/
theorem parse_loop_tail (o : parse_options) (t : List Nat) (E : Nat) :
    ∀ n m st, parse_bound E [] st.buf st.s → tree_linked E st.nodes st.cursor →
      E - st.s < n → E - st.s < m →
      parse_loop o n (st.with_tail t) = tail_result t (parse_loop o m st) := by
  intro n
  induction n with
  | zero => intro m st _ _ h; exact absurd h (Nat.not_lt_zero _)
  | succ n ih =>
    intro m st hb ht hn hm
    cases m with
    | zero => exact absurd hm (Nat.not_lt_zero _)
    | succ m =>
      have hl := bound_length hb
      have hle := hb.1
      have after_tag : ∀ (st0 : parse_state), st.s < st0.s ∨ peek st0.buf st0.s = 60 →
          parse_bound E [] st0.buf st0.s → tree_linked E st0.nodes st0.cursor →
          (match parse_tag o (st0.with_tail t) with
            | some (some st1) => parse_loop o n st1
            | some none => some none
            | none => none) =
          tail_result t
            (match parse_tag o st0 with
              | some (some st1) => parse_loop o m st1
              | some none => some none
              | none => none) := by
        intro st0 hlt hb0 ht0
        rw [parse_tag_tail o st0 t E hb0 ht0]
        rcases hlt with hlt | hlt
        · obtain ⟨x, hx, hall⟩ := parse_tag_safe o st0 E [] hb0 ht0
          rw [hx]
          rcases x with _ | st1
          · rfl
          · obtain ⟨h1, h2, h3⟩ := hall st1 rfl
            exact ih m st1 h2 h3 (by have := h2.1; omega) (by have := h2.1; omega)
        · rw [parse_tag_at_lt o st0 hlt]
          rfl
      rw [parse_loop, parse_loop]
      simp only [with_tail_buf, with_tail_s, with_tail_cursor, with_tail_nodes]
      rw [peek_tail st.buf t st.s (by omega)]
      by_cases c0 : peek st.buf st.s = 0
      · rw [if_pos c0, if_pos c0]; rfl
      rw [if_neg c0, if_neg c0]
      by_cases c1 : peek st.buf st.s = 60
      · rw [if_pos c1, if_pos c1]
        exact after_tag { st with s := st.s + 1 } (Or.inl (Nat.lt_succ_self _))
          (bound_next hb c0) ht
      rw [if_neg c1, if_neg c1]
      rw [scan_tail t (fun l => skipWhile ct_space l st.s)
        (fun l0 => skipWhile_tail ct_space (by decide) t l0 _) hb]
      obtain ⟨h1le, h1⟩ := bound_skipWhile ct_space (by decide) hb
      have hle1 := h1.1
      rw [peek_tail st.buf t (skipWhile ct_space (st.buf.drop st.s) st.s) (by omega)]
      by_cases c2 : (st.s = skipWhile ct_space (st.buf.drop st.s) st.s ∨
            o.parse_ws_pcdata = false) ∧
          (peek st.buf (skipWhile ct_space (st.buf.drop st.s) st.s) = 0 ∨
            peek st.buf (skipWhile ct_space (st.buf.drop st.s) st.s) = 60)
      · rw [if_pos c2, if_pos c2]
        have hne : st.s ≠ skipWhile ct_space (st.buf.drop st.s) st.s := by
          intro e
          rw [← e] at c2
          rcases c2.2 with e0 | e0
          · exact c0 e0
          · exact c1 e0
        exact ih m { st with s := skipWhile ct_space (st.buf.drop st.s) st.s } h1 ht
          (by show E - skipWhile ct_space (st.buf.drop st.s) st.s < n; omega)
          (by show E - skipWhile ct_space (st.buf.drop st.s) st.s < m; omega)
      rw [if_neg c2, if_neg c2]
      by_cases c3 : o.parse_ext_pcdata = true ∨ (node_at st.nodes st.cursor).type ≠ node_document
      · rw [if_pos c3, if_pos c3]
        have htr := tree_linked_value _ (some st.s) (tree_linked_pushnode st node_pcdata ht)
        obtain ⟨x, hx, hall⟩ := bound_decoder 0 hb
          (decoder_at (strconv_pcdata o.parse_escapes o.parse_eol)
            (strconv_pcdata_run o.parse_escapes o.parse_eol) st.buf st.s (bound_length_le hb))
          (le_refl 1) (fun l hl k hk => by
            have hk0 : k = 0 := by omega
            rw [hk0, ← rd_eq_peek, hl]
            decide)
        have hx1 : strconv_pcdata o.parse_escapes o.parse_eol
            (set_cursor_value (PUSHNODE (st.with_tail t) node_pcdata) (some st.s)).buf st.s =
            tail_decoded t (some x) := by
          rw [← hx]
          exact strconv_pcdata_tail o.parse_escapes o.parse_eol t hb
        have hx2 : strconv_pcdata o.parse_escapes o.parse_eol
            (set_cursor_value (PUSHNODE st node_pcdata) (some st.s)).buf st.s = some x := hx
        rw [hx1, hx2]
        rcases x with ⟨_ | p, b⟩
        · rfl
        · obtain ⟨hlt, hbd⟩ := hall p b rfl
          obtain ⟨q, hq, hql⟩ := tree_linked_parent _ _ htr
          show (match POPNODE
              (({ set_cursor_value (PUSHNODE st node_pcdata) (some st.s) with
                buf := b, s := p } : parse_state).with_tail t) with
            | none => none
            | some st2 =>
              match parse_tag o st2 with
              | some (some st3) => parse_loop o n st3
              | some none => some none
              | none => none) =
            tail_result t
              (match POPNODE { set_cursor_value (PUSHNODE st node_pcdata) (some st.s) with
                buf := b, s := p } with
              | none => none
              | some st2 =>
                match parse_tag o st2 with
                | some (some st3) => parse_loop o m st3
                | some none => some none
                | none => none)
          rw [popnode_with_tail,
            POPNODE_eq { set_cursor_value (PUSHNODE st node_pcdata) (some st.s) with
              buf := b, s := p } q hq]
          exact after_tag { set_cursor_value (PUSHNODE st node_pcdata) (some st.s) with
            buf := b, s := p, cursor := q } (Or.inl hlt) hbd hql
      rw [if_neg c3, if_neg c3]
      rw [scan_tail t (fun l => scanfor1 (fun c => decide (c = 60)) l st.s)
        (fun l0 => scanfor1_tail _ t l0 _) hb]
      obtain ⟨h2le, h2⟩ := bound_scanfor1 (fun c => c = 60) hb
      have h2hit := bound_scanfor1_hit (fun c => c = 60) st.buf st.s
      generalize scanfor1 (fun c => decide (c = 60)) (st.buf.drop st.s) st.s = s2
        at h2le h2 h2hit ⊢
      have hle2 := h2.1
      rw [peek_tail st.buf t s2 (by omega)]
      by_cases c4 : peek st.buf s2 = 0
      · rw [if_pos c4, if_pos c4]; rfl
      rw [if_neg c4, if_neg c4]
      exact after_tag { st with s := s2 } (Or.inr (by simpa using h2hit c4)) h2 ht

/-- `parse` with bytes after the end of the buffer: the bytes take no part. -/
theorem parse_tail (o : parse_options) (st : parse_state) (s0 doc E : Nat) (t : List Nat)
    (hs : s0 ≤ E) (hb : st.buf.drop E = [0]) (ht : tree_linked E st.nodes doc) :
    parse o (st.with_tail t) (some s0) (some doc) =
      tail_result t (parse o st (some s0) (some doc)) := by
  unfold parse
  dsimp only
  have hbd : parse_bound E [] st.buf s0 := ⟨hs, hb⟩
  have hl := bound_length hbd
  have e := parse_loop_tail o t E ((st.buf ++ t).length + 1) (st.buf.length + 1)
    { st with s := s0, cursor := doc } hbd ht
    (by show E - s0 < (st.buf ++ t).length + 1; rw [List.length_append]; omega)
    (by show E - s0 < st.buf.length + 1; omega)
  have e2 : parse_loop o ((st.with_tail t).buf.length + 1)
      { st.with_tail t with s := s0, cursor := doc } =
      tail_result t (parse_loop o (st.buf.length + 1) { st with s := s0, cursor := doc }) := e
  rw [e2]
  generalize parse_loop o (st.buf.length + 1) { st with s := s0, cursor := doc } = r
  rcases r with _ | _ | st1
  · rfl
  · rfl
  · show (if (st1.with_tail t).cursor ≠ doc then some none
        else some (some (st1.with_tail t))) =
      tail_result t (if st1.cursor ≠ doc then some none else some (some st1))
    rw [with_tail_cursor]
    by_cases c : st1.cursor ≠ doc
    · rw [if_pos c, if_pos c]; rfl
    · rw [if_neg c, if_neg c]; rfl

/-- A buffer with a NUL at the index `E` is the bytes up to the NUL and the NUL,
followed by the bytes after it. -/
theorem take_drop_nul {E : Nat} {buf junk : List Nat} (hb : buf.drop E = 0 :: junk) :
    buf = buf.take (E + 1) ++ junk ∧ (buf.take (E + 1)).drop E = [0] := by
  have hlen : E < buf.length := by
    have := congrArg List.length hb
    rw [List.length_drop, List.length_cons] at this
    omega
  have e1 : buf.drop (E + 1) = junk := by
    have := congrArg (List.drop 1) hb
    rw [List.drop_drop] at this
    exact this
  constructor
  · conv_lhs => rw [← List.take_append_drop (E + 1) buf, e1]
  · have e2 := List.take_append_drop (E + 1) buf
    rw [e1] at e2
    have e3 : (buf.take (E + 1) ++ junk).drop E = 0 :: junk := by rw [e2]; exact hb
    have hl : (buf.take (E + 1)).length = E + 1 := by
      rw [List.length_take]; omega
    rw [List.drop_append_of_le_length (by omega)] at e3
    have hl2 : ((buf.take (E + 1)).drop E).length = 1 := by
      rw [List.length_drop, hl]; omega
    generalize (buf.take (E + 1)).drop E = d at e3 hl2
    rcases d with _ | ⟨x, _ | ⟨y, d⟩⟩
    · exact absurd hl2 (by decide)
    · rw [List.singleton_append] at e3
      rw [(List.cons.inj e3).1]
    · exact absurd hl2 (by simp)

/-- `xml_document::parse` with bytes after the NUL that ends the string: the
bytes take no part. -/
theorem xml_document_parse_tail (o : parse_options) (B t : List Nat) (E : Nat)
    (hb : B.drop E = [0]) :
    xml_document_parse o (B ++ t) = tail_result t (xml_document_parse o B) :=
  parse_tail o
    { buf := B, s := 0, cursor := 0,
      nodes := [{ xml_node_struct.new node_document with parent := some 0 }],
      attrs := [] } 0 0 E t (Nat.zero_le _) hb (tree_linked_document E)

/-- C39: the table of byte classes makes every scan stop at the end of the
input, and the parser returns without reading past the NUL, also when it
returns `false`.  The NUL is of every class that ends a scan
(`ct_parse_pcdata`, `ct_parse_attr`, `ct_parse_attr_ws`, `ct_parse_cdata`,
`ct_parse_comment`) and is neither of `ct_space` nor of `ct_symbol`; every byte
of `ct_start_symbol` is of `ct_symbol`; the pointer that `strconv_escape`
returns is after bytes of which none is the NUL.  On a buffer with a NUL at the
index `E` at or after the start `s0`, and a linked tree whose names start at or
before `E`: the code from `LOC_TAG` on returns, the main loop returns on the
fuel of one unit for each byte to the NUL, and `parse` and
`xml_document::parse` return; where they return `true` the scan pointer has
not moved back and is not past the NUL, and the NUL and the bytes after it are
as they were.  Whatever they return, `false` included, no byte after the NUL
takes part: the buffer is its bytes up to the NUL followed by the bytes after
it, and with any other bytes `t` in the place of those, `strconv_escape`, the
four decoders, the code from `LOC_TAG` on, the main loop, `parse` and
`xml_document::parse` give the result that they give on the buffer that ends
at the NUL, which is `false` where that is `false`, a null pointer from a
decoder where that is one, and else the same pointer, tree and bytes up to the
NUL, with `t` after them untouched. -/
theorem parse_stops_at_nul (o : parse_options) (st : parse_state) (s0 doc E : Nat)
    (junk : List Nat) (hs : s0 ≤ E) (hb : st.buf.drop E = 0 :: junk)
    (ht : tree_linked E st.nodes doc) :
    (is_chartype 0 ct_parse_pcdata = true ∧ is_chartype 0 ct_parse_attr = true ∧
      is_chartype 0 ct_parse_attr_ws = true ∧ is_chartype 0 ct_parse_cdata = true ∧
      is_chartype 0 ct_parse_comment = true ∧ is_chartype 0 ct_space = false ∧
      is_chartype 0 ct_symbol = false) ∧
    (∀ c, is_chartype c ct_start_symbol = true → is_chartype c ct_symbol = true) ∧
    (∀ (pre out r buf : List Nat) (s : Nat) (g : gap), GapInv pre out (38 :: r) buf s g →
      ∃ k, (strconv_escape buf s g).2.1 = s + 1 + k ∧ k ≤ r.length ∧ ∀ x ∈ r.take k, x ≠ 0) ∧
    (∀ st1 : parse_state, parse_bound E junk st1.buf st1.s →
      tree_linked E st1.nodes st1.cursor → parse_safe E junk st1.s (parse_tag o st1)) ∧
    (∀ (n : Nat) (st1 : parse_state), parse_bound E junk st1.buf st1.s →
      tree_linked E st1.nodes st1.cursor → E - st1.s < n →
      parse_safe E junk st1.s (parse_loop o n st1)) ∧
    (∃ r, parse o st (some s0) (some doc) = some r ∧
      ∀ st1, r = some st1 → s0 ≤ st1.s ∧ st1.s ≤ E ∧ st1.buf.drop E = 0 :: junk) ∧
    (∃ r, xml_document_parse o st.buf = some r ∧
      ∀ st1, r = some st1 → st1.s ≤ E ∧ st1.buf.drop E = 0 :: junk) ∧
    st.buf = st.buf.take (E + 1) ++ junk ∧
    (∀ (B t : List Nat) (s : Nat) (g : gap), s ≤ E → B.drop E = [0] → peek B s = 38 →
      (∀ e, g.end_ = some e → e ≤ s) →
      strconv_escape (B ++ t) s g =
        ((strconv_escape B s g).1 ++ t, (strconv_escape B s g).2.1, (strconv_escape B s g).2.2) ∧
      (strconv_escape B s g).2.1 ≤ E ∧ (strconv_escape B s g).1.drop E = [0]) ∧
    (∀ (B t : List Nat) (s : Nat), s ≤ E → B.drop E = [0] →
      strconv_pcdata o.parse_escapes o.parse_eol (B ++ t) s =
        (strconv_pcdata o.parse_escapes o.parse_eol B s).map (fun x => (x.1, x.2 ++ t)) ∧
      strconv_comment (B ++ t) s = (strconv_comment B s).map (fun x => (x.1, x.2 ++ t)) ∧
      strconv_cdata (B ++ t) s = (strconv_cdata B s).map (fun x => (x.1, x.2 ++ t)) ∧
      ∀ q, strconv_attribute o.parse_escapes o.parse_wnorm_attribute o.parse_wconv_attribute
          o.parse_eol (B ++ t) s q =
        (strconv_attribute o.parse_escapes o.parse_wnorm_attribute o.parse_wconv_attribute
          o.parse_eol B s q).map (fun x => (x.1, x.2 ++ t))) ∧
    (∀ (st1 : parse_state) (t : List Nat), st1.s ≤ E → st1.buf.drop E = [0] →
      tree_linked E st1.nodes st1.cursor →
      parse_tag o { st1 with buf := st1.buf ++ t } =
        (parse_tag o st1).map (fun x => x.map (fun st2 => { st2 with buf := st2.buf ++ t }))) ∧
    (∀ (n m : Nat) (st1 : parse_state) (t : List Nat), st1.s ≤ E → st1.buf.drop E = [0] →
      tree_linked E st1.nodes st1.cursor → E - st1.s < n → E - st1.s < m →
      parse_loop o n { st1 with buf := st1.buf ++ t } =
        (parse_loop o m st1).map (fun x => x.map (fun st2 => { st2 with buf := st2.buf ++ t }))) ∧
    (∀ t : List Nat, parse o { st with buf := st.buf.take (E + 1) ++ t } (some s0) (some doc) =
      (parse o { st with buf := st.buf.take (E + 1) } (some s0) (some doc)).map
        (fun x => x.map (fun st2 => { st2 with buf := st2.buf ++ t }))) ∧
    (∀ t : List Nat, xml_document_parse o (st.buf.take (E + 1) ++ t) =
      (xml_document_parse o (st.buf.take (E + 1))).map
        (fun x => x.map (fun st2 => { st2 with buf := st2.buf ++ t }))) := by
  refine ⟨by decide, fun c h => (start_symbol_props h).2.1,
    fun pre out r buf s g h => strconv_escape_bound h,
    fun st1 h1 h2 => parse_tag_safe o st1 E junk h1 h2,
    fun n st1 h1 h2 h3 => parse_loop_safe o E junk n st1 h1 h2 h3, ?_, ?_,
    (take_drop_nul hb).1, ?_, ?_,
    fun st1 t h1 h2 h3 => parse_tag_tail o st1 t E ⟨h1, h2⟩ h3,
    fun n m st1 t h1 h2 h3 h4 h5 => parse_loop_tail o t E n m st1 ⟨h1, h2⟩ h3 h4 h5,
    fun t => parse_tail o { st with buf := st.buf.take (E + 1) } s0 doc E t hs
      (take_drop_nul hb).2 ht,
    fun t => xml_document_parse_tail o _ t E (take_drop_nul hb).2⟩
  · obtain ⟨x, hx, hall⟩ := parse_returns o st s0 doc E junk hs hb ht
    exact ⟨x, hx, fun st1 e => ⟨(hall st1 e).1, (hall st1 e).2.1.1, (hall st1 e).2.1.2⟩⟩
  · obtain ⟨x, hx, hall⟩ := parse_returns o
      { buf := st.buf, s := 0, cursor := 0,
        nodes := [{ xml_node_struct.new node_document with parent := some 0 }],
        attrs := [] } 0 0 E junk (Nat.zero_le _) hb (tree_linked_document E)
    exact ⟨x, hx, fun st1 e => ⟨(hall st1 e).2.1.1, (hall st1 e).2.1.2⟩⟩
  · intro B t s g h1 h2 h38 hg
    obtain ⟨e, _, hbd, _⟩ := strconv_escape_tail t (⟨h1, h2⟩ : parse_bound E [] B s) h38 hg
    exact ⟨e, hbd.1, hbd.2⟩
  · intro B t s h1 h2
    have hbd : parse_bound E [] B s := ⟨h1, h2⟩
    exact ⟨strconv_pcdata_tail _ _ t hbd, strconv_comment_tail t hbd, strconv_cdata_tail t hbd,
      fun q => strconv_attribute_tail _ _ _ _ q t hbd⟩

/-- The comment `<!--x` that is not ended before the NUL, with its end `-->`
after the NUL: `xml_document::parse` gives on it what it gives on the buffer
that ends at the NUL. -/
theorem parse_stops_at_nul_witness :
    (0 ≤ 5) ∧
    ([60, 33, 45, 45, 120, 0, 45, 45, 62].drop 5 = 0 :: [45, 45, 62]) ∧
    tree_linked 5 [{ xml_node_struct.new node_document with parent := some 0 }] 0 ∧
    xml_document_parse ⟨true, true, true, false, false, true, true, false, false⟩
        [60, 33, 45, 45, 120, 0, 45, 45, 62] =
      (xml_document_parse ⟨true, true, true, false, false, true, true, false, false⟩
        [60, 33, 45, 45, 120, 0]).map
        (fun x => x.map (fun st2 => { st2 with buf := st2.buf ++ [45, 45, 62] })) :=
  ⟨by decide, by decide, tree_linked_document 5,
    (parse_stops_at_nul ⟨true, true, true, false, false, true, true, false, false⟩
      { buf := [60, 33, 45, 45, 120, 0, 45, 45, 62], s := 0, cursor := 0,
        nodes := [{ xml_node_struct.new node_document with parent := some 0 }],
        attrs := [] } 0 0 5 [45, 45, 62] (by decide) (by decide)
      (tree_linked_document 5)).2.2.2.2.2.2.2.2.2.2.2.2.2 [45, 45, 62]⟩

/-- Inputs that end before a construct does, with the rest of the construct
after the NUL: the comment `<!--x`, the attribute value `<a b="1`, the
reference `<a>&am`, the section `<![CDATA[x`, the instruction `<?p`, the start
tag `<a`, the closing tag `<a></a` and the text `<a>t`.  The parser returns
`false` on each, as it does without the bytes after the NUL.  With the NUL
after the whole comment, and on the document `<a b="1">t</a>` with bytes after
its NUL, it returns `true` with the scan pointer at the NUL and the bytes after
the NUL as they were. -/
theorem parse_stops_at_nul_example :
    xml_document_parse ⟨true, true, true, false, false, true, true, false, false⟩
      [60, 33, 45, 45, 120, 0, 45, 45, 62] = some none ∧
    xml_document_parse ⟨true, true, true, false, false, true, true, false, false⟩
      [60, 33, 45, 45, 120, 0] = some none ∧
    xml_document_parse ⟨true, true, true, false, false, true, true, false, false⟩
      [60, 97, 32, 98, 61, 34, 49, 0, 34, 47, 62] = some none ∧
    xml_document_parse ⟨true, true, true, false, false, true, true, false, false⟩
      [60, 97, 62, 38, 97, 109, 0, 112, 59, 60, 47, 97, 62] = some none ∧
    xml_document_parse ⟨true, true, true, false, false, true, true, false, false⟩
      [60, 33, 91, 67, 68, 65, 84, 65, 91, 120, 0, 93, 93, 62] = some none ∧
    xml_document_parse ⟨true, true, true, false, false, true, true, false, false⟩
      [60, 63, 112, 0, 63, 62] = some none ∧
    xml_document_parse ⟨true, true, true, false, false, true, true, false, false⟩
      [60, 97, 0, 47, 62] = some none ∧
    xml_document_parse ⟨true, true, true, false, false, true, true, false, false⟩
      [60, 97, 62, 60, 47, 97, 0, 62] = some none ∧
    xml_document_parse ⟨true, true, true, false, false, true, true, false, false⟩
      [60, 97, 62, 116, 0, 60, 47, 97, 62] = some none ∧
    (xml_document_parse ⟨true, true, true, false, false, true, true, false, false⟩
      [60, 33, 45, 45, 120, 45, 45, 62, 0]).map
        (fun r => r.map (fun st1 => (st1.s, st1.buf))) =
      some (some (8, [60, 33, 45, 45, 120, 0, 45, 62, 0])) ∧
    (xml_document_parse ⟨true, true, true, false, false, true, true, false, false⟩
      [60, 97, 32, 98, 61, 34, 49, 34, 62, 116, 60, 47, 97, 62, 0, 120, 121]).map
        (fun r => r.map (fun st1 => (st1.s, st1.buf))) =
      some (some (14, [60, 97, 0, 98, 0, 34, 49, 0, 62, 116, 0, 47, 97, 62, 0, 120, 121])) := by
  refine ⟨?_, ?_, ?_, ?_, ?_, ?_, ?_, ?_, ?_, ?_, ?_⟩ <;> rfl

end Pugi
